import Mathlib

/-!
Amino lock-free containers: a shallow embedding

The C++ sources embedded here are `include/amino/smr.h` (hazard-pointer based
safe memory reclamation), `include/amino/stack.h`, `include/amino/queue.h`,
`include/amino/ordered_list.h` / `list.h` and `include/amino/deque.h`.

Conventions of the embedding

* A pointer is a natural number, `0` is `NULL`.
* Container nodes live in an explicit store (`Heap`): `new` takes an address
  out of it, `delete` gives the address back, and reading or writing an
  address that is not allocated is a fault (`none`).
* Every atomic load, store and compare-and-swap is one step on the explicit
  state; a `compare_swap` really compares the current value with the expected
  one.  Retry loops (`while (true)`, `goto try_again`) carry a fuel argument,
  one unit per iteration; running out of fuel is `none`.
* Out-parameters (`T& ret`) are passed in and returned.
* The element type `T` / `KeyType` is `Int`.
-/

namespace Amino

/-! ## The C++ free store -/

/-- Alignment of the blocks handed out by `operator new`. -/
def ALIGN : Nat := 8

/-- The free store for one node type.  `cells p` is the object stored at
address `p` (`none`: nothing is allocated there), `pool` the addresses given
back by `delete` (most recent first; they are reused before fresh memory is
taken), `brk` the number of fresh blocks handed out so far. -/
structure Heap (α : Type) where
  cells : Nat → Option α
  pool : List Nat
  brk : Nat

namespace Heap
variable {α : Type}

/-- The store in which nothing has been allocated yet. -/
def empty : Heap α := { cells := fun _ => none, pool := [], brk := 0 }

/-- Plain store of an object at an address. -/
def put (h : Heap α) (p : Nat) (v : Option α) : Heap α :=
  { h with cells := fun q => if q = p then v else h.cells q }

/-- The effect of `new T(v)`: the address of the new object and the new store. -/
def alloc (h : Heap α) (v : α) : Nat × Heap α :=
  match h.pool with
  | p :: rest => (p, { (h.put p (some v)) with pool := rest })
  | [] => (ALIGN * (h.brk + 1), { (h.put (ALIGN * (h.brk + 1)) (some v)) with brk := h.brk + 1 })

/-- The effect of `delete p` (and of `free(p)`); deleting `NULL` does nothing. -/
def free (h : Heap α) (p : Nat) : Heap α :=
  if p = 0 then h else { (h.put p none) with pool := p :: h.pool }

/-- Dereference `p` for reading; a fault when nothing is allocated at `p`. -/
def read (h : Heap α) (p : Nat) : Option α := h.cells p

/-- Update the object at `p` in place; a fault when nothing is allocated at `p`. -/
def modify (h : Heap α) (p : Nat) (f : α → α) : Option (Heap α) :=
  match h.cells p with
  | some v => some (h.put p (some (f v)))
  | none => none

end Heap

/-! ## smr.h -/

/-- `MAX_FREE_NODES` of smr.h. -/
def MAX_FREE_NODES : Nat := 32

/-- `MEM_NOALIGN` of smr.h. -/
def MEM_NOALIGN : Nat := 0

/-- `SMR::MINIMAL_RLIST_LEN`. -/
def MINIMAL_RLIST_LEN : Nat := 16

/-- `HPRecType<T, K>` (built with `FREELIST`, as util.h defines it).  The `next` link is the
position of the record in `SMR.hprecs`.  The singly linked lists of `SMR_Node`s
(`rlist`, `frListSMR`) are the lists of the `data` pointers of their nodes, first
node first; `frListData` is the array of `MAX_FREE_NODES + 1` pointers. -/
structure HPRecType where
  hp : List Nat
  active : Bool
  rlist : List Nat
  rcount : Nat
  nrThreads : Nat
  allocType : Nat
  frListSMR : List Nat
  frListData : List Nat
  fr_smr_count : Nat
  fr_data_count : Nat
deriving DecidableEq, Repr

namespace HPRecType

/-- `HPRecType::HPRecType(int atype)`: the body `init()` is a `memset(this, 0, ...)`
over the whole object, run after the member initialiser of `allocType`,
so every field (also `allocType`) is zero. -/
def init (K : Nat) (_atype : Nat) : HPRecType :=
  { hp := List.replicate K 0, active := false, rlist := [], rcount := 0, nrThreads := 0,
    allocType := 0, frListSMR := [], frListData := List.replicate (MAX_FREE_NODES + 1) 0,
    fr_smr_count := 0, fr_data_count := 0 }

/-- `HPRecType::allocDataNode`: the record, the store and the node returned
(`NULL` when an aligned allocator is configured and the free list is empty).
Reusing a node of the free list runs the placement `new (p) NodeType()`. -/
def allocDataNode {α : Type} [Inhabited α] (r : HPRecType) (h : Heap α) :
    Option (HPRecType × Heap α × Nat) :=
  if r.fr_data_count = 0 then
    if r.allocType = MEM_NOALIGN then
      some (r, (h.alloc default).2, (h.alloc default).1)
    else some (r, h, 0)
  else
    let r1 := { r with fr_data_count := r.fr_data_count - 1 }
    let p := r1.frListData.getD r1.fr_data_count 0
    if r.allocType = MEM_NOALIGN then
      match h.modify p (fun _ => default) with
      | some h1 => some (r1, h1, p)
      | none => none
    else some (r1, h, p)

/-- `HPRecType::allocSMRNode`: the record afterwards (the node returned is
overwritten by the caller).  With a positive count and an empty chain the
code dereferences `NULL`. -/
def allocSMRNode (r : HPRecType) : Option HPRecType :=
  if r.fr_smr_count = 0 then some r
  else
    match r.frListSMR with
    | [] => none
    | _ :: rest => some { r with fr_smr_count := r.fr_smr_count - 1, frListSMR := rest }

/-- `HPRecType::freeData`. -/
def freeData {α : Type} (r : HPRecType) (h : Heap α) (node : Nat) : HPRecType × Heap α :=
  if r.fr_data_count < MAX_FREE_NODES then
    ({ r with frListData := r.frListData.set r.fr_data_count node,
              fr_data_count := r.fr_data_count + 1 }, h)
  else (r, h.free node)

/-- `HPRecType::freeSMRNode`; `data` is the pointer still stored in the node. -/
def freeSMRNode (r : HPRecType) (data : Nat) : HPRecType :=
  if r.fr_smr_count < MAX_FREE_NODES then
    { r with fr_smr_count := r.fr_smr_count + 1, frListSMR := data :: r.frListSMR }
  else r

end HPRecType

/-- `SMR<T, K>` together with the free store of its node type.  `hprecs` is
the global list of hazard-pointer records from `head_hprec` on.  Records are
only ever inserted at the head and never removed, so the address of a record
is its position counted from the tail (the oldest record has address `1`);
`thread_local t` is the record address stored for thread `t` (`0`: none). -/
structure SMR (α : Type) where
  K : Nat
  heap : Heap α
  hprecs : List HPRecType
  hp_count : Nat
  RH : Nat
  allocType : Nat
  thread_local : Nat → Nat

namespace SMR
variable {α : Type}

/-- `SMR::SMR(int atype)`. -/
def init (K : Nat) (atype : Nat) : SMR α :=
  { K := K, heap := Heap.empty, hprecs := [], hp_count := 0, RH := MINIMAL_RLIST_LEN,
    allocType := atype, thread_local := fun _ => 0 }

/-- Dereference of a record pointer; a fault for `NULL` and for an address that is no record. -/
def getRec (s : SMR α) (a : Nat) : Option HPRecType :=
  if a = 0 ∨ s.hprecs.length < a then none else s.hprecs[s.hprecs.length - a]?

/-- Store through a record pointer. -/
def setRec (s : SMR α) (a : Nat) (r : HPRecType) : SMR α :=
  if a = 0 ∨ s.hprecs.length < a then s
  else { s with hprecs := s.hprecs.set (s.hprecs.length - a) r }

/-- The first loop of `SMR::allocHPRec`: walk the list and take the first
record whose `active` flag is `false`; the `compare_swap(b, true)` with
`b == false` then succeeds.  Returns the address of that record and the list
afterwards. -/
def reuseHPRec : List HPRecType → Option (Nat × List HPRecType)
  | [] => none
  | r :: rs =>
    if r.active = true then
      match reuseHPRec rs with
      | some (a, rs1) => some (a, r :: rs1)
      | none => none
    else some ((r :: rs).length, { r with active := true } :: rs)

/-- `SMR::allocHPRec` for thread `tid`. -/
def allocHPRec (s : SMR α) (tid : Nat) : SMR α × Nat :=
  match reuseHPRec s.hprecs with
  | some (a, rs) =>
    ({ s with hprecs := rs, thread_local := fun t => if t = tid then a else s.thread_local t }, a)
  | none =>
    let hp_count := s.hp_count + 1
    let RH := if hp_count ≥ MINIMAL_RLIST_LEN / 2 then hp_count * 2 else s.RH
    let hprec := { HPRecType.init s.K s.allocType with active := true, nrThreads := hp_count }
    let a := s.hprecs.length + 1
    ({ s with hp_count := hp_count, RH := RH, hprecs := hprec :: s.hprecs,
              thread_local := fun t => if t = tid then a else s.thread_local t }, a)

/-- `SMR::getHPRec` for thread `tid`. -/
def getHPRec (s : SMR α) (tid : Nat) : SMR α × Nat :=
  if s.thread_local tid = 0 then s.allocHPRec tid else (s, s.thread_local tid)

/-- `SMR::employ(my_hprec, index, pointer)`. -/
def employ (s : SMR α) (my_hprec : Nat) (index : Nat) (pointer : Nat) : SMR α :=
  match s.getRec my_hprec with
  | some r => s.setRec my_hprec { r with hp := r.hp.set index pointer }
  | none => s

/-- `SMR::retire(my_hprec, index)`. -/
def retire (s : SMR α) (my_hprec : Nat) (index : Nat) : SMR α :=
  match s.getRec my_hprec with
  | some r => s.setRec my_hprec { r with hp := r.hp.set index 0 }
  | none => s

/-- `std::unique` on a list: drop every element equal to its predecessor. -/
def unique : List Nat → List Nat
  | [] => []
  | [a] => [a]
  | a :: b :: rest => if a = b then unique (b :: rest) else a :: unique (b :: rest)

/-- `std::binary_search` on a sorted range: whether the value occurs. -/
def binary_search (plist : List Nat) (p : Nat) : Bool := plist.contains p

/-- Stage 1 of `SMR::scan`: the non-null hazard pointers of all records, in list order. -/
def hazards (recs : List HPRecType) : List Nat :=
  recs.flatMap (fun r => r.hp.filter (fun p => p != 0))

/-- The `while (rlist != NULL)` loop of `SMR::scan`: `rlist` is the rest of the
old retired list, `tmpList` / `nrcount` the new list and its count. -/
def scanLoop (plist : List Nat) :
    List Nat → HPRecType → Heap α → List Nat → Nat → HPRecType × Heap α × List Nat × Nat
  | [], r, h, tmpList, nrcount => (r, h, tmpList, nrcount)
  | d :: rlist, r, h, tmpList, nrcount =>
    if binary_search plist d = true then
      scanLoop plist rlist r h (d :: tmpList) (nrcount + 1)
    else
      scanLoop plist rlist ((r.freeData h d).1.freeSMRNode d) (r.freeData h d).2 tmpList nrcount

/-- `SMR::scan(head)` called by thread `tid` with `head == head_hprec`.  Faults:
the thread has no record, the list is empty (`head->nrThreads`), or more than
`max_threads * K` hazard pointers are written into `plist`. -/
def scan (s : SMR α) (tid : Nat) : Option (SMR α) :=
  match s.getRec (s.thread_local tid), s.hprecs.head? with
  | some my_hprec, some head =>
    let max_threads := head.nrThreads
    let plist0 := hazards s.hprecs
    if plist0.length ≤ max_threads * s.K then
      let plist := unique (plist0.mergeSort (fun a b => decide (a ≤ b)))
      let res := scanLoop plist my_hprec.rlist my_hprec s.heap [] 0
      some ({ s with heap := res.2.1 }.setRec (s.thread_local tid)
        { res.1 with rlist := res.2.2.1, rcount := res.2.2.2 })
    else none
  | _, _ => none

/-- `SMR::delNode(my_hprec, node)` called by thread `tid`. -/
def delNode (s : SMR α) (tid : Nat) (my_hprec : Nat) (node : Nat) : Option (SMR α) :=
  match s.getRec my_hprec with
  | none => none
  | some r =>
    match r.allocSMRNode with
    | none => none
    | some r1 =>
      let s1 := s.setRec my_hprec { r1 with rlist := node :: r1.rlist, rcount := r1.rcount + 1 }
      if r1.rcount + 1 ≥ s.RH then s1.scan tid else some s1

/-- `SMR::newNode(my_hprec)`. -/
def newNode [Inhabited α] (s : SMR α) (my_hprec : Nat) : Option (SMR α × Nat) :=
  match s.getRec my_hprec with
  | none => none
  | some r =>
    match r.allocDataNode s.heap with
    | none => none
    | some (r1, h1, p) => some ({ s with heap := h1 }.setRec my_hprec r1, p)

end SMR

/-! ## stack.h -/

/-- `LockFreeStack<T>::StackNode`; the default constructor sets `next = NULL`. -/
structure StackNode where
  data : Int
  next : Nat
deriving DecidableEq, Repr

instance : Inhabited StackNode := ⟨{ data := 0, next := 0 }⟩

/-- `LockFreeStack<T>`: the atomic `top` and the `SMR<StackNode, 1>` it uses. -/
structure LockFreeStack where
  top : Nat
  mm : SMR StackNode

namespace LockFreeStack

/-- `LockFreeStack::LockFreeStack()`, given the state of `getSMR<StackNode, 1>()`. -/
def init (mm : SMR StackNode) : LockFreeStack := { top := 0, mm := mm }

/-- The `while (true)` loop of `pop`: the state afterwards and `oldTop`
(`none` for the `return false` exit). -/
def popLoop (hp : Nat) : Nat → LockFreeStack → Option (LockFreeStack × Option Nat)
  | 0, _ => none
  | fuel + 1, s =>
    let oldTop := s.top
    if oldTop = 0 then some (s, none)
    else
      let s1 := { s with mm := s.mm.employ hp 0 oldTop }
      if s1.top ≠ oldTop then popLoop hp fuel s1
      else
        match s1.mm.heap.read oldTop with
        | none => none
        | some node =>
          if s1.top = oldTop then some ({ s1 with top := node.next }, some oldTop)
          else popLoop hp fuel s1

/-- `LockFreeStack::pop(T& ret)` run by thread `tid`. -/
def pop (fuel : Nat) (s : LockFreeStack) (tid : Nat) (ret : Int) :
    Option (LockFreeStack × Int × Bool) :=
  let hp := (s.mm.getHPRec tid).2
  match popLoop hp fuel { s with mm := (s.mm.getHPRec tid).1 } with
  | none => none
  | some (s1, none) => some (s1, ret, false)
  | some (s1, some oldTop) =>
    let mm2 := s1.mm.retire hp 0
    match mm2.heap.read oldTop with
    | none => none
    | some node =>
      match mm2.delNode tid hp oldTop with
      | none => none
      | some mm3 => some ({ s1 with mm := mm3 }, node.data, true)

/-- The `do ... while` loop of `push`. -/
def pushLoop (newTop : Nat) : Nat → LockFreeStack → Option LockFreeStack
  | 0, _ => none
  | fuel + 1, s =>
    let oldTop := s.top
    match s.mm.heap.modify newTop (fun n => { n with next := oldTop }) with
    | none => none
    | some h =>
      let s1 := { s with mm := { s.mm with heap := h } }
      if s1.top = oldTop then some { s1 with top := newTop }
      else pushLoop newTop fuel s1

/-- `LockFreeStack::push(const T& d)` run by thread `tid`. -/
def push (fuel : Nat) (s : LockFreeStack) (tid : Nat) (d : Int) : Option LockFreeStack :=
  match (s.mm.getHPRec tid).1.newNode (s.mm.getHPRec tid).2 with
  | none => none
  | some (mm1, newTop) =>
    match mm1.heap.modify newTop (fun n => { n with data := d }) with
    | none => none
    | some h => pushLoop newTop fuel { s with mm := { mm1 with heap := h } }

/-- `LockFreeStack::empty()`. -/
def empty (s : LockFreeStack) : Bool := decide (s.top = 0)

/-- The loop of `size()`, started at `node` with the count `ret`. -/
def sizeLoop (h : Heap StackNode) : Nat → Nat → Nat → Option Nat
  | 0, _, _ => none
  | fuel + 1, node, ret =>
    if node = 0 then some ret
    else
      match h.read node with
      | none => none
      | some n => sizeLoop h fuel n.next (ret + 1)

/-- `LockFreeStack::size()`. -/
def size (fuel : Nat) (s : LockFreeStack) : Option Nat := sizeLoop s.mm.heap fuel s.top 0

/-- `LockFreeStack::peekTop(T& ret)` run by thread `tid`; the loop is inlined with `hp` fixed. -/
def peekTopLoop (hp : Nat) (ret : Int) : Nat → LockFreeStack → Option (LockFreeStack × Int × Bool)
  | 0, _ => none
  | fuel + 1, s =>
    let oldTop := s.top
    if oldTop = 0 then some (s, ret, false)
    else
      let s1 := { s with mm := s.mm.employ hp 0 oldTop }
      if s1.top ≠ oldTop then peekTopLoop hp ret fuel s1
      else
        match s1.mm.heap.read oldTop with
        | none => none
        | some node => some ({ s1 with mm := s1.mm.retire hp 0 }, node.data, true)

/-- `LockFreeStack::peekTop(T& ret)` run by thread `tid`. -/
def peekTop (fuel : Nat) (s : LockFreeStack) (tid : Nat) (ret : Int) :
    Option (LockFreeStack × Int × Bool) :=
  peekTopLoop (s.mm.getHPRec tid).2 ret fuel { s with mm := (s.mm.getHPRec tid).1 }

end LockFreeStack

end Amino

namespace Amino

/-! ## queue.h -/

/-- `LockFreeQueue<T>::Node`; the constructors set `next` to `NULL`. -/
structure QNode where
  data : Int
  next : Nat
deriving DecidableEq, Repr

instance : Inhabited QNode := ⟨{ data := 0, next := 0 }⟩

/-- `LockFreeQueue<T>`: the atomics `head` and `tail` and the `SMR<Node, 2>` it uses. -/
structure LockFreeQueue where
  head : Nat
  tail : Nat
  mm : SMR QNode

namespace LockFreeQueue

/-- `LockFreeQueue::LockFreeQueue()`, given the state of `getSMR<Node, 2>()`: the
dummy node comes from `new Node()`. -/
def init (mm : SMR QNode) : LockFreeQueue :=
  { head := (mm.heap.alloc default).1, tail := (mm.heap.alloc default).1,
    mm := { mm with heap := (mm.heap.alloc default).2 } }

/-- The `while (true)` loop of `enqueue`; returns the state and `pTail`. -/
def enqueueLoop (hp node : Nat) : Nat → LockFreeQueue → Option (LockFreeQueue × Nat)
  | 0, _ => none
  | fuel + 1, s =>
    let pTail := s.tail
    let s1 := { s with mm := s.mm.employ hp 0 pTail }
    if s1.tail ≠ pTail then enqueueLoop hp node fuel s1
    else
      match s1.mm.heap.read pTail with
      | none => none
      | some t =>
        let pTailNext := t.next
        if s1.tail ≠ pTail then enqueueLoop hp node fuel s1
        else if pTailNext ≠ 0 then
          -- tail.compare_swap(pTail, pTailNext)
          enqueueLoop hp node fuel (if s1.tail = pTail then { s1 with tail := pTailNext } else s1)
        else
          -- pTail->next.compare_swap(temp, node) with temp == NULL
          match s1.mm.heap.read pTail with
          | none => none
          | some t1 =>
            if t1.next = 0 then
              match s1.mm.heap.modify pTail (fun n => { n with next := node }) with
              | none => none
              | some h => some ({ s1 with mm := { s1.mm with heap := h } }, pTail)
            else enqueueLoop hp node fuel s1

/-- `LockFreeQueue::enqueue(const T& d)` run by thread `tid`. -/
def enqueue (fuel : Nat) (s : LockFreeQueue) (tid : Nat) (d : Int) : Option LockFreeQueue :=
  match (s.mm.getHPRec tid).1.newNode (s.mm.getHPRec tid).2 with
  | none => none
  | some (mm1, node) =>
    match mm1.heap.modify node (fun n => { n with data := d }) with
    | none => none
    | some h =>
      let mm2 : SMR QNode := { mm1 with heap := h }
      let hp := (mm2.getHPRec tid).2
      match enqueueLoop hp node fuel { s with mm := (mm2.getHPRec tid).1 } with
      | none => none
      | some (s1, pTail) =>
        -- tail.compare_swap(pTail, node)
        let s2 := if s1.tail = pTail then { s1 with tail := node } else s1
        some { s2 with mm := s2.mm.retire hp 0 }

/-- The `while (true)` loop of `dequeue`; returns the state, `ret`, and
`pHead` (`none` for the `return false` exit). -/
def dequeueLoop (hp : Nat) : Nat → LockFreeQueue → Int → Option (LockFreeQueue × Int × Option Nat)
  | 0, _, _ => none
  | fuel + 1, s, ret =>
    let pHead := s.head
    let s1 := { s with mm := s.mm.employ hp 1 pHead }
    if s1.head ≠ pHead then dequeueLoop hp fuel s1 ret
    else
      match s1.mm.heap.read pHead with
      | none => none
      | some hd =>
        let pHeadNext := hd.next
        let s2 := { s1 with mm := s1.mm.employ hp 1 pHeadNext }
        if pHeadNext = 0 then some (s2, ret, none)
        else if s2.head ≠ pHead then dequeueLoop hp fuel s2 ret
        else
          let pTail := s2.tail
          if pHead = pTail then
            -- tail.compare_swap(pTail, pHeadNext)
            dequeueLoop hp fuel (if s2.tail = pTail then { s2 with tail := pHeadNext } else s2) ret
          else
            match s2.mm.heap.read pHeadNext with
            | none => none
            | some nx =>
              -- head.compare_swap(pHead, pHeadNext)
              if s2.head = pHead then some ({ s2 with head := pHeadNext }, nx.data, some pHead)
              else dequeueLoop hp fuel s2 nx.data

/-- `LockFreeQueue::dequeue(T& ret)` run by thread `tid`. -/
def dequeue (fuel : Nat) (s : LockFreeQueue) (tid : Nat) (ret : Int) :
    Option (LockFreeQueue × Int × Bool) :=
  let hp := (s.mm.getHPRec tid).2
  match dequeueLoop hp fuel { s with mm := (s.mm.getHPRec tid).1 } ret with
  | none => none
  | some (s1, ret1, none) => some (s1, ret1, false)
  | some (s1, ret1, some pHead) =>
    let mm2 := s1.mm.retire hp 1
    -- mm->delNode(pHead) is delNode(getHPRec(), pHead)
    match (mm2.getHPRec tid).1.delNode tid (mm2.getHPRec tid).2 pHead with
    | none => none
    | some mm3 => some ({ s1 with mm := mm3 }, ret1, true)

/-- `LockFreeQueue::empty()`. -/
def empty (s : LockFreeQueue) : Option Bool :=
  match s.mm.heap.read s.head with
  | none => none
  | some hd => some (decide (hd.next = 0))

/-- The loop of `size()` at the node `front` with the count `result`. -/
def sizeLoop (s : LockFreeQueue) : Nat → Nat → Nat → Option Nat
  | 0, _, _ => none
  | fuel + 1, front, result =>
    if front = 0 then some result
    else if front = s.tail then some (result + 1)
    else
      match s.mm.heap.read front with
      | none => none
      | some n => sizeLoop s fuel n.next (result + 1)

/-- `LockFreeQueue::size()`. -/
def size (fuel : Nat) (s : LockFreeQueue) : Option Nat :=
  match s.mm.heap.read s.head with
  | none => none
  | some hd => sizeLoop s fuel hd.next 0

/-- The `while (true)` loop of `peekFront`. -/
def peekFrontLoop (hp : Nat) (top : Int) : Nat → LockFreeQueue → Option (LockFreeQueue × Int × Bool)
  | 0, _ => none
  | fuel + 1, s =>
    match s.mm.heap.read s.head with
    | none => none
    | some hd =>
      let front := hd.next
      if front = 0 then some (s, top, false)
      else
        let s1 := { s with mm := s.mm.employ hp 1 front }
        match s1.mm.heap.read s1.head with
        | none => none
        | some hd1 =>
          if front ≠ hd1.next then peekFrontLoop hp top fuel s1
          else
            match s1.mm.heap.read front with
            | none => none
            | some n => some ({ s1 with mm := s1.mm.retire hp 1 }, n.data, true)

/-- `LockFreeQueue::peekFront(T& top)` run by thread `tid`. -/
def peekFront (fuel : Nat) (s : LockFreeQueue) (tid : Nat) (top : Int) :
    Option (LockFreeQueue × Int × Bool) :=
  peekFrontLoop (s.mm.getHPRec tid).2 top fuel { s with mm := (s.mm.getHPRec tid).1 }

end LockFreeQueue

end Amino

namespace Amino

/-! ## list.h and ordered_list.h -/

/-- `NHPOINTER`: the number of hazard pointers of the list. -/
def NHPOINTER : Nat := 3

/-- `POINTER(p)`: the pointer with its last two bits cleared (`p & ~3`). -/
def POINTER (p : Nat) : Nat := (p >>> 2) <<< 2

/-- `MARK(p)`: the pointer with its last bit set (`p | 1`). -/
def MARK (p : Nat) : Nat := p ||| 1

/-- `MARKED(p)`: whether the last bit is set (`p & 1`). -/
def MARKED (p : Nat) : Bool := (p &&& 1) != 0

/-- `NodeType<KeyType>`; `next` carries the deletion mark in its last bit. -/
structure NodeType where
  data : Int
  next : Nat
deriving DecidableEq, Repr

instance : Inhabited NodeType := ⟨{ data := 0, next := 0 }⟩

/-- An `atomic<NodeType*>*`: the address of the `head` field of the list or of
the `next` field of a node. -/
inductive Loc where
  | head
  | next (p : Nat)
deriving DecidableEq, Repr

/-- `FindStateHolder<KeyType>`; `prev` is `none` for `NULL`. -/
structure FindStateHolder where
  prev : Option Loc
  cur : Nat
  next : Nat
  isFound : Bool
deriving DecidableEq, Repr

/-- `OrderedList<KeyType>`: the atomic `head`, the `dummy` node of the
constructor and the `SMR<NodeType, NHPOINTER>` it uses. -/
structure OrderedList where
  head : Nat
  dummy : Nat
  mm : SMR NodeType

namespace OrderedList

/-- `OrderedList::OrderedList()`, given the state of `getSMR<NodeType, NHPOINTER>()`:
`dummy` comes from `new NodeType()` and `head` is set to `dummy->next`. -/
def init (mm : SMR NodeType) : OrderedList :=
  { head := 0, dummy := (mm.heap.alloc default).1,
    mm := { mm with heap := (mm.heap.alloc default).2 } }

/-- `loc->load()`. -/
def load (s : OrderedList) : Loc → Option Nat
  | .head => some s.head
  | .next p =>
    match s.mm.heap.read p with
    | none => none
    | some n => some n.next

/-- `loc->store(v)`. -/
def store (s : OrderedList) (v : Nat) : Loc → Option OrderedList
  | .head => some { s with head := v }
  | .next p =>
    match s.mm.heap.modify p (fun n => { n with next := v }) with
    | none => none
    | some h => some { s with mm := { s.mm with heap := h } }

/-- `loc->compare_swap(expected, desired)`: the state and whether the swap took place. -/
def compare_swap (s : OrderedList) (loc : Loc) (expected desired : Nat) :
    Option (OrderedList × Bool) :=
  match s.load loc with
  | none => none
  | some v =>
    if v = expected then
      match s.store desired loc with
      | none => none
      | some s1 => some (s1, true)
    else some (s, false)

/-- `retireAll(hp)`. -/
def retireAll (s : OrderedList) (hp : Nat) : OrderedList :=
  { s with mm := ((s.mm.retire hp 0).retire hp 1).retire hp 2 }

/-- The body of `OrderedList::find` after `hp = mm->getHPRec()`.  The last
argument is `none` at the label `try_again` and `some (prev, cur, next)` at
the top of the `while (true)` loop; every pass through either costs one unit
of fuel.  A failing `assert` is a fault. -/
def findGo (key : Int) (start : Loc) (tid hp : Nat) :
    Nat → OrderedList → Option (Loc × Nat × Nat) → Option (OrderedList × FindStateHolder × Bool)
  | 0, _, _ => none
  | fuel + 1, s, none =>
    match s.load start with
    | none => none
    | some cur =>
      if MARKED cur = true then none
      else
        let s1 := { s with mm := s.mm.employ hp 1 cur }
        match s1.load start with
        | none => none
        | some c1 =>
          if c1 ≠ cur then findGo key start tid hp fuel s1 none
          else findGo key start tid hp fuel s1 (some (start, cur, 0))
  | fuel + 1, s, some (prev, cur, next) =>
    if cur = 0 then
      some (s, { isFound := false, prev := some prev, cur := cur, next := next }, false)
    else
      match s.mm.heap.read cur with
      | none => none
      | some c =>
        let markedNext := c.next
        let cmark := MARKED markedNext
        let next := POINTER markedNext
        let s1 := { s with mm := s.mm.employ hp 0 next }
        match s1.mm.heap.read cur with
        | none => none
        | some c1 =>
          if c1.next ≠ markedNext then findGo key start tid hp fuel s1 none
          else
            let cKey := c1.data
            match s1.load prev with
            | none => none
            | some pv =>
              if pv ≠ cur then findGo key start tid hp fuel s1 none
              else if cmark = false then
                if cKey ≥ key then
                  some (s1, { isFound := decide (cKey = key), prev := some prev, cur := cur,
                              next := next }, decide (cKey = key))
                else
                  findGo key start tid hp fuel { s1 with mm := s1.mm.employ hp 1 next }
                    (some (.next cur, next, next))
              else
                match s1.compare_swap prev cur next with
                | none => none
                | some (s2, true) =>
                  match s2.mm.delNode tid hp cur with
                  | none => none
                  | some mm3 =>
                    findGo key start tid hp fuel { s2 with mm := mm3.employ hp 1 next }
                      (some (prev, next, next))
                | some (s2, false) => findGo key start tid hp fuel s2 none

/-- `OrderedList::find(key, start, holder)` run by thread `tid`: the state,
the holder and the result. -/
def find (fuel : Nat) (s : OrderedList) (tid : Nat) (key : Int) (start : Loc) :
    Option (OrderedList × FindStateHolder × Bool) :=
  findGo key start tid (s.mm.getHPRec tid).2 fuel { s with mm := (s.mm.getHPRec tid).1 } none

/-- The `while (true)` loop of `OrderedList::add`; `fuel` is also handed to each `find`. -/
def addLoop (e : Int) (start : Loc) (tid node : Nat) :
    Nat → OrderedList → Option (OrderedList × Bool)
  | 0, _ => none
  | fuel + 1, s =>
    match find (fuel + 1) s tid e start with
    | none => none
    | some (s1, _, true) =>
      -- delete node
      some ({ s1 with mm := { s1.mm with heap := s1.mm.heap.free node } }, false)
    | some (s1, holder, false) =>
      match s1.mm.heap.modify node (fun n => { n with next := POINTER holder.cur }) with
      | none => none
      | some h =>
        let s2 := { s1 with mm := { s1.mm with heap := h } }
        match holder.prev with
        | none => none
        | some prev =>
          match s2.compare_swap prev holder.cur (POINTER node) with
          | none => none
          | some (s3, true) => some (s3, true)
          | some (s3, false) => addLoop e start tid node fuel s3

/-- `OrderedList::add(e, start)` run by thread `tid`. -/
def add (fuel : Nat) (s : OrderedList) (tid : Nat) (e : Int) (start : Loc) :
    Option (OrderedList × Bool) :=
  match (s.mm.getHPRec tid).1.newNode (s.mm.getHPRec tid).2 with
  | none => none
  | some (mm1, node) =>
    match mm1.heap.modify node (fun n => { n with data := e }) with
    | none => none
    | some h =>
      let mm2 : SMR NodeType := { mm1 with heap := h }
      let hp := (mm2.getHPRec tid).2
      match addLoop e start tid node fuel { s with mm := (mm2.getHPRec tid).1 } with
      | none => none
      | some (s1, result) => some (s1.retireAll hp, result)

/-- `OrderedList::insert(index, e)`. -/
def insert (fuel : Nat) (s : OrderedList) (tid : Nat) (_index : Int) (e : Int) :
    Option (OrderedList × Bool) :=
  add fuel s tid e .head

/-- The `while (true)` loop of `OrderedList::remove(e, start)`. -/
def removeLoop (e : Int) (start : Loc) (tid hp : Nat) :
    Nat → OrderedList → Option (OrderedList × Bool)
  | 0, _ => none
  | fuel + 1, s =>
    match find (fuel + 1) s tid e start with
    | none => none
    | some (s1, _, false) => some (s1, false)
    | some (s1, holder, true) =>
      if MARKED holder.cur = true then none
      else
        match s1.compare_swap (.next holder.cur) holder.next (MARK holder.next) with
        | none => none
        | some (s2, false) => removeLoop e start tid hp fuel s2
        | some (s2, true) =>
          if MARKED holder.next = true then none
          else
            match holder.prev with
            | none => none
            | some prev =>
              match s2.compare_swap prev holder.cur holder.next with
              | none => none
              | some (s3, true) =>
                match s3.mm.delNode tid hp holder.cur with
                | none => none
                | some mm4 => some ({ s3 with mm := mm4 }, true)
              | some (s3, false) =>
                match find (fuel + 1) s3 tid e start with
                | none => none
                | some (s4, _, _) => some (s4, true)

/-- `OrderedList::remove(e, start)` run by thread `tid`. -/
def removeFrom (fuel : Nat) (s : OrderedList) (tid : Nat) (e : Int) (start : Loc) :
    Option (OrderedList × Bool) :=
  let hp := (s.mm.getHPRec tid).2
  match removeLoop e start tid hp fuel { s with mm := (s.mm.getHPRec tid).1 } with
  | none => none
  | some (s1, result) => some (s1.retireAll hp, result)

/-- `OrderedList::remove(e)`. -/
def remove (fuel : Nat) (s : OrderedList) (tid : Nat) (e : Int) : Option (OrderedList × Bool) :=
  removeFrom fuel s tid e .head

/-- `OrderedList::search(e)` run by thread `tid`. -/
def search (fuel : Nat) (s : OrderedList) (tid : Nat) (e : Int) : Option (OrderedList × Bool) :=
  match find fuel s tid e .head with
  | none => none
  | some (s1, _, result) =>
    some ({ s1 with mm := (s1.mm.getHPRec tid).1 }.retireAll (s1.mm.getHPRec tid).2, result)

/-- `OrderedList::front(ret)`. -/
def front (s : OrderedList) (ret : Int) : Option (Int × Bool) :=
  let first := s.head
  if MARKED first = true then none
  else if first = 0 then some (ret, false)
  else
    match s.mm.heap.read first with
    | none => none
    | some n => some (n.data, true)

/-- `OrderedList::empty()`. -/
def empty (s : OrderedList) : Bool := decide (s.head = 0)

end OrderedList

end Amino

namespace Amino

/-! ## deque.h -/

/-- `STABLE` of deque.h. -/
def STABLE : Nat := 0

/-- `RPUSH` of deque.h. -/
def RPUSH : Nat := 1

/-- `LPUSH` of deque.h. -/
def LPUSH : Nat := 2

/-- `Node<T>` of deque.h; the constructors set `left` and `right` to `NULL`. -/
structure DNode where
  data : Int
  left : Nat
  right : Nat
deriving DecidableEq, Repr

instance : Inhabited DNode := ⟨{ data := 0, left := 0, right := 0 }⟩

/-- The number of bits of an `unsigned long` (`BIT64`). -/
def LONG_BITS : Nat := 64

/-- `AnchorValue<T>`: the union of `all` (the words `low` and `high`) with
`fields`.  `fields.left` is the word `low`; the bit-field `fields.right` is the
lower `LONG_BITS - 2` bits of `high` and `fields.status` its upper 2 bits. -/
structure AnchorValue where
  low : Nat
  high : Nat
deriving DecidableEq, Repr

namespace AnchorValue

/-- Read of `fields.left`. -/
def fields_left (a : AnchorValue) : Nat := a.low

/-- Read of the bit-field `fields.right`. -/
def fields_right (a : AnchorValue) : Nat := a.high % 2 ^ (LONG_BITS - 2)

/-- Read of the bit-field `fields.status`. -/
def fields_status (a : AnchorValue) : Nat := a.high / 2 ^ (LONG_BITS - 2) % 4

/-- Store into `fields.left`. -/
def store_left (a : AnchorValue) (v : Nat) : AnchorValue :=
  { a with low := v % 2 ^ LONG_BITS }

/-- Store into the bit-field `fields.right`: the value is cut to its width and
the bits of `fields.status` stay. -/
def store_right (a : AnchorValue) (v : Nat) : AnchorValue :=
  { a with high := a.fields_status * 2 ^ (LONG_BITS - 2) + v % 2 ^ (LONG_BITS - 2) }

/-- Store into the bit-field `fields.status`: the value is cut to 2 bits and
the bits of `fields.right` stay. -/
def store_status (a : AnchorValue) (v : Nat) : AnchorValue :=
  { a with high := (v % 4) * 2 ^ (LONG_BITS - 2) + a.fields_right }

/-- `AnchorValue::getRight()`. -/
def getRight (a : AnchorValue) : Nat := (a.fields_right <<< 2) % 2 ^ LONG_BITS

/-- `AnchorValue::getLeft()`. -/
def getLeft (a : AnchorValue) : Nat := a.fields_left

/-- `AnchorValue::getStatus()`. -/
def getStatus (a : AnchorValue) : Nat := a.fields_status

/-- `AnchorValue::setRight(pNode)`; the failing `assert` is a fault. -/
def setRight (a : AnchorValue) (pNode : Nat) : Option AnchorValue :=
  if (a.store_right ((pNode % 2 ^ LONG_BITS) >>> 2)).getRight = pNode then
    some (a.store_right ((pNode % 2 ^ LONG_BITS) >>> 2))
  else none

/-- `AnchorValue::setLeft(pNode)`. -/
def setLeft (a : AnchorValue) (pNode : Nat) : AnchorValue := a.store_left pNode

/-- `AnchorValue::setStatus(status)`. -/
def setStatus (a : AnchorValue) (status : Nat) : AnchorValue := a.store_status status

end AnchorValue

/-- `AnchorType<T>` (the build with `CASD`, without `PPC`): the member `value`. -/
structure AnchorType where
  value : AnchorValue
deriving DecidableEq, Repr

namespace AnchorType

/-- A local `AnchorType<T>` variable before anything is stored into it.  The
code leaves it uninitialised and stores all of `left`, `right` and `status`,
or both words, before it reads it. -/
def uninitialised : AnchorType := { value := { low := 0, high := 0 } }

/-- `AnchorType::init()`. -/
def init (a : AnchorType) : AnchorType :=
  { a with value := { a.value with high := 0, low := 0 } }

/-- `AnchorType::getRight()`. -/
def getRight (a : AnchorType) : Nat := (a.value.fields_right <<< 2) % 2 ^ LONG_BITS

/-- `AnchorType::getLeft()`. -/
def getLeft (a : AnchorType) : Nat := a.value.fields_left

/-- `AnchorType::getStatus()`. -/
def getStatus (a : AnchorType) : Nat := a.value.fields_status

/-- `AnchorType::setRight(pNode)`; the failing `assert` is a fault. -/
def setRight (a : AnchorType) (pNode : Nat) : Option AnchorType :=
  if ({ a with value := a.value.store_right ((pNode % 2 ^ LONG_BITS) >>> 2) } : AnchorType).getRight
      = pNode then
    some { a with value := a.value.store_right ((pNode % 2 ^ LONG_BITS) >>> 2) }
  else none

/-- `AnchorType::setLeft(pNode)`. -/
def setLeft (a : AnchorType) (pNode : Nat) : AnchorType :=
  { a with value := a.value.store_left pNode }

/-- `AnchorType::setStatus(status)`. -/
def setStatus (a : AnchorType) (status : Nat) : AnchorType :=
  { a with value := a.value.store_status status }

/-- `AnchorType::copyTo(newAnchor)`: the `do ... while` loop, one unit of fuel
per pass; returns `newAnchor`. -/
def copyTo (a : AnchorType) : Nat → AnchorType → Option AnchorType
  | 0, _ => none
  | fuel + 1, newAnchor =>
    let n1 : AnchorType := { newAnchor with value := { newAnchor.value with low := a.value.low } }
    let n2 : AnchorType := { n1 with value := { n1.value with high := a.value.high } }
    if n2.value.low ≠ a.value.low ∨ n2.value.high ≠ a.value.high then copyTo a fuel n2
    else some n2

/-- `AnchorType::operator==`. -/
def operator_eq (a atr : AnchorType) : Bool :=
  if a.value.high ≠ atr.value.high ∨ a.value.low ≠ atr.value.low then false else true

/-- `AnchorType::compare_swap(expected, newValue)` (`casd` on both words): the
anchor afterwards and whether the swap took place. -/
def compare_swap (a expected newValue : AnchorType) : AnchorType × Bool :=
  if a.value.low = expected.value.low ∧ a.value.high = expected.value.high then
    ({ a with value := newValue.value }, true)
  else (a, false)

end AnchorType

/-- What the statements of a member function of `LockFreeDeque<T>` work on
once they have read the member `mm`: the shared `anchor` and the
`SMR<Node<T>, 3>` object that `mm` points to.  The object itself, whose `mm`
may not have been set, is `LockFreeDeque`. -/
structure DequeBody where
  anchor : AnchorType
  mm : SMR DNode

namespace DequeBody

/-- The anchor `<NULL, NULL, STABLE>` together with the reclamation state `mm`:
the state from which the statements of the member functions are studied.  No
constructor of deque.h builds it, see `LockFreeDeque.init`. -/
def start (mm : SMR DNode) : DequeBody :=
  { anchor := AnchorType.uninitialised.init, mm := mm }

/-- The end of `stabilizeRight` and of `stabilizeLeft`: the new anchor
`<al, ar, STABLE>`, the `compare_swap` on the shared anchor, and the three
`retire` calls. -/
def stabilizeFinish (s : DequeBody) (hp : Nat) (a : AnchorType) (al ar : Nat) :
    Option DequeBody :=
  match AnchorType.uninitialised.setRight ar with
  | none => none
  | some n1 =>
    let new_anchor := (n1.setLeft al).setStatus STABLE
    let s1 := { s with anchor := (s.anchor.compare_swap a new_anchor).1 }
    some { s1 with mm := ((s1.mm.retire hp 0).retire hp 1).retire hp 2 }

/-- The statements of `LockFreeDeque::stabilizeRight(a)` run by thread `tid`. -/
def stabilizeRight (s : DequeBody) (tid : Nat) (a : AnchorType) : Option DequeBody :=
  let al := a.getLeft
  let ar := a.getRight
  let hp := (s.mm.getHPRec tid).2
  let s1 := { s with mm := (s.mm.getHPRec tid).1.employ hp 0 al }
  if al ≠ s1.anchor.getLeft then some s1
  else
    let s2 := { s1 with mm := s1.mm.employ hp 1 ar }
    if ar ≠ s2.anchor.getRight then some s2
    else if ar = 0 ∨ al = 0 then none
    else if s2.anchor.operator_eq a = false then some s2
    else
      match s2.mm.heap.read ar with
      | none => none
      | some rn =>
        let prev := rn.left
        if prev = 0 then none
        else
          let s3 := { s2 with mm := s2.mm.employ hp 2 prev }
          if ar ≠ s3.anchor.getRight then some s3
          else if s3.anchor.operator_eq a = false then some s3
          else
            match s3.mm.heap.read prev with
            | none => none
            | some pn =>
              let prevnext := pn.right
              if prevnext ≠ ar then
                if s3.anchor.operator_eq a = false then some s3
                else
                  -- prev->right.compare_swap(prevnext, ar)
                  match s3.mm.heap.read prev with
                  | none => none
                  | some pn1 =>
                    if pn1.right ≠ prevnext then some s3
                    else
                      match s3.mm.heap.modify prev (fun n => { n with right := ar }) with
                      | none => none
                      | some h => stabilizeFinish { s3 with mm := { s3.mm with heap := h } } hp a al ar
              else stabilizeFinish s3 hp a al ar

/-- The statements of `LockFreeDeque::stabilizeLeft(a)` run by thread `tid`. -/
def stabilizeLeft (s : DequeBody) (tid : Nat) (a : AnchorType) : Option DequeBody :=
  let al := a.getLeft
  let ar := a.getRight
  let hp := (s.mm.getHPRec tid).2
  let s1 := { s with mm := (s.mm.getHPRec tid).1.employ hp 0 al }
  if al ≠ s1.anchor.getLeft then some s1
  else
    let s2 := { s1 with mm := s1.mm.employ hp 1 ar }
    if ar ≠ s2.anchor.getRight then some s2
    else if ar = 0 ∨ al = 0 then none
    else if s2.anchor.operator_eq a = false then some s2
    else
      match s2.mm.heap.read al with
      | none => none
      | some ln =>
        let prev := ln.right
        if prev = 0 then none
        else
          let s3 := { s2 with mm := s2.mm.employ hp 2 prev }
          if al ≠ s3.anchor.getLeft then some s3
          else if s3.anchor.operator_eq a = false then some s3
          else
            match s3.mm.heap.read prev with
            | none => none
            | some pn =>
              let prevnext := pn.left
              if prevnext ≠ al then
                if s3.anchor.operator_eq a = false then some s3
                else
                  -- prev->left.compare_swap(prevnext, al)
                  match s3.mm.heap.read prev with
                  | none => none
                  | some pn1 =>
                    if pn1.left ≠ prevnext then some s3
                    else
                      match s3.mm.heap.modify prev (fun n => { n with left := al }) with
                      | none => none
                      | some h => stabilizeFinish { s3 with mm := { s3.mm with heap := h } } hp a al ar
              else stabilizeFinish s3 hp a al ar

/-- The statements of `LockFreeDeque::stabilize(a)`; the failing `assert` is a fault. -/
def stabilize (s : DequeBody) (tid : Nat) (a : AnchorType) : Option DequeBody :=
  if a.getStatus = RPUSH then stabilizeRight s tid a
  else if a.getStatus ≠ LPUSH then none
  else stabilizeLeft s tid a

/-- The `while (true)` loop of `pushRight`; `fuel` is also handed to `copyTo`. -/
def pushRightLoop (tid node : Nat) : Nat → DequeBody → Option DequeBody
  | 0, _ => none
  | fuel + 1, s =>
    match s.anchor.copyTo (fuel + 1) AnchorType.uninitialised with
    | none => none
    | some old_anchor =>
      let left := old_anchor.getLeft
      let right := old_anchor.getRight
      let status := old_anchor.getStatus
      if right = 0 then
        if left ≠ 0 then none
        else
          match (AnchorType.uninitialised.setLeft node).setRight node with
          | none => none
          | some n1 =>
            let new_anchor := n1.setStatus STABLE
            if (s.anchor.compare_swap old_anchor new_anchor).2 = true then
              some { s with anchor := (s.anchor.compare_swap old_anchor new_anchor).1 }
            else
              pushRightLoop tid node fuel
                { s with anchor := (s.anchor.compare_swap old_anchor new_anchor).1 }
      else if status = STABLE then
        match s.mm.heap.modify node (fun n => { n with left := right }) with
        | none => none
        | some h =>
          let s1 := { s with mm := { s.mm with heap := h } }
          match (AnchorType.uninitialised.setLeft left).setRight node with
          | none => none
          | some n1 =>
            let new_anchor := n1.setStatus RPUSH
            if (s1.anchor.compare_swap old_anchor new_anchor).2 = true then
              stabilizeRight { s1 with anchor := (s1.anchor.compare_swap old_anchor new_anchor).1 }
                tid new_anchor
            else
              pushRightLoop tid node fuel
                { s1 with anchor := (s1.anchor.compare_swap old_anchor new_anchor).1 }
      else
        match stabilize s tid old_anchor with
        | none => none
        | some s1 => pushRightLoop tid node fuel s1

/-- The statements of `LockFreeDeque::pushRight(data)` run by thread `tid` (`FREELIST` is
defined); a failing `assert` is a fault. -/
def pushRight (fuel : Nat) (s : DequeBody) (tid : Nat) (data : Int) : Option DequeBody :=
  match (s.mm.getHPRec tid).1.newNode (s.mm.getHPRec tid).2 with
  | none => none
  | some (mm1, node) =>
    if node = 0 then none
    else
      match mm1.heap.modify node (fun n => { n with data := data }) with
      | none => none
      | some h =>
        if node % 4 ≠ 0 then none
        else pushRightLoop tid node fuel { s with mm := { mm1 with heap := h } }

/-- The `while (true)` loop of `pushLeft`; `fuel` is also handed to `copyTo`. -/
def pushLeftLoop (tid node : Nat) : Nat → DequeBody → Option DequeBody
  | 0, _ => none
  | fuel + 1, s =>
    match s.anchor.copyTo (fuel + 1) AnchorType.uninitialised with
    | none => none
    | some old_anchor =>
      let left := old_anchor.getLeft
      let right := old_anchor.getRight
      let status := old_anchor.getStatus
      if left = 0 then
        if right ≠ 0 then none
        else
          match (AnchorType.uninitialised.setLeft node).setRight node with
          | none => none
          | some n1 =>
            let new_anchor := n1.setStatus STABLE
            if (s.anchor.compare_swap old_anchor new_anchor).2 = true then
              some { s with anchor := (s.anchor.compare_swap old_anchor new_anchor).1 }
            else
              pushLeftLoop tid node fuel
                { s with anchor := (s.anchor.compare_swap old_anchor new_anchor).1 }
      else if status = STABLE then
        match s.mm.heap.modify node (fun n => { n with right := left }) with
        | none => none
        | some h =>
          let s1 := { s with mm := { s.mm with heap := h } }
          match AnchorType.uninitialised.setRight right with
          | none => none
          | some n1 =>
            let new_anchor := (n1.setLeft node).setStatus LPUSH
            if (s1.anchor.compare_swap old_anchor new_anchor).2 = true then
              stabilizeLeft { s1 with anchor := (s1.anchor.compare_swap old_anchor new_anchor).1 }
                tid new_anchor
            else
              pushLeftLoop tid node fuel
                { s1 with anchor := (s1.anchor.compare_swap old_anchor new_anchor).1 }
      else
        match stabilize s tid old_anchor with
        | none => none
        | some s1 => pushLeftLoop tid node fuel s1

/-- The statements of `LockFreeDeque::pushLeft(data)` run by thread `tid` (`FREELIST` is
defined); a failing `assert` is a fault. -/
def pushLeft (fuel : Nat) (s : DequeBody) (tid : Nat) (data : Int) : Option DequeBody :=
  match (s.mm.getHPRec tid).1.newNode (s.mm.getHPRec tid).2 with
  | none => none
  | some (mm1, node) =>
    if node = 0 then none
    else
      match mm1.heap.modify node (fun n => { n with data := data }) with
      | none => none
      | some h =>
        if node % 4 ≠ 0 then none
        else pushLeftLoop tid node fuel { s with mm := { mm1 with heap := h } }

/-- The `while (true)` loop of `popRight`: the state, `ret` and the result. -/
def popRightLoop (tid hp : Nat) : Nat → DequeBody → Int → Option (DequeBody × Int × Bool)
  | 0, _, _ => none
  | fuel + 1, s, ret =>
    match s.anchor.copyTo (fuel + 1) AnchorType.uninitialised with
    | none => none
    | some old_anchor =>
      let left := old_anchor.getLeft
      let right := old_anchor.getRight
      let status := old_anchor.getStatus
      if right = 0 then
        if left ≠ 0 then none
        else if status ≠ STABLE then none
        else some (s, ret, false)
      else if left = right then
        let s1 := { s with mm := s.mm.employ hp 1 right }
        if right ≠ s1.anchor.getRight then popRightLoop tid hp fuel s1 ret
        else
          match ((AnchorType.uninitialised.setStatus status).setLeft 0).setRight 0 with
          | none => none
          | some new_anchor =>
            if (s1.anchor.compare_swap old_anchor new_anchor).2 = true then
              let s2 := { s1 with anchor := (s1.anchor.compare_swap old_anchor new_anchor).1 }
              match s2.mm.heap.read right with
              | none => none
              | some rn =>
                match (s2.mm.retire hp 1).delNode tid hp right with
                | none => none
                | some mm3 => some ({ s2 with mm := mm3 }, rn.data, true)
            else
              popRightLoop tid hp fuel
                { s1 with anchor := (s1.anchor.compare_swap old_anchor new_anchor).1 } ret
      else if status = STABLE then
        let s1 := { s with mm := s.mm.employ hp 0 left }
        if left ≠ s1.anchor.getLeft then popRightLoop tid hp fuel s1 ret
        else
          let s2 := { s1 with mm := s1.mm.employ hp 1 right }
          if right ≠ s2.anchor.getRight then popRightLoop tid hp fuel s2 ret
          else if s2.anchor.operator_eq old_anchor = false then popRightLoop tid hp fuel s2 ret
          else
            match s2.mm.heap.read right with
            | none => none
            | some rn =>
              let prev := rn.left
              let s3 := { s2 with mm := s2.mm.employ hp 2 prev }
              if right ≠ s3.anchor.getRight then popRightLoop tid hp fuel s3 ret
              else if prev = 0 then none
              else
                match (AnchorType.uninitialised.setLeft left).setRight prev with
                | none => none
                | some n1 =>
                  let new_anchor := n1.setStatus status
                  if (s3.anchor.compare_swap old_anchor new_anchor).2 = true then
                    let s4 := { s3 with anchor := (s3.anchor.compare_swap old_anchor new_anchor).1 }
                    match s4.mm.heap.read right with
                    | none => none
                    | some rn1 =>
                      match ((s4.mm.retire hp 0).retire hp 1).delNode tid hp right with
                      | none => none
                      | some mm5 => some ({ s4 with mm := mm5 }, rn1.data, true)
                  else
                    popRightLoop tid hp fuel
                      { s3 with anchor := (s3.anchor.compare_swap old_anchor new_anchor).1 } ret
      else
        match stabilize s tid old_anchor with
        | none => none
        | some s1 => popRightLoop tid hp fuel s1 ret

/-- The statements of `LockFreeDeque::popRight(ret)` run by thread `tid`. -/
def popRight (fuel : Nat) (s : DequeBody) (tid : Nat) (ret : Int) :
    Option (DequeBody × Int × Bool) :=
  popRightLoop tid (s.mm.getHPRec tid).2 fuel { s with mm := (s.mm.getHPRec tid).1 } ret

/-- The `while (true)` loop of `popLeft`: the state, `ret` and the result. -/
def popLeftLoop (tid hp : Nat) : Nat → DequeBody → Int → Option (DequeBody × Int × Bool)
  | 0, _, _ => none
  | fuel + 1, s, ret =>
    match s.anchor.copyTo (fuel + 1) AnchorType.uninitialised with
    | none => none
    | some old_anchor =>
      let left := old_anchor.getLeft
      let right := old_anchor.getRight
      let status := old_anchor.getStatus
      if right = 0 then
        if left ≠ 0 then none
        else if status ≠ STABLE then none
        else some (s, ret, false)
      else if left = right then
        let s1 := { s with mm := s.mm.employ hp 1 left }
        if left ≠ s1.anchor.getLeft then popLeftLoop tid hp fuel s1 ret
        else
          match ((AnchorType.uninitialised.setStatus status).setLeft 0).setRight 0 with
          | none => none
          | some new_anchor =>
            if (s1.anchor.compare_swap old_anchor new_anchor).2 = true then
              let s2 := { s1 with anchor := (s1.anchor.compare_swap old_anchor new_anchor).1 }
              match s2.mm.heap.read left with
              | none => none
              | some ln =>
                match (s2.mm.retire hp 1).delNode tid hp left with
                | none => none
                | some mm3 => some ({ s2 with mm := mm3 }, ln.data, true)
            else
              popLeftLoop tid hp fuel
                { s1 with anchor := (s1.anchor.compare_swap old_anchor new_anchor).1 } ret
      else if status = STABLE then
        let s1 := { s with mm := s.mm.employ hp 0 left }
        if left ≠ s1.anchor.getLeft then popLeftLoop tid hp fuel s1 ret
        else
          let s2 := { s1 with mm := s1.mm.employ hp 1 right }
          if right ≠ s2.anchor.getRight then popLeftLoop tid hp fuel s2 ret
          else if left = 0 then none
          else if s2.anchor.operator_eq old_anchor = false then popLeftLoop tid hp fuel s2 ret
          else
            match s2.mm.heap.read left with
            | none => none
            | some ln =>
              let prev := ln.right
              let s3 := { s2 with mm := s2.mm.employ hp 2 prev }
              if right ≠ s3.anchor.getRight then popLeftLoop tid hp fuel s3 ret
              else if prev = 0 then none
              else
                match (AnchorType.uninitialised.setLeft prev).setRight right with
                | none => none
                | some n1 =>
                  if status ≠ STABLE then none
                  else
                    let new_anchor := n1.setStatus status
                    if (s3.anchor.compare_swap old_anchor new_anchor).2 = true then
                      let s4 :=
                        { s3 with anchor := (s3.anchor.compare_swap old_anchor new_anchor).1 }
                      match s4.mm.heap.read left with
                      | none => none
                      | some ln1 =>
                        match ((s4.mm.retire hp 0).retire hp 1).delNode tid hp left with
                        | none => none
                        | some mm5 => some ({ s4 with mm := mm5 }, ln1.data, true)
                    else
                      popLeftLoop tid hp fuel
                        { s3 with anchor := (s3.anchor.compare_swap old_anchor new_anchor).1 } ret
      else
        match stabilize s tid old_anchor with
        | none => none
        | some s1 => popLeftLoop tid hp fuel s1 ret

/-- The statements of `LockFreeDeque::popLeft(ret)` run by thread `tid`. -/
def popLeft (fuel : Nat) (s : DequeBody) (tid : Nat) (ret : Int) :
    Option (DequeBody × Int × Bool) :=
  popLeftLoop tid (s.mm.getHPRec tid).2 fuel { s with mm := (s.mm.getHPRec tid).1 } ret

/-- The statements of `LockFreeDeque::enqueue(d)`. -/
def enqueue (fuel : Nat) (s : DequeBody) (tid : Nat) (d : Int) : Option DequeBody :=
  pushRight fuel s tid d

/-- The statements of `LockFreeDeque::dequeue(ret)`. -/
def dequeue (fuel : Nat) (s : DequeBody) (tid : Nat) (ret : Int) :
    Option (DequeBody × Int × Bool) :=
  popLeft fuel s tid ret

/-- The `while (true)` loop of `size`. -/
def sizeLoop (h : Heap DNode) (right : Nat) : Nat → Nat → Nat → Option Nat
  | 0, _, _ => none
  | fuel + 1, left, _size =>
    match h.read left with
    | none => none
    | some ln =>
      let lNext := ln.right
      if lNext = right then some _size
      else sizeLoop h right fuel lNext (_size + 1)

/-- The statements of `LockFreeDeque::size()`; `fuel` bounds `copyTo` and the loop. -/
def size (fuel : Nat) (s : DequeBody) : Option Nat :=
  match s.anchor.copyTo fuel AnchorType.uninitialised with
  | none => none
  | some old_anchor =>
    let left := old_anchor.getLeft
    let right := old_anchor.getRight
    if left = 0 then some 0
    else if left = right then some 1
    else sizeLoop s.mm.heap right fuel left 2

/-- The statements of `LockFreeDeque::empty()`. -/
def empty (fuel : Nat) (s : DequeBody) : Option Bool :=
  match s.anchor.copyTo fuel AnchorType.uninitialised with
  | none => none
  | some old_anchor =>
    some (if old_anchor.getLeft = 0 ∧ old_anchor.getRight = 0 then true else false)

/-- The `while (true)` loop of `peekRight`. -/
def peekRightLoop (hp : Nat) : Nat → DequeBody → Int → Option (DequeBody × Int × Bool)
  | 0, _, _ => none
  | fuel + 1, s, ret =>
    let right := s.anchor.getRight
    if right = 0 then some (s, ret, false)
    else
      let s1 := { s with mm := s.mm.employ hp 0 right }
      if s1.anchor.getRight ≠ right then peekRightLoop hp fuel s1 ret
      else
        match s1.mm.heap.read right with
        | none => none
        | some rn => some ({ s1 with mm := s1.mm.retire hp 0 }, rn.data, true)

/-- The statements of `LockFreeDeque::peekRight(ret)` run by thread `tid`. -/
def peekRight (fuel : Nat) (s : DequeBody) (tid : Nat) (ret : Int) :
    Option (DequeBody × Int × Bool) :=
  peekRightLoop (s.mm.getHPRec tid).2 fuel { s with mm := (s.mm.getHPRec tid).1 } ret

/-- The `while (true)` loop of `peekLeft`. -/
def peekLeftLoop (hp : Nat) : Nat → DequeBody → Int → Option (DequeBody × Int × Bool)
  | 0, _, _ => none
  | fuel + 1, s, ret =>
    let left := s.anchor.getLeft
    if left = 0 then some (s, ret, false)
    else
      let s1 := { s with mm := s.mm.employ hp 0 left }
      if s1.anchor.getLeft ≠ left then peekLeftLoop hp fuel s1 ret
      else
        match s1.mm.heap.read left with
        | none => none
        | some ln => some ({ s1 with mm := s1.mm.retire hp 0 }, ln.data, true)

/-- The statements of `LockFreeDeque::peekLeft(ret)` run by thread `tid`. -/
def peekLeft (fuel : Nat) (s : DequeBody) (tid : Nat) (ret : Int) :
    Option (DequeBody × Int × Bool) :=
  peekLeftLoop (s.mm.getHPRec tid).2 fuel { s with mm := (s.mm.getHPRec tid).1 } ret

end DequeBody

end Amino

namespace Amino

/-! ## Well-formedness of the store and of the reclamation state -/

namespace Heap
variable {α : Type}

/-- Well-formed free store: `NULL` and the addresses of the pool hold no
object, the pool has no address twice, every allocated or pooled address is
a positive multiple of `ALIGN` not beyond the last fresh block. -/
structure WF (h : Heap α) : Prop where
  null : h.cells 0 = none
  pool_free : ∀ p ∈ h.pool, h.cells p = none
  pool_pos : ∀ p ∈ h.pool, p ≠ 0
  pool_nodup : h.pool.Nodup
  pool_le : ∀ p ∈ h.pool, p ≤ ALIGN * h.brk
  pool_aligned : ∀ p ∈ h.pool, ALIGN ∣ p
  bound : ∀ p, h.cells p ≠ none → p ≤ ALIGN * h.brk
  aligned : ∀ p, h.cells p ≠ none → ALIGN ∣ p

end Heap

namespace HPRecType

/-- The nodes a record is responsible for: the retired ones and the ones in
its free list of data nodes. -/
def owned (r : HPRecType) : List Nat := r.rlist ++ r.frListData.take r.fr_data_count

/-- Shape of a record with `K` hazard slots. -/
structure WF (K : Nat) (r : HPRecType) : Prop where
  hp_len : r.hp.length = K
  allocType : r.allocType = MEM_NOALIGN
  fr_data_le : r.fr_data_count ≤ MAX_FREE_NODES
  fr_data_len : r.frListData.length = MAX_FREE_NODES + 1
  fr_smr_le : r.fr_smr_count ≤ r.frListSMR.length

/-- What `SMR::scan` does with a retired node no hazard pointer refers to:
`freeData` of the node, then `freeSMRNode` of its list node. -/
def release {α : Type} (x : HPRecType × Heap α) (d : Nat) : HPRecType × Heap α :=
  ((x.1.freeData x.2 d).1.freeSMRNode d, (x.1.freeData x.2 d).2)

end HPRecType

namespace SMR
variable {α : Type}

/-- All nodes some record is responsible for. -/
def allOwned (s : SMR α) : List Nat := s.hprecs.flatMap HPRecType.owned

/-- All nodes the records other than the one at address `a` are responsible for. -/
def othersOwned (s : SMR α) (a : Nat) : List Nat :=
  (s.hprecs.eraseIdx (s.hprecs.length - a)).flatMap HPRecType.owned

/-- A node that is allocated and neither retired nor in a free list: the
nodes a container may still reach. -/
def live (s : SMR α) (p : Nat) : Prop := s.heap.cells p ≠ none ∧ p ∉ s.allOwned

/-- Well-formed reclamation state. -/
structure WF (s : SMR α) : Prop where
  heap : s.heap.WF
  recs : ∀ r ∈ s.hprecs, r.WF s.K
  count : s.hprecs.length ≤ s.hp_count
  tl : ∀ t, s.thread_local t ≤ s.hprecs.length
  cap : ∀ n, (s.hprecs.map HPRecType.nrThreads).head? = some n → s.hprecs.length ≤ n
  owned_alloc : ∀ p ∈ s.allOwned, s.heap.cells p ≠ none
  owned_nodup : s.allOwned.Nodup

/-- The address `a` is the address of a record of the list. -/
def valid (s : SMR α) (a : Nat) : Prop := a ≠ 0 ∧ a ≤ s.hprecs.length

/-- The relation between the state `s` before and `s'` after a step that
leaves the store and the ownership of every node alone (a step on hazard
slots or on the list of records). -/
structure SameNodes (s s' : SMR α) : Prop where
  heap : s'.heap = s.heap
  owned : s'.allOwned = s.allOwned
  K : s'.K = s.K
  len : s.hprecs.length ≤ s'.hprecs.length

/-- The relation between the state `s` before and `s'` after `newNode`
returned `p`: `p` was not live and is now a live, default-constructed node;
nothing else changed. -/
structure Fresh [Inhabited α] (s s' : SMR α) (p : Nat) : Prop where
  live : s'.live p
  dead : ¬ s.live p
  aligned : ALIGN ∣ p
  cell : s'.heap.cells p = some default
  cells : ∀ q, q ≠ p → s'.heap.cells q = s.heap.cells q
  lives : ∀ q, q ≠ p → (s'.live q ↔ s.live q)
  tl : s'.thread_local = s.thread_local
  K : s'.K = s.K
  len : s'.hprecs.length = s.hprecs.length
  brk_le : s.heap.brk ≤ s'.heap.brk
  brk_ge : s'.heap.brk ≤ s.heap.brk + 1
  RH : s'.RH = s.RH

/-- The bookkeeping relation between the state `s` before and `s'` after the
nodes `ps` were handed to the reclamation scheme and the nodes `del` were
given back to the free store: nothing else changes hands and only the
deleted cells change. -/
structure Retired (s s' : SMR α) (ps del : List Nat) : Prop where
  perm : List.Perm (ps ++ s.allOwned) (s'.allOwned ++ del)
  cells : ∀ q, s'.heap.cells q = if q ∈ del then none else s.heap.cells q
  tl : s'.thread_local = s.thread_local
  K : s'.K = s.K
  len : s'.hprecs.length = s.hprecs.length
  brk : s'.heap.brk = s.heap.brk
  RH : s'.RH = s.RH

end SMR

end Amino

namespace Amino

/-! ## A sample reclamation state -/

/-- A record whose hazard slot holds the node 8 and whose retired list is 8, 16. -/
def sampleRec : HPRecType where
  hp := [8]
  active := true
  rlist := [8, 16]
  rcount := 2
  nrThreads := 1
  allocType := 0
  frListSMR := []
  frListData := List.replicate 33 0
  fr_smr_count := 0
  fr_data_count := 0

/-- A reclamation state with the single record `sampleRec`, owned by every thread. -/
def sampleSMR : SMR StackNode where
  K := 1
  heap := Heap.empty
  hprecs := [sampleRec]
  hp_count := 1
  RH := 16
  allocType := 0
  thread_local := fun _ => 1

/-! ## Linked structures in the store -/

namespace Heap
variable {α : Type}

/-- Following the link `nxt` from `p` visits exactly the nodes `l`, in this
order, and then arrives at `q`. -/
def path (nxt : α → Nat) (h : Heap α) : Nat → List Nat → Nat → Prop
  | p, [], q => p = q
  | p, a :: l, q => p = a ∧ ∃ n, h.cells a = some n ∧ path nxt h (nxt n) l q

end Heap

/-! ## Specification of the stack -/

namespace LockFreeStack

/-- The list starting at `p` and ending in `NULL` holds exactly the values `xs`, top first. -/
def chain (h : Heap StackNode) : Nat → List Int → Prop
  | p, [] => p = 0
  | p, x :: xs => ∃ n, h.cells p = some n ∧ n.data = x ∧ chain h n.next xs

/-- The values stored in the nodes `l`. -/
def dataOf (h : Heap StackNode) (l : List Nat) : List Int :=
  l.map (fun a => match h.cells a with
    | some n => n.data
    | none => 0)

/-- The representation invariant: the nodes `l` reached from `top` are pairwise
different live nodes and the list ends in `NULL`. -/
structure Inv (s : LockFreeStack) (l : List Nat) : Prop where
  wf : s.mm.WF
  path : s.mm.heap.path StackNode.next s.top l 0
  nodup : l.Nodup
  live : ∀ a ∈ l, s.mm.live a

/-- The states one thread `tid` can bring a stack into, starting from a newly
constructed stack over a well-formed reclamation state. -/
inductive Reachable (tid : Nat) : LockFreeStack → Prop
  | init (mm : SMR StackNode) : mm.WF → Reachable tid (LockFreeStack.init mm)
  | push (fuel : Nat) (s s' : LockFreeStack) (d : Int) :
      Reachable tid s → LockFreeStack.push fuel s tid d = some s' → Reachable tid s'
  | pop (fuel : Nat) (s s' : LockFreeStack) (ret ret' : Int) (b : Bool) :
      Reachable tid s → LockFreeStack.pop fuel s tid ret = some (s', ret', b) → Reachable tid s'
  | peekTop (fuel : Nat) (s s' : LockFreeStack) (ret ret' : Int) (b : Bool) :
      Reachable tid s → LockFreeStack.peekTop fuel s tid ret = some (s', ret', b) →
      Reachable tid s'

/-- Push the values `xs` one after the other (the loop of `PushOp` in examples/stack_mt.cpp). -/
def pushAll (fuel : Nat) (tid : Nat) : LockFreeStack → List Int → Option LockFreeStack
  | s, [] => some s
  | s, x :: xs =>
    match LockFreeStack.push fuel s tid x with
    | none => none
    | some s1 => pushAll fuel tid s1 xs

/-- Call `pop(res)` `n` times on the same variable `res`; the results and the
values of `res` after each call, in call order. -/
def popN (fuel : Nat) (tid : Nat) : Nat → LockFreeStack → Int → Option (LockFreeStack × List (Bool × Int))
  | 0, s, _ => some (s, [])
  | n + 1, s, res =>
    match LockFreeStack.pop fuel s tid res with
    | none => none
    | some (s1, res1, b) =>
      match popN fuel tid n s1 res1 with
      | none => none
      | some (s2, out) => some (s2, (b, res1) :: out)

/-- What `n` calls of `pop(res)` return on the abstract stack `xs` (top
first): the result and the value of `res` after each call. -/
def specPopN : Nat → List Int → Int → List (Bool × Int)
  | 0, _, _ => []
  | n + 1, [], res => (false, res) :: specPopN n [] res
  | n + 1, x :: xs, _ => (true, x) :: specPopN n xs x

end LockFreeStack

end Amino

namespace Amino

/-! ## Specification of the queue -/

namespace LockFreeQueue

/-- The values stored in the nodes `l`. -/
def dataOf (h : Heap QNode) (l : List Nat) : List Int :=
  l.map (fun a => match h.cells a with
    | some n => n.data
    | none => 0)

/-- The representation invariant: `head` is the sentinel, the nodes `l` after
it hold the contents, the list ends in `NULL`, `tail` is its last node, and
all nodes are pairwise different live nodes. -/
structure Inv (s : LockFreeQueue) (l : List Nat) : Prop where
  wf : s.mm.WF
  path : s.mm.heap.path QNode.next s.head (s.head :: l) 0
  tail : (s.head :: l).getLast? = some s.tail
  nodup : (s.head :: l).Nodup
  live : ∀ a ∈ s.head :: l, s.mm.live a

/-- A call of one of the operations of the queue; `dequeue` and `peekFront`
carry the value the out-parameter has before the call. -/
inductive QOp where
  | enqueue (d : Int)
  | dequeue (ret : Int)
  | peekFront (top : Int)
  | empty
  | size
deriving DecidableEq, Repr

/-- What a call returns: nothing, a success flag with the out-parameter
afterwards, a boolean, or a number. -/
inductive QRes where
  | done
  | value (b : Bool) (out : Int)
  | flag (b : Bool)
  | count (n : Nat)
deriving DecidableEq, Repr

/-- One call on the queue of the code, run by thread `tid`. -/
def step (fuel tid : Nat) (s : LockFreeQueue) : QOp → Option (LockFreeQueue × QRes)
  | .enqueue d =>
    match enqueue fuel s tid d with
    | none => none
    | some s1 => some (s1, .done)
  | .dequeue ret =>
    match dequeue fuel s tid ret with
    | none => none
    | some (s1, ret1, b) => some (s1, .value b ret1)
  | .peekFront top =>
    match peekFront fuel s tid top with
    | none => none
    | some (s1, top1, b) => some (s1, .value b top1)
  | .empty =>
    match empty s with
    | none => none
    | some b => some (s, .flag b)
  | .size =>
    match size fuel s with
    | none => none
    | some n => some (s, .count n)

/-- A sequence of calls on the queue of the code. -/
def run (fuel tid : Nat) : List QOp → LockFreeQueue → Option (LockFreeQueue × List QRes)
  | [], s => some (s, [])
  | op :: ops, s =>
    match step fuel tid s op with
    | none => none
    | some (s1, r) =>
      match run fuel tid ops s1 with
      | none => none
      | some (s2, rs) => some (s2, r :: rs)

/-- One call on the mathematical FIFO sequence `q` (front first): `enqueue`
appends at the back, `dequeue` removes and returns the front, `peekFront`
returns the front without removing it. -/
def fifoStep : QOp → List Int → List Int × QRes
  | .enqueue d, q => (q ++ [d], .done)
  | .dequeue ret, [] => ([], .value false ret)
  | .dequeue _, x :: q => (q, .value true x)
  | .peekFront top, [] => ([], .value false top)
  | .peekFront _, x :: q => (x :: q, .value true x)
  | .empty, q => (q, .flag q.isEmpty)
  | .size, q => (q, .count q.length)

/-- A sequence of calls on the mathematical FIFO sequence. -/
def fifoRun : List QOp → List Int → List QRes
  | [], _ => []
  | op :: ops, q => (fifoStep op q).2 :: fifoRun ops (fifoStep op q).1

/-- The values enqueued by a sequence of calls, in call order. -/
def enqueued : List QOp → List Int
  | [] => []
  | .enqueue d :: ops => d :: enqueued ops
  | _ :: ops => enqueued ops

/-- The values returned by the successful `dequeue` calls, in call order. -/
def dequeued : List QOp → List QRes → List Int
  | .dequeue _ :: ops, .value true x :: rs => x :: dequeued ops rs
  | _ :: ops, _ :: rs => dequeued ops rs
  | _, _ => []

end LockFreeQueue

end Amino

namespace Amino

/-! ## Specification of the ordered list -/

namespace SMR
variable {α : Type}

/-- The relation between the state `s` before and `s'` after steps that only
write hazard slots or look up the record of a thread. -/
structure SlotsOnly (s s' : SMR α) : Prop where
  wf : s'.WF
  same : SameNodes s s'
  K : s'.K = s.K
  len : s.hprecs.length ≤ s'.hprecs.length

/-- The relation between the state `s` before and `s'` after stores into
allocated nodes: only the store differs, and the same addresses are allocated. -/
structure CellsOnly (s s' : SMR α) : Prop where
  eq : s' = { s with heap := s'.heap }
  wf : s'.WF
  alloc : ∀ q, s'.heap.cells q ≠ none ↔ s.heap.cells q ≠ none

/-- The content of hazard slot `i` of the record at address `hp`. -/
def slot (s : SMR α) (hp i : Nat) : Option Nat :=
  match s.getRec hp with
  | none => none
  | some r => r.hp[i]?

end SMR

namespace OrderedList

/-- The keys stored in the nodes `l`. -/
def keysOf (h : Heap NodeType) (l : List Nat) : List Int :=
  l.map (fun a => match h.cells a with
    | some n => n.data
    | none => 0)

/-- A traversal from `p` along the `next` pointers visits nodes without
deletion mark holding exactly the keys `ks`, and ends in `NULL`. -/
def chain (h : Heap NodeType) : Nat → List Int → Prop
  | p, [] => p = 0
  | p, k :: ks => ∃ n, h.cells p = some n ∧ n.data = k ∧ MARKED n.next = false ∧
      chain h n.next ks

/-- The representation invariant: the nodes `l` reached from `head` are
pairwise different live nodes, their `next` fields are plain pointers, the
list ends in `NULL`, and the keys increase strictly. -/
structure Inv (s : OrderedList) (l : List Nat) : Prop where
  wf : s.mm.WF
  K : s.mm.K = NHPOINTER
  path : s.mm.heap.path NodeType.next s.head l 0
  sorted : (keysOf s.mm.heap l).Pairwise (· < ·)
  nodup : l.Nodup
  live : ∀ a ∈ l, s.mm.live a

/-- The states one thread `tid` can bring a list into by `insert`, `remove`
and `search` calls, starting from a newly constructed list. -/
inductive Reachable (tid : Nat) : OrderedList → Prop
  | init (mm : SMR NodeType) : mm.WF → mm.K = NHPOINTER → Reachable tid (OrderedList.init mm)
  | insert (fuel : Nat) (s s' : OrderedList) (index e : Int) (b : Bool) :
      Reachable tid s → OrderedList.insert fuel s tid index e = some (s', b) → Reachable tid s'
  | remove (fuel : Nat) (s s' : OrderedList) (e : Int) (b : Bool) :
      Reachable tid s → OrderedList.remove fuel s tid e = some (s', b) → Reachable tid s'
  | search (fuel : Nat) (s s' : OrderedList) (e : Int) (b : Bool) :
      Reachable tid s → OrderedList.search fuel s tid e = some (s', b) → Reachable tid s'

/-- An `insert(k)` or a `remove(k)` call. -/
inductive LOp where
  | insert (k : Int)
  | remove (k : Int)
deriving DecidableEq, Repr

/-- A sequence of `insert` and `remove` calls on the list of the code, run by
thread `tid`: the final state and the results. -/
def runOps (fuel tid : Nat) : List LOp → OrderedList → Option (OrderedList × List Bool)
  | [], s => some (s, [])
  | .insert k :: ops, s =>
    match OrderedList.insert fuel s tid 0 k with
    | none => none
    | some (s1, b) =>
      match runOps fuel tid ops s1 with
      | none => none
      | some (s2, bs) => some (s2, b :: bs)
  | .remove k :: ops, s =>
    match OrderedList.remove fuel s tid k with
    | none => none
    | some (s1, b) =>
      match runOps fuel tid ops s1 with
      | none => none
      | some (s2, bs) => some (s2, b :: bs)

/-- Whether the most recent call on the key `k` in `ops` is an `insert`
(`false` when no call is on `k`). -/
def lastIsInsert (k : Int) (ops : List LOp) : Bool :=
  ops.foldl (fun b o => match o with
    | .insert j => if j = k then true else b
    | .remove j => if j = k then false else b) false

/-- The location a traversal started with `prev` holds as `prev` after it
has passed the nodes `pre`. -/
def lastLoc (prev : Loc) (pre : List Nat) : Loc :=
  match pre.getLast? with
  | none => prev
  | some p => .next p

end OrderedList

end Amino

namespace Amino

/-! ## Specification of the deque -/

namespace DequeBody

/-- The values stored in the nodes `l`. -/
def dataOf (h : Heap DNode) (l : List Nat) : List Int :=
  l.map (fun a => match h.cells a with
    | some n => n.data
    | none => 0)

/-- Neighbours in the list of nodes `l` point to each other: `right` of the
one is the other, and `left` of the other is the one. -/
def linked (h : Heap DNode) : List Nat → Prop
  | a :: b :: l =>
    (∃ n, h.cells a = some n ∧ n.right = b) ∧ (∃ m, h.cells b = some m ∧ m.left = a) ∧
      linked h (b :: l)
  | _ => True

/-- The two words of the anchor `<left, right, status>`. -/
def mkAnchor (left right status : Nat) : AnchorType :=
  { value := { low := left, high := status * 2 ^ (LONG_BITS - 2) + right / 4 } }

/-- The representation invariant: the anchor is `<first, last, STABLE>` for
the nodes `l` from left to right (`<NULL, NULL, STABLE>` when there is none),
neighbours point to each other, the nodes are pairwise different live nodes,
and the addresses handed out so far fit into a pointer. -/
structure Inv (s : DequeBody) (l : List Nat) : Prop where
  wf : s.mm.WF
  anchor : s.anchor = mkAnchor (l.headD 0) (l.getLastD 0) STABLE
  linked : linked s.mm.heap l
  nodup : l.Nodup
  live : ∀ a ∈ l, s.mm.live a
  range : ALIGN * s.mm.heap.brk < 2 ^ LONG_BITS

/-- A call of one of the operations of the deque; the pop and peek calls carry
the value the out-parameter has before the call. -/
inductive DOp where
  | pushLeft (d : Int)
  | pushRight (d : Int)
  | popLeft (ret : Int)
  | popRight (ret : Int)
  | peekLeft (ret : Int)
  | peekRight (ret : Int)
  | empty
  | size
deriving DecidableEq, Repr

/-- What a call returns: nothing, a success flag with the out-parameter
afterwards, a boolean, or a number. -/
inductive DRes where
  | done
  | value (b : Bool) (out : Int)
  | flag (b : Bool)
  | count (n : Nat)
deriving DecidableEq, Repr

/-- The statements of one call on the deque, run by thread `tid`. -/
def step (fuel tid : Nat) (s : DequeBody) : DOp → Option (DequeBody × DRes)
  | .pushLeft d =>
    match pushLeft fuel s tid d with
    | none => none
    | some s1 => some (s1, .done)
  | .pushRight d =>
    match pushRight fuel s tid d with
    | none => none
    | some s1 => some (s1, .done)
  | .popLeft ret =>
    match popLeft fuel s tid ret with
    | none => none
    | some (s1, ret1, b) => some (s1, .value b ret1)
  | .popRight ret =>
    match popRight fuel s tid ret with
    | none => none
    | some (s1, ret1, b) => some (s1, .value b ret1)
  | .peekLeft ret =>
    match peekLeft fuel s tid ret with
    | none => none
    | some (s1, ret1, b) => some (s1, .value b ret1)
  | .peekRight ret =>
    match peekRight fuel s tid ret with
    | none => none
    | some (s1, ret1, b) => some (s1, .value b ret1)
  | .empty =>
    match empty fuel s with
    | none => none
    | some b => some (s, .flag b)
  | .size =>
    match size fuel s with
    | none => none
    | some n => some (s, .count n)

/-- The statements of a sequence of calls on the deque. -/
def run (fuel tid : Nat) : List DOp → DequeBody → Option (DequeBody × List DRes)
  | [], s => some (s, [])
  | op :: ops, s =>
    match step fuel tid s op with
    | none => none
    | some (s1, r) =>
      match run fuel tid ops s1 with
      | none => none
      | some (s2, rs) => some (s2, r :: rs)

/-- One call on the mathematical double-ended sequence `q` (left end first):
`pushRight` appends, `pushLeft` prepends, `popLeft` and `popRight` remove and
return the first and the last element, `peekLeft` and `peekRight` return
them without removal. -/
def seqStep : DOp → List Int → List Int × DRes
  | .pushLeft d, q => (d :: q, .done)
  | .pushRight d, q => (q ++ [d], .done)
  | .popLeft ret, [] => ([], .value false ret)
  | .popLeft _, x :: q => (q, .value true x)
  | .popRight ret, q =>
    match q.getLast? with
    | none => (q, .value false ret)
    | some x => (q.dropLast, .value true x)
  | .peekLeft ret, [] => ([], .value false ret)
  | .peekLeft _, x :: q => (x :: q, .value true x)
  | .peekRight ret, q =>
    match q.getLast? with
    | none => (q, .value false ret)
    | some x => (q, .value true x)
  | .empty, q => (q, .flag q.isEmpty)
  | .size, q => (q, .count q.length)

/-- A sequence of calls on the mathematical double-ended sequence. -/
def seqRun : List DOp → List Int → List DRes
  | [], _ => []
  | op :: ops, q => (seqStep op q).2 :: seqRun ops (seqStep op q).1

end DequeBody

end Amino

namespace Amino

/-! ## smr.h: thread exit, `retire` by pointer, `helpScan` -/

namespace HPRecType

/-- The first loop of `HPRecType::cleanFreeList`: `fr_smr_count` times take
`frListSMR->next` and delete the node; the list afterwards.  Taking `next` of
`NULL` is a fault. -/
def cleanSMRLoop : Nat → List Nat → Option (List Nat)
  | 0, frListSMR => some frListSMR
  | _ + 1, [] => none
  | n + 1, _ :: tmp => cleanSMRLoop n tmp

/-- The second loop of `HPRecType::cleanFreeList`, at index `i` with `n` more
nodes to go: `delete frListData[i]` (`free` with the aligned allocator). -/
def cleanDataLoop {α : Type} (frListData : List Nat) : Nat → Nat → Heap α → Heap α
  | 0, _, h => h
  | n + 1, i, h => cleanDataLoop frListData n (i + 1) (h.free (frListData.getD i 0))

/-- `HPRecType::cleanFreeList`. -/
def cleanFreeList {α : Type} (r : HPRecType) (h : Heap α) : Option (HPRecType × Heap α) :=
  match cleanSMRLoop r.fr_smr_count r.frListSMR with
  | none => none
  | some _ =>
    some ({ r with fr_smr_count := 0, fr_data_count := 0, frListSMR := [] },
      cleanDataLoop r.frListData r.fr_data_count 0 h)

end HPRecType

namespace SMR
variable {α : Type}

/-- The loop `for (i = 0; i < K; i++) my_hprec->hp[i] = NULL` of `retireHPRec`,
at index `i` with `n` more slots to go. -/
def clearSlots : Nat → Nat → List Nat → List Nat
  | 0, _, hp => hp
  | n + 1, i, hp => clearSlots n (i + 1) (hp.set i 0)

/-- `retireHPRec<TT, K>(thr_local)`, the destructor of the thread-local record
pointer, on the record at address `thr_local`. -/
def retireHPRec (s : SMR α) (thr_local : Nat) : Option (SMR α) :=
  if thr_local = 0 then some s
  else
    match s.getRec thr_local with
    | none => none
    | some my_hprec =>
      match my_hprec.cleanFreeList s.heap with
      | none => none
      | some (r1, h1) =>
        some (({ s with heap := h1 } : SMR α).setRec thr_local
          { r1 with hp := clearSlots s.K 0 r1.hp, active := false })

/-- What pthread does with the key of `ThreadLocal<HP_Rec*>` when thread `tid`
exits: the value of the key becomes `NULL` and, when it was not `NULL`, the
destructor `retireHPRec` is called with it. -/
def threadExit (s : SMR α) (tid : Nat) : Option (SMR α) :=
  if s.thread_local tid = 0 then some s
  else
    ({ s with thread_local := fun t => if t = tid then 0 else s.thread_local t } : SMR α).retireHPRec
      (s.thread_local tid)

/-- The loop of `SMR::retire(my_hprec, p)`, at index `i` with `n` more slots to go. -/
def retireLoop (p : Nat) : Nat → Nat → List Nat → List Nat
  | 0, _, hp => hp
  | n + 1, i, hp => retireLoop p n (i + 1) (if hp.getD i 0 = p then hp.set i 0 else hp)

/-- `SMR::retire(my_hprec, p)`: the overload that takes the pointer. -/
def retire_p (s : SMR α) (my_hprec : Nat) (p : Nat) : SMR α :=
  match s.getRec my_hprec with
  | some r => s.setRec my_hprec { r with hp := retireLoop p s.K 0 r.hp }
  | none => s

/-- `SMR::mergeList(&old->rlist, &old->rcount, &my->rlist, &my->rcount)` for
the records at the addresses `old` and `my`.  With `old == my` the four
pointers are two: the chain is linked to itself, and the last two stores leave
`rlist == NULL` and `rcount == 0` in the record. -/
def mergeList (s : SMR α) (old my : Nat) : Option (SMR α) :=
  match s.getRec old with
  | none => none
  | some ro =>
    if ro.rlist = [] then some s
    else if old = my then some (s.setRec old { ro with rlist := [], rcount := 0 })
    else
      match s.getRec my with
      | none => none
      | some rm =>
        some ((s.setRec my { rm with rlist := ro.rlist ++ rm.rlist,
                                     rcount := rm.rcount + ro.rcount }).setRec old
          { ro with rlist := [], rcount := 0 })

/-- The loop of `SMR::helpScan` at the record with address `hprec` (`0` is
`NULL`; `hprec->next` is the record with the address one less). -/
def helpScanLoop (my_hprec : Nat) : Nat → SMR α → Option (SMR α)
  | 0, s => some s
  | hprec + 1, s =>
    match s.getRec (hprec + 1) with
    | none => none
    | some r =>
      if r.active = true then helpScanLoop my_hprec hprec s
      else
        -- hprec->active.compare_swap(b, true) with b == false
        match s.getRec (hprec + 1) with
        | none => none
        | some r1 =>
          if r1.active ≠ false then helpScanLoop my_hprec hprec s
          else
            match (s.setRec (hprec + 1) { r1 with active := true }).mergeList (hprec + 1)
                my_hprec with
            | none => none
            | some s2 =>
              match s2.getRec (hprec + 1) with
              | none => none
              | some r2 =>
                helpScanLoop my_hprec hprec (s2.setRec (hprec + 1) { r2 with active := false })

/-- `SMR::helpScan(head)` called by thread `tid` with `head == head_hprec`. -/
def helpScan (s : SMR α) (tid : Nat) : Option (SMR α) :=
  helpScanLoop (s.thread_local tid) s.hprecs.length s

end SMR

end Amino

namespace Amino

/-! ## ebstack.h -/

/-- `EBStack<T>::TRY_TIMES`. -/
def TRY_TIMES : Nat := 4

/-- The number of bits of an `int`. -/
def INT_BITS : Nat := 32

/-- `EBStack<T>`: the atomic `top`, the `SMR<StackNode<T>, 1>` it uses, the
addresses of the static nodes `TOMB_STONE` and `REMOVED`, `coll_size`, the
collision arrays and the atomic `position`.  (`stime` only feeds `usleep`.) -/
structure EBStack where
  top : Nat
  mm : SMR StackNode
  TOMB_STONE : Nat
  REMOVED : Nat
  coll_size : Int
  coll_pop : List Nat
  coll_push : List Nat
  position : Int

namespace EBStack

/-- Read of `arr[index]`; an index outside the array is a fault. -/
def load (arr : List Nat) (index : Int) : Option Nat :=
  if index < 0 then none else arr[index.toNat]?

/-- Store into `arr[index]` (the index has been read before). -/
def store (arr : List Nat) (index : Int) (v : Nat) : List Nat := arr.set index.toNat v

/-- `EBStack::initCollisionArray(num)`. -/
def initCollisionArray (e : EBStack) (num : Int) : EBStack :=
  { e with coll_push := List.replicate num.toNat 0, coll_pop := List.replicate num.toNat 0 }

/-- `EBStack::EBStack(num)`, given the state of `getSMR<StackNode<T>, 1>()` and
the addresses of the two static nodes. -/
def init (mm : SMR StackNode) (num : Int) (tomb removed : Nat) : EBStack :=
  initCollisionArray
    { top := 0, mm := mm, TOMB_STONE := tomb, REMOVED := removed, coll_size := num,
      coll_pop := [], coll_push := [], position := 0 } num

/-- `EBStack::get_rand_position()`: `position++ % coll_size`, the increment
wrapping as that of an atomic `int` does, `%` with the sign of the dividend. -/
def get_rand_position (e : EBStack) : EBStack × Int :=
  ({ e with position := (e.position + 1 + 2 ^ (INT_BITS - 1)) % 2 ^ INT_BITS - 2 ^ (INT_BITS - 1) },
    Int.tmod e.position e.coll_size)

/-- The first `for` loop of `try_add` at `i`, with `n` more rounds to go:
`none` is a fault, `some none` the end of the loop without `return`. -/
def tryAddTomb (node : Nat) (pos : Int) : Nat → Int → EBStack → Option (Option (EBStack × Bool))
  | 0, _, _ => some none
  | n + 1, i, e =>
    let index := Int.tmod (pos + i) e.coll_size
    match load e.coll_pop index with
    | none => none
    | some pop_op =>
      if pop_op = e.TOMB_STONE then
        match load e.coll_pop index with
        | none => none
        | some cur =>
          if cur = pop_op then some (some ({ e with coll_pop := store e.coll_pop index node }, true))
          else tryAddTomb node pos n (i + 1) e
      else tryAddTomb node pos n (i + 1) e

/-- The `while (true)` loop inside the second `for` loop of `try_add`; every
path through its body returns. -/
def tryAddWait (node : Nat) (index : Int) (e : EBStack) : Option (EBStack × Bool) :=
  match load e.coll_push index with
  | none => none
  | some push_op =>
    if push_op = node then
      match load e.coll_push index with
      | none => none
      | some cur =>
        if cur = node then some ({ e with coll_push := store e.coll_push index 0 }, false)
        else some ({ e with coll_push := store e.coll_push index 0 }, true)
    else some ({ e with coll_push := store e.coll_push index 0 }, true)

/-- The second `for` loop of `try_add` at `i`, with `n` more rounds to go. -/
def tryAddPush (node : Nat) (pos : Int) : Nat → Int → EBStack → Option (Option (EBStack × Bool))
  | 0, _, _ => some none
  | n + 1, i, e =>
    let index := Int.tmod (pos + i) e.coll_size
    match load e.coll_push index with
    | none => none
    | some push_op =>
      if push_op = 0 then
        match load e.coll_push index with
        | none => none
        | some cur =>
          if cur = push_op then
            match tryAddWait node index { e with coll_push := store e.coll_push index node } with
            | none => none
            | some res => some (some res)
          else tryAddPush node pos n (i + 1) e
      else tryAddPush node pos n (i + 1) e

/-- `EBStack::try_add(node)`. -/
def try_add (e : EBStack) (node : Nat) : Option (EBStack × Bool) :=
  match tryAddTomb node e.get_rand_position.2 TRY_TIMES 0 e.get_rand_position.1 with
  | none => none
  | some (some res) => some res
  | some none =>
    match tryAddPush node e.get_rand_position.2 TRY_TIMES 0 e.get_rand_position.1 with
    | none => none
    | some (some res) => some res
    | some none => some (e.get_rand_position.1, false)

/-- The first `for` loop of `try_remove` at `i`, with `n` more rounds to go. -/
def tryRemovePush (pos : Int) : Nat → Int → EBStack → Option (Option (EBStack × Nat))
  | 0, _, _ => some none
  | n + 1, i, e =>
    let index := Int.tmod (pos + i) e.coll_size
    match load e.coll_push index with
    | none => none
    | some push_op =>
      if push_op ≠ 0 ∧ push_op ≠ e.REMOVED then
        match load e.coll_push index with
        | none => none
        | some cur =>
          if cur = push_op then
            some (some ({ e with coll_push := store e.coll_push index e.REMOVED }, push_op))
          else tryRemovePush pos n (i + 1) e
      else tryRemovePush pos n (i + 1) e

/-- The `while (true)` loop inside the second `for` loop of `try_remove`. -/
def tryRemoveWait (index : Int) : Nat → EBStack → Option (EBStack × Nat)
  | 0, _ => none
  | fuel + 1, e =>
    match load e.coll_pop index with
    | none => none
    | some pop_op =>
      if pop_op ≠ e.TOMB_STONE then some ({ e with coll_pop := store e.coll_pop index 0 }, pop_op)
      else
        match load e.coll_pop index with
        | none => none
        | some cur =>
          if cur = pop_op then some ({ e with coll_pop := store e.coll_pop index 0 }, 0)
          else tryRemoveWait index fuel e

/-- The second `for` loop of `try_remove` at `i`, with `n` more rounds to go. -/
def tryRemovePop (fuel : Nat) (pos : Int) : Nat → Int → EBStack → Option (Option (EBStack × Nat))
  | 0, _, _ => some none
  | n + 1, i, e =>
    let index := Int.tmod (pos + i) e.coll_size
    match load e.coll_pop index with
    | none => none
    | some pop_op =>
      if pop_op = 0 then
        match load e.coll_pop index with
        | none => none
        | some cur =>
          if cur = pop_op then
            match tryRemoveWait index fuel { e with coll_pop := store e.coll_pop index e.TOMB_STONE }
              with
            | none => none
            | some res => some (some res)
          else tryRemovePop fuel pos n (i + 1) e
      else tryRemovePop fuel pos n (i + 1) e

/-- `EBStack::try_remove()`; `fuel` bounds the inner `while (true)` loop. -/
def try_remove (fuel : Nat) (e : EBStack) : Option (EBStack × Nat) :=
  match tryRemovePush e.get_rand_position.2 TRY_TIMES 0 e.get_rand_position.1 with
  | none => none
  | some (some res) => some res
  | some none =>
    match tryRemovePop fuel e.get_rand_position.2 TRY_TIMES 0 e.get_rand_position.1 with
    | none => none
    | some (some res) => some res
    | some none => some (e.get_rand_position.1, 0)

/-- The `while (true)` loop of `EBStack::push`. -/
def pushLoop (newTop : Nat) : Nat → EBStack → Option EBStack
  | 0, _ => none
  | fuel + 1, e =>
    let oldTop := e.top
    match e.mm.heap.modify newTop (fun n => { n with next := oldTop }) with
    | none => none
    | some h =>
      let e1 := { e with mm := { e.mm with heap := h } }
      if e1.top = oldTop then some { e1 with top := newTop }
      else
        match e1.try_add newTop with
        | none => none
        | some (e2, true) => some e2
        | some (e2, false) => pushLoop newTop fuel e2

/-- `EBStack::push(d)` run by thread `tid` (`FREELIST` is defined). -/
def push (fuel : Nat) (e : EBStack) (tid : Nat) (d : Int) : Option EBStack :=
  match (e.mm.getHPRec tid).1.newNode (e.mm.getHPRec tid).2 with
  | none => none
  | some (mm1, newTop) =>
    match mm1.heap.modify newTop (fun n => { n with data := d }) with
    | none => none
    | some h => pushLoop newTop fuel { e with mm := { mm1 with heap := h } }

/-- The `while (true)` loop of `EBStack::pop`: the state, `ret` and how the loop
was left: `none` for `return false`, `some none` for the `return true` after
`try_remove`, `some (some oldTop)` for `break`. -/
def popLoop (hp : Nat) : Nat → EBStack → Int → Option (EBStack × Int × Option (Option Nat))
  | 0, _, _ => none
  | fuel + 1, e, ret =>
    let oldTop := e.top
    if oldTop = 0 then some (e, ret, none)
    else
      let e1 := { e with mm := e.mm.employ hp 0 oldTop }
      if e1.top ≠ oldTop then popLoop hp fuel e1 ret
      else
        match e1.mm.heap.read oldTop with
        | none => none
        | some node =>
          if e1.top = oldTop then some ({ e1 with top := node.next }, ret, some (some oldTop))
          else
            match e1.try_remove (fuel + 1) with
            | none => none
            | some (e2, col_ele) =>
              if col_ele ≠ 0 then
                match e2.mm.heap.read col_ele with
                | none => none
                | some c => some (e2, c.data, some none)
              else popLoop hp fuel e2 ret

/-- `EBStack::pop(ret)` run by thread `tid`. -/
def pop (fuel : Nat) (e : EBStack) (tid : Nat) (ret : Int) : Option (EBStack × Int × Bool) :=
  let hp := (e.mm.getHPRec tid).2
  match popLoop hp fuel { e with mm := (e.mm.getHPRec tid).1 } ret with
  | none => none
  | some (e1, ret1, none) => some (e1, ret1, false)
  | some (e1, ret1, some none) => some (e1, ret1, true)
  | some (e1, _, some (some oldTop)) =>
    let mm2 := e1.mm.retire hp 0
    match mm2.heap.read oldTop with
    | none => none
    | some node =>
      -- mm->delNode(oldTop) is delNode(getHPRec(), oldTop)
      match (mm2.getHPRec tid).1.delNode tid (mm2.getHPRec tid).2 oldTop with
      | none => none
      | some mm3 => some ({ e1 with mm := mm3 }, node.data, true)

/-- `EBStack::empty()`. -/
def empty (e : EBStack) : Bool := decide (e.top = 0)

/-- The loop of `EBStack::size()`, started at `node` with the count `ret`. -/
def sizeLoop (h : Heap StackNode) : Nat → Nat → Nat → Option Nat
  | 0, _, _ => none
  | fuel + 1, node, ret =>
    if node = 0 then some ret
    else
      match h.read node with
      | none => none
      | some n => sizeLoop h fuel n.next (ret + 1)

/-- `EBStack::size()`. -/
def size (fuel : Nat) (e : EBStack) : Option Nat := sizeLoop e.mm.heap fuel e.top 0

/-- The `while (true)` loop of `EBStack::peekTop`. -/
def peekTopLoop (hp : Nat) (ret : Int) : Nat → EBStack → Option (EBStack × Int × Bool)
  | 0, _ => none
  | fuel + 1, e =>
    let oldtop := e.top
    if oldtop = 0 then some (e, ret, false)
    else
      let e1 := { e with mm := e.mm.employ hp 0 oldtop }
      if e1.top ≠ oldtop then peekTopLoop hp ret fuel e1
      else
        match e1.mm.heap.read oldtop with
        | none => none
        | some node => some ({ e1 with mm := e1.mm.retire hp 0 }, node.data, true)

/-- `EBStack::peekTop(ret)` run by thread `tid`. -/
def peekTop (fuel : Nat) (e : EBStack) (tid : Nat) (ret : Int) :
    Option (EBStack × Int × Bool) :=
  peekTopLoop (e.mm.getHPRec tid).2 ret fuel { e with mm := (e.mm.getHPRec tid).1 }

end EBStack

end Amino

namespace Amino

/-! ## Specification of the memory manager -/

namespace SMR
variable {α : Type}

/-- A call of a function of smr.h on the state of one `SMR<T, K>`. -/
inductive Op where
  | getHPRec (tid : Nat)
  | employ (my_hprec index pointer : Nat)
  | retire (my_hprec index : Nat)
  | retire_p (my_hprec p : Nat)
  | delNode (tid my_hprec node : Nat)
  | newNode (my_hprec : Nat)
  | scan (tid : Nat)
  | helpScan (tid : Nat)
  | retireHPRec (thr_local : Nat)
  | threadExit (tid : Nat)
deriving DecidableEq, Repr

/-- The state after a call (`none`: the call faults). -/
def exec [Inhabited α] (s : SMR α) : Op → Option (SMR α)
  | .getHPRec tid => some (s.getHPRec tid).1
  | .employ my_hprec index pointer => some (s.employ my_hprec index pointer)
  | .retire my_hprec index => some (s.retire my_hprec index)
  | .retire_p my_hprec p => some (s.retire_p my_hprec p)
  | .delNode tid my_hprec node => s.delNode tid my_hprec node
  | .newNode my_hprec =>
    match s.newNode my_hprec with
    | none => none
    | some (s1, _) => some s1
  | .scan tid => s.scan tid
  | .helpScan tid => s.helpScan tid
  | .retireHPRec thr_local => s.retireHPRec thr_local
  | .threadExit tid => s.threadExit tid

/-- A sequence of calls. -/
def execAll [Inhabited α] : List Op → SMR α → Option (SMR α)
  | [], s => some s
  | op :: ops, s =>
    match s.exec op with
    | none => none
    | some s1 => execAll ops s1

/-- The states of `getSMR<T, K>(atype)` that calls of the functions of smr.h
lead to. -/
inductive Reachable [Inhabited α] (K atype : Nat) : SMR α → Prop
  | init : Reachable K atype (SMR.init K atype)
  | step (s s' : SMR α) (op : Op) : Reachable K atype s → s.exec op = some s' →
      Reachable K atype s'

end SMR

namespace HPRecType

/-- A call of one of the free-list functions of a record. -/
inductive RecOp where
  | allocDataNode
  | allocSMRNode
  | freeData (node : Nat)
  | freeSMRNode (data : Nat)
  | cleanFreeList
deriving DecidableEq, Repr

/-- The record and the store after a call (`none`: the call faults). -/
def execRec {α : Type} [Inhabited α] (x : HPRecType × Heap α) :
    RecOp → Option (HPRecType × Heap α)
  | .allocDataNode =>
    match x.1.allocDataNode x.2 with
    | none => none
    | some (r1, h1, _) => some (r1, h1)
  | .allocSMRNode =>
    match x.1.allocSMRNode with
    | none => none
    | some r1 => some (r1, x.2)
  | .freeData node => some (x.1.freeData x.2 node)
  | .freeSMRNode data => some (x.1.freeSMRNode data, x.2)
  | .cleanFreeList => x.1.cleanFreeList x.2

/-- A sequence of calls on a record. -/
def runRec {α : Type} [Inhabited α] :
    List RecOp → HPRecType × Heap α → Option (HPRecType × Heap α)
  | [], x => some x
  | op :: ops, x =>
    match execRec x op with
    | none => none
    | some x1 => runRec ops x1

end HPRecType

/-- One thread takes a record and retires sixteen nodes; the sixteenth call
reaches the threshold `RH` and runs `scan`. -/
def retireOps16 : List SMR.Op :=
  SMR.Op.getHPRec 0 :: (List.range 16).map (fun i => SMR.Op.delNode 0 1 (8 * (i + 1)))

/-- The record of the thread after `retireOps16`: no hazard pointer was set,
so `scan` moved all sixteen data nodes and list nodes to the free lists. -/
def sampleRecFree : HPRecType where
  hp := [0]
  active := true
  rlist := []
  rcount := 0
  nrThreads := 1
  allocType := 0
  frListSMR := [8, 16, 24, 32, 40, 48, 56, 64, 72, 80, 88, 96, 104, 112, 120, 128]
  frListData := [128, 120, 112, 104, 96, 88, 80, 72, 64, 56, 48, 40, 32, 24, 16, 8]
    ++ List.replicate 17 0
  fr_smr_count := 16
  fr_data_count := 16

/-- The reclamation state after `retireOps16`. -/
def sampleSMRFree : SMR StackNode where
  K := 1
  heap := Heap.empty
  hprecs := [sampleRecFree]
  hp_count := 1
  RH := 16
  allocType := 0
  thread_local := fun t => if t = 0 then 1 else 0

end Amino

namespace Amino

namespace SMR
variable {α : Type}

/-- The `active` flags of the records, in list order. -/
def flags (s : SMR α) : List Bool := s.hprecs.map (fun r => r.active)

/-- The relation between the state `s` before and `s'` after a call that
neither adds a record nor changes the counters. -/
structure SameList (s s' : SMR α) : Prop where
  K : s'.K = s.K
  hp_count : s'.hp_count = s.hp_count
  RH : s'.RH = s.RH
  allocType : s'.allocType = s.allocType
  len : s'.hprecs.length = s.hprecs.length

/-- The relation between the state `s` before and `s'` after a call that
leaves the list of records, the counters, the `active` flags and the records
of the threads as they are. -/
structure Quiet (s s' : SMR α) : Prop where
  list : SameList s s'
  flags : s'.flags = s.flags
  tl : s'.thread_local = s.thread_local

/-- The retired pointers `helpScan` collects from the inactive records with
the addresses `n`, ..., `1`: the list of the record visited last comes first. -/
def gathered (s : SMR α) : Nat → List Nat
  | 0 => []
  | n + 1 =>
    match s.getRec (n + 1) with
    | some r => if r.active = true then gathered s n else gathered s n ++ r.rlist
    | none => gathered s n

/-- The sum of the `rcount` of the inactive records with the addresses `n`, ..., `1`. -/
def gatheredCount (s : SMR α) : Nat → Nat
  | 0 => 0
  | n + 1 =>
    match s.getRec (n + 1) with
    | some r => if r.active = true then gatheredCount s n else gatheredCount s n + r.rcount
    | none => gatheredCount s n

/-- How often `p` occurs in the retired lists of all records. -/
def retiredCount (s : SMR α) (p : Nat) : Nat :=
  (s.hprecs.map (fun r => r.rlist.count p)).sum

end SMR

/-- The record of a thread that has exited with two retired nodes. -/
def sampleRecLeft : HPRecType where
  hp := [0]
  active := false
  rlist := [16, 24]
  rcount := 2
  nrThreads := 1
  allocType := 0
  frListSMR := []
  frListData := List.replicate 33 0
  fr_smr_count := 0
  fr_data_count := 0

/-- The record of a running thread with one retired node. -/
def sampleRecMine : HPRecType where
  hp := [0]
  active := true
  rlist := [8]
  rcount := 1
  nrThreads := 2
  allocType := 0
  frListSMR := []
  frListData := List.replicate 33 0
  fr_smr_count := 0
  fr_data_count := 0

/-- A reclamation state with the records `sampleRecMine` (at the head of the
list, the record of every thread) and `sampleRecLeft`. -/
def sampleSMRHelp : SMR StackNode where
  K := 1
  heap := Heap.empty
  hprecs := [sampleRecMine, sampleRecLeft]
  hp_count := 2
  RH := 16
  allocType := 0
  thread_local := fun _ => 2

/-- A thread takes a record and exits. -/
def exitOps : List SMR.Op := [SMR.Op.getHPRec 0, SMR.Op.threadExit 0]

/-- The record the thread of `exitOps` leaves behind. -/
def sampleRecIdle : HPRecType where
  hp := [0]
  active := false
  rlist := []
  rcount := 0
  nrThreads := 1
  allocType := 0
  frListSMR := []
  frListData := List.replicate 33 0
  fr_smr_count := 0
  fr_data_count := 0

/-- The reclamation state after `exitOps`: one inactive record, no thread owns one. -/
def sampleSMRExited : SMR StackNode where
  K := 1
  heap := Heap.empty
  hprecs := [sampleRecIdle]
  hp_count := 1
  RH := 16
  allocType := 0
  thread_local := fun _ => 0

/-- The reclamation state after the threads 0, ..., 8 have each taken a record. -/
def sampleSMRNine : SMR StackNode :=
  (List.range 9).foldl (fun s t => (s.getHPRec t).1) (SMR.init 1 0)

end Amino

namespace Amino

namespace HPRecType

/-- The shape of the two free lists of a record. -/
structure Capped (r : HPRecType) : Prop where
  data_le : r.fr_data_count ≤ MAX_FREE_NODES
  smr_le : r.fr_smr_count ≤ MAX_FREE_NODES
  smr_len : r.fr_smr_count = r.frListSMR.length
  data_len : r.frListData.length = MAX_FREE_NODES + 1
  noalign : r.allocType = MEM_NOALIGN

end HPRecType

end Amino

namespace Amino

namespace DequeBody

/-- The states the statements of the public operations lead to when one
thread `tid` runs them one call after the other, starting from `start mm` over
a well-formed reclamation state; a push is made while the store has room for
one more node below `2 ^ LONG_BITS`. -/
inductive Reachable (tid : Nat) : DequeBody → Prop
  | init (mm : SMR DNode) : mm.WF → ALIGN * mm.heap.brk < 2 ^ LONG_BITS →
      Reachable tid (DequeBody.start mm)
  | step (fuel : Nat) (s s' : DequeBody) (op : DOp) (r : DRes) : Reachable tid s →
      (∀ d, op = DOp.pushLeft d ∨ op = DOp.pushRight d →
        ALIGN * (s.mm.heap.brk + 1) < 2 ^ LONG_BITS) →
      DequeBody.step fuel tid s op = some (s', r) → Reachable tid s'

/-- The state after the statements of `pushRight(1)` run by thread 0 on
`start (SMR.init 3 0)`. -/
def sampleDeque1 : DequeBody :=
  (pushRight 2 (DequeBody.start (SMR.init 3 0)) 0 1).getD (DequeBody.start (SMR.init 3 0))

/-- The state after the statements of `pushRight(1)` and of `pushRight(2)` run
by thread 0 on `start (SMR.init 3 0)`. -/
def sampleDeque2 : DequeBody :=
  (pushRight 2 sampleDeque1 0 2).getD sampleDeque1

end DequeBody

namespace LockFreeQueue

/-- The states one thread `tid` can bring a queue into by `enqueue`,
`dequeue` and `peekFront` calls, starting from a newly constructed queue over
a well-formed reclamation state. -/
inductive Reachable (tid : Nat) : LockFreeQueue → Prop
  | init (mm : SMR QNode) : mm.WF → Reachable tid (LockFreeQueue.init mm)
  | enqueue (fuel : Nat) (s s' : LockFreeQueue) (d : Int) :
      Reachable tid s → LockFreeQueue.enqueue fuel s tid d = some s' → Reachable tid s'
  | dequeue (fuel : Nat) (s s' : LockFreeQueue) (ret ret' : Int) (b : Bool) :
      Reachable tid s → LockFreeQueue.dequeue fuel s tid ret = some (s', ret', b) →
      Reachable tid s'
  | peekFront (fuel : Nat) (s s' : LockFreeQueue) (top top' : Int) (b : Bool) :
      Reachable tid s → LockFreeQueue.peekFront fuel s tid top = some (s', top', b) →
      Reachable tid s'

/-- The queue after `enqueue(1)` by thread 0 on a new queue. -/
def sampleQueue1 : LockFreeQueue :=
  (enqueue 2 (LockFreeQueue.init (SMR.init 2 0)) 0 1).getD (LockFreeQueue.init (SMR.init 2 0))

/-- The queue after `enqueue(1)` and `enqueue(2)` by thread 0 on a new queue. -/
def sampleQueue2 : LockFreeQueue :=
  (enqueue 2 sampleQueue1 0 2).getD sampleQueue1

end LockFreeQueue

/-- A call of one of the operations of a stack; `pop` and `peekTop` carry the
value the out-parameter has before the call. -/
inductive SOp where
  | push (d : Int)
  | pop (ret : Int)
  | peekTop (ret : Int)
  | empty
  | size
deriving DecidableEq, Repr

/-- What a call on a stack returns: nothing, a success flag with the
out-parameter afterwards, a boolean, or a number. -/
inductive SRes where
  | done
  | value (b : Bool) (out : Int)
  | flag (b : Bool)
  | count (n : Nat)
deriving DecidableEq, Repr

namespace LockFreeStack

/-- One call on a `LockFreeStack`, run by thread `tid`. -/
def step (fuel tid : Nat) (s : LockFreeStack) : SOp → Option (LockFreeStack × SRes)
  | .push d =>
    match push fuel s tid d with
    | none => none
    | some s1 => some (s1, .done)
  | .pop ret =>
    match pop fuel s tid ret with
    | none => none
    | some (s1, ret1, b) => some (s1, .value b ret1)
  | .peekTop ret =>
    match peekTop fuel s tid ret with
    | none => none
    | some (s1, ret1, b) => some (s1, .value b ret1)
  | .empty => some (s, .flag (empty s))
  | .size =>
    match size fuel s with
    | none => none
    | some n => some (s, .count n)

/-- A sequence of calls on a `LockFreeStack`. -/
def run (fuel tid : Nat) : List SOp → LockFreeStack → Option (LockFreeStack × List SRes)
  | [], s => some (s, [])
  | op :: ops, s =>
    match step fuel tid s op with
    | none => none
    | some (s1, r) =>
      match run fuel tid ops s1 with
      | none => none
      | some (s2, rs) => some (s2, r :: rs)

end LockFreeStack

namespace EBStack

/-- One call on an `EBStack`, run by thread `tid`. -/
def step (fuel tid : Nat) (e : EBStack) : SOp → Option (EBStack × SRes)
  | .push d =>
    match push fuel e tid d with
    | none => none
    | some e1 => some (e1, .done)
  | .pop ret =>
    match pop fuel e tid ret with
    | none => none
    | some (e1, ret1, b) => some (e1, .value b ret1)
  | .peekTop ret =>
    match peekTop fuel e tid ret with
    | none => none
    | some (e1, ret1, b) => some (e1, .value b ret1)
  | .empty => some (e, .flag (empty e))
  | .size =>
    match size fuel e with
    | none => none
    | some n => some (e, .count n)

/-- A sequence of calls on an `EBStack`. -/
def run (fuel tid : Nat) : List SOp → EBStack → Option (EBStack × List SRes)
  | [], e => some (e, [])
  | op :: ops, e =>
    match step fuel tid e op with
    | none => none
    | some (e1, r) =>
      match run fuel tid ops e1 with
      | none => none
      | some (e2, rs) => some (e2, r :: rs)

/-- The `LockFreeStack` with the `top` and the memory manager of an `EBStack`. -/
def toStack (e : EBStack) : LockFreeStack := { top := e.top, mm := e.mm }

/-- The `EBStack` `e` with `top` and the memory manager taken from `s`. -/
def withStack (e : EBStack) (s : LockFreeStack) : EBStack := { e with top := s.top, mm := s.mm }

end EBStack

/-- A sequence of calls on a stack that empties it and pops once more. -/
def sampleStackOps : List SOp :=
  [SOp.push 1, SOp.push 2, SOp.size, SOp.peekTop 0, SOp.pop 0, SOp.empty, SOp.pop 0, SOp.pop 7,
   SOp.empty]

end Amino

namespace Amino

/-! ## lockfree_dictionary.h, lockfree_priorityqueue.h: `randomLevel` -/

/-- `MAXLEVEL` of lockfree_dictionary.h and lockfree_priorityqueue.h. -/
def MAXLEVEL : Nat := 10

/-- An `int` is kept as its 32-bit pattern, a number below `2 ^ 32`. -/
def INT_WIDTH : Nat := 32

/-- `x << k` on the bit pattern of an `int`. -/
def intShl (x k : Nat) : Nat := (x * 2 ^ k) % 2 ^ INT_WIDTH

/-- `x >> k` on the bit pattern of an `int`: the sign bit is copied into the
`k` highest bits. -/
def intShr (x k : Nat) : Nat :=
  if x < 2 ^ (INT_WIDTH - 1) then x / 2 ^ k
  else x / 2 ^ k + (2 ^ INT_WIDTH - 2 ^ (INT_WIDTH - k))

/-- The first three statements of `randomLevel`: the new `randomSeed`. -/
def xorshift (randomSeed : Nat) : Nat :=
  let x1 := randomSeed ^^^ intShl randomSeed 13
  let x2 := x1 ^^^ intShr x1 17
  x2 ^^^ intShl x2 5

/-- The loop `while ((((x >>= 1) & 1) != 0) && (level < MAXLEVEL - 1)) ++level;`
of `randomLevel`: `&&` does not test the level when the bit is clear. -/
def randomLevelLoop : Nat → Nat → Nat → Option Nat
  | 0, _, _ => none
  | fuel + 1, x, level =>
    if (intShr x 1) &&& 1 ≠ 0 ∧ level < MAXLEVEL - 1 then
      randomLevelLoop fuel (intShr x 1) (level + 1)
    else some level

namespace LockFreeDictionary

/-- `LockFreeDictionary::randomLevel()`: the new `randomSeed` and the level. -/
def randomLevel (fuel : Nat) (randomSeed : Nat) : Option (Nat × Nat) :=
  match randomLevelLoop fuel (xorshift randomSeed) 1 with
  | none => none
  | some level => some (xorshift randomSeed, level)

end LockFreeDictionary

namespace LockFreePriorityQueue

/-- `LockFreePriorityQueue::randomLevel()`: the new `randomSeed` and the level. -/
def randomLevel (fuel : Nat) (randomSeed : Nat) : Option (Nat × Nat) :=
  match randomLevelLoop fuel (xorshift randomSeed) 1 with
  | none => none
  | some level => some (xorshift randomSeed, level)

end LockFreePriorityQueue

end Amino

namespace Amino

/-! ## accumulate.h -/

/-- `std::accumulate(first, last, init, op)` on the values of `[first, last)`. -/
def std_accumulate (op : Int → Int → Int) (init : Int) (xs : List Int) : Int :=
  xs.foldl op init

/-- `CallStdAccumulate_Func::run` on the values of `[f_first, f_last)`:
`std::accumulate(f_first + 1, f_last, *f_first, *f_func)`; reading `*f_first`
of an empty range is a fault. -/
def CallStdAccumulate_Func.run (f_func : Int → Int → Int) : List Int → Option Int
  | [] => none
  | x :: rest => some (std_accumulate f_func x rest)

/-- `MULTI_NUM` of `accumulate`. -/
def MULTI_NUM : Nat := 3

/-- `accumulate(exec, threadNum, first, last, func)` on the values `xs` of
`[first, last)`: the result of every task is awaited, so the result does not
depend on the executor.  The division by `threadNum == 0` and reading `*first`
of an empty range are faults. -/
def accumulate (threadNum : Nat) (xs : List Int) (func : Int → Int → Int) : Option Int :=
  if xs.length < MULTI_NUM * threadNum then
    match xs with
    | [] => none
    | x :: rest => some (std_accumulate (fun a b => a + b) x rest)
  else if threadNum = 0 then none
  else
    let step := xs.length / threadNum
    let result := (List.range threadNum).mapM (fun i =>
      CallStdAccumulate_Func.run func
        (if i + 1 < threadNum then (xs.drop (i * step)).take step else xs.drop (i * step)))
    match result with
    | none => none
    | some [] => none
    | some (r :: rs) => some (std_accumulate func r rs)

end Amino

namespace Amino

namespace OrderedList

/-! ## Lists with nodes that carry a deletion mark -/

/-- A traversal from `p` visits the nodes `L`, each given with its deletion
mark, and ends in `NULL`: the `next` field of a node is the pointer to the
node after it, with the last bit set when the node is marked. -/
def mchain (h : Heap NodeType) : Nat → List (Nat × Bool) → Prop
  | p, [] => p = 0
  | p, (a, m) :: L => p = a ∧ ∃ n q, h.cells a = some n ∧
      n.next = (if m = true then MARK q else q) ∧ mchain h q L

/-- The addresses of the nodes `L`. -/
def nodesOf (L : List (Nat × Bool)) : List Nat := L.map Prod.fst

/-- The nodes of `L` without deletion mark. -/
def unmarkedOf (L : List (Nat × Bool)) : List Nat :=
  (L.filter (fun x => !x.2)).map Prod.fst

/-- The nodes of `L` with a deletion mark. -/
def markedOf (L : List (Nat × Bool)) : List Nat :=
  (L.filter (fun x => x.2)).map Prod.fst

/-- A well-formed list seen from the location `start`: `*start` is an
unmarked pointer to the first of the nodes `L`, which are pairwise different
live nodes, `start` is not a field of one of them, and the keys of the nodes
without deletion mark increase strictly. -/
structure MInv (s : OrderedList) (start : Loc) (L : List (Nat × Bool)) : Prop where
  wf : s.mm.WF
  K : s.mm.K = NHPOINTER
  first : ∃ p, s.load start = some p ∧ mchain s.mm.heap p L
  start_ok : ∀ d, start = Loc.next d → d ∉ nodesOf L ∧ s.mm.live d
  sorted : (keysOf s.mm.heap (unmarkedOf L)).Pairwise (· < ·)
  nodup : (nodesOf L).Nodup
  live : ∀ a ∈ nodesOf L, s.mm.live a

/-- The bookkeeping relation between the reclamation state `m` before and
`m'` after a traversal that handed the nodes `ps` to `delNode`, which gave
the nodes `del` back to the free store: nothing else changes hands, the other
nodes stay allocated and keep their keys. -/
structure Unlinked (m m' : SMR NodeType) (ps del : List Nat) : Prop where
  wf : m'.WF
  K : m'.K = m.K
  tl : m'.thread_local = m.thread_local
  len : m'.hprecs.length = m.hprecs.length
  perm : List.Perm (ps ++ m.allOwned) (m'.allOwned ++ del)
  alloc : ∀ q, m'.heap.cells q ≠ none ↔ (m.heap.cells q ≠ none ∧ q ∉ del)
  data : ∀ q, q ∉ del →
    (m'.heap.cells q).map NodeType.data = (m.heap.cells q).map NodeType.data

/-- A list with the keys 1, 2, 3 and 5 in the nodes 16, 24, 32 and 40 behind
the `dummy` node 8, in which the nodes 16 and 32 carry a deletion mark. -/
def sampleMarked : OrderedList :=
  { head := 16, dummy := 8,
    mm := { (SMR.init NHPOINTER 0 : SMR NodeType) with
      heap := ((((((((((Heap.empty : Heap NodeType).alloc default).2.alloc default).2.alloc
        default).2.alloc default).2.alloc default).2.put 16
          (some { data := 1, next := 25 })).put 24
          (some { data := 2, next := 32 })).put 32
          (some { data := 3, next := 41 })).put 40
          (some { data := 5, next := 0 })) } }

/-- The nodes of `sampleMarked` with their marks. -/
def sampleMarkedNodes : List (Nat × Bool) :=
  [(16, true), (24, false), (32, true), (40, false)]

end OrderedList

end Amino

namespace Amino

/-! ## lockfree_dictionary.h -/

/-- `DictNode<K, V>` for `int` keys: `value` is the pointer to the `Value<V>`,
which carries the deletion mark in its last bit, and `next` has `MAXLEVEL`
entries. -/
structure DictNode where
  level : Int
  validLevel : Int
  version : Int
  key : Int
  value : Nat
  prev : Nat
  next : List Nat
deriving DecidableEq, Repr

/-- `DictNode()`. -/
instance : Inhabited DictNode :=
  ⟨{ level := -1, validLevel := 0, version := 0, key := 0, value := 0, prev := 0,
     next := List.replicate MAXLEVEL 0 }⟩

/-- `LockFreeDictionary<int, int>`: the `Value<V>` objects are kept in the
store `values`; the static node of `getINVALID` is kept in the store of the
nodes. -/
structure LockFreeDictionary where
  head : Nat
  tail : Nat
  INVALID : Nat
  mm : SMR DictNode
  values : Heap Int
  randomSeed : Nat

namespace LockFreeDictionary

/-- `LockFreeDictionary::LockFreeDictionary()`, given the state of
`getSMR<DictNode, MAXLEVEL>()`, the store of the values and the value of
`rand() | 0x0100`. -/
def init (mm : SMR DictNode) (values : Heap Int) (seed : Nat) : LockFreeDictionary :=
  let head := (mm.heap.alloc default).1
  let h1 := (mm.heap.alloc default).2
  let tail := (h1.alloc default).1
  let h2 := (h1.alloc default).2
  let h3 := h2.put head
    (some { (default : DictNode) with validLevel := MAXLEVEL - 1,
                                       next := List.replicate MAXLEVEL tail })
  let h4 := h3.put tail (some { (default : DictNode) with validLevel := MAXLEVEL - 1 })
  { head := head, tail := tail, INVALID := (h4.alloc default).1,
    mm := { mm with heap := (h4.alloc default).2 }, values := values, randomSeed := seed }

/-- `node->next[i].load()`. -/
def getNext (s : LockFreeDictionary) (node i : Nat) : Option Nat :=
  match s.mm.heap.read node with
  | none => none
  | some n => n.next[i]?

/-- `node->next[i].store(v)`. -/
def setNext (s : LockFreeDictionary) (node i v : Nat) : Option LockFreeDictionary :=
  match s.mm.heap.read node with
  | none => none
  | some n =>
    if i < n.next.length then
      some { s with mm := { s.mm with
        heap := s.mm.heap.put node (some { n with next := n.next.set i v }) } }
    else none

/-- The loop `for (i = curLevel; i < node->level; ++i)` of `helpDelete` with
`count` levels left: the deletion mark is set on `node->next[i]` where it is
not set; without interference the CAS succeeds at once. -/
def markLevels (node : Nat) : Nat → Nat → LockFreeDictionary → Option LockFreeDictionary
  | 0, _, s => some s
  | count + 1, i, s =>
    match s.getNext node i with
    | none => none
    | some node2 =>
      if MARKED node2 = true then markLevels node count (i + 1) s
      else
        match s.setNext node i (MARK node2) with
        | none => none
        | some s1 => markLevels node count (i + 1) s1

mutual

/-- `readNext(node, curLevel)`: the state, the updated `node` and the result. -/
def readNext (tid : Nat) : Nat → LockFreeDictionary → Nat → Nat →
    Option (LockFreeDictionary × Nat × Nat)
  | 0, _, _, _ => none
  | fuel + 1, s, node, curLevel =>
    if node = s.tail then none
    else
      match s.mm.heap.read node with
      | none => none
      | some n =>
        if MARKED n.value = true then
          match helpDelete tid fuel s node curLevel with
          | none => none
          | some (s1, node1) => readNextLoop tid fuel s1 node1 curLevel
        else readNextLoop tid fuel s node curLevel
termination_by structural f => f

/-- The loads of `node->next[curLevel]` in `readNext` and its
`while (NULL == nextNode)` loop. -/
def readNextLoop (tid : Nat) : Nat → LockFreeDictionary → Nat → Nat →
    Option (LockFreeDictionary × Nat × Nat)
  | 0, _, _, _ => none
  | fuel + 1, s, node, curLevel =>
    match s.getNext node curLevel with
    | none => none
    | some tmpNode =>
      -- READ_NODE(tmpNode)
      let nextNode := if MARKED tmpNode = true then 0 else tmpNode
      if nextNode = 0 then
        match helpDelete tid fuel s node curLevel with
        | none => none
        | some (s1, node1) => readNextLoop tid fuel s1 node1 curLevel
      else if MARKED nextNode = true then none
      else some (s, node, nextNode)
termination_by structural f => f

/-- `scanKey(node, curLevel, expectedKey)`: the state, the updated `node` and
the result. -/
def scanKey (tid : Nat) : Nat → LockFreeDictionary → Nat → Nat → Int →
    Option (LockFreeDictionary × Nat × Nat)
  | 0, _, _, _, _ => none
  | fuel + 1, s, node, curLevel, expectedKey =>
    let hp := (s.mm.getHPRec tid).2
    match readNext tid fuel { s with mm := (s.mm.getHPRec tid).1 } node curLevel with
    | none => none
    | some (s1, node1, nextNode) => scanKeyLoop tid fuel s1 hp node1 nextNode curLevel expectedKey
termination_by structural f => f

/-- The `while` loop of `scanKey`. -/
def scanKeyLoop (tid : Nat) : Nat → LockFreeDictionary → Nat → Nat → Nat → Nat → Int →
    Option (LockFreeDictionary × Nat × Nat)
  | 0, _, _, _, _, _, _ => none
  | fuel + 1, s, hp, node, nextNode, curLevel, expectedKey =>
    if nextNode = s.tail then some (s, node, nextNode)
    else
      match (if nextNode = s.head then some true
             else (s.mm.heap.read nextNode).map (fun n => decide (n.key < expectedKey))) with
      | none => none
      | some false => some (s, node, nextNode)
      | some true =>
        match readNext tid fuel { s with mm := s.mm.retire_p hp node } nextNode curLevel with
        | none => none
        | some (s1, node1, nextNode1) =>
          scanKeyLoop tid fuel s1 hp node1 nextNode1 curLevel expectedKey
termination_by structural f => f

/-- `searchLevel(last, curLevel, expectedKey)`: the state, the updated `last`
and the result. -/
def searchLevel (tid : Nat) : Nat → LockFreeDictionary → Nat → Nat → Int →
    Option (LockFreeDictionary × Nat × Nat)
  | 0, _, _, _, _ => none
  | fuel + 1, s, last, curLevel, expectedKey =>
    searchLevelTry tid fuel { s with mm := (s.mm.getHPRec tid).1 } (s.mm.getHPRec tid).2
      last curLevel expectedKey
termination_by structural f => f

/-- The label `try_again` of `searchLevel`. -/
def searchLevelTry (tid : Nat) : Nat → LockFreeDictionary → Nat → Nat → Nat → Int →
    Option (LockFreeDictionary × Nat × Nat)
  | 0, _, _, _, _, _ => none
  | fuel + 1, s, hp, last, curLevel, expectedKey =>
    if last = s.tail then none
    else searchLevelLoop tid fuel s hp last last 0 curLevel expectedKey
termination_by structural f => f

/-- The `while (true)` loop of `searchLevel` with the locals `curNode` and `stop`. -/
def searchLevelLoop (tid : Nat) : Nat → LockFreeDictionary → Nat → Nat → Nat → Nat → Nat →
    Int → Option (LockFreeDictionary × Nat × Nat)
  | 0, _, _, _, _, _, _, _ => none
  | fuel + 1, s, hp, last, curNode, stop, curLevel, expectedKey =>
    match s.mm.heap.read curNode with
    | none => none
    | some cn =>
      match cn.next[curLevel]? with
      | none => none
      | some nx =>
        let nextNode := POINTER nx
        if nextNode = 0 then
          if curNode = last then
            match helpDelete tid fuel s last curLevel with
            | none => none
            | some (s1, last1) =>
              searchLevelLoop tid fuel s1 hp last1 last1 stop curLevel expectedKey
          else searchLevelLoop tid fuel s hp last last stop curLevel expectedKey
        else
          -- (nextNode != head) && (nextNode == tail || nextNode->key >= expectedKey)
          match (if nextNode = s.head then some false
                 else if nextNode = s.tail then some true
                 else (s.mm.heap.read nextNode).map (fun n => decide (n.key ≥ expectedKey))) with
          | none => none
          | some true =>
            -- last == head || curNode == tail || curNode->key >= last->key
            match (if last = s.head then some true
                   else if curNode = s.tail then some true
                   else (s.mm.heap.read last).map (fun l => decide (cn.key ≥ l.key))) with
            | none => none
            | some c3 =>
              if (cn.validLevel > curLevel ∨ curNode = last ∨ curNode = stop) ∧
                  (curNode ≠ s.tail ∧ (curNode = s.head ∨ cn.key < expectedKey)) ∧
                  c3 = true then
                if cn.validLevel ≤ curLevel then
                  let s1 := { s with mm := (s.mm.retire_p hp curNode).employ hp 0 last }
                  match scanKey tid fuel s1 last curLevel expectedKey with
                  | none => none
                  | some (s2, curNode2, nextNode2) =>
                    some ({ s2 with mm := s2.mm.retire_p hp nextNode2 }, last, curNode2)
                else some (s, last, curNode)
              else
                let s1 := { s with mm := s.mm.retire_p hp curNode }
                match s1.mm.heap.read last with
                | none => none
                | some l =>
                  if MARKED l.value = true then
                    match helpDelete tid fuel s1 last curLevel with
                    | none => none
                    | some (s2, last2) =>
                      searchLevelLoop tid fuel s2 hp last2 last2 curNode curLevel expectedKey
                  else searchLevelLoop tid fuel s1 hp last last curNode curLevel expectedKey
          | some false =>
            -- last != tail && nextNode != head &&
            --   (last == head || nextNode == tail || nextNode->key >= last->key)
            match (if last = s.tail then some false
                   else if nextNode = s.head then some false
                   else if last = s.head then some true
                   else if nextNode = s.tail then some true
                   else
                     match s.mm.heap.read nextNode, s.mm.heap.read last with
                     | some n, some l => some (decide (n.key ≥ l.key))
                     | _, _ => none) with
            | none => none
            | some true => searchLevelLoop tid fuel s hp last nextNode stop curLevel expectedKey
            | some false =>
              match s.mm.heap.read last with
              | none => none
              | some l =>
                if MARKED l.value = true then
                  match helpDelete tid fuel s last curLevel with
                  | none => none
                  | some (s2, last2) =>
                    searchLevelLoop tid fuel s2 hp last2 last2 stop curLevel expectedKey
                else searchLevelLoop tid fuel s hp last last stop curLevel expectedKey
termination_by structural f => f

/-- `helpDelete(node, curLevel)`: the state and the result. -/
def helpDelete (tid : Nat) : Nat → LockFreeDictionary → Nat → Nat →
    Option (LockFreeDictionary × Nat)
  | 0, _, _, _ => none
  | fuel + 1, s, node, curLevel =>
    if node = s.tail ∨ node = s.head then none
    else
      let hp := (s.mm.getHPRec tid).2
      let s0 := { s with mm := (s.mm.getHPRec tid).1 }
      match s0.mm.heap.read node with
      | none => none
      | some n =>
        match markLevels node (n.level - curLevel).toNat curLevel s0 with
        | none => none
        | some s1 =>
          match s1.mm.heap.read node with
          | none => none
          | some n1 =>
            let prevNode := n1.prev
            match (if prevNode = 0 then some true
                   else (s1.mm.heap.read prevNode).map
                     (fun p => decide ((curLevel : Int) ≥ p.validLevel))) with
            | none => none
            | some true =>
              helpDeleteLoop tid fuel { s1 with mm := s1.mm.employ hp 0 s1.head } hp node
                s1.head curLevel
            | some false => helpDeleteLoop tid fuel s1 hp node prevNode curLevel
termination_by structural f => f

/-- The `while (true)` loop of `helpDelete` and the statements after it. -/
def helpDeleteLoop (tid : Nat) : Nat → LockFreeDictionary → Nat → Nat → Nat → Nat →
    Option (LockFreeDictionary × Nat)
  | 0, _, _, _, _, _ => none
  | fuel + 1, s, hp, node, prevNode, curLevel =>
    match s.getNext node curLevel, s.mm.heap.read node, s.mm.heap.read prevNode with
    | some nx, some n, some p =>
      if nx = s.INVALID then some ({ s with mm := s.mm.retire_p hp node }, prevNode)
      else
        match helpDeleteFor tid fuel s hp n.key prevNode (p.validLevel - curLevel).toNat
            curLevel with
        | none => none
        | some (s1, prevNode1) =>
          match scanKey tid fuel s1 prevNode1 curLevel n.key with
          | none => none
          | some (s2, prevNode2, last) =>
            let s3 := { s2 with mm := s2.mm.retire_p hp last }
            match s3.getNext node curLevel with
            | none => none
            | some nx3 =>
              if last ≠ node ∨ nx3 = s3.INVALID then
                some ({ s3 with mm := s3.mm.retire_p hp node }, prevNode2)
              else
                match s3.getNext prevNode2 curLevel with
                | none => none
                | some pn =>
                  if pn = node then
                    match s3.setNext prevNode2 curLevel (POINTER nx3) with
                    | none => none
                    | some s4 =>
                      match s4.setNext node curLevel s4.INVALID with
                      | none => none
                      | some s5 => some ({ s5 with mm := s5.mm.retire_p hp node }, prevNode2)
                  else if nx3 = s3.INVALID then
                    some ({ s3 with mm := s3.mm.retire_p hp node }, prevNode2)
                  else helpDeleteLoop tid fuel s3 hp node prevNode2 curLevel
    | _, _, _ => none
termination_by structural f => f

/-- The loop `for (i = prevNode->validLevel - 1; i >= curLevel; --i)` of
`helpDelete` with `count` levels left. -/
def helpDeleteFor (tid : Nat) : Nat → LockFreeDictionary → Nat → Int → Nat → Nat → Nat →
    Option (LockFreeDictionary × Nat)
  | 0, _, _, _, _, _, _ => none
  | _ + 1, s, _, _, prevNode, 0, _ => some (s, prevNode)
  | fuel + 1, s, hp, key, prevNode, count + 1, curLevel =>
    match searchLevel tid fuel s prevNode (curLevel + count) key with
    | none => none
    | some (s1, prevNode1, node1) =>
      helpDeleteFor tid fuel { s1 with mm := s1.mm.retire_p hp prevNode1 } hp key node1 count
        curLevel
termination_by structural f => f

end

/-- The loop `for (i = MAXLEVEL - 1; i >= 0; --i)` of `findKey` with `count`
levels left. -/
def findKeyLevels (tid hp : Nat) (key : Int) (fuel : Nat) :
    Nat → LockFreeDictionary → Nat → Option (LockFreeDictionary × Nat)
  | 0, s, last => some (s, last)
  | count + 1, s, last =>
    match searchLevel tid fuel s last count key with
    | none => none
    | some (s1, last1, node1) =>
      findKeyLevels tid hp key fuel count { s1 with mm := s1.mm.retire_p hp last1 } node1

/-- `LockFreeDictionary::findKey(key, value)` run by thread `tid`: the state,
the out-parameter `value` afterwards and the result.  Reading `result->v`
through a `NULL` pointer is a fault. -/
def findKey (fuel : Nat) (s : LockFreeDictionary) (tid : Nat) (key : Int) (value : Int) :
    Option (LockFreeDictionary × Int × Bool) :=
  let hp := (s.mm.getHPRec tid).2
  let s0 := { s with mm := (s.mm.getHPRec tid).1.employ hp 0 s.head }
  match findKeyLevels tid hp key fuel MAXLEVEL s0 s0.head with
  | none => none
  | some (s1, last) =>
    match scanKey tid fuel s1 last 0 key with
    | none => none
    | some (s2, last2, node2) =>
      let s3 := { s2 with mm := s2.mm.retire_p hp last2 }
      match s3.mm.heap.read node2 with
      | none => none
      | some n2 =>
        let result := n2.value
        if n2.key ≠ key ∨ MARKED result = true then
          some ({ s3 with mm := s3.mm.retire_p hp node2 }, value, false)
        else
          match s3.values.read result with
          | none => none
          | some v => some ({ s3 with mm := s3.mm.retire_p hp node2 }, v, true)

/-- The dictionary `s'` differs from `s` in the hazard slots and records of
the memory manager only. -/
structure SameDict (s s' : LockFreeDictionary) : Prop where
  head : s'.head = s.head
  tail : s'.tail = s.tail
  values : s'.values = s.values
  heap : s'.mm.heap = s.mm.heap

/-- A dictionary without keys: every level of `head` leads to `tail`, `head`
and `tail` are as the constructor leaves them, and no `Value<V>` is stored at
`NULL`. -/
structure NoKeys (s : LockFreeDictionary) : Prop where
  ne : s.head ≠ s.tail
  tail_aligned : ALIGN ∣ s.tail
  tail_ne : s.tail ≠ 0
  head_cell : ∃ hn, s.mm.heap.cells s.head = some hn ∧
    hn.next = List.replicate MAXLEVEL s.tail ∧ hn.validLevel = MAXLEVEL - 1 ∧ hn.value = 0
  tail_cell : ∃ tn, s.mm.heap.cells s.tail = some tn ∧ tn.key = 0 ∧ tn.value = 0
  null_value : s.values.cells 0 = none

end LockFreeDictionary

end Amino

namespace Amino

/-! ## lockfree_set.h -/

/-- The conversion of an `int` to `unsigned int`. -/
def toUnsigned (i : Int) : Nat := (i % 2 ^ INT_WIDTH).toNat

/-- The conversion of an `unsigned int` to `int`. -/
def toInt (u : Nat) : Int :=
  if u < 2 ^ (INT_WIDTH - 1) then (u : Int) else (u : Int) - 2 ^ INT_WIDTH

/-- `SetNode<int>`. -/
structure SetNode where
  element : Int
  key : Nat
deriving DecidableEq, Repr

namespace SetNode

/-- `SetNode::operator==`. -/
def eq (a b : SetNode) : Bool := decide (a.key = b.key) && decide (a.element = b.element)

/-- `SetNode::operator>=`. -/
def ge (a b : SetNode) : Bool :=
  if a.key = b.key then decide (a.element ≥ b.element) else decide (a.key ≥ b.key)

/-- The number that stands for a `SetNode<int>` in the nodes of the ordered
list: `operator==` and `operator>=` of two set nodes with `int` elements are
`=` and `≥` of their numbers. -/
def code (a : SetNode) : Int := (a.key : Int) * 2 ^ INT_WIDTH + (a.element + 2 ^ (INT_WIDTH - 1))

end SetNode

namespace OrderedList

/-- The `while (true)` loop of `OrderedList::add_returnAddress`; a failing
`assert` is a fault. -/
def addReturnLoop (e : Int) (start : Loc) (tid node : Nat) :
    Nat → OrderedList → Option (OrderedList × Nat)
  | 0, _ => none
  | fuel + 1, s =>
    match find (fuel + 1) s tid e start with
    | none => none
    | some (s1, holder, true) =>
      -- delete node
      some ({ s1 with mm := { s1.mm with heap := s1.mm.heap.free node } }, holder.cur)
    | some (s1, holder, false) =>
      if MARKED holder.cur = true then none
      else
        match s1.mm.heap.modify node (fun n => { n with next := holder.cur }) with
        | none => none
        | some h =>
          let s2 := { s1 with mm := { s1.mm with heap := h } }
          match holder.prev with
          | none => none
          | some prev =>
            match s2.compare_swap prev holder.cur node with
            | none => none
            | some (s3, true) => if node = 0 then none else some (s3, node)
            | some (s3, false) => addReturnLoop e start tid node fuel s3

/-- `OrderedList::add_returnAddress(e, start)` run by thread `tid`. -/
def add_returnAddress (fuel : Nat) (s : OrderedList) (tid : Nat) (e : Int) (start : Loc) :
    Option (OrderedList × Nat) :=
  match (s.mm.getHPRec tid).1.newNode (s.mm.getHPRec tid).2 with
  | none => none
  | some (mm1, node) =>
    match mm1.heap.modify node (fun n => { n with data := e }) with
    | none => none
    | some h =>
      if MARKED node = true then none
      else
        let mm2 : SMR NodeType := { mm1 with heap := h }
        let hp := (mm2.getHPRec tid).2
        match addReturnLoop e start tid node fuel { s with mm := (mm2.getHPRec tid).1 } with
        | none => none
        | some (s1, result) => some (s1.retireAll hp, result)

end OrderedList

/-- `Set<int>`: a cell of `mainArray` is `none` for `NULL` and holds the cells
of its segment otherwise; `loadFactor` is kept as a rational number. -/
structure Set where
  oList : OrderedList
  mainArray : List (Option (List Nat))
  _count : Int
  segmentSize : Int
  loadFactor : Rat
  _size : Int

namespace Set

/-- `DEFAULT_ARRAY_SIZE`. -/
def DEFAULT_ARRAY_SIZE : Nat := 512

/-- `DEFAULT_SEGMENT_SIZE`. -/
def DEFAULT_SEGMENT_SIZE : Nat := 64

/-- `MINIMAL_SEGMENT_SIZE`. -/
def MINIMAL_SEGMENT_SIZE : Nat := 8

/-- `SET_MAX_LOAD`. -/
def SET_MAX_LOAD : Rat := Rat.mk' 3 4 (by decide) (by norm_num)

/-- `hash_function<int>`. -/
def hash_function (element : Int) : Int := element

/-- `getLargestValue(n)` on `unsigned int`. -/
def getLargestValue (n : Nat) : Nat :=
  let n1 := n ||| (n >>> 1)
  let n2 := n1 ||| (n1 >>> 2)
  let n3 := n2 ||| (n2 >>> 4)
  let n4 := n3 ||| (n3 >>> 8)
  let n5 := n4 ||| (n4 >>> 16)
  n5 - (n5 >>> 1)

/-- `binary_reverse(n)` on `unsigned int`. -/
def binary_reverse (n : Nat) : Nat :=
  let n1 := (((n &&& 0x55555555) <<< 1) ||| ((n >>> 1) &&& 0x55555555)) % 2 ^ INT_WIDTH
  let n2 := (((n1 &&& 0x33333333) <<< 2) ||| ((n1 >>> 2) &&& 0x33333333)) % 2 ^ INT_WIDTH
  let n3 := (((n2 &&& 0x0f0f0f0f) <<< 4) ||| ((n2 >>> 4) &&& 0x0f0f0f0f)) % 2 ^ INT_WIDTH
  ((n3 <<< 24) % 2 ^ INT_WIDTH) ||| ((n3 &&& 0xff00) <<< 8) ||| ((n3 >>> 8) &&& 0xff00)
    ||| (n3 >>> 24)

/-- `dummyKey(key)`. -/
def dummyKey (key : Nat) : Nat := binary_reverse key

/-- `regularKey(key)`. -/
def regularKey (key : Nat) : Nat := binary_reverse (key ||| 0x80000000)

/-- `get_parent(bucket)`. -/
def get_parent (bucket : Nat) : Nat := bucket - getLargestValue bucket

/-- The first statement of `set_bucket`, with `segment` computed: a new
segment is stored in `mainArray[segment]` if that cell is `NULL`.  An index
outside of `mainArray` is a fault. -/
def newSegment (s : Set) (segment : Int) : Option Set :=
  if segment < 0 then none
  else
    match s.mainArray[segment.toNat]? with
    | none => none
    | some (some _) => some s
    | some none =>
      some { s with mainArray :=
        s.mainArray.set segment.toNat (some (List.replicate s.segmentSize.toNat 0)) }

/-- `mainArray[segment][index]`; an index outside of the array or of the
segment is a fault. -/
def cell (s : Set) (segment index : Int) : Option Nat :=
  if segment < 0 ∨ index < 0 then none
  else
    match s.mainArray[segment.toNat]? with
    | some (some seg) => seg[index.toNat]?
    | _ => none

/-- `get_bucket(bucket)`: the state and the content of the cell. -/
def get_bucket (s : Set) (bucket : Nat) : Option (Set × Nat) :=
  let local_size := s._size
  if toUnsigned local_size = 0 ∨ toUnsigned s.segmentSize = 0 then none
  else
    let bucket := bucket % toUnsigned local_size
    let segment := toInt (bucket / toUnsigned s.segmentSize)
    if segment < 0 then none
    else
      match s.mainArray[segment.toNat]? with
      | none => none
      | some (some seg) => (seg[bucket % toUnsigned s.segmentSize]?).map (fun v => (s, v))
      | some none =>
        -- set_bucket(bucket, NULL)
        match newSegment s (Int.tdiv (toInt bucket) s.segmentSize) with
        | none => none
        | some s1 =>
          (s1.cell segment (bucket % toUnsigned s.segmentSize : Nat)).map (fun v => (s1, v))

/-- `set_bucket(bucket, head)`; a failing `assert` is a fault. -/
def set_bucket (s : Set) (bucket : Int) (head : Nat) : Option Set :=
  if s.segmentSize = 0 then none
  else
    let segment := Int.tdiv bucket s.segmentSize
    match newSegment s segment with
    | none => none
    | some s1 =>
      if head = 0 then some s1
      else
        let index := Int.tmod bucket s1.segmentSize
        match s1.cell segment index, s1.mainArray[segment.toNat]? with
        | some v, some (some seg) =>
          -- compare_swap(BUCKET_UNINITIALIZE, head)
          let s2 := if v = 0 then
              { s1 with mainArray := s1.mainArray.set segment.toNat (some (seg.set index.toNat head)) }
            else s1
          match s2.get_bucket (toUnsigned bucket) with
          | none => none
          | some (s3, w) => if w = head then some s3 else none
        | _, _ => none

/-- The list as the calls on `&start` see it: the local atomic `start` takes
the place of `head`. -/
def startList (s : Set) (start : Nat) : OrderedList := { s.oList with head := start }

/-- The set after a call on `&start` that left the list `l`: the local
`start` is dropped and `head` is the `head` of the list of the set. -/
def withList (s : Set) (l : OrderedList) : Set :=
  { s with oList := { l with head := s.oList.head } }

/-- `initialize_bucket(bucket)` run by thread `tid`; a failing `assert` is a
fault. -/
def initialize_bucket (tid : Nat) : Nat → Set → Nat → Option Set
  | 0, _, _ => none
  | fuel + 1, s, bucket =>
    let parent := get_parent bucket
    match s.get_bucket parent with
    | none => none
    | some (s1, p) =>
      match (if p = 0 then initialize_bucket tid fuel s1 parent else some s1) with
      | none => none
      | some s2 =>
        match s2.get_bucket parent with
        | none => none
        | some (s3, p3) =>
          if p3 = 0 then none
          else if binary_reverse (dummyKey bucket) ≠ bucket then none
          else
            let dummy := SetNode.code { element := 0, key := dummyKey bucket }
            match s3.get_bucket parent with
            | none => none
            | some (s4, start) =>
              match OrderedList.add_returnAddress fuel (s4.startList start) tid dummy
                  Loc.head with
              | none => none
              | some (l5, address) =>
                match OrderedList.search fuel l5 tid dummy with
                | none => none
                | some (_, false) => none
                | some (l6, true) =>
                  match set_bucket (s4.withList l6) (toInt bucket) address with
                  | none => none
                  | some s7 =>
                    match s7.get_bucket bucket with
                    | none => none
                    | some (s8, v) => if v = address then some s8 else none

/-- `Set::Set(expectedSetSize, expectedLoadFactor)` run by thread `tid`, given
the state of the memory manager of the list. -/
def init (fuel : Nat) (mm : SMR NodeType) (tid : Nat) (expectedSetSize : Int)
    (expectedLoadFactor : Rat) : Option Set :=
  let seg := toInt ((getLargestValue (toUnsigned (Int.tdiv expectedSetSize DEFAULT_ARRAY_SIZE))
    <<< 1) % 2 ^ INT_WIDTH)
  let s0 : Set :=
    { oList := OrderedList.init mm,
      mainArray := List.replicate DEFAULT_ARRAY_SIZE none,
      _count := 0,
      segmentSize := if seg < MINIMAL_SEGMENT_SIZE then MINIMAL_SEGMENT_SIZE else seg,
      loadFactor := expectedLoadFactor,
      _size := 2 }
  match OrderedList.add_returnAddress fuel s0.oList tid
      (SetNode.code { element := 0, key := 0 }) Loc.head with
  | none => none
  | some (l1, address) =>
    if address = 0 then none
    else
      match set_bucket { s0 with oList := l1 } 0 address with
      | none => none
      | some s2 =>
        match s2.get_bucket 0 with
        | none => none
        | some (s3, v) => if v = 0 then none else some s3

/-- The statements of `insert`, `remove` and `search` up to
`start = get_bucket(bucket)`: the state and the local `start`. -/
def bucketStart (fuel : Nat) (s : Set) (tid : Nat) (bucket : Nat) : Option (Set × Nat) :=
  match s.get_bucket bucket with
  | none => none
  | some (s1, p) =>
    match (if p = 0 then initialize_bucket tid fuel s1 bucket else some s1) with
    | none => none
    | some s2 =>
      match s2.get_bucket bucket with
      | none => none
      | some (s3, p3) => if p3 = 0 then none else s3.get_bucket bucket

/-- `Set::insert(element)` run by thread `tid`. -/
def insert (fuel : Nat) (s : Set) (tid : Nat) (element : Int) : Option (Set × Bool) :=
  let key := hash_function element
  if s._size = 0 then none
  else
    let bucket := toUnsigned (Int.tmod key s._size)
    if binary_reverse (binary_reverse bucket) ≠ bucket then none
    else
      match bucketStart fuel s tid bucket with
      | none => none
      | some (s1, start) =>
        let node := SetNode.code { element := element, key := regularKey (toUnsigned key) }
        match OrderedList.add fuel (s1.startList start) tid node Loc.head with
        | none => none
        | some (l2, false) => some (s1.withList l2, false)
        | some (l2, true) =>
          let s2 := s1.withList l2
          let old_size := s2._size
          let s3 := { s2 with _count := s2._count + 1 }
          if ((Int.tdiv s3._count old_size : Int) : Rat) > s3.loadFactor ∧
              old_size < DEFAULT_ARRAY_SIZE * s3.segmentSize then
            some ({ s3 with _size := 2 * old_size }, true)
          else some (s3, true)

/-- `Set::remove(element)` run by thread `tid`. -/
def remove (fuel : Nat) (s : Set) (tid : Nat) (element : Int) : Option (Set × Bool) :=
  let key := hash_function element
  if s._size = 0 then none
  else
    let bucket := toUnsigned (Int.tmod key s._size)
    match bucketStart fuel s tid bucket with
    | none => none
    | some (s1, start) =>
      let node := SetNode.code { element := element, key := regularKey (toUnsigned key) }
      match OrderedList.removeFrom fuel (s1.startList start) tid node Loc.head with
      | none => none
      | some (l2, false) => some (s1.withList l2, false)
      | some (l2, true) => some ({ s1.withList l2 with _count := s1._count - 1 }, true)

/-- `Set::search(element)` run by thread `tid`. -/
def search (fuel : Nat) (s : Set) (tid : Nat) (element : Int) : Option (Set × Bool) :=
  let key := toUnsigned (hash_function element)
  if toUnsigned s._size = 0 then none
  else
    let bucket := key % toUnsigned s._size
    match bucketStart fuel s tid bucket with
    | none => none
    | some (s1, start) =>
      let node := SetNode.code { element := element, key := regularKey key }
      match OrderedList.search fuel (s1.startList start) tid node with
      | none => none
      | some (l2, result) => some (s1.withList l2, result)

/-- `Set::size()`. -/
def size (s : Set) : Nat := toUnsigned s._count

/-- `Set::empty()`. -/
def empty (s : Set) : Bool := decide (s._count = 0)

/-- The set `Set<int>()` constructed by thread 0 over a new memory manager. -/
def sampleSet : Set :=
  (Set.init 5 (SMR.init NHPOINTER 0) 0 (DEFAULT_SEGMENT_SIZE * DEFAULT_ARRAY_SIZE)
    SET_MAX_LOAD).getD
    { oList := OrderedList.init (SMR.init NHPOINTER 0), mainArray := [], _count := 0,
      segmentSize := 0, loadFactor := 0, _size := 0 }

end Set

end Amino

namespace Amino

/-! ## lockfree_priorityqueue.h -/

/-- `PQNode<E>` for `int` elements: `value` is the pointer to the `Value<E>`,
which carries the deletion mark in its last bit, and `next` has `MAXLEVEL`
entries. -/
structure PQNode where
  level : Int
  validLevel : Int
  key : Int
  value : Nat
  prev : Nat
  next : List Nat
deriving DecidableEq, Repr

/-- `PQNode()`. -/
instance : Inhabited PQNode :=
  ⟨{ level := 0, validLevel := -1, key := 0, value := 0, prev := 0,
     next := List.replicate MAXLEVEL 0 }⟩

/-- `LockFreePriorityQueue<int>`: the `Value<E>` objects are kept in the store
`values`; the static node of `getINVALID` is kept in the store of the nodes. -/
structure LockFreePriorityQueue where
  head : Nat
  tail : Nat
  INVALID : Nat
  mm : SMR PQNode
  values : Heap Int
  randomSeed : Nat

namespace LockFreePriorityQueue

/-- `LockFreePriorityQueue::LockFreePriorityQueue()`, given the state of
`getSMR<PQNode, MAXLEVEL>()`, the store of the values and the value of
`rand() | 0x0100`. -/
def init (mm : SMR PQNode) (values : Heap Int) (seed : Nat) : LockFreePriorityQueue :=
  let head := (mm.heap.alloc default).1
  let h1 := (mm.heap.alloc default).2
  let tail := (h1.alloc default).1
  let h2 := (h1.alloc default).2
  let h3 := h2.put head
    (some { (default : PQNode) with validLevel := MAXLEVEL - 1,
                                     next := List.replicate MAXLEVEL tail })
  let h4 := h3.put tail (some { (default : PQNode) with validLevel := MAXLEVEL - 1 })
  { head := head, tail := tail, INVALID := (h4.alloc default).1,
    mm := { mm with heap := (h4.alloc default).2 }, values := values, randomSeed := seed }

/-- `node->next[i].load()`. -/
def getNext (s : LockFreePriorityQueue) (node i : Nat) : Option Nat :=
  match s.mm.heap.read node with
  | none => none
  | some n => n.next[i]?

/-- A store into a field of the node at `node`. -/
def update (s : LockFreePriorityQueue) (node : Nat) (f : PQNode → PQNode) :
    Option LockFreePriorityQueue :=
  match s.mm.heap.modify node f with
  | none => none
  | some h => some { s with mm := { s.mm with heap := h } }

/-- `node->next[i].store(v)`. -/
def setNext (s : LockFreePriorityQueue) (node i v : Nat) : Option LockFreePriorityQueue :=
  match s.mm.heap.read node with
  | none => none
  | some n =>
    if i < n.next.length then s.update node (fun m => { m with next := m.next.set i v })
    else none

/-- The loop `for (i = ...; i < node->level; ++i)` of `helpDelete` and
`deleteMin` with `count` levels left: the deletion mark is set on
`node->next[i]` where it is not set; without interference the CAS succeeds at
once. -/
def markLevels (node : Nat) : Nat → Nat → LockFreePriorityQueue → Option LockFreePriorityQueue
  | 0, _, s => some s
  | count + 1, i, s =>
    match s.getNext node i with
    | none => none
    | some node2 =>
      if MARKED node2 = true then markLevels node count (i + 1) s
      else
        match s.setNext node i (MARK node2) with
        | none => none
        | some s1 => markLevels node count (i + 1) s1

mutual

/-- `readNext(node, curLevel)`: the state, the updated `node` and the result. -/
def readNext (tid : Nat) : Nat → LockFreePriorityQueue → Nat → Nat →
    Option (LockFreePriorityQueue × Nat × Nat)
  | 0, _, _, _ => none
  | fuel + 1, s, node, curLevel =>
    if node = s.tail then none
    else
      match s.mm.heap.read node with
      | none => none
      | some n =>
        if MARKED n.value = true then
          match helpDelete tid fuel s node curLevel with
          | none => none
          | some (s1, node1) => readNextLoop tid fuel s1 node1 curLevel
        else readNextLoop tid fuel s node curLevel
termination_by structural f => f

/-- The loads of `node->next[curLevel]` in `readNext` and its
`while (NULL == nextNode)` loop. -/
def readNextLoop (tid : Nat) : Nat → LockFreePriorityQueue → Nat → Nat →
    Option (LockFreePriorityQueue × Nat × Nat)
  | 0, _, _, _ => none
  | fuel + 1, s, node, curLevel =>
    match s.getNext node curLevel with
    | none => none
    | some tmpNode =>
      -- READ_NODE(tmpNode)
      let nextNode := if MARKED tmpNode = true then 0 else tmpNode
      if nextNode = 0 then
        match helpDelete tid fuel s node curLevel with
        | none => none
        | some (s1, node1) => readNextLoop tid fuel s1 node1 curLevel
      else if MARKED nextNode = true then none
      else some (s, node, nextNode)
termination_by structural f => f

/-- `scanKey(node, curLevel, expectedKey)`: the state, the updated `node` and
the result. -/
def scanKey (tid : Nat) : Nat → LockFreePriorityQueue → Nat → Nat → Int →
    Option (LockFreePriorityQueue × Nat × Nat)
  | 0, _, _, _, _ => none
  | fuel + 1, s, node, curLevel, expectedKey =>
    let hp := (s.mm.getHPRec tid).2
    match readNext tid fuel { s with mm := (s.mm.getHPRec tid).1 } node curLevel with
    | none => none
    | some (s1, node1, nextNode) => scanKeyLoop tid fuel s1 hp node1 nextNode curLevel expectedKey
termination_by structural f => f

/-- The `while` loop of `scanKey`. -/
def scanKeyLoop (tid : Nat) : Nat → LockFreePriorityQueue → Nat → Nat → Nat → Nat → Int →
    Option (LockFreePriorityQueue × Nat × Nat)
  | 0, _, _, _, _, _, _ => none
  | fuel + 1, s, hp, node, nextNode, curLevel, expectedKey =>
    if nextNode = s.tail then some (s, node, nextNode)
    else
      match (if nextNode = s.head then some true
             else (s.mm.heap.read nextNode).map (fun n => decide (n.key < expectedKey))) with
      | none => none
      | some false => some (s, node, nextNode)
      | some true =>
        match readNext tid fuel { s with mm := s.mm.retire_p hp node } nextNode curLevel with
        | none => none
        | some (s1, node1, nextNode1) =>
          scanKeyLoop tid fuel s1 hp node1 nextNode1 curLevel expectedKey
termination_by structural f => f

/-- `helpDelete(node, curLevel)`: the state and the result. -/
def helpDelete (tid : Nat) : Nat → LockFreePriorityQueue → Nat → Nat →
    Option (LockFreePriorityQueue × Nat)
  | 0, _, _, _ => none
  | fuel + 1, s, node, curLevel =>
    let hp := (s.mm.getHPRec tid).2
    let s0 := { s with mm := (s.mm.getHPRec tid).1 }
    match s0.mm.heap.read node with
    | none => none
    | some n =>
      match markLevels node (n.level - curLevel).toNat curLevel s0 with
      | none => none
      | some s1 =>
        match s1.mm.heap.read node with
        | none => none
        | some n1 =>
          let prev := n1.prev
          match (if prev = 0 then some true
                 else (s1.mm.heap.read prev).map
                   (fun p => decide ((curLevel : Int) ≥ p.validLevel))) with
          | none => none
          | some true =>
            match helpDeleteFor tid fuel { s1 with mm := s1.mm.employ hp 0 s1.head } hp n1.key
                s1.head (MAXLEVEL - curLevel) curLevel with
            | none => none
            | some (s2, prev2) => helpDeleteLoop tid fuel s2 hp node prev2 curLevel
          | some false => helpDeleteLoop tid fuel s1 hp node prev curLevel
termination_by structural f => f

/-- The loop `for (i = MAXLEVEL - 1; i >= curLevel; --i)` of `helpDelete` with
`count` levels left. -/
def helpDeleteFor (tid : Nat) : Nat → LockFreePriorityQueue → Nat → Int → Nat → Nat → Nat →
    Option (LockFreePriorityQueue × Nat)
  | 0, _, _, _, _, _, _ => none
  | _ + 1, s, _, _, prev, 0, _ => some (s, prev)
  | fuel + 1, s, hp, key, prev, count + 1, curLevel =>
    match scanKey tid fuel s prev (curLevel + count) key with
    | none => none
    | some (s1, prev1, nextNode) =>
      helpDeleteFor tid fuel { s1 with mm := s1.mm.retire_p hp nextNode } hp key prev1 count
        curLevel
termination_by structural f => f

/-- The `while (true)` loop of `helpDelete` and the statements after it. -/
def helpDeleteLoop (tid : Nat) : Nat → LockFreePriorityQueue → Nat → Nat → Nat → Nat →
    Option (LockFreePriorityQueue × Nat)
  | 0, _, _, _, _, _ => none
  | fuel + 1, s, hp, node, prev, curLevel =>
    if node = s.tail ∨ node = s.head then none
    else
      match s.getNext node curLevel, s.mm.heap.read node with
      | some nx, some n =>
        if POINTER nx = s.INVALID then some ({ s with mm := s.mm.retire_p hp node }, prev)
        else
          match scanKey tid fuel s prev curLevel n.key with
          | none => none
          | some (s2, prev2, last) =>
            let s3 := { s2 with mm := s2.mm.retire_p hp last }
            match s3.getNext node curLevel with
            | none => none
            | some nx3 =>
              if last ≠ node ∨ POINTER nx3 = s3.INVALID then
                some ({ s3 with mm := s3.mm.retire_p hp node }, prev2)
              else
                match s3.getNext prev2 curLevel with
                | none => none
                | some pn =>
                  if pn = node then
                    match s3.setNext prev2 curLevel (POINTER nx3) with
                    | none => none
                    | some s4 =>
                      match s4.setNext node curLevel s4.INVALID with
                      | none => none
                      | some s5 => some ({ s5 with mm := s5.mm.retire_p hp node }, prev2)
                  else if POINTER nx3 = s3.INVALID then
                    some ({ s3 with mm := s3.mm.retire_p hp node }, prev2)
                  else helpDeleteLoop tid fuel s3 hp node prev2 curLevel
      | _, _ => none
termination_by structural f => f

end

/-- The loop `for (i = MAXLEVEL - 1; i >= 1; --i)` of `insert` with the levels
`count, ..., 1` left: the state, `node1` and `savedNodes`. -/
def insertSearch (tid hp : Nat) (key : Int) (curLevel fuel : Nat) :
    Nat → LockFreePriorityQueue → Nat → List Nat →
    Option (LockFreePriorityQueue × Nat × List Nat)
  | 0, s, node1, savedNodes => some (s, node1, savedNodes)
  | i + 1, s, node1, savedNodes =>
    match scanKey tid fuel s node1 (i + 1) key with
    | none => none
    | some (s1, node1a, node2) =>
      let s2 := { s1 with mm := s1.mm.retire_p hp node2 }
      if i + 1 < curLevel then
        insertSearch tid hp key curLevel fuel i
          { s2 with mm := s2.mm.employ hp (i + 1) node1a } node1a (savedNodes.set (i + 1) node1a)
      else insertSearch tid hp key curLevel fuel i s2 node1a savedNodes

/-- The loop `for (int i = 1; i < curLevel; ++i) mm->retire(hp, savedNodes[i])`
with `count` entries left. -/
def retireSaved (hp : Nat) (savedNodes : List Nat) : Nat → Nat → SMR PQNode → SMR PQNode
  | 0, _, mm => mm
  | count + 1, i, mm => retireSaved hp savedNodes count (i + 1) (mm.retire_p hp (savedNodes.getD i 0))

/-- The first `while (true)` loop of `insert`: the state and whether the value
of a node with the same key was replaced (`insert` then returns true). -/
def insertLevel0 (tid hp : Nat) (key value : Int) (curLevel newNode : Nat)
    (savedNodes : List Nat) :
    Nat → LockFreePriorityQueue → Nat → Option (LockFreePriorityQueue × Bool)
  | 0, _, _ => none
  | fuel + 1, s, node1 =>
    match scanKey tid fuel s node1 0 key with
    | none => none
    | some (s1, node1a, node2) =>
      match s1.mm.heap.read node2 with
      | none => none
      | some n2 =>
        let value2 := n2.value
        if node2 ≠ s1.tail ∧ MARKED value2 = false ∧ n2.key = key then
          -- node2->value.compare_swap(value2, new Value<E>(value))
          let s2 := { s1 with values := (s1.values.alloc value).2 }
          match s2.update node2 (fun m => { m with value := (s1.values.alloc value).1 }) with
          | none => none
          | some s3 =>
            -- cout << value2->v
            match s3.values.read value2 with
            | none => none
            | some _ =>
              let mm4 := retireSaved hp savedNodes (curLevel - 1) 1
                ((s3.mm.retire_p hp node1a).retire_p hp node2)
              match mm4.delNode tid hp newNode with
              | none => none
              | some mm5 =>
                some ({ s3 with mm := mm5, values := s3.values.free value2 }, true)
        else
          match s1.setNext newNode 0 node2 with
          | none => none
          | some s2 =>
            let s3 := { s2 with mm := s2.mm.retire_p hp node2 }
            match s3.getNext node1a 0 with
            | none => none
            | some nx =>
              if nx = node2 then
                match s3.setNext node1a 0 newNode with
                | none => none
                | some s4 => some ({ s4 with mm := s4.mm.retire_p hp node1a }, false)
              else insertLevel0 tid hp key value curLevel newNode savedNodes fuel s3 node1a

/-- The `while (true)` loop in the second `for` loop of `insert`, at level `i`. -/
def insertLinkLoop (tid hp : Nat) (key : Int) (newNode i : Nat) :
    Nat → LockFreePriorityQueue → Nat → Option LockFreePriorityQueue
  | 0, _, _ => none
  | fuel + 1, s, node1 =>
    match scanKey tid fuel s node1 i key with
    | none => none
    | some (s1, node1a, node2) =>
      match s1.setNext newNode i node2 with
      | none => none
      | some s2 =>
        let s3 := { s2 with mm := s2.mm.retire_p hp node2 }
        match s3.mm.heap.read newNode, s3.getNext node1a i with
        | some nn, some nx =>
          if MARKED nn.value = true then some { s3 with mm := s3.mm.retire_p hp node1a }
          else if nx = node2 then
            match s3.setNext node1a i newNode with
            | none => none
            | some s4 => some { s4 with mm := s4.mm.retire_p hp node1a }
          else insertLinkLoop tid hp key newNode i fuel s3 node1a
        | _, _ => none

/-- The loop `for (int i = 1; i < curLevel; ++i)` of `insert` that links the
new node, with `count` levels left. -/
def insertLink (tid hp : Nat) (key : Int) (newNode : Nat) (savedNodes : List Nat)
    (fuel : Nat) : Nat → Nat → LockFreePriorityQueue → Option LockFreePriorityQueue
  | 0, _, s => some s
  | count + 1, i, s =>
    match s.update newNode (fun m => { m with validLevel := i }), savedNodes[i]? with
    | some s1, some node1 =>
      match insertLinkLoop tid hp key newNode i fuel s1 node1 with
      | none => none
      | some s2 => insertLink tid hp key newNode savedNodes fuel count (i + 1) s2
    | _, _ => none

/-- The part of `insert` after the search phase: the two loops that link the
new node, and the statements after them. -/
def insertTail (tid hp : Nat) (key value : Int) (curLevel newNode : Nat) (savedNodes : List Nat)
    (fuel : Nat) (s4 : LockFreePriorityQueue) (node1 : Nat) :
    Option (LockFreePriorityQueue × Bool) :=
  match insertLevel0 tid hp key value curLevel newNode savedNodes fuel s4 node1 with
  | none => none
  | some (s5, true) => some (s5, true)
  | some (s5, false) =>
    match insertLink tid hp key newNode savedNodes fuel (curLevel - 1) 1 s5 with
    | none => none
    | some s6 =>
      match s6.update newNode (fun m => { m with validLevel := curLevel }) with
      | none => none
      | some s7 =>
        match s7.mm.heap.read newNode with
        | none => none
        | some nn =>
          if MARKED nn.value = true then
            (helpDelete tid fuel s7 newNode 0).map (fun x => (x.1, true))
          else some (s7, true)

/-- `LockFreePriorityQueue::insert(value)` run by thread `tid`. -/
def insert (fuel : Nat) (s : LockFreePriorityQueue) (tid : Nat) (value : Int) :
    Option (LockFreePriorityQueue × Bool) :=
  let key := value
  match randomLevel fuel s.randomSeed with
  | none => none
  | some (seed1, curLevel) =>
    let hp := (s.mm.getHPRec tid).2
    match (s.mm.getHPRec tid).1.newNode hp with
    | none => none
    | some (mm1, newNode) =>
      let s1 : LockFreePriorityQueue :=
        { s with mm := mm1, values := (s.values.alloc value).2, randomSeed := seed1 }
      match s1.update newNode (fun m =>
          { m with level := curLevel, key := value, value := (s.values.alloc value).1 }) with
      | none => none
      | some s2 =>
        let s3 := { s2 with mm := s2.mm.employ hp 0 s2.head }
        match insertSearch tid hp key curLevel fuel (MAXLEVEL - 1) s3 s3.head
            (List.replicate curLevel 0) with
        | none => none
        | some (s4, node1, savedNodes) =>
          insertTail tid hp key value curLevel newNode savedNodes fuel s4 node1

/-- The first `while (true)` loop of `deleteMin`: the state, `result` and
`node1` (`none` for the `return false` exit).  Reading `value->v` through a
pointer that is not the address of a value is a fault. -/
def deleteMinFind (tid hp : Nat) :
    Nat → LockFreePriorityQueue → Nat → Int → Option (LockFreePriorityQueue × Int × Option Nat)
  | 0, _, _, _ => none
  | fuel + 1, s, prev, result =>
    match readNext tid fuel s prev 0 with
    | none => none
    | some (s1, prev1, node1) =>
      if node1 = s1.tail then
        some ({ s1 with mm := (s1.mm.retire_p hp prev1).retire_p hp node1 }, result, none)
      else
        match s1.mm.heap.read node1 with
        | none => none
        | some n1 =>
          let value := n1.value
          match s1.values.read value with
          | none => none
          | some v =>
            if MARKED value = false then
              -- node1->value.compare_swap(value, GET_MARKED_VALUE(value)); node1->prev = prev
              match s1.update node1 (fun m => { m with value := MARK value, prev := prev1 }) with
              | none => none
              | some s2 => some (s2, v, some node1)
            else
              match helpDelete tid fuel s1 node1 0 with
              | none => none
              | some (s2, node1a) =>
                deleteMinFind tid hp fuel { s2 with mm := s2.mm.retire_p hp prev1 } node1a v

/-- The `while (true)` loop in the last `for` loop of `deleteMin`, at level
`i`: the state and `prev`. -/
def unlinkLoop (tid hp node1 i : Nat) :
    Nat → LockFreePriorityQueue → Nat → Option (LockFreePriorityQueue × Nat)
  | 0, _, _ => none
  | fuel + 1, s, prev =>
    if node1 = s.tail ∨ node1 = s.head then none
    else
      match s.getNext node1 i, s.mm.heap.read node1 with
      | some nx, some n1 =>
        if POINTER nx = s.INVALID then some (s, prev)
        else
          match scanKey tid fuel s prev i n1.key with
          | none => none
          | some (s1, prev1, last) =>
            let s2 := { s1 with mm := s1.mm.retire_p hp last }
            match s2.getNext node1 i, s2.getNext prev1 i with
            | some nx2, some pn =>
              if last ≠ node1 ∨ POINTER nx2 = s2.INVALID then some (s2, prev1)
              else if pn = node1 then
                match s2.setNext prev1 i (POINTER nx2) with
                | none => none
                | some s3 =>
                  match s3.setNext node1 i s3.INVALID with
                  | none => none
                  | some s4 => some (s4, prev1)
              else if POINTER nx2 = s2.INVALID then some (s2, prev1)
              else unlinkLoop tid hp node1 i fuel s2 prev1
            | _, _ => none
      | _, _ => none

/-- The loop `for (int i = node1->level - 1; i >= 0; --i)` of `deleteMin`
with the levels `count - 1, ..., 0` left. -/
def unlinkLevels (tid hp node1 fuel : Nat) :
    Nat → LockFreePriorityQueue → Nat → Option (LockFreePriorityQueue × Nat)
  | 0, s, prev => some (s, prev)
  | i + 1, s, prev =>
    match unlinkLoop tid hp node1 i fuel s prev with
    | none => none
    | some (s1, prev1) => unlinkLevels tid hp node1 fuel i s1 prev1

/-- `LockFreePriorityQueue::deleteMin(result)` run by thread `tid`: the state,
`result` afterwards and the returned value. -/
def deleteMin (fuel : Nat) (s : LockFreePriorityQueue) (tid : Nat) (result : Int) :
    Option (LockFreePriorityQueue × Int × Bool) :=
  let hp := (s.mm.getHPRec tid).2
  let s0 := { s with mm := (s.mm.getHPRec tid).1.employ hp 0 s.head }
  match deleteMinFind tid hp fuel s0 s0.head result with
  | none => none
  | some (s1, r, none) => some (s1, r, false)
  | some (s1, r, some node1) =>
    if node1 = s1.tail ∨ node1 = s1.head then none
    else
      match s1.mm.heap.read node1 with
      | none => none
      | some n1 =>
        match markLevels node1 n1.level.toNat 0 s1 with
        | none => none
        | some s2 =>
          let s3 := { s2 with mm := s2.mm.employ hp 0 s2.head }
          match unlinkLevels tid hp node1 fuel n1.level.toNat s3 s3.head with
          | none => none
          | some (s4, prev) =>
            let mm5 := s4.mm.retire_p hp prev
            -- mm->delNode(node1) is delNode(getHPRec(), node1)
            match (mm5.getHPRec tid).1.delNode tid (mm5.getHPRec tid).2 node1 with
            | none => none
            | some mm6 => some ({ s4 with mm := mm6 }, r, true)

end LockFreePriorityQueue

end Amino

namespace Amino

namespace LockFreePriorityQueue

/-! ### The sequential invariant of the priority queue -/

/-- A node of the skip list as the invariant sees it: its address, its key,
the number of levels at which it is linked, and the address of its value. -/
structure Entry where
  addr : Nat
  key : Int
  height : Nat
  vptr : Nat

/-- The first node of `l` linked at level `i`, `tail` when there is none. -/
def nextAt (tail i : Nat) : List Entry → Nat
  | [] => tail
  | e :: rest => if i < e.height then e.addr else nextAt tail i rest

/-- The last node of `l` linked at level `i`, `d` when there is none. -/
def lastAt (i : Nat) : Nat → List Entry → Nat
  | d, [] => d
  | d, e :: rest => lastAt i (if i < e.height then e.addr else d) rest

/-- The nodes `l` are in the store; each carries its key and its unmarked
value pointer, and at every level below its height its `next` pointer is the
next node of that level. -/
def linked (h : Heap PQNode) (tail : Nat) : List Entry → Prop
  | [] => True
  | e :: rest =>
    (∃ n, h.cells e.addr = some n ∧ n.key = e.key ∧ n.value = e.vptr ∧ MARKED e.vptr = false ∧
      n.next.length = MAXLEVEL ∧ ∀ i, i < e.height → n.next[i]? = some (nextAt tail i rest)) ∧
    linked h tail rest

/-- The node at `c` is in the store, its value is not marked and its `next`
pointer of level `i` is `x`. -/
def pointsAt (h : Heap PQNode) (c i x : Nat) : Prop :=
  ∃ n, h.cells c = some n ∧ MARKED n.value = false ∧ n.next[i]? = some x

/-- The entry that stands for `head`. -/
def headEntry (s : LockFreePriorityQueue) : Entry :=
  { addr := s.head, key := 0, height := MAXLEVEL, vptr := 0 }

/-- The state after the node at `a` has been overwritten by `v`. -/
def putNode (s : LockFreePriorityQueue) (a : Nat) (v : PQNode) : LockFreePriorityQueue :=
  { s with mm := { s.mm with heap := s.mm.heap.put a (some v) } }

/-- The thread `tid` has the record at `hp`. -/
structure Ready (s : LockFreePriorityQueue) (tid hp : Nat) : Prop where
  wf : s.mm.WF
  tl : s.mm.thread_local tid = hp
  valid : s.mm.valid hp

/-- The relation between the state before and after steps on hazard slots. -/
structure Slots (s s' : LockFreePriorityQueue) : Prop where
  head : s'.head = s.head
  tail : s'.tail = s.tail
  INVALID : s'.INVALID = s.INVALID
  values : s'.values = s.values
  randomSeed : s'.randomSeed = s.randomSeed
  heap : s'.mm.heap = s.mm.heap
  owned : s'.mm.allOwned = s.mm.allOwned

/-- The relation between the state before and after steps that leave the
values and the `level` of every node alone. -/
structure Linking (s s' : LockFreePriorityQueue) : Prop where
  head : s'.head = s.head
  tail : s'.tail = s.tail
  INVALID : s'.INVALID = s.INVALID
  values : s'.values = s.values
  randomSeed : s'.randomSeed = s.randomSeed
  level : ∀ q, (s'.mm.heap.cells q).map PQNode.level = (s.mm.heap.cells q).map PQNode.level

/-- The part of the invariant the traversals need: `l` are the nodes between
`head` and `tail`, in the order of their strictly increasing keys. -/
structure Core (s : LockFreePriorityQueue) (l : List Entry) : Prop where
  wf : s.mm.WF
  linked : linked s.mm.heap s.tail (s.headEntry :: l)
  sorted : (l.map Entry.key).Pairwise (· < ·)
  nodup : (s.head :: s.tail :: s.INVALID :: l.map Entry.addr).Nodup
  live : ∀ a ∈ s.head :: s.tail :: s.INVALID :: l.map Entry.addr, s.mm.live a

/-- The state of `deleteMin` while it unlinks the first node `e`, marked at
all its levels: `head` still points to it at the levels below `i`, and to the
next node of the level at the other levels; the nodes `rest` follow. -/
structure Unlinking (s : LockFreePriorityQueue) (e : Entry) (i : Nat) (rest : List Entry) :
    Prop where
  wf : s.mm.WF
  linked : linked s.mm.heap s.tail rest
  headc : ∃ n, s.mm.heap.cells s.head = some n ∧ n.key = 0 ∧ n.value = 0 ∧
    n.next.length = MAXLEVEL ∧
    ∀ j, j < MAXLEVEL → n.next[j]? = some (if j < i then e.addr else nextAt s.tail j rest)
  nodec : ∃ n, s.mm.heap.cells e.addr = some n ∧ n.key = e.key ∧ n.level = e.height ∧
    n.next.length = MAXLEVEL ∧ ∀ j, j < i → n.next[j]? = some (MARK (nextAt s.tail j rest))
  sorted : ((e :: rest).map Entry.key).Pairwise (· < ·)
  nodup : (s.head :: s.tail :: s.INVALID :: (e :: rest).map Entry.addr).Nodup
  live : ∀ a ∈ s.head :: s.tail :: s.INVALID :: (e :: rest).map Entry.addr, s.mm.live a

/-- The invariant between two calls: every node is linked at the levels below
its `level`, which is between 1 and `MAXLEVEL - 1`, and its value is an object
of its own that holds the key. -/
structure Inv (s : LockFreePriorityQueue) (l : List Entry) : Prop where
  core : Core s l
  vwf : s.values.WF
  level : ∀ e ∈ l, ∃ n, s.mm.heap.cells e.addr = some n ∧ n.level = e.height
  height : ∀ e ∈ l, 1 ≤ e.height ∧ e.height ≤ MAXLEVEL - 1
  value : ∀ e ∈ l, s.values.cells e.vptr = some e.key
  vnodup : (l.map Entry.vptr).Nodup

/-- The calls `insert(x)` for the `x` of `xs`, in order, by thread `tid`. -/
def insertAll (fuel tid : Nat) : List Int → LockFreePriorityQueue → Option LockFreePriorityQueue
  | [], s => some s
  | x :: xs, s =>
    match insert fuel s tid x with
    | none => none
    | some (s1, _) => insertAll fuel tid xs s1

/-- The results of `n` calls `deleteMin(result)` by thread `tid`, each with
`result` set to 0 before the call: the value of `result` and the returned
value. -/
def deleteMinN (fuel tid : Nat) : Nat → LockFreePriorityQueue →
    Option (LockFreePriorityQueue × List (Int × Bool))
  | 0, s => some (s, [])
  | n + 1, s =>
    match deleteMin fuel s tid 0 with
    | none => none
    | some (s1, r, b) =>
      match deleteMinN fuel tid n s1 with
      | none => none
      | some (s2, rs) => some (s2, (r, b) :: rs)

/-- Insert the values `xs` into a new queue, then call `deleteMin` `n` times. -/
def insertThenDrain (fuel tid : Nat) (xs : List Int) (n : Nat) (s : LockFreePriorityQueue) :
    Option (List (Int × Bool)) :=
  match insertAll fuel tid xs s with
  | none => none
  | some s1 => (deleteMinN fuel tid n s1).map (fun x => x.2)

end LockFreePriorityQueue

end Amino

namespace Amino

namespace HPRecType

/-- What `scan` uses of a record to size `plist`: its `nrThreads` and the
number of its hazard slots. -/
def shape (r : HPRecType) : Nat × Nat := (r.nrThreads, r.hp.length)

end HPRecType

namespace SMR
variable {α : Type}

/-- The relation between the state `s` before and `s'` after a call that
leaves `K`, the `nrThreads` and the number of hazard slots of every record as
they are. -/
structure SameShape (s s' : SMR α) : Prop where
  K : s'.K = s.K
  shapes : s'.hprecs.map HPRecType.shape = s.hprecs.map HPRecType.shape

/-- What `scan` relies on for `plist`: every record has `K` hazard slots and
`nrThreads` of the first record is at least the number of records. -/
structure Sized (s : SMR α) : Prop where
  slots : ∀ r ∈ s.hprecs, r.hp.length = s.K
  cap : ∀ head, s.hprecs.head? = some head → s.hprecs.length ≤ head.nrThreads

end SMR

namespace EBStack

/-! ### Drivers for the elimination layer -/

/-- The state after `n` calls of `get_rand_position()`. -/
def positionAfter : Nat → EBStack → EBStack
  | 0, e => e
  | n + 1, e => positionAfter n e.get_rand_position.1

/-- A new `EBStack<int>(8)` whose static nodes `TOMB_STONE` and `REMOVED` are at
the addresses 8 and 16. -/
def sampleEBStack : EBStack := init (SMR.init 1 0) 8 8 16

/-- The stack of `sampleEBStack` when `position` has the value `p`, the slot
`i` of `coll_push` holds `v` and the slot `j` of `coll_pop` holds `w`. -/
def sampleCollision (p : Int) (i v j w : Nat) : EBStack :=
  { sampleEBStack with
    position := p,
    coll_push := sampleEBStack.coll_push.set i v,
    coll_pop := sampleEBStack.coll_pop.set j w }

end EBStack

namespace DequeBody

/-- The hazard slots of the record of thread `tid`. -/
def hazardSlots (s : DequeBody) (tid : Nat) : Option (List Nat) :=
  (s.mm.getRec (s.mm.thread_local tid)).map HPRecType.hp

/-- The retired list of the record of thread `tid`. -/
def retiredList (s : DequeBody) (tid : Nat) : Option (List Nat) :=
  (s.mm.getRec (s.mm.thread_local tid)).map HPRecType.rlist

/-- The deque `pushRight(2)` hands to `stabilize` on its way to `sampleDeque2`:
the anchor is `<8, 16, RPUSH>`, the new node at 16 points back to the node at
8, and the node at 8 does not point to the new node yet. -/
def sampleDequeRPUSH : DequeBody :=
  { anchor := mkAnchor 8 16 RPUSH,
    mm := { sampleDeque2.mm with
      heap := sampleDeque2.mm.heap.put 8 (some { data := 1, left := 0, right := 0 }) } }

end DequeBody

end Amino

namespace Amino

/-- `LockFreeDeque<T>`: the shared `anchor` and the member `mm`, a pointer to
the `SMR<Node<T>, 3>`.  `none` is the pointer of an object in which no
statement has assigned to `mm`; reading through it is a fault. -/
structure LockFreeDeque where
  anchor : AnchorType
  mm : Option (SMR DNode)

namespace LockFreeDeque

/-- `LockFreeDeque::LockFreeDeque()`: the result of `getSMR<Node<T>, 3>()` is
assigned to the name `m`, which is not the member `mm` (the class declares no
`m`); `mm` is left as it was, not set; then `anchor.init()`. -/
def init (_m : SMR DNode) : LockFreeDeque :=
  { anchor := AnchorType.uninitialised.init, mm := none }

/-- The read of the member `mm` in a member function: the anchor together
with the object `mm` points to; a fault when `mm` has not been set. -/
def deref (s : LockFreeDeque) : Option DequeBody :=
  match s.mm with
  | none => none
  | some mm => some { anchor := s.anchor, mm := mm }

/-- The object when the statements of a member function have run. -/
def ofBody (b : DequeBody) : LockFreeDeque := { anchor := b.anchor, mm := some b.mm }

/-- `LockFreeDeque::stabilizeRight(a)` run by thread `tid`; its first
statement after reading `a` is `mm->getHPRec()`. -/
def stabilizeRight (s : LockFreeDeque) (tid : Nat) (a : AnchorType) : Option LockFreeDeque :=
  match s.deref with
  | none => none
  | some b => (b.stabilizeRight tid a).map ofBody

/-- `LockFreeDeque::stabilizeLeft(a)` run by thread `tid`; its first statement
after reading `a` is `mm->getHPRec()`. -/
def stabilizeLeft (s : LockFreeDeque) (tid : Nat) (a : AnchorType) : Option LockFreeDeque :=
  match s.deref with
  | none => none
  | some b => (b.stabilizeLeft tid a).map ofBody

/-- `LockFreeDeque::stabilize(a)`; the failing `assert` is a fault. -/
def stabilize (s : LockFreeDeque) (tid : Nat) (a : AnchorType) : Option LockFreeDeque :=
  if a.getStatus = RPUSH then stabilizeRight s tid a
  else if a.getStatus ≠ LPUSH then none
  else stabilizeLeft s tid a

/-- `LockFreeDeque::pushRight(data)` run by thread `tid` (`FREELIST` is
defined): its first statement is `mm->newNode()`. -/
def pushRight (fuel : Nat) (s : LockFreeDeque) (tid : Nat) (data : Int) : Option LockFreeDeque :=
  match s.deref with
  | none => none
  | some b => (b.pushRight fuel tid data).map ofBody

/-- `LockFreeDeque::pushLeft(data)` run by thread `tid` (`FREELIST` is
defined): its first statement is `mm->newNode()`. -/
def pushLeft (fuel : Nat) (s : LockFreeDeque) (tid : Nat) (data : Int) : Option LockFreeDeque :=
  match s.deref with
  | none => none
  | some b => (b.pushLeft fuel tid data).map ofBody

/-- `LockFreeDeque::popRight(ret)` run by thread `tid`: its first statement is
`mm->getHPRec()`. -/
def popRight (fuel : Nat) (s : LockFreeDeque) (tid : Nat) (ret : Int) :
    Option (LockFreeDeque × Int × Bool) :=
  match s.deref with
  | none => none
  | some b => (b.popRight fuel tid ret).map (fun r => (ofBody r.1, r.2))

/-- `LockFreeDeque::popLeft(ret)` run by thread `tid`: its first statement is
`mm->getHPRec()`. -/
def popLeft (fuel : Nat) (s : LockFreeDeque) (tid : Nat) (ret : Int) :
    Option (LockFreeDeque × Int × Bool) :=
  match s.deref with
  | none => none
  | some b => (b.popLeft fuel tid ret).map (fun r => (ofBody r.1, r.2))

/-- `LockFreeDeque::enqueue(d)`. -/
def enqueue (fuel : Nat) (s : LockFreeDeque) (tid : Nat) (d : Int) : Option LockFreeDeque :=
  pushRight fuel s tid d

/-- `LockFreeDeque::dequeue(ret)`. -/
def dequeue (fuel : Nat) (s : LockFreeDeque) (tid : Nat) (ret : Int) :
    Option (LockFreeDeque × Int × Bool) :=
  popLeft fuel s tid ret

/-- `LockFreeDeque::size()`; `fuel` bounds `copyTo` and the loop.  The nodes
the loop reads are in the store of the object `mm` points to. -/
def size (fuel : Nat) (s : LockFreeDeque) : Option Nat :=
  match s.anchor.copyTo fuel AnchorType.uninitialised with
  | none => none
  | some old_anchor =>
    let left := old_anchor.getLeft
    let right := old_anchor.getRight
    if left = 0 then some 0
    else if left = right then some 1
    else
      match s.mm with
      | none => none
      | some mm => DequeBody.sizeLoop mm.heap right fuel left 2

/-- `LockFreeDeque::empty()`. -/
def empty (fuel : Nat) (s : LockFreeDeque) : Option Bool :=
  match s.anchor.copyTo fuel AnchorType.uninitialised with
  | none => none
  | some old_anchor =>
    some (if old_anchor.getLeft = 0 ∧ old_anchor.getRight = 0 then true else false)

/-- `LockFreeDeque::peekRight(ret)` run by thread `tid`: its first statement
is `mm->getHPRec()`. -/
def peekRight (fuel : Nat) (s : LockFreeDeque) (tid : Nat) (ret : Int) :
    Option (LockFreeDeque × Int × Bool) :=
  match s.deref with
  | none => none
  | some b => (b.peekRight fuel tid ret).map (fun r => (ofBody r.1, r.2))

/-- `LockFreeDeque::peekLeft(ret)` run by thread `tid`: its first statement is
`mm->getHPRec()`. -/
def peekLeft (fuel : Nat) (s : LockFreeDeque) (tid : Nat) (ret : Int) :
    Option (LockFreeDeque × Int × Bool) :=
  match s.deref with
  | none => none
  | some b => (b.peekLeft fuel tid ret).map (fun r => (ofBody r.1, r.2))

/-- One call on the deque, run by thread `tid`. -/
def step (fuel tid : Nat) (s : LockFreeDeque) :
    DequeBody.DOp → Option (LockFreeDeque × DequeBody.DRes)
  | .pushLeft d =>
    match pushLeft fuel s tid d with
    | none => none
    | some s1 => some (s1, .done)
  | .pushRight d =>
    match pushRight fuel s tid d with
    | none => none
    | some s1 => some (s1, .done)
  | .popLeft ret =>
    match popLeft fuel s tid ret with
    | none => none
    | some (s1, ret1, b) => some (s1, .value b ret1)
  | .popRight ret =>
    match popRight fuel s tid ret with
    | none => none
    | some (s1, ret1, b) => some (s1, .value b ret1)
  | .peekLeft ret =>
    match peekLeft fuel s tid ret with
    | none => none
    | some (s1, ret1, b) => some (s1, .value b ret1)
  | .peekRight ret =>
    match peekRight fuel s tid ret with
    | none => none
    | some (s1, ret1, b) => some (s1, .value b ret1)
  | .empty =>
    match empty fuel s with
    | none => none
    | some b => some (s, .flag b)
  | .size =>
    match size fuel s with
    | none => none
    | some n => some (s, .count n)

/-- A sequence of calls on the deque. -/
def run (fuel tid : Nat) : List DequeBody.DOp → LockFreeDeque →
    Option (LockFreeDeque × List DequeBody.DRes)
  | [], s => some (s, [])
  | op :: ops, s =>
    match step fuel tid s op with
    | none => none
    | some (s1, r) =>
      match run fuel tid ops s1 with
      | none => none
      | some (s2, rs) => some (s2, r :: rs)

/-- The states one thread `tid` can bring a deque into by calls of its public
operations, starting from a newly constructed deque. -/
inductive Reachable (tid : Nat) : LockFreeDeque → Prop
  | init (m : SMR DNode) : Reachable tid (LockFreeDeque.init m)
  | step (fuel : Nat) (s s' : LockFreeDeque) (op : DequeBody.DOp) (r : DequeBody.DRes) :
      Reachable tid s → LockFreeDeque.step fuel tid s op = some (s', r) → Reachable tid s'

/-- The hazard slots of the record of thread `tid`. -/
def hazardSlots (s : LockFreeDeque) (tid : Nat) : Option (List Nat) :=
  match s.deref with
  | none => none
  | some b => b.hazardSlots tid

end LockFreeDeque

end Amino

namespace Amino

namespace OrderedList

/-- The list after `insert(3)` by thread 0 on a new list. -/
def sampleList3 : OrderedList :=
  ((insert 5 (OrderedList.init (SMR.init NHPOINTER 0)) 0 0 3).map (fun r => r.1)).getD
    (OrderedList.init (SMR.init NHPOINTER 0))

/-- The list after `insert(3)` and `insert(5)` by thread 0 on a new list. -/
def sampleList35 : OrderedList :=
  ((insert 5 sampleList3 0 0 5).map (fun r => r.1)).getD sampleList3

/-- The list after `insert(3)`, `insert(5)` and `insert(7)` by thread 0 on a
new list. -/
def sampleList357 : OrderedList :=
  ((insert 5 sampleList35 0 0 7).map (fun r => r.1)).getD sampleList35

end OrderedList

end Amino

namespace Amino

theorem list_set_decomp {β : Type} (l : List β) (i : Nat) (x : β) (h : l[i]? = some x) :
    ∃ l1 l2, l = l1 ++ x :: l2 ∧ l1.length = i ∧ ∀ y, l.set i y = l1 ++ y :: l2 := by
  induction l generalizing i with
  | nil => simp at h
  | cons a l ih =>
    cases i with
    | zero =>
      simp at h
      subst h
      exact ⟨[], l, rfl, rfl, fun y => rfl⟩
    | succ i =>
      simp at h
      obtain ⟨l1, l2, h1, h2, h3⟩ := ih i h
      refine ⟨a :: l1, l2, by simp [h1], by simp [h2], fun y => ?_⟩
      simp [h3]

namespace Heap
variable {α : Type}

theorem empty_wf : (Heap.empty : Heap α).WF := by
  constructor <;> simp [Heap.empty]

theorem alloc_fst_ne (h : Heap α) (hw : h.WF) (v : α) : (h.alloc v).1 ≠ 0 := by
  unfold alloc
  cases hp : h.pool with
  | nil => simp [ALIGN]
  | cons p rest => simp; exact hw.pool_pos p (by simp [hp])

theorem alloc_fst_fresh (h : Heap α) (hw : h.WF) (v : α) : h.cells (h.alloc v).1 = none := by
  unfold alloc
  cases hp : h.pool with
  | nil =>
    simp
    by_contra hc
    have := hw.bound _ hc
    simp [ALIGN] at this
  | cons p rest => simp; exact hw.pool_free p (by simp [hp])

theorem alloc_fst_aligned (h : Heap α) (hw : h.WF) (v : α) : ALIGN ∣ (h.alloc v).1 := by
  unfold alloc
  cases hp : h.pool with
  | nil => simp
  | cons p rest => simp; exact hw.pool_aligned p (by simp [hp])

theorem alloc_cells (h : Heap α) (v : α) (q : Nat) :
    (h.alloc v).2.cells q = if q = (h.alloc v).1 then some v else h.cells q := by
  unfold alloc
  cases hp : h.pool <;> simp [put]

theorem alloc_brk_le (h : Heap α) (v : α) :
    h.brk ≤ (h.alloc v).2.brk ∧ (h.alloc v).2.brk ≤ h.brk + 1 := by
  unfold alloc
  cases hp : h.pool <;> simp [put]

theorem alloc_wf (h : Heap α) (hw : h.WF) (v : α) : (h.alloc v).2.WF := by
  have hc := alloc_cells h v
  unfold alloc at hc ⊢
  cases hp : h.pool with
  | nil =>
    rw [hp] at hc
    simp only at hc ⊢
    constructor
    · rw [hc]; simp [ALIGN, hw.null]
    · simp [put, hp]
    · simp [put, hp]
    · simp [put, hp]
    · simp [put, hp]
    · simp [put, hp]
    · intro p hpn
      rw [hc] at hpn
      by_cases hpe : p = ALIGN * (h.brk + 1)
      · simp [hpe, put]
      · simp [hpe] at hpn
        have h1 := hw.bound p hpn
        simp only [ALIGN] at h1 ⊢
        omega
    · intro p hpn
      rw [hc] at hpn
      by_cases hpe : p = ALIGN * (h.brk + 1)
      · simp [hpe]
      · simp [hpe] at hpn
        exact hw.aligned p hpn
  | cons a rest =>
    rw [hp] at hc
    simp only at hc ⊢
    have hnd := hw.pool_nodup
    rw [hp] at hnd
    have hnd' := List.nodup_cons.mp hnd
    constructor
    · rw [hc]
      have : a ≠ 0 := hw.pool_pos a (by simp [hp])
      simp [Ne.symm this, hw.null]
    · intro p hpm
      rw [hc]
      have : p ≠ a := by rintro rfl; exact hnd'.1 hpm
      simp [this]
      exact hw.pool_free p (by simp [hp, hpm])
    · intro p hpm
      exact hw.pool_pos p (by simp [hp]; exact Or.inr hpm)
    · exact hnd'.2
    · intro p hpm
      simp only [put]
      exact hw.pool_le p (by simp [hp]; exact Or.inr hpm)
    · intro p hpm
      exact hw.pool_aligned p (by simp [hp]; exact Or.inr hpm)
    · intro p hpn
      rw [hc] at hpn
      simp only [put]
      by_cases hpe : p = a
      · subst hpe; exact hw.pool_le p (by simp [hp])
      · simp [hpe] at hpn
        exact hw.bound p hpn
    · intro p hpn
      rw [hc] at hpn
      by_cases hpe : p = a
      · subst hpe; exact hw.pool_aligned p (by simp [hp])
      · simp [hpe] at hpn
        exact hw.aligned p hpn

theorem free_cells (h : Heap α) (hw : h.WF) (p q : Nat) :
    (h.free p).cells q = if q = p then none else h.cells q := by
  unfold free
  by_cases hp : p = 0
  · subst hp
    by_cases hq : q = 0
    · simp [hq, hw.null]
    · simp [hq]
  · simp [hp, put]

theorem free_wf (h : Heap α) (hw : h.WF) (p : Nat) (hp : h.cells p ≠ none) : (h.free p).WF := by
  have hc := free_cells h hw p
  have hp0 : p ≠ 0 := by rintro rfl; exact hp hw.null
  unfold free at hc ⊢
  simp only [hp0, if_false] at hc ⊢
  constructor
  · rw [hc]; simp [hw.null]
  · intro q hq
    rw [hc]
    by_cases hqp : q = p
    · simp [hqp]
    · simp [hqp]
      simp [hqp] at hq
      exact hw.pool_free q hq
  · intro q hq
    simp at hq
    rcases hq with rfl | hq
    · exact hp0
    · exact hw.pool_pos q hq
  · simp only [put]
    refine List.nodup_cons.mpr ⟨?_, hw.pool_nodup⟩
    intro hm
    exact hp (hw.pool_free p hm)
  · intro q hq
    simp [put] at hq ⊢
    rcases hq with rfl | hq
    · exact hw.bound q hp
    · exact hw.pool_le q hq
  · intro q hq
    simp at hq
    rcases hq with rfl | hq
    · exact hw.aligned q hp
    · exact hw.pool_aligned q hq
  · intro q hq
    rw [hc] at hq
    simp only [put]
    by_cases hqp : q = p
    · simp [hqp] at hq
    · simp [hqp] at hq
      exact hw.bound q hq
  · intro q hq
    rw [hc] at hq
    by_cases hqp : q = p
    · simp [hqp] at hq
    · simp [hqp] at hq
      exact hw.aligned q hq

theorem free_brk (h : Heap α) (p : Nat) : (h.free p).brk = h.brk := by
  unfold free
  split <;> simp [put]

theorem modify_some (h : Heap α) (p : Nat) (f : α → α) (v : α) (hv : h.cells p = some v) :
    h.modify p f = some (h.put p (some (f v))) := by
  simp [modify, hv]

theorem put_cells (h : Heap α) (p : Nat) (v : Option α) (q : Nat) :
    (h.put p v).cells q = if q = p then v else h.cells q := rfl

theorem put_wf (h : Heap α) (hw : h.WF) (p : Nat) (v : α) (hp : h.cells p ≠ none) :
    (h.put p (some v)).WF := by
  have hp0 : p ≠ 0 := by rintro rfl; exact hp hw.null
  constructor
  · simp [put, Ne.symm hp0, hw.null]
  · intro q hq
    have : q ≠ p := by rintro rfl; exact hp (hw.pool_free q hq)
    simp [put, this]
    exact hw.pool_free q hq
  · exact hw.pool_pos
  · exact hw.pool_nodup
  · exact hw.pool_le
  · exact hw.pool_aligned
  · intro q hq
    simp only [put] at hq ⊢
    by_cases hqp : q = p
    · subst hqp; exact hw.bound q hp
    · simp [hqp] at hq; exact hw.bound q hq
  · intro q hq
    simp only [put] at hq
    by_cases hqp : q = p
    · subst hqp; exact hw.aligned q hp
    · simp [hqp] at hq; exact hw.aligned q hq

end Heap

end Amino

namespace Amino

namespace SMR
variable {α : Type}

@[simp] theorem setRec_heap (s : SMR α) (a : Nat) (r : HPRecType) : (s.setRec a r).heap = s.heap := by
  unfold setRec; split <;> rfl

@[simp] theorem setRec_K (s : SMR α) (a : Nat) (r : HPRecType) : (s.setRec a r).K = s.K := by
  unfold setRec; split <;> rfl

@[simp] theorem setRec_RH (s : SMR α) (a : Nat) (r : HPRecType) : (s.setRec a r).RH = s.RH := by
  unfold setRec; split <;> rfl

@[simp] theorem setRec_hp_count (s : SMR α) (a : Nat) (r : HPRecType) :
    (s.setRec a r).hp_count = s.hp_count := by
  unfold setRec; split <;> rfl

@[simp] theorem setRec_thread_local (s : SMR α) (a : Nat) (r : HPRecType) :
    (s.setRec a r).thread_local = s.thread_local := by
  unfold setRec; split <;> rfl

@[simp] theorem setRec_length (s : SMR α) (a : Nat) (r : HPRecType) :
    (s.setRec a r).hprecs.length = s.hprecs.length := by
  unfold setRec; split <;> simp

/-- A record address that can be dereferenced splits the list around its record. -/
theorem getRec_decomp (s : SMR α) (a : Nat) (r : HPRecType) (h : s.getRec a = some r) :
    ∃ l1 l2, s.hprecs = l1 ++ r :: l2 ∧ a = l2.length + 1 := by
  unfold getRec at h
  split at h
  · simp at h
  · rename_i hc
    push_neg at hc
    obtain ⟨l1, l2, h1, h2, -⟩ := list_set_decomp _ _ _ h
    refine ⟨l1, l2, h1, ?_⟩
    have : s.hprecs.length = l1.length + (l2.length + 1) := by rw [h1]; simp
    omega

theorem getRec_of_decomp (s : SMR α) (l1 l2 : List HPRecType) (r : HPRecType)
    (h : s.hprecs = l1 ++ r :: l2) : s.getRec (l2.length + 1) = some r := by
  unfold getRec
  have hl : s.hprecs.length = l1.length + (l2.length + 1) := by rw [h]; simp
  have hn : ¬ (l2.length + 1 = 0 ∨ s.hprecs.length < l2.length + 1) := by omega
  rw [if_neg hn]
  have : s.hprecs.length - (l2.length + 1) = l1.length := by omega
  rw [this, h, List.getElem?_append_right (le_refl _)]
  simp

theorem setRec_of_decomp (s : SMR α) (l1 l2 : List HPRecType) (r r' : HPRecType)
    (h : s.hprecs = l1 ++ r :: l2) : (s.setRec (l2.length + 1) r').hprecs = l1 ++ r' :: l2 := by
  unfold setRec
  have hl : s.hprecs.length = l1.length + (l2.length + 1) := by rw [h]; simp
  have hn : ¬ (l2.length + 1 = 0 ∨ s.hprecs.length < l2.length + 1) := by omega
  rw [if_neg hn]
  have : s.hprecs.length - (l2.length + 1) = l1.length := by omega
  simp only [this, h]
  simp

theorem othersOwned_of_decomp (s : SMR α) (l1 l2 : List HPRecType) (r : HPRecType)
    (h : s.hprecs = l1 ++ r :: l2) :
    s.othersOwned (l2.length + 1) = l1.flatMap HPRecType.owned ++ l2.flatMap HPRecType.owned := by
  unfold othersOwned
  have hl : s.hprecs.length = l1.length + (l2.length + 1) := by rw [h]; simp
  have : s.hprecs.length - (l2.length + 1) = l1.length := by omega
  rw [this, h, List.eraseIdx_append_of_length_le (le_refl _)]
  simp

theorem allOwned_perm (s : SMR α) (a : Nat) (r : HPRecType) (h : s.getRec a = some r) :
    List.Perm s.allOwned (r.owned ++ s.othersOwned a) := by
  obtain ⟨l1, l2, h1, h2⟩ := getRec_decomp s a r h
  subst h2
  rw [othersOwned_of_decomp s l1 l2 r h1]
  unfold allOwned
  rw [h1, List.flatMap_append, List.flatMap_cons, ← List.append_assoc, ← List.append_assoc]
  exact List.Perm.append_right _ List.perm_append_comm

theorem getRec_setRec (s : SMR α) (a : Nat) (r r' : HPRecType) (h : s.getRec a = some r) :
    (s.setRec a r').getRec a = some r' := by
  obtain ⟨l1, l2, h1, h2⟩ := getRec_decomp s a r h
  subst h2
  exact getRec_of_decomp _ l1 l2 r' (setRec_of_decomp s l1 l2 r r' h1)

theorem othersOwned_setRec (s : SMR α) (a : Nat) (r r' : HPRecType) (h : s.getRec a = some r) :
    (s.setRec a r').othersOwned a = s.othersOwned a := by
  obtain ⟨l1, l2, h1, h2⟩ := getRec_decomp s a r h
  subst h2
  rw [othersOwned_of_decomp s l1 l2 r h1,
    othersOwned_of_decomp _ l1 l2 r' (setRec_of_decomp s l1 l2 r r' h1)]

theorem getRec_mem (s : SMR α) (a : Nat) (r : HPRecType) (h : s.getRec a = some r) :
    r ∈ s.hprecs := by
  obtain ⟨l1, l2, h1, -⟩ := getRec_decomp s a r h
  rw [h1]; simp

theorem getRec_heap (s : SMR α) (h : Heap α) (a : Nat) :
    ({ s with heap := h } : SMR α).getRec a = s.getRec a := rfl

theorem getRec_isSome (s : SMR α) (a : Nat) (h0 : a ≠ 0) (hl : a ≤ s.hprecs.length) :
    ∃ r, s.getRec a = some r := by
  unfold getRec
  have hn : ¬ (a = 0 ∨ s.hprecs.length < a) := by omega
  rw [if_neg hn]
  have : s.hprecs.length - a < s.hprecs.length := by omega
  exact ⟨s.hprecs[s.hprecs.length - a], by simp [this]⟩

theorem mem_allOwned (s : SMR α) (a : Nat) (r : HPRecType) (h : s.getRec a = some r) (p : Nat) :
    p ∈ s.allOwned ↔ p ∈ r.owned ∨ p ∈ s.othersOwned a := by
  rw [(allOwned_perm s a r h).mem_iff, List.mem_append]

/-- Replacing the record at `a` and the store keeps the state well formed when
the new record is well shaped, keeps `nrThreads`, and the owned nodes stay
allocated and pairwise different. -/
theorem WF.update {s : SMR α} (hw : s.WF) (a : Nat) (r r' : HPRecType) (h' : Heap α)
    (hg : s.getRec a = some r) (hh : h'.WF) (hr : r'.WF s.K) (hn : r'.nrThreads = r.nrThreads)
    (hnd : (r'.owned ++ s.othersOwned a).Nodup)
    (hal : ∀ p ∈ r'.owned ++ s.othersOwned a, h'.cells p ≠ none) :
    (({ s with heap := h' } : SMR α).setRec a r').WF := by
  obtain ⟨l1, l2, h1, h2⟩ := getRec_decomp s a r hg
  subst h2
  have hs : (({ s with heap := h' } : SMR α).setRec (l2.length + 1) r').hprecs = l1 ++ r' :: l2 :=
    setRec_of_decomp _ l1 l2 r r' h1
  have hg' : (({ s with heap := h' } : SMR α).setRec (l2.length + 1) r').getRec (l2.length + 1)
      = some r' := getRec_of_decomp _ l1 l2 r' hs
  have ho : (({ s with heap := h' } : SMR α).setRec (l2.length + 1) r').othersOwned (l2.length + 1)
      = s.othersOwned (l2.length + 1) := by
    rw [othersOwned_of_decomp _ l1 l2 r' hs, othersOwned_of_decomp s l1 l2 r h1]
  constructor
  · simpa using hh
  · intro x hx
    rw [hs] at hx
    simp only [setRec_K]
    simp only [List.mem_append, List.mem_cons] at hx
    rcases hx with hx | rfl | hx
    · exact hw.recs x (by rw [h1]; simp [hx])
    · exact hr
    · exact hw.recs x (by rw [h1]; simp [hx])
  · simpa using hw.count
  · intro t
    simpa using hw.tl t
  · intro n hn'
    rw [setRec_length]
    apply hw.cap n
    rw [hs] at hn'
    rw [h1]
    simpa [hn] using hn'
  · intro p hp
    rw [mem_allOwned _ _ _ hg', ho, ← List.mem_append] at hp
    simpa using hal p hp
  · rw [(allOwned_perm _ _ _ hg').nodup_iff, ho]
    exact hnd

/-- Replacing a record by one that owns the same nodes changes nothing of what is owned. -/
theorem allOwned_setRec_same (s : SMR α) (a : Nat) (r r' : HPRecType)
    (hg : s.getRec a = some r) (ho : r'.owned = r.owned) :
    (s.setRec a r').allOwned = s.allOwned := by
  obtain ⟨l1, l2, h1, h2⟩ := getRec_decomp s a r hg
  subst h2
  unfold allOwned
  rw [setRec_of_decomp s l1 l2 r r' h1, h1]
  simp [List.flatMap_append, List.flatMap_cons, ho]

theorem WF.setRec_same {s : SMR α} (hw : s.WF) (a : Nat) (r r' : HPRecType)
    (hg : s.getRec a = some r) (hr : r'.WF s.K) (hn : r'.nrThreads = r.nrThreads)
    (ho : r'.owned = r.owned) : (s.setRec a r').WF := by
  have := hw.update a r r' s.heap hg hw.heap hr hn
    (by rw [ho, ← (allOwned_perm s a r hg).nodup_iff]; exact hw.owned_nodup)
    (by
      intro p hp
      rw [ho] at hp
      exact hw.owned_alloc p ((mem_allOwned s a r hg p).mpr (List.mem_append.mp hp)))
  exact this

end SMR

end Amino

namespace Amino

theorem take_set_succ {β : Type} (l : List β) (i : Nat) (d : β) (h : i < l.length) :
    (l.set i d).take (i + 1) = l.take i ++ [d] := by
  induction l generalizing i with
  | nil => simp at h
  | cons a l ih =>
    cases i with
    | zero => simp
    | succ i =>
      simp at h
      simp [ih i h]

namespace Heap
variable {α : Type}

theorem foldl_free_spec (L : List Nat) (h : Heap α) (hw : h.WF) (hnd : L.Nodup)
    (hal : ∀ p ∈ L, h.cells p ≠ none) :
    (L.foldl Heap.free h).WF ∧
    (∀ q, (L.foldl Heap.free h).cells q = if q ∈ L then none else h.cells q) ∧
    (L.foldl Heap.free h).brk = h.brk ∧
    (L.foldl Heap.free h).pool = L.reverse ++ h.pool := by
  induction L generalizing h with
  | nil => simp [hw]
  | cons a L ih =>
    have hnd' := List.nodup_cons.mp hnd
    have ha : h.cells a ≠ none := hal a (by simp)
    have ha0 : a ≠ 0 := by rintro rfl; exact ha hw.null
    have hw1 := free_wf h hw a ha
    have hc1 := free_cells h hw a
    have := ih (h.free a) hw1 hnd'.2 (by
      intro p hp
      rw [hc1]
      have : p ≠ a := by rintro rfl; exact hnd'.1 hp
      simp [this]
      exact hal p (by simp [hp]))
    obtain ⟨i1, i2, i3, i4⟩ := this
    simp only [List.foldl_cons]
    refine ⟨i1, ?_, ?_, ?_⟩
    · intro q
      rw [i2 q, hc1]
      by_cases hq : q ∈ L
      · simp [hq]
      · by_cases hqa : q = a
        · simp [hqa]
        · simp [hq, hqa]
    · rw [i3, free_brk]
    · rw [i4]
      simp [free, ha0, put]

end Heap

namespace SMR
variable {α : Type}

theorem hazards_length_le (K : Nat) (recs : List HPRecType) (h : ∀ r ∈ recs, r.hp.length = K) :
    (hazards recs).length ≤ recs.length * K := by
  induction recs with
  | nil => simp [hazards]
  | cons r recs ih =>
    have h1 := ih (fun x hx => h x (by simp [hx]))
    have h2 := h r (by simp)
    have h3 := List.length_filter_le (fun p => p != 0) r.hp
    simp only [hazards, List.flatMap_cons, List.length_append, List.length_cons] at h1 ⊢
    rw [Nat.add_mul]
    omega

theorem release_fields (r : HPRecType) (h : Heap α) (d : Nat) :
    (HPRecType.release (r, h) d).1.hp = r.hp ∧
    (HPRecType.release (r, h) d).1.active = r.active ∧
    (HPRecType.release (r, h) d).1.nrThreads = r.nrThreads ∧
    (HPRecType.release (r, h) d).1.allocType = r.allocType ∧
    (HPRecType.release (r, h) d).1.rlist = r.rlist ∧
    (HPRecType.release (r, h) d).1.rcount = r.rcount ∧
    (HPRecType.release (r, h) d).1.frListData.length = r.frListData.length ∧
    (r.fr_smr_count ≤ r.frListSMR.length →
      (HPRecType.release (r, h) d).1.fr_smr_count
        ≤ (HPRecType.release (r, h) d).1.frListSMR.length) := by
  unfold HPRecType.release HPRecType.freeData HPRecType.freeSMRNode
  by_cases h1 : r.fr_data_count < MAX_FREE_NODES <;>
    by_cases h2 : r.fr_smr_count < MAX_FREE_NODES <;> simp [h1, h2]

theorem release_lt (r : HPRecType) (h : Heap α) (d : Nat) (hlt : r.fr_data_count < MAX_FREE_NODES) :
    (HPRecType.release (r, h) d).1.fr_data_count = r.fr_data_count + 1 ∧
    (HPRecType.release (r, h) d).1.frListData = r.frListData.set r.fr_data_count d ∧
    (HPRecType.release (r, h) d).2 = h := by
  unfold HPRecType.release HPRecType.freeData HPRecType.freeSMRNode
  by_cases h2 : r.fr_smr_count < MAX_FREE_NODES <;> simp [hlt, h2]

theorem release_ge (r : HPRecType) (h : Heap α) (d : Nat) (hlt : ¬ r.fr_data_count < MAX_FREE_NODES) :
    (HPRecType.release (r, h) d).1.fr_data_count = r.fr_data_count ∧
    (HPRecType.release (r, h) d).1.frListData = r.frListData ∧
    (HPRecType.release (r, h) d).2 = h.free d := by
  unfold HPRecType.release HPRecType.freeData HPRecType.freeSMRNode
  by_cases h2 : r.fr_smr_count < MAX_FREE_NODES <;> simp [hlt, h2]

theorem scanLoop_eq (plist : List Nat) (rl : List Nat) (r : HPRecType) (h : Heap α)
    (tmp : List Nat) (n : Nat) :
    scanLoop plist rl r h tmp n =
      (((rl.filter (fun d => !binary_search plist d)).foldl HPRecType.release (r, h)).1,
       ((rl.filter (fun d => !binary_search plist d)).foldl HPRecType.release (r, h)).2,
       (rl.filter (fun d => binary_search plist d)).reverse ++ tmp,
       n + (rl.filter (fun d => binary_search plist d)).length) := by
  induction rl generalizing r h tmp n with
  | nil => simp [scanLoop]
  | cons d rl ih =>
    by_cases hb : binary_search plist d = true
    · simp only [scanLoop, hb, if_true, ih]
      simp [List.filter_cons, hb]
      omega
    · have hb' : binary_search plist d = false := by simpa using hb
      simp only [scanLoop, hb, if_false, ih]
      simp [List.filter_cons, hb', HPRecType.release]

/-- The effect of releasing a list of nodes: the first ones fill the free
list of data nodes up to `MAX_FREE_NODES`, the others are deleted. -/
theorem foldl_release (L : List Nat) (r : HPRecType) (h : Heap α)
    (hc : r.fr_data_count ≤ MAX_FREE_NODES) (hl : r.frListData.length = MAX_FREE_NODES + 1) :
    (L.foldl HPRecType.release (r, h)).2
        = (L.drop (MAX_FREE_NODES - r.fr_data_count)).foldl Heap.free h ∧
    (L.foldl HPRecType.release (r, h)).1.frListData.take
        (L.foldl HPRecType.release (r, h)).1.fr_data_count
        = r.frListData.take r.fr_data_count ++ L.take (MAX_FREE_NODES - r.fr_data_count) ∧
    (L.foldl HPRecType.release (r, h)).1.fr_data_count ≤ MAX_FREE_NODES ∧
    (L.foldl HPRecType.release (r, h)).1.frListData.length = MAX_FREE_NODES + 1 ∧
    (L.foldl HPRecType.release (r, h)).1.hp = r.hp ∧
    (L.foldl HPRecType.release (r, h)).1.active = r.active ∧
    (L.foldl HPRecType.release (r, h)).1.nrThreads = r.nrThreads ∧
    (L.foldl HPRecType.release (r, h)).1.allocType = r.allocType ∧
    (L.foldl HPRecType.release (r, h)).1.rlist = r.rlist ∧
    (L.foldl HPRecType.release (r, h)).1.rcount = r.rcount ∧
    (r.fr_smr_count ≤ r.frListSMR.length →
      (L.foldl HPRecType.release (r, h)).1.fr_smr_count
        ≤ (L.foldl HPRecType.release (r, h)).1.frListSMR.length) := by
  induction L generalizing r h with
  | nil => simp [hc, hl]
  | cons d L ih =>
    obtain ⟨f1, f2, f3, f4, f5, f6, f7, f8⟩ := release_fields r h d
    simp only [List.foldl_cons]
    by_cases hlt : r.fr_data_count < MAX_FREE_NODES
    · obtain ⟨g1, g2, g3⟩ := release_lt r h d hlt
      have := ih (HPRecType.release (r, h) d).1 (HPRecType.release (r, h) d).2
        (by rw [g1]; omega) (by rw [f7, hl])
      obtain ⟨i1, i2, i3, i4, i5, i6, i7, i8, i9, i10, i11⟩ := this
      have e3 : MAX_FREE_NODES - r.fr_data_count
          = (MAX_FREE_NODES - (r.fr_data_count + 1)) + 1 := by omega
      refine ⟨?_, ?_, i3, i4, ?_, ?_, ?_, ?_, ?_, ?_, ?_⟩
      · rw [i1, g1, g3, e3, List.drop_succ_cons]
      · rw [i2, g1, g2, e3, List.take_succ_cons, take_set_succ _ _ _ (by rw [hl]; omega)]
        simp
      · rw [i5, f1]
      · rw [i6, f2]
      · rw [i7, f3]
      · rw [i8, f4]
      · rw [i9, f5]
      · rw [i10, f6]
      · intro hs; exact i11 (f8 hs)
    · obtain ⟨g1, g2, g3⟩ := release_ge r h d hlt
      have := ih (HPRecType.release (r, h) d).1 (HPRecType.release (r, h) d).2
        (by rw [g1]; omega) (by rw [f7, hl])
      obtain ⟨i1, i2, i3, i4, i5, i6, i7, i8, i9, i10, i11⟩ := this
      have e3 : MAX_FREE_NODES - r.fr_data_count = 0 := by omega
      refine ⟨?_, ?_, i3, i4, ?_, ?_, ?_, ?_, ?_, ?_, ?_⟩
      · rw [i1, g1, g3, e3]; simp
      · rw [i2, g1, g2, e3]; simp
      · rw [i5, f1]
      · rw [i6, f2]
      · rw [i7, f3]
      · rw [i8, f4]
      · rw [i9, f5]
      · rw [i10, f6]
      · intro hs; exact i11 (f8 hs)

end SMR

end Amino

namespace Amino

namespace SMR
variable {α : Type}

theorem perm_release_aux (keep T rel : List Nat) (k : Nat) :
    List.Perm ((keep ++ rel) ++ T) (keep.reverse ++ (T ++ rel.take k) ++ rel.drop k) := by
  rw [List.perm_iff_count]
  intro a
  have h := congrArg (List.count a) (List.take_append_drop k rel)
  simp only [List.count_append, List.count_reverse] at h ⊢
  omega

theorem live_null (s : SMR α) (hw : s.WF) : ¬ s.live 0 := fun h => h.1 hw.heap.null

theorem live_ne_zero (s : SMR α) (hw : s.WF) (p : Nat) (h : s.live p) : p ≠ 0 := by
  rintro rfl; exact live_null s hw h

/-- What a container sees of a reclamation step: nodes that were live and
were not handed over stay live with the same contents, nothing becomes live. -/
theorem Retired.frame {s s' : SMR α} {ps del : List Nat} (hr : Retired s s' ps del) (q : Nat) :
    (s.live q → q ∉ ps → s'.live q ∧ s'.heap.cells q = s.heap.cells q) ∧
    (s'.live q → s.live q ∧ q ∉ ps) ∧
    (q ∈ ps → ¬ s'.live q) := by
  have hm := hr.perm.mem_iff (a := q)
  simp only [List.mem_append] at hm
  have hc := hr.cells q
  refine ⟨?_, ?_, ?_⟩
  · intro hl hq
    have h1 : ¬ (q ∈ s'.allOwned ∨ q ∈ del) := by
      rw [← hm]; rintro (h | h)
      · exact hq h
      · exact hl.2 h
    push_neg at h1
    rw [if_neg h1.2] at hc
    exact ⟨⟨by rw [hc]; exact hl.1, h1.1⟩, hc⟩
  · intro hl
    have hd : q ∉ del := by
      intro hd
      rw [if_pos hd] at hc
      exact hl.1 hc
    rw [if_neg hd] at hc
    have h1 : ¬ (q ∈ ps ∨ q ∈ s.allOwned) := by
      rw [hm]; rintro (h | h)
      · exact hl.2 h
      · exact hd h
    push_neg at h1
    exact ⟨⟨by rw [← hc]; exact hl.1, h1.2⟩, h1.1⟩
  · intro hq hl
    have h1 : q ∈ s'.allOwned ∨ q ∈ del := hm.mp (Or.inl hq)
    rcases h1 with h1 | h1
    · exact hl.2 h1
    · rw [if_pos h1] at hc
      exact hl.1 hc

theorem scan_eq (s : SMR α) (hw : s.WF) (tid : Nat) (r : HPRecType)
    (hg : s.getRec (s.thread_local tid) = some r) :
    s.scan tid = some (({ s with heap :=
        ((r.rlist.filter (fun d => !binary_search
            (unique ((hazards s.hprecs).mergeSort (fun a b => decide (a ≤ b)))) d)).foldl
          HPRecType.release (r, s.heap)).2 } : SMR α).setRec (s.thread_local tid)
      { ((r.rlist.filter (fun d => !binary_search
            (unique ((hazards s.hprecs).mergeSort (fun a b => decide (a ≤ b)))) d)).foldl
          HPRecType.release (r, s.heap)).1 with
        rlist := (r.rlist.filter (fun d => binary_search
            (unique ((hazards s.hprecs).mergeSort (fun a b => decide (a ≤ b)))) d)).reverse,
        rcount := (r.rlist.filter (fun d => binary_search
            (unique ((hazards s.hprecs).mergeSort (fun a b => decide (a ≤ b)))) d)).length }) := by
  have hmem := getRec_mem s _ r hg
  unfold scan
  rw [hg]
  cases hrecs : s.hprecs with
  | nil => rw [hrecs] at hmem; simp at hmem
  | cons r0 rest =>
    have hcap : s.hprecs.length ≤ r0.nrThreads := hw.cap r0.nrThreads (by simp [hrecs])
    have hlen := hazards_length_le s.K s.hprecs (fun x hx => (hw.recs x hx).hp_len)
    have hle : (hazards (r0 :: rest)).length ≤ r0.nrThreads * s.K := by
      rw [← hrecs]
      exact le_trans hlen (Nat.mul_le_mul_right _ hcap)
    simp only [List.head?_cons, hle, if_true, scanLoop_eq]
    simp

theorem scan_spec (s : SMR α) (hw : s.WF) (tid : Nat) (r : HPRecType)
    (hg : s.getRec (s.thread_local tid) = some r) :
    ∃ s' del, s.scan tid = some s' ∧ s'.WF ∧ Retired s s' [] del := by
  rw [scan_eq s hw tid r hg]
  generalize unique ((hazards s.hprecs).mergeSort (fun a b => decide (a ≤ b))) = plist
  have hrw := hw.recs r (getRec_mem s _ r hg)
  obtain ⟨i1, i2, i3, i4, i5, i6, i7, i8, i9, i10, i11⟩ :=
    foldl_release (r.rlist.filter (fun d => !binary_search plist d)) r s.heap
      hrw.fr_data_le hrw.fr_data_len
  generalize (r.rlist.filter (fun d => !binary_search plist d)).foldl
    HPRecType.release (r, s.heap) = X at *
  generalize hk : MAX_FREE_NODES - r.fr_data_count = k at *
  generalize hrel : r.rlist.filter (fun d => !binary_search plist d) = rel at *
  generalize hkeep : r.rlist.filter (fun d => binary_search plist d) = keep at *
  -- the permutation of the owned nodes of this record
  have p1 : List.Perm r.rlist (keep ++ rel) := by
    rw [← hkeep, ← hrel]; exact (List.filter_append_perm _ _).symm
  have hown' : ({ X.1 with rlist := keep.reverse, rcount := keep.length } : HPRecType).owned
      = keep.reverse ++ (r.frListData.take r.fr_data_count ++ rel.take k) := by
    simp only [HPRecType.owned, i2]
  have p2 : List.Perm r.owned
      (({ X.1 with rlist := keep.reverse, rcount := keep.length } : HPRecType).owned
        ++ rel.drop k) := by
    rw [hown']
    unfold HPRecType.owned
    exact (p1.append_right _).trans (perm_release_aux keep _ rel k)
  have p3 : List.Perm s.allOwned
      ((({ X.1 with rlist := keep.reverse, rcount := keep.length } : HPRecType).owned
        ++ s.othersOwned (s.thread_local tid)) ++ rel.drop k) := by
    refine (allOwned_perm s _ r hg).trans ((p2.append_right _).trans ?_)
    rw [List.append_assoc, List.append_assoc]
    exact List.perm_append_comm.append_left _
  have hnd := (p3.nodup_iff).mp hw.owned_nodup
  have hnd1 := hnd.of_append_left
  have hnd2 := hnd.of_append_right
  have hdis := List.disjoint_of_nodup_append hnd
  have hdel_alloc : ∀ p ∈ rel.drop k, s.heap.cells p ≠ none := by
    intro p hp
    exact hw.owned_alloc p (p3.mem_iff.mpr (List.mem_append.mpr (Or.inr hp)))
  obtain ⟨j1, j2, j3, j4⟩ := Heap.foldl_free_spec (rel.drop k) s.heap hw.heap hnd2 hdel_alloc
  rw [← i1] at j1 j2 j3 j4
  have hwf : (({ s with heap := X.2 } : SMR α).setRec (s.thread_local tid)
      { X.1 with rlist := keep.reverse, rcount := keep.length }).WF := by
    apply hw.update _ r _ _ hg j1
    · exact ⟨by simpa [i5] using hrw.hp_len, by simpa [i8] using hrw.allocType, i3, i4,
        i11 hrw.fr_smr_le⟩
    · exact i7
    · exact hnd1
    · intro p hp
      rw [j2]
      have : p ∉ rel.drop k := fun hc => hdis hp hc
      rw [if_neg this]
      exact hw.owned_alloc p (p3.mem_iff.mpr (List.mem_append.mpr (Or.inl hp)))
  refine ⟨_, rel.drop k, rfl, hwf, ?_⟩
  have hg' : (({ s with heap := X.2 } : SMR α).setRec (s.thread_local tid)
      { X.1 with rlist := keep.reverse, rcount := keep.length }).getRec (s.thread_local tid)
      = some { X.1 with rlist := keep.reverse, rcount := keep.length } :=
    getRec_setRec _ _ r _ hg
  have ho : (({ s with heap := X.2 } : SMR α).setRec (s.thread_local tid)
      { X.1 with rlist := keep.reverse, rcount := keep.length }).othersOwned (s.thread_local tid)
      = s.othersOwned (s.thread_local tid) := othersOwned_setRec _ _ r _ hg
  constructor
  · simp only [List.nil_append]
    refine p3.trans (List.Perm.append_right _ ?_)
    rw [← ho]
    exact (allOwned_perm _ _ _ hg').symm
  · intro q
    simpa using j2 q
  · simp
  · simp
  · simp
  · simpa using j3
  · simp

end SMR

end Amino

namespace Amino

namespace HPRecType

theorem rec_init_wf (K a : Nat) : (HPRecType.init K a).WF K := by
  constructor <;> simp [HPRecType.init, MEM_NOALIGN]

theorem rec_init_owned (K a : Nat) : (HPRecType.init K a).owned = [] := by
  simp [HPRecType.init, HPRecType.owned]

theorem allocSMRNode_spec (K : Nat) (r : HPRecType) (hr : r.WF K) :
    ∃ r1, r.allocSMRNode = some r1 ∧ r1.WF K ∧ r1.owned = r.owned ∧
      r1.nrThreads = r.nrThreads ∧ r1.hp = r.hp ∧ r1.rlist = r.rlist ∧ r1.rcount = r.rcount := by
  unfold allocSMRNode
  by_cases h0 : r.fr_smr_count = 0
  · simp [h0, hr]
  · simp only [h0, if_false]
    cases hl : r.frListSMR with
    | nil =>
      have := hr.fr_smr_le
      rw [hl] at this
      simp at this
      exact absurd this h0
    | cons a rest =>
      refine ⟨_, rfl, ?_, rfl, rfl, rfl, rfl, rfl⟩
      constructor
      · exact hr.hp_len
      · exact hr.allocType
      · exact hr.fr_data_le
      · exact hr.fr_data_len
      · have := hr.fr_smr_le
        rw [hl] at this
        simp at this ⊢
        omega

end HPRecType

namespace SMR
variable {α : Type}

theorem valid_getRec (s : SMR α) (a : Nat) (h : s.valid a) : ∃ r, s.getRec a = some r :=
  getRec_isSome s a h.1 h.2

theorem getRec_valid (s : SMR α) (a : Nat) (r : HPRecType) (h : s.getRec a = some r) :
    s.valid a := by
  obtain ⟨l1, l2, h1, h2⟩ := getRec_decomp s a r h
  subst h2
  constructor
  · omega
  · rw [h1]; simp

theorem SameNodes.live {s s' : SMR α} (h : SameNodes s s') (q : Nat) : s'.live q ↔ s.live q := by
  unfold SMR.live
  rw [h.heap, h.owned]

theorem SameNodes.valid {s s' : SMR α} (h : SameNodes s s') (a : Nat) (ha : s.valid a) :
    s'.valid a := ⟨ha.1, le_trans ha.2 h.len⟩

theorem SameNodes.refl (s : SMR α) : SameNodes s s := ⟨rfl, rfl, rfl, le_refl _⟩

theorem SameNodes.trans {s s1 s2 : SMR α} (h1 : SameNodes s s1) (h2 : SameNodes s1 s2) :
    SameNodes s s2 :=
  ⟨h2.heap.trans h1.heap, h2.owned.trans h1.owned, h2.K.trans h1.K, le_trans h1.len h2.len⟩

theorem reuseHPRec_decomp (l : List HPRecType) (a : Nat) (l' : List HPRecType)
    (h : reuseHPRec l = some (a, l')) :
    ∃ l1 r l2, l = l1 ++ r :: l2 ∧ l' = l1 ++ { r with active := true } :: l2 ∧
      a = l2.length + 1 := by
  induction l generalizing a l' with
  | nil => simp [reuseHPRec] at h
  | cons r rs ih =>
    unfold reuseHPRec at h
    by_cases hact : r.active = true
    · simp only [hact, if_true] at h
      cases hre : reuseHPRec rs with
      | none => rw [hre] at h; simp at h
      | some x =>
        obtain ⟨a1, rs1⟩ := x
        rw [hre] at h
        simp at h
        obtain ⟨l1, r1, l2, e1, e2, e3⟩ := ih a1 rs1 hre
        refine ⟨r :: l1, r1, l2, by simp [e1], ?_, ?_⟩
        · rw [← h.2, e2]; simp
        · rw [← h.1, e3]
    · simp only [hact] at h
      simp at h
      exact ⟨[], r, rs, by simp, by rw [← h.2]; simp, by rw [← h.1]⟩

theorem WF.set_tl {s : SMR α} (hw : s.WF) (tid a : Nat) (ha : a ≤ s.hprecs.length) :
    ({ s with thread_local := fun t => if t = tid then a else s.thread_local t } : SMR α).WF := by
  constructor
  · exact hw.heap
  · exact hw.recs
  · exact hw.count
  · intro t
    show (if t = tid then a else s.thread_local t) ≤ s.hprecs.length
    split
    · exact ha
    · exact hw.tl t
  · exact hw.cap
  · exact hw.owned_alloc
  · exact hw.owned_nodup

theorem allocHPRec_spec (s : SMR α) (hw : s.WF) (tid : Nat) :
    (s.allocHPRec tid).1.WF ∧ (s.allocHPRec tid).1.thread_local tid = (s.allocHPRec tid).2 ∧
    (s.allocHPRec tid).1.valid (s.allocHPRec tid).2 ∧ SameNodes s (s.allocHPRec tid).1 := by
  unfold allocHPRec
  cases hre : reuseHPRec s.hprecs with
  | some x =>
    obtain ⟨a, rs⟩ := x
    obtain ⟨l1, r, l2, e1, e2, e3⟩ := reuseHPRec_decomp _ _ _ hre
    subst e3
    have hg : s.getRec (l2.length + 1) = some r := getRec_of_decomp s l1 l2 r e1
    have hrw := hw.recs r (getRec_mem s _ r hg)
    have hw1 : (s.setRec (l2.length + 1) { r with active := true }).WF :=
      hw.setRec_same _ r _ hg ⟨hrw.hp_len, hrw.allocType, hrw.fr_data_le, hrw.fr_data_len,
        hrw.fr_smr_le⟩ rfl rfl
    have hrs : (s.setRec (l2.length + 1) { r with active := true }).hprecs = rs := by
      rw [setRec_of_decomp s l1 l2 r _ e1, e2]
    have hlen : rs.length = s.hprecs.length := by rw [← hrs]; simp
    have hown : (s.setRec (l2.length + 1) { r with active := true }).allOwned = s.allOwned :=
      allOwned_setRec_same s _ r _ hg rfl
    simp only
    refine ⟨?_, by simp, ?_, ?_⟩
    · have h2 := hw1.set_tl tid (l2.length + 1) (by rw [setRec_length, e1]; simp)
      constructor
      · simpa using h2.heap
      · intro x hx
        have := h2.recs x (by simpa [hrs] using hx)
        simpa using this
      · have := h2.count
        simp only [hrs] at this
        simpa using this
      · intro t
        have := h2.tl t
        simp only [hrs] at this
        simpa using this
      · intro n hn
        have := h2.cap n (by simpa [hrs] using hn)
        simpa [hrs] using this
      · intro p hp
        have := h2.owned_alloc p (by
          show p ∈ (s.setRec (l2.length + 1) { r with active := true }).allOwned
          unfold allOwned at hp ⊢
          rw [hrs]; exact hp)
        simpa using this
      · have := h2.owned_nodup
        unfold allOwned at this ⊢
        simp only [hrs] at this
        exact this
    · constructor
      · simp
      · show l2.length + 1 ≤ rs.length
        rw [hlen, e1]; simp
    · constructor
      · rfl
      · unfold allOwned at hown ⊢
        rw [hrs] at hown
        exact hown
      · rfl
      · show s.hprecs.length ≤ rs.length
        rw [hlen]
  | none =>
    simp only
    refine ⟨?_, by simp, ?_, ?_⟩
    · constructor
      · exact hw.heap
      · intro x hx
        simp only [List.mem_cons] at hx
        rcases hx with rfl | hx
        · have := HPRecType.rec_init_wf s.K s.allocType
          exact ⟨this.hp_len, this.allocType, this.fr_data_le, this.fr_data_len, this.fr_smr_le⟩
        · exact hw.recs x hx
      · have := hw.count
        simp only [List.length_cons]
        omega
      · intro t
        simp only [List.length_cons]
        split
        · exact le_refl _
        · have := hw.tl t; omega
      · intro n hn
        simp at hn
        have := hw.count
        simp only [List.length_cons]
        omega
      · intro p hp
        apply hw.owned_alloc p
        unfold allOwned at hp ⊢
        simpa [HPRecType.owned, HPRecType.init] using hp
      · have := hw.owned_nodup
        unfold allOwned at this ⊢
        simpa [HPRecType.owned, HPRecType.init] using this
    · constructor
      · simp
      · simp
    · constructor
      · rfl
      · unfold allOwned
        simp [HPRecType.owned, HPRecType.init]
      · rfl
      · simp

theorem getHPRec_spec (s : SMR α) (hw : s.WF) (tid : Nat) :
    (s.getHPRec tid).1.WF ∧ (s.getHPRec tid).1.thread_local tid = (s.getHPRec tid).2 ∧
    (s.getHPRec tid).1.valid (s.getHPRec tid).2 ∧ SameNodes s (s.getHPRec tid).1 := by
  unfold getHPRec
  by_cases h0 : s.thread_local tid = 0
  · rw [if_pos h0]
    exact allocHPRec_spec s hw tid
  · rw [if_neg h0]
    exact ⟨hw, rfl, ⟨h0, hw.tl tid⟩, SameNodes.refl s⟩

theorem retire_eq_employ (s : SMR α) (hp i : Nat) : s.retire hp i = s.employ hp i 0 := rfl

theorem employ_spec (s : SMR α) (hw : s.WF) (hp i x : Nat) :
    (s.employ hp i x).WF ∧ SameNodes s (s.employ hp i x) ∧
    (s.employ hp i x).thread_local = s.thread_local ∧
    (s.employ hp i x).hprecs.length = s.hprecs.length ∧
    (s.employ hp i x).RH = s.RH := by
  unfold employ
  cases hg : s.getRec hp with
  | none => exact ⟨hw, SameNodes.refl s, rfl, rfl, rfl⟩
  | some r =>
    have hrw := hw.recs r (getRec_mem s _ r hg)
    simp only
    refine ⟨?_, ⟨by simp, ?_, by simp, by simp⟩, by simp, by simp, by simp⟩
    · exact hw.setRec_same _ r _ hg ⟨by simpa using hrw.hp_len, hrw.allocType, hrw.fr_data_le,
        hrw.fr_data_len, hrw.fr_smr_le⟩ rfl rfl
    · exact allOwned_setRec_same s _ r _ hg rfl

theorem retire_spec (s : SMR α) (hw : s.WF) (hp i : Nat) :
    (s.retire hp i).WF ∧ SameNodes s (s.retire hp i) ∧
    (s.retire hp i).thread_local = s.thread_local ∧
    (s.retire hp i).hprecs.length = s.hprecs.length ∧
    (s.retire hp i).RH = s.RH := by
  rw [retire_eq_employ]; exact employ_spec s hw hp i 0

theorem Retired.then_scan {s s1 s2 : SMR α} {ps del : List Nat}
    (h1 : Retired s s1 ps []) (h2 : Retired s1 s2 [] del) : Retired s s2 ps del := by
  constructor
  · have a := h1.perm
    have b := h2.perm
    simp only [List.append_nil, List.nil_append] at a b
    exact a.trans b
  · intro q
    rw [h2.cells q, h1.cells q]
    simp
  · rw [h2.tl, h1.tl]
  · rw [h2.K, h1.K]
  · rw [h2.len, h1.len]
  · rw [h2.brk, h1.brk]
  · rw [h2.RH, h1.RH]

theorem delNode_spec (s : SMR α) (hw : s.WF) (tid hp p : Nat)
    (htl : s.thread_local tid = hp) (hv : s.valid hp) (hl : s.live p) :
    ∃ s' del, s.delNode tid hp p = some s' ∧ s'.WF ∧ Retired s s' [p] del := by
  obtain ⟨r, hg⟩ := valid_getRec s hp hv
  have hrw := hw.recs r (getRec_mem s _ r hg)
  obtain ⟨r1, ha, hr1, ho1, hn1, -, hrl1, -⟩ := HPRecType.allocSMRNode_spec s.K r hrw
  unfold delNode
  simp only [hg, ha]
  have hown2 : ({ r1 with rlist := p :: r1.rlist, rcount := r1.rcount + 1 } : HPRecType).owned
      = p :: r.owned := by
    rw [← ho1]; simp [HPRecType.owned]
  have hperm := allOwned_perm s hp r hg
  have hpn : p ∉ r.owned ++ s.othersOwned hp := fun hc => hl.2 (hperm.mem_iff.mpr hc)
  have hw1 : (s.setRec hp { r1 with rlist := p :: r1.rlist, rcount := r1.rcount + 1 }).WF := by
    apply hw.update hp r _ s.heap hg hw.heap
    · exact ⟨hr1.hp_len, hr1.allocType, hr1.fr_data_le, hr1.fr_data_len, hr1.fr_smr_le⟩
    · exact hn1
    · rw [hown2, List.cons_append]
      exact List.nodup_cons.mpr ⟨hpn, hperm.nodup_iff.mp hw.owned_nodup⟩
    · intro q hq
      rw [hown2, List.cons_append, List.mem_cons] at hq
      rcases hq with rfl | hq
      · exact hl.1
      · exact hw.owned_alloc q (hperm.mem_iff.mpr hq)
  have hg1 : (s.setRec hp { r1 with rlist := p :: r1.rlist, rcount := r1.rcount + 1 }).getRec hp
      = some { r1 with rlist := p :: r1.rlist, rcount := r1.rcount + 1 } :=
    getRec_setRec s hp r _ hg
  have hret1 : Retired s (s.setRec hp { r1 with rlist := p :: r1.rlist, rcount := r1.rcount + 1 })
      [p] [] := by
    constructor
    · simp only [List.append_nil, List.singleton_append]
      refine List.Perm.trans ?_ (allOwned_perm _ hp _ hg1).symm
      rw [hown2, othersOwned_setRec s hp r _ hg, List.cons_append]
      exact List.Perm.cons p hperm
    · intro q; simp
    · simp
    · simp
    · simp
    · simp
    · simp
  by_cases hrh : r1.rcount + 1 ≥ s.RH
  · simp only [hrh, if_true]
    obtain ⟨s', del, hs, hw', hret2⟩ := scan_spec _ hw1 tid _ (by
      rw [setRec_thread_local, htl]; exact hg1)
    exact ⟨s', del, hs, hw', hret1.then_scan hret2⟩
  · simp only [hrh, if_false]
    exact ⟨_, [], rfl, hw1, hret1⟩

theorem newNode_spec [Inhabited α] (s : SMR α) (hw : s.WF) (hp : Nat) (hv : s.valid hp) :
    ∃ s' p, s.newNode hp = some (s', p) ∧ s'.WF ∧ Fresh s s' p := by
  obtain ⟨r, hg⟩ := valid_getRec s hp hv
  have hrw := hw.recs r (getRec_mem s _ r hg)
  have hperm := allOwned_perm s hp r hg
  unfold newNode
  simp only [hg]
  unfold HPRecType.allocDataNode
  by_cases h0 : r.fr_data_count = 0
  · rw [if_pos h0, if_pos hrw.allocType]
    have hfresh := Heap.alloc_fst_fresh s.heap hw.heap (default : α)
    have hcells := Heap.alloc_cells s.heap (default : α)
    have hwf' := Heap.alloc_wf s.heap hw.heap (default : α)
    have hbrk := Heap.alloc_brk_le s.heap (default : α)
    have hown : (({ s with heap := (s.heap.alloc default).2 } : SMR α).setRec hp r).allOwned
        = s.allOwned := allOwned_setRec_same _ hp r r hg rfl
    have hpo : (s.heap.alloc (default : α)).1 ∉ s.allOwned :=
      fun hc => hw.owned_alloc _ hc hfresh
    refine ⟨_, _, rfl, ?_, ?_⟩
    · apply hw.update hp r r _ hg hwf' hrw rfl (hperm.nodup_iff.mp hw.owned_nodup)
      intro q hq
      have hq' := hw.owned_alloc q (hperm.mem_iff.mpr hq)
      rw [hcells]
      split
      · simp
      · exact hq'
    · constructor
      · refine ⟨?_, by rw [hown]; exact hpo⟩
        simp [hcells]
      · intro hc; exact hc.1 hfresh
      · exact Heap.alloc_fst_aligned s.heap hw.heap default
      · simp [hcells]
      · intro q hq
        simp [hcells, hq]
      · intro q hq
        unfold live
        rw [hown]
        simp [hcells, hq]
      · simp
      · simp
      · simp
      · simpa using hbrk.1
      · simpa using hbrk.2
      · simp
  · rw [if_neg h0]
    simp only []
    rw [if_pos hrw.allocType]
    have hlt : r.fr_data_count - 1 < r.frListData.length := by
      have := hrw.fr_data_le; have := hrw.fr_data_len; omega
    have htake : r.frListData.take r.fr_data_count
        = r.frListData.take (r.fr_data_count - 1)
          ++ [r.frListData.getD (r.fr_data_count - 1) 0] := by
      conv_lhs => rw [show r.fr_data_count = (r.fr_data_count - 1) + 1 by omega]
      rw [List.take_succ, List.getD_eq_getElem?_getD]
      simp [List.getElem?_eq_getElem hlt]
    generalize hpdef : r.frListData.getD (r.fr_data_count - 1) 0 = p at htake
    have hown1 : ({ r with fr_data_count := r.fr_data_count - 1 } : HPRecType).owned ++ [p]
        = r.owned := by
      simp [HPRecType.owned, htake]
    have hperm2 : List.Perm s.allOwned
        (p :: (({ r with fr_data_count := r.fr_data_count - 1 } : HPRecType).owned
          ++ s.othersOwned hp)) := by
      refine hperm.trans ?_
      rw [← hown1, List.append_assoc, List.singleton_append]
      exact List.perm_middle
    have hnd := hperm2.nodup_iff.mp hw.owned_nodup
    have hnd' := List.nodup_cons.mp hnd
    have hpown : p ∈ s.allOwned := hperm2.mem_iff.mpr (List.mem_cons_self _ _)
    have hpalloc := hw.owned_alloc p hpown
    cases hcp : s.heap.cells p with
    | none => exact absurd hcp hpalloc
    | some v =>
      simp only [Heap.modify, hcp]
      have hg1 : (({ s with heap := s.heap.put p (some default) } : SMR α).setRec hp
          { r with fr_data_count := r.fr_data_count - 1 }).getRec hp
          = some { r with fr_data_count := r.fr_data_count - 1 } := getRec_setRec _ hp r _ hg
      have hoth : (({ s with heap := s.heap.put p (some default) } : SMR α).setRec hp
          { r with fr_data_count := r.fr_data_count - 1 }).othersOwned hp = s.othersOwned hp :=
        othersOwned_setRec _ hp r _ hg
      have hmem' : ∀ q, q ∈ (({ s with heap := s.heap.put p (some default) } : SMR α).setRec hp
          { r with fr_data_count := r.fr_data_count - 1 }).allOwned ↔
          q ∈ ({ r with fr_data_count := r.fr_data_count - 1 } : HPRecType).owned
            ++ s.othersOwned hp := by
        intro q
        rw [(allOwned_perm _ hp _ hg1).mem_iff, hoth]
      refine ⟨_, _, rfl, ?_, ?_⟩
      · apply hw.update hp r _ _ hg (Heap.put_wf s.heap hw.heap p default hpalloc)
        · exact ⟨hrw.hp_len, hrw.allocType, by have := hrw.fr_data_le; simp; omega,
            hrw.fr_data_len, hrw.fr_smr_le⟩
        · rfl
        · exact hnd'.2
        · intro q hq
          rw [Heap.put_cells]
          split
          · simp
          · exact hw.owned_alloc q (hperm2.mem_iff.mpr (List.mem_cons_of_mem _ hq))
      · constructor
        · refine ⟨by simp [Heap.put_cells], ?_⟩
          rw [hmem']
          exact hnd'.1
        · intro hc; exact hc.2 hpown
        · exact hw.heap.aligned p hpalloc
        · simp [Heap.put_cells]
        · intro q hq
          simp [Heap.put_cells, hq]
        · intro q hq
          unfold live
          rw [hmem', hperm2.mem_iff]
          simp [Heap.put_cells, hq]
        · simp
        · simp
        · simp
        · simp [Heap.put]
        · simp [Heap.put]
        · simp

end SMR

end Amino

namespace Amino

namespace Heap
variable {α : Type}

theorem path_frame (nxt : α → Nat) (h h' : Heap α) (p : Nat) (l : List Nat) (q : Nat)
    (hf : ∀ a ∈ l, h'.cells a = h.cells a) (hp : path nxt h p l q) : path nxt h' p l q := by
  induction l generalizing p with
  | nil => exact hp
  | cons a l ih =>
    obtain ⟨e, n, hn, hr⟩ := hp
    refine ⟨e, n, ?_, ih _ (fun b hb => hf b (by simp [hb])) hr⟩
    rw [hf a (by simp)]; exact hn

end Heap

namespace LockFreeStack

theorem dataOf_frame (h h' : Heap StackNode) (l : List Nat)
    (hf : ∀ a ∈ l, h'.cells a = h.cells a) : dataOf h' l = dataOf h l := by
  unfold dataOf
  apply List.map_congr_left
  intro a ha
  rw [hf a ha]

theorem chain_of_path (h : Heap StackNode) (p : Nat) (l : List Nat)
    (hp : h.path StackNode.next p l 0) : chain h p (dataOf h l) := by
  induction l generalizing p with
  | nil => exact hp
  | cons a l ih =>
    obtain ⟨e, n, hn, hr⟩ := hp
    subst e
    refine ⟨n, hn, ?_, ih _ hr⟩
    simp [hn]

theorem chain_unique (h : Heap StackNode) (h0 : h.cells 0 = none) (p : Nat) (xs ys : List Int)
    (hx : chain h p xs) (hy : chain h p ys) : xs = ys := by
  induction xs generalizing p ys with
  | nil =>
    have hp : p = 0 := hx
    subst hp
    cases ys with
    | nil => rfl
    | cons y ys =>
      obtain ⟨n, hn, -⟩ := hy
      rw [h0] at hn; cases hn
  | cons x xs ih =>
    obtain ⟨n, hn, hd, hr⟩ := hx
    cases ys with
    | nil =>
      have hp : p = 0 := hy
      subst hp
      rw [h0] at hn; cases hn
    | cons y ys =>
      obtain ⟨m, hm, hd', hr'⟩ := hy
      rw [hn] at hm
      cases hm
      rw [← hd, ← hd', ih _ _ hr hr']

theorem Inv.chain {s : LockFreeStack} {l : List Nat} (hi : Inv s l) :
    chain s.mm.heap s.top (dataOf s.mm.heap l) := chain_of_path _ _ _ hi.path

theorem Inv.top_eq {s : LockFreeStack} {l : List Nat} (hi : Inv s l) :
    s.top = l.headD 0 := by
  cases l with
  | nil => exact hi.path
  | cons a l => exact hi.path.1

theorem init_inv (mm : SMR StackNode) (hw : mm.WF) : Inv (LockFreeStack.init mm) [] :=
  ⟨hw, rfl, List.nodup_nil, by simp⟩

/-- `pop` on an empty stack. -/
theorem pop_nil (fuel : Nat) (s : LockFreeStack) (tid : Nat) (ret : Int) (hi : Inv s []) :
    ∃ s', pop (fuel + 1) s tid ret = some (s', ret, false) ∧ Inv s' [] ∧ s'.top = s.top ∧
      s'.mm.heap = s.mm.heap := by
  have ht : s.top = 0 := hi.path
  obtain ⟨g1, g2, g3, g4⟩ := SMR.getHPRec_spec s.mm hi.wf tid
  refine ⟨{ s with mm := (s.mm.getHPRec tid).1 }, ?_, ⟨g1, ht, List.nodup_nil, by simp⟩, rfl,
    g4.heap⟩
  simp [pop, popLoop, ht]

/-- `pop` on a stack whose first node is `a`. -/
theorem pop_cons (fuel : Nat) (s : LockFreeStack) (tid : Nat) (ret : Int) (a : Nat)
    (l : List Nat) (hi : Inv s (a :: l)) :
    ∃ s' n, s.mm.heap.cells a = some n ∧ pop (fuel + 1) s tid ret = some (s', n.data, true) ∧
      Inv s' l ∧ (∀ b ∈ l, s'.mm.heap.cells b = s.mm.heap.cells b) ∧ s'.top = n.next := by
  obtain ⟨ht, n, hn, hrest⟩ := hi.path
  have hla := hi.live a (by simp)
  have ha0 : a ≠ 0 := SMR.live_ne_zero _ hi.wf a hla
  obtain ⟨g1, g2, g3, g4⟩ := SMR.getHPRec_spec s.mm hi.wf tid
  generalize hmm1 : (s.mm.getHPRec tid).1 = mm1 at g1 g2 g3 g4
  generalize hhp : (s.mm.getHPRec tid).2 = hp at g2 g3
  obtain ⟨e1, e2, e3, e4, -⟩ := SMR.employ_spec mm1 g1 hp 0 a
  obtain ⟨r1, r2, r3, r4, -⟩ := SMR.retire_spec (mm1.employ hp 0 a) e1 hp 0
  have hsn : SMR.SameNodes s.mm ((mm1.employ hp 0 a).retire hp 0) := (g4.trans e2).trans r2
  have hheap : ((mm1.employ hp 0 a).retire hp 0).heap = s.mm.heap := hsn.heap
  have hheap1 : (mm1.employ hp 0 a).heap = s.mm.heap := (g4.trans e2).heap
  have hv : ((mm1.employ hp 0 a).retire hp 0).valid hp := r2.valid hp (e2.valid hp g3)
  have htl : ((mm1.employ hp 0 a).retire hp 0).thread_local tid = hp := by rw [r3, e3, g2]
  obtain ⟨mm3, del, hdel, hw3, hret⟩ := SMR.delNode_spec _ r1 tid hp a htl hv
    ((hsn.live a).mpr hla)
  have hnd := List.nodup_cons.mp hi.nodup
  have hframe : ∀ b ∈ l, mm3.live b ∧ mm3.heap.cells b = s.mm.heap.cells b := by
    intro b hb
    have hb1 := (hsn.live b).mpr (hi.live b (by simp [hb]))
    have hba : b ∉ [a] := by
      simp; rintro rfl; exact hnd.1 hb
    have := (hret.frame b).1 hb1 hba
    rw [hheap] at this
    exact this
  refine ⟨{ top := n.next, mm := mm3 }, n, hn, ?_, ?_, fun b hb => (hframe b hb).2, rfl⟩
  · unfold pop
    rw [hmm1, hhp]
    simp only [popLoop, ht, ha0, if_false, ne_eq, not_true_eq_false, Heap.read, hheap1, hn,
      if_true, hheap, hdel]
  · exact ⟨hw3, Heap.path_frame _ _ _ _ _ _ (fun b hb => (hframe b hb).2) hrest, hnd.2,
      fun b hb => (hframe b hb).1⟩

/-- `push` puts a new node in front. -/
theorem push_spec (fuel : Nat) (s : LockFreeStack) (tid : Nat) (d : Int) (l : List Nat)
    (hi : Inv s l) :
    ∃ s' a, push (fuel + 1) s tid d = some s' ∧ Inv s' (a :: l) ∧
      s'.mm.heap.cells a = some { data := d, next := s.top } ∧
      (∀ b ∈ l, s'.mm.heap.cells b = s.mm.heap.cells b) ∧
      s.mm.heap.brk ≤ s'.mm.heap.brk ∧ s'.mm.heap.brk ≤ s.mm.heap.brk + 1 := by
  obtain ⟨g1, g2, g3, g4⟩ := SMR.getHPRec_spec s.mm hi.wf tid
  generalize hmm1 : (s.mm.getHPRec tid).1 = mm1 at g1 g2 g3 g4
  generalize hhp : (s.mm.getHPRec tid).2 = hp at g2 g3
  obtain ⟨mm2, a, hnew, hw2, hf⟩ := SMR.newNode_spec mm1 g1 hp g3
  have hal : a ∉ l := fun hc => hf.dead ((g4.live a).mpr (hi.live a hc))
  have hcell : mm2.heap.cells a = some default := hf.cell
  have hap : mm2.heap.cells a ≠ none := by rw [hcell]; simp
  -- the two field stores
  have hw3 : (mm2.heap.put a (some { data := d, next := 0 })).WF :=
    Heap.put_wf _ hw2.heap a _ hap
  have hw4 : ((mm2.heap.put a (some { data := d, next := 0 })).put a
      (some { data := d, next := s.top })).WF :=
    Heap.put_wf _ hw3 a _ (by simp [Heap.put_cells])
  have hcells : ∀ q, ((mm2.heap.put a (some { data := d, next := 0 })).put a
      (some { data := d, next := s.top })).cells q
      = if q = a then some { data := d, next := s.top } else mm2.heap.cells q := by
    intro q
    simp only [Heap.put_cells]
    split <;> rfl
  have hold : ∀ b ∈ l, mm2.heap.cells b = s.mm.heap.cells b ∧ mm2.live b := by
    intro b hb
    have hba : b ≠ a := by rintro rfl; exact hal hb
    refine ⟨by rw [hf.cells b hba, g4.heap], ?_⟩
    exact (hf.lives b hba).mpr ((g4.live b).mpr (hi.live b hb))
  refine ⟨{ top := a, mm := { mm2 with heap := ((mm2.heap.put a (some { data := d, next := 0 })).put a (some { data := d, next := s.top })) } }, a, ?_, ?_, ?_, ?_, ?_, ?_⟩
  · unfold push
    rw [hmm1, hhp]
    simp only [hnew, Heap.modify, hcell, pushLoop, Heap.put_cells, if_true]
    rfl
  · have hwf : ({ mm2 with heap := ((mm2.heap.put a (some { data := d, next := 0 })).put a (some { data := d, next := s.top })) } : SMR StackNode).WF := by
      constructor
      · exact hw4
      · exact hw2.recs
      · exact hw2.count
      · exact hw2.tl
      · exact hw2.cap
      · intro p hp'
        have := hw2.owned_alloc p hp'
        show ((mm2.heap.put a (some { data := d, next := 0 })).put a
          (some { data := d, next := s.top })).cells p ≠ none
        rw [hcells]
        split
        · simp
        · exact this
      · exact hw2.owned_nodup
    have hlive : ∀ q, mm2.live q → ({ mm2 with heap := ((mm2.heap.put a (some { data := d, next := 0 })).put a (some { data := d, next := s.top })) }
        : SMR StackNode).live q := by
      intro q hq
      refine ⟨?_, hq.2⟩
      show ((mm2.heap.put a (some { data := d, next := 0 })).put a
          (some { data := d, next := s.top })).cells q ≠ none
      rw [hcells]
      split
      · simp
      · exact hq.1
    constructor
    · exact hwf
    · refine ⟨rfl, { data := d, next := s.top }, ?_, ?_⟩
      · show ((mm2.heap.put a (some { data := d, next := 0 })).put a
          (some { data := d, next := s.top })).cells a = _
        rw [hcells]; simp
      apply Heap.path_frame _ s.mm.heap _ _ _ _ _ hi.path
      intro b hb
      have hba : b ≠ a := by rintro rfl; exact hal hb
      show ((mm2.heap.put a (some { data := d, next := 0 })).put a
          (some { data := d, next := s.top })).cells b = _
      rw [hcells, if_neg hba]
      exact (hold b hb).1
    · exact List.nodup_cons.mpr ⟨hal, hi.nodup⟩
    · intro b hb
      simp only [List.mem_cons] at hb
      rcases hb with rfl | hb
      · exact hlive _ hf.live
      · exact hlive _ (hold b hb).2
  · show ((mm2.heap.put a (some { data := d, next := 0 })).put a
          (some { data := d, next := s.top })).cells a = _
    rw [hcells]; simp
  · intro b hb
    have hba : b ≠ a := by rintro rfl; exact hal hb
    show ((mm2.heap.put a (some { data := d, next := 0 })).put a
          (some { data := d, next := s.top })).cells b = _
    rw [hcells, if_neg hba]
    exact (hold b hb).1
  · show s.mm.heap.brk ≤ mm2.heap.brk
    rw [← g4.heap]; exact hf.brk_le
  · show mm2.heap.brk ≤ s.mm.heap.brk + 1
    rw [← g4.heap]; exact hf.brk_ge

end LockFreeStack

end Amino

namespace Amino

namespace SMR
variable {α : Type}

theorem init_wf (K atype : Nat) : (SMR.init K atype : SMR α).WF := by
  constructor
  · exact Heap.empty_wf
  · simp [SMR.init]
  · simp [SMR.init]
  · simp [SMR.init]
  · simp [SMR.init]
  · simp [SMR.init, allOwned]
  · simp [SMR.init, allOwned]

end SMR

namespace LockFreeStack

theorem peekTop_spec (fuel : Nat) (s : LockFreeStack) (tid : Nat) (ret : Int) (l : List Nat)
    (hi : Inv s l) :
    ∃ s' r' b, peekTop (fuel + 1) s tid ret = some (s', r', b) ∧ Inv s' l ∧ s'.top = s.top ∧
      s'.mm.heap = s.mm.heap ∧ (b = false ↔ s.top = 0) ∧ (b = false → r' = ret) ∧
      (b = true → ∃ n, s.mm.heap.cells s.top = some n ∧ r' = n.data) := by
  obtain ⟨g1, g2, g3, g4⟩ := SMR.getHPRec_spec s.mm hi.wf tid
  generalize hmm1 : (s.mm.getHPRec tid).1 = mm1 at g1 g2 g3 g4
  generalize hhp : (s.mm.getHPRec tid).2 = hp at g2 g3
  cases l with
  | nil =>
    have ht : s.top = 0 := hi.path
    refine ⟨{ s with mm := mm1 }, ret, false, ?_, ⟨g1, ht, List.nodup_nil, by simp⟩, rfl,
      g4.heap, by simp [ht], by simp, by simp⟩
    unfold peekTop
    rw [hmm1, hhp]
    simp [peekTopLoop, ht]
  | cons a l =>
    obtain ⟨ht, n, hn, hrest⟩ := hi.path
    have hla := hi.live a (by simp)
    have ha0 : a ≠ 0 := SMR.live_ne_zero _ hi.wf a hla
    obtain ⟨e1, e2, e3, e4, -⟩ := SMR.employ_spec mm1 g1 hp 0 a
    obtain ⟨r1, r2, r3, r4, -⟩ := SMR.retire_spec (mm1.employ hp 0 a) e1 hp 0
    have hsn : SMR.SameNodes s.mm ((mm1.employ hp 0 a).retire hp 0) := (g4.trans e2).trans r2
    have hheap1 : (mm1.employ hp 0 a).heap = s.mm.heap := (g4.trans e2).heap
    refine ⟨{ top := s.top, mm := (mm1.employ hp 0 a).retire hp 0 }, n.data, true, ?_, ?_, rfl,
      hsn.heap, by simp [ht, ha0], by simp, fun _ => ⟨n, by rw [ht]; exact hn, rfl⟩⟩
    · unfold peekTop
      rw [hmm1, hhp]
      simp only [peekTopLoop, ht, ha0, if_false, ne_eq, not_true_eq_false, Heap.read, hheap1, hn]
    · refine ⟨r1, ?_, hi.nodup, fun b hb => (hsn.live b).mpr (hi.live b hb)⟩
      show Heap.path StackNode.next ((mm1.employ hp 0 a).retire hp 0).heap s.top (a :: l) 0
      rw [hsn.heap]
      exact ⟨ht, n, hn, hrest⟩

theorem push_zero (s : LockFreeStack) (tid : Nat) (d : Int) : push 0 s tid d = none := by
  unfold push
  cases (s.mm.getHPRec tid).1.newNode (s.mm.getHPRec tid).2 with
  | none => rfl
  | some x =>
    obtain ⟨mm1, newTop⟩ := x
    simp only
    cases mm1.heap.modify newTop (fun n => { n with data := d }) with
    | none => rfl
    | some h => rfl

theorem pop_zero (s : LockFreeStack) (tid : Nat) (ret : Int) : pop 0 s tid ret = none := by
  simp [pop, popLoop]

theorem peekTop_zero (s : LockFreeStack) (tid : Nat) (ret : Int) :
    peekTop 0 s tid ret = none := by
  simp [peekTop, peekTopLoop]

/-- Every reachable state satisfies the representation invariant. -/
theorem Reachable.inv {tid : Nat} {s : LockFreeStack} (hr : Reachable tid s) : ∃ l, Inv s l := by
  induction hr with
  | init mm hw => exact ⟨[], init_inv mm hw⟩
  | push fuel s s' d _ hp ih =>
    obtain ⟨l, hi⟩ := ih
    cases fuel with
    | zero => rw [push_zero] at hp; cases hp
    | succ fuel =>
      obtain ⟨s1, a, h1, h2, -⟩ := push_spec fuel s tid d l hi
      rw [h1] at hp
      cases hp
      exact ⟨_, h2⟩
  | pop fuel s s' ret ret' b _ hp ih =>
    obtain ⟨l, hi⟩ := ih
    cases fuel with
    | zero => rw [pop_zero] at hp; cases hp
    | succ fuel =>
      cases l with
      | nil =>
        obtain ⟨s1, h1, h2, -⟩ := pop_nil fuel s tid ret hi
        rw [h1] at hp
        cases hp
        exact ⟨_, h2⟩
      | cons a l =>
        obtain ⟨s1, n, -, h1, h2, -⟩ := pop_cons fuel s tid ret a l hi
        rw [h1] at hp
        cases hp
        exact ⟨_, h2⟩
  | peekTop fuel s s' ret ret' b _ hp ih =>
    obtain ⟨l, hi⟩ := ih
    cases fuel with
    | zero => rw [peekTop_zero] at hp; cases hp
    | succ fuel =>
      obtain ⟨s1, r1, b1, h1, h2, -⟩ := peekTop_spec fuel s tid ret l hi
      rw [h1] at hp
      cases hp
      exact ⟨_, h2⟩

theorem pushAll_spec (fuel tid : Nat) (xs : List Int) (s : LockFreeStack) (l : List Nat)
    (hi : Inv s l) :
    ∃ s1 l1, pushAll (fuel + 1) tid s xs = some s1 ∧ Inv s1 (l1 ++ l) ∧
      dataOf s1.mm.heap (l1 ++ l) = xs.reverse ++ dataOf s.mm.heap l := by
  induction xs generalizing s l with
  | nil => exact ⟨s, [], rfl, hi, by simp⟩
  | cons x xs ih =>
    obtain ⟨s1, a, h1, h2, h3, h4, -⟩ := push_spec fuel s tid x l hi
    obtain ⟨s2, l2, k1, k2, k3⟩ := ih s1 (a :: l) h2
    refine ⟨s2, l2 ++ [a], ?_, by simpa using k2, ?_⟩
    · simp [pushAll, h1, k1]
    · rw [List.append_assoc, List.singleton_append, k3]
      have : dataOf s1.mm.heap (a :: l) = x :: dataOf s.mm.heap l := by
        have := dataOf_frame s.mm.heap s1.mm.heap l h4
        simp only [dataOf, List.map_cons, h3] at this ⊢
        rw [this]
      rw [this]
      simp

theorem popN_spec (fuel tid : Nat) (n : Nat) (s : LockFreeStack) (l : List Nat) (res : Int)
    (hi : Inv s l) :
    ∃ s2, popN (fuel + 1) tid n s res = some (s2, specPopN n (dataOf s.mm.heap l) res) ∧
      Inv s2 (l.drop n) := by
  induction n generalizing s l res with
  | zero => exact ⟨s, rfl, by simpa using hi⟩
  | succ n ih =>
    cases l with
    | nil =>
      obtain ⟨s1, h1, h2, h3, h4⟩ := pop_nil fuel s tid res hi
      obtain ⟨s2, k1, k2⟩ := ih s1 [] res h2
      refine ⟨s2, ?_, by simpa using k2⟩
      simp only [popN, h1, k1]
      simp [dataOf, specPopN]
    | cons a l =>
      obtain ⟨s1, m, h0, h1, h2, h3, -⟩ := pop_cons fuel s tid res a l hi
      obtain ⟨s2, k1, k2⟩ := ih s1 l m.data h2
      refine ⟨s2, ?_, by simpa using k2⟩
      simp only [popN, h1, k1]
      have := dataOf_frame s.mm.heap s1.mm.heap l h3
      simp only [dataOf, List.map_cons, h0, specPopN] at this ⊢
      rw [this]

theorem specPopN_full (xs : List Int) (res : Int) :
    specPopN xs.length xs res = xs.map (fun x => (true, x)) := by
  induction xs generalizing res with
  | nil => rfl
  | cons x xs ih => simp [specPopN, ih]

theorem sizeLoop_spec (h : Heap StackNode) (h0 : h.cells 0 = none) (l : List Nat) (p k g : Nat)
    (hp : h.path StackNode.next p l 0) :
    sizeLoop h (l.length + 1 + g) p k = some (k + l.length) := by
  induction l generalizing p k with
  | nil =>
    have : p = 0 := hp
    subst this
    rw [show ([] : List Nat).length + 1 + g = g + 1 by simp; omega]
    simp [sizeLoop]
  | cons a l ih =>
    obtain ⟨e, n, hn, hr⟩ := hp
    subst e
    have ha : p ≠ 0 := by rintro rfl; rw [h0] at hn; cases hn
    rw [show (p :: l).length + 1 + g = (l.length + 1 + g) + 1 by simp; omega]
    simp only [sizeLoop, ha, if_false, Heap.read, hn]
    rw [ih _ _ hr]
    simp; omega

theorem sizeLoop_frame (h h' : Heap StackNode) (l : List Nat) (p k g : Nat)
    (hp : h.path StackNode.next p l 0) (hf : ∀ a ∈ l, h'.cells a = h.cells a) :
    sizeLoop h' g p k = sizeLoop h g p k := by
  induction l generalizing p k g with
  | nil =>
    have : p = 0 := hp
    subst this
    cases g <;> simp [sizeLoop]
  | cons a l ih =>
    obtain ⟨e, n, hn, hr⟩ := hp
    subst e
    cases g with
    | zero => simp [sizeLoop]
    | succ g =>
      simp only [sizeLoop, Heap.read, hf p (by simp), hn]
      split
      · rfl
      · exact ih _ _ _ hr (fun b hb => hf b (by simp [hb]))

end LockFreeStack

end Amino

namespace Amino

open LockFreeStack in
/-- C1: one thread pushes the values `xs` in order onto a newly constructed
stack and then calls `pop` `|xs|` times: all pushes and pops return, every
pop returns `true`, the values popped are `xs` in reverse order, and
`empty()` is `true` afterwards. -/
theorem C1_stack_push_all_pop_all (mm : SMR StackNode) (hw : mm.WF) (tid fuel : Nat)
    (xs : List Int) (res : Int) :
    ∃ s1 s2, pushAll (fuel + 1) tid (LockFreeStack.init mm) xs = some s1 ∧
      popN (fuel + 1) tid xs.length s1 res = some (s2, xs.reverse.map (fun x => (true, x))) ∧
      s2.empty = true := by
  obtain ⟨s1, l1, h1, h2, h3⟩ := pushAll_spec fuel tid xs _ [] (init_inv mm hw)
  obtain ⟨s2, k1, k2⟩ := popN_spec fuel tid xs.length s1 _ res h2
  have hlen : (l1 ++ []).length = xs.length := by
    have := congrArg List.length h3
    simpa [dataOf] using this
  refine ⟨s1, s2, h1, ?_, ?_⟩
  · rw [k1, h3]
    have : specPopN xs.length (xs.reverse ++ dataOf (LockFreeStack.init mm).mm.heap []) res
        = specPopN xs.reverse.length xs.reverse res := by simp [dataOf]
    rw [this, specPopN_full]
  · have hd : (l1 ++ []).drop xs.length = [] := by
      rw [← hlen]; simp
    rw [hd] at k2
    have ht : s2.top = 0 := k2.path
    simp [LockFreeStack.empty, ht]

open LockFreeStack in
/-- Witness of C1 on the new reclamation state and the values 1, 2, 3. -/
theorem C1_stack_push_all_pop_all_witness :
    (SMR.init 1 0 : SMR StackNode).WF ∧
    ∃ s1 s2, pushAll 1 0 (LockFreeStack.init (SMR.init 1 0)) [1, 2, 3] = some s1 ∧
      popN 1 0 3 s1 0 = some (s2, [(true, 3), (true, 2), (true, 1)]) ∧ s2.empty = true :=
  ⟨SMR.init_wf 1 0, C1_stack_push_all_pop_all (SMR.init 1 0) (SMR.init_wf 1 0) 0 0 [1, 2, 3] 0⟩

open LockFreeStack in
/-- C7: in every state `s` one thread can reach, `push(v)` followed at once by
`pop(r)` returns `true` with `r == v` and leaves the stack with the same
sequence of elements: the same `top`, the same list of values, the same
`size()` and `empty()`, and the same results of any number of later pops. -/
theorem C7_stack_push_pop_restores (tid fuel : Nat) (s : LockFreeStack)
    (hr : Reachable tid s) (v r : Int) :
    ∃ s1 s2, push (fuel + 1) s tid v = some s1 ∧ pop (fuel + 1) s1 tid r = some (s2, v, true) ∧
      s2.top = s.top ∧
      (∃ xs, chain s.mm.heap s.top xs) ∧
      (∀ xs, chain s.mm.heap s.top xs → chain s2.mm.heap s2.top xs) ∧
      (∀ g, size g s2 = size g s) ∧ s2.empty = s.empty ∧
      (∀ g n res, (popN (g + 1) tid n s2 res).map Prod.snd
        = (popN (g + 1) tid n s res).map Prod.snd) := by
  obtain ⟨l, hi⟩ := hr.inv
  obtain ⟨s1, a, h1, h2, h3, h4, -⟩ := push_spec fuel s tid v l hi
  obtain ⟨s2, n, k0, k1, k2, k3, -⟩ := pop_cons fuel s1 tid r a l h2
  rw [h3] at k0
  cases k0
  have hcells : ∀ b ∈ l, s2.mm.heap.cells b = s.mm.heap.cells b := by
    intro b hb; rw [k3 b hb, h4 b hb]
  have htop : s2.top = s.top := by rw [k2.top_eq, hi.top_eq]
  have hdata : dataOf s2.mm.heap l = dataOf s.mm.heap l := dataOf_frame _ _ _ hcells
  refine ⟨s1, s2, h1, k1, htop, ⟨_, hi.chain⟩, ?_, ?_, ?_, ?_⟩
  · intro xs hx
    have := chain_unique _ hi.wf.heap.null _ _ _ hx hi.chain
    rw [this, ← hdata]
    exact k2.chain
  · intro g
    unfold size
    rw [htop]
    exact sizeLoop_frame _ _ l _ _ _ hi.path hcells
  · simp [LockFreeStack.empty, htop]
  · intro g n res
    obtain ⟨t2, p2, -⟩ := popN_spec g tid n s2 l res k2
    obtain ⟨t1, p1, -⟩ := popN_spec g tid n s l res hi
    rw [p2, p1, hdata]
    rfl

open LockFreeStack in
/-- Witness of C7 on the newly constructed stack. -/
theorem C7_stack_push_pop_restores_witness :
    Reachable 0 (LockFreeStack.init (SMR.init 1 0)) ∧
    ∃ s1 s2, push 1 (LockFreeStack.init (SMR.init 1 0)) 0 5 = some s1 ∧
      pop 1 s1 0 0 = some (s2, 5, true) ∧
      s2.top = (LockFreeStack.init (SMR.init 1 0)).top ∧
      (∃ xs, chain (LockFreeStack.init (SMR.init 1 0)).mm.heap
        (LockFreeStack.init (SMR.init 1 0)).top xs) ∧
      (∀ xs, chain (LockFreeStack.init (SMR.init 1 0)).mm.heap
        (LockFreeStack.init (SMR.init 1 0)).top xs → chain s2.mm.heap s2.top xs) ∧
      (∀ g, size g s2 = size g (LockFreeStack.init (SMR.init 1 0))) ∧
      s2.empty = (LockFreeStack.init (SMR.init 1 0)).empty ∧
      (∀ g n res, (popN (g + 1) 0 n s2 res).map Prod.snd
        = (popN (g + 1) 0 n (LockFreeStack.init (SMR.init 1 0)) res).map Prod.snd) :=
  ⟨Reachable.init _ (SMR.init_wf 1 0),
   C7_stack_push_pop_restores 0 0 _ (Reachable.init _ (SMR.init_wf 1 0)) 5 0⟩

open LockFreeStack in
/-- C8: in every state one thread can reach, `pop` returns, and it returns
`false` exactly when `top` is `NULL`; then `ret`, `top` and the store are
unchanged.  When it returns `true`, `ret` is the value of the node `top`
pointed to, `top` is that node's `next`, and the stack holds the remaining
values. -/
theorem C8_stack_pop_result (tid fuel : Nat) (s : LockFreeStack) (hr : Reachable tid s)
    (ret : Int) :
    ∃ xs s' ret' b, chain s.mm.heap s.top xs ∧ pop (fuel + 1) s tid ret = some (s', ret', b) ∧
      (b = false ↔ s.top = 0) ∧
      (b = false → ret' = ret ∧ s'.top = s.top ∧ s'.mm.heap = s.mm.heap ∧
        chain s'.mm.heap s'.top xs) ∧
      (b = true → ∃ n xs', s.mm.heap.cells s.top = some n ∧ xs = n.data :: xs' ∧
        ret' = n.data ∧ s'.top = n.next ∧ chain s'.mm.heap s'.top xs') := by
  obtain ⟨l, hi⟩ := hr.inv
  cases l with
  | nil =>
    obtain ⟨s1, h1, h2, h3, h4⟩ := pop_nil fuel s tid ret hi
    have ht : s.top = 0 := hi.path
    refine ⟨[], s1, ret, false, hi.chain, h1, by simp [ht], ?_, by simp⟩
    intro _
    exact ⟨rfl, h3, h4, h2.chain⟩
  | cons a l =>
    obtain ⟨s1, n, h0, h1, h2, h3, h4⟩ := pop_cons fuel s tid ret a l hi
    have ht : s.top = a := hi.path.1
    have ha0 : a ≠ 0 := SMR.live_ne_zero _ hi.wf a (hi.live a (by simp))
    refine ⟨_, s1, n.data, true, hi.chain, h1, by simp [ht, ha0], by simp, ?_⟩
    intro _
    refine ⟨n, dataOf s.mm.heap l, by rw [ht]; exact h0, by simp [dataOf, h0], rfl, h4, ?_⟩
    rw [← dataOf_frame s.mm.heap s1.mm.heap l h3]
    exact h2.chain

open LockFreeStack in
/-- Witness of C8 on the newly constructed stack. -/
theorem C8_stack_pop_result_witness :
    Reachable 0 (LockFreeStack.init (SMR.init 1 0)) ∧
    ∃ xs s' ret' b, chain (LockFreeStack.init (SMR.init 1 0)).mm.heap
        (LockFreeStack.init (SMR.init 1 0)).top xs ∧
      pop 1 (LockFreeStack.init (SMR.init 1 0)) 0 7 = some (s', ret', b) ∧
      (b = false ↔ (LockFreeStack.init (SMR.init 1 0)).top = 0) ∧
      (b = false → ret' = 7 ∧ s'.top = (LockFreeStack.init (SMR.init 1 0)).top ∧
        s'.mm.heap = (LockFreeStack.init (SMR.init 1 0)).mm.heap ∧
        chain s'.mm.heap s'.top xs) ∧
      (b = true → ∃ n xs', (LockFreeStack.init (SMR.init 1 0)).mm.heap.cells
          (LockFreeStack.init (SMR.init 1 0)).top = some n ∧ xs = n.data :: xs' ∧
        ret' = n.data ∧ s'.top = n.next ∧ chain s'.mm.heap s'.top xs') :=
  ⟨Reachable.init _ (SMR.init_wf 1 0),
   C8_stack_pop_result 0 0 _ (Reachable.init _ (SMR.init_wf 1 0)) 7⟩

end Amino

namespace Amino

namespace SMR
variable {α : Type}

theorem mem_unique (l : List Nat) (x : Nat) : x ∈ unique l ↔ x ∈ l := by
  induction l with
  | nil => simp [unique]
  | cons a l ih =>
    cases l with
    | nil => simp [unique]
    | cons b l =>
      unfold unique
      by_cases hab : a = b
      · subst hab
        rw [if_pos rfl, ih]
        simp
      · rw [if_neg hab, List.mem_cons, ih]
        simp

theorem binary_search_plist (recs : List HPRecType) (d : Nat) :
    binary_search (unique ((hazards recs).mergeSort (fun a b => decide (a ≤ b)))) d
      = decide (d ∈ hazards recs) := by
  unfold binary_search
  rw [Bool.eq_iff_iff]
  simp [mem_unique, List.mem_mergeSort]

theorem scan_eq_raw (s : SMR α) (tid : Nat) (r head : HPRecType)
    (hg : s.getRec (s.thread_local tid) = some r) (hh : s.hprecs.head? = some head)
    (hcap : (hazards s.hprecs).length ≤ head.nrThreads * s.K) :
    s.scan tid = some (({ s with heap :=
        ((r.rlist.filter (fun d => !decide (d ∈ hazards s.hprecs))).foldl
          HPRecType.release (r, s.heap)).2 } : SMR α).setRec (s.thread_local tid)
      { ((r.rlist.filter (fun d => !decide (d ∈ hazards s.hprecs))).foldl
          HPRecType.release (r, s.heap)).1 with
        rlist := (r.rlist.filter (fun d => decide (d ∈ hazards s.hprecs))).reverse,
        rcount := (r.rlist.filter (fun d => decide (d ∈ hazards s.hprecs))).length }) := by
  unfold scan
  rw [hg, hh]
  simp only [hcap, if_true, scanLoop_eq, binary_search_plist]
  simp

end SMR

/-- C10: when `scan` runs for a thread that has a record (and the hazard
pointers fit into `plist`), it returns; the new retired list of the record
consists of exactly the old retired pointers that occur in a hazard slot of
some record of the global list (in reverse order), `rcount` is its length,
and each other old retired pointer is released exactly once, in list order:
the first ones fill the free list of data nodes up to `MAX_FREE_NODES`, each
of the others is deleted from the free store. -/
theorem C10_scan_keeps_hazards_releases_rest {α : Type} (s : SMR α) (tid : Nat)
    (r head : HPRecType)
    (hg : s.getRec (s.thread_local tid) = some r) (hh : s.hprecs.head? = some head)
    (hcap : (SMR.hazards s.hprecs).length ≤ head.nrThreads * s.K)
    (hc : r.fr_data_count ≤ MAX_FREE_NODES) (hl : r.frListData.length = MAX_FREE_NODES + 1) :
    ∃ s' r', s.scan tid = some s' ∧ s'.getRec (s.thread_local tid) = some r' ∧
      r'.rlist = (r.rlist.filter (fun d => decide (d ∈ SMR.hazards s.hprecs))).reverse ∧
      r'.rcount = r'.rlist.length ∧
      (∀ p, p ∈ SMR.hazards s.hprecs → p ∈ r.rlist → p ∈ r'.rlist) ∧
      r'.frListData.take r'.fr_data_count
        = r.frListData.take r.fr_data_count
          ++ (r.rlist.filter (fun d => !decide (d ∈ SMR.hazards s.hprecs))).take
              (MAX_FREE_NODES - r.fr_data_count) ∧
      s'.heap = ((r.rlist.filter (fun d => !decide (d ∈ SMR.hazards s.hprecs))).drop
              (MAX_FREE_NODES - r.fr_data_count)).foldl Heap.free s.heap ∧
      r'.hp = r.hp ∧ s'.hprecs.length = s.hprecs.length := by
  obtain ⟨i1, i2, -, -, i5, -⟩ :=
    SMR.foldl_release (r.rlist.filter (fun d => !decide (d ∈ SMR.hazards s.hprecs))) r s.heap hc hl
  refine ⟨_, _, SMR.scan_eq_raw s tid r head hg hh hcap, SMR.getRec_setRec _ _ r _ hg, rfl, ?_,
    ?_, ?_, ?_, ?_, ?_⟩
  · simp
  · intro p hp hr
    simp only [List.mem_reverse, List.mem_filter]
    exact ⟨hr, by simpa using hp⟩
  · exact i2
  · simpa using i1
  · exact i5
  · simp

/-- Witness of C10: one record whose hazard slot holds 8 and whose retired list is 8, 16. -/
theorem C10_scan_keeps_hazards_releases_rest_witness :
    ∃ s' r', sampleSMR.scan 0 = some s' ∧
      s'.getRec 1 = some r' ∧ r'.rlist = [8] ∧ r'.rcount = r'.rlist.length ∧
      (∀ p, p ∈ [8] → p ∈ [8, 16] → p ∈ r'.rlist) ∧
      r'.frListData.take r'.fr_data_count = [16] ∧
      s'.heap = Heap.empty ∧ r'.hp = [8] ∧ s'.hprecs.length = 1 :=
  C10_scan_keeps_hazards_releases_rest sampleSMR 0 sampleRec sampleRec
    rfl rfl (by decide) (by decide) (by decide)

end Amino

namespace Amino

namespace Heap
variable {α : Type}

theorem path_last (nxt : α → Nat) (h : Heap α) (p : Nat) (L : List Nat) (t : Nat)
    (hp : path nxt h p L 0) (ht : L.getLast? = some t) :
    ∃ n, h.cells t = some n ∧ nxt n = 0 := by
  induction L generalizing p with
  | nil => simp at ht
  | cons x L ih =>
    obtain ⟨e, n, hn, hr⟩ := hp
    cases L with
    | nil =>
      simp at ht
      subst ht
      exact ⟨n, hn, hr⟩
    | cons y L =>
      exact ih _ hr (by simpa [List.getLast?_cons_cons] using ht)

theorem path_snoc (nxt : α → Nat) (h h' : Heap α) (p : Nat) (L : List Nat) (t a : Nat)
    (n' na : α) (hp : path nxt h p L 0) (ht : L.getLast? = some t) (hnd : L.Nodup)
    (hf : ∀ b ∈ L, b ≠ t → h'.cells b = h.cells b) (ht' : h'.cells t = some n')
    (hn' : nxt n' = a) (ha : h'.cells a = some na) (hna : nxt na = 0) :
    path nxt h' p (L ++ [a]) 0 := by
  induction L generalizing p with
  | nil => simp at ht
  | cons x L ih =>
    obtain ⟨e, n, hn, hr⟩ := hp
    cases L with
    | nil =>
      simp at ht
      subst ht
      exact ⟨e, n', ht', by rw [hn']; exact ⟨rfl, na, ha, hna⟩⟩
    | cons y L =>
      have ht2 : (y :: L).getLast? = some t := by simpa [List.getLast?_cons_cons] using ht
      have hnd' := List.nodup_cons.mp hnd
      have hxt : x ≠ t := by
        rintro rfl
        exact hnd'.1 (List.mem_of_getLast?_eq_some ht2)
      refine ⟨e, n, by rw [hf x (by simp) hxt]; exact hn, ?_⟩
      exact ih _ hr ht2 hnd'.2 (fun b hb hbt => hf b (by simp [List.mem_cons] at hb ⊢; tauto) hbt)

theorem path_mem_alloc (nxt : α → Nat) (h : Heap α) (p : Nat) (L : List Nat) (q : Nat)
    (hp : path nxt h p L q) : ∀ b ∈ L, h.cells b ≠ none := by
  induction L generalizing p with
  | nil => simp
  | cons x L ih =>
    obtain ⟨e, n, hn, hr⟩ := hp
    intro b hb
    simp only [List.mem_cons] at hb
    rcases hb with rfl | hb
    · rw [hn]; simp
    · exact ih _ hr b hb

end Heap

namespace SMR
variable {α : Type}

theorem getHPRec_heap (s : SMR α) (tid : Nat) : (s.getHPRec tid).1.heap = s.heap := by
  unfold getHPRec allocHPRec
  split
  · split <;> rfl
  · rfl

theorem employ_heap (s : SMR α) (hp i x : Nat) : (s.employ hp i x).heap = s.heap := by
  unfold employ
  split
  · simp
  · rfl

theorem retire_heap (s : SMR α) (hp i : Nat) : (s.retire hp i).heap = s.heap :=
  employ_heap s hp i 0

/-- A store into an allocated node keeps the reclamation state well formed
and changes no ownership. -/
theorem put_spec (s : SMR α) (hw : s.WF) (p : Nat) (v : α) (hp : s.heap.cells p ≠ none) :
    ({ s with heap := s.heap.put p (some v) } : SMR α).WF ∧
    ∀ q, ({ s with heap := s.heap.put p (some v) } : SMR α).live q ↔ s.live q := by
  constructor
  · constructor
    · exact Heap.put_wf _ hw.heap p v hp
    · exact hw.recs
    · exact hw.count
    · exact hw.tl
    · exact hw.cap
    · intro q hq
      have := hw.owned_alloc q hq
      show (s.heap.put p (some v)).cells q ≠ none
      rw [Heap.put_cells]
      split
      · simp
      · exact this
    · exact hw.owned_nodup
  · intro q
    unfold live
    show (s.heap.put p (some v)).cells q ≠ none ∧ q ∉ s.allOwned ↔ _
    rw [Heap.put_cells]
    by_cases hq : q = p
    · subst hq; simp [hp]
    · simp [hq]

/-- `new NodeType()` called directly by a container. -/
theorem new_spec [Inhabited α] (s : SMR α) (hw : s.WF) :
    ({ s with heap := (s.heap.alloc default).2 } : SMR α).WF ∧
    Fresh s { s with heap := (s.heap.alloc default).2 } (s.heap.alloc default).1 := by
  have hfresh := Heap.alloc_fst_fresh s.heap hw.heap (default : α)
  have hcells := Heap.alloc_cells s.heap (default : α)
  have hwf' := Heap.alloc_wf s.heap hw.heap (default : α)
  have hbrk := Heap.alloc_brk_le s.heap (default : α)
  have hpo : (s.heap.alloc (default : α)).1 ∉ s.allOwned :=
    fun hc => hw.owned_alloc _ hc hfresh
  constructor
  · constructor
    · exact hwf'
    · exact hw.recs
    · exact hw.count
    · exact hw.tl
    · exact hw.cap
    · intro q hq
      have := hw.owned_alloc q hq
      show (s.heap.alloc default).2.cells q ≠ none
      rw [hcells]
      split
      · simp
      · exact this
    · exact hw.owned_nodup
  · constructor
    · exact ⟨by show (s.heap.alloc default).2.cells _ ≠ none; simp [hcells], hpo⟩
    · intro hc; exact hc.1 hfresh
    · exact Heap.alloc_fst_aligned s.heap hw.heap default
    · show (s.heap.alloc default).2.cells _ = _
      simp [hcells]
    · intro q hq
      show (s.heap.alloc default).2.cells q = _
      simp [hcells, hq]
    · intro q hq
      unfold live
      show (s.heap.alloc default).2.cells q ≠ none ∧ q ∉ s.allOwned ↔ _
      simp [hcells, hq]
    · rfl
    · rfl
    · rfl
    · exact hbrk.1
    · exact hbrk.2
    · rfl

/-- `delete p` called directly by a container on a live node. -/
theorem delete_spec (s : SMR α) (hw : s.WF) (p : Nat) (hl : s.live p) :
    ({ s with heap := s.heap.free p } : SMR α).WF ∧
    ¬ ({ s with heap := s.heap.free p } : SMR α).live p ∧
    (∀ q, q ≠ p → (({ s with heap := s.heap.free p } : SMR α).live q ↔ s.live q)) ∧
    (∀ q, q ≠ p → (s.heap.free p).cells q = s.heap.cells q) := by
  have hc := Heap.free_cells s.heap hw.heap p
  refine ⟨?_, ?_, ?_, ?_⟩
  · constructor
    · exact Heap.free_wf _ hw.heap p hl.1
    · exact hw.recs
    · exact hw.count
    · exact hw.tl
    · exact hw.cap
    · intro q hq
      have := hw.owned_alloc q hq
      show (s.heap.free p).cells q ≠ none
      rw [hc]
      have : q ≠ p := by rintro rfl; exact hl.2 hq
      simp [this]
      exact hw.owned_alloc q hq
    · exact hw.owned_nodup
  · intro h
    have := h.1
    change (s.heap.free p).cells p ≠ none at this
    rw [hc] at this
    simp at this
  · intro q hq
    unfold live
    show (s.heap.free p).cells q ≠ none ∧ q ∉ s.allOwned ↔ _
    rw [hc]
    simp [hq]
  · intro q hq
    rw [hc]
    simp [hq]

end SMR

end Amino

namespace Amino

namespace LockFreeQueue

theorem queue_dataOf_frame (h h' : Heap QNode) (l : List Nat)
    (hf : ∀ a ∈ l, (h'.cells a).map QNode.data = (h.cells a).map QNode.data) :
    dataOf h' l = dataOf h l := by
  unfold dataOf
  apply List.map_congr_left
  intro a ha
  have := hf a ha
  cases h1 : h'.cells a <;> cases h2 : h.cells a <;> simp [h1, h2] at this ⊢
  exact this

theorem queue_init_inv (mm : SMR QNode) (hw : mm.WF) : Inv (LockFreeQueue.init mm) [] := by
  obtain ⟨h1, h2⟩ := SMR.new_spec mm hw
  constructor
  · exact h1
  · exact ⟨rfl, default, h2.cell, rfl⟩
  · rfl
  · simp
  · intro a ha
    simp only [List.mem_singleton] at ha
    subst ha
    exact h2.live

/-- `dequeue` on a queue that holds nothing. -/
theorem dequeue_nil (fuel : Nat) (s : LockFreeQueue) (tid : Nat) (ret : Int) (hi : Inv s []) :
    ∃ s', dequeue (fuel + 1) s tid ret = some (s', ret, false) ∧ Inv s' [] ∧
      s'.head = s.head ∧ s'.tail = s.tail ∧ s'.mm.heap = s.mm.heap := by
  obtain ⟨-, n, hn, hnext⟩ := hi.path
  have hn0 : n.next = 0 := hnext
  obtain ⟨g1, g2, g3, g4⟩ := SMR.getHPRec_spec s.mm hi.wf tid
  generalize hmm1 : (s.mm.getHPRec tid).1 = mm1 at g1 g2 g3 g4
  generalize hhp : (s.mm.getHPRec tid).2 = hp at g2 g3
  obtain ⟨e1, e2, e3, e4, -⟩ := SMR.employ_spec mm1 g1 hp 1 s.head
  obtain ⟨f1, f2, f3, f4, -⟩ := SMR.employ_spec (mm1.employ hp 1 s.head) e1 hp 1 0
  have hsn := (g4.trans e2).trans f2
  refine ⟨{ s with mm := (mm1.employ hp 1 s.head).employ hp 1 0 }, ?_, ?_, rfl, rfl, hsn.heap⟩
  · unfold dequeue
    rw [hmm1, hhp]
    simp only [dequeueLoop, ne_eq, not_true_eq_false, if_false, Heap.read, (g4.trans e2).heap, hn,
      hn0, if_true]
  · exact ⟨f1, by
      show Heap.path QNode.next ((mm1.employ hp 1 s.head).employ hp 1 0).heap s.head [s.head] 0
      rw [hsn.heap]; exact hi.path, hi.tail, hi.nodup,
      fun a ha => (hsn.live a).mpr (hi.live a ha)⟩

/-- `dequeue` on a queue whose first node after the sentinel is `a`. -/
theorem dequeue_cons (fuel : Nat) (s : LockFreeQueue) (tid : Nat) (ret : Int) (a : Nat)
    (l : List Nat) (hi : Inv s (a :: l)) :
    ∃ s' n, s.mm.heap.cells a = some n ∧
      dequeue (fuel + 1) s tid ret = some (s', n.data, true) ∧ Inv s' l ∧ s'.head = a ∧
      ∀ b ∈ a :: l, s'.mm.heap.cells b = s.mm.heap.cells b := by
  obtain ⟨-, hd, hhd, hp2⟩ := hi.path
  obtain ⟨hda, n, hn, hrest⟩ := hp2
  have hnd := List.nodup_cons.mp hi.nodup
  have ha0 : a ≠ 0 := SMR.live_ne_zero _ hi.wf a (hi.live a (by simp))
  have htail : s.head ≠ s.tail := by
    intro hc
    have h1 : (a :: l).getLast? = some s.tail := by
      simpa [List.getLast?_cons_cons] using hi.tail
    exact hnd.1 (hc ▸ List.mem_of_getLast?_eq_some h1)
  obtain ⟨g1, g2, g3, g4⟩ := SMR.getHPRec_spec s.mm hi.wf tid
  generalize hmm1 : (s.mm.getHPRec tid).1 = mm1 at g1 g2 g3 g4
  generalize hhp : (s.mm.getHPRec tid).2 = hp at g2 g3
  obtain ⟨e1, e2, e3, e4, -⟩ := SMR.employ_spec mm1 g1 hp 1 s.head
  obtain ⟨f1, f2, f3, f4, -⟩ := SMR.employ_spec (mm1.employ hp 1 s.head) e1 hp 1 a
  obtain ⟨r1, r2, r3, r4, -⟩ :=
    SMR.retire_spec ((mm1.employ hp 1 s.head).employ hp 1 a) f1 hp 1
  generalize hmm4 : ((mm1.employ hp 1 s.head).employ hp 1 a).retire hp 1 = mm4 at r1 r2 r3 r4
  have hsn4 : SMR.SameNodes s.mm mm4 := ((g4.trans e2).trans f2).trans r2
  have htl4 : mm4.thread_local tid = hp := by rw [r3, f3, e3, g2]
  obtain ⟨k1, k2, k3, k4⟩ := SMR.getHPRec_spec mm4 r1 tid
  have hne : mm4.thread_local tid ≠ 0 := by
    rw [htl4]; exact g3.1
  have hget : mm4.getHPRec tid = (mm4, hp) := by
    unfold SMR.getHPRec; rw [if_neg hne, htl4]
  rw [hget] at k1 k2 k3 k4
  obtain ⟨mm5, del, hdel, hw5, hret⟩ := SMR.delNode_spec mm4 r1 tid hp s.head htl4 k3
    ((hsn4.live _).mpr (hi.live _ (by simp)))
  have hframe : ∀ b ∈ a :: l, mm5.live b ∧ mm5.heap.cells b = s.mm.heap.cells b := by
    intro b hb
    have hb1 := (hsn4.live b).mpr (hi.live b (by simp [List.mem_cons] at hb ⊢; tauto))
    have hba : b ∉ [s.head] := by
      simp; rintro rfl; exact hnd.1 hb
    have := (hret.frame b).1 hb1 hba
    rw [hsn4.heap] at this
    exact this
  refine ⟨{ head := a, tail := s.tail, mm := mm5 }, n, hn, ?_, ?_, rfl,
    fun b hb => (hframe b hb).2⟩
  · unfold dequeue
    rw [hmm1, hhp]
    simp only [dequeueLoop, ne_eq, not_true_eq_false, if_false, Heap.read, (g4.trans e2).heap,
      hhd, hda, ha0, htail, ((g4.trans e2).trans f2).heap, hn, if_true]
    rw [hmm4, hget]
    simp only [hdel]
  · refine ⟨hw5, ?_, ?_, hnd.2, fun b hb => (hframe b hb).1⟩
    · apply Heap.path_frame _ s.mm.heap _ _ _ _ (fun b hb => (hframe b hb).2)
      exact ⟨rfl, n, hn, hrest⟩
    · simpa [List.getLast?_cons_cons] using hi.tail

end LockFreeQueue

end Amino

namespace Amino

namespace LockFreeQueue

/-- `enqueue` appends a new node after the last one. -/
theorem enqueue_spec (fuel : Nat) (s : LockFreeQueue) (tid : Nat) (d : Int) (l : List Nat)
    (hi : Inv s l) :
    ∃ s' a, enqueue (fuel + 1) s tid d = some s' ∧ Inv s' (l ++ [a]) ∧ s'.head = s.head ∧
      dataOf s'.mm.heap (l ++ [a]) = dataOf s.mm.heap l ++ [d] ∧ s'.tail = a := by
  obtain ⟨tn, htn, htn0⟩ := Heap.path_last _ _ _ _ _ hi.path hi.tail
  have htmem : s.tail ∈ s.head :: l := List.mem_of_getLast?_eq_some hi.tail
  obtain ⟨g1, g2, g3, g4⟩ := SMR.getHPRec_spec s.mm hi.wf tid
  generalize hmm1 : (s.mm.getHPRec tid).1 = mm1 at g1 g2 g3 g4
  generalize hhp1 : (s.mm.getHPRec tid).2 = hp1 at g2 g3
  obtain ⟨mm2, a, hnew, hw2, hf⟩ := SMR.newNode_spec mm1 g1 hp1 g3
  have hal : a ∉ s.head :: l := fun hc => hf.dead ((g4.live a).mpr (hi.live a hc))
  have hat : s.tail ≠ a := by rintro rfl; exact hal htmem
  have hcell : mm2.heap.cells a = some default := hf.cell
  obtain ⟨hw3, hl3⟩ := SMR.put_spec mm2 hw2 a { data := d, next := 0 } (by rw [hcell]; simp)
  generalize hmm3 : ({ mm2 with heap := mm2.heap.put a (some { data := d, next := 0 }) }
    : SMR QNode) = mm3 at hw3 hl3
  have hheap3 : mm3.heap = mm2.heap.put a (some { data := d, next := 0 }) := by rw [← hmm3]
  obtain ⟨k1, k2, k3, k4⟩ := SMR.getHPRec_spec mm3 hw3 tid
  generalize hmm4 : (mm3.getHPRec tid).1 = mm4 at k1 k2 k3 k4
  generalize hhp : (mm3.getHPRec tid).2 = hp at k2 k3
  obtain ⟨e1, e2, e3, e4, -⟩ := SMR.employ_spec mm4 k1 hp 0 s.tail
  generalize hmm5 : mm4.employ hp 0 s.tail = mm5 at e1 e2 e3 e4
  have hheap5 : mm5.heap = mm2.heap.put a (some { data := d, next := 0 }) := by
    rw [(k4.trans e2).heap, hheap3]
  have hcells5 : ∀ q, mm5.heap.cells q
      = if q = a then some { data := d, next := 0 } else mm2.heap.cells q := by
    intro q; rw [hheap5, Heap.put_cells]
  have hold2 : ∀ b ∈ s.head :: l, mm2.heap.cells b = s.mm.heap.cells b := by
    intro b hb
    have hba : b ≠ a := by rintro rfl; exact hal hb
    rw [hf.cells b hba, g4.heap]
  have ht5 : mm5.heap.cells s.tail = some tn := by
    rw [hcells5, if_neg hat, hold2 _ htmem, htn]
  obtain ⟨hw6, hl6⟩ := SMR.put_spec mm5 e1 s.tail { tn with next := a } (by rw [ht5]; simp)
  generalize hmm6 : ({ mm5 with heap := mm5.heap.put s.tail (some { tn with next := a }) }
    : SMR QNode) = mm6 at hw6 hl6
  have hheap6 : mm6.heap = mm5.heap.put s.tail (some { tn with next := a }) := by rw [← hmm6]
  obtain ⟨r1, r2, r3, r4, -⟩ := SMR.retire_spec mm6 hw6 hp 0
  have hcells : ∀ q, (mm6.retire hp 0).heap.cells q
      = if q = s.tail then some { tn with next := a }
        else if q = a then some { data := d, next := 0 } else mm2.heap.cells q := by
    intro q
    rw [r2.heap, hheap6, Heap.put_cells, hcells5]
  have hlive : ∀ q, (mm6.retire hp 0).live q ↔ mm2.live q := by
    intro q
    rw [r2.live, hl6, (k4.trans e2).live, hl3]
  refine ⟨{ head := s.head, tail := a, mm := mm6.retire hp 0 }, a, ?_, ?_, rfl, ?_, rfl⟩
  · unfold enqueue
    rw [hmm1, hhp1]
    have hcell' : mm2.heap.cells a = some { data := 0, next := 0 } := hcell
    simp only [hnew, Heap.modify, hcell']
    rw [hmm3, hmm4, hhp]
    simp only [enqueueLoop, ne_eq, not_true_eq_false, if_false, Heap.read, hmm5, ht5, htn0,
      if_true, Heap.modify, hmm6]
  · constructor
    · exact r1
    · show Heap.path QNode.next (mm6.retire hp 0).heap s.head ((s.head :: l) ++ [a]) 0
      apply Heap.path_snoc QNode.next s.mm.heap _ s.head (s.head :: l) s.tail a
        { tn with next := a } { data := d, next := 0 } hi.path hi.tail hi.nodup
      · intro b hb hbt
        have hba : b ≠ a := by rintro rfl; exact hal hb
        rw [hcells, if_neg hbt, if_neg hba, hold2 b hb]
      · rw [hcells, if_pos rfl]
      · rfl
      · rw [hcells, if_neg (Ne.symm hat), if_pos rfl]
      · rfl
    · show ((s.head :: l) ++ [a]).getLast? = some a
      rw [List.getLast?_append]
      simp
    · show ((s.head :: l) ++ [a]).Nodup
      rw [List.nodup_append]
      refine ⟨hi.nodup, by simp, ?_⟩
      intro x hx hx'
      simp only [List.mem_singleton] at hx'
      subst hx'
      exact hal hx
    · intro b hb
      have hb' : b ∈ s.head :: l ∨ b = a := by
        simp only [List.mem_cons, List.mem_append, List.mem_singleton] at hb ⊢
        tauto
      rw [hlive]
      rcases hb' with hb' | rfl
      · have hba : b ≠ a := by rintro rfl; exact hal hb'
        exact (hf.lives b hba).mpr ((g4.live b).mpr (hi.live b hb'))
      · exact hf.live
  · show dataOf (mm6.retire hp 0).heap (l ++ [a]) = _
    unfold dataOf
    rw [List.map_append]
    congr 1
    · apply List.map_congr_left
      intro b hb
      have hb' : b ∈ s.head :: l := by simp [hb]
      have hba : b ≠ a := by rintro rfl; exact hal hb'
      rw [hcells]
      by_cases hbt : b = s.tail
      · subst hbt; rw [if_pos rfl, htn]
      · rw [if_neg hbt, if_neg hba, hold2 b hb']
    · simp only [List.map_cons, List.map_nil]
      rw [hcells, if_neg (Ne.symm hat), if_pos rfl]

theorem queue_peekFront_spec (fuel : Nat) (s : LockFreeQueue) (tid : Nat) (top : Int)
    (l : List Nat) (hi : Inv s l) :
    ∃ s', peekFront (fuel + 1) s tid top
        = some (s', (dataOf s.mm.heap l).headD top, !(dataOf s.mm.heap l).isEmpty) ∧
      Inv s' l ∧ s'.head = s.head ∧ s'.tail = s.tail ∧ s'.mm.heap = s.mm.heap := by
  obtain ⟨-, hd, hhd, hp2⟩ := hi.path
  obtain ⟨g1, g2, g3, g4⟩ := SMR.getHPRec_spec s.mm hi.wf tid
  generalize hmm1 : (s.mm.getHPRec tid).1 = mm1 at g1 g2 g3 g4
  generalize hhp : (s.mm.getHPRec tid).2 = hp at g2 g3
  cases l with
  | nil =>
    have hn0 : hd.next = 0 := hp2
    refine ⟨{ s with mm := mm1 }, ?_, ⟨g1, by
      show Heap.path QNode.next mm1.heap s.head [s.head] 0
      rw [g4.heap]; exact hi.path, hi.tail, hi.nodup,
      fun a ha => (g4.live a).mpr (hi.live a ha)⟩, rfl, rfl, g4.heap⟩
    unfold peekFront
    rw [hmm1, hhp]
    simp [peekFrontLoop, Heap.read, g4.heap, hhd, hn0, dataOf]
  | cons a l =>
    obtain ⟨hda, n, hn, hrest⟩ := hp2
    have ha0 : a ≠ 0 := SMR.live_ne_zero _ hi.wf a (hi.live a (by simp))
    obtain ⟨e1, e2, e3, e4, -⟩ := SMR.employ_spec mm1 g1 hp 1 a
    obtain ⟨r1, r2, r3, r4, -⟩ := SMR.retire_spec (mm1.employ hp 1 a) e1 hp 1
    have hsn := (g4.trans e2).trans r2
    refine ⟨{ s with mm := (mm1.employ hp 1 a).retire hp 1 }, ?_, ⟨r1, by
      show Heap.path QNode.next ((mm1.employ hp 1 a).retire hp 1).heap s.head
        (s.head :: a :: l) 0
      rw [hsn.heap]; exact hi.path, hi.tail, hi.nodup,
      fun b hb => (hsn.live b).mpr (hi.live b hb)⟩, rfl, rfl, hsn.heap⟩
    unfold peekFront
    rw [hmm1, hhp]
    simp [peekFrontLoop, Heap.read, g4.heap, hhd, hda, ha0, (g4.trans e2).heap, hn, dataOf]

theorem queue_empty_spec (s : LockFreeQueue) (l : List Nat) (hi : Inv s l) :
    empty s = some (dataOf s.mm.heap l).isEmpty := by
  obtain ⟨-, hd, hhd, hp2⟩ := hi.path
  cases l with
  | nil =>
    have hn0 : hd.next = 0 := hp2
    simp [empty, Heap.read, hhd, hn0, dataOf]
  | cons a l =>
    obtain ⟨hda, n, hn, hrest⟩ := hp2
    have ha0 : a ≠ 0 := SMR.live_ne_zero _ hi.wf a (hi.live a (by simp))
    simp [empty, Heap.read, hhd, hda, ha0, dataOf]

theorem queue_sizeLoop_spec (s : LockFreeQueue) (h0 : s.mm.heap.cells 0 = none) (l : List Nat)
    (p k g : Nat) (hp : s.mm.heap.path QNode.next p l 0)
    (ht : ∀ t, l.getLast? = some t → t = s.tail) (hnt : ∀ b ∈ l.dropLast, b ≠ s.tail) :
    sizeLoop s (l.length + 1 + g) p k = some (k + l.length) := by
  induction l generalizing p k with
  | nil =>
    have : p = 0 := hp
    subst this
    rw [show ([] : List Nat).length + 1 + g = g + 1 by simp; omega]
    simp [sizeLoop]
  | cons a l ih =>
    obtain ⟨e, n, hn, hr⟩ := hp
    subst e
    have ha : p ≠ 0 := by rintro rfl; rw [h0] at hn; cases hn
    rw [show (p :: l).length + 1 + g = (l.length + 1 + g) + 1 by simp; omega]
    cases l with
    | nil =>
      have hpt : p = s.tail := ht p (by simp)
      rw [hpt] at ha
      simp only [sizeLoop, hpt, ha, if_false, if_true]
      simp
    | cons b l =>
      have hpt : p ≠ s.tail := hnt p (by simp [List.dropLast])
      simp only [sizeLoop, ha, hpt, if_false, Heap.read, hn]
      rw [ih _ _ hr (fun t h => ht t (by simpa [List.getLast?_cons_cons] using h))
        (fun x hx => hnt x (by simp [List.dropLast] at hx ⊢; tauto))]
      simp; omega

theorem queue_size_spec (g : Nat) (s : LockFreeQueue) (l : List Nat) (hi : Inv s l) :
    size (l.length + 1 + g) s = some l.length := by
  obtain ⟨-, hd, hhd, hp2⟩ := hi.path
  unfold size
  simp only [Heap.read, hhd]
  have := queue_sizeLoop_spec s hi.wf.heap.null l hd.next 0 g hp2 ?_ ?_
  · simpa using this
  · intro t ht
    cases l with
    | nil => simp at ht
    | cons a l =>
      have := hi.tail
      rw [List.getLast?_cons_cons, ht] at this
      simpa using this
  · intro b hb hbt
    cases l with
    | nil => simp at hb
    | cons a l =>
      -- `b` lies strictly before the last node, which is `tail`
      have hnd := (List.nodup_cons.mp hi.nodup).2
      have htl : (a :: l).getLast? = some s.tail := by
        simpa [List.getLast?_cons_cons] using hi.tail
      have hsplit : a :: l = (a :: l).dropLast ++ [s.tail] := by
        have h1 := List.dropLast_append_getLast? s.tail htl
        exact h1.symm
      rw [hsplit] at hnd
      have := (List.nodup_append.mp hnd).2.2
      exact this hb (by simp [hbt])

end LockFreeQueue

end Amino

namespace Amino

namespace LockFreeQueue

theorem queue_step_spec (F tid : Nat) (s : LockFreeQueue) (l : List Nat) (op : QOp)
    (hi : Inv s l) (hF : l.length ≤ F) :
    ∃ s' l', step (F + 1) tid s op = some (s', (fifoStep op (dataOf s.mm.heap l)).2) ∧
      Inv s' l' ∧ dataOf s'.mm.heap l' = (fifoStep op (dataOf s.mm.heap l)).1 ∧
      l'.length ≤ l.length + 1 := by
  cases op with
  | enqueue d =>
    obtain ⟨s', a, h1, h2, -, h4, -⟩ := enqueue_spec F s tid d l hi
    exact ⟨s', l ++ [a], by simp [step, h1, fifoStep], h2, by simp [h4, fifoStep], by simp⟩
  | dequeue ret =>
    cases l with
    | nil =>
      obtain ⟨s', h1, h2, -, -, h5⟩ := dequeue_nil F s tid ret hi
      exact ⟨s', [], by simp [step, h1, fifoStep, dataOf], h2, by simp [fifoStep, dataOf], by simp⟩
    | cons a l =>
      obtain ⟨s', n, h0, h1, h2, -, h4⟩ := dequeue_cons F s tid ret a l hi
      have hd : dataOf s'.mm.heap l = dataOf s.mm.heap l :=
        queue_dataOf_frame _ _ _ (fun b hb => by rw [h4 b (by simp [hb])])
      refine ⟨s', l, ?_, h2, ?_, by simp; omega⟩
      · simp [step, h1, fifoStep, dataOf, h0]
      · rw [hd]; simp [fifoStep, dataOf, h0]
  | peekFront top =>
    obtain ⟨s', h1, h2, -, -, h5⟩ := queue_peekFront_spec F s tid top l hi
    refine ⟨s', l, ?_, h2, ?_, by simp⟩
    · simp only [step, h1]
      cases hl : dataOf s.mm.heap l <;> simp [fifoStep]
    · rw [h5]
      cases hl : dataOf s.mm.heap l <;> simp [fifoStep]
  | empty =>
    refine ⟨s, l, ?_, hi, by simp [fifoStep], by simp⟩
    simp [step, queue_empty_spec s l hi, fifoStep]
  | size =>
    refine ⟨s, l, ?_, hi, by simp [fifoStep], by simp⟩
    have := queue_size_spec (F - l.length) s l hi
    rw [show l.length + 1 + (F - l.length) = F + 1 by omega] at this
    simp [step, this, fifoStep, dataOf]

theorem queue_run_spec (F tid : Nat) (ops : List QOp) (s : LockFreeQueue) (l : List Nat)
    (hi : Inv s l) (hF : l.length + ops.length ≤ F) :
    ∃ s' l', run (F + 1) tid ops s = some (s', fifoRun ops (dataOf s.mm.heap l)) ∧ Inv s' l' := by
  induction ops generalizing s l with
  | nil => exact ⟨s, l, rfl, hi⟩
  | cons op ops ih =>
    simp only [List.length_cons] at hF
    obtain ⟨s1, l1, h1, h2, h3, h4⟩ := queue_step_spec F tid s l op hi (by omega)
    obtain ⟨s2, l2, k1, k2⟩ := ih s1 l1 h2 (by omega)
    refine ⟨s2, l2, ?_, k2⟩
    simp only [run, h1, k1, fifoRun, h3]

theorem fifo_dequeued_prefix (ops : List QOp) (q : List Int) :
    dequeued ops (fifoRun ops q) <+: q ++ enqueued ops := by
  induction ops generalizing q with
  | nil => simp [dequeued, fifoRun]
  | cons op ops ih =>
    cases op with
    | enqueue d =>
      have := ih (q ++ [d])
      simpa [dequeued, fifoRun, fifoStep, enqueued] using this
    | dequeue ret =>
      cases q with
      | nil =>
        have := ih []
        simpa [dequeued, fifoRun, fifoStep, enqueued] using this
      | cons x q =>
        have := ih q
        simp only [dequeued, fifoRun, fifoStep, enqueued, List.cons_append]
        exact (List.prefix_cons_inj x).mpr this
    | peekFront top =>
      cases q with
      | nil =>
        have := ih []
        simpa [dequeued, fifoRun, fifoStep, enqueued] using this
      | cons x q =>
        have := ih (x :: q)
        simpa [dequeued, fifoRun, fifoStep, enqueued] using this
    | empty =>
      have := ih q
      simpa [dequeued, fifoRun, fifoStep, enqueued] using this
    | size =>
      have := ih q
      simpa [dequeued, fifoRun, fifoStep, enqueued] using this

end LockFreeQueue

open LockFreeQueue in
/-- C2: every sequence of `enqueue`, `dequeue`, `peekFront`, `empty` and
`size` calls made by one thread on a newly constructed queue runs to the end
and each call returns what the same call returns on the mathematical FIFO
sequence; the values of the successful `dequeue` calls are, in order, the
first values enqueued. -/
theorem C2_queue_refines_fifo (mm : SMR QNode) (hw : mm.WF) (tid g : Nat) (ops : List QOp) :
    ∃ s', run (ops.length + 1 + g) tid ops (LockFreeQueue.init mm) = some (s', fifoRun ops []) ∧
      dequeued ops (fifoRun ops []) <+: enqueued ops := by
  obtain ⟨s', l', h1, -⟩ := queue_run_spec (ops.length + g) tid ops _ [] (queue_init_inv mm hw)
    (by simp)
  refine ⟨s', ?_, by simpa using fifo_dequeued_prefix ops []⟩
  rw [show ops.length + 1 + g = ops.length + g + 1 by omega, h1]
  simp [dataOf]

open LockFreeQueue in
/-- Witness of C2: the scenario `enqueue(1); enqueue(2); dequeue; dequeue; dequeue`. -/
theorem C2_queue_refines_fifo_witness :
    (SMR.init 2 0 : SMR QNode).WF ∧
    ∃ s', run 6 0 [.enqueue 1, .enqueue 2, .dequeue 0, .dequeue 0, .dequeue 0]
        (LockFreeQueue.init (SMR.init 2 0))
        = some (s', [.done, .done, .value true 1, .value true 2, .value false 0]) ∧
      [1, 2] <+: [1, 2] :=
  ⟨SMR.init_wf 2 0, by
    have h := C2_queue_refines_fifo (SMR.init 2 0) (SMR.init_wf 2 0) 0 0
      [.enqueue 1, .enqueue 2, .dequeue 0, .dequeue 0, .dequeue 0]
    simpa [fifoRun, fifoStep, dequeued, enqueued] using h⟩

end Amino

namespace Amino

theorem MARKED_aligned (p : Nat) (h : ALIGN ∣ p) : MARKED p = false := by
  unfold MARKED
  obtain ⟨k, rfl⟩ := h
  simp [ALIGN, Nat.and_one_is_mod]
  omega

theorem POINTER_aligned (p : Nat) (h : ALIGN ∣ p) : POINTER p = p := by
  unfold POINTER
  obtain ⟨k, rfl⟩ := h
  simp [ALIGN, Nat.shiftLeft_eq, Nat.shiftRight_eq_div_pow]
  omega

theorem MARK_aligned (p : Nat) (h : ALIGN ∣ p) : MARK p = p + 1 := by
  unfold MARK
  obtain ⟨k, rfl⟩ := h
  have : ALIGN * k = 2 ^ 1 * (4 * k) := by simp [ALIGN]; omega
  rw [this]
  exact (Nat.mul_add_lt_is_or (by decide) (4 * k)).symm

theorem aligned_zero : ALIGN ∣ 0 := ⟨0, rfl⟩

namespace SMR
variable {α : Type}

theorem SlotsOnly.same_self (s : SMR α) (hw : s.WF) : SlotsOnly s s :=
  ⟨hw, SameNodes.refl s, rfl, le_refl _⟩

theorem SlotsOnly.comp {s s1 s2 : SMR α} (h1 : SlotsOnly s s1) (h2 : SlotsOnly s1 s2) :
    SlotsOnly s s2 :=
  ⟨h2.wf, h1.same.trans h2.same, h2.K.trans h1.K, le_trans h1.len h2.len⟩

theorem SlotsOnly.employ (s : SMR α) (hw : s.WF) (hp i x : Nat) :
    SlotsOnly s (s.employ hp i x) := by
  obtain ⟨e1, e2, e3, e4, -⟩ := employ_spec s hw hp i x
  exact ⟨e1, e2, e2.K, e2.len⟩

theorem SlotsOnly.retire (s : SMR α) (hw : s.WF) (hp i : Nat) :
    SlotsOnly s (s.retire hp i) := SlotsOnly.employ s hw hp i 0

theorem SlotsOnly.getHPRec (s : SMR α) (hw : s.WF) (tid : Nat) :
    SlotsOnly s (s.getHPRec tid).1 := by
  obtain ⟨g1, g2, g3, g4⟩ := getHPRec_spec s hw tid
  exact ⟨g1, g4, g4.K, g4.len⟩

theorem employ_thread_local (s : SMR α) (hp i x : Nat) :
    (s.employ hp i x).thread_local = s.thread_local := by
  unfold SMR.employ
  split
  · simp
  · rfl

theorem employ_length (s : SMR α) (hp i x : Nat) :
    (s.employ hp i x).hprecs.length = s.hprecs.length := by
  unfold SMR.employ
  split
  · simp
  · rfl

theorem valid_of_length (s s' : SMR α) (a : Nat) (h : s.hprecs.length ≤ s'.hprecs.length)
    (hv : s.valid a) : s'.valid a := ⟨hv.1, le_trans hv.2 h⟩

theorem getHPRec_of_tl (s : SMR α) (tid hp : Nat) (h : s.thread_local tid = hp) (h0 : hp ≠ 0) :
    s.getHPRec tid = (s, hp) := by
  unfold SMR.getHPRec
  rw [if_neg (by rw [h]; exact h0), h]

theorem slot_employ_same (s : SMR α) (hw : s.WF) (hp i x : Nat) (hv : s.valid hp)
    (hi : i < s.K) : (s.employ hp i x).slot hp i = some x := by
  obtain ⟨r, hg⟩ := valid_getRec s hp hv
  have hrw := hw.recs r (getRec_mem s _ r hg)
  unfold slot SMR.employ
  rw [hg]
  simp only [getRec_setRec s hp r _ hg]
  rw [List.getElem?_set]
  simp [hrw.hp_len, hi]

theorem slot_employ_other (s : SMR α) (hp i j x : Nat) (hij : i ≠ j) :
    (s.employ hp i x).slot hp j = s.slot hp j := by
  unfold slot SMR.employ
  cases hg : s.getRec hp with
  | none => simp [hg]
  | some r =>
    simp only [getRec_setRec s hp r _ hg]
    rw [List.getElem?_set]
    simp [hij]

theorem slot_heap (s : SMR α) (h : Heap α) (hp i : Nat) :
    ({ s with heap := h } : SMR α).slot hp i = s.slot hp i := rfl

end SMR

end Amino

namespace Amino

namespace OrderedList

theorem load_mm (s : OrderedList) (mm' : SMR NodeType) (h : mm'.heap = s.mm.heap) (loc : Loc) :
    ({ s with mm := mm' } : OrderedList).load loc = s.load loc := by
  cases loc <;> simp [load, Heap.read, h]

theorem path_head_aligned (h : Heap NodeType) (hw : h.WF) (p : Nat) (l : List Nat)
    (hp : h.path NodeType.next p l 0) : ALIGN ∣ p := by
  cases l with
  | nil =>
    have : p = 0 := hp
    subst this
    exact aligned_zero
  | cons a l =>
    obtain ⟨e, n, hn, -⟩ := hp
    subst e
    exact hw.aligned p (by rw [hn]; simp)

theorem path_head_eq (h : Heap NodeType) (p : Nat) (l : List Nat)
    (hp : h.path NodeType.next p l 0) : p = l.headD 0 := by
  cases l with
  | nil => exact hp
  | cons a l => exact hp.1

theorem lastLoc_cons (prev : Loc) (a : Nat) (rest : List Nat) :
    lastLoc (.next a) rest = lastLoc prev (a :: rest) := by
  unfold lastLoc
  cases rest with
  | nil => simp
  | cons b rest =>
    rw [List.getLast?_cons_cons]
    cases hl : (b :: rest).getLast? with
    | none => simp at hl
    | some p => rfl

/-- The `while` loop of `find` on a list without marked nodes: it passes the
nodes `rest`, whose keys are below `key`, and stops at the first node of `post`. -/
theorem findGo_walk (key : Int) (start : Loc) (tid hp g : Nat) (rest post : List Nat) :
    ∀ (s : OrderedList) (prev : Loc) (cur next : Nat),
      s.mm.WF → s.mm.valid hp → s.mm.K = NHPOINTER →
      s.mm.heap.path NodeType.next cur (rest ++ post) 0 →
      s.load prev = some cur →
      s.mm.slot hp 1 = some cur →
      (∀ a ∈ rest, ∀ n, s.mm.heap.cells a = some n → n.data < key) →
      (∀ c n, post.head? = some c → s.mm.heap.cells c = some n → key ≤ n.data) →
      ∃ mm' nx b, findGo key start tid hp (rest.length + 1 + g) s (some (prev, cur, next))
          = some ({ s with mm := mm' },
              { prev := some (lastLoc prev rest), cur := post.headD 0, next := nx, isFound := b },
              b) ∧
        SMR.SlotsOnly s.mm mm' ∧ mm'.thread_local = s.mm.thread_local ∧
        mm'.hprecs.length = s.mm.hprecs.length ∧
        mm'.slot hp 1 = some (post.headD 0) ∧
        (b = true ↔ ∃ c n, post.head? = some c ∧ s.mm.heap.cells c = some n ∧ n.data = key) ∧
        (∀ c n, post.head? = some c → s.mm.heap.cells c = some n → nx = n.next) := by
  induction rest with
  | nil =>
    intro s prev cur next hw hv hK hpath hload hslot _ hpost
    simp only [List.nil_append] at hpath
    rw [show ([] : List Nat).length + 1 + g = g + 1 by simp; omega]
    cases post with
    | nil =>
      have hc : cur = 0 := hpath
      subst hc
      refine ⟨s.mm, next, false, ?_, SMR.SlotsOnly.same_self _ hw, rfl, rfl, hslot, by simp, by simp⟩
      simp [findGo, lastLoc]
    | cons c post =>
      obtain ⟨e, n, hn, hr⟩ := hpath
      subst e
      have hc0 : cur ≠ 0 := by rintro rfl; rw [hw.heap.null] at hn; cases hn
      have hal := path_head_aligned _ hw.heap _ _ hr
      have hm : MARKED n.next = false := MARKED_aligned _ hal
      have hpt : POINTER n.next = n.next := POINTER_aligned _ hal
      have hkey : key ≤ n.data := hpost cur n rfl hn
      have hso := SMR.SlotsOnly.employ s.mm hw hp 0 n.next
      have hheap : (s.mm.employ hp 0 n.next).heap = s.mm.heap := SMR.employ_heap _ _ _ _
      refine ⟨s.mm.employ hp 0 n.next, n.next, decide (n.data = key), ?_, hso,
        SMR.employ_thread_local _ _ _ _, SMR.employ_length _ _ _ _, ?_, ?_, ?_⟩
      · simp only [findGo, hc0, if_false, Heap.read, hn, hm, hpt, hheap, ne_eq,
          not_true_eq_false, load_mm s _ hheap, hload, ge_iff_le, hkey, if_true, lastLoc,
          List.getLast?_nil, List.headD_cons]
      · rw [SMR.slot_employ_other _ _ _ _ _ (by decide), hslot]; rfl
      · simp only [decide_eq_true_eq, List.head?_cons, Option.some.injEq]
        constructor
        · intro h; exact ⟨cur, n, rfl, hn, h⟩
        · rintro ⟨c, m, rfl, hm', hk⟩
          rw [hn] at hm'; cases hm'; exact hk
      · intro c m hc hm'
        simp only [List.head?_cons, Option.some.injEq] at hc
        subst hc
        rw [hn] at hm'; cases hm'; rfl
  | cons a rest ih =>
    intro s prev cur next hw hv hK hpath hload hslot hrest hpost
    obtain ⟨e, n, hn, hr⟩ := hpath
    subst e
    have hc0 : cur ≠ 0 := by rintro rfl; rw [hw.heap.null] at hn; cases hn
    have hal := path_head_aligned _ hw.heap _ _ hr
    have hm : MARKED n.next = false := MARKED_aligned _ hal
    have hpt : POINTER n.next = n.next := POINTER_aligned _ hal
    have hkey : ¬ key ≤ n.data := not_le.mpr (hrest cur (by simp) n hn)
    have hso1 := SMR.SlotsOnly.employ s.mm hw hp 0 n.next
    have hheap1 : (s.mm.employ hp 0 n.next).heap = s.mm.heap := SMR.employ_heap _ _ _ _
    have hso2 := SMR.SlotsOnly.employ _ hso1.wf hp 1 n.next
    have hheap2 : ((s.mm.employ hp 0 n.next).employ hp 1 n.next).heap = s.mm.heap := by
      rw [SMR.employ_heap, hheap1]
    have hv1 : (s.mm.employ hp 0 n.next).valid hp :=
      SMR.valid_of_length _ _ _ hso1.len hv
    have hv2 : ((s.mm.employ hp 0 n.next).employ hp 1 n.next).valid hp :=
      SMR.valid_of_length _ _ _ hso2.len hv1
    obtain ⟨mm', nx, b, h1, h2, h3, h3', h4, h5, h6⟩ :=
      ih { s with mm := (s.mm.employ hp 0 n.next).employ hp 1 n.next } (.next cur) n.next n.next
        hso2.wf hv2 (by rw [hso2.K, hso1.K, hK])
        (by show Heap.path NodeType.next ((s.mm.employ hp 0 n.next).employ hp 1 n.next).heap _ _ _
            rw [hheap2]; exact hr)
        (by simp [load, Heap.read, hheap2, hn])
        (SMR.slot_employ_same _ hso1.wf hp 1 n.next hv1 (by rw [hso1.K, hK]; decide))
        (by intro x hx m hm'
            exact hrest x (by simp [hx]) m (by rw [← hm']; show _ = Heap.cells _ _; rw [hheap2]))
        (by intro c m hc hm'
            exact hpost c m hc (by rw [← hm']; show _ = Heap.cells _ _; rw [hheap2]))
    refine ⟨mm', nx, b, ?_, (hso1.comp hso2).comp h2, ?_, ?_, h4, ?_, ?_⟩
    · rw [show (cur :: rest).length + 1 + g = (rest.length + 1 + g) + 1 by simp; omega]
      simp only [findGo, hc0, if_false, Heap.read, hn, hm, hpt, hheap1, ne_eq,
        not_true_eq_false, load_mm s _ hheap1, hload, ge_iff_le, hkey, if_true]
      rw [h1, lastLoc_cons prev]
    · rw [h3]; show ((s.mm.employ hp 0 n.next).employ hp 1 n.next).thread_local = _
      rw [SMR.employ_thread_local, SMR.employ_thread_local]
    · rw [h3']; show ((s.mm.employ hp 0 n.next).employ hp 1 n.next).hprecs.length = _
      rw [SMR.employ_length, SMR.employ_length]
    · rw [h5]
      constructor
      · rintro ⟨c, m, hc, hm', hk⟩
        exact ⟨c, m, hc, by rw [← hm']; show _ = Heap.cells _ _; rw [hheap2], hk⟩
      · rintro ⟨c, m, hc, hm', hk⟩
        exact ⟨c, m, hc, by rw [← hm']; show Heap.cells _ _ = _; rw [hheap2], hk⟩
    · intro c m hc hm'
      exact h6 c m hc (by rw [← hm']; show Heap.cells _ _ = _; rw [hheap2])

end OrderedList

end Amino

namespace Amino

namespace Heap
variable {α : Type}

theorem path_append (nxt : α → Nat) (h : Heap α) (p : Nat) (l1 l2 : List Nat) (q : Nat) :
    path nxt h p (l1 ++ l2) q ↔ ∃ m, path nxt h p l1 m ∧ path nxt h m l2 q := by
  induction l1 generalizing p with
  | nil =>
    constructor
    · intro hp; exact ⟨p, rfl, hp⟩
    · rintro ⟨m, rfl, hp⟩; exact hp
  | cons a l1 ih =>
    constructor
    · rintro ⟨e, n, hn, hr⟩
      obtain ⟨m, h1, h2⟩ := (ih _).mp hr
      exact ⟨m, ⟨e, n, hn, h1⟩, h2⟩
    · rintro ⟨m, ⟨e, n, hn, h1⟩, h2⟩
      exact ⟨e, n, hn, (ih _).mpr ⟨m, h1, h2⟩⟩

/-- Redirecting the link of the last node of a path redirects the path. -/
theorem path_set_last (nxt : α → Nat) (h h' : Heap α) (p : Nat) (L : List Nat) (t q q' : Nat)
    (n' : α) (hp : path nxt h p (L ++ [t]) q) (hnd : (L ++ [t]).Nodup)
    (hf : ∀ b ∈ L, h'.cells b = h.cells b) (ht' : h'.cells t = some n') (hn' : nxt n' = q') :
    path nxt h' p (L ++ [t]) q' := by
  induction L generalizing p with
  | nil =>
    obtain ⟨e, n, hn, hr⟩ := hp
    exact ⟨e, n', ht', hn'⟩
  | cons x L ih =>
    obtain ⟨e, n, hn, hr⟩ := hp
    have hnd' := List.nodup_cons.mp hnd
    refine ⟨e, n, by rw [hf x (by simp)]; exact hn, ?_⟩
    exact ih _ hr hnd'.2 (fun b hb => hf b (by simp [hb]))

theorem path_last_next (nxt : α → Nat) (h : Heap α) (p : Nat) (L : List Nat) (t q : Nat)
    (hp : path nxt h p (L ++ [t]) q) : ∃ n, h.cells t = some n ∧ nxt n = q := by
  induction L generalizing p with
  | nil =>
    obtain ⟨e, n, hn, hr⟩ := hp
    exact ⟨n, hn, hr⟩
  | cons x L ih =>
    obtain ⟨e, n, hn, hr⟩ := hp
    exact ih _ hr

end Heap

namespace SMR
variable {α : Type}

theorem CellsOnly.cells_self (s : SMR α) (hw : s.WF) : CellsOnly s s := ⟨rfl, hw, fun _ => Iff.rfl⟩

theorem CellsOnly.seq {s s1 s2 : SMR α} (h1 : CellsOnly s s1) (h2 : CellsOnly s1 s2) :
    CellsOnly s s2 := by
  refine ⟨?_, h2.wf, fun q => (h2.alloc q).trans (h1.alloc q)⟩
  have e2 := h2.eq
  have e1 := h1.eq
  rw [e2]
  conv_lhs => rw [e1]

theorem CellsOnly.put (s : SMR α) (hw : s.WF) (p : Nat) (v : α) (hp : s.heap.cells p ≠ none) :
    CellsOnly s { s with heap := s.heap.put p (some v) } := by
  refine ⟨rfl, (put_spec s hw p v hp).1, ?_⟩
  intro q
  show (s.heap.put p (some v)).cells q ≠ none ↔ _
  rw [Heap.put_cells]
  by_cases hq : q = p
  · subst hq; simp [hp]
  · simp [hq]

theorem CellsOnly.allOwned {s s' : SMR α} (h : CellsOnly s s') : s'.allOwned = s.allOwned := by
  rw [h.eq]; rfl

theorem CellsOnly.live_eq {s s' : SMR α} (h : CellsOnly s s') (q : Nat) : s'.live q ↔ s.live q := by
  unfold SMR.live
  rw [h.allOwned, h.alloc]

theorem CellsOnly.thread_local {s s' : SMR α} (h : CellsOnly s s') :
    s'.thread_local = s.thread_local := by
  rw [h.eq]

theorem CellsOnly.K {s s' : SMR α} (h : CellsOnly s s') : s'.K = s.K := by
  rw [h.eq]

theorem CellsOnly.hprecs {s s' : SMR α} (h : CellsOnly s s') : s'.hprecs = s.hprecs := by
  rw [h.eq]

theorem CellsOnly.valid_eq {s s' : SMR α} (h : CellsOnly s s') (a : Nat) :
    s'.valid a ↔ s.valid a := by
  unfold SMR.valid
  rw [h.hprecs]

theorem CellsOnly.slot {s s' : SMR α} (h : CellsOnly s s') (hp i : Nat) :
    s'.slot hp i = s.slot hp i := by
  unfold SMR.slot SMR.getRec
  rw [h.hprecs]

end SMR

namespace OrderedList

theorem compare_swap_hit (s s1 : OrderedList) (loc : Loc) (expected desired : Nat)
    (hl : s.load loc = some expected) (hs : s.store desired loc = some s1) :
    s.compare_swap loc expected desired = some (s1, true) := by
  simp [compare_swap, hl, hs]

/-- Storing `v` into the location that follows the nodes `pre`. -/
theorem store_lastLoc (s : OrderedList) (pre : List Nat) (cur v : Nat) (hw : s.mm.WF)
    (hp : s.mm.heap.path NodeType.next s.head pre cur) (hnd : pre.Nodup) :
    s.load (lastLoc .head pre) = some cur ∧
    ∃ s', s.store v (lastLoc .head pre) = some s' ∧
      s'.mm.heap.path NodeType.next s'.head pre v ∧
      SMR.CellsOnly s.mm s'.mm ∧ s'.dummy = s.dummy ∧
      (∀ q, q ∉ pre → s'.mm.heap.cells q = s.mm.heap.cells q) ∧
      (∀ q, (s'.mm.heap.cells q).map NodeType.data = (s.mm.heap.cells q).map NodeType.data) := by
  rcases List.eq_nil_or_concat pre with rfl | ⟨L, t, rfl⟩
  · have hc : s.head = cur := hp
    refine ⟨by simp [lastLoc, load, hc], { s with head := v }, by simp [lastLoc, store], rfl,
      SMR.CellsOnly.cells_self _ hw, rfl, fun _ _ => rfl, fun _ => rfl⟩
  · rw [List.concat_eq_append] at hp hnd ⊢
    obtain ⟨n, hn, hnq⟩ := Heap.path_last_next _ _ _ _ _ _ hp
    have hlast : lastLoc .head (L ++ [t]) = .next t := by simp [lastLoc]
    rw [hlast]
    have htL : t ∉ L := by
      intro hc
      have := (List.nodup_append.mp hnd).2.2
      exact this hc (by simp)
    refine ⟨by simp [load, Heap.read, hn, hnq],
      { s with mm := { s.mm with heap := s.mm.heap.put t (some { n with next := v }) } },
      by simp [store, Heap.modify, hn], ?_, SMR.CellsOnly.put _ hw t _ (by rw [hn]; simp), rfl,
      ?_, ?_⟩
    · apply Heap.path_set_last NodeType.next s.mm.heap _ s.head L t cur v { n with next := v }
        hp hnd
      · intro b hb
        have : b ≠ t := by rintro rfl; exact htL hb
        simp [Heap.put_cells, this]
      · simp [Heap.put_cells]
      · rfl
    · intro q hq
      have : q ≠ t := by rintro rfl; exact hq (by simp)
      simp [Heap.put_cells, this]
    · intro q
      simp only [Heap.put_cells]
      split
      · rename_i h; subst h; simp [hn]
      · rfl

/-- `find` from `head` on a list without marked nodes. -/
theorem find_spec (g : Nat) (s : OrderedList) (tid : Nat) (key : Int) (pre post : List Nat)
    (hi : Inv s (pre ++ post))
    (hpre : ∀ a ∈ pre, ∀ n, s.mm.heap.cells a = some n → n.data < key)
    (hpost : ∀ c n, post.head? = some c → s.mm.heap.cells c = some n → key ≤ n.data) :
    ∃ mm' nx b, find (pre.length + 2 + g) s tid key .head
        = some ({ s with mm := mm' },
            { prev := some (lastLoc .head pre), cur := post.headD 0, next := nx, isFound := b },
            b) ∧
      SMR.SlotsOnly s.mm mm' ∧ mm'.thread_local tid = (s.mm.getHPRec tid).2 ∧
      mm'.valid (s.mm.getHPRec tid).2 ∧
      mm'.slot (s.mm.getHPRec tid).2 1 = some (post.headD 0) ∧
      (b = true ↔ ∃ c n, post.head? = some c ∧ s.mm.heap.cells c = some n ∧ n.data = key) ∧
      (∀ c n, post.head? = some c → s.mm.heap.cells c = some n → nx = n.next) := by
  obtain ⟨g1, g2, g3, g4⟩ := SMR.getHPRec_spec s.mm hi.wf tid
  have hso0 := SMR.SlotsOnly.getHPRec s.mm hi.wf tid
  generalize hmm1 : (s.mm.getHPRec tid).1 = mm1 at g1 g2 g3 g4 hso0
  generalize hhp : (s.mm.getHPRec tid).2 = hp at g2 g3
  have hal := path_head_aligned _ hi.wf.heap _ _ hi.path
  have hm : MARKED s.head = false := MARKED_aligned _ hal
  have hso1 := SMR.SlotsOnly.employ mm1 g1 hp 1 s.head
  have hheap1 : (mm1.employ hp 1 s.head).heap = s.mm.heap := by
    rw [SMR.employ_heap, g4.heap]
  have hv1 : (mm1.employ hp 1 s.head).valid hp := SMR.valid_of_length _ _ _ hso1.len g3
  have hK1 : (mm1.employ hp 1 s.head).K = NHPOINTER := by rw [hso1.K, hso0.K, hi.K]
  obtain ⟨mm', nx, b, h1, h2, h3, h3', h4, h5, h6⟩ :=
    findGo_walk key .head tid hp g pre post { s with mm := mm1.employ hp 1 s.head } .head s.head 0
      hso1.wf hv1 hK1
      (by show Heap.path NodeType.next (mm1.employ hp 1 s.head).heap _ _ _
          rw [hheap1]; exact hi.path)
      rfl
      (SMR.slot_employ_same _ g1 hp 1 s.head g3 (by rw [hso0.K, hi.K]; decide))
      (by intro a ha n hn
          exact hpre a ha n (by rw [← hn]; show _ = Heap.cells _ _; rw [hheap1]))
      (by intro c n hc hn
          exact hpost c n hc (by rw [← hn]; show _ = Heap.cells _ _; rw [hheap1]))
  refine ⟨mm', nx, b, ?_, (hso0.comp hso1).comp h2, ?_, ?_, h4, ?_, ?_⟩
  · unfold find
    rw [hmm1, hhp, show pre.length + 2 + g = (pre.length + 1 + g) + 1 by omega]
    simp only [findGo, load, hm, Bool.false_eq_true, if_false, ne_eq, not_true_eq_false]
    exact h1
  · rw [h3]; show (mm1.employ hp 1 s.head).thread_local tid = hp
    rw [SMR.employ_thread_local, g2]
  · exact SMR.valid_of_length _ _ _ (le_of_eq h3'.symm) hv1
  · rw [h5]
    constructor
    · rintro ⟨c, m, hc, hm', hk⟩
      exact ⟨c, m, hc, by rw [← hm']; show _ = Heap.cells _ _; rw [hheap1], hk⟩
    · rintro ⟨c, m, hc, hm', hk⟩
      exact ⟨c, m, hc, by rw [← hm']; show Heap.cells _ _ = _; rw [hheap1], hk⟩
  · intro c m hc hm'
    exact h6 c m hc (by rw [← hm']; show Heap.cells _ _ = _; rw [hheap1])

end OrderedList

end Amino

namespace Amino

namespace OrderedList

theorem keysOf_frame (h h' : Heap NodeType) (l : List Nat)
    (hf : ∀ a ∈ l, (h'.cells a).map NodeType.data = (h.cells a).map NodeType.data) :
    keysOf h' l = keysOf h l := by
  unfold keysOf
  apply List.map_congr_left
  intro a ha
  have := hf a ha
  cases h1 : h'.cells a <;> cases h2 : h.cells a <;> simp [h1, h2] at this ⊢
  exact this

theorem keysOf_append (h : Heap NodeType) (l1 l2 : List Nat) :
    keysOf h (l1 ++ l2) = keysOf h l1 ++ keysOf h l2 := by
  simp [keysOf]

theorem mem_keysOf (h : Heap NodeType) (l : List Nat) (hal : ∀ a ∈ l, h.cells a ≠ none)
    (k : Int) : k ∈ keysOf h l ↔ ∃ a n, a ∈ l ∧ h.cells a = some n ∧ n.data = k := by
  unfold keysOf
  simp only [List.mem_map]
  constructor
  · rintro ⟨a, ha, hk⟩
    cases hc : h.cells a with
    | none => exact absurd hc (hal a ha)
    | some n => rw [hc] at hk; exact ⟨a, n, ha, hc, hk⟩
  · rintro ⟨a, n, ha, hc, hk⟩
    exact ⟨a, ha, by rw [hc]; exact hk⟩

theorem Inv.alloc {s : OrderedList} {l : List Nat} (hi : Inv s l) :
    ∀ a ∈ l, s.mm.heap.cells a ≠ none := fun a ha => (hi.live a ha).1

theorem Inv.slots {s : OrderedList} {l : List Nat} (hi : Inv s l) (mm' : SMR NodeType)
    (h : SMR.SlotsOnly s.mm mm') : Inv { s with mm := mm' } l := by
  refine ⟨h.wf, by rw [← hi.K]; exact h.K, ?_, ?_, hi.nodup,
    fun a ha => (h.same.live a).mpr (hi.live a ha)⟩
  · show Heap.path NodeType.next mm'.heap s.head l 0
    rw [h.same.heap]; exact hi.path
  · show (keysOf mm'.heap l).Pairwise _
    rw [h.same.heap]; exact hi.sorted

theorem retireAll_slots (s : OrderedList) (hw : s.mm.WF) (hp : Nat) :
    SMR.SlotsOnly s.mm (s.retireAll hp).mm := by
  have h1 := SMR.SlotsOnly.retire s.mm hw hp 0
  have h2 := SMR.SlotsOnly.retire _ h1.wf hp 1
  have h3 := SMR.SlotsOnly.retire _ h2.wf hp 2
  exact (h1.comp h2).comp h3

theorem retireAll_eq (s : OrderedList) (hp : Nat) :
    s.retireAll hp = { s with mm := (s.retireAll hp).mm } := rfl

/-- The split of a sorted list of nodes at a key. -/
theorem split_at_key (h : Heap NodeType) (l : List Nat) (key : Int)
    (hal : ∀ a ∈ l, h.cells a ≠ none) :
    ∃ pre post, l = pre ++ post ∧
      (∀ a ∈ pre, ∀ n, h.cells a = some n → n.data < key) ∧
      (∀ c n, post.head? = some c → h.cells c = some n → key ≤ n.data) := by
  induction l with
  | nil => exact ⟨[], [], rfl, by simp, by simp⟩
  | cons a l ih =>
    obtain ⟨pre, post, h1, h2, h3⟩ := ih (fun b hb => hal b (by simp [hb]))
    cases hc : h.cells a with
    | none => exact absurd hc (hal a (by simp))
    | some n =>
      by_cases hk : n.data < key
      · refine ⟨a :: pre, post, by simp [h1], ?_, h3⟩
        intro b hb m hm
        simp only [List.mem_cons] at hb
        rcases hb with rfl | hb
        · rw [hc] at hm; cases hm; exact hk
        · exact h2 b hb m hm
      · refine ⟨[], a :: l, rfl, by simp, ?_⟩
        intro c m hcm hm
        simp only [List.head?_cons, Option.some.injEq] at hcm
        subst hcm
        rw [hc] at hm; cases hm
        exact not_lt.mp hk

/-- In a sorted list, every key after the first node is above the first key. -/
theorem sorted_tail_gt (h : Heap NodeType) (c : Nat) (post : List Nat) (n : NodeType)
    (hc : h.cells c = some n) (hs : (keysOf h (c :: post)).Pairwise (· < ·)) :
    ∀ k ∈ keysOf h post, n.data < k := by
  intro k hk
  have h0 : keysOf h (c :: post) = n.data :: keysOf h post := by
    simp [keysOf, hc]
  rw [h0] at hs
  exact (List.pairwise_cons.mp hs).1 k hk

end OrderedList

end Amino

namespace Amino

namespace OrderedList

theorem found_iff (h : Heap NodeType) (pre post : List Nat) (key : Int)
    (hal : ∀ a ∈ pre ++ post, h.cells a ≠ none)
    (hs : (keysOf h (pre ++ post)).Pairwise (· < ·))
    (hpre : ∀ a ∈ pre, ∀ n, h.cells a = some n → n.data < key)
    (hpost : ∀ c n, post.head? = some c → h.cells c = some n → key ≤ n.data) :
    (∃ c n, post.head? = some c ∧ h.cells c = some n ∧ n.data = key)
      ↔ key ∈ keysOf h (pre ++ post) := by
  constructor
  · rintro ⟨c, n, hc, hn, hk⟩
    rw [mem_keysOf h _ hal]
    refine ⟨c, n, ?_, hn, hk⟩
    cases post with
    | nil => simp at hc
    | cons x post => simp at hc; subst hc; simp
  · intro hk
    rw [mem_keysOf h _ hal] at hk
    obtain ⟨a, n, ha, hn, hk⟩ := hk
    rw [List.mem_append] at ha
    rcases ha with ha | ha
    · have := hpre a ha n hn
      omega
    · cases post with
      | nil => simp at ha
      | cons c post =>
        have hcal : h.cells c ≠ none := hal c (by simp)
        cases hcc : h.cells c with
        | none => exact absurd hcc hcal
        | some m =>
          have hge := hpost c m rfl hcc
          simp only [List.mem_cons] at ha
          rcases ha with rfl | ha
          · rw [hn] at hcc; cases hcc
            exact ⟨a, n, rfl, hn, hk⟩
          · have hs2 : (keysOf h (c :: post)).Pairwise (· < ·) := by
              rw [keysOf_append] at hs
              exact (List.pairwise_append.mp hs).2.1
            have := sorted_tail_gt h c post m hcc hs2 n.data (by
              rw [mem_keysOf h _ (fun b hb => hal b (by simp [hb]))]
              exact ⟨a, n, ha, hn, rfl⟩)
            omega

/-- The loop of `add` when `node` is a live node holding `e` that is not in the list. -/
theorem addLoop_spec (g tid : Nat) (e : Int) (s : OrderedList) (l : List Nat) (a x : Nat)
    (hi : Inv s l) (ha : s.mm.live a) (hal : a ∉ l)
    (hcell : s.mm.heap.cells a = some { data := e, next := x }) :
    ∃ s' b l', addLoop e .head tid a (l.length + 2 + g) s = some (s', b) ∧ Inv s' l' ∧
      (b = true ↔ e ∉ keysOf s.mm.heap l) ∧
      (∀ j, j ∈ keysOf s'.mm.heap l' ↔ j = e ∨ j ∈ keysOf s.mm.heap l) ∧
      (b = false → l' = l ∧ s'.head = s.head ∧
        ∀ q ∈ l, s'.mm.heap.cells q = s.mm.heap.cells q) ∧
      s'.dummy = s.dummy ∧ l'.length ≤ l.length + 1 := by
  obtain ⟨pre, post, hl, hpre, hpost⟩ := split_at_key s.mm.heap l e hi.alloc
  subst hl
  have hfuel : (pre ++ post).length + 2 + g = (pre.length + 2 + (post.length + g) - 1) + 1 := by
    simp; omega
  have hfuel2 : pre.length + 2 + (post.length + g) - 1 + 1 = pre.length + 2 + (post.length + g) := by
    omega
  obtain ⟨mm', nx, b, h1, h2, h3, h4, h5, h6, h7⟩ :=
    find_spec (post.length + g) s tid e pre post hi hpre hpost
  have hfi := found_iff s.mm.heap pre post e hi.alloc hi.sorted hpre hpost
  have hi1 : Inv { s with mm := mm' } (pre ++ post) := hi.slots mm' h2
  have ha1 : mm'.live a := (h2.same.live a).mpr ha
  have hheap1 : mm'.heap = s.mm.heap := h2.same.heap
  rw [hfuel]
  unfold addLoop
  rw [hfuel2, h1]
  cases b with
  | true =>
    have hmem : e ∈ keysOf s.mm.heap (pre ++ post) := hfi.mp (h6.mp rfl)
    obtain ⟨d1, d2, d3, d4⟩ := SMR.delete_spec mm' h2.wf a ha1
    have hcells : ∀ q ∈ pre ++ post, (mm'.heap.free a).cells q = s.mm.heap.cells q := by
      intro q hq
      have : q ≠ a := by rintro rfl; exact hal hq
      rw [d4 q this, hheap1]
    refine ⟨_, false, pre ++ post, rfl, ?_, by simp [hmem], ?_, fun _ => ⟨rfl, rfl, hcells⟩, rfl, by simp⟩
    · refine ⟨d1, by rw [← hi.K]; exact h2.K, ?_, ?_, hi.nodup, ?_⟩
      · exact Heap.path_frame _ s.mm.heap _ _ _ _ hcells hi.path
      · show (keysOf (mm'.heap.free a) _).Pairwise _
        rw [keysOf_frame s.mm.heap _ _ (fun q hq => by rw [hcells q hq])]
        exact hi.sorted
      · intro q hq
        have : q ≠ a := by rintro rfl; exact hal hq
        exact (d3 q this).mpr ((h2.same.live q).mpr (hi.live q hq))
    · intro j
      show j ∈ keysOf (mm'.heap.free a) _ ↔ _
      rw [keysOf_frame s.mm.heap _ _ (fun q hq => by rw [hcells q hq])]
      constructor
      · exact Or.inr
      · rintro (rfl | h)
        · exact hmem
        · exact h
  | false =>
    have hnmem : e ∉ keysOf s.mm.heap (pre ++ post) := by
      intro hc
      have := h6.mpr (hfi.mpr hc)
      cases this
    -- the pointer `cur`
    obtain ⟨m, hp1, hp2⟩ := (Heap.path_append _ _ _ _ _ _).mp hi.path
    have hcur : m = post.headD 0 := path_head_eq _ _ _ hp2
    have hcal : ALIGN ∣ post.headD 0 := hcur ▸ path_head_aligned _ hi.wf.heap _ _ hp2
    have haal : ALIGN ∣ a := hi.wf.heap.aligned a ha.1
    have hcell1 : mm'.heap.cells a = some { data := e, next := x } := by rw [hheap1, hcell]
    simp only [Heap.modify, hcell1, POINTER_aligned _ hcal, POINTER_aligned _ haal]
    -- the state after `node->next.store`
    have hco1 := SMR.CellsOnly.put mm' h2.wf a { data := e, next := post.headD 0 }
      (by rw [hcell1]; simp)
    generalize hmm6 : ({ mm' with heap := (mm'.heap.put a
      (some ({ data := e, next := post.headD 0 } : NodeType))) } : SMR NodeType) = mm6 at hco1
    have hheap6 : ∀ q, mm6.heap.cells q
        = if q = a then some { data := e, next := post.headD 0 } else s.mm.heap.cells q := by
      intro q; rw [← hmm6]; show (mm'.heap.put a _).cells q = _
      rw [Heap.put_cells, hheap1]
    have hnd := List.nodup_append.mp hi.nodup
    have hp6 : mm6.heap.path NodeType.next s.head pre (post.headD 0) := by
      apply Heap.path_frame _ s.mm.heap _ _ _ _ _ (hcur ▸ hp1)
      intro q hq
      have : q ≠ a := by rintro rfl; exact hal (by simp [hq])
      rw [hheap6, if_neg this]
    obtain ⟨hload, s7, hstore, hpath7, hco7, hdummy7, hout7, hdata7⟩ :=
      store_lastLoc { head := s.head, dummy := s.dummy, mm := mm6 } pre (post.headD 0) a
        hco1.wf hp6 hnd.1
    rw [compare_swap_hit _ s7 _ _ _ hload hstore]
    simp only
    have hco := hco1.seq hco7
    have hapre : a ∉ pre := fun hc => hal (by simp [hc])
    have hapost : a ∉ post := fun hc => hal (by simp [hc])
    have hcell7 : s7.mm.heap.cells a = some { data := e, next := post.headD 0 } := by
      rw [hout7 a hapre]; show mm6.heap.cells a = _
      rw [hheap6, if_pos rfl]
    have hpost7 : ∀ q ∈ post, s7.mm.heap.cells q = s.mm.heap.cells q := by
      intro q hq
      have hqa : q ≠ a := by rintro rfl; exact hapost hq
      have hqp : q ∉ pre := fun hc => hnd.2.2 hc hq
      rw [hout7 q hqp]; show mm6.heap.cells q = _
      rw [hheap6, if_neg hqa]
    have hdata : ∀ q, q ≠ a → (s7.mm.heap.cells q).map NodeType.data
        = (s.mm.heap.cells q).map NodeType.data := by
      intro q hqa
      rw [hdata7 q]; show (mm6.heap.cells q).map _ = _
      rw [hheap6, if_neg hqa]
    have hkeys : keysOf s7.mm.heap (pre ++ a :: post)
        = keysOf s.mm.heap pre ++ e :: keysOf s.mm.heap post := by
      rw [keysOf_append]
      congr 1
      · exact keysOf_frame _ _ _ (fun q hq => hdata q (by rintro rfl; exact hapre hq))
      · have : keysOf s7.mm.heap (a :: post) = e :: keysOf s7.mm.heap post := by
          simp [keysOf, hcell7]
        rw [this]
        congr 1
        exact keysOf_frame _ _ _ (fun q hq => hdata q (by rintro rfl; exact hapost hq))
    have hlive7 : ∀ q, s7.mm.live q ↔ s.mm.live q := by
      intro q
      rw [hco.live_eq q, h2.same.live q]
    refine ⟨s7, true, pre ++ a :: post, rfl, ?_, by simp [hnmem], ?_, by simp, hdummy7, by simp; omega⟩
    · refine ⟨hco.wf, by rw [hco.K, h2.K, hi.K], ?_, ?_, ?_, ?_⟩
      · rw [Heap.path_append]
        refine ⟨a, hpath7, rfl, _, hcell7, ?_⟩
        exact Heap.path_frame _ s.mm.heap _ _ _ _ hpost7 (hcur ▸ hp2)
      · rw [hkeys]
        have hs := hi.sorted
        rw [keysOf_append, List.pairwise_append] at hs
        rw [List.pairwise_append]
        refine ⟨hs.1, ?_, ?_⟩
        · rw [List.pairwise_cons]
          refine ⟨?_, hs.2.1⟩
          intro k hk
          cases post with
          | nil => simp [keysOf] at hk
          | cons c post =>
            have hcal' : s.mm.heap.cells c ≠ none := hi.alloc c (by simp)
            cases hcc : s.mm.heap.cells c with
            | none => exact absurd hcc hcal'
            | some nc =>
              have hge := hpost c nc rfl hcc
              have hne : nc.data ≠ e := by
                intro heq
                have := h6.mpr ⟨c, nc, rfl, hcc, heq⟩
                cases this
              have hk' : k = nc.data ∨ k ∈ keysOf s.mm.heap post := by
                simpa [keysOf, hcc] using hk
              rcases hk' with rfl | hk'
              · omega
              · have := sorted_tail_gt s.mm.heap c post nc hcc hs.2.1 k hk'
                omega
        · intro k1 hk1 k2 hk2
          simp only [List.mem_cons] at hk2
          rcases hk2 with rfl | hk2
          · rw [mem_keysOf _ _ (fun q hq => hi.alloc q (by simp [hq]))] at hk1
            obtain ⟨q, nq, hq, hnq, rfl⟩ := hk1
            exact hpre q hq nq hnq
          · exact hs.2.2 k1 hk1 k2 hk2
      · rw [List.nodup_append]
        refine ⟨hnd.1, List.nodup_cons.mpr ⟨hapost, hnd.2.1⟩, ?_⟩
        intro q hq1 hq2
        simp only [List.mem_cons] at hq2
        rcases hq2 with rfl | hq2
        · exact hapre hq1
        · exact hnd.2.2 hq1 hq2
      · intro q hq
        rw [hlive7]
        simp only [List.mem_append, List.mem_cons] at hq
        rcases hq with hq | rfl | hq
        · exact hi.live q (by simp [hq])
        · exact ha
        · exact hi.live q (by simp [hq])
    · intro j
      rw [hkeys, keysOf_append]
      simp only [List.mem_append, List.mem_cons]
      tauto

end OrderedList

end Amino

namespace Amino

namespace OrderedList

/-- `add` from `head`: set semantics on the sorted list. -/
theorem add_spec (g tid : Nat) (e : Int) (s : OrderedList) (l : List Nat) (hi : Inv s l) :
    ∃ s' b l', add (l.length + 2 + g) s tid e .head = some (s', b) ∧ Inv s' l' ∧
      (b = true ↔ e ∉ keysOf s.mm.heap l) ∧
      (∀ j, j ∈ keysOf s'.mm.heap l' ↔ j = e ∨ j ∈ keysOf s.mm.heap l) ∧
      (b = false → l' = l ∧ s'.head = s.head ∧
        ∀ q ∈ l, s'.mm.heap.cells q = s.mm.heap.cells q) ∧
      s'.dummy = s.dummy ∧ l'.length ≤ l.length + 1 := by
  have hso1 := SMR.SlotsOnly.getHPRec s.mm hi.wf tid
  obtain ⟨g1, g2, g3, g4⟩ := SMR.getHPRec_spec s.mm hi.wf tid
  generalize hmm1 : (s.mm.getHPRec tid).1 = mm1 at g1 g2 g3 g4 hso1
  generalize hhp1 : (s.mm.getHPRec tid).2 = hp1 at g2 g3
  obtain ⟨mm2, a, hnew, hw2, hf⟩ := SMR.newNode_spec mm1 g1 hp1 g3
  have hal : a ∉ l := fun hc => hf.dead ((g4.live a).mpr (hi.live a hc))
  have hcell : mm2.heap.cells a = some { data := 0, next := 0 } := hf.cell
  have hco := SMR.CellsOnly.put mm2 hw2 a { data := e, next := 0 } (by rw [hcell]; simp)
  generalize hmm3 : ({ mm2 with heap := (mm2.heap.put a
      (some ({ data := e, next := 0 } : NodeType))) } : SMR NodeType) = mm3 at hco
  have hheap3 : ∀ q, mm3.heap.cells q
      = if q = a then some { data := e, next := 0 } else s.mm.heap.cells q := by
    intro q; rw [← hmm3]; show (mm2.heap.put a _).cells q = _
    rw [Heap.put_cells]
    split
    · rfl
    · rename_i hq; rw [hf.cells q hq, g4.heap]
  have hso4 := SMR.SlotsOnly.getHPRec mm3 hco.wf tid
  generalize hmm4 : (mm3.getHPRec tid).1 = mm4 at hso4
  generalize hhp : (mm3.getHPRec tid).2 = hp
  have hheap4 : ∀ q, mm4.heap.cells q
      = if q = a then some { data := e, next := 0 } else s.mm.heap.cells q := by
    intro q; rw [hso4.same.heap]; exact hheap3 q
  have hlive4 : ∀ q, q ≠ a → (mm4.live q ↔ s.mm.live q) := by
    intro q hq
    rw [hso4.same.live, hco.live_eq, hf.lives q hq, g4.live]
  have hcells4 : ∀ q ∈ l, mm4.heap.cells q = s.mm.heap.cells q := by
    intro q hq
    have : q ≠ a := by rintro rfl; exact hal hq
    rw [hheap4, if_neg this]
  have hi4 : Inv { s with mm := mm4 } l := by
    refine ⟨hso4.wf, by rw [hso4.K, hco.K, hf.K, hso1.K, hi.K], ?_, ?_, hi.nodup, ?_⟩
    · exact Heap.path_frame _ s.mm.heap _ _ _ _ hcells4 hi.path
    · show (keysOf mm4.heap l).Pairwise _
      rw [keysOf_frame s.mm.heap _ _ (fun q hq => by rw [hcells4 q hq])]
      exact hi.sorted
    · intro q hq
      have : q ≠ a := by rintro rfl; exact hal hq
      exact (hlive4 q this).mpr (hi.live q hq)
  have ha4 : mm4.live a := by
    rw [hso4.same.live, hco.live_eq]; exact hf.live
  obtain ⟨s5, b, l', h1, h2, h3, h4, h5, h6, h7⟩ :=
    addLoop_spec g tid e { s with mm := mm4 } l a 0 hi4 ha4 hal (by
      show mm4.heap.cells a = _
      rw [hheap4, if_pos rfl])
  have hkeys4 : keysOf mm4.heap l = keysOf s.mm.heap l :=
    keysOf_frame s.mm.heap _ _ (fun q hq => by rw [hcells4 q hq])
  have hso6 := retireAll_slots s5 h2.wf hp
  refine ⟨s5.retireAll hp, b, l', ?_, ?_, ?_, ?_, ?_, h6, h7⟩
  · unfold add
    rw [hmm1, hhp1]
    simp only [hnew, Heap.modify, hcell]
    rw [hmm3, hmm4, hhp, h1]
  · exact h2.slots _ hso6
  · rw [h3]; show _ ∉ keysOf mm4.heap l ↔ _
    rw [hkeys4]
  · intro j
    show j ∈ keysOf (s5.retireAll hp).mm.heap l' ↔ _
    rw [hso6.same.heap, h4 j]
    show _ ∨ j ∈ keysOf mm4.heap l ↔ _
    rw [hkeys4]
  · intro hb
    obtain ⟨k1, k2, k3⟩ := h5 hb
    refine ⟨k1, k2, ?_⟩
    intro q hq
    show (s5.retireAll hp).mm.heap.cells q = _
    rw [hso6.same.heap, k3 q hq]
    exact hcells4 q hq

/-- `search` on the sorted list. -/
theorem search_spec (g tid : Nat) (e : Int) (s : OrderedList) (l : List Nat) (hi : Inv s l) :
    ∃ s', search (l.length + 2 + g) s tid e = some (s', decide (e ∈ keysOf s.mm.heap l)) ∧
      Inv s' l ∧ s'.head = s.head ∧ s'.mm.heap = s.mm.heap ∧ s'.dummy = s.dummy := by
  obtain ⟨pre, post, hl, hpre, hpost⟩ := split_at_key s.mm.heap l e hi.alloc
  subst hl
  obtain ⟨mm', nx, b, h1, h2, h3, h4, h5, h6, h7⟩ :=
    find_spec (post.length + g) s tid e pre post hi hpre hpost
  have hfi := found_iff s.mm.heap pre post e hi.alloc hi.sorted hpre hpost
  have hso3 := SMR.SlotsOnly.getHPRec mm' h2.wf tid
  have hso4 := retireAll_slots { s with mm := (mm'.getHPRec tid).1 } hso3.wf (mm'.getHPRec tid).2
  have hso := (h2.comp hso3).comp hso4
  refine ⟨({ s with mm := (mm'.getHPRec tid).1 } : OrderedList).retireAll (mm'.getHPRec tid).2,
    ?_, hi.slots _ hso, rfl, hso.same.heap, rfl⟩
  unfold search
  rw [show (pre ++ post).length + 2 + g = pre.length + 2 + (post.length + g) by simp; omega, h1]
  simp only [Option.some.injEq, Prod.mk.injEq, true_and]
  rw [Bool.eq_iff_iff, h6, hfi]
  simp

end OrderedList

end Amino

namespace Amino

namespace SMR
variable {α : Type}

theorem hazards_setRec (s : SMR α) (a : Nat) (r r' : HPRecType) (hg : s.getRec a = some r)
    (hh : r'.hp = r.hp) : hazards (s.setRec a r').hprecs = hazards s.hprecs := by
  obtain ⟨l1, l2, h1, h2⟩ := getRec_decomp s a r hg
  subst h2
  rw [setRec_of_decomp s l1 l2 r r' h1, h1]
  simp [hazards, List.flatMap_append, List.flatMap_cons, hh]

theorem mem_hazards_of_slot (s : SMR α) (hp i p : Nat) (hs : s.slot hp i = some p)
    (hp0 : p ≠ 0) : p ∈ hazards s.hprecs := by
  unfold slot at hs
  cases hg : s.getRec hp with
  | none => rw [hg] at hs; cases hs
  | some r =>
    rw [hg] at hs
    simp only at hs
    have hm := getRec_mem s hp r hg
    unfold hazards
    rw [List.mem_flatMap]
    refine ⟨r, hm, ?_⟩
    rw [List.mem_filter]
    exact ⟨(List.mem_iff_getElem?.mpr ⟨i, hs⟩), by simpa using hp0⟩

theorem scan_some_rlist (s s' : SMR α) (tid : Nat) (r : HPRecType)
    (hg : s.getRec (s.thread_local tid) = some r) (hs : s.scan tid = some s') :
    ∃ r', s'.getRec (s.thread_local tid) = some r' ∧
      r'.rlist = (r.rlist.filter (fun d => decide (d ∈ hazards s.hprecs))).reverse := by
  unfold scan at hs
  rw [hg] at hs
  cases hh : s.hprecs.head? with
  | none => rw [hh] at hs; simp at hs
  | some head =>
    rw [hh] at hs
    simp only at hs
    split at hs
    · simp only [Option.some.injEq] at hs
      subst hs
      refine ⟨_, getRec_setRec _ _ r _ hg, ?_⟩
      simp only [scanLoop_eq, binary_search_plist]
      simp
    · cases hs

/-- A node held in a hazard slot when it is handed to `delNode` is in the
retired list of the calling record afterwards. -/
theorem delNode_rlist (s s' : SMR α) (tid hp p : Nat) (r : HPRecType)
    (hg : s.getRec hp = some r) (htl : s.thread_local tid = hp)
    (hz : p ∈ hazards s.hprecs) (hd : s.delNode tid hp p = some s') :
    ∃ r', s'.getRec hp = some r' ∧ p ∈ r'.rlist := by
  unfold delNode at hd
  rw [hg] at hd
  simp only at hd
  cases ha : r.allocSMRNode with
  | none => rw [ha] at hd; cases hd
  | some r1 =>
    rw [ha] at hd
    simp only at hd
    have hr1 : r1.hp = r.hp := by
      unfold HPRecType.allocSMRNode at ha
      split at ha
      · cases ha; rfl
      · split at ha
        · cases ha
        · cases ha; rfl
    generalize hr2 : ({ r1 with rlist := p :: r1.rlist, rcount := r1.rcount + 1 } : HPRecType) = r2
      at hd
    have hr2h : r2.hp = r.hp := by rw [← hr2]; exact hr1
    have hr2l : p ∈ r2.rlist := by rw [← hr2]; simp
    have hg1 := getRec_setRec s hp r r2 hg
    have htl1 : (s.setRec hp r2).thread_local tid = hp := by
      rw [← htl]; unfold setRec; split <;> rfl
    split at hd
    · obtain ⟨r', h1, h2⟩ := scan_some_rlist _ s' tid r2 (by rw [htl1]; exact hg1) hd
      rw [htl1] at h1
      refine ⟨r', h1, ?_⟩
      rw [h2, List.mem_reverse, List.mem_filter]
      refine ⟨hr2l, ?_⟩
      rw [hazards_setRec s hp r _ hg hr2h]
      simpa using hz
    · simp only [Option.some.injEq] at hd
      subst hd
      exact ⟨_, hg1, hr2l⟩

theorem retire_rlist (s : SMR α) (hp i : Nat) (r : HPRecType) (hg : s.getRec hp = some r) :
    ∃ r', (s.retire hp i).getRec hp = some r' ∧ r'.rlist = r.rlist := by
  unfold SMR.retire
  rw [hg]
  exact ⟨_, getRec_setRec s hp r _ hg, rfl⟩

end SMR

namespace OrderedList

theorem retireAll_rlist (s : OrderedList) (hp : Nat) (r : HPRecType)
    (hg : s.mm.getRec hp = some r) :
    ∃ r', (s.retireAll hp).mm.getRec hp = some r' ∧ r'.rlist = r.rlist := by
  obtain ⟨r1, h1, e1⟩ := SMR.retire_rlist s.mm hp 0 r hg
  obtain ⟨r2, h2, e2⟩ := SMR.retire_rlist _ hp 1 r1 h1
  obtain ⟨r3, h3, e3⟩ := SMR.retire_rlist _ hp 2 r2 h2
  exact ⟨r3, h3, by rw [e3, e2, e1]⟩

end OrderedList

end Amino

namespace Amino

namespace OrderedList

/-- The loop of `remove` run by a thread that has its hazard-pointer record. -/
theorem removeLoop_spec (g tid hp : Nat) (e : Int) (s : OrderedList) (l : List Nat)
    (hi : Inv s l) (htl : s.mm.thread_local tid = hp) (hv : s.mm.valid hp) :
    ∃ s' b l', removeLoop e .head tid hp (l.length + 2 + g) s = some (s', b) ∧ Inv s' l' ∧
      (b = true ↔ e ∈ keysOf s.mm.heap l) ∧
      (∀ j, j ∈ keysOf s'.mm.heap l' ↔ j ≠ e ∧ j ∈ keysOf s.mm.heap l) ∧
      (b = false → l' = l ∧ s'.head = s.head ∧ s'.mm.heap = s.mm.heap) ∧
      (b = true → ∃ c n r, c ∈ l ∧ c ∉ l' ∧ s.mm.heap.cells c = some n ∧ n.data = e ∧
        ¬ s'.mm.live c ∧ s'.mm.getRec hp = some r ∧ c ∈ r.rlist) ∧
      s'.dummy = s.dummy ∧ s'.mm.thread_local tid = hp ∧ s'.mm.valid hp ∧
      l'.length ≤ l.length := by
  obtain ⟨pre, post, hl, hpre, hpost⟩ := split_at_key s.mm.heap l e hi.alloc
  subst hl
  have hfuel : (pre ++ post).length + 2 + g = (pre.length + 2 + (post.length + g) - 1) + 1 := by
    simp; omega
  have hfuel2 : pre.length + 2 + (post.length + g) - 1 + 1 = pre.length + 2 + (post.length + g) := by
    omega
  obtain ⟨mm', nx, b, h1, h2, h3, h4, h5, h6, h7⟩ :=
    find_spec (post.length + g) s tid e pre post hi hpre hpost
  have hgh : (s.mm.getHPRec tid).2 = hp := by rw [SMR.getHPRec_of_tl s.mm tid hp htl hv.1]
  rw [hgh] at h3 h4 h5
  have hfi := found_iff s.mm.heap pre post e hi.alloc hi.sorted hpre hpost
  have hi1 : Inv { s with mm := mm' } (pre ++ post) := hi.slots mm' h2
  have hheap1 : mm'.heap = s.mm.heap := h2.same.heap
  rw [hfuel]
  unfold removeLoop
  rw [hfuel2, h1]
  cases b with
  | false =>
    have hnmem : e ∉ keysOf s.mm.heap (pre ++ post) := by
      intro hc
      have := h6.mpr (hfi.mpr hc)
      cases this
    refine ⟨_, false, pre ++ post, rfl, hi1, by simp [hnmem], ?_, fun _ => ⟨rfl, rfl, hheap1⟩,
      by simp, rfl, h3, h4, le_refl _⟩
    intro j
    show j ∈ keysOf mm'.heap _ ↔ _
    rw [hheap1]
    constructor
    · intro hj
      exact ⟨by rintro rfl; exact hnmem hj, hj⟩
    · exact fun hj => hj.2
  | true =>
    obtain ⟨c, n, hc, hcn, hk⟩ := h6.mp rfl
    have hmem : e ∈ keysOf s.mm.heap (pre ++ post) := hfi.mp ⟨c, n, hc, hcn, hk⟩
    cases post with
    | nil => simp at hc
    | cons c' post =>
    simp only [List.head?_cons, Option.some.injEq] at hc
    subst hc
    have hnx : nx = n.next := h7 c' n rfl hcn
    subst hnx
    subst hk
    obtain ⟨m, hp1, hp2⟩ := (Heap.path_append _ _ _ _ _ _).mp hi.path
    obtain ⟨hm, n', hn', hp3⟩ := hp2
    subst hm
    rw [hcn] at hn'
    cases hn'
    have hnd := List.nodup_append.mp hi.nodup
    have hcpre : m ∉ pre := fun hc => hnd.2.2 hc (by simp)
    have hcpost : m ∉ post := (List.nodup_cons.mp hnd.2.1).1
    have hlivec : s.mm.live m := hi.live m (by simp)
    have hcal : ALIGN ∣ m := hi.wf.heap.aligned m hlivec.1
    have hnal : ALIGN ∣ n.next := path_head_aligned _ hi.wf.heap _ _ hp3
    have hc0 : m ≠ 0 := SMR.live_ne_zero _ hi.wf m hlivec
    have hcell1 : mm'.heap.cells m = some n := by rw [hheap1, hcn]
    simp only [List.headD_cons, MARKED_aligned _ hcal, MARKED_aligned _ hnal]
    -- the mark
    have hco1 := SMR.CellsOnly.put mm' h2.wf m { n with next := MARK n.next }
      (by rw [hcell1]; simp)
    generalize hmm2 : ({ mm' with heap := (mm'.heap.put m
      (some ({ n with next := MARK n.next } : NodeType))) } : SMR NodeType) = mm2 at hco1
    have hheap2 : ∀ q, mm2.heap.cells q
        = if q = m then some { n with next := MARK n.next } else s.mm.heap.cells q := by
      intro q; rw [← hmm2]; show (mm'.heap.put m _).cells q = _
      rw [Heap.put_cells, hheap1]
    have hcas1 : ({ s with mm := mm' } : OrderedList).compare_swap (.next m) n.next (MARK n.next)
        = some ({ s with mm := mm2 }, true) := by
      apply compare_swap_hit
      · simp [load, Heap.read, hcell1]
      · simp [store, Heap.modify, hcell1, hmm2]
    rw [hcas1]
    simp only [Bool.false_eq_true, if_false]
    -- the unlink
    have hp6 : mm2.heap.path NodeType.next s.head pre m := by
      apply Heap.path_frame _ s.mm.heap _ _ _ _ _ hp1
      intro q hq
      have : q ≠ m := by rintro rfl; exact hcpre hq
      rw [hheap2, if_neg this]
    obtain ⟨hload, s3, hstore, hpath3, hco3, hdummy3, hout3, hdata3⟩ :=
      store_lastLoc { head := s.head, dummy := s.dummy, mm := mm2 } pre m n.next
        hco1.wf hp6 hnd.1
    rw [compare_swap_hit _ s3 _ _ _ hload hstore]
    simp only
    have hco := hco1.seq hco3
    have htl3 : s3.mm.thread_local tid = hp := by rw [hco.thread_local]; exact h3
    have hv3 : s3.mm.valid hp := (hco.valid_eq hp).mpr h4
    have hlive3 : ∀ q, s3.mm.live q ↔ s.mm.live q := by
      intro q
      rw [hco.live_eq q, h2.same.live q]
    obtain ⟨mm4, del, hd, hw4, hret⟩ :=
      SMR.delNode_spec s3.mm hco.wf tid hp m htl3 hv3 ((hlive3 m).mpr hlivec)
    rw [hd]
    simp only
    have hframe : ∀ q, s.mm.live q → q ≠ m →
        mm4.live q ∧ mm4.heap.cells q = s3.mm.heap.cells q := by
      intro q hq hqm
      exact (hret.frame q).1 ((hlive3 q).mpr hq) (by simpa using hqm)
    have hdata : ∀ q ∈ pre ++ post, (mm4.heap.cells q).map NodeType.data
        = (s.mm.heap.cells q).map NodeType.data := by
      intro q hq
      have hqm : q ≠ m := by
        rintro rfl
        rcases List.mem_append.mp hq with h | h
        · exact hcpre h
        · exact hcpost h
      have hql : s.mm.live q := hi.live q (by
        rcases List.mem_append.mp hq with h | h
        · simp [h]
        · simp [h])
      rw [(hframe q hql hqm).2, hdata3 q]
      show (mm2.heap.cells q).map _ = _
      rw [hheap2, if_neg hqm]
    have hpost4 : ∀ q ∈ post, mm4.heap.cells q = s.mm.heap.cells q := by
      intro q hq
      have hqm : q ≠ m := by rintro rfl; exact hcpost hq
      have hqp : q ∉ pre := fun hc => hnd.2.2 hc (by simp [hq])
      rw [(hframe q (hi.live q (by simp [hq])) hqm).2, hout3 q hqp]
      show mm2.heap.cells q = _
      rw [hheap2, if_neg hqm]
    have hpre4 : ∀ q ∈ pre, mm4.heap.cells q = s3.mm.heap.cells q := by
      intro q hq
      have hqm : q ≠ m := by rintro rfl; exact hcpre hq
      exact (hframe q (hi.live q (by simp [hq])) hqm).2
    have hkeys : keysOf mm4.heap (pre ++ post) = keysOf s.mm.heap pre ++ keysOf s.mm.heap post := by
      rw [← keysOf_append]
      exact keysOf_frame _ _ _ hdata
    have hkeys0 : keysOf s.mm.heap (pre ++ m :: post)
        = keysOf s.mm.heap pre ++ n.data :: keysOf s.mm.heap post := by
      rw [keysOf_append]
      simp [keysOf, hcn]
    have hs := hi.sorted
    rw [hkeys0, List.pairwise_append] at hs
    have hepre : n.data ∉ keysOf s.mm.heap pre := by
      intro hc
      have := hs.2.2 _ hc n.data (by simp)
      omega
    have hepost : n.data ∉ keysOf s.mm.heap post := by
      intro hc
      have := (List.pairwise_cons.mp hs.2.1).1 _ hc
      omega
    obtain ⟨r3, hr3⟩ := SMR.getRec_isSome s3.mm hp hv3.1 hv3.2
    have hslot3 : s3.mm.slot hp 1 = some m := by
      rw [hco.slot]; simpa using h5
    obtain ⟨r4, hr4, hmem4⟩ := SMR.delNode_rlist s3.mm mm4 tid hp m r3 hr3 htl3
      (SMR.mem_hazards_of_slot s3.mm hp 1 m hslot3 hc0) hd
    refine ⟨_, true, pre ++ post, rfl, ?_, by simp [hmem], ?_, by simp, ?_, hdummy3,
      by rw [← htl3]; exact congrFun hret.tl tid, ⟨hv3.1, by rw [hret.len]; exact hv3.2⟩, by simp⟩
    · refine ⟨hw4, by rw [hret.K, hco.K, h2.K, hi.K], ?_, ?_, ?_, ?_⟩
      · rw [Heap.path_append]
        refine ⟨n.next, ?_, ?_⟩
        · exact Heap.path_frame _ s3.mm.heap _ _ _ _ hpre4 hpath3
        · exact Heap.path_frame _ s.mm.heap _ _ _ _ hpost4 hp3
      · show (keysOf mm4.heap _).Pairwise _
        rw [hkeys, List.pairwise_append]
        exact ⟨hs.1, (List.pairwise_cons.mp hs.2.1).2,
          fun a ha b hb => hs.2.2 a ha b (by simp [hb])⟩
      · rw [List.nodup_append]
        exact ⟨hnd.1, (List.nodup_cons.mp hnd.2.1).2, fun q h1 h2 => hnd.2.2 h1 (by simp [h2])⟩
      · intro q hq
        have hqm : q ≠ m := by
          rintro rfl
          rcases List.mem_append.mp hq with h | h
          · exact hcpre h
          · exact hcpost h
        refine (hframe q (hi.live q ?_) hqm).1
        rcases List.mem_append.mp hq with h | h
        · simp [h]
        · simp [h]
    · intro j
      show j ∈ keysOf mm4.heap _ ↔ _
      rw [hkeys, hkeys0]
      simp only [List.mem_append, List.mem_cons]
      constructor
      · rintro (h | h)
        · exact ⟨by rintro rfl; exact hepre h, Or.inl h⟩
        · exact ⟨by rintro rfl; exact hepost h, Or.inr (Or.inr h)⟩
      · rintro ⟨hj, h | h | h⟩
        · exact Or.inl h
        · exact absurd h hj
        · exact Or.inr h
    · intro _
      refine ⟨m, n, r4, by simp, ?_, hcn, rfl, (hret.frame m).2.2 (by simp), hr4, hmem4⟩
      intro hc
      rcases List.mem_append.mp hc with h | h
      · exact hcpre h
      · exact hcpost h

end OrderedList

end Amino

namespace Amino

namespace OrderedList

/-- More fuel does not change a result of `findGo`. -/
theorem findGo_mono (key : Int) (start : Loc) (tid hp : Nat) (k : Nat) :
    ∀ (fuel : Nat) (s : OrderedList) (st : Option (Loc × Nat × Nat))
      (r : OrderedList × FindStateHolder × Bool),
      findGo key start tid hp fuel s st = some r →
      findGo key start tid hp (fuel + k) s st = some r := by
  intro fuel
  induction fuel with
  | zero => intro s st r h; cases st <;> simp [findGo] at h
  | succ fuel ih =>
    intro s st r h
    rw [Nat.add_right_comm]
    cases st with
    | none =>
      rw [findGo] at h ⊢
      repeat' (first | (split at h) | (dsimp only at h))
      all_goals (try cases h)
      all_goals (have h' := ih _ _ _ h)
      all_goals simp_all
    | some st =>
      obtain ⟨prev, cur, next⟩ := st
      rw [findGo] at h ⊢
      repeat' (first | (split at h) | (dsimp only at h))
      all_goals (try cases h)
      all_goals (try have h' := ih _ _ _ h)
      all_goals simp_all

theorem find_mono (k fuel : Nat) (s : OrderedList) (tid : Nat) (key : Int) (start : Loc)
    (r : OrderedList × FindStateHolder × Bool) (h : find fuel s tid key start = some r) :
    find (fuel + k) s tid key start = some r :=
  findGo_mono key start tid _ k fuel _ _ r h

theorem addLoop_mono (e : Int) (start : Loc) (tid node : Nat) (k : Nat) :
    ∀ (fuel : Nat) (s : OrderedList) (r : OrderedList × Bool),
      addLoop e start tid node fuel s = some r →
      addLoop e start tid node (fuel + k) s = some r := by
  intro fuel
  induction fuel with
  | zero => intro s r h; simp [addLoop] at h
  | succ fuel ih =>
    intro s r h
    rw [Nat.add_right_comm]
    rw [addLoop] at h ⊢
    cases hf : find (fuel + 1) s tid e start with
    | none => rw [hf] at h; cases h
    | some x =>
      have hf' := find_mono k _ _ _ _ _ _ hf
      rw [Nat.add_right_comm] at hf'
      rw [hf] at h
      rw [hf']
      repeat' (first | (split at h) | (dsimp only at h))
      all_goals (try cases h)
      all_goals (try have h' := ih _ _ h)
      all_goals simp_all

theorem add_mono (k fuel : Nat) (s : OrderedList) (tid : Nat) (e : Int) (start : Loc)
    (r : OrderedList × Bool) (h : add fuel s tid e start = some r) :
    add (fuel + k) s tid e start = some r := by
  unfold add at h ⊢
  repeat' (first | (split at h) | (dsimp only at h))
  all_goals (try cases h)
  all_goals (rename_i h1; have h' := addLoop_mono _ _ _ _ k _ _ _ h1)
  all_goals simp_all

theorem removeLoop_mono (e : Int) (start : Loc) (tid hp : Nat) (k : Nat) :
    ∀ (fuel : Nat) (s : OrderedList) (r : OrderedList × Bool),
      removeLoop e start tid hp fuel s = some r →
      removeLoop e start tid hp (fuel + k) s = some r := by
  intro fuel
  induction fuel with
  | zero => intro s r h; simp [removeLoop] at h
  | succ fuel ih =>
    intro s r h
    rw [Nat.add_right_comm]
    rw [removeLoop] at h ⊢
    cases hf : find (fuel + 1) s tid e start with
    | none => rw [hf] at h; cases h
    | some x =>
      have hf' := find_mono k _ _ _ _ _ _ hf
      rw [Nat.add_right_comm] at hf'
      rw [hf] at h
      rw [hf']
      repeat' (first | (split at h) | (dsimp only at h))
      all_goals (try cases h)
      all_goals (try have h' := ih _ _ h)
      all_goals (try (rename_i h2; have h2' := find_mono k _ _ _ _ _ _ h2;
                      rw [Nat.add_right_comm] at h2'))
      all_goals simp_all

theorem remove_mono (k fuel : Nat) (s : OrderedList) (tid : Nat) (e : Int)
    (r : OrderedList × Bool) (h : remove fuel s tid e = some r) :
    remove (fuel + k) s tid e = some r := by
  unfold remove removeFrom at h ⊢
  repeat' (first | (split at h) | (dsimp only at h))
  all_goals (try cases h)
  all_goals (rename_i h1; have h' := removeLoop_mono _ _ _ _ k _ _ _ h1)
  all_goals simp_all

theorem search_mono (k fuel : Nat) (s : OrderedList) (tid : Nat) (e : Int)
    (r : OrderedList × Bool) (h : search fuel s tid e = some r) :
    search (fuel + k) s tid e = some r := by
  unfold search at h ⊢
  repeat' (first | (split at h) | (dsimp only at h))
  all_goals (try cases h)
  all_goals (rename_i h1; have h' := find_mono k _ _ _ _ _ _ h1)
  all_goals simp_all

end OrderedList

end Amino

namespace Amino

namespace OrderedList

/-- `remove` on the sorted list. -/
theorem remove_spec (g tid : Nat) (e : Int) (s : OrderedList) (l : List Nat) (hi : Inv s l) :
    ∃ s' b l', remove (l.length + 2 + g) s tid e = some (s', b) ∧ Inv s' l' ∧
      (b = true ↔ e ∈ keysOf s.mm.heap l) ∧
      (∀ j, j ∈ keysOf s'.mm.heap l' ↔ j ≠ e ∧ j ∈ keysOf s.mm.heap l) ∧
      (b = false → l' = l ∧ s'.head = s.head ∧ s'.mm.heap = s.mm.heap) ∧
      (b = true → ∃ c n r, c ∈ l ∧ c ∉ l' ∧ s.mm.heap.cells c = some n ∧ n.data = e ∧
        ¬ s'.mm.live c ∧ s'.mm.getRec (s'.mm.thread_local tid) = some r ∧ c ∈ r.rlist) ∧
      s'.dummy = s.dummy ∧ l'.length ≤ l.length := by
  have hso1 := SMR.SlotsOnly.getHPRec s.mm hi.wf tid
  obtain ⟨g1, g2, g3, g4⟩ := SMR.getHPRec_spec s.mm hi.wf tid
  generalize hmm1 : (s.mm.getHPRec tid).1 = mm1 at g1 g2 g3 g4 hso1
  generalize hhp1 : (s.mm.getHPRec tid).2 = hp at g2 g3
  have hi1 : Inv { s with mm := mm1 } l := hi.slots mm1 hso1
  obtain ⟨s2, b, l', h1, h2, h3, h4, h5, h6, h7, h8, h9, h10⟩ :=
    removeLoop_spec g tid hp e { s with mm := mm1 } l hi1 g2 g3
  have hso3 := retireAll_slots s2 h2.wf hp
  have hheap1 : mm1.heap = s.mm.heap := g4.heap
  have htl3 : (s2.retireAll hp).mm.thread_local tid = hp := by
    show (((s2.mm.retire hp 0).retire hp 1).retire hp 2).thread_local tid = hp
    simp only [SMR.retire_eq_employ, SMR.employ_thread_local]
    exact h8
  refine ⟨s2.retireAll hp, b, l', ?_, h2.slots _ hso3, ?_, ?_, ?_, ?_, h7, h10⟩
  · unfold remove removeFrom
    simp only [hmm1, hhp1, h1]
  · rw [h3]; show _ ∈ keysOf mm1.heap l ↔ _
    rw [hheap1]
  · intro j
    show j ∈ keysOf (s2.retireAll hp).mm.heap l' ↔ _
    rw [hso3.same.heap, h4 j]
    show _ ∧ j ∈ keysOf mm1.heap l ↔ _
    rw [hheap1]
  · intro hb
    obtain ⟨k1, k2, k3⟩ := h5 hb
    refine ⟨k1, k2, ?_⟩
    show (s2.retireAll hp).mm.heap = _
    rw [hso3.same.heap, k3]
    exact hheap1
  · intro hb
    obtain ⟨c, n, r, k1, k2, k3, k4, k5, k6, k7⟩ := h6 hb
    obtain ⟨r', k8, k9⟩ := retireAll_rlist s2 hp r k6
    refine ⟨c, n, r', k1, k2, ?_, k4, ?_, ?_, ?_⟩
    · rw [← hheap1]; exact k3
    · intro hc
      exact k5 ((hso3.same.live c).mp hc)
    · rw [htl3]; exact k8
    · rw [k9]; exact k7

/-- The traversal from `head` of a list that satisfies the invariant. -/
theorem list_chain_of_path (h : Heap NodeType) (hw : h.WF) (p : Nat) (l : List Nat)
    (hp : h.path NodeType.next p l 0) : chain h p (keysOf h l) := by
  induction l generalizing p with
  | nil => exact hp
  | cons a l ih =>
    obtain ⟨e, n, hn, hr⟩ := hp
    subst e
    refine ⟨n, hn, by simp [keysOf, hn], ?_, ih _ hr⟩
    exact MARKED_aligned _ (path_head_aligned h hw _ _ hr)

theorem Inv.list_chain {s : OrderedList} {l : List Nat} (hi : Inv s l) :
    chain s.mm.heap s.head (keysOf s.mm.heap l) :=
  list_chain_of_path _ hi.wf.heap _ _ hi.path

theorem keysOf_length (h : Heap NodeType) (l : List Nat) : (keysOf h l).length = l.length := by
  simp [keysOf]

/-- The list after the constructor. -/
theorem list_init_inv (mm : SMR NodeType) (hw : mm.WF) (hK : mm.K = NHPOINTER) :
    Inv (OrderedList.init mm) [] := by
  obtain ⟨h1, h2⟩ := SMR.new_spec mm hw
  exact ⟨h1, hK, rfl, by simp [keysOf], by simp, by simp⟩

theorem Reachable.list_inv {tid : Nat} {s : OrderedList} (hr : Reachable tid s) : ∃ l, Inv s l := by
  induction hr with
  | init mm hw hK => exact ⟨[], list_init_inv mm hw hK⟩
  | insert fuel s s' index e b _ h ih =>
    obtain ⟨l, hi⟩ := ih
    obtain ⟨s1, b1, l1, k1, k2, -⟩ := add_spec fuel tid e s l hi
    have := add_mono (l.length + 2) fuel s tid e .head _ h
    rw [Nat.add_comm] at this
    rw [this] at k1
    cases k1
    exact ⟨l1, k2⟩
  | remove fuel s s' e b _ h ih =>
    obtain ⟨l, hi⟩ := ih
    obtain ⟨s1, b1, l1, k1, k2, -⟩ := remove_spec fuel tid e s l hi
    have := remove_mono (l.length + 2) fuel s tid e _ h
    rw [Nat.add_comm] at this
    rw [this] at k1
    cases k1
    exact ⟨l1, k2⟩
  | search fuel s s' e b _ h ih =>
    obtain ⟨l, hi⟩ := ih
    obtain ⟨s1, k1, k2, -⟩ := search_spec fuel tid e s l hi
    have := search_mono (l.length + 2) fuel s tid e _ h
    rw [Nat.add_comm] at this
    rw [this] at k1
    cases k1
    exact ⟨l, k2⟩

/-- A sequence of `insert` and `remove` calls keeps the invariant, and a key is
in the list afterwards exactly when its last call was an `insert`, or when no
call was on it and it was in the list before. -/
theorem runOps_spec (tid : Nat) (ops : List LOp) :
    ∀ (g : Nat) (s : OrderedList) (l : List Nat), Inv s l →
    ∃ s' bs l', runOps (l.length + ops.length + 2 + g) tid ops s = some (s', bs) ∧ Inv s' l' ∧
      ∀ k, k ∈ keysOf s'.mm.heap l' ↔
        ops.foldl (fun b o => match o with
          | .insert j => if j = k then true else b
          | .remove j => if j = k then false else b) (decide (k ∈ keysOf s.mm.heap l)) = true := by
  induction ops with
  | nil =>
    intro g s l hi
    exact ⟨s, [], l, rfl, hi, by simp⟩
  | cons o ops ih =>
    intro g s l hi
    cases o with
    | insert j =>
      obtain ⟨s1, b, l1, h1, h2, h3, h4, h5, h6, h7⟩ :=
        add_spec (ops.length + 1 + g) tid j s l hi
      obtain ⟨s2, bs, l2, k1, k2, k3⟩ := ih (l.length + 1 - l1.length + g) s1 l1 h2
      have e1 : l.length + (LOp.insert j :: ops).length + 2 + g
          = l.length + 2 + (ops.length + 1 + g) := by simp; omega
      have e2 : l1.length + ops.length + 2 + (l.length + 1 - l1.length + g)
          = l.length + 2 + (ops.length + 1 + g) := by omega
      rw [e2] at k1
      refine ⟨s2, b :: bs, l2, ?_, k2, ?_⟩
      · rw [e1]
        simp only [runOps, insert, h1, k1]
      · intro k
        rw [k3 k, List.foldl_cons]
        rw [Bool.eq_iff_iff]
        simp only [decide_eq_true_eq, h4 k]
        by_cases hjk : j = k
        · simp [hjk]
        · simp [hjk, Ne.symm hjk]
    | remove j =>
      obtain ⟨s1, b, l1, h1, h2, h3, h4, h5, h6, h7, h8⟩ :=
        remove_spec (ops.length + 1 + g) tid j s l hi
      obtain ⟨s2, bs, l2, k1, k2, k3⟩ := ih (l.length + 1 - l1.length + g) s1 l1 h2
      have e1 : l.length + (LOp.remove j :: ops).length + 2 + g
          = l.length + 2 + (ops.length + 1 + g) := by simp; omega
      have e2 : l1.length + ops.length + 2 + (l.length + 1 - l1.length + g)
          = l.length + 2 + (ops.length + 1 + g) := by omega
      rw [e2] at k1
      refine ⟨s2, b :: bs, l2, ?_, k2, ?_⟩
      · rw [e1]
        simp only [runOps, h1, k1]
      · intro k
        rw [k3 k, List.foldl_cons]
        rw [Bool.eq_iff_iff]
        simp only [decide_eq_true_eq, h4 k]
        by_cases hjk : j = k
        · simp [hjk]
        · simp [hjk, Ne.symm hjk]

end OrderedList

end Amino

namespace Amino

open OrderedList in
/-- C4: in every state `s` one thread can reach by `insert`, `remove` and
`search` calls, with `l` the nodes and `ks` the keys a traversal from `head`
visits, `insert(index, k)` returns; it returns `true` exactly when `k` is not
among `ks`; when `k` is among `ks`, `head`, the nodes of the list, their
contents and the keys are unchanged; in both cases `k` occurs exactly once
afterwards, a following `search(k)` returns `true`, and every other key is in
the list afterwards exactly when it was before. -/
theorem C4_list_insert (tid : Nat) (s : OrderedList) (hr : Reachable tid s) (index k : Int) :
    ∃ l ks, s.mm.heap.path NodeType.next s.head l 0 ∧ chain s.mm.heap s.head ks ∧
      ∀ g, ∃ s' b l' ks', insert (ks.length + 2 + g) s tid index k = some (s', b) ∧
        s'.mm.heap.path NodeType.next s'.head l' 0 ∧ chain s'.mm.heap s'.head ks' ∧
        (b = true ↔ k ∉ ks) ∧
        (k ∈ ks → l' = l ∧ ks' = ks ∧ s'.head = s.head ∧
          ∀ q ∈ l, s'.mm.heap.cells q = s.mm.heap.cells q) ∧
        ks'.count k = 1 ∧
        (∀ j, j ≠ k → (j ∈ ks' ↔ j ∈ ks)) ∧
        ∃ s'', search (ks'.length + 2 + g) s' tid k = some (s'', true) := by
  obtain ⟨l, hi⟩ := hr.list_inv
  refine ⟨l, keysOf s.mm.heap l, hi.path, hi.list_chain, ?_⟩
  intro g
  rw [keysOf_length]
  obtain ⟨s1, b, l1, h1, h2, h3, h4, h5, h6, h7⟩ := add_spec g tid k s l hi
  obtain ⟨s2, k1, -⟩ := search_spec g tid k s1 l1 h2
  have hmem : k ∈ keysOf s1.mm.heap l1 := (h4 k).mpr (Or.inl rfl)
  refine ⟨s1, b, l1, keysOf s1.mm.heap l1, h1, h2.path, h2.list_chain, h3, ?_, ?_, ?_, ?_⟩
  · intro hk
    have hb : b = false := by
      cases b with
      | false => rfl
      | true => exact absurd hk (h3.mp rfl)
    obtain ⟨e1, e2, e3⟩ := h5 hb
    subst e1
    exact ⟨rfl, keysOf_frame _ _ _ (fun q hq => by rw [e3 q hq]), e2, e3⟩
  · exact List.count_eq_one_of_mem (h2.sorted.imp (fun h => ne_of_lt h)) hmem
  · intro j hj
    rw [h4 j]
    simp [hj]
  · rw [keysOf_length]
    refine ⟨s2, ?_⟩
    rw [k1]
    simp [hmem]

open OrderedList in
/-- Witness of C4 on the newly constructed list and the key 5. -/
theorem C4_list_insert_witness :
    Reachable 0 (OrderedList.init (SMR.init NHPOINTER 0)) ∧
    ∃ l ks, (OrderedList.init (SMR.init NHPOINTER 0)).mm.heap.path NodeType.next
        (OrderedList.init (SMR.init NHPOINTER 0)).head l 0 ∧
      chain (OrderedList.init (SMR.init NHPOINTER 0)).mm.heap
        (OrderedList.init (SMR.init NHPOINTER 0)).head ks ∧
      ∀ g, ∃ s' b l' ks', insert (ks.length + 2 + g) (OrderedList.init (SMR.init NHPOINTER 0))
            0 0 5 = some (s', b) ∧
        s'.mm.heap.path NodeType.next s'.head l' 0 ∧ chain s'.mm.heap s'.head ks' ∧
        (b = true ↔ (5 : Int) ∉ ks) ∧
        ((5 : Int) ∈ ks → l' = l ∧ ks' = ks ∧
          s'.head = (OrderedList.init (SMR.init NHPOINTER 0)).head ∧
          ∀ q ∈ l, s'.mm.heap.cells q
            = (OrderedList.init (SMR.init NHPOINTER 0)).mm.heap.cells q) ∧
        ks'.count 5 = 1 ∧
        (∀ j, j ≠ 5 → (j ∈ ks' ↔ j ∈ ks)) ∧
        ∃ s'', search (ks'.length + 2 + g) s' 0 5 = some (s'', true) :=
  ⟨Reachable.init _ (SMR.init_wf NHPOINTER 0) rfl,
   C4_list_insert 0 _ (Reachable.init _ (SMR.init_wf NHPOINTER 0) rfl) 0 5⟩

open OrderedList in
/-- C5: in every state `s` one thread can reach by `insert`, `remove` and
`search` calls, with `l` the nodes and `ks` the keys a traversal from `head`
visits, `remove(k)` returns; it returns `true` exactly when `k` is among `ks`;
afterwards `k` is not in the list, `search(k)` returns `false`, and every other
key is in the list exactly when it was before.  When it returns `true`, the
node that held `k` is not among the nodes reached from `head` any more, and it
is in the retired list of the caller's hazard-pointer record (where `delNode`
puts it), so it is no live node of the list. -/
theorem C5_list_remove (tid : Nat) (s : OrderedList) (hr : Reachable tid s) (k : Int) :
    ∃ l ks, s.mm.heap.path NodeType.next s.head l 0 ∧ chain s.mm.heap s.head ks ∧
      ∀ g, ∃ s' b l' ks', remove (ks.length + 2 + g) s tid k = some (s', b) ∧
        s'.mm.heap.path NodeType.next s'.head l' 0 ∧ chain s'.mm.heap s'.head ks' ∧
        (b = true ↔ k ∈ ks) ∧ k ∉ ks' ∧
        (∃ s'', search (ks'.length + 2 + g) s' tid k = some (s'', false)) ∧
        (∀ j, j ≠ k → (j ∈ ks' ↔ j ∈ ks)) ∧
        (b = true → ∃ c n r, c ∈ l ∧ s.mm.heap.cells c = some n ∧ n.data = k ∧ c ∉ l' ∧
          ¬ s'.mm.live c ∧ s'.mm.getRec (s'.mm.thread_local tid) = some r ∧ c ∈ r.rlist) := by
  obtain ⟨l, hi⟩ := hr.list_inv
  refine ⟨l, keysOf s.mm.heap l, hi.path, hi.list_chain, ?_⟩
  intro g
  rw [keysOf_length]
  obtain ⟨s1, b, l1, h1, h2, h3, h4, h5, h6, h7, h8⟩ := remove_spec g tid k s l hi
  obtain ⟨s2, k1, -⟩ := search_spec g tid k s1 l1 h2
  have hnmem : k ∉ keysOf s1.mm.heap l1 := fun hc => ((h4 k).mp hc).1 rfl
  refine ⟨s1, b, l1, keysOf s1.mm.heap l1, h1, h2.path, h2.list_chain, h3, hnmem, ?_, ?_, ?_⟩
  · rw [keysOf_length]
    exact ⟨s2, by rw [k1]; simp [hnmem]⟩
  · intro j hj
    rw [h4 j]
    simp [hj]
  · intro hb
    obtain ⟨c, n, r, c1, c2, c3, c4, c5, c6, c7⟩ := h6 hb
    exact ⟨c, n, r, c1, c3, c4, c2, c5, c6, c7⟩

open OrderedList in
/-- C6: one thread runs any finite sequence `ops` of `insert` and `remove`
calls on a newly constructed list: every call returns, and afterwards a
traversal from `head` along `next` visits nodes without deletion mark whose
keys `ks` increase strictly (so each occurs once), and `ks` holds exactly the
keys whose most recent call in `ops` is an `insert`. -/
theorem C6_list_traversal (mm : SMR NodeType) (hw : mm.WF) (hK : mm.K = NHPOINTER)
    (tid g : Nat) (ops : List LOp) :
    ∃ s' bs ks, runOps (ops.length + 2 + g) tid ops (OrderedList.init mm) = some (s', bs) ∧
      chain s'.mm.heap s'.head ks ∧ ks.Pairwise (· < ·) ∧ ks.Nodup ∧
      ∀ k, k ∈ ks ↔ lastIsInsert k ops = true := by
  obtain ⟨s', bs, l', h1, h2, h3⟩ := runOps_spec tid ops g _ [] (list_init_inv mm hw hK)
  refine ⟨s', bs, keysOf s'.mm.heap l', ?_, h2.list_chain, h2.sorted,
    h2.sorted.imp (fun h => ne_of_lt h), ?_⟩
  · simpa using h1
  · intro k
    rw [h3 k]
    have hd : decide (k ∈ keysOf (OrderedList.init mm).mm.heap []) = false := by simp [keysOf]
    rw [hd]
    rfl

open OrderedList in
/-- Witness of C6 on the calls insert 3, insert 1, remove 3, insert 2. -/
theorem C6_list_traversal_witness :
    (SMR.init NHPOINTER 0 : SMR NodeType).WF ∧ (SMR.init NHPOINTER 0 : SMR NodeType).K = NHPOINTER ∧
    ∃ s' bs ks, runOps 6 0 [.insert 3, .insert 1, .remove 3, .insert 2]
        (OrderedList.init (SMR.init NHPOINTER 0)) = some (s', bs) ∧
      chain s'.mm.heap s'.head ks ∧ ks.Pairwise (· < ·) ∧ ks.Nodup ∧
      ∀ k, k ∈ ks ↔ lastIsInsert k [.insert 3, .insert 1, .remove 3, .insert 2] = true :=
  ⟨SMR.init_wf NHPOINTER 0, rfl,
   C6_list_traversal (SMR.init NHPOINTER 0) (SMR.init_wf NHPOINTER 0) rfl 0 0
     [.insert 3, .insert 1, .remove 3, .insert 2]⟩

end Amino

namespace Amino

namespace AnchorType

theorem copyTo_spec (a n : AnchorType) (fuel : Nat) : a.copyTo (fuel + 1) n = some a := by
  simp [copyTo]

theorem operator_eq_self (a : AnchorType) : a.operator_eq a = true := by
  simp [operator_eq]

theorem compare_swap_self (a n : AnchorType) : a.compare_swap a n = (n, true) := by
  simp [compare_swap]

end AnchorType

namespace DequeBody

theorem getLeft_mkAnchor (l r st : Nat) : (mkAnchor l r st).getLeft = l := rfl

theorem getRight_mkAnchor (l r st : Nat) (hr : 4 ∣ r) (hb : r < 2 ^ LONG_BITS) :
    (mkAnchor l r st).getRight = r := by
  obtain ⟨k, rfl⟩ := hr
  simp only [mkAnchor, AnchorType.getRight, AnchorValue.fields_right, LONG_BITS,
    Nat.shiftLeft_eq] at hb ⊢
  norm_num at hb ⊢
  omega

theorem getStatus_mkAnchor (l r st : Nat) (hb : r < 2 ^ LONG_BITS) (hs : st < 4) :
    (mkAnchor l r st).getStatus = st := by
  simp only [mkAnchor, AnchorType.getStatus, AnchorValue.fields_status, LONG_BITS] at hb ⊢
  norm_num at hb ⊢
  omega

/-- The three setters applied to any local anchor, in the order left, right, status. -/
theorem set_lrs (a : AnchorType) (l r st : Nat) (hl : l < 2 ^ LONG_BITS) (hr : 4 ∣ r)
    (hb : r < 2 ^ LONG_BITS) (hs : st < 4) :
    ∃ n, (a.setLeft l).setRight r = some n ∧ n.setStatus st = mkAnchor l r st := by
  obtain ⟨k, rfl⟩ := hr
  simp only [AnchorType.setRight, AnchorType.setLeft, AnchorType.setStatus, AnchorType.getRight,
    AnchorValue.store_right, AnchorValue.store_left, AnchorValue.store_status,
    AnchorValue.fields_right, AnchorValue.fields_status, mkAnchor, LONG_BITS,
    Nat.shiftLeft_eq, Nat.shiftRight_eq_div_pow] at hl hb ⊢
  norm_num at hl hb ⊢
  refine ⟨_, ⟨?_, rfl⟩, ?_, ?_⟩
  · omega
  · simp only []
    omega
  · simp only []
    omega

/-- The three setters applied to any local anchor, in the order right, left, status. -/
theorem set_rls (a : AnchorType) (l r st : Nat) (hl : l < 2 ^ LONG_BITS) (hr : 4 ∣ r)
    (hb : r < 2 ^ LONG_BITS) (hs : st < 4) :
    ∃ n, a.setRight r = some n ∧ (n.setLeft l).setStatus st = mkAnchor l r st := by
  obtain ⟨k, rfl⟩ := hr
  simp only [AnchorType.setRight, AnchorType.setLeft, AnchorType.setStatus, AnchorType.getRight,
    AnchorValue.store_right, AnchorValue.store_left, AnchorValue.store_status,
    AnchorValue.fields_right, AnchorValue.fields_status, mkAnchor, LONG_BITS,
    Nat.shiftLeft_eq, Nat.shiftRight_eq_div_pow] at hl hb ⊢
  norm_num at hl hb ⊢
  refine ⟨_, ⟨?_, rfl⟩, ?_, ?_⟩
  · omega
  · omega
  · simp only []
    omega

/-- The three setters applied to any local anchor, in the order status, left, right. -/
theorem set_slr (a : AnchorType) (l r st : Nat) (hl : l < 2 ^ LONG_BITS) (hr : 4 ∣ r)
    (hb : r < 2 ^ LONG_BITS) (hs : st < 4) :
    ((a.setStatus st).setLeft l).setRight r = some (mkAnchor l r st) := by
  obtain ⟨k, rfl⟩ := hr
  simp only [AnchorType.setRight, AnchorType.setLeft, AnchorType.setStatus, AnchorType.getRight,
    AnchorValue.store_right, AnchorValue.store_left, AnchorValue.store_status,
    AnchorValue.fields_right, AnchorValue.fields_status, mkAnchor, LONG_BITS,
    Nat.shiftLeft_eq, Nat.shiftRight_eq_div_pow] at hl hb ⊢
  norm_num at hl hb ⊢
  omega

theorem mkAnchor_inj (l r st l' r' st' : Nat) (hr : 4 ∣ r) (hr' : 4 ∣ r')
    (hb : r < 2 ^ LONG_BITS) (hb' : r' < 2 ^ LONG_BITS)
    (h : mkAnchor l r st = mkAnchor l' r' st') : l = l' ∧ r = r' ∧ st = st' := by
  obtain ⟨k, rfl⟩ := hr
  obtain ⟨k', rfl⟩ := hr'
  simp only [mkAnchor, LONG_BITS, AnchorType.mk.injEq, AnchorValue.mk.injEq] at h hb hb'
  norm_num at h hb hb'
  omega

end DequeBody

namespace SMR
variable {α : Type}

theorem SlotsOnly.live_iff {s s' : SMR α} (h : SlotsOnly s s') (q : Nat) : s'.live q ↔ s.live q :=
  h.same.live q

theorem SlotsOnly.heap {s s' : SMR α} (h : SlotsOnly s s') : s'.heap = s.heap := h.same.heap

theorem SlotsOnly.retire3 (s : SMR α) (hw : s.WF) (hp : Nat) :
    SlotsOnly s (((s.retire hp 0).retire hp 1).retire hp 2) :=
  ((SlotsOnly.retire s hw hp 0).comp (SlotsOnly.retire _ (SlotsOnly.retire s hw hp 0).wf hp 1)).comp
    (SlotsOnly.retire _ (SlotsOnly.retire _ (SlotsOnly.retire s hw hp 0).wf hp 1).wf hp 2)

end SMR

namespace DequeBody

/-- `stabilizeRight` on the anchor `<al, ar, RPUSH>` the thread has just installed. -/
theorem stabilizeRight_spec (s : DequeBody) (tid al ar : Nat) (rn pn : DNode)
    (hw : s.mm.WF) (ha : s.anchor = mkAnchor al ar RPUSH)
    (hal : al < 2 ^ LONG_BITS) (hal0 : al ≠ 0)
    (har4 : 4 ∣ ar) (har : ar < 2 ^ LONG_BITS) (har0 : ar ≠ 0)
    (hr : s.mm.heap.cells ar = some rn) (hp0 : rn.left ≠ 0)
    (hpn : s.mm.heap.cells rn.left = some pn) :
    ∃ s', stabilizeRight s tid (mkAnchor al ar RPUSH) = some s' ∧ s'.mm.WF ∧
      s'.anchor = mkAnchor al ar STABLE ∧ (∀ q, s'.mm.live q ↔ s.mm.live q) ∧
      s'.mm.heap.brk = s.mm.heap.brk ∧
      ∀ q, s'.mm.heap.cells q
        = if q = rn.left then some { pn with right := ar } else s.mm.heap.cells q := by
  obtain ⟨anc, mm⟩ := s
  simp only at hw ha hr hpn
  subst ha
  have eR := getRight_mkAnchor al ar RPUSH har4 har
  have hso1 := SMR.SlotsOnly.getHPRec mm hw tid
  generalize hmm1 : (mm.getHPRec tid).1 = mm1 at hso1
  generalize hhp : (mm.getHPRec tid).2 = hp
  have hso2 := hso1.comp (SMR.SlotsOnly.employ mm1 hso1.wf hp 0 al)
  have hso3 := hso2.comp (SMR.SlotsOnly.employ _ hso2.wf hp 1 ar)
  have hso4 := hso3.comp (SMR.SlotsOnly.employ _ hso3.wf hp 2 rn.left)
  obtain ⟨n1, hn1, hn2⟩ := set_rls AnchorType.uninitialised al ar STABLE hal har4 har (by decide)
  unfold stabilizeRight
  simp only [hmm1, hhp, getLeft_mkAnchor, eR, ne_eq, not_true_eq_false, if_false, har0, hal0,
    or_self, AnchorType.operator_eq_self, Bool.true_eq_false, Heap.read, hso2.heap, hso3.heap,
    hso4.heap, hr, hpn, hp0]
  generalize hmm4 : ((mm1.employ hp 0 al).employ hp 1 ar).employ hp 2 rn.left = mm4 at hso4
  by_cases hpr : pn.right = ar
  · have hso5 := hso4.comp (SMR.SlotsOnly.retire3 mm4 hso4.wf hp)
    simp only [hpr, not_true_eq_false, if_false, stabilizeFinish, hn1,
      AnchorType.compare_swap_self, hn2]
    refine ⟨_, rfl, hso5.wf, rfl, hso5.live_iff, by rw [hso5.heap], ?_⟩
    intro q
    show (((mm4.retire hp 0).retire hp 1).retire hp 2).heap.cells q = _
    rw [hso5.heap]
    split
    · rename_i hq
      subst hq
      rw [hpn]
      congr 1
      cases pn
      simp only at hpr
      subst hpr
      rfl
    · rfl
  · have hco := SMR.CellsOnly.put mm4 hso4.wf rn.left { pn with right := ar }
      (by rw [hso4.heap, hpn]; simp)
    rw [hso4.heap] at hco
    have hso5 := SMR.SlotsOnly.retire3 _ hco.wf hp
    simp only [hpr, not_false_eq_true, if_true, Heap.modify, hso4.heap, hpn, stabilizeFinish, hn1,
      AnchorType.compare_swap_self, hn2, if_false, not_true_eq_false]
    refine ⟨_, rfl, hso5.wf, rfl, ?_, ?_, ?_⟩
    · intro q
      rw [hso5.live_iff, hco.live_eq, hso4.live_iff]
    · show (((_ : SMR DNode).retire hp 0).retire hp 1 |>.retire hp 2).heap.brk = _
      rw [hso5.heap]
      rfl
    · intro q
      show (((_ : SMR DNode).retire hp 0).retire hp 1 |>.retire hp 2).heap.cells q = _
      rw [hso5.heap]
      show (mm.heap.put _ _).cells q = _
      rw [Heap.put_cells]

/-- `stabilizeLeft` on the anchor `<al, ar, LPUSH>` the thread has just installed. -/
theorem stabilizeLeft_spec (s : DequeBody) (tid al ar : Nat) (ln pn : DNode)
    (hw : s.mm.WF) (ha : s.anchor = mkAnchor al ar LPUSH)
    (hal : al < 2 ^ LONG_BITS) (hal0 : al ≠ 0)
    (har4 : 4 ∣ ar) (har : ar < 2 ^ LONG_BITS) (har0 : ar ≠ 0)
    (hr : s.mm.heap.cells al = some ln) (hp0 : ln.right ≠ 0)
    (hpn : s.mm.heap.cells ln.right = some pn) :
    ∃ s', stabilizeLeft s tid (mkAnchor al ar LPUSH) = some s' ∧ s'.mm.WF ∧
      s'.anchor = mkAnchor al ar STABLE ∧ (∀ q, s'.mm.live q ↔ s.mm.live q) ∧
      s'.mm.heap.brk = s.mm.heap.brk ∧
      ∀ q, s'.mm.heap.cells q
        = if q = ln.right then some { pn with left := al } else s.mm.heap.cells q := by
  obtain ⟨anc, mm⟩ := s
  simp only at hw ha hr hpn
  subst ha
  have eR := getRight_mkAnchor al ar LPUSH har4 har
  have hso1 := SMR.SlotsOnly.getHPRec mm hw tid
  generalize hmm1 : (mm.getHPRec tid).1 = mm1 at hso1
  generalize hhp : (mm.getHPRec tid).2 = hp
  have hso2 := hso1.comp (SMR.SlotsOnly.employ mm1 hso1.wf hp 0 al)
  have hso3 := hso2.comp (SMR.SlotsOnly.employ _ hso2.wf hp 1 ar)
  have hso4 := hso3.comp (SMR.SlotsOnly.employ _ hso3.wf hp 2 ln.right)
  obtain ⟨n1, hn1, hn2⟩ := set_rls AnchorType.uninitialised al ar STABLE hal har4 har (by decide)
  unfold stabilizeLeft
  simp only [hmm1, hhp, getLeft_mkAnchor, eR, ne_eq, not_true_eq_false, if_false, har0, hal0,
    or_self, AnchorType.operator_eq_self, Bool.true_eq_false, Heap.read, hso2.heap, hso3.heap,
    hso4.heap, hr, hpn, hp0]
  generalize hmm4 : ((mm1.employ hp 0 al).employ hp 1 ar).employ hp 2 ln.right = mm4 at hso4
  by_cases hpr : pn.left = al
  · have hso5 := hso4.comp (SMR.SlotsOnly.retire3 mm4 hso4.wf hp)
    simp only [hpr, not_true_eq_false, if_false, stabilizeFinish, hn1,
      AnchorType.compare_swap_self, hn2]
    refine ⟨_, rfl, hso5.wf, rfl, hso5.live_iff, by rw [hso5.heap], ?_⟩
    intro q
    show (((mm4.retire hp 0).retire hp 1).retire hp 2).heap.cells q = _
    rw [hso5.heap]
    split
    · rename_i hq
      subst hq
      rw [hpn]
      congr 1
      cases pn
      simp only at hpr
      subst hpr
      rfl
    · rfl
  · have hco := SMR.CellsOnly.put mm4 hso4.wf ln.right { pn with left := al }
      (by rw [hso4.heap, hpn]; simp)
    rw [hso4.heap] at hco
    have hso5 := SMR.SlotsOnly.retire3 _ hco.wf hp
    simp only [hpr, not_false_eq_true, if_true, Heap.modify, hso4.heap, hpn, stabilizeFinish, hn1,
      AnchorType.compare_swap_self, hn2, if_false, not_true_eq_false]
    refine ⟨_, rfl, hso5.wf, rfl, ?_, ?_, ?_⟩
    · intro q
      rw [hso5.live_iff, hco.live_eq, hso4.live_iff]
    · show (((_ : SMR DNode).retire hp 0).retire hp 1 |>.retire hp 2).heap.brk = _
      rw [hso5.heap]
      rfl
    · intro q
      show (((_ : SMR DNode).retire hp 0).retire hp 1 |>.retire hp 2).heap.cells q = _
      rw [hso5.heap]
      show (mm.heap.put _ _).cells q = _
      rw [Heap.put_cells]

end DequeBody

end Amino

namespace Amino

namespace DequeBody

theorem deque_dataOf_frame (h h' : Heap DNode) (l : List Nat)
    (hf : ∀ a ∈ l, (h'.cells a).map DNode.data = (h.cells a).map DNode.data) :
    dataOf h' l = dataOf h l := by
  unfold dataOf
  apply List.map_congr_left
  intro a ha
  have := hf a ha
  cases h1 : h'.cells a <;> cases h2 : h.cells a <;> simp_all

theorem dataOf_append (h : Heap DNode) (l1 l2 : List Nat) :
    dataOf h (l1 ++ l2) = dataOf h l1 ++ dataOf h l2 := by
  simp [dataOf]

theorem linked_frame (h h' : Heap DNode) (l : List Nat)
    (hf : ∀ a ∈ l, h'.cells a = h.cells a) (hl : linked h l) : linked h' l := by
  induction l with
  | nil => trivial
  | cons a l ih =>
    cases l with
    | nil => trivial
    | cons b l =>
      obtain ⟨h1, h2, h3⟩ := hl
      refine ⟨?_, ?_, ih (fun q hq => hf q (by simp [hq])) h3⟩
      · rw [hf a (by simp)]; exact h1
      · rw [hf b (by simp)]; exact h2

theorem linked_tail (h : Heap DNode) (a : Nat) (l : List Nat) (hl : linked h (a :: l)) :
    linked h l := by
  cases l with
  | nil => trivial
  | cons b l => exact hl.2.2

theorem linked_dropLast (h : Heap DNode) (l : List Nat) (a : Nat) (hl : linked h (l ++ [a])) :
    linked h l := by
  induction l with
  | nil => trivial
  | cons b l ih =>
    cases l with
    | nil => trivial
    | cons c l =>
      obtain ⟨h1, h2, h3⟩ := hl
      exact ⟨h1, h2, ih h3⟩

/-- The last two nodes of a linked list of nodes. -/
theorem linked_last (h : Heap DNode) (l : List Nat) (t a : Nat) (hl : linked h (l ++ [t, a])) :
    (∃ n, h.cells t = some n ∧ n.right = a) ∧ ∃ m, h.cells a = some m ∧ m.left = t := by
  induction l with
  | nil => exact ⟨hl.1, hl.2.1⟩
  | cons b l ih =>
    apply ih
    have : b :: l ++ [t, a] = b :: (l ++ [t, a]) := rfl
    rw [this] at hl
    exact linked_tail h b _ hl

theorem linked_snoc (h : Heap DNode) (l : List Nat) (t a : Nat) (hl : linked h (l ++ [t]))
    (h1 : ∃ n, h.cells t = some n ∧ n.right = a) (h2 : ∃ m, h.cells a = some m ∧ m.left = t) :
    linked h (l ++ [t, a]) := by
  induction l with
  | nil => exact ⟨h1, h2, trivial⟩
  | cons b l ih =>
    cases l with
    | nil =>
      obtain ⟨k1, k2, -⟩ := hl
      exact ⟨k1, k2, h1, h2, trivial⟩
    | cons c l =>
      obtain ⟨k1, k2, k3⟩ := hl
      exact ⟨k1, k2, ih k3⟩

/-- Writing the `right` field of the last node keeps the list linked. -/
theorem linked_set_last_right (h h' : Heap DNode) (l : List Nat) (t x : Nat) (n : DNode)
    (hl : linked h (l ++ [t])) (hf : ∀ b ∈ l, h'.cells b = h.cells b)
    (ht : h.cells t = some n) (ht' : h'.cells t = some { n with right := x }) :
    linked h' (l ++ [t]) := by
  induction l with
  | nil => trivial
  | cons b l ih =>
    cases l with
    | nil =>
      obtain ⟨k1, ⟨m, k2, k3⟩, -⟩ := hl
      rw [ht] at k2
      cases k2
      refine ⟨?_, ⟨_, ht', k3⟩, trivial⟩
      rw [hf b (by simp)]; exact k1
    | cons c l =>
      obtain ⟨k1, k2, k3⟩ := hl
      refine ⟨?_, ?_, ih k3 (fun q hq => hf q (by simp [hq]))⟩
      · rw [hf b (by simp)]; exact k1
      · rw [hf c (by simp)]; exact k2

/-- Writing the `left` field of the first node keeps the list linked. -/
theorem linked_set_first_left (h h' : Heap DNode) (l : List Nat) (a x : Nat) (n : DNode)
    (hl : linked h (a :: l)) (hf : ∀ b ∈ l, h'.cells b = h.cells b)
    (ha : h.cells a = some n) (ha' : h'.cells a = some { n with left := x }) :
    linked h' (a :: l) := by
  cases l with
  | nil => trivial
  | cons b l =>
    obtain ⟨⟨m, k1, k2⟩, k3, k4⟩ := hl
    rw [ha] at k1
    cases k1
    refine ⟨⟨_, ha', k2⟩, ?_, linked_frame h h' _ hf k4⟩
    rw [hf b (by simp)]; exact k3

theorem Inv.dalloc {s : DequeBody} {l : List Nat} (hi : Inv s l) :
    ∀ a ∈ l, s.mm.heap.cells a ≠ none := fun a ha => (hi.live a ha).1

theorem Inv.lt {s : DequeBody} {l : List Nat} (hi : Inv s l) :
    ∀ a ∈ l, a < 2 ^ LONG_BITS := fun a ha =>
  lt_of_le_of_lt (hi.wf.heap.bound a (hi.dalloc a ha)) hi.range

theorem Inv.dvd {s : DequeBody} {l : List Nat} (hi : Inv s l) :
    ∀ a ∈ l, 4 ∣ a := fun a ha =>
  Dvd.dvd.trans (by decide : 4 ∣ ALIGN) (hi.wf.heap.aligned a (hi.dalloc a ha))

theorem Inv.ne_zero {s : DequeBody} {l : List Nat} (hi : Inv s l) :
    ∀ a ∈ l, a ≠ 0 := fun a ha => SMR.live_ne_zero _ hi.wf a (hi.live a ha)

/-- The deque after the constructor. -/
theorem deque_init_inv (mm : SMR DNode) (hw : mm.WF) (hb : ALIGN * mm.heap.brk < 2 ^ LONG_BITS) :
    Inv (DequeBody.start mm) [] :=
  ⟨hw, rfl, trivial, List.nodup_nil, by simp, hb⟩

theorem headD_lt {s : DequeBody} {l : List Nat} (hi : Inv s l) :
    l.headD 0 < 2 ^ LONG_BITS := by
  cases l with
  | nil => simp [LONG_BITS]
  | cons a l => exact hi.lt a (by simp)

end DequeBody

end Amino

namespace Amino

namespace DequeBody

theorem nil_or_snoc (l : List Nat) : l = [] ∨ ∃ l' t, l = l' ++ [t] := by
  rcases List.eq_nil_or_concat l with h | ⟨l', t, h⟩
  · exact Or.inl h
  · exact Or.inr ⟨l', t, by rw [h, List.concat_eq_append]⟩

theorem headD_mem (l : List Nat) (t : Nat) : (l ++ [t]).headD 0 ∈ l ++ [t] := by
  cases l <;> simp

theorem headD_concat (l : List Nat) (t a : Nat) : (l ++ [t] ++ [a]).headD 0 = (l ++ [t]).headD 0 := by
  cases l <;> rfl

theorem getLastD_concat2 (l : List Nat) (t : Nat) : (l ++ [t]).getLastD 0 = t := by
  simp [List.getLastD_eq_getLast?]

/-- `pushRight` appends a node holding `d`. -/
theorem pushRight_spec (fuel tid : Nat) (d : Int) (s : DequeBody) (l : List Nat)
    (hi : Inv s l) (hb : ALIGN * (s.mm.heap.brk + 1) < 2 ^ LONG_BITS) :
    ∃ s' a, pushRight (fuel + 1) s tid d = some s' ∧ Inv s' (l ++ [a]) ∧
      dataOf s'.mm.heap (l ++ [a]) = dataOf s.mm.heap l ++ [d] ∧
      s'.mm.heap.brk ≤ s.mm.heap.brk + 1 := by
  have hso1 := SMR.SlotsOnly.getHPRec s.mm hi.wf tid
  obtain ⟨g1, g2, g3, g4⟩ := SMR.getHPRec_spec s.mm hi.wf tid
  generalize hmm1 : (s.mm.getHPRec tid).1 = mm1 at g1 g2 g3 g4 hso1
  generalize hhp1 : (s.mm.getHPRec tid).2 = hp1 at g2 g3
  obtain ⟨mm2, a, hnew, hw2, hf⟩ := SMR.newNode_spec mm1 g1 hp1 g3
  have hal : a ∉ l := fun hc => hf.dead ((g4.live a).mpr (hi.live a hc))
  have hcell : mm2.heap.cells a = some { data := 0, left := 0, right := 0 } := hf.cell
  have ha0 : a ≠ 0 := SMR.live_ne_zero _ hw2 a hf.live
  have ha4 : 4 ∣ a := Dvd.dvd.trans (by decide : 4 ∣ ALIGN) hf.aligned
  have ha4' : a % 4 = 0 := Nat.mod_eq_zero_of_dvd ha4
  have hbrk2 : mm2.heap.brk ≤ s.mm.heap.brk + 1 := by
    have := hf.brk_ge
    rw [hso1.heap] at this
    exact this
  have halt : a < 2 ^ LONG_BITS :=
    lt_of_le_of_lt (hw2.heap.bound a hf.live.1)
      (lt_of_le_of_lt (Nat.mul_le_mul_left _ hbrk2) hb)
  have hco := SMR.CellsOnly.put mm2 hw2 a { data := d, left := 0, right := 0 }
    (by rw [hcell]; simp)
  generalize hmm3 : ({ mm2 with heap := (mm2.heap.put a
      (some ({ data := d, left := 0, right := 0 } : DNode))) } : SMR DNode) = mm3 at hco
  have hheap3 : ∀ q, mm3.heap.cells q
      = if q = a then some { data := d, left := 0, right := 0 } else s.mm.heap.cells q := by
    intro q; rw [← hmm3]; show (mm2.heap.put a _).cells q = _
    rw [Heap.put_cells]
    split
    · rfl
    · rename_i hq; rw [hf.cells q hq, hso1.heap]
  have hbrk3 : mm3.heap.brk = mm2.heap.brk := by rw [← hmm3]; rfl
  have hlive3 : ∀ q, q ≠ a → (mm3.live q ↔ s.mm.live q) := by
    intro q hq
    rw [hco.live_eq, hf.lives q hq, hso1.live_iff]
  have ha3 : mm3.live a := (hco.live_eq a).mpr hf.live
  have hcells3 : ∀ q ∈ l, mm3.heap.cells q = s.mm.heap.cells q := by
    intro q hq
    have : q ≠ a := by rintro rfl; exact hal hq
    rw [hheap3, if_neg this]
  have hrange3 : ALIGN * mm3.heap.brk < 2 ^ LONG_BITS := by
    rw [hbrk3]; exact lt_of_le_of_lt (Nat.mul_le_mul_left _ hbrk2) hb
  have hcomp : pushRight (fuel + 1) s tid d
      = pushRightLoop tid a (fuel + 1) { s with mm := mm3 } := by
    unfold pushRight
    rw [hmm1, hhp1]
    simp only [hnew, ha0, if_false, Heap.modify, hcell, ha4', ne_eq, not_true_eq_false]
    rw [hmm3]
  rw [hcomp]
  unfold pushRightLoop
  rw [AnchorType.copyTo_spec]
  simp only [hi.anchor]
  rcases nil_or_snoc l with rfl | ⟨l', t, rfl⟩
  · -- the deque is empty
    obtain ⟨n1, hn1, hn2⟩ := set_lrs AnchorType.uninitialised a a STABLE halt ha4 halt (by decide)
    have eR := getRight_mkAnchor 0 0 STABLE (by decide) (by decide)
    simp only [List.headD_nil, List.getLastD_nil, eR, getLeft_mkAnchor, if_true, ne_eq,
      not_true_eq_false, if_false, hn1, hn2, AnchorType.compare_swap_self]
    refine ⟨_, a, rfl, ⟨hco.wf, rfl, trivial, by simp, ?_, hrange3⟩, ?_, ?_⟩
    · intro q hq
      simp only [List.nil_append, List.mem_singleton] at hq
      subst hq
      exact ha3
    · simp [dataOf, hheap3]
    · show mm3.heap.brk ≤ _
      rw [hbrk3]; exact hbrk2
  · -- the deque is stable and not empty
    have ht : t ∈ l' ++ [t] := by simp
    have ht0 : t ≠ 0 := hi.ne_zero t ht
    have hta : t ≠ a := by rintro rfl; exact hal ht
    have hhd := headD_lt hi
    have eR := getRight_mkAnchor ((l' ++ [t]).headD 0) t STABLE (hi.dvd t ht) (hi.lt t ht)
    have eS := getStatus_mkAnchor ((l' ++ [t]).headD 0) t STABLE (hi.lt t ht) (by decide)
    obtain ⟨n1, hn1, hn2⟩ := set_lrs AnchorType.uninitialised ((l' ++ [t]).headD 0) a RPUSH
      hhd ha4 halt (by decide)
    have hcella : mm3.heap.cells a = some { data := d, left := 0, right := 0 } := by
      rw [hheap3, if_pos rfl]
    have hco4 := SMR.CellsOnly.put mm3 hco.wf a { data := d, left := t, right := 0 }
      (by rw [hcella]; simp)
    generalize hmm4 : ({ mm3 with heap := (mm3.heap.put a
        (some ({ data := d, left := t, right := 0 } : DNode))) } : SMR DNode) = mm4 at hco4
    have hheap4 : ∀ q, mm4.heap.cells q
        = if q = a then some { data := d, left := t, right := 0 } else s.mm.heap.cells q := by
      intro q; rw [← hmm4]; show (mm3.heap.put a _).cells q = _
      rw [Heap.put_cells, hheap3]
      split <;> rfl
    have hbrk4 : mm4.heap.brk = mm2.heap.brk := by rw [← hmm4, ← hbrk3]; rfl
    obtain ⟨pn, hpn⟩ := Option.ne_none_iff_exists'.mp (hi.dalloc t ht)
    have hal0 : (l' ++ [t]).headD 0 ≠ 0 := hi.ne_zero _ (headD_mem l' t)
    obtain ⟨s5, k1, k2, k3, k4, k5, k6⟩ := stabilizeRight_spec
      { anchor := mkAnchor ((l' ++ [t]).headD 0) a RPUSH, mm := mm4 } tid
      ((l' ++ [t]).headD 0) a { data := d, left := t, right := 0 } pn hco4.wf rfl hhd hal0
      ha4 halt ha0 (by rw [hheap4, if_pos rfl]) ht0 (by
        show mm4.heap.cells t = _
        rw [hheap4, if_neg hta, hpn])
    simp only [getLastD_concat2, eR, eS, ht0, if_false, if_true, getLeft_mkAnchor, Heap.modify,
      hcella, hn1, hn2, AnchorType.compare_swap_self]
    rw [hmm4, k1]
    have hcells5 : ∀ q, s5.mm.heap.cells q
        = if q = t then some { pn with right := a }
          else if q = a then some { data := d, left := t, right := 0 }
          else s.mm.heap.cells q := by
      intro q
      rw [k6 q]
      show (if q = t then _ else mm4.heap.cells q) = _
      rw [hheap4]
    have hnd := List.nodup_append.mp hi.nodup
    refine ⟨s5, a, rfl, ⟨k2, ?_, ?_, ?_, ?_, ?_⟩, ?_, ?_⟩
    · rw [k3, headD_concat, getLastD_concat2]
    · rw [List.append_assoc]
      apply linked_snoc
      · apply linked_set_last_right s.mm.heap _ l' t a pn hi.linked
        · intro b hb'
          have hbt : b ≠ t := by rintro rfl; exact hnd.2.2 hb' (by simp)
          have hba : b ≠ a := by rintro rfl; exact hal (by simp [hb'])
          rw [hcells5, if_neg hbt, if_neg hba]
        · exact hpn
        · rw [hcells5, if_pos rfl]
      · exact ⟨_, by rw [hcells5, if_pos rfl], rfl⟩
      · exact ⟨_, by rw [hcells5, if_neg (Ne.symm hta), if_pos rfl], rfl⟩
    · rw [List.nodup_append]
      refine ⟨hi.nodup, by simp, ?_⟩
      intro q hq1 hq2
      simp only [List.mem_singleton] at hq2
      subst hq2
      exact hal hq1
    · intro q hq
      rw [k4]
      show mm4.live q
      rw [hco4.live_eq]
      rcases List.mem_append.mp hq with h | h
      · have : q ≠ a := by rintro rfl; exact hal h
        exact (hlive3 q this).mpr (hi.live q h)
      · simp only [List.mem_singleton] at h
        subst h
        exact ha3
    · rw [k5]
      show ALIGN * mm4.heap.brk < _
      rw [hbrk4, ← hbrk3]
      exact hrange3
    · rw [dataOf_append]
      congr 1
      · apply deque_dataOf_frame
        intro q hq
        rw [hcells5]
        by_cases hqt : q = t
        · subst hqt
          rw [if_pos rfl, hpn]
          rfl
        · have hqa : q ≠ a := by rintro rfl; exact hal hq
          rw [if_neg hqt, if_neg hqa]
      · simp [dataOf, hcells5, Ne.symm hta]
    · rw [k5]
      show mm4.heap.brk ≤ _
      rw [hbrk4]; exact hbrk2

end DequeBody

end Amino

namespace Amino

namespace DequeBody

theorem getLastD_mem (t : Nat) (l : List Nat) : (t :: l).getLastD 0 ∈ t :: l := by
  rw [List.getLastD_eq_getLast?]
  have := List.getLast?_eq_getLast (t :: l) (by simp)
  rw [this]
  exact List.getLast_mem _

theorem getLastD_cons2 (a t : Nat) (l : List Nat) :
    (a :: t :: l).getLastD 0 = (t :: l).getLastD 0 := by
  simp [List.getLastD_eq_getLast?, List.getLast?_cons_cons]

/-- `pushLeft` prepends a node holding `d`. -/
theorem pushLeft_spec (fuel tid : Nat) (d : Int) (s : DequeBody) (l : List Nat)
    (hi : Inv s l) (hb : ALIGN * (s.mm.heap.brk + 1) < 2 ^ LONG_BITS) :
    ∃ s' a, pushLeft (fuel + 1) s tid d = some s' ∧ Inv s' (a :: l) ∧
      dataOf s'.mm.heap (a :: l) = d :: dataOf s.mm.heap l ∧
      s'.mm.heap.brk ≤ s.mm.heap.brk + 1 := by
  have hso1 := SMR.SlotsOnly.getHPRec s.mm hi.wf tid
  obtain ⟨g1, g2, g3, g4⟩ := SMR.getHPRec_spec s.mm hi.wf tid
  generalize hmm1 : (s.mm.getHPRec tid).1 = mm1 at g1 g2 g3 g4 hso1
  generalize hhp1 : (s.mm.getHPRec tid).2 = hp1 at g2 g3
  obtain ⟨mm2, a, hnew, hw2, hf⟩ := SMR.newNode_spec mm1 g1 hp1 g3
  have hal : a ∉ l := fun hc => hf.dead ((g4.live a).mpr (hi.live a hc))
  have hcell : mm2.heap.cells a = some { data := 0, left := 0, right := 0 } := hf.cell
  have ha0 : a ≠ 0 := SMR.live_ne_zero _ hw2 a hf.live
  have ha4 : 4 ∣ a := Dvd.dvd.trans (by decide : 4 ∣ ALIGN) hf.aligned
  have ha4' : a % 4 = 0 := Nat.mod_eq_zero_of_dvd ha4
  have hbrk2 : mm2.heap.brk ≤ s.mm.heap.brk + 1 := by
    have := hf.brk_ge
    rw [hso1.heap] at this
    exact this
  have halt : a < 2 ^ LONG_BITS :=
    lt_of_le_of_lt (hw2.heap.bound a hf.live.1)
      (lt_of_le_of_lt (Nat.mul_le_mul_left _ hbrk2) hb)
  have hco := SMR.CellsOnly.put mm2 hw2 a { data := d, left := 0, right := 0 }
    (by rw [hcell]; simp)
  generalize hmm3 : ({ mm2 with heap := (mm2.heap.put a
      (some ({ data := d, left := 0, right := 0 } : DNode))) } : SMR DNode) = mm3 at hco
  have hheap3 : ∀ q, mm3.heap.cells q
      = if q = a then some { data := d, left := 0, right := 0 } else s.mm.heap.cells q := by
    intro q; rw [← hmm3]; show (mm2.heap.put a _).cells q = _
    rw [Heap.put_cells]
    split
    · rfl
    · rename_i hq; rw [hf.cells q hq, hso1.heap]
  have hbrk3 : mm3.heap.brk = mm2.heap.brk := by rw [← hmm3]; rfl
  have hlive3 : ∀ q, q ≠ a → (mm3.live q ↔ s.mm.live q) := by
    intro q hq
    rw [hco.live_eq, hf.lives q hq, hso1.live_iff]
  have ha3 : mm3.live a := (hco.live_eq a).mpr hf.live
  have hrange3 : ALIGN * mm3.heap.brk < 2 ^ LONG_BITS := by
    rw [hbrk3]; exact lt_of_le_of_lt (Nat.mul_le_mul_left _ hbrk2) hb
  have hcomp : pushLeft (fuel + 1) s tid d
      = pushLeftLoop tid a (fuel + 1) { s with mm := mm3 } := by
    unfold pushLeft
    rw [hmm1, hhp1]
    simp only [hnew, ha0, if_false, Heap.modify, hcell, ha4', ne_eq, not_true_eq_false]
    rw [hmm3]
  rw [hcomp]
  unfold pushLeftLoop
  rw [AnchorType.copyTo_spec]
  simp only [hi.anchor]
  cases l with
  | nil =>
    obtain ⟨n1, hn1, hn2⟩ := set_lrs AnchorType.uninitialised a a STABLE halt ha4 halt (by decide)
    have eR := getRight_mkAnchor 0 0 STABLE (by decide) (by decide)
    simp only [List.headD_nil, List.getLastD_nil, eR, getLeft_mkAnchor, if_true, ne_eq,
      not_true_eq_false, if_false, hn1, hn2, AnchorType.compare_swap_self]
    refine ⟨_, a, rfl, ⟨hco.wf, rfl, trivial, by simp, ?_, hrange3⟩, ?_, ?_⟩
    · intro q hq
      simp only [List.mem_singleton] at hq
      subst hq
      exact ha3
    · simp [dataOf, hheap3]
    · show mm3.heap.brk ≤ _
      rw [hbrk3]; exact hbrk2
  | cons t l' =>
    have ht : t ∈ t :: l' := by simp
    have ht0 : t ≠ 0 := hi.ne_zero t ht
    have hta : t ≠ a := by rintro rfl; exact hal ht
    have hr := getLastD_mem t l'
    generalize hrr : (t :: l').getLastD 0 = r at hr
    have hr0 : r ≠ 0 := hi.ne_zero r hr
    have hr4 : 4 ∣ r := hi.dvd r hr
    have hrlt : r < 2 ^ LONG_BITS := hi.lt r hr
    have eS := getStatus_mkAnchor t r STABLE hrlt (by decide)
    have eR := getRight_mkAnchor t r STABLE hr4 hrlt
    obtain ⟨n1, hn1, hn2⟩ := set_rls AnchorType.uninitialised a r LPUSH halt hr4 hrlt (by decide)
    have hcella : mm3.heap.cells a = some { data := d, left := 0, right := 0 } := by
      rw [hheap3, if_pos rfl]
    have hco4 := SMR.CellsOnly.put mm3 hco.wf a { data := d, left := 0, right := t }
      (by rw [hcella]; simp)
    generalize hmm4 : ({ mm3 with heap := (mm3.heap.put a
        (some ({ data := d, left := 0, right := t } : DNode))) } : SMR DNode) = mm4 at hco4
    have hheap4 : ∀ q, mm4.heap.cells q
        = if q = a then some { data := d, left := 0, right := t } else s.mm.heap.cells q := by
      intro q; rw [← hmm4]; show (mm3.heap.put a _).cells q = _
      rw [Heap.put_cells, hheap3]
      split <;> rfl
    have hbrk4 : mm4.heap.brk = mm2.heap.brk := by rw [← hmm4, ← hbrk3]; rfl
    obtain ⟨pn, hpn⟩ := Option.ne_none_iff_exists'.mp (hi.dalloc t ht)
    obtain ⟨s5, k1, k2, k3, k4, k5, k6⟩ := stabilizeLeft_spec
      { anchor := mkAnchor a r LPUSH, mm := mm4 } tid
      a r { data := d, left := 0, right := t } pn hco4.wf rfl halt ha0
      hr4 hrlt hr0 (by rw [hheap4, if_pos rfl]) ht0 (by
        show mm4.heap.cells t = _
        rw [hheap4, if_neg hta, hpn])
    simp only [List.headD_cons, eR, eS, ht0, if_false, if_true, getLeft_mkAnchor,
      Heap.modify, hcella, hn1, hn2, AnchorType.compare_swap_self]
    rw [hmm4, k1]
    have hcells5 : ∀ q, s5.mm.heap.cells q
        = if q = t then some { pn with left := a }
          else if q = a then some { data := d, left := 0, right := t }
          else s.mm.heap.cells q := by
      intro q
      rw [k6 q]
      show (if q = t then _ else mm4.heap.cells q) = _
      rw [hheap4]
    have hnd := List.nodup_cons.mp hi.nodup
    refine ⟨s5, a, rfl, ⟨k2, ?_, ?_, ?_, ?_, ?_⟩, ?_, ?_⟩
    · rw [k3, getLastD_cons2, hrr]
      rfl
    · refine ⟨⟨_, by rw [hcells5, if_neg (Ne.symm hta), if_pos rfl], rfl⟩,
        ⟨_, by rw [hcells5, if_pos rfl], rfl⟩, ?_⟩
      apply linked_set_first_left s.mm.heap _ l' t a pn hi.linked
      · intro b hb'
        have hbt : b ≠ t := by rintro rfl; exact hnd.1 hb'
        have hba : b ≠ a := by rintro rfl; exact hal (by simp [hb'])
        rw [hcells5, if_neg hbt, if_neg hba]
      · exact hpn
      · rw [hcells5, if_pos rfl]
    · exact List.nodup_cons.mpr ⟨hal, hi.nodup⟩
    · intro q hq
      rw [k4]
      show mm4.live q
      rw [hco4.live_eq]
      rcases List.mem_cons.mp hq with h | h
      · subst h
        exact ha3
      · have : q ≠ a := by rintro rfl; exact hal h
        exact (hlive3 q this).mpr (hi.live q h)
    · rw [k5]
      show ALIGN * mm4.heap.brk < _
      rw [hbrk4, ← hbrk3]
      exact hrange3
    · have h1 : dataOf s5.mm.heap (a :: t :: l') = d :: dataOf s5.mm.heap (t :: l') := by
        simp [dataOf, hcells5, Ne.symm hta]
      rw [h1]
      congr 1
      apply deque_dataOf_frame
      intro q hq
      rw [hcells5]
      by_cases hqt : q = t
      · subst hqt
        rw [if_pos rfl, hpn]
        rfl
      · have hqa : q ≠ a := by rintro rfl; exact hal hq
        rw [if_neg hqt, if_neg hqa]
    · rw [k5]
      show mm4.heap.brk ≤ _
      rw [hbrk4]; exact hbrk2

end DequeBody

end Amino

namespace Amino

namespace DequeBody

/-- `popRight` on the empty deque. -/
theorem popRight_nil (fuel tid : Nat) (ret : Int) (s : DequeBody) (hi : Inv s []) :
    ∃ s', popRight (fuel + 1) s tid ret = some (s', ret, false) ∧ Inv s' [] ∧
      s'.anchor = s.anchor ∧ s'.mm.heap = s.mm.heap := by
  have hso1 := SMR.SlotsOnly.getHPRec s.mm hi.wf tid
  have eR := getRight_mkAnchor 0 0 STABLE (by decide) (by decide)
  have eS := getStatus_mkAnchor 0 0 STABLE (by decide) (by decide)
  have ha : s.anchor = mkAnchor 0 0 STABLE := hi.anchor
  refine ⟨{ s with mm := (s.mm.getHPRec tid).1 }, ?_, ?_, rfl, hso1.heap⟩
  · unfold popRight popRightLoop
    rw [AnchorType.copyTo_spec]
    simp only [ha, eR, eS, getLeft_mkAnchor, if_true, ne_eq, not_true_eq_false, if_false]
  · exact ⟨hso1.wf, hi.anchor, trivial, List.nodup_nil, by simp, by
      show ALIGN * (s.mm.getHPRec tid).1.heap.brk < _
      rw [hso1.heap]; exact hi.range⟩

/-- `popRight` on a deque whose last node is `a`. -/
theorem popRight_snoc (fuel tid : Nat) (ret : Int) (s : DequeBody) (l : List Nat) (a : Nat)
    (hi : Inv s (l ++ [a])) :
    ∃ s' n, s.mm.heap.cells a = some n ∧
      popRight (fuel + 1) s tid ret = some (s', n.data, true) ∧ Inv s' l ∧
      dataOf s'.mm.heap l = dataOf s.mm.heap l ∧ s'.mm.heap.brk = s.mm.heap.brk := by
  have hso1 := SMR.SlotsOnly.getHPRec s.mm hi.wf tid
  obtain ⟨g1, g2, g3, g4⟩ := SMR.getHPRec_spec s.mm hi.wf tid
  generalize hmm1 : (s.mm.getHPRec tid).1 = mm1 at g1 g2 g3 g4 hso1
  generalize hhp : (s.mm.getHPRec tid).2 = hp at g2 g3
  have ham : a ∈ l ++ [a] := by simp
  have ha0 : a ≠ 0 := hi.ne_zero a ham
  have ha4 : 4 ∣ a := hi.dvd a ham
  have halt : a < 2 ^ LONG_BITS := hi.lt a ham
  obtain ⟨n, hn⟩ := Option.ne_none_iff_exists'.mp (hi.dalloc a ham)
  have hnd := List.nodup_append.mp hi.nodup
  have hal : a ∉ l := fun hc => hnd.2.2 hc (by simp)
  have hcomp : popRight (fuel + 1) s tid ret
      = popRightLoop tid hp (fuel + 1) { s with mm := mm1 } ret := by
    unfold popRight
    rw [hmm1, hhp]
  rw [hcomp]
  unfold popRightLoop
  rw [AnchorType.copyTo_spec]
  simp only [hi.anchor, getLastD_concat2]
  rcases nil_or_snoc l with rfl | ⟨l', t, rfl⟩
  · -- one element
    have eR := getRight_mkAnchor a a STABLE ha4 halt
    have eS := getStatus_mkAnchor a a STABLE halt (by decide)
    have hset := set_slr AnchorType.uninitialised 0 0 STABLE (by decide) (by decide) (by decide)
      (by decide)
    have hso2 := hso1.comp (SMR.SlotsOnly.employ mm1 hso1.wf hp 1 a)
    have hso3 := hso2.comp (SMR.SlotsOnly.retire _ hso2.wf hp 1)
    generalize hmm3 : (mm1.employ hp 1 a).retire hp 1 = mm3 at hso3
    have htl3 : mm3.thread_local tid = hp := by
      rw [← hmm3, SMR.retire_eq_employ, SMR.employ_thread_local, SMR.employ_thread_local]
      exact g2
    have hv3 : mm3.valid hp := SMR.valid_of_length mm1 mm3 hp (by
      rw [← hmm3, SMR.retire_eq_employ, SMR.employ_length, SMR.employ_length]) g3
    obtain ⟨mm4, del, hd, hw4, hret⟩ :=
      SMR.delNode_spec mm3 hso3.wf tid hp a htl3 hv3 ((hso3.live_iff a).mpr (hi.live a ham))
    simp only [List.nil_append, List.headD_cons, eR, eS, getLeft_mkAnchor, ha0, if_false,
      if_true, ne_eq, not_true_eq_false, hset, AnchorType.compare_swap_self, Heap.read,
      hso2.heap, hn, hmm3, hd]
    refine ⟨_, n, rfl, rfl, ⟨hw4, rfl, trivial, List.nodup_nil, by simp, ?_⟩, rfl, ?_⟩
    · show ALIGN * mm4.heap.brk < _
      rw [hret.brk, hso3.heap]; exact hi.range
    · show mm4.heap.brk = _
      rw [hret.brk, hso3.heap]
  · -- two or more elements
    have htm : t ∈ l' ++ [t] ++ [a] := by simp
    have ht0 : t ≠ 0 := hi.ne_zero t htm
    have ht4 : 4 ∣ t := hi.dvd t htm
    have htlt : t < 2 ^ LONG_BITS := hi.lt t htm
    have hhm : (l' ++ [t]).headD 0 ∈ l' ++ [t] := headD_mem l' t
    generalize hhd : (l' ++ [t]).headD 0 = hd at hhm
    have hhd2 : (l' ++ [t] ++ [a]).headD 0 = hd := by rw [headD_concat, hhd]
    have hhda : hd ≠ a := by rintro rfl; exact hal hhm
    have hhdlt : hd < 2 ^ LONG_BITS := hi.lt hd (by simp at hhm ⊢; tauto)
    have eR := getRight_mkAnchor hd a STABLE ha4 halt
    have eS := getStatus_mkAnchor hd a STABLE halt (by decide)
    obtain ⟨n1, hn1, hn2⟩ := set_lrs AnchorType.uninitialised hd t STABLE hhdlt ht4 htlt
      (by decide)
    have hlk : linked s.mm.heap (l' ++ [t, a]) := by
      have := hi.linked
      rwa [List.append_assoc] at this
    obtain ⟨-, m, hm1, hm2⟩ := linked_last _ _ _ _ hlk
    rw [hn] at hm1
    cases hm1
    have hso2 := hso1.comp (SMR.SlotsOnly.employ mm1 hso1.wf hp 0 hd)
    have hso3 := hso2.comp (SMR.SlotsOnly.employ _ hso2.wf hp 1 a)
    have hso4 := hso3.comp (SMR.SlotsOnly.employ _ hso3.wf hp 2 t)
    have hso5 := hso4.comp (SMR.SlotsOnly.retire _ hso4.wf hp 0)
    have hso6 := hso5.comp (SMR.SlotsOnly.retire _ hso5.wf hp 1)
    generalize hmm6 : (((((mm1.employ hp 0 hd).employ hp 1 a).employ hp 2 t).retire hp 0).retire
      hp 1) = mm6 at hso6
    have htl6 : mm6.thread_local tid = hp := by
      rw [← hmm6]
      simp only [SMR.retire_eq_employ, SMR.employ_thread_local]
      exact g2
    have hv6 : mm6.valid hp := SMR.valid_of_length mm1 mm6 hp (by
      rw [← hmm6]
      simp only [SMR.retire_eq_employ, SMR.employ_length]
      exact le_refl _) g3
    obtain ⟨mm7, del, hd7, hw7, hret⟩ :=
      SMR.delNode_spec mm6 hso6.wf tid hp a htl6 hv6 ((hso6.live_iff a).mpr (hi.live a ham))
    have hframe : ∀ q ∈ l' ++ [t], mm7.live q ∧ mm7.heap.cells q = s.mm.heap.cells q := by
      intro q hq
      have hqa : q ≠ a := by rintro rfl; exact hal hq
      have := (hret.frame q).1 ((hso6.live_iff q).mpr (hi.live q (by simp at hq ⊢; tauto)))
        (by simpa using hqa)
      rw [hso6.heap] at this
      exact this
    simp only [hhd2, eR, eS, getLeft_mkAnchor, ha0, hhda, if_false, if_true, ne_eq,
      not_true_eq_false, AnchorType.operator_eq_self, Bool.true_eq_false, Heap.read,
      hso2.heap, hso3.heap, hso4.heap, hn, hm2, ht0, hn1, hn2, AnchorType.compare_swap_self,
      hmm6, hd7]
    refine ⟨_, n, rfl, rfl, ⟨hw7, ?_, ?_, hnd.1, fun q hq => (hframe q hq).1, ?_⟩, ?_, ?_⟩
    · show mkAnchor hd t STABLE = _
      rw [hhd, getLastD_concat2]
    · apply linked_frame s.mm.heap _ _ (fun q hq => (hframe q hq).2)
      apply linked_dropLast _ _ a
      exact hi.linked
    · show ALIGN * mm7.heap.brk < _
      rw [hret.brk, hso6.heap]; exact hi.range
    · apply deque_dataOf_frame
      intro q hq
      show (mm7.heap.cells q).map _ = _
      rw [(hframe q hq).2]
    · show mm7.heap.brk = _
      rw [hret.brk, hso6.heap]

end DequeBody

end Amino

namespace Amino

namespace DequeBody

/-- `popLeft` on the empty deque. -/
theorem popLeft_nil (fuel tid : Nat) (ret : Int) (s : DequeBody) (hi : Inv s []) :
    ∃ s', popLeft (fuel + 1) s tid ret = some (s', ret, false) ∧ Inv s' [] ∧
      s'.anchor = s.anchor ∧ s'.mm.heap = s.mm.heap := by
  have hso1 := SMR.SlotsOnly.getHPRec s.mm hi.wf tid
  have eR := getRight_mkAnchor 0 0 STABLE (by decide) (by decide)
  have eS := getStatus_mkAnchor 0 0 STABLE (by decide) (by decide)
  have ha : s.anchor = mkAnchor 0 0 STABLE := hi.anchor
  refine ⟨{ s with mm := (s.mm.getHPRec tid).1 }, ?_, ?_, rfl, hso1.heap⟩
  · unfold popLeft popLeftLoop
    rw [AnchorType.copyTo_spec]
    simp only [ha, eR, eS, getLeft_mkAnchor, if_true, ne_eq, not_true_eq_false, if_false]
  · exact ⟨hso1.wf, hi.anchor, trivial, List.nodup_nil, by simp, by
      show ALIGN * (s.mm.getHPRec tid).1.heap.brk < _
      rw [hso1.heap]; exact hi.range⟩

/-- `popLeft` on a deque whose first node is `a`. -/
theorem popLeft_cons (fuel tid : Nat) (ret : Int) (s : DequeBody) (l : List Nat) (a : Nat)
    (hi : Inv s (a :: l)) :
    ∃ s' n, s.mm.heap.cells a = some n ∧
      popLeft (fuel + 1) s tid ret = some (s', n.data, true) ∧ Inv s' l ∧
      dataOf s'.mm.heap l = dataOf s.mm.heap l ∧ s'.mm.heap.brk = s.mm.heap.brk := by
  have hso1 := SMR.SlotsOnly.getHPRec s.mm hi.wf tid
  obtain ⟨g1, g2, g3, g4⟩ := SMR.getHPRec_spec s.mm hi.wf tid
  generalize hmm1 : (s.mm.getHPRec tid).1 = mm1 at g1 g2 g3 g4 hso1
  generalize hhp : (s.mm.getHPRec tid).2 = hp at g2 g3
  have ham : a ∈ a :: l := by simp
  have ha0 : a ≠ 0 := hi.ne_zero a ham
  have ha4 : 4 ∣ a := hi.dvd a ham
  have halt : a < 2 ^ LONG_BITS := hi.lt a ham
  obtain ⟨n, hn⟩ := Option.ne_none_iff_exists'.mp (hi.dalloc a ham)
  have hnd := List.nodup_cons.mp hi.nodup
  have hal : a ∉ l := hnd.1
  have hcomp : popLeft (fuel + 1) s tid ret
      = popLeftLoop tid hp (fuel + 1) { s with mm := mm1 } ret := by
    unfold popLeft
    rw [hmm1, hhp]
  rw [hcomp]
  unfold popLeftLoop
  rw [AnchorType.copyTo_spec]
  simp only [hi.anchor, List.headD_cons]
  cases l with
  | nil =>
    have eR := getRight_mkAnchor a a STABLE ha4 halt
    have eS := getStatus_mkAnchor a a STABLE halt (by decide)
    have hset := set_slr AnchorType.uninitialised 0 0 STABLE (by decide) (by decide) (by decide)
      (by decide)
    have hso2 := hso1.comp (SMR.SlotsOnly.employ mm1 hso1.wf hp 1 a)
    have hso3 := hso2.comp (SMR.SlotsOnly.retire _ hso2.wf hp 1)
    generalize hmm3 : (mm1.employ hp 1 a).retire hp 1 = mm3 at hso3
    have htl3 : mm3.thread_local tid = hp := by
      rw [← hmm3, SMR.retire_eq_employ, SMR.employ_thread_local, SMR.employ_thread_local]
      exact g2
    have hv3 : mm3.valid hp := SMR.valid_of_length mm1 mm3 hp (by
      rw [← hmm3, SMR.retire_eq_employ, SMR.employ_length, SMR.employ_length]) g3
    obtain ⟨mm4, del, hd, hw4, hret⟩ :=
      SMR.delNode_spec mm3 hso3.wf tid hp a htl3 hv3 ((hso3.live_iff a).mpr (hi.live a ham))
    have hgl : [a].getLastD 0 = a := rfl
    simp only [hgl, eR, eS, getLeft_mkAnchor, ha0, if_false,
      if_true, ne_eq, not_true_eq_false, hset, AnchorType.compare_swap_self, Heap.read,
      hso2.heap, hn, hmm3, hd]
    refine ⟨_, n, rfl, rfl, ⟨hw4, rfl, trivial, List.nodup_nil, by simp, ?_⟩, rfl, ?_⟩
    · show ALIGN * mm4.heap.brk < _
      rw [hret.brk, hso3.heap]; exact hi.range
    · show mm4.heap.brk = _
      rw [hret.brk, hso3.heap]
  | cons t l' =>
    have htm : t ∈ a :: t :: l' := by simp
    have ht0 : t ≠ 0 := hi.ne_zero t htm
    have ht4 : 4 ∣ t := hi.dvd t htm
    have htlt : t < 2 ^ LONG_BITS := hi.lt t htm
    have hrm := getLastD_mem t l'
    rw [getLastD_cons2]
    generalize hrr : (t :: l').getLastD 0 = r at hrm
    have hra : a ≠ r := by rintro rfl; exact hal hrm
    have hr0 : r ≠ 0 := hi.ne_zero r (by simp at hrm ⊢; tauto)
    have hr4 : 4 ∣ r := hi.dvd r (by simp at hrm ⊢; tauto)
    have hrlt : r < 2 ^ LONG_BITS := hi.lt r (by simp at hrm ⊢; tauto)
    have eR := getRight_mkAnchor a r STABLE hr4 hrlt
    have eS := getStatus_mkAnchor a r STABLE hrlt (by decide)
    obtain ⟨n1, hn1, hn2⟩ := set_lrs AnchorType.uninitialised t r STABLE htlt hr4 hrlt
      (by decide)
    obtain ⟨⟨m, hm1, hm2⟩, -, hlk⟩ := hi.linked
    rw [hn] at hm1
    cases hm1
    have hso2 := hso1.comp (SMR.SlotsOnly.employ mm1 hso1.wf hp 0 a)
    have hso3 := hso2.comp (SMR.SlotsOnly.employ _ hso2.wf hp 1 r)
    have hso4 := hso3.comp (SMR.SlotsOnly.employ _ hso3.wf hp 2 t)
    have hso5 := hso4.comp (SMR.SlotsOnly.retire _ hso4.wf hp 0)
    have hso6 := hso5.comp (SMR.SlotsOnly.retire _ hso5.wf hp 1)
    generalize hmm6 : (((((mm1.employ hp 0 a).employ hp 1 r).employ hp 2 t).retire hp 0).retire
      hp 1) = mm6 at hso6
    have htl6 : mm6.thread_local tid = hp := by
      rw [← hmm6]
      simp only [SMR.retire_eq_employ, SMR.employ_thread_local]
      exact g2
    have hv6 : mm6.valid hp := SMR.valid_of_length mm1 mm6 hp (by
      rw [← hmm6]
      simp only [SMR.retire_eq_employ, SMR.employ_length]
      exact le_refl _) g3
    obtain ⟨mm7, del, hd7, hw7, hret⟩ :=
      SMR.delNode_spec mm6 hso6.wf tid hp a htl6 hv6 ((hso6.live_iff a).mpr (hi.live a ham))
    have hframe : ∀ q ∈ t :: l', mm7.live q ∧ mm7.heap.cells q = s.mm.heap.cells q := by
      intro q hq
      have hqa : q ≠ a := by rintro rfl; exact hal hq
      have := (hret.frame q).1 ((hso6.live_iff q).mpr (hi.live q (by simp at hq ⊢; tauto)))
        (by simpa using hqa)
      rw [hso6.heap] at this
      exact this
    simp only [eR, eS, getLeft_mkAnchor, ha0, hr0, hra, if_false, if_true, ne_eq,
      not_true_eq_false, AnchorType.operator_eq_self, Bool.true_eq_false, Heap.read,
      hso2.heap, hso3.heap, hso4.heap, hn, hm2, ht0, hn1, hn2, AnchorType.compare_swap_self,
      hmm6, hd7]
    refine ⟨_, n, rfl, rfl, ⟨hw7, ?_, ?_, hnd.2, fun q hq => (hframe q hq).1, ?_⟩, ?_, ?_⟩
    · show mkAnchor t r STABLE = _
      rw [hrr]
      rfl
    · exact linked_frame s.mm.heap _ _ (fun q hq => (hframe q hq).2) hlk
    · show ALIGN * mm7.heap.brk < _
      rw [hret.brk, hso6.heap]; exact hi.range
    · apply deque_dataOf_frame
      intro q hq
      show (mm7.heap.cells q).map _ = _
      rw [(hframe q hq).2]
    · show mm7.heap.brk = _
      rw [hret.brk, hso6.heap]

end DequeBody

end Amino

namespace Amino

namespace DequeBody

/-- `peekRight` on the empty deque. -/
theorem peekRight_nil (fuel tid : Nat) (ret : Int) (s : DequeBody) (hi : Inv s []) :
    ∃ s', peekRight (fuel + 1) s tid ret = some (s', ret, false) ∧ Inv s' [] ∧
      s'.anchor = s.anchor ∧ s'.mm.heap = s.mm.heap := by
  have hso1 := SMR.SlotsOnly.getHPRec s.mm hi.wf tid
  have eR := getRight_mkAnchor 0 0 STABLE (by decide) (by decide)
  have ha : s.anchor = mkAnchor 0 0 STABLE := hi.anchor
  refine ⟨{ s with mm := (s.mm.getHPRec tid).1 }, ?_, ?_, rfl, hso1.heap⟩
  · unfold peekRight peekRightLoop
    simp only [ha, eR, if_true]
  · exact ⟨hso1.wf, hi.anchor, trivial, List.nodup_nil, by simp, by
      show ALIGN * (s.mm.getHPRec tid).1.heap.brk < _
      rw [hso1.heap]; exact hi.range⟩

/-- `peekLeft` on the empty deque. -/
theorem peekLeft_nil (fuel tid : Nat) (ret : Int) (s : DequeBody) (hi : Inv s []) :
    ∃ s', peekLeft (fuel + 1) s tid ret = some (s', ret, false) ∧ Inv s' [] ∧
      s'.anchor = s.anchor ∧ s'.mm.heap = s.mm.heap := by
  have hso1 := SMR.SlotsOnly.getHPRec s.mm hi.wf tid
  have ha : s.anchor = mkAnchor 0 0 STABLE := hi.anchor
  refine ⟨{ s with mm := (s.mm.getHPRec tid).1 }, ?_, ?_, rfl, hso1.heap⟩
  · unfold peekLeft peekLeftLoop
    simp only [ha, getLeft_mkAnchor, if_true]
  · exact ⟨hso1.wf, hi.anchor, trivial, List.nodup_nil, by simp, by
      show ALIGN * (s.mm.getHPRec tid).1.heap.brk < _
      rw [hso1.heap]; exact hi.range⟩

theorem Inv.dslots {s : DequeBody} {l : List Nat} (hi : Inv s l) (mm' : SMR DNode)
    (h : SMR.SlotsOnly s.mm mm') : Inv { s with mm := mm' } l :=
  ⟨h.wf, hi.anchor, by
    show DequeBody.linked mm'.heap l
    rw [h.heap]; exact hi.linked, hi.nodup, fun a ha => (h.live_iff a).mpr (hi.live a ha), by
    show ALIGN * mm'.heap.brk < _
    rw [h.heap]; exact hi.range⟩

/-- `peekRight` on a deque whose last node is `a`. -/
theorem peekRight_snoc (fuel tid : Nat) (ret : Int) (s : DequeBody) (l : List Nat) (a : Nat)
    (hi : Inv s (l ++ [a])) :
    ∃ s' n, s.mm.heap.cells a = some n ∧
      peekRight (fuel + 1) s tid ret = some (s', n.data, true) ∧ Inv s' (l ++ [a]) ∧
      s'.anchor = s.anchor ∧ s'.mm.heap = s.mm.heap := by
  have hso1 := SMR.SlotsOnly.getHPRec s.mm hi.wf tid
  generalize hmm1 : (s.mm.getHPRec tid).1 = mm1 at hso1
  generalize hhp : (s.mm.getHPRec tid).2 = hp
  have ham : a ∈ l ++ [a] := by simp
  have ha0 : a ≠ 0 := hi.ne_zero a ham
  obtain ⟨n, hn⟩ := Option.ne_none_iff_exists'.mp (hi.dalloc a ham)
  have eR := getRight_mkAnchor ((l ++ [a]).headD 0) a STABLE (hi.dvd a ham) (hi.lt a ham)
  have hso2 := hso1.comp (SMR.SlotsOnly.employ mm1 hso1.wf hp 0 a)
  have hso3 := hso2.comp (SMR.SlotsOnly.retire _ hso2.wf hp 0)
  refine ⟨{ s with mm := (mm1.employ hp 0 a).retire hp 0 }, n, hn, ?_, hi.dslots _ hso3, rfl,
    hso3.heap⟩
  unfold peekRight peekRightLoop
  simp only [hmm1, hhp, hi.anchor, getLastD_concat2, eR, ha0, if_false, ne_eq,
    not_true_eq_false, Heap.read, hso2.heap, hn]

/-- `peekLeft` on a deque whose first node is `a`. -/
theorem peekLeft_cons (fuel tid : Nat) (ret : Int) (s : DequeBody) (l : List Nat) (a : Nat)
    (hi : Inv s (a :: l)) :
    ∃ s' n, s.mm.heap.cells a = some n ∧
      peekLeft (fuel + 1) s tid ret = some (s', n.data, true) ∧ Inv s' (a :: l) ∧
      s'.anchor = s.anchor ∧ s'.mm.heap = s.mm.heap := by
  have hso1 := SMR.SlotsOnly.getHPRec s.mm hi.wf tid
  generalize hmm1 : (s.mm.getHPRec tid).1 = mm1 at hso1
  generalize hhp : (s.mm.getHPRec tid).2 = hp
  have ham : a ∈ a :: l := by simp
  have ha0 : a ≠ 0 := hi.ne_zero a ham
  obtain ⟨n, hn⟩ := Option.ne_none_iff_exists'.mp (hi.dalloc a ham)
  have hso2 := hso1.comp (SMR.SlotsOnly.employ mm1 hso1.wf hp 0 a)
  have hso3 := hso2.comp (SMR.SlotsOnly.retire _ hso2.wf hp 0)
  refine ⟨{ s with mm := (mm1.employ hp 0 a).retire hp 0 }, n, hn, ?_, hi.dslots _ hso3, rfl,
    hso3.heap⟩
  unfold peekLeft peekLeftLoop
  simp only [hmm1, hhp, hi.anchor, List.headD_cons, getLeft_mkAnchor, ha0, if_false, ne_eq,
    not_true_eq_false, Heap.read, hso2.heap, hn]

/-- `empty()` tells whether the deque holds no node. -/
theorem deque_empty_spec (fuel : Nat) (s : DequeBody) (l : List Nat) (hi : Inv s l) :
    empty (fuel + 1) s = some l.isEmpty := by
  unfold empty
  rw [AnchorType.copyTo_spec]
  simp only [hi.anchor, getLeft_mkAnchor]
  cases l with
  | nil =>
    have eR := getRight_mkAnchor 0 0 STABLE (by decide) (by decide)
    simp [eR]
  | cons a l =>
    have ha0 : a ≠ 0 := hi.ne_zero a (by simp)
    simp [ha0]

theorem deque_sizeLoop_spec (h : Heap DNode) (fuel : Nat) :
    ∀ (l : List Nat) (a k : Nat), linked h (a :: l) → l ≠ [] → (a :: l).Nodup →
      sizeLoop h (l.getLastD 0) (l.length + fuel) a k = some (k + l.length - 1) := by
  intro l
  induction l with
  | nil => intro a k _ hne; exact absurd rfl hne
  | cons t l ih =>
    intro a k hl _ hnd
    obtain ⟨⟨n, hn, hnr⟩, -, hl'⟩ := hl
    cases l with
    | nil =>
      have : [t].length + fuel = fuel + 1 := by simp; omega
      rw [this]
      simp [sizeLoop, Heap.read, hn, hnr]
    | cons u l =>
      have hnd' := (List.nodup_cons.mp hnd).2
      have htr : t ≠ (u :: l).getLastD 0 := by
        intro hc
        have := getLastD_mem u l
        rw [← hc] at this
        exact (List.nodup_cons.mp hnd').1 this
      have hf : (t :: u :: l).length + fuel = ((u :: l).length + fuel) + 1 := by
        simp; omega
      rw [hf, getLastD_cons2]
      simp only [sizeLoop, Heap.read, hn, hnr, htr, if_false]
      rw [ih t (k + 1) hl' (by simp) hnd']
      simp
      omega

/-- `size()` is the number of nodes. -/
theorem deque_size_spec (fuel : Nat) (s : DequeBody) (l : List Nat) (hi : Inv s l) :
    size (l.length + 1 + fuel) s = some l.length := by
  unfold size
  rw [show l.length + 1 + fuel = (l.length + fuel) + 1 by omega, AnchorType.copyTo_spec]
  simp only [hi.anchor, getLeft_mkAnchor]
  cases l with
  | nil => simp
  | cons a l =>
    have ha0 : a ≠ 0 := hi.ne_zero a (by simp)
    cases l with
    | nil =>
      have eR := getRight_mkAnchor a a STABLE (hi.dvd a (by simp)) (hi.lt a (by simp))
      have hgl : [a].getLastD 0 = a := rfl
      simp [ha0, hgl, eR]
    | cons t l =>
      have hrm := getLastD_mem t l
      have hra : a ≠ (t :: l).getLastD 0 := by
        intro hc
        rw [← hc] at hrm
        exact (List.nodup_cons.mp hi.nodup).1 hrm
      have eR := getRight_mkAnchor a ((t :: l).getLastD 0) STABLE
        (hi.dvd _ (by simp at hrm ⊢; tauto)) (hi.lt _ (by simp at hrm ⊢; tauto))
      rw [getLastD_cons2]
      simp only [List.headD_cons, ha0, if_false, eR, hra]
      have := deque_sizeLoop_spec s.mm.heap (fuel + 2) (t :: l) a 2 hi.linked (by simp) hi.nodup
      rw [show (a :: t :: l).length + fuel + 1 = (t :: l).length + (fuel + 2) by simp; omega]
      rw [this]
      simp
      omega

end DequeBody

end Amino

namespace Amino

namespace DequeBody

theorem dataOf_snoc (h : Heap DNode) (l : List Nat) (a : Nat) (n : DNode)
    (hn : h.cells a = some n) : dataOf h (l ++ [a]) = dataOf h l ++ [n.data] := by
  simp [dataOf, hn]

theorem dataOf_cons (h : Heap DNode) (l : List Nat) (a : Nat) (n : DNode)
    (hn : h.cells a = some n) : dataOf h (a :: l) = n.data :: dataOf h l := by
  simp [dataOf, hn]

/-- One call on the deque of the code returns what the call returns on the
sequence of the values in the deque. -/
theorem deque_step_spec (g tid : Nat) (op : DOp) (s : DequeBody) (l : List Nat)
    (hi : Inv s l) (hb : ALIGN * (s.mm.heap.brk + 1) < 2 ^ LONG_BITS) :
    ∃ s' l', step (l.length + 1 + g) tid s op
        = some (s', (seqStep op (dataOf s.mm.heap l)).2) ∧ Inv s' l' ∧
      dataOf s'.mm.heap l' = (seqStep op (dataOf s.mm.heap l)).1 ∧
      l'.length ≤ l.length + 1 ∧ s'.mm.heap.brk ≤ s.mm.heap.brk + 1 := by
  have hfuel : l.length + 1 + g = (l.length + g) + 1 := by omega
  cases op with
  | pushLeft d =>
    obtain ⟨s', a, h1, h2, h3, h4⟩ := pushLeft_spec (l.length + g) tid d s l hi hb
    refine ⟨s', a :: l, ?_, h2, by rw [h3]; rfl, by simp, h4⟩
    simp only [step]
    rw [hfuel, h1]
    rfl
  | pushRight d =>
    obtain ⟨s', a, h1, h2, h3, h4⟩ := pushRight_spec (l.length + g) tid d s l hi hb
    refine ⟨s', l ++ [a], ?_, h2, by rw [h3]; rfl, by simp, h4⟩
    simp only [step]
    rw [hfuel, h1]
    rfl
  | popLeft ret =>
    cases l with
    | nil =>
      obtain ⟨s', h1, h2, h3, h4⟩ := popLeft_nil ([].length + g) tid ret s hi
      refine ⟨s', [], ?_, h2, rfl, by simp, by rw [h4]; omega⟩
      simp only [step]
      rw [hfuel, h1]
      rfl
    | cons a l =>
      obtain ⟨s', n, h0, h1, h2, h3, h4⟩ := popLeft_cons ((a :: l).length + g) tid ret s l a hi
      refine ⟨s', l, ?_, h2, by rw [h3, dataOf_cons _ _ _ _ h0]; rfl, by simp; omega,
        by rw [h4]; omega⟩
      simp only [step]
      rw [hfuel, h1, dataOf_cons _ _ _ _ h0]
      rfl
  | popRight ret =>
    rcases nil_or_snoc l with rfl | ⟨l', a, rfl⟩
    · obtain ⟨s', h1, h2, h3, h4⟩ := popRight_nil ([].length + g) tid ret s hi
      refine ⟨s', [], ?_, h2, rfl, by simp, by rw [h4]; omega⟩
      simp only [step]
      rw [hfuel, h1]
      rfl
    · obtain ⟨s', n, h0, h1, h2, h3, h4⟩ :=
        popRight_snoc ((l' ++ [a]).length + g) tid ret s l' a hi
      refine ⟨s', l', ?_, h2, ?_, by simp; omega, by rw [h4]; omega⟩
      · simp only [step]
        rw [hfuel, h1, dataOf_snoc _ _ _ _ h0]
        simp [seqStep]
      · rw [h3, dataOf_snoc _ _ _ _ h0]
        simp [seqStep]
  | peekLeft ret =>
    cases l with
    | nil =>
      obtain ⟨s', h1, h2, h3, h4⟩ := peekLeft_nil ([].length + g) tid ret s hi
      refine ⟨s', [], ?_, h2, rfl, by simp, by rw [h4]; omega⟩
      simp only [step]
      rw [hfuel, h1]
      rfl
    | cons a l =>
      obtain ⟨s', n, h0, h1, h2, h3, h4⟩ := peekLeft_cons ((a :: l).length + g) tid ret s l a hi
      refine ⟨s', a :: l, ?_, h2, by rw [h4, dataOf_cons _ _ _ _ h0]; rfl, by simp,
        by rw [h4]; omega⟩
      simp only [step]
      rw [hfuel, h1, dataOf_cons _ _ _ _ h0]
      rfl
  | peekRight ret =>
    rcases nil_or_snoc l with rfl | ⟨l', a, rfl⟩
    · obtain ⟨s', h1, h2, h3, h4⟩ := peekRight_nil ([].length + g) tid ret s hi
      refine ⟨s', [], ?_, h2, rfl, by simp, by rw [h4]; omega⟩
      simp only [step]
      rw [hfuel, h1]
      rfl
    · obtain ⟨s', n, h0, h1, h2, h3, h4⟩ :=
        peekRight_snoc ((l' ++ [a]).length + g) tid ret s l' a hi
      refine ⟨s', l' ++ [a], ?_, h2, ?_, by simp, by rw [h4]; omega⟩
      · simp only [step]
        rw [hfuel, h1, dataOf_snoc _ _ _ _ h0]
        simp [seqStep]
      · rw [h4, dataOf_snoc _ _ _ _ h0]
        simp [seqStep]
  | empty =>
    refine ⟨s, l, ?_, hi, rfl, by simp, by omega⟩
    simp only [step]
    rw [hfuel, deque_empty_spec _ s l hi]
    cases l <;> simp [seqStep, dataOf]
  | size =>
    refine ⟨s, l, ?_, hi, rfl, by simp, by omega⟩
    simp only [step]
    rw [deque_size_spec g s l hi]
    simp [seqStep, dataOf]

/-- A sequence of calls on the deque of the code returns what the calls
return on the sequence of the values in the deque. -/
theorem deque_run_spec (tid : Nat) (ops : List DOp) :
    ∀ (g : Nat) (s : DequeBody) (l : List Nat), Inv s l →
      ALIGN * (s.mm.heap.brk + ops.length) < 2 ^ LONG_BITS →
      ∃ s' l', run (l.length + ops.length + 1 + g) tid ops s
          = some (s', seqRun ops (dataOf s.mm.heap l)) ∧ Inv s' l' := by
  induction ops with
  | nil => intro g s l hi _; exact ⟨s, l, rfl, hi⟩
  | cons op ops ih =>
    intro g s l hi hb
    have hb1 : ALIGN * (s.mm.heap.brk + 1) < 2 ^ LONG_BITS := by
      refine lt_of_le_of_lt (Nat.mul_le_mul_left _ ?_) hb
      simp
    obtain ⟨s1, l1, h1, h2, h3, h4, h5⟩ := deque_step_spec (ops.length + 1 + g) tid op s l hi hb1
    have hb2 : ALIGN * (s1.mm.heap.brk + ops.length) < 2 ^ LONG_BITS := by
      refine lt_of_le_of_lt (Nat.mul_le_mul_left _ ?_) hb
      simp only [List.length_cons]
      omega
    obtain ⟨d, hd⟩ := Nat.exists_eq_add_of_le h4
    obtain ⟨s2, l2, k1, k2⟩ := ih (d + g) s1 l1 h2 hb2
    have e1 : l.length + (op :: ops).length + 1 + g = l.length + 1 + (ops.length + 1 + g) := by
      simp only [List.length_cons]
      omega
    have e2 : l1.length + ops.length + 1 + (d + g)
        = l.length + 1 + (ops.length + 1 + g) := by omega
    rw [e2] at k1
    refine ⟨s2, l2, ?_, k2⟩
    rw [e1]
    simp only [run, h1, k1, seqRun, h3]

end DequeBody

end Amino

namespace Amino

open DequeBody in
/-- The statements of the operations, started from `start mm`: one thread runs
any finite sequence `ops` of `pushLeft`, `pushRight`,
`popLeft`, `popRight`, `peekLeft`, `peekRight`, `empty` and `size` calls, with
enough address space for one node per call: every
call returns, and the results are exactly the results of the same calls on the
mathematical double-ended sequence that starts empty. -/
theorem body_refines_sequence (mm : SMR DNode) (hw : mm.WF) (tid g : Nat) (ops : List DOp)
    (hmem : ALIGN * (mm.heap.brk + ops.length) < 2 ^ LONG_BITS) :
    ∃ s', run (ops.length + 1 + g) tid ops (DequeBody.start mm) = some (s', seqRun ops []) := by
  have hb : ALIGN * mm.heap.brk < 2 ^ LONG_BITS :=
    lt_of_le_of_lt (Nat.mul_le_mul_left _ (Nat.le_add_right _ _)) hmem
  obtain ⟨s', l', h1, -⟩ := deque_run_spec tid ops g _ [] (deque_init_inv mm hw hb) hmem
  refine ⟨s', ?_⟩
  simpa [dataOf] using h1

open DequeBody in
/-- The statements of the calls pushRight 1, pushRight 2, popLeft three times,
pushLeft 1, pushRight 2, peekLeft, peekRight, size, empty, started from
`start (SMR.init 3 0)`. -/
theorem body_refines_sequence_example :
    (SMR.init 3 0 : SMR DNode).WF ∧
    ALIGN * ((SMR.init 3 0 : SMR DNode).heap.brk + 11) < 2 ^ LONG_BITS ∧
    ∃ s', run 12 0
        [.pushRight 1, .pushRight 2, .popLeft 0, .popLeft 0, .popLeft 0, .pushLeft 1,
          .pushRight 2, .peekLeft 0, .peekRight 0, .size, .empty]
        (DequeBody.start (SMR.init 3 0))
      = some (s', [.done, .done, .value true 1, .value true 2, .value false 0, .done, .done,
          .value true 1, .value true 2, .count 2, .flag false]) := by
  refine ⟨SMR.init_wf 3 0, by decide, ?_⟩
  have h := body_refines_sequence (SMR.init 3 0) (SMR.init_wf 3 0) 0 0
    [.pushRight 1, .pushRight 2, .popLeft 0, .popLeft 0, .popLeft 0, .pushLeft 1,
      .pushRight 2, .peekLeft 0, .peekRight 0, .size, .empty] (by decide)
  simpa [seqRun, seqStep] using h

open LockFreeQueue OrderedList in
/-- On a queue `q` for which `empty()` is `true`, `dequeue` and `peekFront`
return `false`; on a list `l` whose `head` is `NULL`, `front` returns `false`.
Each call returns, the out-parameter keeps the value it had, and `head` and
`tail` of the queue and all nodes with their links are unchanged. -/
theorem empty_queue_list_calls (q : LockFreeQueue) (l : OrderedList)
    (hq : q.empty = some true) (hl : l.empty = true) (fuel tid : Nat) (ret : Int) :
    (∃ q', LockFreeQueue.dequeue (fuel + 1) q tid ret = some (q', ret, false) ∧
      q'.head = q.head ∧ q'.tail = q.tail ∧ q'.mm.heap = q.mm.heap) ∧
    (∃ q', LockFreeQueue.peekFront (fuel + 1) q tid ret = some (q', ret, false) ∧
      q'.head = q.head ∧ q'.tail = q.tail ∧ q'.mm.heap = q.mm.heap) ∧
    l.front ret = some (ret, false) := by
  have hq' : ∃ n, q.mm.heap.cells q.head = some n ∧ n.next = 0 := by
    unfold LockFreeQueue.empty Heap.read at hq
    cases hc : q.mm.heap.cells q.head with
    | none => rw [hc] at hq; cases hq
    | some n =>
      rw [hc] at hq
      exact ⟨n, rfl, by simpa using hq⟩
  obtain ⟨n, hn, hn0⟩ := hq'
  have hl' : l.head = 0 := by simpa [OrderedList.empty] using hl
  refine ⟨?_, ?_, ?_⟩
  · refine ⟨{ q with mm := (((q.mm.getHPRec tid).1.employ (q.mm.getHPRec tid).2 1 q.head).employ
      (q.mm.getHPRec tid).2 1 0) }, ?_, rfl, rfl, ?_⟩
    · unfold LockFreeQueue.dequeue
      simp only [LockFreeQueue.dequeueLoop, ne_eq, not_true_eq_false, if_false, Heap.read,
        SMR.employ_heap, SMR.getHPRec_heap, hn, hn0, if_true]
    · simp only [SMR.employ_heap, SMR.getHPRec_heap]
  · refine ⟨{ q with mm := (q.mm.getHPRec tid).1 }, ?_, rfl, rfl, ?_⟩
    · unfold LockFreeQueue.peekFront
      simp only [LockFreeQueue.peekFrontLoop, Heap.read, SMR.getHPRec_heap, hn, hn0, if_true]
    · simp only [SMR.getHPRec_heap]
  · unfold OrderedList.front
    simp [hl', MARKED]

open DequeBody in
/-- On a state `d` whose anchor is `<NULL, NULL, STABLE>`, the statements of
`popLeft`, `popRight`, `peekLeft` and `peekRight` return `false`, the
out-parameter keeps the value it had, and the anchor and all nodes with their
links are unchanged. -/
theorem body_empty_deque_calls (d : DequeBody)
    (hdl : d.anchor.getLeft = 0) (hdr : d.anchor.getRight = 0) (hds : d.anchor.getStatus = STABLE)
    (fuel tid : Nat) (ret : Int) :
    (∃ d', DequeBody.popLeft (fuel + 1) d tid ret = some (d', ret, false) ∧
      d'.anchor = d.anchor ∧ d'.mm.heap = d.mm.heap) ∧
    (∃ d', DequeBody.popRight (fuel + 1) d tid ret = some (d', ret, false) ∧
      d'.anchor = d.anchor ∧ d'.mm.heap = d.mm.heap) ∧
    (∃ d', DequeBody.peekLeft (fuel + 1) d tid ret = some (d', ret, false) ∧
      d'.anchor = d.anchor ∧ d'.mm.heap = d.mm.heap) ∧
    (∃ d', DequeBody.peekRight (fuel + 1) d tid ret = some (d', ret, false) ∧
      d'.anchor = d.anchor ∧ d'.mm.heap = d.mm.heap) := by
  refine ⟨?_, ?_, ?_, ?_⟩
  · refine ⟨{ d with mm := (d.mm.getHPRec tid).1 }, ?_, rfl, SMR.getHPRec_heap _ _⟩
    unfold DequeBody.popLeft DequeBody.popLeftLoop
    rw [AnchorType.copyTo_spec]
    simp only [hdl, hdr, hds, if_true, ne_eq, not_true_eq_false, if_false]
  · refine ⟨{ d with mm := (d.mm.getHPRec tid).1 }, ?_, rfl, SMR.getHPRec_heap _ _⟩
    unfold DequeBody.popRight DequeBody.popRightLoop
    rw [AnchorType.copyTo_spec]
    simp only [hdl, hdr, hds, if_true, ne_eq, not_true_eq_false, if_false]
  · refine ⟨{ d with mm := (d.mm.getHPRec tid).1 }, ?_, rfl, SMR.getHPRec_heap _ _⟩
    unfold DequeBody.peekLeft DequeBody.peekLeftLoop
    simp only [hdl, if_true]
  · refine ⟨{ d with mm := (d.mm.getHPRec tid).1 }, ?_, rfl, SMR.getHPRec_heap _ _⟩
    unfold DequeBody.peekRight DequeBody.peekRightLoop
    simp only [hdr, if_true]

end Amino

namespace Amino

namespace SMR
variable {α : Type}

theorem getRec_setRec_ne (s : SMR α) (a b : Nat) (r : HPRecType) (h : b ≠ a) :
    (s.setRec a r).getRec b = s.getRec b := by
  unfold setRec
  split
  · rfl
  · rename_i hc
    push_neg at hc
    unfold getRec
    simp only [List.length_set]
    split
    · rfl
    · rename_i hb
      push_neg at hb
      rw [List.getElem?_set_ne]
      omega

theorem getRec_ne_zero (s : SMR α) (a : Nat) (r : HPRecType) (h : s.getRec a = some r) :
    a ≠ 0 := by
  rintro rfl
  simp [getRec] at h

theorem clearSlots_eq (n : Nat) : ∀ (i : Nat) (hp : List Nat), i + n = hp.length →
    clearSlots n i hp = hp.take i ++ List.replicate n 0 := by
  induction n with
  | zero =>
    intro i hp h
    simp only [clearSlots, List.replicate_zero, List.append_nil]
    rw [List.take_of_length_le (by omega)]
  | succ n ih =>
    intro i hp h
    have hi : i < hp.length := by omega
    rw [clearSlots, ih (i + 1) (hp.set i 0) (by simp only [List.length_set]; omega)]
    apply List.ext_getElem?
    intro j
    have l1 : ((hp.set i 0).take (i + 1)).length = i + 1 := by
      simp only [List.length_take, List.length_set]; omega
    have l2 : (hp.take i).length = i := by
      simp only [List.length_take]; omega
    by_cases hj : j < i
    · rw [List.getElem?_append_left (by omega), List.getElem?_append_left (by omega)]
      simp only [List.getElem?_take, hj, if_true, show j < i + 1 by omega]
      rw [List.getElem?_set_ne (by omega)]
    · by_cases hji : j = i
      · subst hji
        rw [List.getElem?_append_left (by omega), List.getElem?_append_right (by omega)]
        simp only [List.getElem?_take, show j < j + 1 by omega, if_true, l2, Nat.sub_self]
        rw [List.getElem?_set_self hi]
        simp
      · rw [List.getElem?_append_right (by omega), List.getElem?_append_right (by omega)]
        simp only [l1, l2, List.getElem?_replicate]
        by_cases hjn : j - (i + 1) < n
        · rw [if_pos hjn, if_pos (by omega)]
        · rw [if_neg hjn, if_neg (by omega)]

theorem clearSlots_all (K : Nat) (hp : List Nat) (h : hp.length = K) :
    clearSlots K 0 hp = List.replicate K 0 := by
  rw [clearSlots_eq K 0 hp (by omega)]
  simp

theorem retireLoop_eq (p : Nat) (n : Nat) : ∀ (i : Nat) (hp : List Nat), i + n = hp.length →
    retireLoop p n i hp = hp.take i ++ (hp.drop i).map (fun x => if x = p then 0 else x) := by
  induction n with
  | zero =>
    intro i hp h
    simp only [retireLoop]
    rw [List.drop_of_length_le (by omega), List.take_of_length_le (by omega)]
    simp
  | succ n ih =>
    intro i hp h
    have hi : i < hp.length := by omega
    rw [retireLoop]
    have hset : (if hp.getD i 0 = p then hp.set i 0 else hp)
        = hp.set i (if hp[i] = p then 0 else hp[i]) := by
      have hg : hp.getD i 0 = hp[i] := by
        rw [List.getD_eq_getElem?_getD, List.getElem?_eq_getElem hi]
        rfl
      rw [hg]
      split
      · rfl
      · apply List.ext_getElem?
        intro j
        by_cases hji : j = i
        · subst hji
          rw [List.getElem?_set_self hi, List.getElem?_eq_getElem hi]
        · rw [List.getElem?_set_ne (by omega)]
    rw [hset, ih (i + 1) _ (by simp only [List.length_set]; omega)]
    apply List.ext_getElem?
    intro j
    have l1 : ((hp.set i (if hp[i] = p then 0 else hp[i])).take (i + 1)).length = i + 1 := by
      simp only [List.length_take, List.length_set]; omega
    have l2 : (hp.take i).length = i := by
      simp only [List.length_take]; omega
    by_cases hj : j < i
    · rw [List.getElem?_append_left (by omega), List.getElem?_append_left (by omega)]
      simp only [List.getElem?_take, hj, if_true, show j < i + 1 by omega]
      rw [List.getElem?_set_ne (by omega)]
    · by_cases hji : j = i
      · subst hji
        rw [List.getElem?_append_left (by omega), List.getElem?_append_right (by omega)]
        simp only [List.getElem?_take, show j < j + 1 by omega, if_true, l2, Nat.sub_self,
          List.getElem?_map, List.getElem?_drop, Nat.add_zero]
        rw [List.getElem?_set_self hi, List.getElem?_eq_getElem hi]
        rfl
      · rw [List.getElem?_append_right (by omega), List.getElem?_append_right (by omega)]
        simp only [l1, l2, List.getElem?_map, List.getElem?_drop]
        rw [List.getElem?_set_ne (by omega)]
        congr 2
        omega

theorem retireLoop_all (p K : Nat) (hp : List Nat) (h : hp.length = K) :
    retireLoop p K 0 hp = hp.map (fun x => if x = p then 0 else x) := by
  rw [retireLoop_eq p K 0 hp (by omega)]
  simp

end SMR

set_option maxRecDepth 100000 in
set_option maxHeartbeats 4000000 in
theorem retireOps16_run :
    SMR.execAll retireOps16 (SMR.init 1 0 : SMR StackNode) = some sampleSMRFree := by
  simp [retireOps16, SMR.execAll, SMR.exec, SMR.getHPRec, SMR.allocHPRec, SMR.reuseHPRec,
    SMR.delNode, SMR.getRec, SMR.setRec, HPRecType.allocSMRNode, SMR.scan, SMR.hazards,
    SMR.scanLoop, SMR.binary_search, SMR.unique, HPRecType.freeData, HPRecType.freeSMRNode,
    HPRecType.init, SMR.init, List.range, List.range.loop, MINIMAL_RLIST_LEN, MAX_FREE_NODES,
    sampleSMRFree, sampleRecFree, Heap.empty]

end Amino

namespace Amino

/-- C11, the sentence as written fails: after `retireOps16` the record of the
thread holds sixteen list nodes in its free list; the next `delNode` stays
below `RH`, so `scan` is not invoked, yet `fr_smr_count` drops from 16 to 15
and `frListSMR` loses its first node. -/
theorem C11_delNode_takes_free_list_node_counterexample :
    ∃ (s s1 : SMR StackNode) (r r1 : HPRecType),
      SMR.execAll retireOps16 (SMR.init 1 0) = some s ∧
      s.getRec 1 = some r ∧ s.delNode 0 1 136 = some s1 ∧ s1.getRec 1 = some r1 ∧
      r.rcount + 1 < s.RH ∧ r1.rlist = 136 :: r.rlist ∧ r1.rcount = r.rcount + 1 ∧
      r.fr_smr_count = 16 ∧ r1.fr_smr_count = 15 ∧ r1.frListSMR ≠ r.frListSMR :=
  ⟨sampleSMRFree, _, sampleRecFree, _, retireOps16_run, rfl, rfl, rfl,
    by decide, rfl, rfl, rfl, rfl, by decide⟩

/-- C11, amended: `delNode(hp, p)` puts `p` in front of the retired list of the
record and increases `rcount` by one, taking the list node from the free list
of list nodes of the record when that is not empty (`fr_smr_count` drops by
one and `frListSMR` loses its first node); no other field of the record, no
other record and no cell of the store changes.  When the increased `rcount`
is below `RH` that is the whole effect; otherwise the call continues with
`scan` on that state. -/
theorem C11_delNode_retires {α : Type} (s : SMR α) (tid hp p : Nat) (r : HPRecType)
    (hg : s.getRec hp = some r) (hf : r.fr_smr_count ≤ r.frListSMR.length) :
    ∃ r1 : HPRecType,
      r1 = { r with rlist := p :: r.rlist, rcount := r.rcount + 1,
                    fr_smr_count := r.fr_smr_count - 1,
                    frListSMR := (if r.fr_smr_count = 0
                      then r.frListSMR else r.frListSMR.tail) } ∧
      (s.setRec hp r1).getRec hp = some r1 ∧
      (∀ b, b ≠ hp → (s.setRec hp r1).getRec b = s.getRec b) ∧
      (s.setRec hp r1).heap = s.heap ∧
      (r.rcount + 1 < s.RH → s.delNode tid hp p = some (s.setRec hp r1)) ∧
      (s.RH ≤ r.rcount + 1 → s.delNode tid hp p = (s.setRec hp r1).scan tid) := by
  refine ⟨_, rfl, ?_, ?_, ?_, ?_, ?_⟩
  · exact SMR.getRec_setRec s hp r _ hg
  · intro b hb
    exact SMR.getRec_setRec_ne s hp b _ hb
  · simp
  · intro hlt
    unfold SMR.delNode
    rw [hg]
    unfold HPRecType.allocSMRNode
    by_cases h0 : r.fr_smr_count = 0
    · simp only [h0, if_true]
      rw [if_neg (by omega)]
    · simp only [h0, if_false]
      cases hl : r.frListSMR with
      | nil => rw [hl] at hf; simp at hf; exact absurd hf h0
      | cons x rest =>
        simp only [List.tail_cons]
        rw [if_neg (by simp only [ge_iff_le]; omega)]
  · intro hge
    unfold SMR.delNode
    rw [hg]
    unfold HPRecType.allocSMRNode
    by_cases h0 : r.fr_smr_count = 0
    · simp only [h0, if_true]
      rw [if_pos (by simpa using hge)]
    · simp only [h0, if_false]
      cases hl : r.frListSMR with
      | nil => rw [hl] at hf; simp at hf; exact absurd hf h0
      | cons x rest =>
        simp only [List.tail_cons]
        rw [if_pos (by simpa using hge)]

theorem C11_delNode_retires_witness :
    ∃ r1 : HPRecType,
      r1 = { sampleRecFree with
                    rlist := 136 :: sampleRecFree.rlist,
                    rcount := sampleRecFree.rcount + 1,
                    fr_smr_count := sampleRecFree.fr_smr_count - 1,
                    frListSMR := (if sampleRecFree.fr_smr_count = 0
                      then sampleRecFree.frListSMR else sampleRecFree.frListSMR.tail) } ∧
      (sampleSMRFree.setRec 1 r1).getRec 1 = some r1 ∧
      (∀ b, b ≠ 1 → (sampleSMRFree.setRec 1 r1).getRec b = sampleSMRFree.getRec b) ∧
      (sampleSMRFree.setRec 1 r1).heap = sampleSMRFree.heap ∧
      (sampleRecFree.rcount + 1 < sampleSMRFree.RH →
        sampleSMRFree.delNode 0 1 136 = some (sampleSMRFree.setRec 1 r1)) ∧
      (sampleSMRFree.RH ≤ sampleRecFree.rcount + 1 →
        sampleSMRFree.delNode 0 1 136 = (sampleSMRFree.setRec 1 r1).scan 0) :=
  C11_delNode_retires sampleSMRFree 0 1 136 sampleRecFree rfl (by decide)

/-- C12: on a record with `K` slots, `employ(hp, i, p)` with `i < K` sets slot
`i` to `p`, `retire(hp, i)` sets it to `NULL`, and `retire(hp, p)` sets to
`NULL` exactly the slots that hold `p`; every other slot, every other field
of the record (retired list, `rcount`, free lists), every other record and
the store are unchanged. -/
theorem C12_employ_retire_frame {α : Type} (s : SMR α) (hp i p : Nat) (r : HPRecType)
    (hg : s.getRec hp = some r) (hK : r.hp.length = s.K) (hi : i < s.K) :
    ((s.employ hp i p).getRec hp = some { r with hp := r.hp.set i p } ∧
      (r.hp.set i p)[i]? = some p ∧ (∀ j : Nat, j ≠ i → (r.hp.set i p)[j]? = r.hp[j]?) ∧
      (∀ b, b ≠ hp → (s.employ hp i p).getRec b = s.getRec b) ∧
      (s.employ hp i p).heap = s.heap) ∧
    ((s.retire hp i).getRec hp = some { r with hp := r.hp.set i 0 } ∧
      (r.hp.set i 0)[i]? = some 0 ∧ (∀ j : Nat, j ≠ i → (r.hp.set i 0)[j]? = r.hp[j]?) ∧
      (∀ b, b ≠ hp → (s.retire hp i).getRec b = s.getRec b) ∧
      (s.retire hp i).heap = s.heap) ∧
    ((s.retire_p hp p).getRec hp
        = some { r with hp := r.hp.map (fun x => if x = p then 0 else x) } ∧
      (∀ (j x : Nat), r.hp[j]? = some x →
        (r.hp.map (fun x => if x = p then 0 else x))[j]? = some (if x = p then 0 else x)) ∧
      (∀ b, b ≠ hp → (s.retire_p hp p).getRec b = s.getRec b) ∧
      (s.retire_p hp p).heap = s.heap) := by
  have hil : i < r.hp.length := by omega
  refine ⟨⟨?_, ?_, ?_, ?_, ?_⟩, ⟨?_, ?_, ?_, ?_, ?_⟩, ⟨?_, ?_, ?_, ?_⟩⟩
  · unfold SMR.employ
    rw [hg]
    exact SMR.getRec_setRec s hp r _ hg
  · exact List.getElem?_set_self hil
  · intro j hj
    exact List.getElem?_set_ne (by omega)
  · intro b hb
    unfold SMR.employ
    rw [hg]
    exact SMR.getRec_setRec_ne s hp b _ hb
  · unfold SMR.employ
    rw [hg]
    simp
  · unfold SMR.retire
    rw [hg]
    exact SMR.getRec_setRec s hp r _ hg
  · exact List.getElem?_set_self hil
  · intro j hj
    exact List.getElem?_set_ne (by omega)
  · intro b hb
    unfold SMR.retire
    rw [hg]
    exact SMR.getRec_setRec_ne s hp b _ hb
  · unfold SMR.retire
    rw [hg]
    simp
  · unfold SMR.retire_p
    rw [hg]
    simp only []
    rw [SMR.retireLoop_all p s.K r.hp hK]
    exact SMR.getRec_setRec s hp r _ hg
  · intro j x hx
    rw [List.getElem?_map, hx]
    rfl
  · intro b hb
    unfold SMR.retire_p
    rw [hg]
    exact SMR.getRec_setRec_ne s hp b _ hb
  · unfold SMR.retire_p
    rw [hg]
    simp

theorem C12_employ_retire_frame_witness :
    ((sampleSMRHelp.employ 2 0 8).getRec 2
        = some { sampleRecMine with hp := sampleRecMine.hp.set 0 8 } ∧
      (sampleRecMine.hp.set 0 8)[0]? = some 8 ∧
      (∀ j : Nat, j ≠ 0 → (sampleRecMine.hp.set 0 8)[j]? = sampleRecMine.hp[j]?) ∧
      (∀ b, b ≠ 2 → (sampleSMRHelp.employ 2 0 8).getRec b = sampleSMRHelp.getRec b) ∧
      (sampleSMRHelp.employ 2 0 8).heap = sampleSMRHelp.heap) ∧
    ((sampleSMRHelp.retire 2 0).getRec 2
        = some { sampleRecMine with hp := sampleRecMine.hp.set 0 0 } ∧
      (sampleRecMine.hp.set 0 0)[0]? = some 0 ∧
      (∀ j : Nat, j ≠ 0 → (sampleRecMine.hp.set 0 0)[j]? = sampleRecMine.hp[j]?) ∧
      (∀ b, b ≠ 2 → (sampleSMRHelp.retire 2 0).getRec b = sampleSMRHelp.getRec b) ∧
      (sampleSMRHelp.retire 2 0).heap = sampleSMRHelp.heap) ∧
    ((sampleSMRHelp.retire_p 2 8).getRec 2
        = some { sampleRecMine with
            hp := sampleRecMine.hp.map (fun x => if x = 8 then 0 else x) } ∧
      (∀ (j x : Nat), sampleRecMine.hp[j]? = some x →
        (sampleRecMine.hp.map (fun x => if x = 8 then 0 else x))[j]?
          = some (if x = 8 then 0 else x)) ∧
      (∀ b, b ≠ 2 → (sampleSMRHelp.retire_p 2 8).getRec b = sampleSMRHelp.getRec b) ∧
      (sampleSMRHelp.retire_p 2 8).heap = sampleSMRHelp.heap) :=
  C12_employ_retire_frame sampleSMRHelp 2 0 8 sampleRecMine rfl rfl (by decide)

end Amino

namespace Amino

namespace SMR
variable {α : Type}

theorem SameList.list_same (s : SMR α) : SameList s s := ⟨rfl, rfl, rfl, rfl, rfl⟩

theorem SameList.list_comp {s s1 s2 : SMR α} (h1 : SameList s s1) (h2 : SameList s1 s2) :
    SameList s s2 :=
  ⟨h2.K.trans h1.K, h2.hp_count.trans h1.hp_count, h2.RH.trans h1.RH,
    h2.allocType.trans h1.allocType, h2.len.trans h1.len⟩

@[simp] theorem setRec_allocType (s : SMR α) (a : Nat) (r : HPRecType) :
    (s.setRec a r).allocType = s.allocType := by
  unfold setRec; split <;> rfl

theorem SameList.list_setRec (s : SMR α) (a : Nat) (r : HPRecType) : SameList s (s.setRec a r) :=
  ⟨by simp, by simp, by simp, by simp, by simp⟩

theorem flags_setRec (s : SMR α) (a : Nat) (r r' : HPRecType) (hg : s.getRec a = some r)
    (ha : r'.active = r.active) : (s.setRec a r').flags = s.flags := by
  obtain ⟨l1, l2, h1, h2⟩ := getRec_decomp s a r hg
  subst h2
  unfold flags
  rw [setRec_of_decomp s l1 l2 r r' h1, h1]
  simp [ha]

theorem flags_setRec_none (s : SMR α) (a : Nat) (r' : HPRecType) (hg : s.getRec a = none) :
    s.setRec a r' = s := by
  unfold setRec
  split
  · rfl
  · rename_i hc
    push_neg at hc
    unfold getRec at hg
    rw [if_neg (by omega)] at hg
    have : s.hprecs.length - a < s.hprecs.length := by omega
    rw [List.getElem?_eq_getElem this] at hg
    cases hg

theorem Quiet.quiet_same (s : SMR α) : Quiet s s := ⟨SameList.list_same s, rfl, rfl⟩

theorem Quiet.quiet_comp {s s1 s2 : SMR α} (h1 : Quiet s s1) (h2 : Quiet s1 s2) : Quiet s s2 :=
  ⟨h1.list.list_comp h2.list, h2.flags.trans h1.flags, h2.tl.trans h1.tl⟩

theorem Quiet.quiet_setRec (s : SMR α) (a : Nat) (r r' : HPRecType) (hg : s.getRec a = some r)
    (ha : r'.active = r.active) : Quiet s (s.setRec a r') :=
  ⟨SameList.list_setRec s a r', flags_setRec s a r r' hg ha, by simp⟩

theorem Quiet.of_heap (s : SMR α) (h : Heap α) : Quiet s ({ s with heap := h } : SMR α) :=
  ⟨⟨rfl, rfl, rfl, rfl, rfl⟩, rfl, rfl⟩

theorem flags_getRec {s s' : SMR α} (hf : s'.flags = s.flags) (a : Nat) (r r' : HPRecType)
    (hg : s.getRec a = some r) (hg' : s'.getRec a = some r') : r'.active = r.active := by
  have hlen : s'.hprecs.length = s.hprecs.length := by
    have := congrArg List.length hf
    simpa [flags] using this
  unfold getRec at hg hg'
  split at hg
  · cases hg
  · split at hg'
    · cases hg'
    · rw [hlen] at hg'
      have h1 := congrArg (fun l => l[s.hprecs.length - a]?) hf
      simp only [flags, List.getElem?_map, hg, hg'] at h1
      simpa using h1

theorem Quiet.quiet_employ (s : SMR α) (hp i p : Nat) : Quiet s (s.employ hp i p) := by
  unfold SMR.employ
  cases hg : s.getRec hp with
  | none => exact Quiet.quiet_same s
  | some r => exact Quiet.quiet_setRec s hp r _ hg rfl

theorem Quiet.quiet_retire (s : SMR α) (hp i : Nat) : Quiet s (s.retire hp i) := by
  unfold SMR.retire
  cases hg : s.getRec hp with
  | none => exact Quiet.quiet_same s
  | some r => exact Quiet.quiet_setRec s hp r _ hg rfl

theorem Quiet.retire_p (s : SMR α) (hp p : Nat) : Quiet s (s.retire_p hp p) := by
  unfold SMR.retire_p
  cases hg : s.getRec hp with
  | none => exact Quiet.quiet_same s
  | some r => exact Quiet.quiet_setRec s hp r _ hg rfl

theorem freeData_active (r : HPRecType) (h : Heap α) (d : Nat) :
    (r.freeData h d).1.active = r.active := by
  unfold HPRecType.freeData
  split <;> rfl

theorem freeSMRNode_active (r : HPRecType) (d : Nat) :
    (r.freeSMRNode d).active = r.active := by
  unfold HPRecType.freeSMRNode
  split <;> rfl

theorem scanLoop_active (plist : List Nat) : ∀ (rl : List Nat) (r : HPRecType) (h : Heap α)
    (t : List Nat) (n : Nat), (scanLoop plist rl r h t n).1.active = r.active := by
  intro rl
  induction rl with
  | nil => intro r h t n; rfl
  | cons d rl ih =>
    intro r h t n
    unfold scanLoop
    split
    · exact ih _ _ _ _
    · rw [ih, freeSMRNode_active, freeData_active]

theorem Quiet.scan (s s' : SMR α) (tid : Nat) (h : s.scan tid = some s') : Quiet s s' := by
  unfold SMR.scan at h
  cases hg : s.getRec (s.thread_local tid) with
  | none => simp [hg] at h
  | some r =>
    cases hh : s.hprecs.head? with
    | none => simp [hg, hh] at h
    | some hd =>
      simp only [hg, hh] at h
      split at h
      · simp only [Option.some.injEq] at h
        rw [← h]
        refine (Quiet.of_heap s _).quiet_comp (Quiet.quiet_setRec _ _ r _ hg ?_)
        exact scanLoop_active _ _ _ _ _ _
      · cases h

theorem allocSMRNode_active (r r1 : HPRecType) (h : r.allocSMRNode = some r1) :
    r1.active = r.active := by
  unfold HPRecType.allocSMRNode at h
  split at h
  · cases h; rfl
  · split at h
    · cases h
    · cases h; rfl

theorem Quiet.delNode (s s' : SMR α) (tid hp p : Nat) (h : s.delNode tid hp p = some s') :
    Quiet s s' := by
  unfold SMR.delNode at h
  cases hg : s.getRec hp with
  | none => simp [hg] at h
  | some r =>
    cases ha : r.allocSMRNode with
    | none => simp [hg, ha] at h
    | some r1 =>
      simp only [hg, ha] at h
      have hq : Quiet s (s.setRec hp { r1 with rlist := p :: r1.rlist, rcount := r1.rcount + 1 }) :=
        Quiet.quiet_setRec s hp r _ hg (allocSMRNode_active r r1 ha)
      split at h
      · exact hq.quiet_comp (Quiet.scan _ _ tid h)
      · cases h
        exact hq

theorem allocDataNode_active [Inhabited α] (r r1 : HPRecType) (h h1 : Heap α) (p : Nat)
    (e : r.allocDataNode h = some (r1, h1, p)) : r1.active = r.active := by
  unfold HPRecType.allocDataNode at e
  repeat' (first | (split at e) | (dsimp only at e))
  all_goals (try cases e)
  all_goals rfl

theorem Quiet.newNode [Inhabited α] (s s' : SMR α) (hp p : Nat)
    (h : s.newNode hp = some (s', p)) : Quiet s s' := by
  unfold SMR.newNode at h
  cases hg : s.getRec hp with
  | none => simp [hg] at h
  | some r =>
    cases ha : r.allocDataNode s.heap with
    | none => simp [hg, ha] at h
    | some x =>
      obtain ⟨r1, h1, q⟩ := x
      simp only [hg, ha, Option.some.injEq, Prod.mk.injEq] at h
      rw [← h.1]
      exact (Quiet.of_heap s h1).quiet_comp
        (Quiet.quiet_setRec _ hp r r1 hg (allocDataNode_active r r1 _ _ _ ha))

end SMR

end Amino

namespace Amino

namespace SMR
variable {α : Type}

theorem retiredCount_setRec (s : SMR α) (a p : Nat) (r r' : HPRecType)
    (hg : s.getRec a = some r) :
    (s.setRec a r').retiredCount p + r.rlist.count p
      = s.retiredCount p + r'.rlist.count p := by
  obtain ⟨l1, l2, h1, h2⟩ := getRec_decomp s a r hg
  subst h2
  unfold retiredCount
  rw [setRec_of_decomp s l1 l2 r r' h1, h1]
  simp only [List.map_append, List.map_cons, List.sum_append, List.sum_cons]
  omega

theorem mergeList_spec (s : SMR α) (old my : Nat) (ro rm : HPRecType)
    (ho : s.getRec old = some ro) (hm : s.getRec my = some rm) (hne : old ≠ my)
    (hc : ro.rcount = ro.rlist.length) :
    ∃ s2, s.mergeList old my = some s2 ∧ Quiet s s2 ∧ s2.heap = s.heap ∧
      s2.getRec my = some { rm with rlist := ro.rlist ++ rm.rlist,
                                    rcount := rm.rcount + ro.rcount } ∧
      s2.getRec old = some { ro with rlist := [], rcount := 0 } ∧
      (∀ b, b ≠ old → b ≠ my → s2.getRec b = s.getRec b) ∧
      (∀ p, s2.retiredCount p = s.retiredCount p) := by
  unfold mergeList
  rw [ho]
  by_cases he : ro.rlist = []
  · have hc0 : ro.rcount = 0 := by rw [hc, he]; rfl
    simp only [he, if_true]
    refine ⟨s, rfl, Quiet.quiet_same s, rfl, ?_, ?_, fun _ _ _ => rfl, fun _ => rfl⟩
    · rw [hm, hc0]; rfl
    · rw [ho]
      congr 1
      cases ro
      simp only [] at he hc0
      subst he
      subst hc0
      rfl
  · simp only [he, if_false, hne, hm]
    generalize hrm' : ({ rm with
      rlist := ro.rlist ++ rm.rlist, rcount := rm.rcount + ro.rcount } : HPRecType) = rm'
    have hrl : rm'.rlist = ro.rlist ++ rm.rlist := by rw [← hrm']
    have hra : rm'.active = rm.active := by rw [← hrm']
    have hm1 := getRec_setRec s my rm rm' hm
    have ho1 : (s.setRec my rm').getRec old = some ro := by
      rw [getRec_setRec_ne s my old _ hne, ho]
    refine ⟨_, rfl, ?_, by simp, ?_, ?_, ?_, ?_⟩
    · exact (Quiet.quiet_setRec s my rm _ hm hra).quiet_comp (Quiet.quiet_setRec _ old ro _ ho1 rfl)
    · rw [getRec_setRec_ne _ old my _ (Ne.symm hne), hm1]
    · exact getRec_setRec _ old ro _ ho1
    · intro b hb1 hb2
      rw [getRec_setRec_ne _ old b _ hb1, getRec_setRec_ne _ my b _ hb2]
    · intro p
      have e1 := retiredCount_setRec s my p rm rm' hm
      have e2 := retiredCount_setRec _ old p ro { ro with rlist := [], rcount := 0 } ho1
      rw [hrl] at e1
      simp only [List.count_append, List.count_nil] at e1 e2
      omega

theorem flags_ext (s s' : SMR α) (hlen : s'.hprecs.length = s.hprecs.length)
    (h : ∀ a r r', s.getRec a = some r → s'.getRec a = some r' → r'.active = r.active) :
    s'.flags = s.flags := by
  unfold flags
  apply List.ext_getElem?
  intro i
  simp only [List.getElem?_map]
  by_cases hi : i < s.hprecs.length
  · have hi' : i < s'.hprecs.length := by omega
    have e1 : s.getRec (s.hprecs.length - i) = some s.hprecs[i] := by
      unfold getRec
      rw [if_neg (by omega)]
      have : s.hprecs.length - (s.hprecs.length - i) = i := by omega
      rw [this, List.getElem?_eq_getElem hi]
    have e2 : s'.getRec (s.hprecs.length - i) = some s'.hprecs[i] := by
      unfold getRec
      rw [if_neg (by omega)]
      have : s'.hprecs.length - (s.hprecs.length - i) = i := by omega
      rw [this, List.getElem?_eq_getElem hi']
    rw [List.getElem?_eq_getElem hi, List.getElem?_eq_getElem hi']
    simp only [Option.map_some']
    rw [h _ _ _ e1 e2]
  · rw [List.getElem?_eq_none (by omega), List.getElem?_eq_none (by omega)]

theorem gathered_congr (s s' : SMR α) : ∀ n : Nat,
    (∀ a, a ≤ n → a ≠ 0 → s'.getRec a = s.getRec a ∨
      ∃ r r', s.getRec a = some r ∧ s'.getRec a = some r' ∧ r.active = true ∧ r'.active = true) →
    gathered s' n = gathered s n ∧ gatheredCount s' n = gatheredCount s n := by
  intro n
  induction n with
  | zero => intro _; exact ⟨rfl, rfl⟩
  | succ n ih =>
    intro h
    have ih1 := ih (fun a ha h0 => h a (by omega) h0)
    unfold gathered gatheredCount
    rcases h (n + 1) (le_refl _) (by omega) with e | ⟨r, r', e1, e2, e3, e4⟩
    · rw [e, ih1.1, ih1.2]
      exact ⟨rfl, rfl⟩
    · rw [e1, e2]
      simp only [e3, e4, if_true]
      exact ih1

theorem helpScanLoop_spec (my : Nat) : ∀ (n : Nat) (s : SMR α) (rm : HPRecType),
    s.getRec my = some rm → rm.active = true → n ≤ s.hprecs.length →
    (∀ a r, a ≤ n → s.getRec a = some r → r.rcount = r.rlist.length) →
    ∃ s', helpScanLoop my n s = some s' ∧ Quiet s s' ∧ s'.heap = s.heap ∧
      s'.getRec my = some { rm with rlist := gathered s n ++ rm.rlist,
                                    rcount := rm.rcount + gatheredCount s n } ∧
      (∀ a r, a ≠ my → s.getRec a = some r →
        s'.getRec a = some (if a ≤ n ∧ r.active = false
          then { r with rlist := [], rcount := 0 } else r)) ∧
      (∀ p, s'.retiredCount p = s.retiredCount p) := by
  intro n
  induction n with
  | zero =>
    intro s rm hm _ _ _
    refine ⟨s, rfl, Quiet.quiet_same s, rfl, ?_, ?_, fun _ => rfl⟩
    · rw [hm]
      simp [gathered, gatheredCount]
    · intro a r hane hg
      rw [hg]
      have ha0 := getRec_ne_zero s a r hg
      rw [if_neg (by omega)]
  | succ n ih =>
    intro s rm hm hact hn hcnt
    obtain ⟨r, hr⟩ := getRec_isSome s (n + 1) (by omega) hn
    unfold helpScanLoop
    rw [hr]
    by_cases hra : r.active = true
    · simp only [hra, if_true]
      obtain ⟨s', h1, h2, h3, h4, h5, h6⟩ := ih s rm hm hact (by omega)
        (fun a r ha hg => hcnt a r (by omega) hg)
      refine ⟨s', h1, h2, h3, ?_, ?_, h6⟩
      · rw [h4]
        simp only [gathered, gatheredCount, hr, hra, if_true]
      · intro a r0 hane hg
        rw [h5 a r0 hane hg]
        by_cases han : a = n + 1
        · subst han
          rw [hr] at hg
          cases hg
          simp [hra]
        · by_cases hc : a ≤ n ∧ r0.active = false
          · rw [if_pos hc, if_pos ⟨by omega, hc.2⟩]
          · rw [if_neg hc, if_neg (by intro hc2; exact hc ⟨by omega, hc2.2⟩)]
    · have hrf : r.active = false := by simpa using hra
      have hne : n + 1 ≠ my := by
        intro e
        rw [e, hm] at hr
        cases hr
        exact hra hact
      simp only [hrf, Bool.false_eq_true, if_false, ne_eq, not_true_eq_false]
      have hr1 := getRec_setRec s (n + 1) r { r with active := true } hr
      have hm1 : (s.setRec (n + 1) { r with active := true }).getRec my = some rm := by
        rw [getRec_setRec_ne s (n + 1) my _ (Ne.symm hne), hm]
      obtain ⟨s2, e1, q2, hh2, gm2, go2, gb2, rc2⟩ :=
        mergeList_spec (s.setRec (n + 1) { r with active := true }) (n + 1) my
          { r with active := true } rm hr1 hm1 hne (hcnt (n + 1) r (le_refl _) hr)
      rw [e1]
      simp only [go2]
      have hr3 := getRec_setRec s2 (n + 1) _
        { r with active := false, rlist := [], rcount := 0 } go2
      have hm3 : (s2.setRec (n + 1) { r with active := false, rlist := [], rcount := 0 }).getRec my
          = some { rm with rlist := r.rlist ++ rm.rlist, rcount := rm.rcount + r.rcount } := by
        rw [getRec_setRec_ne s2 (n + 1) my _ (Ne.symm hne), gm2]
      have hb3 : ∀ b, b ≠ n + 1 → b ≠ my →
          (s2.setRec (n + 1) { r with active := false, rlist := [], rcount := 0 }).getRec b
            = s.getRec b := by
        intro b hb1 hb2
        rw [getRec_setRec_ne s2 (n + 1) b _ hb1, gb2 b hb1 hb2, getRec_setRec_ne s (n + 1) b _ hb1]
      have hlen3 : (s2.setRec (n + 1)
          { r with active := false, rlist := [], rcount := 0 }).hprecs.length = s.hprecs.length := by
        rw [setRec_length, q2.list.len, setRec_length]
      obtain ⟨s', h1, h2, h3, h4, h5, h6⟩ :=
        ih (s2.setRec (n + 1) { r with active := false, rlist := [], rcount := 0 })
          { rm with rlist := r.rlist ++ rm.rlist, rcount := rm.rcount + r.rcount } hm3 hact
          (by rw [hlen3]; omega)
          (by
            intro a r0 ha hg
            by_cases hame : a = my
            · subst hame
              rw [hm3] at hg
              cases hg
              have := hcnt a rm (by omega) hm
              have := hcnt (n + 1) r (le_refl _) hr
              simp only [List.length_append]
              omega
            · rw [hb3 a (by omega) hame] at hg
              exact hcnt a r0 (by omega) hg)
      have hgc := gathered_congr s
        (s2.setRec (n + 1) { r with active := false, rlist := [], rcount := 0 }) n
        (by
          intro a ha h0
          by_cases hame : a = my
          · subst hame
            right
            exact ⟨rm, _, hm, hm3, hact, hact⟩
          · left
            exact hb3 a (by omega) hame)
      refine ⟨s', h1, ?_, ?_, ?_, ?_, ?_⟩
      · refine Quiet.quiet_comp ⟨?_, ?_, ?_⟩ h2
        · exact ((SameList.list_setRec s (n + 1) _).list_comp q2.list).list_comp (SameList.list_setRec s2 _ _)
        · apply flags_ext _ _ hlen3
          intro a r0 r0' hg hg'
          by_cases han : a = n + 1
          · subst han
            rw [hr] at hg
            rw [hr3] at hg'
            cases hg
            cases hg'
            exact hrf.symm
          · by_cases hame : a = my
            · subst hame
              rw [hm] at hg
              rw [hm3] at hg'
              cases hg
              cases hg'
              rfl
            · rw [hb3 a han hame, hg] at hg'
              cases hg'
              rfl
        · rw [setRec_thread_local, q2.tl, setRec_thread_local]
      · rw [h3, setRec_heap, hh2, setRec_heap]
      · rw [h4, hgc.1, hgc.2]
        simp only [gathered, gatheredCount, hr, hra, if_false, List.append_assoc]
        have e : rm.rcount + r.rcount + gatheredCount s n
            = rm.rcount + (gatheredCount s n + r.rcount) := by omega
        rw [e]
        simp
      · intro a r0 hane hg
        by_cases han : a = n + 1
        · subst han
          rw [hr] at hg
          cases hg
          rw [h5 (n + 1) _ hane hr3]
          simp [hrf]
        · rw [h5 a r0 hane (by rw [hb3 a han hane]; exact hg)]
          by_cases hc : a ≤ n ∧ r0.active = false
          · rw [if_pos hc, if_pos ⟨by omega, hc.2⟩]
          · rw [if_neg hc, if_neg (by intro hc2; exact hc ⟨by omega, hc2.2⟩)]
      · intro p
        rw [h6 p]
        have e2 := retiredCount_setRec s2 (n + 1) p _
          { r with active := false, rlist := [], rcount := 0 } go2
        have e3 := retiredCount_setRec s (n + 1) p r { r with active := true } hr
        have e4 := rc2 p
        simp only [List.count_nil] at e2 e3
        omega

theorem gathered_eq (s : SMR α) : ∀ n : Nat, n ≤ s.hprecs.length →
    gathered s n = (((s.hprecs.drop (s.hprecs.length - n)).filter
        (fun r => !r.active)).reverse.flatMap (fun r => r.rlist)) ∧
    gatheredCount s n = (((s.hprecs.drop (s.hprecs.length - n)).filter
        (fun r => !r.active)).map (fun r => r.rcount)).sum := by
  intro n
  induction n with
  | zero =>
    intro _
    simp [gathered, gatheredCount]
  | succ n ih =>
    intro hn
    have ih1 := ih (by omega)
    have hi : s.hprecs.length - (n + 1) < s.hprecs.length := by omega
    have hg : s.getRec (n + 1) = some s.hprecs[s.hprecs.length - (n + 1)] := by
      unfold getRec
      rw [if_neg (by omega), List.getElem?_eq_getElem hi]
    have hd : s.hprecs.drop (s.hprecs.length - (n + 1))
        = s.hprecs[s.hprecs.length - (n + 1)] :: s.hprecs.drop (s.hprecs.length - n) := by
      rw [List.drop_eq_getElem_cons hi]
      congr 2
      omega
    unfold gathered gatheredCount
    rw [hg, hd]
    simp only []
    by_cases ha : (s.hprecs[s.hprecs.length - (n + 1)]).active = true
    · simp only [ha, if_true, List.filter_cons, Bool.not_true, Bool.false_eq_true, if_false]
      exact ih1
    · have hf : (s.hprecs[s.hprecs.length - (n + 1)]).active = false := by simpa using ha
      simp only [hf, Bool.false_eq_true, if_false, List.filter_cons, Bool.not_false, if_true,
        List.reverse_cons, List.flatMap_append, List.flatMap_cons, List.flatMap_nil,
        List.append_nil, List.map_cons, List.sum_cons]
      rw [ih1.1, ih1.2]
      exact ⟨rfl, by omega⟩

theorem retired_perm (s s' : SMR α) (h : ∀ p, s'.retiredCount p = s.retiredCount p) :
    (s'.hprecs.flatMap (fun r => r.rlist)).Perm (s.hprecs.flatMap (fun r => r.rlist)) := by
  rw [List.perm_iff_count]
  intro p
  rw [List.count_flatMap, List.count_flatMap]
  exact h p

end SMR

end Amino

namespace Amino

/-- C14: when the calling thread holds an active record and every `rcount` is
the length of its retired list, `helpScan` returns; every record that was
inactive has an empty retired list with `rcount` 0 and is inactive again (all
`active` flags are as before), every active record other than the caller's is
untouched, the caller's retired list is its previous list with the lists of
the inactive records put in front and its `rcount` is the sum of the counts,
and the retired pointers over all records are a permutation of those before
the call; the store is unchanged. -/
theorem C14_helpScan_moves_retired_lists {α : Type} (s : SMR α) (tid : Nat) (rm : HPRecType)
    (hm : s.getRec (s.thread_local tid) = some rm) (hact : rm.active = true)
    (hcnt : ∀ r ∈ s.hprecs, r.rcount = r.rlist.length) :
    ∃ s', s.helpScan tid = some s' ∧ s'.heap = s.heap ∧
      s'.hprecs.length = s.hprecs.length ∧ s'.flags = s.flags ∧
      (∀ a r, s.getRec a = some r → r.active = false →
        s'.getRec a = some { r with rlist := [], rcount := 0 }) ∧
      (∀ a r, s.getRec a = some r → r.active = true → a ≠ s.thread_local tid →
        s'.getRec a = some r) ∧
      s'.getRec (s.thread_local tid) = some { rm with
        rlist := ((s.hprecs.filter (fun r => !r.active)).reverse.flatMap (fun r => r.rlist))
          ++ rm.rlist,
        rcount := rm.rcount
          + ((s.hprecs.filter (fun r => !r.active)).map (fun r => r.rcount)).sum } ∧
      (s'.hprecs.flatMap (fun r => r.rlist)).Perm (s.hprecs.flatMap (fun r => r.rlist)) := by
  obtain ⟨s', h1, h2, h3, h4, h5, h6⟩ :=
    SMR.helpScanLoop_spec (s.thread_local tid) s.hprecs.length s rm hm hact (le_refl _)
      (fun a r _ hg => hcnt r (SMR.getRec_mem s a r hg))
  have hge := SMR.gathered_eq s s.hprecs.length (le_refl _)
  simp only [Nat.sub_self, List.drop_zero] at hge
  refine ⟨s', h1, h3, h2.list.len, h2.flags, ?_, ?_, ?_, SMR.retired_perm s s' h6⟩
  · intro a r hg hf
    have hne : a ≠ s.thread_local tid := by
      intro e
      rw [e, hm] at hg
      cases hg
      rw [hact] at hf
      cases hf
    have hv := SMR.getRec_valid s a r hg
    rw [h5 a r hne hg, if_pos ⟨hv.2, hf⟩]
  · intro a r hg ht hne
    rw [h5 a r hne hg, if_neg (by intro hc; rw [ht] at hc; cases hc.2)]
  · rw [h4, hge.1, hge.2]

theorem C14_helpScan_moves_retired_lists_witness :
    ∃ s', sampleSMRHelp.helpScan 0 = some s' ∧ s'.heap = sampleSMRHelp.heap ∧
      s'.hprecs.length = sampleSMRHelp.hprecs.length ∧ s'.flags = sampleSMRHelp.flags ∧
      (∀ a r, sampleSMRHelp.getRec a = some r → r.active = false →
        s'.getRec a = some { r with rlist := [], rcount := 0 }) ∧
      (∀ a r, sampleSMRHelp.getRec a = some r → r.active = true →
        a ≠ sampleSMRHelp.thread_local 0 → s'.getRec a = some r) ∧
      s'.getRec (sampleSMRHelp.thread_local 0) = some { sampleRecMine with
        rlist := ((sampleSMRHelp.hprecs.filter (fun r => !r.active)).reverse.flatMap
          (fun r => r.rlist)) ++ sampleRecMine.rlist,
        rcount := sampleRecMine.rcount
          + ((sampleSMRHelp.hprecs.filter (fun r => !r.active)).map (fun r => r.rcount)).sum } ∧
      (s'.hprecs.flatMap (fun r => r.rlist)).Perm
        (sampleSMRHelp.hprecs.flatMap (fun r => r.rlist)) :=
  C14_helpScan_moves_retired_lists sampleSMRHelp 0 sampleRecMine rfl rfl (by decide)

end Amino

namespace Amino

namespace HPRecType

theorem cleanSMRLoop_some : ∀ (n : Nat) (l : List Nat), n ≤ l.length →
    ∃ l', cleanSMRLoop n l = some l' := by
  intro n
  induction n with
  | zero => intro l _; exact ⟨l, by cases l <;> rfl⟩
  | succ n ih =>
    intro l hl
    cases l with
    | nil => simp at hl
    | cons x t =>
      simp only [cleanSMRLoop]
      exact ih t (by simpa using hl)

theorem cleanDataLoop_eq {α : Type} (fl : List Nat) : ∀ (n i : Nat) (h : Heap α),
    i + n ≤ fl.length → cleanDataLoop fl n i h = ((fl.drop i).take n).foldl Heap.free h := by
  intro n
  induction n with
  | zero => intro i h _; simp [cleanDataLoop]
  | succ n ih =>
    intro i h hl
    have hi : i < fl.length := by omega
    rw [cleanDataLoop, ih (i + 1) _ (by omega), List.drop_eq_getElem_cons hi]
    have hg : fl.getD i 0 = fl[i] := by
      rw [List.getD_eq_getElem?_getD, List.getElem?_eq_getElem hi]
      rfl
    rw [hg, List.take_succ_cons, List.foldl_cons]

theorem cleanFreeList_spec {α : Type} (K : Nat) (r : HPRecType) (h : Heap α) (hr : r.WF K) :
    r.cleanFreeList h = some ({ r with fr_smr_count := 0, fr_data_count := 0, frListSMR := [] },
      (r.frListData.take r.fr_data_count).foldl Heap.free h) := by
  unfold cleanFreeList
  obtain ⟨l', hl⟩ := cleanSMRLoop_some r.fr_smr_count r.frListSMR hr.fr_smr_le
  rw [hl]
  simp only []
  rw [cleanDataLoop_eq r.frListData r.fr_data_count 0 h (by
    have := hr.fr_data_le
    have := hr.fr_data_len
    unfold MAX_FREE_NODES at *
    omega)]
  simp

theorem cleanFreeList_fields {α : Type} (r r1 : HPRecType) (h h1 : Heap α)
    (e : r.cleanFreeList h = some (r1, h1)) :
    r1 = { r with fr_smr_count := 0, fr_data_count := 0, frListSMR := [] } := by
  unfold cleanFreeList at e
  split at e
  · cases e
  · cases e
    rfl

end HPRecType

namespace SMR
variable {α : Type}

theorem reuseHPRec_first : ∀ (l1 : List HPRecType) (r : HPRecType) (l2 : List HPRecType),
    (∀ x ∈ l1, x.active = true) → r.active = false →
    reuseHPRec (l1 ++ r :: l2) = some (l2.length + 1, l1 ++ { r with active := true } :: l2) := by
  intro l1
  induction l1 with
  | nil =>
    intro r l2 _ hr
    simp [reuseHPRec, hr]
  | cons x t ih =>
    intro r l2 hall hr
    have hx : x.active = true := hall x (by simp)
    rw [List.cons_append, reuseHPRec, if_pos hx, ih r l2 (fun y hy => hall y (by simp [hy])) hr]
    rfl

theorem reuseHPRec_none : ∀ (l : List HPRecType), (∀ x ∈ l, x.active = true) →
    reuseHPRec l = none := by
  intro l
  induction l with
  | nil => intro _; rfl
  | cons x t ih =>
    intro hall
    have hx : x.active = true := hall x (by simp)
    simp only [reuseHPRec, hx, if_true]
    rw [ih (fun y hy => hall y (by simp [hy]))]

theorem getRec_cons (s : SMR α) (x : HPRecType) (l : List HPRecType) (a : Nat)
    (hs : s.hprecs = x :: l) (ha : a ≤ l.length) :
    s.getRec a = if a = 0 then none else l[l.length - a]? := by
  unfold getRec
  rw [hs]
  by_cases h0 : a = 0
  · simp [h0]
  · have hn : ¬ (a = 0 ∨ (x :: l).length < a) := by simp; omega
    rw [if_neg hn, if_neg h0]
    have : (x :: l).length - a = (l.length - a) + 1 := by simp; omega
    rw [this]
    simp

theorem getHPRec_ne_zero (s : SMR α) (tid : Nat) : (s.getHPRec tid).2 ≠ 0 := by
  unfold getHPRec
  split
  · unfold allocHPRec
    cases hre : reuseHPRec s.hprecs with
    | none => simp
    | some x =>
      obtain ⟨a, rs⟩ := x
      obtain ⟨l1, r, l2, e1, e2, e3⟩ := reuseHPRec_decomp _ _ _ hre
      simp [e3]
  · assumption

theorem getHPRec_tl (s : SMR α) (tid : Nat) :
    (s.getHPRec tid).1.thread_local tid = (s.getHPRec tid).2 := by
  unfold getHPRec
  split
  · unfold allocHPRec
    cases hre : reuseHPRec s.hprecs with
    | none => simp
    | some x => simp
  · rfl

theorem getHPRec_tl_other (s : SMR α) (tid t : Nat) (h : s.thread_local t ≠ 0) :
    (s.getHPRec tid).1.thread_local t = s.thread_local t := by
  unfold getHPRec
  split
  · rename_i h0
    have hne : t ≠ tid := by
      intro e
      rw [e] at h
      exact h h0
    unfold allocHPRec
    cases hre : reuseHPRec s.hprecs with
    | none => simp [hne]
    | some x => simp [hne]
  · rfl

theorem getHPRec_again (s : SMR α) (tid : Nat) :
    (s.getHPRec tid).1.getHPRec tid = ((s.getHPRec tid).1, (s.getHPRec tid).2) :=
  getHPRec_of_tl _ tid _ (getHPRec_tl s tid) (getHPRec_ne_zero s tid)

/-- The two outcomes of `getHPRec` for a thread without a record. -/
theorem getHPRec_cases (s : SMR α) (tid : Nat) (h0 : s.thread_local tid = 0) :
    (∃ l1 r l2, s.hprecs = l1 ++ r :: l2 ∧ (∀ x ∈ l1, x.active = true) ∧ r.active = false ∧
      s.getHPRec tid = ({ s with
        hprecs := l1 ++ { r with active := true } :: l2,
        thread_local := fun t => if t = tid then l2.length + 1 else s.thread_local t },
        l2.length + 1)) ∨
    ((∀ x ∈ s.hprecs, x.active = true) ∧
      s.getHPRec tid = ({ s with
        hp_count := s.hp_count + 1,
        RH := (if s.hp_count + 1 ≥ MINIMAL_RLIST_LEN / 2 then (s.hp_count + 1) * 2 else s.RH),
        hprecs := ({ HPRecType.init s.K s.allocType with active := true, nrThreads := s.hp_count + 1 } : HPRecType) :: s.hprecs,
        thread_local := fun t => if t = tid then s.hprecs.length + 1 else s.thread_local t },
        s.hprecs.length + 1)) := by
  by_cases hall : ∀ x ∈ s.hprecs, x.active = true
  · right
    refine ⟨hall, ?_⟩
    unfold getHPRec allocHPRec
    rw [if_pos h0, reuseHPRec_none _ hall]
  · left
    push_neg at hall
    have key : ∀ l : List HPRecType, (∃ x ∈ l, x.active ≠ true) →
        ∃ l1 r l2, l = l1 ++ r :: l2 ∧ (∀ x ∈ l1, x.active = true) ∧ r.active = false := by
      intro l
      induction l with
      | nil => rintro ⟨x, hx, _⟩; simp at hx
      | cons y t ih =>
        intro hex
        by_cases hy : y.active = true
        · obtain ⟨x, hx, hxa⟩ := hex
          have hxt : x ∈ t := by
            rcases List.mem_cons.mp hx with e | e
            · rw [e] at hxa; exact absurd hy hxa
            · exact e
          obtain ⟨l1, r, l2, e1, e2, e3⟩ := ih ⟨x, hxt, hxa⟩
          refine ⟨y :: l1, r, l2, by rw [e1]; rfl, ?_, e3⟩
          intro z hz
          rcases List.mem_cons.mp hz with e | e
          · rw [e]; exact hy
          · exact e2 z e
        · exact ⟨[], y, t, rfl, by simp, by simpa using hy⟩
    obtain ⟨l1, r, l2, e1, e2, e3⟩ := key s.hprecs hall
    refine ⟨l1, r, l2, e1, e2, e3, ?_⟩
    unfold getHPRec allocHPRec
    rw [if_pos h0, e1, reuseHPRec_first l1 r l2 e2 e3]

theorem Quiet.mergeList (s s2 : SMR α) (old my : Nat) (h : s.mergeList old my = some s2) :
    Quiet s s2 := by
  unfold SMR.mergeList at h
  cases ho : s.getRec old with
  | none => simp [ho] at h
  | some ro =>
    simp only [ho] at h
    split at h
    · cases h; exact Quiet.quiet_same s
    · split at h
      · cases h
        exact Quiet.quiet_setRec s old ro _ ho rfl
      · rename_i hne
        cases hm : s.getRec my with
        | none => simp [hm] at h
        | some rm =>
          simp only [hm, Option.some.injEq] at h
          rw [← h]
          refine Quiet.quiet_comp (Quiet.quiet_setRec s my rm _ hm ?_) (Quiet.quiet_setRec _ old ro _ ?_ ?_)
          · rfl
          · rw [getRec_setRec_ne s my old _ hne, ho]
          · rfl

theorem Quiet.helpScanLoop (my : Nat) : ∀ (n : Nat) (s s' : SMR α),
    helpScanLoop my n s = some s' → Quiet s s' := by
  intro n
  induction n with
  | zero =>
    intro s s' h
    simp only [SMR.helpScanLoop, Option.some.injEq] at h
    rw [← h]
    exact Quiet.quiet_same s
  | succ n ih =>
    intro s s' h
    unfold SMR.helpScanLoop at h
    cases hr : s.getRec (n + 1) with
    | none => simp [hr] at h
    | some r =>
      simp only [hr] at h
      by_cases hra : r.active = true
      · simp only [hra, if_true] at h
        exact ih s s' h
      · have hrf : r.active = false := by simpa using hra
        simp only [hrf, Bool.false_eq_true, if_false, ne_eq, not_true_eq_false] at h
        have hr1 := getRec_setRec s (n + 1) r { r with active := true } hr
        cases hm : (s.setRec (n + 1) { r with active := true }).mergeList (n + 1) my with
        | none => simp [hm] at h
        | some s2 =>
          simp only [hm] at h
          have q2 := Quiet.mergeList _ s2 _ _ hm
          cases hr2 : s2.getRec (n + 1) with
          | none => simp [hr2] at h
          | some r2 =>
            simp only [hr2] at h
            refine Quiet.quiet_comp ⟨?_, ?_, ?_⟩ (ih _ s' h)
            · exact ((SameList.list_setRec s (n + 1) _).list_comp q2.list).list_comp
                (SameList.list_setRec s2 _ _)
            · apply flags_ext
              · rw [setRec_length, q2.list.len, setRec_length]
              · intro a r0 r0' hg hg'
                by_cases han : a = n + 1
                · subst han
                  rw [hr] at hg
                  rw [getRec_setRec s2 (n + 1) r2 _ hr2] at hg'
                  cases hg
                  cases hg'
                  exact hrf.symm
                · rw [getRec_setRec_ne s2 (n + 1) a _ han] at hg'
                  have hg1 : (s.setRec (n + 1) { r with active := true }).getRec a = some r0 := by
                    rw [getRec_setRec_ne s (n + 1) a _ han, hg]
                  exact flags_getRec q2.flags a r0 r0' hg1 hg'
            · rw [setRec_thread_local, q2.tl, setRec_thread_local]

theorem Quiet.helpScan (s s' : SMR α) (tid : Nat) (h : s.helpScan tid = some s') : Quiet s s' :=
  Quiet.helpScanLoop _ _ s s' h

/-- What `retireHPRec` leaves alone, whenever it returns. -/
theorem retireHPRec_frame (s s' : SMR α) (a : Nat) (h : s.retireHPRec a = some s') :
    SameList s s' ∧ s'.thread_local = s.thread_local ∧
    (∀ b, b ≠ a → s'.getRec b = s.getRec b) ∧
    (∀ r', s'.getRec a = some r' → r'.active = false) := by
  unfold SMR.retireHPRec at h
  split at h
  · rename_i h0
    cases h
    refine ⟨SameList.list_same s, rfl, fun _ _ => rfl, ?_⟩
    intro r' hr'
    exact absurd h0 (getRec_ne_zero s a r' hr')
  · cases hg : s.getRec a with
    | none => simp [hg] at h
    | some r =>
      simp only [hg] at h
      cases hc : r.cleanFreeList s.heap with
      | none => simp [hc] at h
      | some x =>
        obtain ⟨r1, h1⟩ := x
        simp only [hc, Option.some.injEq] at h
        rw [← h]
        refine ⟨?_, by simp, ?_, ?_⟩
        · exact (Quiet.of_heap s h1).list.list_comp (SameList.list_setRec _ _ _)
        · intro b hb
          rw [getRec_setRec_ne _ a b _ hb]
          rfl
        · intro r' hr'
          rw [getRec_setRec _ a r _ (by rw [getRec_heap]; exact hg)] at hr'
          cases hr'
          rfl

theorem retireHPRec_spec (s : SMR α) (a : Nat) (r : HPRecType) (hg : s.getRec a = some r)
    (hr : r.WF s.K) :
    s.retireHPRec a = some (({ s with
        heap := (r.frListData.take r.fr_data_count).foldl Heap.free s.heap } : SMR α).setRec a
      { r with hp := List.replicate s.K 0, active := false, frListSMR := [],
               fr_smr_count := 0, fr_data_count := 0 }) := by
  unfold SMR.retireHPRec
  rw [if_neg (getRec_ne_zero s a r hg), hg]
  simp only [HPRecType.cleanFreeList_spec s.K r s.heap hr]
  rw [clearSlots_all s.K r.hp hr.hp_len]

end SMR

end Amino

namespace Amino

namespace SMR
variable {α : Type}

theorem getRec_congr (s s' : SMR α) (h : s'.hprecs = s.hprecs) (a : Nat) :
    s'.getRec a = s.getRec a := by
  unfold getRec
  rw [h]

theorem getRec_push (s s' : SMR α) (x : HPRecType) (h : s'.hprecs = x :: s.hprecs) (a : Nat)
    (r : HPRecType) (hg : s.getRec a = some r) : s'.getRec a = some r := by
  have hv := getRec_valid s a r hg
  rw [getRec_cons s' x s.hprecs a h hv.2, if_neg hv.1]
  unfold getRec at hg
  rw [if_neg (by have := hv.1; have := hv.2; omega)] at hg
  exact hg

/-- What `getHPRec` does to the records there are and to the counters. -/
theorem getHPRec_frame (s : SMR α) (tid : Nat) :
    (s.getHPRec tid).1.K = s.K ∧ (s.getHPRec tid).1.heap = s.heap ∧
    (s.getHPRec tid).1.allocType = s.allocType ∧
    s.hprecs.length ≤ (s.getHPRec tid).1.hprecs.length ∧
    (s.hp_count = s.hprecs.length →
      (s.getHPRec tid).1.hp_count = (s.getHPRec tid).1.hprecs.length) ∧
    (s.RH = max MINIMAL_RLIST_LEN (2 * s.hp_count) →
      (s.getHPRec tid).1.RH = max MINIMAL_RLIST_LEN (2 * (s.getHPRec tid).1.hp_count)) ∧
    (∀ a r, s.getRec a = some r → ∃ r', (s.getHPRec tid).1.getRec a = some r' ∧
      (r' = r ∨ (r.active = false ∧ r' = { r with active := true }))) := by
  by_cases h0 : s.thread_local tid = 0
  · rcases getHPRec_cases s tid h0 with ⟨l1, r, l2, e1, e2, e3, e4⟩ | ⟨hall, e4⟩
    · rw [e4]
      refine ⟨rfl, rfl, rfl, ?_, ?_, fun h => h, ?_⟩
      · simp [e1]
      · intro h
        simp only []
        rw [h, e1]
        simp
      · intro a r0 hg
        have hh : ({ s with
            hprecs := l1 ++ { r with active := true } :: l2,
            thread_local := fun t => if t = tid then l2.length + 1 else s.thread_local t }
              : SMR α).hprecs = (s.setRec (l2.length + 1) { r with active := true }).hprecs := by
          rw [setRec_of_decomp s l1 l2 r _ e1]
        rw [getRec_congr _ _ hh]
        by_cases ha : a = l2.length + 1
        · subst ha
          rw [getRec_of_decomp s l1 l2 r e1] at hg
          cases hg
          exact ⟨_, getRec_setRec s _ r _ (getRec_of_decomp s l1 l2 r e1), Or.inr ⟨e3, rfl⟩⟩
        · rw [getRec_setRec_ne s _ a _ ha]
          exact ⟨r0, hg, Or.inl rfl⟩
    · rw [e4]
      refine ⟨rfl, rfl, rfl, ?_, ?_, ?_, ?_⟩
      · simp
      · intro h
        simp only [List.length_cons]
        omega
      · intro h
        simp only []
        unfold MINIMAL_RLIST_LEN at *
        split
        · omega
        · omega
      · intro a r0 hg
        exact ⟨r0, getRec_push s _ _ rfl a r0 hg, Or.inl rfl⟩
  · have e : s.getHPRec tid = (s, s.thread_local tid) := getHPRec_of_tl s tid _ rfl h0
    rw [e]
    exact ⟨rfl, rfl, rfl, le_refl _, fun h => h, fun h => h, fun a r hg => ⟨r, hg, Or.inl rfl⟩⟩

theorem threadExit_frame (s s' : SMR α) (tid : Nat) (h : s.threadExit tid = some s') :
    SameList s s' ∧ (∀ t, t ≠ tid → s'.thread_local t = s.thread_local t) ∧
    (∀ b, b ≠ s.thread_local tid → s'.getRec b = s.getRec b) ∧
    (∀ r', s'.getRec (s.thread_local tid) = some r' → r'.active = false) := by
  unfold SMR.threadExit at h
  split at h
  · rename_i h0
    cases h
    refine ⟨SameList.list_same s, fun _ _ => rfl, fun _ _ => rfl, ?_⟩
    intro r' hr'
    rw [h0] at hr'
    exact absurd rfl (getRec_ne_zero s 0 r' hr')
  · obtain ⟨f1, f2, f3, f4⟩ := retireHPRec_frame _ s' _ h
    refine ⟨⟨f1.K, f1.hp_count, f1.RH, f1.allocType, f1.len⟩, ?_, ?_, ?_⟩
    · intro t ht
      rw [f2]
      simp [ht]
    · intro b hb
      rw [f3 b hb]
      rfl
    · exact f4

/-- The calls that leave every flag and every record pointer of a thread alone. -/
theorem exec_quiet [Inhabited α] (s s' : SMR α) (op : Op) (h : s.exec op = some s')
    (h1 : ∀ tid, op ≠ Op.getHPRec tid) (h2 : ∀ a, op ≠ Op.retireHPRec a)
    (h3 : ∀ tid, op ≠ Op.threadExit tid) : Quiet s s' := by
  cases op with
  | getHPRec tid => exact absurd rfl (h1 tid)
  | employ hp i p =>
    simp only [exec, Option.some.injEq] at h
    rw [← h]
    exact Quiet.quiet_employ s hp i p
  | retire hp i =>
    simp only [exec, Option.some.injEq] at h
    rw [← h]
    exact Quiet.quiet_retire s hp i
  | retire_p hp p =>
    simp only [exec, Option.some.injEq] at h
    rw [← h]
    exact Quiet.retire_p s hp p
  | delNode tid hp node => exact Quiet.delNode s s' tid hp node h
  | newNode hp =>
    simp only [exec] at h
    cases hn : s.newNode hp with
    | none => simp [hn] at h
    | some x =>
      obtain ⟨s1, p⟩ := x
      simp only [hn, Option.some.injEq] at h
      rw [← h]
      exact Quiet.newNode s s1 hp p hn
  | scan tid => exact Quiet.scan s s' tid h
  | helpScan tid => exact Quiet.helpScan s s' tid h
  | retireHPRec a => exact absurd rfl (h2 a)
  | threadExit tid => exact absurd rfl (h3 tid)

theorem exec_sameList [Inhabited α] (s s' : SMR α) (op : Op) (h : s.exec op = some s')
    (h1 : ∀ tid, op ≠ Op.getHPRec tid) : SameList s s' := by
  by_cases h2 : ∀ a, op ≠ Op.retireHPRec a
  · by_cases h3 : ∀ tid, op ≠ Op.threadExit tid
    · exact (exec_quiet s s' op h h1 h2 h3).list
    · push_neg at h3
      obtain ⟨tid, e⟩ := h3
      subst e
      exact (threadExit_frame s s' tid h).1
  · push_neg at h2
    obtain ⟨a, e⟩ := h2
    subst e
    exact (retireHPRec_frame s s' a h).1

theorem Reachable.counters [Inhabited α] {K atype : Nat} {s : SMR α} (h : Reachable K atype s) :
    s.K = K ∧ s.hp_count = s.hprecs.length ∧
    s.RH = max MINIMAL_RLIST_LEN (2 * s.hp_count) := by
  induction h with
  | init => exact ⟨rfl, rfl, rfl⟩
  | step s s' op _ hex ih =>
    by_cases h1 : ∀ tid, op ≠ Op.getHPRec tid
    · have hl := exec_sameList s s' op hex h1
      refine ⟨hl.K.trans ih.1, ?_, ?_⟩
      · rw [hl.hp_count, hl.len]
        exact ih.2.1
      · rw [hl.RH, hl.hp_count]
        exact ih.2.2
    · push_neg at h1
      obtain ⟨tid, e⟩ := h1
      subst e
      simp only [exec, Option.some.injEq] at hex
      rw [← hex]
      have hf := getHPRec_frame s tid
      exact ⟨hf.1.trans ih.1, hf.2.2.2.2.1 ih.2.1, hf.2.2.2.2.2.1 ih.2.2⟩

/-- No call removes a record: an address that is a record stays one. -/
theorem exec_getRec [Inhabited α] (s s' : SMR α) (op : Op) (h : s.exec op = some s')
    (a : Nat) (r : HPRecType) (hg : s.getRec a = some r) : ∃ r', s'.getRec a = some r' := by
  have hv := getRec_valid s a r hg
  have hlen : s.hprecs.length ≤ s'.hprecs.length := by
    by_cases h1 : ∀ tid, op ≠ Op.getHPRec tid
    · rw [(exec_sameList s s' op h h1).len]
    · push_neg at h1
      obtain ⟨tid, e⟩ := h1
      subst e
      simp only [exec, Option.some.injEq] at h
      rw [← h]
      exact (getHPRec_frame s tid).2.2.2.1
  exact getRec_isSome s' a hv.1 (le_trans hv.2 hlen)

/-- Only `threadExit tid` takes the record away from thread `tid`. -/
theorem exec_tl [Inhabited α] (s s' : SMR α) (op : Op) (h : s.exec op = some s') (tid : Nat)
    (hne : op ≠ Op.threadExit tid) (h0 : s.thread_local tid ≠ 0) :
    s'.thread_local tid = s.thread_local tid := by
  by_cases h1 : ∀ t, op ≠ Op.getHPRec t
  · by_cases h2 : ∀ a, op ≠ Op.retireHPRec a
    · by_cases h3 : ∀ t, op ≠ Op.threadExit t
      · rw [(exec_quiet s s' op h h1 h2 h3).tl]
      · push_neg at h3
        obtain ⟨t, e⟩ := h3
        subst e
        have htt : tid ≠ t := by
          intro e
          rw [e] at hne
          exact hne rfl
        exact (threadExit_frame s s' t h).2.1 tid htt
    · push_neg at h2
      obtain ⟨a, e⟩ := h2
      subst e
      rw [(retireHPRec_frame s s' a h).2.1]
  · push_neg at h1
    obtain ⟨t, e⟩ := h1
    subst e
    simp only [exec, Option.some.injEq] at h
    rw [← h]
    exact getHPRec_tl_other s t tid h0

theorem execAll_tl [Inhabited α] (tid : Nat) : ∀ (ops : List Op) (s s' : SMR α),
    execAll ops s = some s' → Op.threadExit tid ∉ ops → s.thread_local tid ≠ 0 →
    s'.thread_local tid = s.thread_local tid := by
  intro ops
  induction ops with
  | nil =>
    intro s s' h _ _
    simp only [execAll, Option.some.injEq] at h
    rw [h]
  | cons op ops ih =>
    intro s s' h hno h0
    simp only [execAll] at h
    cases h1 : s.exec op with
    | none => simp [h1] at h
    | some s1 =>
      simp only [h1] at h
      have e1 := exec_tl s s1 op h1 tid (by
        intro e
        exact hno (by rw [e]; simp)) h0
      rw [ih s1 s' h (fun hm => hno (List.mem_cons_of_mem _ hm)) (by rw [e1]; exact h0), e1]

/-- How the `active` flag of a record can change in one call. -/
theorem exec_active [Inhabited α] (s s' : SMR α) (op : Op) (h : s.exec op = some s')
    (b : Nat) (rb rb' : HPRecType) (hg : s.getRec b = some rb) (hg' : s'.getRec b = some rb') :
    (rb.active = false → rb'.active = true → ∃ tid, op = Op.getHPRec tid) ∧
    (rb.active = true → rb'.active = false →
      op = Op.retireHPRec b ∨ ∃ tid, op = Op.threadExit tid ∧ s.thread_local tid = b) := by
  by_cases h1 : ∀ t, op ≠ Op.getHPRec t
  · by_cases h2 : ∀ a, op ≠ Op.retireHPRec a
    · by_cases h3 : ∀ t, op ≠ Op.threadExit t
      · have e := flags_getRec (exec_quiet s s' op h h1 h2 h3).flags b rb rb' hg hg'
        rw [e]
        constructor
        · intro x y; rw [x] at y; cases y
        · intro x y; rw [x] at y; cases y
      · push_neg at h3
        obtain ⟨t, e⟩ := h3
        subst e
        have hf := threadExit_frame s s' t h
        by_cases hb : b = s.thread_local t
        · constructor
          · intro _ y
            rw [hb] at hg'
            rw [hf.2.2.2 rb' hg'] at y
            cases y
          · intro _ _
            exact Or.inr ⟨t, rfl, hb.symm⟩
        · rw [hf.2.2.1 b hb, hg] at hg'
          cases hg'
          constructor
          · intro x y; rw [x] at y; cases y
          · intro x y; rw [x] at y; cases y
    · push_neg at h2
      obtain ⟨a, e⟩ := h2
      subst e
      have hf := retireHPRec_frame s s' a h
      by_cases hb : b = a
      · subst hb
        constructor
        · intro _ y
          rw [hf.2.2.2 rb' hg'] at y
          cases y
        · intro _ _
          exact Or.inl rfl
      · rw [hf.2.2.1 b hb, hg] at hg'
        cases hg'
        constructor
        · intro x y; rw [x] at y; cases y
        · intro x y; rw [x] at y; cases y
  · push_neg at h1
    obtain ⟨t, e⟩ := h1
    subst e
    simp only [exec, Option.some.injEq] at h
    constructor
    · intro _ _
      exact ⟨t, rfl⟩
    · intro x y
      obtain ⟨r', e1, e2⟩ := (getHPRec_frame s t).2.2.2.2.2.2 b rb hg
      rw [← h, e1] at hg'
      cases hg'
      rcases e2 with e2 | ⟨e2, _⟩
      · rw [e2, x] at y; cases y
      · rw [x] at e2; cases e2

end SMR

end Amino

namespace Amino

theorem SMR.Reachable.of_execAll {α : Type} [Inhabited α] {K atype : Nat} :
    ∀ (ops : List SMR.Op) (s s' : SMR α), SMR.Reachable K atype s →
      SMR.execAll ops s = some s' → SMR.Reachable K atype s' := by
  intro ops
  induction ops with
  | nil =>
    intro s s' h e
    simp only [SMR.execAll, Option.some.injEq] at e
    rw [← e]
    exact h
  | cons op ops ih =>
    intro s s' h e
    simp only [SMR.execAll] at e
    cases h1 : s.exec op with
    | none => simp [h1] at e
    | some s1 =>
      simp only [h1] at e
      exact ih s1 s' (SMR.Reachable.step s s1 op h h1) e

theorem SMR.Reachable.of_getHPRecs {α : Type} [Inhabited α] {K atype : Nat} :
    ∀ (l : List Nat) (s : SMR α), SMR.Reachable K atype s →
      SMR.Reachable K atype (l.foldl (fun s t => (s.getHPRec t).1) s) := by
  intro l
  induction l with
  | nil => intro s h; exact h
  | cons t l ih =>
    intro s h
    exact ih _ (SMR.Reachable.step s _ (SMR.Op.getHPRec t) h rfl)

theorem exitOps_run :
    SMR.execAll exitOps (SMR.init 1 0 : SMR StackNode) = some sampleSMRExited := by
  simp [exitOps, SMR.execAll, SMR.exec, SMR.getHPRec, SMR.allocHPRec, SMR.reuseHPRec,
    SMR.threadExit, SMR.retireHPRec, SMR.getRec, SMR.setRec, HPRecType.cleanFreeList,
    HPRecType.cleanSMRLoop, HPRecType.cleanDataLoop, SMR.clearSlots, HPRecType.init, SMR.init,
    MINIMAL_RLIST_LEN, MAX_FREE_NODES, sampleSMRExited, sampleRecIdle, Heap.empty]
  funext t
  by_cases h : t = 0 <;> simp [h]

theorem sampleSMRExited_reachable : SMR.Reachable 1 0 sampleSMRExited :=
  SMR.Reachable.of_execAll exitOps _ _ SMR.Reachable.init exitOps_run

theorem sampleSMRFree_reachable : SMR.Reachable 1 0 sampleSMRFree :=
  SMR.Reachable.of_execAll retireOps16 _ _ SMR.Reachable.init retireOps16_run

theorem sampleSMRNine_reachable : SMR.Reachable 1 0 sampleSMRNine :=
  SMR.Reachable.of_getHPRecs _ _ SMR.Reachable.init

/-- C13: for a thread without a record in a reachable state, `getHPRec`
returns the first record in list order whose `active` flag is `false`, with
the flag set and the list and `hp_count` otherwise unchanged; when every
record is active it puts a new record (`K` slots `NULL`, empty retired list,
active) at the head of the list and `hp_count` grows by one.  `hp_count` is
the number of records before and after, no call removes a record or changes
its address, and after any calls other than the exit of the thread `getHPRec`
returns the same record and leaves the state alone. -/
theorem C13_getHPRec_reuses_or_adds {α : Type} [Inhabited α] (K atype : Nat) (s : SMR α)
    (tid : Nat) (hreach : SMR.Reachable K atype s) (h0 : s.thread_local tid = 0) :
    (∀ l1 r l2, s.hprecs = l1 ++ r :: l2 → (∀ x ∈ l1, x.active = true) → r.active = false →
      s.getHPRec tid = ({ s with
        hprecs := l1 ++ { r with active := true } :: l2,
        thread_local := fun t => if t = tid then l2.length + 1 else s.thread_local t },
        l2.length + 1)) ∧
    ((∀ x ∈ s.hprecs, x.active = true) →
      ∃ rn : HPRecType, rn.hp = List.replicate K 0 ∧ rn.rlist = [] ∧ rn.rcount = 0 ∧
        rn.active = true ∧ (s.getHPRec tid).2 = s.hprecs.length + 1 ∧
        (s.getHPRec tid).1.hprecs = rn :: s.hprecs ∧
        (s.getHPRec tid).1.hp_count = s.hp_count + 1) ∧
    s.hp_count = s.hprecs.length ∧
    (s.getHPRec tid).1.hp_count = (s.getHPRec tid).1.hprecs.length ∧
    (∀ op s', s.exec op = some s' → s.hprecs.length ≤ s'.hprecs.length ∧
      ∀ a r, s.getRec a = some r → ∃ r', s'.getRec a = some r') ∧
    (∀ ops s2, SMR.Op.threadExit tid ∉ ops → SMR.execAll ops (s.getHPRec tid).1 = some s2 →
      s2.getHPRec tid = (s2, (s.getHPRec tid).2)) := by
  have hc := hreach.counters
  refine ⟨?_, ?_, hc.2.1, (SMR.getHPRec_frame s tid).2.2.2.2.1 hc.2.1, ?_, ?_⟩
  · intro l1 r l2 e1 e2 e3
    unfold SMR.getHPRec SMR.allocHPRec
    rw [if_pos h0, e1, SMR.reuseHPRec_first l1 r l2 e2 e3]
  · intro hall
    rcases SMR.getHPRec_cases s tid h0 with ⟨l1, r, l2, e1, _, e3, _⟩ | ⟨_, e4⟩
    · have := hall r (by rw [e1]; simp)
      rw [e3] at this
      cases this
    · rw [e4]
      refine ⟨_, ?_, ?_, ?_, ?_, rfl, rfl, rfl⟩
      · show List.replicate s.K 0 = List.replicate K 0
        rw [hc.1]
      · rfl
      · rfl
      · rfl
  · intro op s' he
    refine ⟨?_, fun a r hg => SMR.exec_getRec s s' op he a r hg⟩
    by_cases h1 : ∀ t, op ≠ SMR.Op.getHPRec t
    · rw [(SMR.exec_sameList s s' op he h1).len]
    · push_neg at h1
      obtain ⟨t, e⟩ := h1
      subst e
      simp only [SMR.exec, Option.some.injEq] at he
      rw [← he]
      exact (SMR.getHPRec_frame s t).2.2.2.1
  · intro ops s2 hno he
    have htl := SMR.execAll_tl tid ops _ s2 he hno (by
      rw [SMR.getHPRec_tl]
      exact SMR.getHPRec_ne_zero s tid)
    rw [SMR.getHPRec_tl] at htl
    exact SMR.getHPRec_of_tl s2 tid _ htl (SMR.getHPRec_ne_zero s tid)

theorem C13_getHPRec_reuses_or_adds_witness :
    (∀ l1 r l2, sampleSMRExited.hprecs = l1 ++ r :: l2 → (∀ x ∈ l1, x.active = true) →
      r.active = false →
      sampleSMRExited.getHPRec 0 = ({ sampleSMRExited with
        hprecs := l1 ++ { r with active := true } :: l2,
        thread_local := fun t => if t = 0 then l2.length + 1
          else sampleSMRExited.thread_local t },
        l2.length + 1)) ∧
    ((∀ x ∈ sampleSMRExited.hprecs, x.active = true) →
      ∃ rn : HPRecType, rn.hp = List.replicate 1 0 ∧ rn.rlist = [] ∧ rn.rcount = 0 ∧
        rn.active = true ∧ (sampleSMRExited.getHPRec 0).2 = sampleSMRExited.hprecs.length + 1 ∧
        (sampleSMRExited.getHPRec 0).1.hprecs = rn :: sampleSMRExited.hprecs ∧
        (sampleSMRExited.getHPRec 0).1.hp_count = sampleSMRExited.hp_count + 1) ∧
    sampleSMRExited.hp_count = sampleSMRExited.hprecs.length ∧
    (sampleSMRExited.getHPRec 0).1.hp_count = (sampleSMRExited.getHPRec 0).1.hprecs.length ∧
    (∀ op s', sampleSMRExited.exec op = some s' →
      sampleSMRExited.hprecs.length ≤ s'.hprecs.length ∧
      ∀ a r, sampleSMRExited.getRec a = some r → ∃ r', s'.getRec a = some r') ∧
    (∀ ops s2, SMR.Op.threadExit 0 ∉ ops →
      SMR.execAll ops (sampleSMRExited.getHPRec 0).1 = some s2 →
      s2.getHPRec 0 = (s2, (sampleSMRExited.getHPRec 0).2)) :=
  C13_getHPRec_reuses_or_adds 1 0 sampleSMRExited 0 sampleSMRExited_reachable rfl

/-- C15: `retireHPRec` on a well-formed record sets its `K` hazard slots to
`NULL`, releases the nodes of its free list of data nodes, leaves both free
lists empty and sets `active` to `false`; the record stays in the list with
its retired list, `rcount` and the other fields unchanged, and no other
record changes.  Over one call of any function, a flag that goes from `false`
to `true` does so in `getHPRec` (`allocHPRec`), and one that goes from `true`
to `false` does so in `retireHPRec` of that record; `helpScan` sets the flags
it takes back before it returns. -/
theorem C15_retireHPRec_and_active_flag {α : Type} [Inhabited α] (s : SMR α) (a : Nat)
    (r : HPRecType) (hg : s.getRec a = some r) (hr : r.WF s.K) :
    (∃ s', s.retireHPRec a = some s' ∧
      s'.getRec a = some { r with
        hp := List.replicate s.K 0, active := false, frListSMR := [],
        fr_smr_count := 0, fr_data_count := 0 } ∧
      s'.heap = (r.frListData.take r.fr_data_count).foldl Heap.free s.heap ∧
      s'.hprecs.length = s.hprecs.length ∧
      (∀ b, b ≠ a → s'.getRec b = s.getRec b)) ∧
    (∀ op s', s.exec op = some s' → ∀ b rb rb', s.getRec b = some rb → s'.getRec b = some rb' →
      (rb.active = false → rb'.active = true → ∃ tid, op = SMR.Op.getHPRec tid) ∧
      (rb.active = true → rb'.active = false →
        op = SMR.Op.retireHPRec b ∨
          ∃ tid, op = SMR.Op.threadExit tid ∧ s.thread_local tid = b)) ∧
    (∀ tid s', s.helpScan tid = some s' → s'.flags = s.flags) := by
  refine ⟨?_, fun op s' he b rb rb' h1 h2 => SMR.exec_active s s' op he b rb rb' h1 h2,
    fun tid s' h => (SMR.Quiet.helpScan s s' tid h).flags⟩
  have e := SMR.retireHPRec_spec s a r hg hr
  have f := SMR.retireHPRec_frame s _ a e
  refine ⟨_, e, ?_, ?_, f.1.len, f.2.2.1⟩
  · exact SMR.getRec_setRec _ a r _ (by rw [SMR.getRec_heap]; exact hg)
  · simp

theorem C15_retireHPRec_and_active_flag_witness :
    (∃ s', sampleSMRFree.retireHPRec 1 = some s' ∧
      s'.getRec 1 = some { sampleRecFree with
        hp := List.replicate sampleSMRFree.K 0, active := false, frListSMR := [],
        fr_smr_count := 0, fr_data_count := 0 } ∧
      s'.heap = (sampleRecFree.frListData.take sampleRecFree.fr_data_count).foldl Heap.free
        sampleSMRFree.heap ∧
      s'.hprecs.length = sampleSMRFree.hprecs.length ∧
      (∀ b, b ≠ 1 → s'.getRec b = sampleSMRFree.getRec b)) ∧
    (∀ op s', sampleSMRFree.exec op = some s' → ∀ b rb rb', sampleSMRFree.getRec b = some rb →
      s'.getRec b = some rb' →
      (rb.active = false → rb'.active = true → ∃ tid, op = SMR.Op.getHPRec tid) ∧
      (rb.active = true → rb'.active = false →
        op = SMR.Op.retireHPRec b ∨
          ∃ tid, op = SMR.Op.threadExit tid ∧ sampleSMRFree.thread_local tid = b)) ∧
    (∀ tid s', sampleSMRFree.helpScan tid = some s' → s'.flags = sampleSMRFree.flags) :=
  C15_retireHPRec_and_active_flag sampleSMRFree 1 sampleRecFree rfl
    ⟨by decide, by decide, by decide, by decide, by decide⟩

/-- C16: in every state that calls of the functions of smr.h lead to from the
constructor, `RH` is the larger of `MINIMAL_RLIST_LEN`, which is 16, and
`2 * hp_count`.  (The counters are unbounded in this development; the `int`
and `unsigned` of the code hold their values while fewer than `2^30` records
exist.) -/
theorem C16_threshold_is_max {α : Type} [Inhabited α] (K atype : Nat) (s : SMR α)
    (hreach : SMR.Reachable K atype s) :
    s.RH = max MINIMAL_RLIST_LEN (2 * s.hp_count) ∧ MINIMAL_RLIST_LEN = 16 :=
  ⟨hreach.counters.2.2, rfl⟩

theorem C16_threshold_is_max_witness :
    sampleSMRNine.hp_count = 9 ∧ sampleSMRNine.RH = 18 ∧
    sampleSMRNine.RH = max MINIMAL_RLIST_LEN (2 * sampleSMRNine.hp_count) ∧
    MINIMAL_RLIST_LEN = 16 :=
  ⟨by decide, by decide, C16_threshold_is_max 1 0 sampleSMRNine sampleSMRNine_reachable⟩

end Amino

namespace Amino

namespace HPRecType

theorem Capped.allocSMRNode {r r1 : HPRecType} (hc : r.Capped) (e : r.allocSMRNode = some r1) :
    r1.Capped := by
  unfold HPRecType.allocSMRNode at e
  split at e
  · cases e; exact hc
  · split at e
    · cases e
    · rename_i x rest hl
      cases e
      have h1 := hc.smr_le
      have h2 := hc.smr_len
      rw [hl] at h2
      simp only [List.length_cons] at h2
      exact ⟨hc.data_le, by simp only []; omega, by simp only []; omega, hc.data_len, hc.noalign⟩

theorem Capped.freeSMRNode {r : HPRecType} (hc : r.Capped) (d : Nat) :
    (r.freeSMRNode d).Capped := by
  unfold HPRecType.freeSMRNode
  split
  · rename_i hlt
    have h2 := hc.smr_len
    exact ⟨hc.data_le, by simp only []; omega, by simp only [List.length_cons]; omega,
      hc.data_len, hc.noalign⟩
  · exact hc

theorem Capped.freeData {α : Type} {r : HPRecType} (hc : r.Capped) (h : Heap α) (d : Nat) :
    (r.freeData h d).1.Capped := by
  unfold HPRecType.freeData
  split
  · rename_i hlt
    exact ⟨by simp only []; omega, hc.smr_le, hc.smr_len,
      by simp only [List.length_set]; exact hc.data_len, hc.noalign⟩
  · exact hc

theorem Capped.allocDataNode {α : Type} [Inhabited α] {r r1 : HPRecType} {h h1 : Heap α}
    {p : Nat} (hc : r.Capped) (e : r.allocDataNode h = some (r1, h1, p)) : r1.Capped := by
  unfold HPRecType.allocDataNode at e
  have hd := hc.data_le
  repeat' (first | (split at e) | (dsimp only at e))
  all_goals (try cases e)
  all_goals (first | exact hc |
    exact ⟨by simp only []; omega, hc.smr_le, hc.smr_len, hc.data_len, hc.noalign⟩)

theorem Capped.cleanFreeList {α : Type} {r r1 : HPRecType} {h h1 : Heap α}
    (hc : r.Capped) (e : r.cleanFreeList h = some (r1, h1)) : r1.Capped := by
  rw [cleanFreeList_fields r r1 h h1 e]
  exact ⟨by simp, by simp, rfl, hc.data_len, hc.noalign⟩

theorem Capped.execRec {α : Type} [Inhabited α] {x x' : HPRecType × Heap α} (op : RecOp)
    (hc : x.1.Capped) (e : HPRecType.execRec x op = some x') : x'.1.Capped := by
  cases op with
  | allocDataNode =>
    simp only [HPRecType.execRec] at e
    cases ha : x.1.allocDataNode x.2 with
    | none => simp [ha] at e
    | some y =>
      obtain ⟨r1, h1, p⟩ := y
      simp only [ha, Option.some.injEq] at e
      rw [← e]
      exact hc.allocDataNode ha
  | allocSMRNode =>
    simp only [HPRecType.execRec] at e
    cases ha : x.1.allocSMRNode with
    | none => simp [ha] at e
    | some r1 =>
      simp only [ha, Option.some.injEq] at e
      rw [← e]
      exact hc.allocSMRNode ha
  | freeData node =>
    simp only [HPRecType.execRec, Option.some.injEq] at e
    rw [← e]
    exact hc.freeData x.2 node
  | freeSMRNode data =>
    simp only [HPRecType.execRec, Option.some.injEq] at e
    rw [← e]
    exact hc.freeSMRNode data
  | cleanFreeList =>
    simp only [HPRecType.execRec] at e
    obtain ⟨r1, h1⟩ := x'
    exact hc.cleanFreeList e

theorem Capped.runRec {α : Type} [Inhabited α] : ∀ (ops : List RecOp)
    (x x' : HPRecType × Heap α), x.1.Capped → HPRecType.runRec ops x = some x' → x'.1.Capped := by
  intro ops
  induction ops with
  | nil =>
    intro x x' hc e
    simp only [HPRecType.runRec, Option.some.injEq] at e
    rw [← e]
    exact hc
  | cons op ops ih =>
    intro x x' hc e
    simp only [HPRecType.runRec] at e
    cases h1 : HPRecType.execRec x op with
    | none => simp [h1] at e
    | some x1 =>
      simp only [h1] at e
      exact ih x1 x' (Capped.execRec op hc h1) e

end HPRecType

end Amino

namespace Amino

end Amino

namespace Amino

namespace DequeBody

theorem pushRight_zero (s : DequeBody) (tid : Nat) (d : Int) : pushRight 0 s tid d = none := by
  unfold pushRight
  cases (s.mm.getHPRec tid).1.newNode (s.mm.getHPRec tid).2 with
  | none => rfl
  | some x =>
    obtain ⟨mm1, node⟩ := x
    simp only
    split
    · rfl
    · cases mm1.heap.modify node (fun n => { n with data := d }) with
      | none => rfl
      | some h =>
        simp only
        split
        · rfl
        · rfl

theorem pushLeft_zero (s : DequeBody) (tid : Nat) (d : Int) : pushLeft 0 s tid d = none := by
  unfold pushLeft
  cases (s.mm.getHPRec tid).1.newNode (s.mm.getHPRec tid).2 with
  | none => rfl
  | some x =>
    obtain ⟨mm1, node⟩ := x
    simp only
    split
    · rfl
    · cases mm1.heap.modify node (fun n => { n with data := d }) with
      | none => rfl
      | some h =>
        simp only
        split
        · rfl
        · rfl

theorem popRight_zero (s : DequeBody) (tid : Nat) (ret : Int) :
    popRight 0 s tid ret = none := by
  simp [popRight, popRightLoop]

theorem popLeft_zero (s : DequeBody) (tid : Nat) (ret : Int) :
    popLeft 0 s tid ret = none := by
  simp [popLeft, popLeftLoop]

theorem peekRight_zero (s : DequeBody) (tid : Nat) (ret : Int) :
    peekRight 0 s tid ret = none := by
  simp [peekRight, peekRightLoop]

theorem peekLeft_zero (s : DequeBody) (tid : Nat) (ret : Int) :
    peekLeft 0 s tid ret = none := by
  simp [peekLeft, peekLeftLoop]

/-- A call that returns keeps the representation invariant. -/
theorem step_inv (fuel tid : Nat) (op : DOp) (s s' : DequeBody) (r : DRes) (l : List Nat)
    (hi : Inv s l)
    (hb : ∀ d, op = DOp.pushLeft d ∨ op = DOp.pushRight d →
      ALIGN * (s.mm.heap.brk + 1) < 2 ^ LONG_BITS)
    (h : step fuel tid s op = some (s', r)) : ∃ l', Inv s' l' := by
  cases op with
  | pushLeft d =>
    simp only [step] at h
    cases fuel with
    | zero => simp [pushLeft_zero] at h
    | succ fuel =>
      obtain ⟨s1, a, h1, h2, -⟩ := pushLeft_spec fuel tid d s l hi (hb d (Or.inl rfl))
      rw [h1] at h
      cases h
      exact ⟨_, h2⟩
  | pushRight d =>
    simp only [step] at h
    cases fuel with
    | zero => simp [pushRight_zero] at h
    | succ fuel =>
      obtain ⟨s1, a, h1, h2, -⟩ := pushRight_spec fuel tid d s l hi (hb d (Or.inr rfl))
      rw [h1] at h
      cases h
      exact ⟨_, h2⟩
  | popLeft ret =>
    simp only [step] at h
    cases fuel with
    | zero => simp [popLeft_zero] at h
    | succ fuel =>
      cases l with
      | nil =>
        obtain ⟨s1, h1, h2, -⟩ := popLeft_nil fuel tid ret s hi
        rw [h1] at h
        cases h
        exact ⟨_, h2⟩
      | cons a l =>
        obtain ⟨s1, n, -, h1, h2, -⟩ := popLeft_cons fuel tid ret s l a hi
        rw [h1] at h
        cases h
        exact ⟨_, h2⟩
  | popRight ret =>
    simp only [step] at h
    cases fuel with
    | zero => simp [popRight_zero] at h
    | succ fuel =>
      rcases nil_or_snoc l with rfl | ⟨l1, a, rfl⟩
      · obtain ⟨s1, h1, h2, -⟩ := popRight_nil fuel tid ret s hi
        rw [h1] at h
        cases h
        exact ⟨_, h2⟩
      · obtain ⟨s1, n, -, h1, h2, -⟩ := popRight_snoc fuel tid ret s l1 a hi
        rw [h1] at h
        cases h
        exact ⟨_, h2⟩
  | peekLeft ret =>
    simp only [step] at h
    cases fuel with
    | zero => simp [peekLeft_zero] at h
    | succ fuel =>
      cases l with
      | nil =>
        obtain ⟨s1, h1, h2, -⟩ := peekLeft_nil fuel tid ret s hi
        rw [h1] at h
        cases h
        exact ⟨_, h2⟩
      | cons a l =>
        obtain ⟨s1, n, -, h1, h2, -⟩ := peekLeft_cons fuel tid ret s l a hi
        rw [h1] at h
        cases h
        exact ⟨_, h2⟩
  | peekRight ret =>
    simp only [step] at h
    cases fuel with
    | zero => simp [peekRight_zero] at h
    | succ fuel =>
      rcases nil_or_snoc l with rfl | ⟨l1, a, rfl⟩
      · obtain ⟨s1, h1, h2, -⟩ := peekRight_nil fuel tid ret s hi
        rw [h1] at h
        cases h
        exact ⟨_, h2⟩
      · obtain ⟨s1, n, -, h1, h2, -⟩ := peekRight_snoc fuel tid ret s l1 a hi
        rw [h1] at h
        cases h
        exact ⟨_, h2⟩
  | empty =>
    simp only [step] at h
    cases he : DequeBody.empty fuel s with
    | none => simp [he] at h
    | some b =>
      simp only [he, Option.some.injEq, Prod.mk.injEq] at h
      rw [← h.1]
      exact ⟨l, hi⟩
  | size =>
    simp only [step] at h
    cases he : DequeBody.size fuel s with
    | none => simp [he] at h
    | some b =>
      simp only [he, Option.some.injEq, Prod.mk.injEq] at h
      rw [← h.1]
      exact ⟨l, hi⟩

/-- Every reachable state of the deque satisfies the representation invariant. -/
theorem Reachable.deque_inv {tid : Nat} {s : DequeBody} (hr : Reachable tid s) :
    ∃ l, Inv s l := by
  induction hr with
  | init mm hw hb => exact ⟨[], deque_init_inv mm hw hb⟩
  | step fuel s s' op r _ hb h ih =>
    obtain ⟨l, hi⟩ := ih
    exact step_inv fuel tid op s s' r l hi hb h

/-- The links between neighbours, by position. -/
theorem linked_index (h : Heap DNode) : ∀ (l : List Nat), linked h l →
    ∀ (i prev cur : Nat), l[i]? = some prev → l[i + 1]? = some cur →
      (∃ n, h.cells prev = some n ∧ n.right = cur) ∧
      (∃ m, h.cells cur = some m ∧ m.left = prev) := by
  intro l
  induction l with
  | nil => intro _ i prev cur h1; simp at h1
  | cons a t ih =>
    intro hl i prev cur h1 h2
    cases t with
    | nil => simp at h2
    | cons b t =>
      obtain ⟨k1, k2, k3⟩ := hl
      cases i with
      | zero =>
        simp only [List.getElem?_cons_zero, Option.some.injEq] at h1
        simp only [zero_add, List.getElem?_cons_succ, List.getElem?_cons_zero,
          Option.some.injEq] at h2
        subst h1
        subst h2
        exact ⟨k1, k2⟩
      | succ i =>
        exact ih k3 i prev cur (by simpa using h1) (by simpa using h2)

end DequeBody

open DequeBody in
/-- In every state that the statements of the public operations, run by one
thread, reach from `start mm`, the status of the anchor is `STABLE`, and there is the
list `l` of the nodes from left to right: `size()` returns its length, the
anchor is `<NULL, NULL>` when `l` is empty and holds the first and the last
node of `l` otherwise, and for neighbours `prev`, `cur` in `l` the `right` of
`prev` is `cur` and the `left` of `cur` is `prev`, so that the walk along
`right` from `anchor.left` reaches `anchor.right` in `size() - 1` steps. -/
theorem body_stable_and_linked (tid : Nat) (s : DequeBody) (hr : Reachable tid s) :
    s.anchor.getStatus = STABLE ∧
    ∃ l : List Nat, (∀ g, size (l.length + 1 + g) s = some l.length) ∧
      s.anchor.getLeft = l.headD 0 ∧ s.anchor.getRight = l.getLastD 0 ∧
      l.Nodup ∧ (∀ a ∈ l, a ≠ 0) ∧
      (∀ (i prev cur : Nat), l[i]? = some prev → l[i + 1]? = some cur →
        (∃ n, s.mm.heap.cells prev = some n ∧ n.right = cur) ∧
        (∃ m, s.mm.heap.cells cur = some m ∧ m.left = prev)) := by
  obtain ⟨l, hi⟩ := hr.deque_inv
  have hlast4 : 4 ∣ l.getLastD 0 := by
    cases l with
    | nil => simp
    | cons a t => exact hi.dvd _ (getLastD_mem a t)
  have hlastlt : l.getLastD 0 < 2 ^ LONG_BITS := by
    cases l with
    | nil => simp [LONG_BITS]
    | cons a t => exact hi.lt _ (getLastD_mem a t)
  refine ⟨?_, l, fun g => deque_size_spec g s l hi, ?_, ?_, hi.nodup, hi.ne_zero,
    linked_index s.mm.heap l hi.linked⟩
  · rw [hi.anchor]
    exact getStatus_mkAnchor _ _ STABLE hlastlt (by decide)
  · rw [hi.anchor]
    rfl
  · rw [hi.anchor]
    exact getRight_mkAnchor _ _ STABLE hlast4 hlastlt

theorem sampleDeque2_reachable : DequeBody.Reachable 0 DequeBody.sampleDeque2 :=
  DequeBody.Reachable.step 2 DequeBody.sampleDeque1 _ (DequeBody.DOp.pushRight 2)
    DequeBody.DRes.done
    (DequeBody.Reachable.step 2 (DequeBody.start (SMR.init 3 0)) _
      (DequeBody.DOp.pushRight 1) DequeBody.DRes.done
      (DequeBody.Reachable.init _ (SMR.init_wf 3 0) (by decide))
      (fun _ _ => by decide) rfl)
    (fun _ _ => by decide) rfl

open DequeBody in
theorem body_stable_and_linked_example :
    size 3 sampleDeque2 = some 2 ∧
    sampleDeque2.anchor.getStatus = STABLE ∧
    ∃ l : List Nat, (∀ g, size (l.length + 1 + g) sampleDeque2 = some l.length) ∧
      sampleDeque2.anchor.getLeft = l.headD 0 ∧ sampleDeque2.anchor.getRight = l.getLastD 0 ∧
      l.Nodup ∧ (∀ a ∈ l, a ≠ 0) ∧
      (∀ (i prev cur : Nat), l[i]? = some prev → l[i + 1]? = some cur →
        (∃ n, sampleDeque2.mm.heap.cells prev = some n ∧ n.right = cur) ∧
        (∃ m, sampleDeque2.mm.heap.cells cur = some m ∧ m.left = prev)) :=
  ⟨by decide, body_stable_and_linked 0 sampleDeque2 sampleDeque2_reachable⟩

end Amino

namespace Amino

namespace LockFreeQueue

theorem enqueue_zero (s : LockFreeQueue) (tid : Nat) (d : Int) : enqueue 0 s tid d = none := by
  unfold enqueue
  cases (s.mm.getHPRec tid).1.newNode (s.mm.getHPRec tid).2 with
  | none => rfl
  | some x =>
    obtain ⟨mm1, node⟩ := x
    simp only
    cases mm1.heap.modify node (fun n => { n with data := d }) with
    | none => rfl
    | some h => rfl

theorem dequeue_zero (s : LockFreeQueue) (tid : Nat) (ret : Int) :
    dequeue 0 s tid ret = none := by
  simp [dequeue, dequeueLoop]

theorem peekFront_zero (s : LockFreeQueue) (tid : Nat) (top : Int) :
    peekFront 0 s tid top = none := by
  simp [peekFront, peekFrontLoop]

/-- Every reachable state of the queue satisfies the representation invariant. -/
theorem Reachable.queue_inv {tid : Nat} {s : LockFreeQueue} (hr : Reachable tid s) :
    ∃ l, Inv s l := by
  induction hr with
  | init mm hw => exact ⟨[], queue_init_inv mm hw⟩
  | enqueue fuel s s' d _ h ih =>
    obtain ⟨l, hi⟩ := ih
    cases fuel with
    | zero => rw [enqueue_zero] at h; cases h
    | succ fuel =>
      obtain ⟨s1, a, h1, h2, -⟩ := enqueue_spec fuel s tid d l hi
      rw [h1] at h
      cases h
      exact ⟨_, h2⟩
  | dequeue fuel s s' ret ret' b _ h ih =>
    obtain ⟨l, hi⟩ := ih
    cases fuel with
    | zero => rw [dequeue_zero] at h; cases h
    | succ fuel =>
      cases l with
      | nil =>
        obtain ⟨s1, h1, h2, -⟩ := dequeue_nil fuel s tid ret hi
        rw [h1] at h
        cases h
        exact ⟨_, h2⟩
      | cons a l =>
        obtain ⟨s1, n, -, h1, h2, -⟩ := dequeue_cons fuel s tid ret a l hi
        rw [h1] at h
        cases h
        exact ⟨_, h2⟩
  | peekFront fuel s s' top top' b _ h ih =>
    obtain ⟨l, hi⟩ := ih
    cases fuel with
    | zero => rw [peekFront_zero] at h; cases h
    | succ fuel =>
      obtain ⟨s1, h1, h2, -⟩ := queue_peekFront_spec fuel s tid top l hi
      rw [h1] at h
      cases h
      exact ⟨_, h2⟩

end LockFreeQueue

open LockFreeQueue in
/-- C19: in every state of a queue that one thread reaches by `enqueue`,
`dequeue` and `peekFront` calls there is the list `l` of the nodes after the
node `head` points to: the `next` pointers lead from `head` through `l` to
`NULL`, and `tail` is the last node of that chain (so it is the last node or
the one before it).  The node at `head` is a sentinel: `size()` is the length
of `l`, `peekFront` returns the value of the first node of `l`, and `dequeue`
returns that value and makes that node the new sentinel, or returns `false`
when `l` is empty.  An `enqueue` returns with `tail` at the node it appended,
the last node of the chain. -/
theorem C19_queue_sentinel_and_tail (tid : Nat) (s : LockFreeQueue) (hr : Reachable tid s) :
    ∃ l : List Nat,
      s.mm.heap.path QNode.next s.head (s.head :: l) 0 ∧
      (s.head :: l).getLast? = some s.tail ∧
      ((s.head :: l).getLast? = some s.tail ∨ (s.head :: l).dropLast.getLast? = some s.tail) ∧
      (∀ g, size (l.length + 1 + g) s = some l.length) ∧
      (∀ fuel top, ∃ s', peekFront (fuel + 1) s tid top
        = some (s', (dataOf s.mm.heap l).headD top, !(dataOf s.mm.heap l).isEmpty)) ∧
      (l = [] → ∀ fuel ret, ∃ s', dequeue (fuel + 1) s tid ret = some (s', ret, false)) ∧
      (∀ a t, l = a :: t → ∀ fuel ret, ∃ s' n, s.mm.heap.cells a = some n ∧
        dequeue (fuel + 1) s tid ret = some (s', n.data, true) ∧ s'.head = a) ∧
      (∀ fuel d, ∃ s' a, enqueue (fuel + 1) s tid d = some s' ∧ s'.head = s.head ∧
        s'.mm.heap.path QNode.next s'.head (s'.head :: (l ++ [a])) 0 ∧
        (s'.head :: (l ++ [a])).getLast? = some s'.tail ∧ s'.tail = a ∧
        dataOf s'.mm.heap (l ++ [a]) = dataOf s.mm.heap l ++ [d]) := by
  obtain ⟨l, hi⟩ := hr.queue_inv
  refine ⟨l, hi.path, hi.tail, Or.inl hi.tail, fun g => queue_size_spec g s l hi, ?_, ?_, ?_, ?_⟩
  · intro fuel top
    obtain ⟨s', h1, -⟩ := queue_peekFront_spec fuel s tid top l hi
    exact ⟨s', h1⟩
  · intro hl fuel ret
    subst hl
    obtain ⟨s', h1, -⟩ := dequeue_nil fuel s tid ret hi
    exact ⟨s', h1⟩
  · intro a t hl fuel ret
    subst hl
    obtain ⟨s', n, h0, h1, -, h3, -⟩ := dequeue_cons fuel s tid ret a t hi
    exact ⟨s', n, h0, h1, h3⟩
  · intro fuel d
    obtain ⟨s', a, h1, h2, h3, h4, h5⟩ := enqueue_spec fuel s tid d l hi
    exact ⟨s', a, h1, h3, h2.path, h2.tail, h5, h4⟩

theorem sampleQueue2_reachable : LockFreeQueue.Reachable 0 LockFreeQueue.sampleQueue2 :=
  LockFreeQueue.Reachable.enqueue 2 LockFreeQueue.sampleQueue1 _ 2
    (LockFreeQueue.Reachable.enqueue 2 (LockFreeQueue.init (SMR.init 2 0)) _ 1
      (LockFreeQueue.Reachable.init _ (SMR.init_wf 2 0)) rfl)
    rfl

open LockFreeQueue in
theorem C19_queue_sentinel_and_tail_witness :
    size 3 sampleQueue2 = some 2 ∧
    ∃ l : List Nat,
      sampleQueue2.mm.heap.path QNode.next sampleQueue2.head (sampleQueue2.head :: l) 0 ∧
      (sampleQueue2.head :: l).getLast? = some sampleQueue2.tail ∧
      ((sampleQueue2.head :: l).getLast? = some sampleQueue2.tail ∨
        (sampleQueue2.head :: l).dropLast.getLast? = some sampleQueue2.tail) ∧
      (∀ g, size (l.length + 1 + g) sampleQueue2 = some l.length) ∧
      (∀ fuel top, ∃ s', peekFront (fuel + 1) sampleQueue2 0 top
        = some (s', (dataOf sampleQueue2.mm.heap l).headD top,
            !(dataOf sampleQueue2.mm.heap l).isEmpty)) ∧
      (l = [] → ∀ fuel ret, ∃ s', dequeue (fuel + 1) sampleQueue2 0 ret
        = some (s', ret, false)) ∧
      (∀ a t, l = a :: t → ∀ fuel ret, ∃ s' n, sampleQueue2.mm.heap.cells a = some n ∧
        dequeue (fuel + 1) sampleQueue2 0 ret = some (s', n.data, true) ∧ s'.head = a) ∧
      (∀ fuel d, ∃ s' a, enqueue (fuel + 1) sampleQueue2 0 d = some s' ∧
        s'.head = sampleQueue2.head ∧
        s'.mm.heap.path QNode.next s'.head (s'.head :: (l ++ [a])) 0 ∧
        (s'.head :: (l ++ [a])).getLast? = some s'.tail ∧ s'.tail = a ∧
        dataOf s'.mm.heap (l ++ [a]) = dataOf sampleQueue2.mm.heap l ++ [d]) :=
  ⟨by decide, C19_queue_sentinel_and_tail 0 sampleQueue2 sampleQueue2_reachable⟩

end Amino

namespace Amino

namespace EBStack

@[simp] theorem toStack_withStack (e : EBStack) (s : LockFreeStack) :
    (e.withStack s).toStack = s := rfl

@[simp] theorem withStack_withStack (e : EBStack) (s s' : LockFreeStack) :
    (e.withStack s).withStack s' = e.withStack s' := rfl

@[simp] theorem withStack_toStack (e : EBStack) : e.withStack e.toStack = e := rfl

theorem pushLoop_eq (newTop fuel : Nat) (e : EBStack) :
    pushLoop newTop fuel e = (LockFreeStack.pushLoop newTop fuel e.toStack).map e.withStack := by
  cases fuel with
  | zero => rfl
  | succ fuel =>
    unfold pushLoop LockFreeStack.pushLoop
    simp only [toStack]
    cases e.mm.heap.modify newTop (fun n => { n with next := e.top }) with
    | none => rfl
    | some h =>
      simp only [if_true, Option.map_some']
      rfl

theorem push_eq (fuel tid : Nat) (e : EBStack) (d : Int) :
    push fuel e tid d = (LockFreeStack.push fuel e.toStack tid d).map e.withStack := by
  unfold push LockFreeStack.push
  simp only [toStack]
  cases (e.mm.getHPRec tid).1.newNode (e.mm.getHPRec tid).2 with
  | none => rfl
  | some x =>
    obtain ⟨mm1, newTop⟩ := x
    simp only
    cases mm1.heap.modify newTop (fun n => { n with data := d }) with
    | none => rfl
    | some h =>
      simp only
      rw [pushLoop_eq]
      rfl

theorem popLoop_eq (hp fuel : Nat) (e : EBStack) (ret : Int) :
    popLoop hp fuel e ret = (LockFreeStack.popLoop hp fuel e.toStack).map
      (fun x => (e.withStack x.1, ret, x.2.map some)) := by
  cases fuel with
  | zero => rfl
  | succ fuel =>
    unfold popLoop LockFreeStack.popLoop
    simp only [toStack]
    by_cases h0 : e.top = 0
    · rw [if_pos h0, if_pos h0]
      rfl
    · rw [if_neg h0, if_neg h0]
      simp only [ne_eq, not_true_eq_false, if_false]
      cases (e.mm.employ hp 0 e.top).heap.read e.top with
      | none => rfl
      | some node =>
        simp only [if_true, Option.map_some']
        rfl

theorem popLoop_tl (hp : Nat) : ∀ (fuel : Nat) (s s1 : LockFreeStack) (o : Option Nat),
    LockFreeStack.popLoop hp fuel s = some (s1, o) →
    s1.mm.thread_local = s.mm.thread_local := by
  intro fuel
  induction fuel with
  | zero => intro s s1 o h; simp [LockFreeStack.popLoop] at h
  | succ fuel ih =>
    intro s s1 o h
    unfold LockFreeStack.popLoop at h
    repeat' (first | (split at h) | (dsimp only at h))
    all_goals (try cases h)
    all_goals (first | rfl | exact SMR.employ_thread_local _ _ _ _ |
      (have h' := ih _ _ _ h; rw [h']; exact SMR.employ_thread_local _ _ _ _))

theorem pop_eq (fuel tid : Nat) (e : EBStack) (ret : Int) :
    pop fuel e tid ret = (LockFreeStack.pop fuel e.toStack tid ret).map
      (fun x => (e.withStack x.1, x.2)) := by
  unfold pop LockFreeStack.pop
  simp only []
  rw [popLoop_eq]
  simp only [toStack]
  cases hl : LockFreeStack.popLoop (e.mm.getHPRec tid).2 fuel
      { top := e.top, mm := (e.mm.getHPRec tid).1 } with
  | none => rfl
  | some x =>
    obtain ⟨s1, o⟩ := x
    simp only [Option.map_some']
    cases o with
    | none => rfl
    | some oldTop =>
      simp only [Option.map_some']
      have htl : (s1.mm.retire (e.mm.getHPRec tid).2 0).thread_local tid
          = (e.mm.getHPRec tid).2 := by
        rw [SMR.retire_eq_employ, SMR.employ_thread_local, popLoop_tl _ _ _ _ _ hl]
        exact SMR.getHPRec_tl e.mm tid
      have hget := SMR.getHPRec_of_tl _ tid _ htl (SMR.getHPRec_ne_zero e.mm tid)
      show (match (s1.mm.retire (e.mm.getHPRec tid).2 0).heap.read oldTop with
        | none => none
        | some node =>
          match ((s1.mm.retire (e.mm.getHPRec tid).2 0).getHPRec tid).1.delNode tid
              ((s1.mm.retire (e.mm.getHPRec tid).2 0).getHPRec tid).2 oldTop with
          | none => none
          | some mm3 => some (({ (e.withStack s1) with mm := mm3 } : EBStack), node.data, true)) = _
      rw [hget]
      cases (s1.mm.retire (e.mm.getHPRec tid).2 0).heap.read oldTop with
      | none => rfl
      | some node =>
        simp only
        cases (s1.mm.retire (e.mm.getHPRec tid).2 0).delNode tid (e.mm.getHPRec tid).2 oldTop with
        | none => rfl
        | some mm3 => rfl

theorem peekTopLoop_eq (hp : Nat) (ret : Int) : ∀ (fuel : Nat) (e : EBStack),
    peekTopLoop hp ret fuel e = (LockFreeStack.peekTopLoop hp ret fuel e.toStack).map
      (fun x => (e.withStack x.1, x.2)) := by
  intro fuel e
  cases fuel with
  | zero => rfl
  | succ fuel =>
    unfold peekTopLoop LockFreeStack.peekTopLoop
    simp only [toStack]
    by_cases h0 : e.top = 0
    · rw [if_pos h0, if_pos h0]
      rfl
    · rw [if_neg h0, if_neg h0]
      simp only [ne_eq, not_true_eq_false, if_false]
      cases (e.mm.employ hp 0 e.top).heap.read e.top with
      | none => rfl
      | some node => rfl

theorem peekTop_eq (fuel tid : Nat) (e : EBStack) (ret : Int) :
    peekTop fuel e tid ret = (LockFreeStack.peekTop fuel e.toStack tid ret).map
      (fun x => (e.withStack x.1, x.2)) := by
  unfold peekTop LockFreeStack.peekTop
  rw [peekTopLoop_eq]
  rfl

theorem sizeLoop_eq (h : Heap StackNode) : ∀ (fuel node ret : Nat),
    sizeLoop h fuel node ret = LockFreeStack.sizeLoop h fuel node ret := by
  intro fuel
  induction fuel with
  | zero => intro _ _; rfl
  | succ fuel ih =>
    intro node ret
    unfold sizeLoop LockFreeStack.sizeLoop
    split
    · rfl
    · cases h.read node with
      | none => rfl
      | some n => exact ih _ _

theorem step_eq (fuel tid : Nat) (e : EBStack) (op : SOp) :
    step fuel tid e op = (LockFreeStack.step fuel tid e.toStack op).map
      (fun x => (e.withStack x.1, x.2)) := by
  cases op with
  | push d =>
    simp only [step, LockFreeStack.step, push_eq]
    cases LockFreeStack.push fuel e.toStack tid d <;> rfl
  | pop ret =>
    simp only [step, LockFreeStack.step, pop_eq]
    cases LockFreeStack.pop fuel e.toStack tid ret <;> rfl
  | peekTop ret =>
    simp only [step, LockFreeStack.step, peekTop_eq]
    cases LockFreeStack.peekTop fuel e.toStack tid ret <;> rfl
  | empty => rfl
  | size =>
    simp only [step, LockFreeStack.step, size, LockFreeStack.size, sizeLoop_eq, toStack]
    cases LockFreeStack.sizeLoop e.mm.heap fuel e.top 0 <;> rfl

theorem run_eq (fuel tid : Nat) : ∀ (ops : List SOp) (e : EBStack),
    run fuel tid ops e = (LockFreeStack.run fuel tid ops e.toStack).map
      (fun x => (e.withStack x.1, x.2)) := by
  intro ops
  induction ops with
  | nil => intro e; rfl
  | cons op ops ih =>
    intro e
    simp only [run, LockFreeStack.run, step_eq]
    cases LockFreeStack.step fuel tid e.toStack op with
    | none => rfl
    | some x =>
      obtain ⟨s1, r⟩ := x
      simp only [Option.map_some', ih, toStack_withStack]
      cases LockFreeStack.run fuel tid ops s1 with
      | none => rfl
      | some y => rfl

end EBStack

namespace LockFreeStack

/-- One call on a stack in a state with the invariant returns and keeps it. -/
theorem stack_step_spec (g tid : Nat) (op : SOp) (s : LockFreeStack) (l : List Nat)
    (hi : Inv s l) :
    ∃ s' l' r, step (l.length + 1 + g) tid s op = some (s', r) ∧ Inv s' l' ∧
      l'.length ≤ l.length + 1 := by
  have hfuel : l.length + 1 + g = (l.length + g) + 1 := by omega
  cases op with
  | push d =>
    obtain ⟨s', a, h1, h2, -⟩ := push_spec (l.length + g) s tid d l hi
    refine ⟨s', a :: l, SRes.done, ?_, h2, by simp⟩
    simp only [step]
    rw [hfuel, h1]
  | pop ret =>
    cases l with
    | nil =>
      obtain ⟨s', h1, h2, -⟩ := pop_nil ([].length + g) s tid ret hi
      refine ⟨s', [], SRes.value false ret, ?_, h2, by simp⟩
      simp only [step]
      rw [hfuel, h1]
    | cons a l =>
      obtain ⟨s', n, -, h1, h2, -⟩ := pop_cons ((a :: l).length + g) s tid ret a l hi
      refine ⟨s', l, SRes.value true n.data, ?_, h2, by simp; omega⟩
      simp only [step]
      rw [hfuel, h1]
  | peekTop ret =>
    obtain ⟨s', r', b, h1, h2, -⟩ := peekTop_spec (l.length + g) s tid ret l hi
    refine ⟨s', l, SRes.value b r', ?_, h2, by simp⟩
    simp only [step]
    rw [hfuel, h1]
  | empty => exact ⟨s, l, SRes.flag (empty s), rfl, hi, by simp⟩
  | size =>
    have h1 := sizeLoop_spec s.mm.heap hi.wf.heap.null l s.top 0 g hi.path
    refine ⟨s, l, SRes.count (0 + l.length), ?_, hi, by simp⟩
    simp only [step, size]
    rw [h1]

/-- A sequence of calls on a stack in a state with the invariant returns. -/
theorem stack_run_spec (tid : Nat) (ops : List SOp) :
    ∀ (g : Nat) (s : LockFreeStack) (l : List Nat), Inv s l →
      ∃ s' rs, run (l.length + ops.length + 1 + g) tid ops s = some (s', rs) := by
  induction ops with
  | nil => intro g s l _; exact ⟨s, [], rfl⟩
  | cons op ops ih =>
    intro g s l hi
    obtain ⟨s1, l1, r, h1, h2, h3⟩ := stack_step_spec (ops.length + 1 + g) tid op s l hi
    obtain ⟨d, hd⟩ := Nat.exists_eq_add_of_le h3
    obtain ⟨s2, rs, k1⟩ := ih (d + g) s1 l1 h2
    have e1 : l.length + (op :: ops).length + 1 + g = l.length + 1 + (ops.length + 1 + g) := by
      simp only [List.length_cons]
      omega
    have e2 : l1.length + ops.length + 1 + (d + g)
        = l.length + 1 + (ops.length + 1 + g) := by omega
    rw [e2] at k1
    refine ⟨s2, r :: rs, ?_⟩
    rw [e1]
    simp only [run, h1, k1]

end LockFreeStack

end Amino

namespace Amino

/-- C20: one thread makes the calls `ops` (`push`, `pop`, `peekTop`, `empty`,
`size`) on a new `EBStack` with a collision array of size `num >= 1` and on a
new `LockFreeStack`, over the same state of the memory manager and with the
same bound on the loops.  The run on the `EBStack` is the run on the
`LockFreeStack`: it faults or runs out of fuel exactly when that one does, it
returns the same results, and it ends with the same `top` and memory manager
and with every other field as the constructor left it, so `coll_push` and
`coll_pop` hold `num` times `NULL`.  Over a well-formed memory manager both
runs return when the bound is more than the number of calls. -/
theorem C20_ebstack_runs_as_stack (mm : SMR StackNode) (num : Int) (tomb removed : Nat)
    (hnum : 1 ≤ num) (tid fuel : Nat) (ops : List SOp) :
    EBStack.run fuel tid ops (EBStack.init mm num tomb removed)
      = (LockFreeStack.run fuel tid ops (LockFreeStack.init mm)).map
          (fun x => ((EBStack.init mm num tomb removed).withStack x.1, x.2)) ∧
    (∀ e' rs, EBStack.run fuel tid ops (EBStack.init mm num tomb removed) = some (e', rs) →
      e'.coll_push = List.replicate num.toNat 0 ∧ e'.coll_pop = List.replicate num.toNat 0 ∧
      0 < e'.coll_push.length ∧ 0 < e'.coll_pop.length ∧
      (∀ x ∈ e'.coll_push, x = 0) ∧ (∀ x ∈ e'.coll_pop, x = 0)) ∧
    (mm.WF → ∀ g, ∃ e' s' rs,
      EBStack.run (ops.length + 1 + g) tid ops (EBStack.init mm num tomb removed)
        = some (e', rs) ∧
      LockFreeStack.run (ops.length + 1 + g) tid ops (LockFreeStack.init mm) = some (s', rs)) := by
  have heq := EBStack.run_eq fuel tid ops (EBStack.init mm num tomb removed)
  have hto : (EBStack.init mm num tomb removed).toStack = LockFreeStack.init mm := rfl
  rw [hto] at heq
  refine ⟨heq, ?_, ?_⟩
  · intro e' rs h
    rw [heq] at h
    cases hs : LockFreeStack.run fuel tid ops (LockFreeStack.init mm) with
    | none => rw [hs] at h; cases h
    | some x =>
      rw [hs] at h
      simp only [Option.map_some', Option.some.injEq, Prod.mk.injEq] at h
      rw [← h.1]
      have hpos : 0 < num.toNat := by omega
      refine ⟨rfl, rfl, ?_, ?_, ?_, ?_⟩
      · show 0 < (List.replicate num.toNat 0).length
        simpa using hpos
      · show 0 < (List.replicate num.toNat 0).length
        simpa using hpos
      · intro y hy
        exact (List.mem_replicate.mp hy).2
      · intro y hy
        exact (List.mem_replicate.mp hy).2
  · intro hw g
    obtain ⟨s', rs, h1⟩ := LockFreeStack.stack_run_spec tid ops g (LockFreeStack.init mm) []
      (LockFreeStack.init_inv mm hw)
    have e1 : ([] : List Nat).length + ops.length + 1 + g = ops.length + 1 + g := by simp
    rw [e1] at h1
    have heq2 := EBStack.run_eq (ops.length + 1 + g) tid ops (EBStack.init mm num tomb removed)
    rw [hto, h1] at heq2
    exact ⟨_, s', rs, heq2, h1⟩

theorem C20_ebstack_runs_as_stack_witness :
    (LockFreeStack.run 10 0 sampleStackOps (LockFreeStack.init (SMR.init 1 0))).map Prod.snd
      = some [SRes.done, SRes.done, SRes.count 2, SRes.value true 2, SRes.value true 2,
          SRes.flag false, SRes.value true 1, SRes.value false 7, SRes.flag true] ∧
    EBStack.run 10 0 sampleStackOps (EBStack.init (SMR.init 1 0) 4 1 2)
      = (LockFreeStack.run 10 0 sampleStackOps (LockFreeStack.init (SMR.init 1 0))).map
          (fun x => ((EBStack.init (SMR.init 1 0) 4 1 2).withStack x.1, x.2)) ∧
    (∀ e' rs, EBStack.run 10 0 sampleStackOps (EBStack.init (SMR.init 1 0) 4 1 2)
        = some (e', rs) →
      e'.coll_push = List.replicate (4 : Int).toNat 0 ∧
      e'.coll_pop = List.replicate (4 : Int).toNat 0 ∧
      0 < e'.coll_push.length ∧ 0 < e'.coll_pop.length ∧
      (∀ x ∈ e'.coll_push, x = 0) ∧ (∀ x ∈ e'.coll_pop, x = 0)) ∧
    ((SMR.init 1 0 : SMR StackNode).WF → ∀ g, ∃ e' s' rs,
      EBStack.run (sampleStackOps.length + 1 + g) 0 sampleStackOps
        (EBStack.init (SMR.init 1 0) 4 1 2) = some (e', rs) ∧
      LockFreeStack.run (sampleStackOps.length + 1 + g) 0 sampleStackOps
        (LockFreeStack.init (SMR.init 1 0)) = some (s', rs)) :=
  ⟨by decide, C20_ebstack_runs_as_stack (SMR.init 1 0) 4 1 2 (by decide) 0 10 sampleStackOps⟩

end Amino

namespace Amino

theorem randomLevelLoop_spec : ∀ (fuel x level : Nat), level ≤ MAXLEVEL - 1 →
    MAXLEVEL - 1 - level < fuel →
    ∃ L, randomLevelLoop fuel x level = some L ∧ level ≤ L ∧ L ≤ MAXLEVEL - 1 := by
  intro fuel
  induction fuel with
  | zero => intro x level _ h; omega
  | succ fuel ih =>
    intro x level hl hf
    unfold randomLevelLoop
    split
    · rename_i hc
      obtain ⟨L, h1, h2, h3⟩ := ih (intShr x 1) (level + 1) (by omega) (by omega)
      exact ⟨L, h1, by omega, h3⟩
    · exact ⟨level, rfl, le_refl _, hl⟩

theorem intShl_lt (x k : Nat) : intShl x k < 2 ^ INT_WIDTH :=
  Nat.mod_lt _ (by decide)

theorem intShr_lt (x k : Nat) (hx : x < 2 ^ INT_WIDTH) (hk : k ≤ INT_WIDTH) :
    intShr x k < 2 ^ INT_WIDTH := by
  unfold intShr
  have hdiv : x / 2 ^ k < 2 ^ (INT_WIDTH - k) := by
    rw [Nat.div_lt_iff_lt_mul (Nat.pow_pos (by decide))]
    rw [← Nat.pow_add, Nat.sub_add_cancel hk]
    exact hx
  have hle : 2 ^ (INT_WIDTH - k) ≤ 2 ^ INT_WIDTH := Nat.pow_le_pow_right (by decide) (by omega)
  split
  · omega
  · omega

theorem xorshift_lt (seed : Nat) (h : seed < 2 ^ INT_WIDTH) : xorshift seed < 2 ^ INT_WIDTH := by
  unfold xorshift
  simp only []
  have h1 : seed ^^^ intShl seed 13 < 2 ^ INT_WIDTH := Nat.xor_lt_two_pow h (intShl_lt _ _)
  have h2 : (seed ^^^ intShl seed 13) ^^^ intShr (seed ^^^ intShl seed 13) 17 < 2 ^ INT_WIDTH :=
    Nat.xor_lt_two_pow h1 (intShr_lt _ _ h1 (by decide))
  exact Nat.xor_lt_two_pow h2 (intShl_lt _ _)

/-- C21: for every 32-bit `randomSeed`, `randomLevel` of `LockFreeDictionary`
and of `LockFreePriorityQueue` returns after at most `MAXLEVEL` tests of its
loop, with a level `L`, `1 <= L <= MAXLEVEL - 1`, so `L <= MAXLEVEL = 10`, and
leaves a 32-bit value in `randomSeed`. -/
theorem C21_randomLevel_in_range (randomSeed g : Nat) (h : randomSeed < 2 ^ INT_WIDTH) :
    MAXLEVEL = 10 ∧
    (∃ seed' L, LockFreeDictionary.randomLevel (MAXLEVEL + g) randomSeed = some (seed', L) ∧
      1 ≤ L ∧ L ≤ MAXLEVEL - 1 ∧ L ≤ MAXLEVEL ∧ seed' < 2 ^ INT_WIDTH) ∧
    (∃ seed' L, LockFreePriorityQueue.randomLevel (MAXLEVEL + g) randomSeed = some (seed', L) ∧
      1 ≤ L ∧ L ≤ MAXLEVEL - 1 ∧ L ≤ MAXLEVEL ∧ seed' < 2 ^ INT_WIDTH) := by
  obtain ⟨L, h1, h2, h3⟩ := randomLevelLoop_spec (MAXLEVEL + g) (xorshift randomSeed) 1
    (by decide) (by unfold MAXLEVEL; omega)
  have hs := xorshift_lt randomSeed h
  refine ⟨rfl, ⟨_, L, ?_, h2, h3, by omega, hs⟩, ⟨_, L, ?_, h2, h3, by omega, hs⟩⟩
  · unfold LockFreeDictionary.randomLevel
    rw [h1]
  · unfold LockFreePriorityQueue.randomLevel
    rw [h1]

theorem C21_randomLevel_in_range_witness :
    LockFreeDictionary.randomLevel 10 4294967295 = some (253983, 5) ∧
    MAXLEVEL = 10 ∧
    (∃ seed' L, LockFreeDictionary.randomLevel (MAXLEVEL + 0) 4294967295 = some (seed', L) ∧
      1 ≤ L ∧ L ≤ MAXLEVEL - 1 ∧ L ≤ MAXLEVEL ∧ seed' < 2 ^ INT_WIDTH) ∧
    (∃ seed' L, LockFreePriorityQueue.randomLevel (MAXLEVEL + 0) 4294967295 = some (seed', L) ∧
      1 ≤ L ∧ L ≤ MAXLEVEL - 1 ∧ L ≤ MAXLEVEL ∧ seed' < 2 ^ INT_WIDTH) :=
  ⟨by decide, C21_randomLevel_in_range 4294967295 0 (by decide)⟩

end Amino

namespace Amino

open LockFreeQueue in
/-- C30, what the code does: `dequeue` on a queue with a first element calls
`employ(hp, 1, pHead)` and then `employ(hp, 1, pHeadNext)`, both on slot 1.
The loop is left by the successful CAS on `head` with the hazard record as it
was when the CAS was attempted: slot 1 holds the successor `pHeadNext`, slot 0
is as it was before the call, and the old head, which differs from the
successor, has been overwritten in slot 1. -/
theorem C30_dequeue_overwrites_head_hazard (fuel tid : Nat) (ret : Int) (s : LockFreeQueue)
    (a : Nat) (l : List Nat) (hi : Inv s (a :: l)) (hK : s.mm.K = 2) :
    ∃ n, s.mm.heap.cells a = some n ∧
      dequeueLoop (s.mm.getHPRec tid).2 (fuel + 1) { s with mm := (s.mm.getHPRec tid).1 } ret
        = some ({ head := a, tail := s.tail,
                  mm := (((s.mm.getHPRec tid).1.employ (s.mm.getHPRec tid).2 1 s.head).employ
                    (s.mm.getHPRec tid).2 1 a) }, n.data, some s.head) ∧
      (((s.mm.getHPRec tid).1.employ (s.mm.getHPRec tid).2 1 s.head).employ
        (s.mm.getHPRec tid).2 1 a).slot (s.mm.getHPRec tid).2 1 = some a ∧
      (((s.mm.getHPRec tid).1.employ (s.mm.getHPRec tid).2 1 s.head).employ
        (s.mm.getHPRec tid).2 1 a).slot (s.mm.getHPRec tid).2 0
        = (s.mm.getHPRec tid).1.slot (s.mm.getHPRec tid).2 0 ∧
      s.head ≠ a := by
  obtain ⟨-, hd, hhd, hp2⟩ := hi.path
  obtain ⟨hda, n, hn, hrest⟩ := hp2
  have hnd := List.nodup_cons.mp hi.nodup
  have ha0 : a ≠ 0 := SMR.live_ne_zero _ hi.wf a (hi.live a (by simp))
  have htail : s.head ≠ s.tail := by
    intro hc
    have h1 : (a :: l).getLast? = some s.tail := by
      simpa [List.getLast?_cons_cons] using hi.tail
    exact hnd.1 (hc ▸ List.mem_of_getLast?_eq_some h1)
  obtain ⟨g1, g2, g3, g4⟩ := SMR.getHPRec_spec s.mm hi.wf tid
  generalize hmm1 : (s.mm.getHPRec tid).1 = mm1 at g1 g2 g3 g4
  generalize hhp : (s.mm.getHPRec tid).2 = hp at g2 g3
  obtain ⟨e1, e2, e3, e4, -⟩ := SMR.employ_spec mm1 g1 hp 1 s.head
  obtain ⟨f1, f2, f3, f4, -⟩ := SMR.employ_spec (mm1.employ hp 1 s.head) e1 hp 1 a
  have hv1 : (mm1.employ hp 1 s.head).valid hp := SMR.valid_of_length mm1 _ hp (by rw [e4]) g3
  have hK1 : (mm1.employ hp 1 s.head).K = 2 := by rw [e2.K, g4.K, hK]
  refine ⟨n, hn, ?_, ?_, ?_, ?_⟩
  · simp only [dequeueLoop, ne_eq, not_true_eq_false, if_false, Heap.read, (g4.trans e2).heap,
      hhd, hda, ha0, htail, ((g4.trans e2).trans f2).heap, hn, if_true]
  · exact SMR.slot_employ_same _ e1 hp 1 a hv1 (by rw [hK1]; decide)
  · rw [SMR.slot_employ_other _ hp 1 0 a (by decide), SMR.slot_employ_other _ hp 1 0 s.head
      (by decide)]
  · intro hc
    exact hnd.1 (by rw [hc]; simp)

open LockFreeQueue in
theorem sampleQueue1_inv : Inv sampleQueue1 [16] := by
  obtain ⟨s', a, h1, h2, -, -, h5⟩ :=
    enqueue_spec 1 (LockFreeQueue.init (SMR.init 2 0)) 0 1 []
      (queue_init_inv _ (SMR.init_wf 2 0))
  have e : sampleQueue1 = s' := by simp [sampleQueue1, h1]
  have ha : a = 16 := by rw [← h5, ← e]; rfl
  rw [e, ← ha]
  exact h2

open LockFreeQueue in
theorem C30_dequeue_overwrites_head_hazard_witness :
    ((sampleQueue1.mm.getHPRec 0).1.getRec (sampleQueue1.mm.getHPRec 0).2).map (fun r => r.hp)
      = some [0, 0] ∧
    ((((sampleQueue1.mm.getHPRec 0).1.employ (sampleQueue1.mm.getHPRec 0).2 1
        sampleQueue1.head).employ (sampleQueue1.mm.getHPRec 0).2 1 16).getRec
          (sampleQueue1.mm.getHPRec 0).2).map (fun r => r.hp) = some [0, 16] ∧
    sampleQueue1.head = 8 ∧
    ∃ n, sampleQueue1.mm.heap.cells 16 = some n ∧
      dequeueLoop (sampleQueue1.mm.getHPRec 0).2 (0 + 1)
          { sampleQueue1 with mm := (sampleQueue1.mm.getHPRec 0).1 } 7
        = some ({ head := 16, tail := sampleQueue1.tail,
                  mm := (((sampleQueue1.mm.getHPRec 0).1.employ (sampleQueue1.mm.getHPRec 0).2 1
                    sampleQueue1.head).employ (sampleQueue1.mm.getHPRec 0).2 1 16) },
            n.data, some sampleQueue1.head) ∧
      (((sampleQueue1.mm.getHPRec 0).1.employ (sampleQueue1.mm.getHPRec 0).2 1
        sampleQueue1.head).employ (sampleQueue1.mm.getHPRec 0).2 1 16).slot
          (sampleQueue1.mm.getHPRec 0).2 1 = some 16 ∧
      (((sampleQueue1.mm.getHPRec 0).1.employ (sampleQueue1.mm.getHPRec 0).2 1
        sampleQueue1.head).employ (sampleQueue1.mm.getHPRec 0).2 1 16).slot
          (sampleQueue1.mm.getHPRec 0).2 0
        = (sampleQueue1.mm.getHPRec 0).1.slot (sampleQueue1.mm.getHPRec 0).2 0 ∧
      sampleQueue1.head ≠ 16 :=
  ⟨by decide, by decide, by decide,
    C30_dequeue_overwrites_head_hazard 0 0 7 sampleQueue1 16 [] sampleQueue1_inv rfl⟩

end Amino

namespace Amino

/-- A call on the deque returns on every state that satisfies the invariant,
given `l.length + 1` or more passes; a push needs room for one more node. -/
theorem deque_step_returns (g tid : Nat) (op : DequeBody.DOp) (s : DequeBody) (l : List Nat)
    (hi : DequeBody.Inv s l)
    (hb : ∀ d, op = DequeBody.DOp.pushLeft d ∨ op = DequeBody.DOp.pushRight d →
      ALIGN * (s.mm.heap.brk + 1) < 2 ^ LONG_BITS) :
    ∃ s' r, DequeBody.step (l.length + 1 + g) tid s op = some (s', r) := by
  have hfuel : l.length + 1 + g = (l.length + g) + 1 := by omega
  cases op with
  | pushLeft d =>
    obtain ⟨s', r, h, -⟩ := DequeBody.deque_step_spec g tid (DequeBody.DOp.pushLeft d) s l hi
      (hb d (Or.inl rfl))
    exact ⟨s', _, h⟩
  | pushRight d =>
    obtain ⟨s', r, h, -⟩ := DequeBody.deque_step_spec g tid (DequeBody.DOp.pushRight d) s l hi
      (hb d (Or.inr rfl))
    exact ⟨s', _, h⟩
  | popLeft ret =>
    cases l with
    | nil =>
      obtain ⟨s', h1, -⟩ := DequeBody.popLeft_nil ([].length + g) tid ret s hi
      exact ⟨s', _, by simp only [DequeBody.step]; rw [hfuel, h1]⟩
    | cons a l =>
      obtain ⟨s', n, h0, h1, -⟩ :=
        DequeBody.popLeft_cons ((a :: l).length + g) tid ret s l a hi
      exact ⟨s', _, by simp only [DequeBody.step]; rw [hfuel, h1]⟩
  | popRight ret =>
    rcases DequeBody.nil_or_snoc l with rfl | ⟨l', a, rfl⟩
    · obtain ⟨s', h1, -⟩ := DequeBody.popRight_nil ([].length + g) tid ret s hi
      exact ⟨s', _, by simp only [DequeBody.step]; rw [hfuel, h1]⟩
    · obtain ⟨s', n, h0, h1, -⟩ :=
        DequeBody.popRight_snoc ((l' ++ [a]).length + g) tid ret s l' a hi
      exact ⟨s', _, by simp only [DequeBody.step]; rw [hfuel, h1]⟩
  | peekLeft ret =>
    cases l with
    | nil =>
      obtain ⟨s', h1, -⟩ := DequeBody.peekLeft_nil ([].length + g) tid ret s hi
      exact ⟨s', _, by simp only [DequeBody.step]; rw [hfuel, h1]⟩
    | cons a l =>
      obtain ⟨s', n, h0, h1, -⟩ :=
        DequeBody.peekLeft_cons ((a :: l).length + g) tid ret s l a hi
      exact ⟨s', _, by simp only [DequeBody.step]; rw [hfuel, h1]⟩
  | peekRight ret =>
    rcases DequeBody.nil_or_snoc l with rfl | ⟨l', a, rfl⟩
    · obtain ⟨s', h1, -⟩ := DequeBody.peekRight_nil ([].length + g) tid ret s hi
      exact ⟨s', _, by simp only [DequeBody.step]; rw [hfuel, h1]⟩
    · obtain ⟨s', n, h0, h1, -⟩ :=
        DequeBody.peekRight_snoc ((l' ++ [a]).length + g) tid ret s l' a hi
      exact ⟨s', _, by simp only [DequeBody.step]; rw [hfuel, h1]⟩
  | empty =>
    exact ⟨s, _, by
      simp only [DequeBody.step]; rw [hfuel, DequeBody.deque_empty_spec _ s l hi]⟩
  | size =>
    exact ⟨s, _, by
      simp only [DequeBody.step]; rw [DequeBody.deque_size_spec g s l hi]⟩

/-- The statements of every public operation of `LockFreeDeque`, started from
`start mm`, return from every state reachable by such executions, given
`size() + 2` or more passes.  A push is made while the store has room for one
more node below `2 ^ LONG_BITS`. -/
theorem body_deque_operations_return (tid : Nat) (s : DequeBody)
    (hr : DequeBody.Reachable tid s) : ∃ n, s.size (n + 1) = some n ∧
      ∀ op g, ((∀ d, op = DequeBody.DOp.pushLeft d ∨ op = DequeBody.DOp.pushRight d →
          ALIGN * (s.mm.heap.brk + 1) < 2 ^ LONG_BITS) →
        ∃ s' r, DequeBody.step (n + 2 + g) tid s op = some (s', r)) := by
  obtain ⟨l, hi⟩ := hr.deque_inv
  refine ⟨l.length, ?_, fun op g hb => ?_⟩
  · exact DequeBody.deque_size_spec 0 s l hi
  · obtain ⟨s', r, h⟩ := deque_step_returns (g + 1) tid op s l hi hb
    exact ⟨s', r, by rw [← h]; congr 1; omega⟩

end Amino

namespace Amino

/-- C27, what the code does: on the range `[2, 3]` with `threadNum == 1` and
multiplication as `func` the range is shorter than `MULTI_NUM * threadNum`,
and `accumulate` returns `std::accumulate(first + 1, last, *first)`, the sum
5, while the reduction of the range under `func` is 6.  On the range
`[2, 3, 4]` the tasks are used and the result is the reduction 24. -/
theorem C27_accumulate_short_range_ignores_func :
    accumulate 1 [2, 3] (fun a b => a * b) = some 5 ∧
    std_accumulate (fun a b => a * b) 2 [3] = 6 ∧
    accumulate 1 [2, 3, 4] (fun a b => a * b) = some 24 := by
  refine ⟨by decide, by decide, by decide⟩

end Amino

namespace Amino

theorem MARKED_MARK_aligned (p : Nat) (h : ALIGN ∣ p) : MARKED (MARK p) = true := by
  rw [MARK_aligned p h]
  unfold MARKED
  obtain ⟨k, rfl⟩ := h
  simp [ALIGN, Nat.and_one_is_mod]
  omega

theorem POINTER_MARK_aligned (p : Nat) (h : ALIGN ∣ p) : POINTER (MARK p) = p := by
  rw [MARK_aligned p h]
  unfold POINTER
  obtain ⟨k, rfl⟩ := h
  simp [ALIGN, Nat.shiftLeft_eq, Nat.shiftRight_eq_div_pow]
  omega

namespace OrderedList

theorem mchain_head (h : Heap NodeType) (p : Nat) (L : List (Nat × Bool))
    (hc : mchain h p L) : p = (nodesOf L).headD 0 := by
  cases L with
  | nil => exact hc
  | cons x L =>
    obtain ⟨a, m⟩ := x
    exact hc.1

theorem mchain_aligned (h : Heap NodeType) (hw : h.WF) (p : Nat) (L : List (Nat × Bool))
    (hc : mchain h p L) : ALIGN ∣ p := by
  cases L with
  | nil =>
    have : p = 0 := hc
    subst this
    exact aligned_zero
  | cons x L =>
    obtain ⟨a, m⟩ := x
    obtain ⟨e, n, q, hn, -, -⟩ := hc
    subst e
    exact hw.aligned p (by rw [hn]; simp)

theorem mchain_frame (h h' : Heap NodeType) (L : List (Nat × Bool)) :
    ∀ (p : Nat), (∀ a ∈ nodesOf L, h'.cells a = h.cells a) → mchain h p L → mchain h' p L := by
  induction L with
  | nil => intro p _ hc; exact hc
  | cons x L ih =>
    obtain ⟨a, m⟩ := x
    intro p hf hc
    obtain ⟨e, n, q, hn, hq, hr⟩ := hc
    refine ⟨e, n, q, ?_, hq, ih q (fun b hb => hf b (by simp [nodesOf] at hb ⊢; exact Or.inr hb)) hr⟩
    rw [hf a (by simp [nodesOf])]
    exact hn

theorem nodesOf_append (L1 L2 : List (Nat × Bool)) :
    nodesOf (L1 ++ L2) = nodesOf L1 ++ nodesOf L2 := by
  simp [nodesOf]

theorem unmarkedOf_append (L1 L2 : List (Nat × Bool)) :
    unmarkedOf (L1 ++ L2) = unmarkedOf L1 ++ unmarkedOf L2 := by
  simp [unmarkedOf]

theorem markedOf_append (L1 L2 : List (Nat × Bool)) :
    markedOf (L1 ++ L2) = markedOf L1 ++ markedOf L2 := by
  simp [markedOf]

theorem unmarkedOf_sub (L : List (Nat × Bool)) : ∀ a ∈ unmarkedOf L, a ∈ nodesOf L := by
  intro a ha
  simp only [unmarkedOf, nodesOf, List.mem_map, List.mem_filter] at ha ⊢
  obtain ⟨x, ⟨hx, -⟩, e⟩ := ha
  exact ⟨x, hx, e⟩

theorem markedOf_sub (L : List (Nat × Bool)) : ∀ a ∈ markedOf L, a ∈ nodesOf L := by
  intro a ha
  simp only [markedOf, nodesOf, List.mem_map, List.mem_filter] at ha ⊢
  obtain ⟨x, ⟨hx, -⟩, e⟩ := ha
  exact ⟨x, hx, e⟩

theorem Unlinked.unl_self (m : SMR NodeType) (hw : m.WF) : Unlinked m m [] [] :=
  ⟨hw, rfl, rfl, rfl, by simp, fun q => by simp, fun _ _ => rfl⟩

theorem Unlinked.unl_comp {m m1 m2 : SMR NodeType} {ps1 del1 ps2 del2 : List Nat}
    (h1 : Unlinked m m1 ps1 del1) (h2 : Unlinked m1 m2 ps2 del2) :
    Unlinked m m2 (ps1 ++ ps2) (del2 ++ del1) := by
  refine ⟨h2.wf, h2.K.trans h1.K, h2.tl.trans h1.tl, h2.len.trans h1.len, ?_, ?_, ?_⟩
  · have p1 : List.Perm (ps1 ++ ps2 ++ m.allOwned) (ps2 ++ (ps1 ++ m.allOwned)) := by
      rw [← List.append_assoc]
      exact List.Perm.append_right _ List.perm_append_comm
    have p2 : List.Perm (ps2 ++ (ps1 ++ m.allOwned)) (ps2 ++ (m1.allOwned ++ del1)) :=
      List.Perm.append_left _ h1.perm
    have p3 : List.Perm (ps2 ++ (m1.allOwned ++ del1)) ((m2.allOwned ++ del2) ++ del1) := by
      rw [← List.append_assoc]
      exact List.Perm.append_right _ h2.perm
    rw [← List.append_assoc]
    exact (p1.trans p2).trans p3
  · intro q
    rw [h2.alloc, h1.alloc]
    simp only [List.mem_append, not_or]
    tauto
  · intro q hq
    simp only [List.mem_append, not_or] at hq
    rw [h2.data q hq.1, h1.data q hq.2]

theorem Unlinked.of_slots {m m' : SMR NodeType} (h : SMR.SlotsOnly m m')
    (htl : m'.thread_local = m.thread_local) (hlen : m'.hprecs.length = m.hprecs.length) :
    Unlinked m m' [] [] :=
  ⟨h.wf, h.K, htl, hlen, by simp [h.same.owned], fun q => by simp [h.same.heap],
    fun q _ => by rw [h.same.heap]⟩

theorem Unlinked.of_cells {m m' : SMR NodeType} (h : SMR.CellsOnly m m')
    (hd : ∀ q, (m'.heap.cells q).map NodeType.data = (m.heap.cells q).map NodeType.data) :
    Unlinked m m' [] [] :=
  ⟨h.wf, h.K, h.thread_local, by rw [h.hprecs], by simp [h.allOwned],
    fun q => by simp [h.alloc], fun q _ => hd q⟩

theorem Unlinked.of_retired {m m' : SMR NodeType} {ps del : List Nat} (hw : m'.WF)
    (h : SMR.Retired m m' ps del) : Unlinked m m' ps del := by
  refine ⟨hw, h.K, h.tl, h.len, h.perm, ?_, ?_⟩
  · intro q
    rw [h.cells]
    by_cases hq : q ∈ del <;> simp [hq]
  · intro q hq
    rw [h.cells, if_neg hq]

theorem Unlinked.live_of {m m' : SMR NodeType} {ps del : List Nat} (h : Unlinked m m' ps del)
    (q : Nat) (hl : m.live q) (hq : q ∉ ps) : m'.live q ∧ q ∉ del := by
  have hm := h.perm.mem_iff (a := q)
  simp only [List.mem_append] at hm
  have h1 : ¬ (q ∈ m'.allOwned ∨ q ∈ del) := by
    rw [← hm]; rintro (h | h)
    · exact hq h
    · exact hl.2 h
  push_neg at h1
  exact ⟨⟨(h.alloc q).mpr ⟨hl.1, h1.2⟩, h1.1⟩, h1.2⟩

theorem Unlinked.dead_of {m m' : SMR NodeType} {ps del : List Nat} (h : Unlinked m m' ps del)
    (q : Nat) (hq : q ∈ ps) : ¬ m'.live q := by
  intro hl
  have hm := h.perm.mem_iff (a := q)
  simp only [List.mem_append] at hm
  rcases hm.mp (Or.inl hq) with h1 | h1
  · exact hl.2 h1
  · exact ((h.alloc q).mp hl.1).2 h1

theorem Unlinked.unl_valid {m m' : SMR NodeType} {ps del : List Nat} (h : Unlinked m m' ps del)
    (a : Nat) (ha : m.valid a) : m'.valid a :=
  ⟨ha.1, by rw [h.len]; exact ha.2⟩

end OrderedList

end Amino

namespace Amino

namespace OrderedList

theorem load_congr (s s' : OrderedList) (loc : Loc) (hh : s'.head = s.head)
    (hc : ∀ d, loc = Loc.next d → s'.mm.heap.cells d = s.mm.heap.cells d) :
    s'.load loc = s.load loc := by
  cases loc with
  | head => simp [load, hh]
  | next d => simp [load, Heap.read, hc d rfl]

/-- Storing `v` into a location whose node, if it is a field of a node, is allocated. -/
theorem store_prev (s : OrderedList) (prev : Loc) (cur v : Nat) (hw : s.mm.WF)
    (hl : s.load prev = some cur) :
    ∃ s2, s.store v prev = some s2 ∧ SMR.CellsOnly s.mm s2.mm ∧ s2.dummy = s.dummy ∧
      (prev ≠ Loc.head → s2.head = s.head) ∧ s2.load prev = some v ∧
      (∀ q, prev ≠ Loc.next q → s2.mm.heap.cells q = s.mm.heap.cells q) ∧
      (∀ q, (s2.mm.heap.cells q).map NodeType.data = (s.mm.heap.cells q).map NodeType.data) := by
  cases prev with
  | head =>
    exact ⟨{ s with head := v }, by simp [store], SMR.CellsOnly.cells_self _ hw, rfl,
      fun h => absurd rfl h, by simp [load], fun _ _ => rfl, fun _ => rfl⟩
  | next d =>
    simp only [load, Heap.read] at hl
    cases hn : s.mm.heap.cells d with
    | none => rw [hn] at hl; cases hl
    | some n =>
      refine ⟨{ s with mm := { s.mm with heap := s.mm.heap.put d (some { n with next := v }) } },
        by simp [store, Heap.modify, hn], SMR.CellsOnly.put _ hw d _ (by rw [hn]; simp), rfl,
        fun _ => rfl, by simp [load, Heap.read, Heap.put_cells], ?_, ?_⟩
      · intro q hq
        have : q ≠ d := by rintro rfl; exact hq rfl
        simp [Heap.put_cells, this]
      · intro q
        simp only [Heap.put_cells]
        split
        · rename_i h; subst h; simp [hn]
        · rfl

end OrderedList

end Amino

namespace Amino

namespace OrderedList

theorem unmarkedOf_cons_false (a : Nat) (L : List (Nat × Bool)) :
    unmarkedOf ((a, false) :: L) = a :: unmarkedOf L := by
  simp [unmarkedOf]

theorem unmarkedOf_cons_true (a : Nat) (L : List (Nat × Bool)) :
    unmarkedOf ((a, true) :: L) = unmarkedOf L := by
  simp [unmarkedOf]

theorem markedOf_cons_false (a : Nat) (L : List (Nat × Bool)) :
    markedOf ((a, false) :: L) = markedOf L := by
  simp [markedOf]

theorem markedOf_cons_true (a : Nat) (L : List (Nat × Bool)) :
    markedOf ((a, true) :: L) = a :: markedOf L := by
  simp [markedOf]

theorem nodesOf_cons (a : Nat) (m : Bool) (L : List (Nat × Bool)) :
    nodesOf ((a, m) :: L) = a :: nodesOf L := rfl

/-- The `while` loop of `find` on a list with marked nodes: it passes the
nodes `rest`, unlinks the marked ones and hands them to `delNode`, and stops
at the first node of `post`. -/
theorem findGo_mwalk (key : Int) (start : Loc) (tid hp g : Nat) (post : List (Nat × Bool)) :
    ∀ (rest : List (Nat × Bool)) (s : OrderedList) (prev : Loc) (cur next : Nat),
      s.mm.WF → s.mm.valid hp → s.mm.K = NHPOINTER → s.mm.thread_local tid = hp →
      mchain s.mm.heap cur (rest ++ post) →
      (nodesOf (rest ++ post)).Nodup →
      (∀ a ∈ nodesOf (rest ++ post), s.mm.live a) →
      s.load prev = some cur →
      (∀ d, prev = Loc.next d → d ∉ nodesOf (rest ++ post) ∧ s.mm.live d) →
      (cur = 0 → next = 0) →
      (∀ a ∈ unmarkedOf rest, ∀ n, s.mm.heap.cells a = some n → n.data < key) →
      (∀ c m, post.head? = some (c, m) →
        m = false ∧ ∀ n, s.mm.heap.cells c = some n → key ≤ n.data) →
      ∃ s' nx b del, findGo key start tid hp (rest.length + 1 + g) s (some (prev, cur, next))
          = some (s', { prev := some (lastLoc prev (unmarkedOf rest)),
                        cur := (nodesOf post).headD 0, next := nx, isFound := b }, b) ∧
        Unlinked s.mm s'.mm (markedOf rest) del ∧
        s'.dummy = s.dummy ∧ (prev ≠ Loc.head → s'.head = s.head) ∧
        s'.load prev = some ((unmarkedOf rest ++ nodesOf post).headD 0) ∧
        s'.load (lastLoc prev (unmarkedOf rest)) = some ((nodesOf post).headD 0) ∧
        mchain s'.mm.heap ((unmarkedOf rest ++ nodesOf post).headD 0)
          (rest.filter (fun x => !x.2) ++ post) ∧
        (∀ q, q ∉ del → q ∉ nodesOf rest → prev ≠ Loc.next q →
          s'.mm.heap.cells q = s.mm.heap.cells q) ∧
        (b = true ↔ ∃ c n, (nodesOf post).head? = some c ∧ s.mm.heap.cells c = some n ∧
          n.data = key) ∧
        (∀ c n, (nodesOf post).head? = some c → s.mm.heap.cells c = some n →
          nx = POINTER n.next) ∧
        (post = [] → nx = 0) := by
  intro rest
  induction rest with
  | nil =>
    intro s prev cur next hw hv hK htl hpath hnd hlive hload hprev hnext _ hpost
    simp only [List.nil_append] at hpath hnd hlive hprev
    rw [show ([] : List (Nat × Bool)).length + 1 + g = g + 1 by simp; omega]
    cases post with
    | nil =>
      have hc : cur = 0 := hpath
      have hn0 := hnext hc
      subst hc
      subst hn0
      refine ⟨s, 0, false, [], ?_, Unlinked.unl_self _ hw, rfl, fun _ => rfl, ?_, ?_, ?_,
        fun _ _ _ _ => rfl, by simp [nodesOf], by simp [nodesOf], fun _ => rfl⟩
      · simp [findGo, lastLoc, unmarkedOf, nodesOf]
      · simpa [unmarkedOf, nodesOf] using hload
      · simpa [unmarkedOf, nodesOf, lastLoc] using hload
      · simp [unmarkedOf, nodesOf, mchain]
    | cons x post =>
      obtain ⟨c, m⟩ := x
      obtain ⟨hm, hk⟩ := hpost c m rfl
      subst hm
      obtain ⟨e, n, q, hn, hq, hr⟩ := hpath
      subst e
      simp only [Bool.false_eq_true, if_false] at hq
      have hc0 : cur ≠ 0 := by rintro rfl; rw [hw.heap.null] at hn; cases hn
      have hal := mchain_aligned _ hw.heap _ _ hr
      have hm : MARKED n.next = false := by rw [hq]; exact MARKED_aligned _ hal
      have hpt : POINTER n.next = n.next := by rw [hq]; exact POINTER_aligned _ hal
      have hkey : key ≤ n.data := hk n hn
      have hso := SMR.SlotsOnly.employ s.mm hw hp 0 n.next
      have hheap : (s.mm.employ hp 0 n.next).heap = s.mm.heap := SMR.employ_heap _ _ _ _
      refine ⟨{ s with mm := s.mm.employ hp 0 n.next }, n.next, decide (n.data = key), [], ?_,
        Unlinked.of_slots hso (SMR.employ_thread_local _ _ _ _) (SMR.employ_length _ _ _ _),
        rfl, fun _ => rfl, ?_, ?_, ?_, ?_, ?_, ?_, by simp⟩
      · simp only [findGo, hc0, if_false, Heap.read, hn, hm, hpt, hheap, ne_eq,
          not_true_eq_false, load_mm s _ hheap, hload, ge_iff_le, hkey, if_true, lastLoc,
          List.getLast?_nil, List.headD_cons, unmarkedOf, nodesOf, List.filter_nil,
          List.map_nil, List.map_cons]
      · rw [load_mm s _ hheap, hload]; simp [unmarkedOf, nodesOf]
      · rw [load_mm s _ hheap]; simpa [unmarkedOf, nodesOf, lastLoc] using hload
      · show mchain (s.mm.employ hp 0 n.next).heap _ _
        rw [hheap]
        simp only [unmarkedOf, nodesOf, List.filter_nil, List.map_nil, List.nil_append,
          List.map_cons, List.headD_cons]
        exact ⟨rfl, n, q, hn, by simp [hq], hr⟩
      · intro q' _ _ _
        show (s.mm.employ hp 0 n.next).heap.cells q' = _
        rw [hheap]
      · simp only [decide_eq_true_eq, nodesOf, List.map_cons, List.head?_cons,
          Option.some.injEq]
        constructor
        · intro h; exact ⟨cur, n, rfl, hn, h⟩
        · rintro ⟨c, m, rfl, hm', hk'⟩
          rw [hn] at hm'; cases hm'; exact hk'
      · intro c m hc hm'
        simp only [nodesOf, List.map_cons, List.head?_cons, Option.some.injEq] at hc
        subst hc
        rw [hn] at hm'; cases hm'; exact hpt.symm
  | cons x rest ih =>
    obtain ⟨a, mk⟩ := x
    intro s prev cur next hw hv hK htl hpath hnd hlive hload hprev hnext hrest hpost
    rw [List.cons_append] at hpath hnd hlive hprev
    obtain ⟨e, n, q, hn, hq, hr⟩ := hpath
    subst e
    rw [nodesOf_cons] at hnd hlive hprev
    have hcn : cur ∉ nodesOf (rest ++ post) := (List.nodup_cons.mp hnd).1
    have hnd' : (nodesOf (rest ++ post)).Nodup := (List.nodup_cons.mp hnd).2
    have hc0 : cur ≠ 0 := by rintro rfl; rw [hw.heap.null] at hn; cases hn
    have hal := mchain_aligned _ hw.heap _ _ hr
    have hfuel : ((cur, mk) :: rest).length + 1 + g = (rest.length + 1 + g) + 1 := by
      simp; omega
    have hso1 := SMR.SlotsOnly.employ s.mm hw hp 0 q
    have hheap1 : (s.mm.employ hp 0 q).heap = s.mm.heap := SMR.employ_heap _ _ _ _
    have hv1 : (s.mm.employ hp 0 q).valid hp := SMR.valid_of_length _ _ _ hso1.len hv
    have hu1 : Unlinked s.mm (s.mm.employ hp 0 q) [] [] :=
      Unlinked.of_slots hso1 (SMR.employ_thread_local _ _ _ _) (SMR.employ_length _ _ _ _)
    cases mk with
    | false =>
      simp only [Bool.false_eq_true, if_false] at hq
      have hm : MARKED n.next = false := by rw [hq]; exact MARKED_aligned _ hal
      have hpt : POINTER n.next = q := by rw [hq]; exact POINTER_aligned _ hal
      have hkey : ¬ key ≤ n.data :=
        not_le.mpr (hrest cur (by simp [unmarkedOf_cons_false]) n hn)
      have hso2 := SMR.SlotsOnly.employ _ hso1.wf hp 1 q
      have hheap2 : ((s.mm.employ hp 0 q).employ hp 1 q).heap = s.mm.heap := by
        rw [SMR.employ_heap, hheap1]
      have hv2 : ((s.mm.employ hp 0 q).employ hp 1 q).valid hp :=
        SMR.valid_of_length _ _ _ hso2.len hv1
      have hu2 : Unlinked (s.mm.employ hp 0 q) ((s.mm.employ hp 0 q).employ hp 1 q) [] [] :=
        Unlinked.of_slots hso2 (SMR.employ_thread_local _ _ _ _) (SMR.employ_length _ _ _ _)
      have hlv : ∀ b, s.mm.live b → ((s.mm.employ hp 0 q).employ hp 1 q).live b := fun b hb =>
        (hso2.same.live b).mpr ((hso1.same.live b).mpr hb)
      obtain ⟨s', nx, b, del, h1, h2, h3, h4, h5, h6, h7, h8, h9, h10, h11⟩ :=
        ih { s with mm := (s.mm.employ hp 0 q).employ hp 1 q } (Loc.next cur) q q
          hso2.wf hv2 (by rw [hso2.K, hso1.K, hK])
          (by show ((s.mm.employ hp 0 q).employ hp 1 q).thread_local tid = hp
              rw [SMR.employ_thread_local, SMR.employ_thread_local, htl])
          (by show mchain ((s.mm.employ hp 0 q).employ hp 1 q).heap _ _
              rw [hheap2]; exact hr)
          hnd'
          (fun b hb => hlv b (hlive b (List.mem_cons_of_mem _ hb)))
          (by simp [load, Heap.read, hheap2, hn, hq])
          (by intro d hd
              cases hd
              exact ⟨hcn, hlv _ (hlive _ (List.mem_cons_self _ _))⟩)
          (fun h => h)
          (by intro x hx m hm'
              exact hrest x (by rw [unmarkedOf_cons_false]; exact List.mem_cons_of_mem _ hx) m
                (by rw [← hm']; show _ = Heap.cells _ _; rw [hheap2]))
          (by intro c m hc
              obtain ⟨p1, p2⟩ := hpost c m hc
              exact ⟨p1, fun n' hn' => p2 n' (by
                rw [← hn']; show _ = Heap.cells _ _; rw [hheap2])⟩)
      have h2' : Unlinked s.mm s'.mm (markedOf rest) del := by
        have := (hu1.unl_comp hu2).unl_comp h2
        simpa using this
      have hhead : s'.head = s.head := h4 (by simp)
      have hcell : ∀ d, prev = Loc.next d → s'.mm.heap.cells d = s.mm.heap.cells d := by
        intro d hd
        obtain ⟨p1, p2⟩ := hprev d hd
        have hdc : d ≠ cur := fun hc => p1 (hc ▸ List.mem_cons_self _ _)
        have hdr : d ∉ nodesOf rest := fun hc =>
          p1 (List.mem_cons_of_mem _ (by rw [nodesOf_append]; exact List.mem_append_left _ hc))
        have hdd : d ∉ del :=
          (h2'.live_of d p2 (fun hc => hdr (markedOf_sub _ _ hc))).2
        rw [h8 d hdd hdr (by simpa using Ne.symm hdc)]
        show Heap.cells ((s.mm.employ hp 0 q).employ hp 1 q).heap d = _
        rw [hheap2]
      refine ⟨s', nx, b, del, ?_, ?_, h3, fun _ => hhead, ?_, ?_, ?_, ?_, ?_, ?_, h11⟩
      · rw [hfuel]
        simp only [findGo, hc0, if_false, Heap.read, hn, hm, hpt, hheap1, ne_eq,
          not_true_eq_false, load_mm s _ hheap1, hload, ge_iff_le, hkey, if_true]
        rw [h1, unmarkedOf_cons_false, lastLoc_cons prev]
      · rw [markedOf_cons_false]; exact h2'
      · rw [load_congr s s' prev hhead hcell, hload, unmarkedOf_cons_false]
        rfl
      · rw [unmarkedOf_cons_false, ← lastLoc_cons prev]
        exact h6
      · rw [unmarkedOf_cons_false]
        simp only [List.filter_cons, Bool.not_false, if_true, List.cons_append,
          List.headD_cons]
        simp only [load, Heap.read] at h5
        cases hn' : s'.mm.heap.cells cur with
        | none => rw [hn'] at h5; cases h5
        | some n' =>
          rw [hn'] at h5
          simp only [Option.some.injEq] at h5
          exact ⟨rfl, n', _, hn', by simp [h5], h7⟩
      · intro q' hq1 hq2 hq3
        rw [nodesOf_cons] at hq2
        have hqc : q' ≠ cur := fun hc => hq2 (hc ▸ List.mem_cons_self _ _)
        rw [h8 q' hq1 (fun hc => hq2 (List.mem_cons_of_mem _ hc)) (by simpa using Ne.symm hqc)]
        show Heap.cells ((s.mm.employ hp 0 q).employ hp 1 q).heap q' = _
        rw [hheap2]
      · rw [h9]
        constructor
        · rintro ⟨c, m, hc, hm', hk⟩
          exact ⟨c, m, hc, by rw [← hm']; show _ = Heap.cells _ _; rw [hheap2], hk⟩
        · rintro ⟨c, m, hc, hm', hk⟩
          exact ⟨c, m, hc, by rw [← hm']; show Heap.cells _ _ = _; rw [hheap2], hk⟩
      · intro c m hc hm'
        exact h10 c m hc (by rw [← hm']; show Heap.cells _ _ = _; rw [hheap2])
    | true =>
      simp only [if_true] at hq
      have hm : MARKED n.next = true := by rw [hq]; exact MARKED_MARK_aligned _ hal
      have hpt : POINTER n.next = q := by rw [hq]; exact POINTER_MARK_aligned _ hal
      have hload1 : ({ s with mm := s.mm.employ hp 0 q } : OrderedList).load prev = some cur := by
        rw [load_mm s _ hheap1, hload]
      obtain ⟨s2, hst, hco, hd2, hh2, hl2, hf2, hdat2⟩ :=
        store_prev { s with mm := s.mm.employ hp 0 q } prev cur q hso1.wf hload1
      have hcas := compare_swap_hit _ s2 prev cur q hload1 hst
      have hu2 : Unlinked (s.mm.employ hp 0 q) s2.mm [] [] := Unlinked.of_cells hco hdat2
      have hlive2 : ∀ b, s.mm.live b → s2.mm.live b := fun b hb =>
        (hco.live_eq b).mpr ((hso1.same.live b).mpr hb)
      have htl2 : s2.mm.thread_local tid = hp := by
        rw [hco.thread_local, SMR.employ_thread_local, htl]
      have hv2 : s2.mm.valid hp := (hco.valid_eq hp).mpr hv1
      obtain ⟨mm3, del1, hdel, hw3, hret⟩ :=
        SMR.delNode_spec s2.mm hco.wf tid hp cur htl2 hv2
          (hlive2 cur (hlive cur (List.mem_cons_self _ _)))
      have hu3 : Unlinked s2.mm mm3 [cur] del1 := Unlinked.of_retired hw3 hret
      have hso4 := SMR.SlotsOnly.employ mm3 hw3 hp 1 q
      have hheap4 : (mm3.employ hp 1 q).heap = mm3.heap := SMR.employ_heap _ _ _ _
      have hu4 : Unlinked mm3 (mm3.employ hp 1 q) [] [] :=
        Unlinked.of_slots hso4 (SMR.employ_thread_local _ _ _ _) (SMR.employ_length _ _ _ _)
      have hu : Unlinked s.mm (mm3.employ hp 1 q) [cur] del1 := by
        have := ((hu1.unl_comp hu2).unl_comp hu3).unl_comp hu4
        simpa using this
      have hlv : ∀ b, s.mm.live b → b ≠ cur → (mm3.employ hp 1 q).live b := fun b hb hbc =>
        (hu.live_of b hb (by simpa using hbc)).1
      have hcells : ∀ b, s.mm.live b → b ≠ cur → prev ≠ Loc.next b →
          (mm3.employ hp 1 q).heap.cells b = s.mm.heap.cells b := by
        intro b hb hbc hbp
        rw [hheap4, ((hret.frame b).1 (hlive2 b hb) (by simpa using hbc)).2, hf2 b hbp]
        show Heap.cells (s.mm.employ hp 0 q).heap b = _
        rw [hheap1]
      have hnode : ∀ b ∈ nodesOf (rest ++ post),
          (mm3.employ hp 1 q).heap.cells b = s.mm.heap.cells b := by
        intro b hb
        refine hcells b (hlive b (List.mem_cons_of_mem _ hb)) (fun hc => hcn (hc ▸ hb)) ?_
        intro hc
        exact (hprev b hc).1 (List.mem_cons_of_mem _ hb)
      obtain ⟨s', nx, b, del, h1, h2, h3, h4, h5, h6, h7, h8, h9, h10, h11⟩ :=
        ih { s2 with mm := mm3.employ hp 1 q } prev q q
          hso4.wf (hu.unl_valid hp hv) (by rw [hu.K, hK])
          (by show (mm3.employ hp 1 q).thread_local tid = hp
              rw [hu.tl, htl])
          (mchain_frame s.mm.heap _ _ q hnode hr)
          hnd'
          (fun b hb => hlv b (hlive b (List.mem_cons_of_mem _ hb)) (fun hc => hcn (hc ▸ hb)))
          (by rw [← hl2]
              refine load_congr s2 { s2 with mm := mm3.employ hp 1 q } prev rfl ?_
              intro d hd
              obtain ⟨p1, p2⟩ := hprev d hd
              have hdc : d ≠ cur := fun hc => p1 (hc ▸ List.mem_cons_self _ _)
              show Heap.cells (mm3.employ hp 1 q).heap d = _
              rw [hheap4, ((hret.frame d).1 (hlive2 d p2) (by simpa using hdc)).2])
          (by intro d hd
              obtain ⟨p1, p2⟩ := hprev d hd
              exact ⟨fun hc => p1 (List.mem_cons_of_mem _ hc),
                hlv d p2 (fun hc => p1 (hc ▸ List.mem_cons_self _ _))⟩)
          (fun h => h)
          (by intro x hx m hm'
              have hxn : x ∈ nodesOf (rest ++ post) := by
                rw [nodesOf_append]
                exact List.mem_append_left _ (unmarkedOf_sub _ _ hx)
              exact hrest x (by rw [unmarkedOf_cons_true]; exact hx) m
                (by rw [← hm']; exact (hnode x hxn).symm))
          (by intro c m hc
              obtain ⟨p1, p2⟩ := hpost c m hc
              have hcn' : c ∈ nodesOf (rest ++ post) := by
                rw [nodesOf_append]
                apply List.mem_append_right
                cases post with
                | nil => cases hc
                | cons y post =>
                  simp only [List.head?_cons, Option.some.injEq] at hc
                  subst hc
                  simp [nodesOf]
              exact ⟨p1, fun n' hn' => p2 n' (by rw [← hn']; exact (hnode c hcn').symm)⟩)
      have hpc : ∀ c, (nodesOf post).head? = some c → c ∈ nodesOf (rest ++ post) := by
        intro c hc
        rw [nodesOf_append]
        apply List.mem_append_right
        exact List.mem_of_mem_head? hc
      have h2' : Unlinked s.mm s'.mm (cur :: markedOf rest) (del ++ del1) := by
        have := hu.unl_comp h2
        simpa using this
      refine ⟨s', nx, b, del ++ del1, ?_, ?_, by rw [h3, hd2], ?_, ?_, ?_, ?_, ?_, ?_, ?_, h11⟩
      · rw [hfuel]
        simp only [findGo, hc0, if_false, Heap.read, hn, hm, hpt, hheap1, ne_eq,
          not_true_eq_false, load_mm s _ hheap1, hload, if_true, hcas, hdel,
          Bool.true_eq_false]
        rw [h1, unmarkedOf_cons_true]
      · rw [markedOf_cons_true]; exact h2'
      · intro hp'
        rw [h4 hp']
        exact hh2 hp'
      · rw [unmarkedOf_cons_true]; exact h5
      · rw [unmarkedOf_cons_true]; exact h6
      · rw [unmarkedOf_cons_true]
        simpa [List.filter_cons] using h7
      · intro q' hq1 hq2 hq3
        rw [nodesOf_cons] at hq2
        simp only [List.mem_append, not_or] at hq1
        have hqc : q' ≠ cur := fun hc => hq2 (hc ▸ List.mem_cons_self _ _)
        rw [h8 q' hq1.1 (fun hc => hq2 (List.mem_cons_of_mem _ hc)) hq3]
        show Heap.cells (mm3.employ hp 1 q).heap q' = _
        rw [hheap4, hret.cells, if_neg hq1.2, hf2 q' hq3]
        show Heap.cells (s.mm.employ hp 0 q).heap q' = _
        rw [hheap1]
      · rw [h9]
        constructor
        · rintro ⟨c, m, hc, hm', hk⟩
          exact ⟨c, m, hc, by rw [← hm']; exact (hnode c (hpc c hc)).symm, hk⟩
        · rintro ⟨c, m, hc, hm', hk⟩
          exact ⟨c, m, hc, by rw [← hm']; exact hnode c (hpc c hc), hk⟩
      · intro c m hc hm'
        exact h10 c m hc (by rw [← hm']; exact hnode c (hpc c hc))

end OrderedList

end Amino

namespace Amino

namespace OrderedList

/-- Every list with marks splits at the first unmarked node whose key is not below `key`. -/
theorem msplit_at_key (h : Heap NodeType) (key : Int) (L : List (Nat × Bool)) :
    ∃ pre post, L = pre ++ post ∧
      (∀ a ∈ unmarkedOf pre, ∀ n, h.cells a = some n → n.data < key) ∧
      (∀ c m, post.head? = some (c, m) →
        m = false ∧ ∀ n, h.cells c = some n → key ≤ n.data) := by
  induction L with
  | nil => exact ⟨[], [], rfl, by simp [unmarkedOf], by simp⟩
  | cons x L ih =>
    obtain ⟨a, m⟩ := x
    obtain ⟨pre, post, h1, h2, h3⟩ := ih
    by_cases hstop : m = false ∧ ∀ n, h.cells a = some n → key ≤ n.data
    · refine ⟨[], (a, m) :: L, rfl, by simp [unmarkedOf], ?_⟩
      intro c m' hc
      simp only [List.head?_cons, Option.some.injEq, Prod.mk.injEq] at hc
      obtain ⟨rfl, rfl⟩ := hc
      exact hstop
    · refine ⟨(a, m) :: pre, post, by simp [h1], ?_, h3⟩
      intro b hb n hn
      cases m with
      | true =>
        rw [unmarkedOf_cons_true] at hb
        exact h2 b hb n hn
      | false =>
        rw [unmarkedOf_cons_false] at hb
        simp only [List.mem_cons] at hb
        rcases hb with rfl | hb
        · simp only [true_and, not_forall] at hstop
          obtain ⟨n', hn', hk⟩ := hstop
          rw [hn] at hn'; cases hn'
          exact not_le.mp hk
        · exact h2 b hb n hn

theorem unmarked_not_marked (L : List (Nat × Bool)) (hnd : (nodesOf L).Nodup) :
    ∀ a ∈ unmarkedOf L, a ∉ markedOf L := by
  induction L with
  | nil => simp [unmarkedOf]
  | cons x L ih =>
    obtain ⟨b, m⟩ := x
    rw [nodesOf_cons] at hnd
    obtain ⟨h1, h2⟩ := List.nodup_cons.mp hnd
    intro a ha hc
    cases m with
    | true =>
      rw [unmarkedOf_cons_true] at ha
      rw [markedOf_cons_true] at hc
      simp only [List.mem_cons] at hc
      rcases hc with rfl | hc
      · exact h1 (unmarkedOf_sub _ _ ha)
      · exact ih h2 a ha hc
    | false =>
      rw [unmarkedOf_cons_false] at ha
      rw [markedOf_cons_false] at hc
      simp only [List.mem_cons] at ha
      rcases ha with rfl | ha
      · exact h1 (markedOf_sub _ _ hc)
      · exact ih h2 a ha hc

theorem markedOf_nodup (L : List (Nat × Bool)) (hnd : (nodesOf L).Nodup) :
    (markedOf L).Nodup :=
  List.Nodup.sublist (List.Sublist.map _ (List.filter_sublist _)) hnd

theorem unmarkedOf_nodup (L : List (Nat × Bool)) (hnd : (nodesOf L).Nodup) :
    (unmarkedOf L).Nodup :=
  List.Nodup.sublist (List.Sublist.map _ (List.filter_sublist _)) hnd

theorem unmarkedOf_filter (L : List (Nat × Bool)) :
    unmarkedOf (L.filter (fun x => !x.2)) = unmarkedOf L := by
  simp [unmarkedOf, List.filter_filter]

theorem nodesOf_filter (L : List (Nat × Bool)) :
    nodesOf (L.filter (fun x => !x.2)) = unmarkedOf L := rfl

theorem markedOf_filter (L : List (Nat × Bool)) :
    markedOf (L.filter (fun x => !x.2)) = [] := by
  simp [markedOf, List.filter_filter]

end OrderedList

end Amino

namespace Amino

namespace OrderedList

/-- `find` on a list with marked nodes, split at the position of `key`. -/
theorem find_mspec (g tid : Nat) (key : Int) (s : OrderedList) (start : Loc)
    (pre post : List (Nat × Bool)) (hi : MInv s start (pre ++ post))
    (hpre : ∀ a ∈ unmarkedOf pre, ∀ n, s.mm.heap.cells a = some n → n.data < key)
    (hpost : ∀ c m, post.head? = some (c, m) →
      m = false ∧ ∀ n, s.mm.heap.cells c = some n → key ≤ n.data) :
    ∃ s' nx b del, find (pre.length + 2 + g) s tid key start
        = some (s', { prev := some (lastLoc start (unmarkedOf pre)),
                      cur := (nodesOf post).headD 0, next := nx, isFound := b }, b) ∧
      MInv s' start (pre.filter (fun x => !x.2) ++ post) ∧
      s'.dummy = s.dummy ∧
      s'.load (lastLoc start (unmarkedOf pre)) = some ((nodesOf post).headD 0) ∧
      List.Perm (markedOf pre ++ s.mm.allOwned) (s'.mm.allOwned ++ del) ∧
      (∀ q, s'.mm.heap.cells q ≠ none ↔ (s.mm.heap.cells q ≠ none ∧ q ∉ del)) ∧
      (∀ q, q ∉ del →
        (s'.mm.heap.cells q).map NodeType.data = (s.mm.heap.cells q).map NodeType.data) ∧
      (∀ q, q ∉ del → q ∉ nodesOf pre → start ≠ Loc.next q →
        s'.mm.heap.cells q = s.mm.heap.cells q) ∧
      (∀ a ∈ markedOf pre, ¬ s'.mm.live a) ∧
      (b = true ↔ ∃ c n, (nodesOf post).head? = some c ∧ s.mm.heap.cells c = some n ∧
        n.data = key) ∧
      (∀ c n, (nodesOf post).head? = some c → s.mm.heap.cells c = some n →
        nx = POINTER n.next) ∧
      (post = [] → nx = 0) := by
  obtain ⟨p, hload, hchain⟩ := hi.first
  obtain ⟨g1, g2, g3, g4⟩ := SMR.getHPRec_spec s.mm hi.wf tid
  have hso0 := SMR.SlotsOnly.getHPRec s.mm hi.wf tid
  generalize hmm1 : (s.mm.getHPRec tid).1 = mm1 at g1 g2 g3 g4 hso0
  generalize hhp : (s.mm.getHPRec tid).2 = hp at g2 g3
  have hal := mchain_aligned _ hi.wf.heap _ _ hchain
  have hm : MARKED p = false := MARKED_aligned _ hal
  have hso1 := SMR.SlotsOnly.employ mm1 g1 hp 1 p
  have hheap1 : (mm1.employ hp 1 p).heap = s.mm.heap := by
    rw [SMR.employ_heap, g4.heap]
  have hown1 : (mm1.employ hp 1 p).allOwned = s.mm.allOwned := by
    rw [hso1.same.owned, g4.owned]
  have hv1 : (mm1.employ hp 1 p).valid hp := SMR.valid_of_length _ _ _ hso1.len g3
  have hK1 : (mm1.employ hp 1 p).K = NHPOINTER := by rw [hso1.K, hso0.K, hi.K]
  have hlv : ∀ b, s.mm.live b → (mm1.employ hp 1 p).live b := fun b hb =>
    (hso1.same.live b).mpr ((g4.live b).mpr hb)
  have hload0 : ({ s with mm := mm1 } : OrderedList).load start = some p := by
    rw [load_mm s _ g4.heap, hload]
  have hload1 : ({ s with mm := mm1.employ hp 1 p } : OrderedList).load start = some p := by
    rw [load_mm s _ hheap1, hload]
  obtain ⟨s', nx, b, del, h1, h2, h3, h4, h5, h6, h7, h8, h9, h10, h11⟩ :=
    findGo_mwalk key start tid hp g post pre { s with mm := mm1.employ hp 1 p } start p 0
      hso1.wf hv1 hK1
      (by show (mm1.employ hp 1 p).thread_local tid = hp
          rw [SMR.employ_thread_local, g2])
      (by show mchain (mm1.employ hp 1 p).heap _ _
          rw [hheap1]; exact hchain)
      hi.nodup
      (fun a ha => hlv a (hi.live a ha))
      hload1
      (fun d hd => ⟨(hi.start_ok d hd).1, hlv d (hi.start_ok d hd).2⟩)
      (fun _ => rfl)
      (by intro a ha n hn
          exact hpre a ha n (by rw [← hn]; show _ = Heap.cells _ _; rw [hheap1]))
      (by intro c m hc
          obtain ⟨p1, p2⟩ := hpost c m hc
          exact ⟨p1, fun n hn => p2 n (by rw [← hn]; show _ = Heap.cells _ _; rw [hheap1])⟩)
  have hsub : ∀ a ∈ nodesOf (pre.filter (fun x => !x.2) ++ post), a ∈ nodesOf (pre ++ post) := by
    intro a ha
    rw [nodesOf_append] at ha ⊢
    rcases List.mem_append.mp ha with h | h
    · exact List.mem_append_left _ (unmarkedOf_sub _ _ h)
    · exact List.mem_append_right _ h
  have hnm : ∀ a ∈ nodesOf (pre.filter (fun x => !x.2) ++ post), a ∉ markedOf pre := by
    intro a ha hc
    rw [nodesOf_append] at ha
    rcases List.mem_append.mp ha with h | h
    · exact unmarked_not_marked pre
        (List.Nodup.sublist (by rw [nodesOf_append]; exact List.sublist_append_left _ _)
          hi.nodup) a h hc
    · have := hi.nodup
      rw [nodesOf_append] at this
      exact (List.nodup_append.mp this).2.2 (markedOf_sub _ _ hc) h
  have hlive' : ∀ a, s.mm.live a → a ∉ markedOf pre → s'.mm.live a ∧ a ∉ del := fun a ha hn =>
    h2.live_of a (hlv a ha) hn
  have hdata : ∀ q, q ∉ del →
      (s'.mm.heap.cells q).map NodeType.data = (s.mm.heap.cells q).map NodeType.data := by
    intro q hq
    rw [h2.data q hq]
    show Option.map _ (Heap.cells (mm1.employ hp 1 p).heap q) = _
    rw [hheap1]
  refine ⟨s', nx, b, del, ?_, ?_, h3, h6, ?_, ?_, hdata, ?_, ?_, ?_, ?_, h11⟩
  · unfold find
    rw [hmm1, hhp, show pre.length + 2 + g = (pre.length + 1 + g) + 1 by omega]
    simp only [findGo, hload0, hm, Bool.false_eq_true, if_false, hload1, ne_eq,
      not_true_eq_false]
    exact h1
  · refine ⟨h2.wf, by rw [h2.K]; exact hK1, ⟨_, h5, h7⟩, ?_, ?_, ?_, ?_⟩
    · intro d hd
      obtain ⟨p1, p2⟩ := hi.start_ok d hd
      exact ⟨fun hc => p1 (hsub d hc),
        (hlive' d p2 (fun hc => p1 (by
          rw [nodesOf_append]; exact List.mem_append_left _ (markedOf_sub _ _ hc)))).1⟩
    · rw [unmarkedOf_append, unmarkedOf_filter, ← unmarkedOf_append]
      rw [keysOf_frame s.mm.heap s'.mm.heap]
      · exact hi.sorted
      · intro a ha
        have han : a ∈ nodesOf (pre ++ post) := unmarkedOf_sub _ _ ha
        have hanm : a ∉ markedOf pre := by
          apply hnm
          rw [nodesOf_append, nodesOf_filter]
          rw [unmarkedOf_append] at ha
          rcases List.mem_append.mp ha with h | h
          · exact List.mem_append_left _ h
          · exact List.mem_append_right _ (unmarkedOf_sub _ _ h)
        exact hdata a (hlive' a (hi.live a han) hanm).2
    · refine List.Nodup.sublist ?_ hi.nodup
      rw [nodesOf_append, nodesOf_append]
      exact List.Sublist.append (List.Sublist.map _ (List.filter_sublist _))
        (List.Sublist.refl _)
    · intro a ha
      exact (hlive' a (hi.live a (hsub a ha)) (hnm a ha)).1
  · have := h2.perm
    rw [hown1] at this
    exact this
  · intro q
    rw [h2.alloc]
    show (Heap.cells (mm1.employ hp 1 p).heap q ≠ none ∧ _) ↔ _
    rw [hheap1]
  · intro q hq1 hq2 hq3
    rw [h8 q hq1 hq2 hq3]
    show Heap.cells (mm1.employ hp 1 p).heap q = _
    rw [hheap1]
  · intro a ha
    exact h2.dead_of a ha
  · rw [h9]
    constructor
    · rintro ⟨c, m, hc, hm', hk⟩
      exact ⟨c, m, hc, by rw [← hm']; show _ = Heap.cells _ _; rw [hheap1], hk⟩
    · rintro ⟨c, m, hc, hm', hk⟩
      exact ⟨c, m, hc, by rw [← hm']; show Heap.cells _ _ = _; rw [hheap1], hk⟩
  · intro c m hc hm'
    exact h10 c m hc (by rw [← hm']; show Heap.cells _ _ = _; rw [hheap1])

end OrderedList

end Amino

namespace Amino

namespace OrderedList

theorem sampleMarked_wf : sampleMarked.mm.WF := by
  have w0 : (SMR.init NHPOINTER 0 : SMR NodeType).WF := SMR.init_wf NHPOINTER 0
  have w1 := (SMR.new_spec _ w0).1
  have w2 := (SMR.new_spec _ w1).1
  have w3 := (SMR.new_spec _ w2).1
  have w4 := (SMR.new_spec _ w3).1
  have w5 := (SMR.new_spec _ w4).1
  have w6 := (SMR.put_spec _ w5 16 { data := 1, next := 25 } (by decide)).1
  have w7 := (SMR.put_spec _ w6 24 { data := 2, next := 32 } (by decide)).1
  have w8 := (SMR.put_spec _ w7 32 { data := 3, next := 41 } (by decide)).1
  have w9 := (SMR.put_spec _ w8 40 { data := 5, next := 0 } (by decide)).1
  exact w9

theorem sampleMarked_minv : MInv sampleMarked Loc.head sampleMarkedNodes := by
  refine ⟨sampleMarked_wf, rfl, ⟨16, rfl, ?_⟩, (fun d hd => by cases hd), by decide, by decide, ?_⟩
  · exact ⟨rfl, { data := 1, next := 25 }, 24, rfl, by decide, rfl,
      { data := 2, next := 32 }, 32, rfl, by decide, rfl,
      { data := 3, next := 41 }, 40, rfl, by decide, rfl,
      { data := 5, next := 0 }, 0, rfl, by decide, rfl⟩
  · intro a ha
    simp only [sampleMarkedNodes, nodesOf, List.map_cons, List.map_nil, List.mem_cons,
      List.mem_singleton, List.not_mem_nil, or_false] at ha
    rcases ha with rfl | rfl | rfl | rfl <;> exact ⟨by decide, by decide⟩

theorem head_unmarkedOf (post : List (Nat × Bool))
    (hpost : ∀ c m, post.head? = some (c, m) → m = false) :
    (unmarkedOf post).head? = (nodesOf post).head? := by
  cases post with
  | nil => rfl
  | cons x post =>
    obtain ⟨c, m⟩ := x
    have := hpost c m rfl
    subst this
    rfl

end OrderedList

open OrderedList in
/-- C28: on every well-formed list (from `start` the nodes `L`, some of them
with a deletion mark, the keys of the unmarked ones strictly increasing)
`find(key, start, holder)` returns, and it returns true iff an unmarked node
holds `key`.  On return `holder.isFound` is the returned value, `*holder.prev`
is `holder.cur`, an unmarked pointer; the list from `start` consists of the
unmarked nodes that were before the position of `key`, whose keys are below
`key`, followed by `holder.cur` and the nodes after it; `holder.cur` is `NULL`
with `holder.next` `NULL`, or it is an unmarked node whose key is not below
`key` and `holder.next` is its successor. -/
theorem C28_find_result (g tid : Nat) (key : Int) (s : OrderedList) (start : Loc)
    (L : List (Nat × Bool)) (hi : MInv s start L) :
    ∃ s' holder b pre post,
      L = pre ++ post ∧
      find (L.length + 2 + g) s tid key start = some (s', holder, b) ∧
      (b = true ↔ key ∈ keysOf s.mm.heap (unmarkedOf L)) ∧
      holder.isFound = b ∧
      holder.prev = some (lastLoc start (unmarkedOf pre)) ∧
      s'.load (lastLoc start (unmarkedOf pre)) = some holder.cur ∧
      MARKED holder.cur = false ∧
      MInv s' start (pre.filter (fun x => !x.2) ++ post) ∧
      (∀ a ∈ unmarkedOf pre, ∃ n, s'.mm.heap.cells a = some n ∧ n.data < key) ∧
      holder.cur = (nodesOf post).headD 0 ∧
      (holder.cur ≠ 0 → ∃ n, s'.mm.heap.cells holder.cur = some n ∧ key ≤ n.data ∧
        MARKED n.next = false ∧ holder.next = POINTER n.next ∧
        holder.next = (nodesOf post.tail).headD 0) ∧
      (holder.cur = 0 → post = [] ∧ holder.next = 0) := by
  obtain ⟨pre, post, hL, hpre, hpost⟩ := msplit_at_key s.mm.heap key L
  subst hL
  obtain ⟨s', nx, b, del, h1, h2, h3, h4, h5, h6, h7, h8, h9, h10, h11, h12⟩ :=
    find_mspec (post.length + g) tid key s start pre post hi hpre hpost
  have hal : ∀ a ∈ unmarkedOf pre ++ unmarkedOf post, s.mm.heap.cells a ≠ none := by
    intro a ha
    rw [← unmarkedOf_append] at ha
    exact (hi.live a (unmarkedOf_sub _ _ ha)).1
  have hfi := found_iff s.mm.heap (unmarkedOf pre) (unmarkedOf post) key hal
    (by rw [← unmarkedOf_append]; exact hi.sorted) hpre
    (by intro c n hc hn
        rw [head_unmarkedOf post (fun c m h => (hpost c m h).1)] at hc
        cases post with
        | nil => cases hc
        | cons x post =>
          obtain ⟨c', m⟩ := x
          simp only [nodesOf, List.map_cons, List.head?_cons, Option.some.injEq] at hc
          subst hc
          exact (hpost c' m rfl).2 n hn)
  rw [head_unmarkedOf post (fun c m h => (hpost c m h).1), ← unmarkedOf_append] at hfi
  have hkeep : ∀ a ∈ nodesOf (pre.filter (fun x => !x.2) ++ post),
      (s'.mm.heap.cells a).map NodeType.data = (s.mm.heap.cells a).map NodeType.data := by
    intro a ha
    apply h7
    intro hc
    exact ((h6 a).mp (h2.live a ha).1).2 hc
  refine ⟨s', FindStateHolder.mk (some (lastLoc start (unmarkedOf pre)))
    ((nodesOf post).headD 0) nx b, b, pre, post, rfl, ?_, h10.trans hfi, rfl, rfl, h4, ?_, h2,
    ?_, rfl, ?_, ?_⟩
  · rw [← h1]; congr 1; simp; omega
  · exact MARKED_aligned _ (by
      obtain ⟨p, -, hp⟩ := hi.first
      cases post with
      | nil => exact aligned_zero
      | cons x post =>
        obtain ⟨c, m⟩ := x
        exact hi.wf.heap.aligned c
          (hi.live c (by rw [nodesOf_append]; simp [nodesOf])).1)
  · intro a ha
    have han : a ∈ nodesOf (pre.filter (fun x => !x.2) ++ post) := by
      rw [nodesOf_append, nodesOf_filter]
      exact List.mem_append_left _ ha
    have hd := hkeep a han
    have hl := (h2.live a han).1
    cases hn' : s'.mm.heap.cells a with
    | none => exact absurd hn' hl
    | some n' =>
      refine ⟨n', rfl, ?_⟩
      cases hn : s.mm.heap.cells a with
      | none => rw [hn', hn] at hd; cases hd
      | some n =>
        rw [hn', hn] at hd
        simp only [Option.map_some', Option.some.injEq] at hd
        rw [hd]
        exact hpre a ha n hn
  · intro hc0
    cases post with
    | nil => exact absurd rfl hc0
    | cons x post =>
      obtain ⟨c, m⟩ := x
      obtain ⟨hm, hk⟩ := hpost c m rfl
      subst hm
      have hcn : c ∈ nodesOf (pre.filter (fun x => !x.2) ++ (c, false) :: post) := by
        rw [nodesOf_append]; simp [nodesOf]
      obtain ⟨p, -, hp⟩ := h2.first
      have hw' := h2.wf
      have hcc : ∃ n q, s'.mm.heap.cells c = some n ∧ n.next = q ∧
          mchain s'.mm.heap q post := by
        clear h1 h4 hkeep
        generalize pre.filter (fun x => !x.2) = F at hp
        induction F generalizing p with
        | nil =>
          obtain ⟨-, n, q, hn, hq, hr⟩ := hp
          exact ⟨n, q, hn, by simpa using hq, hr⟩
        | cons y F ih =>
          obtain ⟨a, m⟩ := y
          obtain ⟨-, n, q, -, -, hr⟩ := hp
          exact ih q hr
      obtain ⟨n, q, hn, hq, hr⟩ := hcc
      have hqa := mchain_aligned _ hw'.heap _ _ hr
      have hcs : s.mm.heap.cells c = some n := by
        rw [← hn]
        symm
        apply h8
        · intro hc
          exact ((h6 c).mp (h2.live c hcn).1).2 hc
        · intro hc
          have := hi.nodup
          rw [nodesOf_append] at this
          exact (List.nodup_append.mp this).2.2 hc (by simp [nodesOf])
        · intro hc
          exact (hi.start_ok c hc).1 (by rw [nodesOf_append]; simp [nodesOf])
      refine ⟨n, hn, hk n hcs, by rw [hq]; exact MARKED_aligned _ hqa,
        h11 c n rfl hcs, ?_⟩
      show nx = _
      rw [h11 c n rfl hcs, hq, POINTER_aligned _ hqa]
      exact mchain_head _ _ _ hr
  · intro hc0
    cases post with
    | nil => exact ⟨rfl, h12 rfl⟩
    | cons x post =>
      obtain ⟨c, m⟩ := x
      exfalso
      have : c = 0 := hc0
      subst this
      exact (hi.live 0 (by rw [nodesOf_append]; simp [nodesOf])).1 hi.wf.heap.null

open OrderedList in
theorem C28_find_result_witness :
    (find 10 sampleMarked 0 3 Loc.head).map (fun x => (x.2.1, x.2.2))
      = some ({ prev := some (Loc.next 24), cur := 40, next := 0, isFound := false }, false) ∧
    ∃ s' holder b pre post,
      sampleMarkedNodes = pre ++ post ∧
      find (sampleMarkedNodes.length + 2 + 4) sampleMarked 0 3 Loc.head
        = some (s', holder, b) ∧
      (b = true ↔ (3 : Int) ∈ keysOf sampleMarked.mm.heap (unmarkedOf sampleMarkedNodes)) ∧
      holder.isFound = b ∧
      holder.prev = some (lastLoc Loc.head (unmarkedOf pre)) ∧
      s'.load (lastLoc Loc.head (unmarkedOf pre)) = some holder.cur ∧
      MARKED holder.cur = false ∧
      MInv s' Loc.head (pre.filter (fun x => !x.2) ++ post) ∧
      (∀ a ∈ unmarkedOf pre, ∃ n, s'.mm.heap.cells a = some n ∧ n.data < 3) ∧
      holder.cur = (nodesOf post).headD 0 ∧
      (holder.cur ≠ 0 → ∃ n, s'.mm.heap.cells holder.cur = some n ∧ 3 ≤ n.data ∧
        MARKED n.next = false ∧ holder.next = POINTER n.next ∧
        holder.next = (nodesOf post.tail).headD 0) ∧
      (holder.cur = 0 → post = [] ∧ holder.next = 0) :=
  ⟨by decide, C28_find_result 4 0 3 sampleMarked Loc.head sampleMarkedNodes sampleMarked_minv⟩

open OrderedList in
theorem sampleMarked_pre3 :
    ∀ a ∈ unmarkedOf [(16, true), (24, false), (32, true)],
      ∀ n, sampleMarked.mm.heap.cells a = some n → n.data < 3 := by
  intro a ha n hn
  simp only [unmarkedOf, List.filter, Bool.not_true, Bool.not_false, List.map_cons,
    List.map_nil, List.mem_singleton] at ha
  subst ha
  have : sampleMarked.mm.heap.cells 24 = some { data := 2, next := 32 } := rfl
  rw [this] at hn
  cases hn
  decide

open OrderedList in
theorem sampleMarked_post3 :
    ∀ c m, [((40 : Nat), false)].head? = some (c, m) →
      m = false ∧ ∀ n, sampleMarked.mm.heap.cells c = some n → (3 : Int) ≤ n.data := by
  intro c m hc
  simp only [List.head?_cons, Option.some.injEq, Prod.mk.injEq] at hc
  obtain ⟨rfl, rfl⟩ := hc
  refine ⟨rfl, fun n hn => ?_⟩
  have : sampleMarked.mm.heap.cells 40 = some { data := 5, next := 0 } := rfl
  rw [this] at hn
  cases hn
  decide

open OrderedList in
/-- C29: on a well-formed list in which nodes before the position of `key`
carry a deletion mark (the nodes `markedOf pre`), `find(key, start, holder)`
returns; afterwards the list from `start` consists of the unmarked nodes of
`pre` followed by `post`, so none of the marked nodes is reachable from
`start`; every one of them was handed to `delNode` exactly once: the marked
nodes together with the nodes the reclamation scheme held before are, counted
with multiplicity, the nodes it holds afterwards together with the nodes it
gave back to the free store, each marked node occurs there once and is no
longer live; and the unmarked nodes of the list and their keys are the same
as before. -/
theorem C29_find_unlinks_marked (g tid : Nat) (key : Int) (s : OrderedList) (start : Loc)
    (pre post : List (Nat × Bool)) (hi : MInv s start (pre ++ post))
    (hpre : ∀ a ∈ unmarkedOf pre, ∀ n, s.mm.heap.cells a = some n → n.data < key)
    (hpost : ∀ c m, post.head? = some (c, m) →
      m = false ∧ ∀ n, s.mm.heap.cells c = some n → key ≤ n.data) :
    ∃ s' holder b del,
      find (pre.length + 2 + g) s tid key start = some (s', holder, b) ∧
      MInv s' start (pre.filter (fun x => !x.2) ++ post) ∧
      (∀ a ∈ markedOf pre, a ∉ nodesOf (pre.filter (fun x => !x.2) ++ post)) ∧
      List.Perm (markedOf pre ++ s.mm.allOwned) (s'.mm.allOwned ++ del) ∧
      (∀ a ∈ markedOf pre, a ∉ s.mm.allOwned ∧ (s'.mm.allOwned ++ del).count a = 1 ∧
        ¬ s'.mm.live a) ∧
      unmarkedOf (pre.filter (fun x => !x.2) ++ post) = unmarkedOf (pre ++ post) ∧
      keysOf s'.mm.heap (unmarkedOf (pre.filter (fun x => !x.2) ++ post))
        = keysOf s.mm.heap (unmarkedOf (pre ++ post)) := by
  obtain ⟨s', nx, b, del, h1, h2, h3, h4, h5, h6, h7, h8, h9, h10, h11, h12⟩ :=
    find_mspec g tid key s start pre post hi hpre hpost
  have hndp : (nodesOf pre).Nodup :=
    List.Nodup.sublist (by rw [nodesOf_append]; exact List.sublist_append_left _ _) hi.nodup
  have hun : unmarkedOf (pre.filter (fun x => !x.2) ++ post) = unmarkedOf (pre ++ post) := by
    rw [unmarkedOf_append, unmarkedOf_filter, ← unmarkedOf_append]
  have hnot : ∀ a ∈ markedOf pre, a ∉ nodesOf (pre.filter (fun x => !x.2) ++ post) := by
    intro a ha hc
    rw [nodesOf_append, nodesOf_filter] at hc
    rcases List.mem_append.mp hc with h | h
    · exact unmarked_not_marked pre hndp a h ha
    · have := hi.nodup
      rw [nodesOf_append] at this
      exact (List.nodup_append.mp this).2.2 (markedOf_sub _ _ ha) h
  refine ⟨s', _, b, del, h1, h2, hnot, h5, ?_, hun, ?_⟩
  · intro a ha
    have hlive : s.mm.live a :=
      hi.live a (by rw [nodesOf_append]; exact List.mem_append_left _ (markedOf_sub _ _ ha))
    refine ⟨hlive.2, ?_, h9 a ha⟩
    rw [← h5.count_eq, List.count_append, List.count_eq_zero_of_not_mem hlive.2,
      List.count_eq_one_of_mem (markedOf_nodup pre hndp) ha]
  · rw [hun]
    apply keysOf_frame
    intro a ha
    apply h7
    intro hc
    have han : a ∈ nodesOf (pre.filter (fun x => !x.2) ++ post) := by
      rw [← hun] at ha
      exact unmarkedOf_sub _ _ ha
    exact ((h6 a).mp (h2.live a han).1).2 hc

open OrderedList in
theorem C29_find_unlinks_marked_witness :
    markedOf [(16, true), (24, false), (32, true)] = [16, 32] ∧
    (find 5 sampleMarked 0 3 Loc.head).map (fun x =>
        (x.1.head, x.1.mm.heap.cells 24, x.1.mm.hprecs.map (fun r => r.rlist)))
      = some (24, some { data := 2, next := 40 }, [[32, 16]]) ∧
    ∃ s' holder b del,
      find ([((16 : Nat), true), (24, false), (32, true)].length + 2 + 0) sampleMarked 0 3
        Loc.head = some (s', holder, b) ∧
      MInv s' Loc.head
        ([((16 : Nat), true), (24, false), (32, true)].filter (fun x => !x.2) ++ [(40, false)]) ∧
      (∀ a ∈ markedOf [(16, true), (24, false), (32, true)],
        a ∉ nodesOf ([((16 : Nat), true), (24, false), (32, true)].filter (fun x => !x.2)
          ++ [(40, false)])) ∧
      List.Perm (markedOf [(16, true), (24, false), (32, true)] ++ sampleMarked.mm.allOwned)
        (s'.mm.allOwned ++ del) ∧
      (∀ a ∈ markedOf [(16, true), (24, false), (32, true)],
        a ∉ sampleMarked.mm.allOwned ∧ (s'.mm.allOwned ++ del).count a = 1 ∧
        ¬ s'.mm.live a) ∧
      unmarkedOf ([((16 : Nat), true), (24, false), (32, true)].filter (fun x => !x.2)
          ++ [(40, false)])
        = unmarkedOf ([(16, true), (24, false), (32, true)] ++ [(40, false)]) ∧
      keysOf s'.mm.heap (unmarkedOf ([((16 : Nat), true), (24, false), (32, true)].filter
          (fun x => !x.2) ++ [(40, false)]))
        = keysOf sampleMarked.mm.heap
            (unmarkedOf ([(16, true), (24, false), (32, true)] ++ [(40, false)])) :=
  ⟨by decide, by decide,
    C29_find_unlinks_marked 0 0 3 sampleMarked Loc.head [(16, true), (24, false), (32, true)]
      [(40, false)] sampleMarked_minv sampleMarked_pre3 sampleMarked_post3⟩

end Amino

namespace Amino

namespace SMR
variable {α : Type}

theorem retire_p_heap (s : SMR α) (hp p : Nat) : (s.retire_p hp p).heap = s.heap := by
  unfold retire_p
  split
  · simp
  · rfl

end SMR

namespace LockFreeDictionary

theorem SameDict.dict_refl (s : LockFreeDictionary) : SameDict s s := ⟨rfl, rfl, rfl, rfl⟩

theorem SameDict.dict_trans {s s1 s2 : LockFreeDictionary} (h1 : SameDict s s1)
    (h2 : SameDict s1 s2) : SameDict s s2 :=
  ⟨h2.head.trans h1.head, h2.tail.trans h1.tail, h2.values.trans h1.values,
    h2.heap.trans h1.heap⟩

theorem SameDict.of_mm (s : LockFreeDictionary) (mm : SMR DictNode) (h : mm.heap = s.mm.heap) :
    SameDict s { s with mm := mm } := ⟨rfl, rfl, rfl, h⟩

theorem NoKeys.of_same {s s' : LockFreeDictionary} (hk : NoKeys s) (h : SameDict s s') :
    NoKeys s' := by
  refine ⟨by rw [h.head, h.tail]; exact hk.ne, by rw [h.tail]; exact hk.tail_aligned,
    by rw [h.tail]; exact hk.tail_ne, ?_, ?_, by rw [h.values]; exact hk.null_value⟩
  · rw [h.head, h.tail, h.heap]; exact hk.head_cell
  · rw [h.tail, h.heap]; exact hk.tail_cell

/-- On a dictionary without keys `readNext(head, curLevel)` returns `tail`. -/
theorem readNext_noKeys (tid g : Nat) (s : LockFreeDictionary) (hk : NoKeys s) (curLevel : Nat)
    (hl : curLevel < MAXLEVEL) :
    readNext tid (g + 2) s s.head curLevel = some (s, s.head, s.tail) := by
  obtain ⟨hn, hc, hnx, -, hv⟩ := hk.head_cell
  have hm : MARKED s.tail = false := MARKED_aligned _ hk.tail_aligned
  have hget : s.getNext s.head curLevel = some s.tail := by
    simp [getNext, Heap.read, hc, hnx, List.getElem?_replicate, hl]
  rw [show g + 2 = (g + 1) + 1 by omega, readNext]
  simp only [hk.ne, if_false, Heap.read, hc, hv]
  rw [show MARKED 0 = false by decide]
  simp only [Bool.false_eq_true, if_false]
  rw [readNextLoop]
  simp only [hget, hm, Bool.false_eq_true, if_false, hk.tail_ne]

/-- On a dictionary without keys `scanKey(head, curLevel, key)` returns `tail`. -/
theorem scanKey_noKeys (tid g : Nat) (s : LockFreeDictionary) (hk : NoKeys s)
    (curLevel : Nat) (hl : curLevel < MAXLEVEL) (key : Int) :
    ∃ s', scanKey tid (g + 4) s s.head curLevel key = some (s', s.head, s.tail) ∧
      SameDict s s' := by
  have hsd : SameDict s { s with mm := (s.mm.getHPRec tid).1 } :=
    SameDict.of_mm s _ (SMR.getHPRec_heap _ _)
  have hk0 := hk.of_same hsd
  have hr := readNext_noKeys tid (g + 1) _ hk0 curLevel hl
  refine ⟨{ s with mm := (s.mm.getHPRec tid).1 }, ?_, hsd⟩
  rw [show g + 4 = (g + 1 + 2) + 1 by omega, scanKey]
  rw [hr]
  simp [scanKeyLoop]

/-- On a dictionary without keys `searchLevel(head, curLevel, key)` returns `head`. -/
theorem searchLevel_noKeys (tid g : Nat) (s : LockFreeDictionary) (hk : NoKeys s)
    (curLevel : Nat) (hl : curLevel < MAXLEVEL) (key : Int) :
    ∃ s', searchLevel tid (g + 7) s s.head curLevel key = some (s', s.head, s.head) ∧
      SameDict s s' := by
  have hsd : SameDict s { s with mm := (s.mm.getHPRec tid).1 } :=
    SameDict.of_mm s _ (SMR.getHPRec_heap _ _)
  have hk0 := hk.of_same hsd
  obtain ⟨hn, hc, hnx, hvl, hv⟩ := hk0.head_cell
  have hpt : POINTER s.tail = s.tail := POINTER_aligned _ hk.tail_aligned
  have hth : s.tail ≠ s.head := fun h => hk.ne h.symm
  rw [show g + 7 = (g + 6) + 1 by omega, searchLevel]
  rw [show g + 6 = (g + 5) + 1 by omega, searchLevelTry]
  simp only [hk.ne, if_false]
  rw [show g + 5 = (g + 4) + 1 by omega, searchLevelLoop]
  simp only [Heap.read] at hc ⊢
  simp only [hc, hnx, List.getElem?_replicate, hl, if_true, hpt, hk.tail_ne, if_false, hth,
    hk.ne, true_or, or_true, true_and, and_true, ne_eq, not_false_eq_true, and_self]
  by_cases hle : hn.validLevel ≤ (curLevel : Int)
  · simp only [hle, if_true]
    have hsd1 : SameDict s { s with mm := (((s.mm.getHPRec tid).1.retire_p (s.mm.getHPRec tid).2
        s.head).employ (s.mm.getHPRec tid).2 0 s.head) } :=
      SameDict.of_mm s _ (by rw [SMR.employ_heap, SMR.retire_p_heap, SMR.getHPRec_heap])
    obtain ⟨s2, h2, hsd2⟩ := scanKey_noKeys tid g _ (hk.of_same hsd1) curLevel hl key
    simp only [] at h2
    rw [h2]
    exact ⟨_, rfl, (hsd1.dict_trans hsd2).dict_trans
      (SameDict.of_mm s2 _ (SMR.retire_p_heap _ _ _))⟩
  · simp only [hle, if_false]
    exact ⟨_, rfl, hsd⟩

/-- On a dictionary without keys the levels of `findKey` all return `head`. -/
theorem findKeyLevels_noKeys (tid hp g : Nat) (key : Int) (count : Nat) :
    ∀ (s : LockFreeDictionary) (last : Nat), NoKeys s → last = s.head → count ≤ MAXLEVEL →
    ∃ s', findKeyLevels tid hp key (g + 7) count s last = some (s', last) ∧
      SameDict s s' := by
  induction count with
  | zero => intro s last _ _ _; exact ⟨s, rfl, SameDict.dict_refl s⟩
  | succ n ih =>
    intro s last hk hlast hc
    subst hlast
    obtain ⟨s1, h1, hsd1⟩ := searchLevel_noKeys tid g s hk n (by omega) key
    have hsd2 : SameDict s1 { s1 with mm := s1.mm.retire_p hp s.head } :=
      SameDict.of_mm s1 _ (SMR.retire_p_heap _ _ _)
    obtain ⟨s3, h3, hsd3⟩ := ih { s1 with mm := s1.mm.retire_p hp s.head } s.head
      (hk.of_same (hsd1.dict_trans hsd2)) hsd1.head.symm (by omega)
    refine ⟨s3, ?_, (hsd1.dict_trans hsd2).dict_trans hsd3⟩
    rw [findKeyLevels, h1]
    exact h3

/-- On a dictionary without keys `findKey` with the key of `tail`, the
default-constructed key 0, reads `result->v` through the `NULL` value pointer
of `tail`: it has no result, whatever the number of passes. -/
theorem findKey_noKeys_zero (tid g : Nat) (s : LockFreeDictionary) (hk : NoKeys s)
    (value : Int) : findKey (g + 7) s tid 0 value = none := by
  have hsd0 : SameDict s
      { s with mm := (s.mm.getHPRec tid).1.employ (s.mm.getHPRec tid).2 0 s.head } :=
    SameDict.of_mm s _ (by rw [SMR.employ_heap, SMR.getHPRec_heap])
  obtain ⟨s1, h1, hsd1⟩ :=
    findKeyLevels_noKeys tid (s.mm.getHPRec tid).2 g 0 MAXLEVEL _ s.head (hk.of_same hsd0) rfl
      (le_refl _)
  have hk1 := hk.of_same (hsd0.dict_trans hsd1)
  have e1 : s1.head = s.head := (hsd0.dict_trans hsd1).head
  have e2 : s1.tail = s.tail := (hsd0.dict_trans hsd1).tail
  obtain ⟨s2, h2, hsd2⟩ := scanKey_noKeys tid (g + 3) s1 hk1 0 (by decide) 0
  rw [e1, e2] at h2
  have hsd3 : SameDict s2 { s2 with mm := s2.mm.retire_p (s.mm.getHPRec tid).2 s.head } :=
    SameDict.of_mm s2 _ (SMR.retire_p_heap _ _ _)
  have hk3 := hk1.of_same (hsd2.dict_trans hsd3)
  obtain ⟨tn, htc, htk, htv⟩ := hk3.tail_cell
  have hnull : s2.values.cells 0 = none := hk3.null_value
  have htc2 : s2.mm.heap.cells s.tail = some tn := by
    have e3 : s2.tail = s.tail := hsd2.tail.trans e2
    rw [← e3, ← hsd3.heap]
    exact htc
  unfold findKey
  simp only [h1, h2, Heap.read, SMR.retire_p_heap, htc2, htk, htv, ne_eq, not_true_eq_false,
    false_or, show MARKED 0 = false by decide, Bool.false_eq_true, if_false, hnull]

/-- On a dictionary without keys `findKey` with a key other than the key of
`tail` returns false and leaves the out-parameter alone. -/
theorem findKey_noKeys_ne (tid g : Nat) (s : LockFreeDictionary) (hk : NoKeys s)
    (key value : Int) (hkey : key ≠ 0) :
    ∃ s', findKey (g + 7) s tid key value = some (s', value, false) ∧ SameDict s s' := by
  have hsd0 : SameDict s
      { s with mm := (s.mm.getHPRec tid).1.employ (s.mm.getHPRec tid).2 0 s.head } :=
    SameDict.of_mm s _ (by rw [SMR.employ_heap, SMR.getHPRec_heap])
  obtain ⟨s1, h1, hsd1⟩ :=
    findKeyLevels_noKeys tid (s.mm.getHPRec tid).2 g key MAXLEVEL _ s.head (hk.of_same hsd0) rfl
      (le_refl _)
  have hk1 := hk.of_same (hsd0.dict_trans hsd1)
  have e1 : s1.head = s.head := (hsd0.dict_trans hsd1).head
  have e2 : s1.tail = s.tail := (hsd0.dict_trans hsd1).tail
  obtain ⟨s2, h2, hsd2⟩ := scanKey_noKeys tid (g + 3) s1 hk1 0 (by decide) key
  rw [e1, e2] at h2
  have hsd3 : SameDict s2 { s2 with mm := s2.mm.retire_p (s.mm.getHPRec tid).2 s.head } :=
    SameDict.of_mm s2 _ (SMR.retire_p_heap _ _ _)
  have hk3 := hk1.of_same (hsd2.dict_trans hsd3)
  obtain ⟨tn, htc, htk, htv⟩ := hk3.tail_cell
  have htc2 : s2.mm.heap.cells s.tail = some tn := by
    have e3 : s2.tail = s.tail := hsd2.tail.trans e2
    rw [← e3, ← hsd3.heap]
    exact htc
  refine ⟨_, ?_, (((hsd0.dict_trans hsd1).dict_trans hsd2).dict_trans hsd3).dict_trans
    (SameDict.of_mm _ (s2.mm.retire_p (s.mm.getHPRec tid).2 s.head |>.retire_p
      (s.mm.getHPRec tid).2 s.tail) (by
        show SMR.heap (SMR.retire_p _ _ _) = SMR.heap (SMR.retire_p _ _ _)
        rw [SMR.retire_p_heap]))⟩
  unfold findKey
  simp only [h1, h2, Heap.read, SMR.retire_p_heap, htc2, htk, ne_eq, Ne.symm hkey,
    not_false_eq_true, true_or, if_true]

end LockFreeDictionary

end Amino

namespace Amino

namespace LockFreeDictionary

/-- A newly constructed dictionary has no keys. -/
theorem init_noKeys (mm : SMR DictNode) (values : Heap Int) (seed : Nat) (hw : mm.heap.WF)
    (hv : values.cells 0 = none) : NoKeys (init mm values seed) := by
  have w1 := Heap.alloc_wf mm.heap hw (default : DictNode)
  have w2 := Heap.alloc_wf _ w1 (default : DictNode)
  generalize hh1 : (mm.heap.alloc default).2 = h1 at w1 w2
  generalize hhead : (mm.heap.alloc default).1 = head
  have c1 : h1.cells head = some default := by
    rw [← hh1, ← hhead, Heap.alloc_cells]; simp
  have f2 := Heap.alloc_fst_fresh h1 w1 (default : DictNode)
  have a2 := Heap.alloc_fst_aligned h1 w1 (default : DictNode)
  have n2 := Heap.alloc_fst_ne h1 w1 (default : DictNode)
  have c2 := Heap.alloc_cells h1 (default : DictNode)
  generalize hh2 : (h1.alloc default).2 = h2 at w2 c2
  generalize htail : (h1.alloc default).1 = tail at f2 a2 n2 c2
  have hne : head ≠ tail := by
    rintro rfl
    rw [c1] at f2; cases f2
  have c2h : h2.cells head = some default := by rw [c2, if_neg hne, c1]
  have w3 := Heap.put_wf h2 w2 head
    { (default : DictNode) with validLevel := MAXLEVEL - 1, next := List.replicate MAXLEVEL tail } (by rw [c2h]; simp)
  have c3t : (h2.put head (some { (default : DictNode) with validLevel := MAXLEVEL - 1, next := List.replicate MAXLEVEL tail })).cells tail = some default := by
    rw [Heap.put_cells, if_neg (Ne.symm hne), c2]; simp
  have w4 := Heap.put_wf _ w3 tail
    { (default : DictNode) with validLevel := MAXLEVEL - 1 } (by rw [c3t]; simp)
  generalize hh4 : ((h2.put head (some { (default : DictNode) with validLevel := MAXLEVEL - 1, next := List.replicate MAXLEVEL tail })).put tail
        (some { (default : DictNode) with validLevel := MAXLEVEL - 1 })) = h4 at w4
  have c4h : h4.cells head = some { (default : DictNode) with validLevel := MAXLEVEL - 1, next := List.replicate MAXLEVEL tail } := by
    rw [← hh4, Heap.put_cells, if_neg hne, Heap.put_cells]; simp
  have c4t : h4.cells tail = some { (default : DictNode) with validLevel := MAXLEVEL - 1 } := by
    rw [← hh4, Heap.put_cells]; simp
  have f5 := Heap.alloc_fst_fresh h4 w4 (default : DictNode)
  have c5 := Heap.alloc_cells h4 (default : DictNode)
  have hih : head ≠ (h4.alloc default).1 := by
    intro hc; rw [← hc, c4h] at f5; cases f5
  have hit : tail ≠ (h4.alloc default).1 := by
    intro hc; rw [← hc, c4t] at f5; cases f5
  have e : init mm values seed =
      { head := head, tail := tail, INVALID := (h4.alloc default).1,
        mm := { mm with heap := (h4.alloc default).2 }, values := values,
        randomSeed := seed } := by
    unfold init
    simp only [hh1, hhead, hh2, htail, hh4]
  rw [e]
  have c5h : (h4.alloc default).2.cells head = _ := (c5 head).trans
    ((if_neg hih).trans c4h)
  have c5t : (h4.alloc default).2.cells tail = _ := (c5 tail).trans
    ((if_neg hit).trans c4t)
  exact ⟨hne, a2, n2, ⟨_, c5h, rfl, rfl, rfl⟩, ⟨_, c5t, rfl, rfl⟩, hv⟩

end LockFreeDictionary

open LockFreeDictionary in
/-- C25, what the code does: on a newly constructed `LockFreeDictionary<int,
int>`, `findKey(0, value)` with the default-constructed key 0 has no result,
whatever the number of passes through its loops: `scanKey` returns `tail`,
whose key is the default-constructed key and whose value pointer is `NULL`,
and `result->v` is read through it.  With every other key the same number of
passes suffices and `findKey` returns false. -/
theorem C25_findKey_default_key_faults (mm : SMR DictNode) (values : Heap Int)
    (seed tid g : Nat) (value : Int) (hw : mm.heap.WF) (hv : values.cells 0 = none) :
    findKey (g + 7) (init mm values seed) tid 0 value = none ∧
    (∃ s', scanKey tid (g + 4) (init mm values seed) (init mm values seed).head 0 0
        = some (s', (init mm values seed).head, (init mm values seed).tail) ∧
      s'.mm.heap = (init mm values seed).mm.heap ∧ s'.values = values) ∧
    (∃ tn, (init mm values seed).mm.heap.read (init mm values seed).tail = some tn ∧
      tn.key = 0 ∧ tn.value = 0) ∧
    values.read 0 = none ∧
    (∀ key : Int, key ≠ 0 →
      ∃ s', findKey (g + 7) (init mm values seed) tid key value = some (s', value, false)) := by
  have hk := init_noKeys mm values seed hw hv
  obtain ⟨s', h1, h2⟩ := scanKey_noKeys tid g _ hk 0 (by decide) 0
  refine ⟨findKey_noKeys_zero tid g _ hk value, ⟨s', h1, h2.heap, h2.values⟩, hk.tail_cell, hv,
    fun key hkey => ?_⟩
  obtain ⟨s2, h3, -⟩ := findKey_noKeys_ne tid g _ hk key value hkey
  exact ⟨s2, h3⟩

open LockFreeDictionary in
theorem C25_findKey_default_key_faults_witness :
    findKey (0 + 7) (init (SMR.init MAXLEVEL 0) Heap.empty 256) 0 0 7 = none ∧
    (∃ s', scanKey 0 (0 + 4) (init (SMR.init MAXLEVEL 0) Heap.empty 256)
        (init (SMR.init MAXLEVEL 0) Heap.empty 256).head 0 0
        = some (s', (init (SMR.init MAXLEVEL 0) Heap.empty 256).head,
            (init (SMR.init MAXLEVEL 0) Heap.empty 256).tail) ∧
      s'.mm.heap = (init (SMR.init MAXLEVEL 0) Heap.empty 256).mm.heap ∧
      s'.values = Heap.empty) ∧
    (∃ tn, (init (SMR.init MAXLEVEL 0) Heap.empty 256).mm.heap.read
        (init (SMR.init MAXLEVEL 0) Heap.empty 256).tail = some tn ∧
      tn.key = 0 ∧ tn.value = 0) ∧
    (Heap.empty : Heap Int).read 0 = none ∧
    (∀ key : Int, key ≠ 0 →
      ∃ s', findKey (0 + 7) (init (SMR.init MAXLEVEL 0) Heap.empty 256) 0 key 7
        = some (s', 7, false)) :=
  C25_findKey_default_key_faults (SMR.init MAXLEVEL 0) Heap.empty 256 0 0 7 Heap.empty_wf rfl

end Amino

namespace Amino

namespace Set

set_option maxRecDepth 100000 in
theorem sampleSet_fields :
    (Set.init 5 (SMR.init NHPOINTER 0) 0 (DEFAULT_SEGMENT_SIZE * DEFAULT_ARRAY_SIZE)
      SET_MAX_LOAD).map (fun s => (s._size, s._count, s.segmentSize, s.cell 0 0, s.cell 0 1))
      = some (2, 0, 128, some 16, some 0) ∧
    (sampleSet._size, sampleSet._count, sampleSet.segmentSize) = (2, 0, 128) := by
  decide

set_option maxRecDepth 100000 in
theorem sampleSet_bucket_of_minus_one :
    toUnsigned (Int.tmod (hash_function (-1)) sampleSet._size) = 4294967295 ∧
    (sampleSet.get_bucket 4294967295).map Prod.snd = some 0 ∧
    get_parent^[30] 4294967295 = 3 ∧ get_parent 3 = 1 ∧ get_parent 1 = 0 := by
  decide

set_option maxRecDepth 100000 in
theorem sampleSet_bucket_three :
    (initialize_bucket 0 40 sampleSet 1).map (fun s => s.cell 0 1) = some (some 24) ∧
    (initialize_bucket 0 40 sampleSet 1).bind (fun s1 =>
      (OrderedList.add_returnAddress 40 (s1.startList 24) 0
        (SetNode.code { element := 0, key := dummyKey 3 }) Loc.head).map (fun x =>
          (x.2, (s1.withList x.1).cell 0 3, ((s1.withList x.1).get_bucket 3).map Prod.snd,
            (set_bucket (s1.withList x.1) 3 x.2).isNone)))
      = some (32, some 0, some 24, true) ∧
    (initialize_bucket 0 40 sampleSet 3).isNone = true := by
  decide

set_option maxRecDepth 100000 in
theorem sampleSet_calls :
    (insert 40 sampleSet 0 (-1)).isNone = true ∧
    (remove 40 sampleSet 0 (-1)).isNone = true ∧
    (search 40 sampleSet 0 (-1)).map Prod.snd = some false ∧
    (insert 40 sampleSet 0 1).map (fun x => (x.2, x.1.size)) = some (true, 1) ∧
    (insert 40 sampleSet 0 (-2)).map (fun x => (x.2, x.1.size)) = some (true, 1) := by
  decide

set_option maxRecDepth 100000 in
theorem sampleSet_indices :
    get_parent^[15] 4294967295 = 131071 ∧
    Int.tdiv (toInt 131071) sampleSet.segmentSize = 1023 ∧
    Int.tmod (toInt 4294967295) sampleSet.segmentSize = -1 := by
  decide

end Set

open Set in
/-- C26, what the code does: on a newly constructed `Set<int>` (two buckets,
segments of 128 cells) `insert(-1)` computes `key % _size` on `int`, which is
-1, and converts it to the `unsigned int` bucket 4294967295.  Its cell (cell 1)
is `NULL`, so `initialize_bucket(4294967295)` is run; it goes through the
parents 2147483647, ..., 3, 1.  Bucket 1 is initialised (dummy node 24 in cell
1); for bucket 3 the dummy node 32 is added, and `set_bucket(3, 32)` fails
`assert(get_bucket(3) == head)`, because `get_bucket` reduces the bucket
modulo `_size` and reads cell 1, which holds 24: `insert(-1)` and `remove(-1)`
have no result.  `search(-1)`, which computes the bucket on `unsigned int`,
returns false, and `insert(1)` and `insert(-2)` return true.  Without the
assertions the parent 131071 of the same chain gives the segment index 1023,
outside of the 512 cells of `mainArray`, and bucket 4294967295 itself gives
the cell index -1. -/
theorem C26_insert_negative_element_faults :
    (sampleSet._size, sampleSet._count, sampleSet.segmentSize) = (2, 0, 128) ∧
    toUnsigned (Int.tmod (hash_function (-1)) sampleSet._size) = 4294967295 ∧
    (sampleSet.get_bucket 4294967295).map Prod.snd = some 0 ∧
    get_parent^[30] 4294967295 = 3 ∧ get_parent 3 = 1 ∧ get_parent 1 = 0 ∧
    (initialize_bucket 0 40 sampleSet 1).map (fun s => s.cell 0 1) = some (some 24) ∧
    (initialize_bucket 0 40 sampleSet 1).bind (fun s1 =>
      (OrderedList.add_returnAddress 40 (s1.startList 24) 0
        (SetNode.code { element := 0, key := dummyKey 3 }) Loc.head).map (fun x =>
          (x.2, (s1.withList x.1).cell 0 3, ((s1.withList x.1).get_bucket 3).map Prod.snd,
            (set_bucket (s1.withList x.1) 3 x.2).isNone)))
      = some (32, some 0, some 24, true) ∧
    (initialize_bucket 0 40 sampleSet 3).isNone = true ∧
    (insert 40 sampleSet 0 (-1)).isNone = true ∧
    (remove 40 sampleSet 0 (-1)).isNone = true ∧
    (search 40 sampleSet 0 (-1)).map Prod.snd = some false ∧
    (insert 40 sampleSet 0 1).map (fun x => (x.2, x.1.size)) = some (true, 1) ∧
    (insert 40 sampleSet 0 (-2)).map (fun x => (x.2, x.1.size)) = some (true, 1) ∧
    get_parent^[15] 4294967295 = 131071 ∧
    Int.tdiv (toInt 131071) sampleSet.segmentSize = 1023 ∧
    Int.tmod (toInt 4294967295) sampleSet.segmentSize = -1 ∧
    DEFAULT_ARRAY_SIZE = 512 :=
  ⟨sampleSet_fields.2, sampleSet_bucket_of_minus_one.1, sampleSet_bucket_of_minus_one.2.1,
    sampleSet_bucket_of_minus_one.2.2.1, sampleSet_bucket_of_minus_one.2.2.2.1,
    sampleSet_bucket_of_minus_one.2.2.2.2, sampleSet_bucket_three.1, sampleSet_bucket_three.2.1,
    sampleSet_bucket_three.2.2, sampleSet_calls.1, sampleSet_calls.2.1, sampleSet_calls.2.2.1,
    sampleSet_calls.2.2.2.1, sampleSet_calls.2.2.2.2, sampleSet_indices.1, sampleSet_indices.2.1,
    sampleSet_indices.2.2, rfl⟩

end Amino

namespace Amino

namespace LockFreePriorityQueue

theorem pq_lastAt_append (i : Nat) : ∀ (P R : List Entry) (d : Nat),
    lastAt i d (P ++ R) = lastAt i (lastAt i d P) R := by
  intro P
  induction P with
  | nil => intro R d; rfl
  | cons e P ih => intro R d; simp only [List.cons_append, lastAt]; exact ih R _

theorem pq_lastAt_mem (i : Nat) : ∀ (P : List Entry) (d : Nat),
    lastAt i d P = d ∨ lastAt i d P ∈ P.map Entry.addr := by
  intro P
  induction P with
  | nil => intro d; exact Or.inl rfl
  | cons e P ih =>
    intro d
    simp only [lastAt, List.map_cons, List.mem_cons]
    rcases ih (if i < e.height then e.addr else d) with h | h
    · rw [h]
      split
      · exact Or.inr (Or.inl rfl)
      · exact Or.inl rfl
    · exact Or.inr (Or.inr h)

theorem pq_lastAt_low (i : Nat) : ∀ (P : List Entry) (d : Nat),
    (∀ e ∈ P, ¬ i < e.height) → lastAt i d P = d := by
  intro P
  induction P with
  | nil => intro d _; rfl
  | cons e P ih =>
    intro d h
    simp only [lastAt]
    rw [if_neg (h e (List.mem_cons_self _ _))]
    exact ih d (fun x hx => h x (List.mem_cons_of_mem _ hx))

theorem pq_lastAt_high (i : Nat) : ∀ (P : List Entry) (d : Nat),
    (∃ e ∈ P, i < e.height) → lastAt i d P ∈ P.map Entry.addr := by
  intro P
  induction P with
  | nil => intro d h; obtain ⟨e, he, -⟩ := h; cases he
  | cons e P ih =>
    intro d h
    simp only [lastAt, List.map_cons, List.mem_cons]
    by_cases hP : ∃ x ∈ P, i < x.height
    · exact Or.inr (ih _ hP)
    · have hlow : ∀ x ∈ P, ¬ i < x.height := fun x hx hc => hP ⟨x, hx, hc⟩
      rw [pq_lastAt_low i P _ hlow]
      obtain ⟨x, hx, hxi⟩ := h
      rcases List.mem_cons.mp hx with rfl | hx
      · rw [if_pos hxi]; exact Or.inl rfl
      · exact absurd hxi (hlow x hx)

theorem pq_lastAt_split (i j : Nat) (hij : i ≤ j) (d : Nat) : ∀ pre : List Entry,
    ∃ P R1, pre = P ++ R1 ∧ lastAt j d pre = lastAt i d P := by
  intro pre
  induction pre using List.reverseRecOn with
  | nil => exact ⟨[], [], rfl, rfl⟩
  | append_singleton pre e ih =>
    by_cases he : j < e.height
    · refine ⟨pre ++ [e], [], by simp, ?_⟩
      rw [pq_lastAt_append, pq_lastAt_append]
      simp only [lastAt]
      rw [if_pos he, if_pos (by omega)]
    · obtain ⟨P, R1, h1, h2⟩ := ih
      refine ⟨P, R1 ++ [e], by rw [h1, List.append_assoc], ?_⟩
      rw [pq_lastAt_append]
      simp only [lastAt]
      rw [if_neg he, h2]

theorem pq_nextAt_mem (tail i : Nat) : ∀ L : List Entry,
    nextAt tail i L = tail ∨ ∃ e ∈ L, nextAt tail i L = e.addr ∧ i < e.height := by
  intro L
  induction L with
  | nil => exact Or.inl rfl
  | cons e L ih =>
    simp only [nextAt]
    split
    · rename_i h
      exact Or.inr ⟨e, List.mem_cons_self _ _, rfl, h⟩
    · rcases ih with h | ⟨x, hx, h1, h2⟩
      · exact Or.inl h
      · exact Or.inr ⟨x, List.mem_cons_of_mem _ hx, h1, h2⟩

theorem pq_nextAt_append_low (tail i : Nat) : ∀ (X Y : List Entry),
    (∀ e ∈ X, ¬ i < e.height) → nextAt tail i (X ++ Y) = nextAt tail i Y := by
  intro X
  induction X with
  | nil => intro Y _; rfl
  | cons e X ih =>
    intro Y h
    simp only [List.cons_append, nextAt]
    rw [if_neg (h e (List.mem_cons_self _ _))]
    exact ih Y (fun x hx => h x (List.mem_cons_of_mem _ hx))

theorem pq_nextAt_append_high (tail i : Nat) : ∀ (X Y Y' : List Entry),
    (∃ e ∈ X, i < e.height) → nextAt tail i (X ++ Y) = nextAt tail i (X ++ Y') := by
  intro X
  induction X with
  | nil => intro Y Y' h; obtain ⟨e, he, -⟩ := h; cases he
  | cons e X ih =>
    intro Y Y' h
    simp only [List.cons_append, nextAt]
    split
    · rfl
    · rename_i hn
      obtain ⟨x, hx, hxi⟩ := h
      rcases List.mem_cons.mp hx with rfl | hx
      · exact absurd hxi hn
      · exact ih Y Y' ⟨x, hx, hxi⟩

theorem pq_linked_append (h : Heap PQNode) (tail : Nat) : ∀ (X Y : List Entry),
    linked h tail (X ++ Y) → linked h tail Y := by
  intro X
  induction X with
  | nil => intro Y hl; exact hl
  | cons e X ih => intro Y hl; exact ih Y hl.2

theorem pq_linked_frame (h h' : Heap PQNode) (tail : Nat) : ∀ (L : List Entry),
    (∀ e ∈ L, h'.cells e.addr = h.cells e.addr) → linked h tail L → linked h' tail L := by
  intro L
  induction L with
  | nil => intro _ _; trivial
  | cons e L ih =>
    intro hc hl
    refine ⟨?_, ih (fun x hx => hc x (List.mem_cons_of_mem _ hx)) hl.2⟩
    rw [hc e (List.mem_cons_self _ _)]
    exact hl.1

theorem pq_linked_mem (h : Heap PQNode) (tail : Nat) : ∀ (L : List Entry) (e : Entry),
    linked h tail L → e ∈ L →
    ∃ n, h.cells e.addr = some n ∧ n.key = e.key ∧ n.value = e.vptr ∧ MARKED e.vptr = false ∧
      n.next.length = MAXLEVEL := by
  intro L
  induction L with
  | nil => intro e _ he; cases he
  | cons x L ih =>
    intro e hl he
    rcases List.mem_cons.mp he with rfl | he
    · obtain ⟨n, h1, h2, h3, h4, h5, -⟩ := hl.1
      exact ⟨n, h1, h2, h3, h4, h5⟩
    · exact ih e hl.2 he

theorem pq_next_of_lastAt (h : Heap PQNode) (tail i : Nat) (Y : List Entry) :
    ∀ (P : List Entry) (d : Nat), pointsAt h d i (nextAt tail i (P ++ Y)) →
    linked h tail (P ++ Y) → pointsAt h (lastAt i d P) i (nextAt tail i Y) := by
  intro P
  induction P with
  | nil => intro d hd _; exact hd
  | cons e P ih =>
    intro d hd hl
    simp only [lastAt]
    by_cases he : i < e.height
    · rw [if_pos he]
      obtain ⟨n, h1, -, h3, h4, -, h6⟩ := hl.1
      exact ih e.addr ⟨n, h1, by rw [h3]; exact h4, h6 i he⟩ hl.2
    · rw [if_neg he]
      simp only [List.cons_append, nextAt, if_neg he] at hd
      exact ih d hd hl.2

end LockFreePriorityQueue

end Amino

namespace Amino

namespace SMR
variable {α : Type}

theorem retireLoop_length (p : Nat) : ∀ (n i : Nat) (hp : List Nat),
    (retireLoop p n i hp).length = hp.length := by
  intro n
  induction n with
  | zero => intro i hp; rfl
  | succ n ih =>
    intro i hp
    simp only [retireLoop]
    rw [ih]
    split <;> simp

theorem retire_p_spec (s : SMR α) (hw : s.WF) (hp p : Nat) :
    (s.retire_p hp p).WF ∧ (s.retire_p hp p).allOwned = s.allOwned ∧
    (s.retire_p hp p).thread_local = s.thread_local ∧
    (s.retire_p hp p).hprecs.length = s.hprecs.length := by
  unfold retire_p
  cases hg : s.getRec hp with
  | none => exact ⟨hw, rfl, rfl, rfl⟩
  | some r =>
    have hrw := hw.recs r (getRec_mem s _ r hg)
    simp only
    refine ⟨?_, ?_, by simp, by simp⟩
    · exact hw.setRec_same _ r _ hg ⟨by simpa [retireLoop_length] using hrw.hp_len, hrw.allocType,
        hrw.fr_data_le, hrw.fr_data_len, hrw.fr_smr_le⟩ rfl rfl
    · exact allOwned_setRec_same s _ r _ hg rfl

end SMR

namespace LockFreePriorityQueue

theorem Slots.pq_refl (s : LockFreePriorityQueue) : Slots s s :=
  ⟨rfl, rfl, rfl, rfl, rfl, rfl, rfl⟩

theorem Slots.pq_trans {s s1 s2 : LockFreePriorityQueue} (h1 : Slots s s1) (h2 : Slots s1 s2) :
    Slots s s2 :=
  ⟨h2.head.trans h1.head, h2.tail.trans h1.tail, h2.INVALID.trans h1.INVALID,
    h2.values.trans h1.values, h2.randomSeed.trans h1.randomSeed, h2.heap.trans h1.heap,
    h2.owned.trans h1.owned⟩

theorem Slots.pq_live {s s' : LockFreePriorityQueue} (h : Slots s s') (q : Nat) :
    s'.mm.live q ↔ s.mm.live q := by
  unfold SMR.live
  rw [h.heap, h.owned]

theorem Ready.pq_getHPRec {s : LockFreePriorityQueue} {tid hp : Nat} (h : Ready s tid hp) :
    s.mm.getHPRec tid = (s.mm, hp) :=
  SMR.getHPRec_of_tl s.mm tid hp h.tl h.valid.1

theorem pq_retire_p (s : LockFreePriorityQueue) (tid hp p : Nat) (h : Ready s tid hp) :
    Ready { s with mm := s.mm.retire_p hp p } tid hp ∧
    Slots s { s with mm := s.mm.retire_p hp p } := by
  obtain ⟨h1, h2, h3, h4⟩ := SMR.retire_p_spec s.mm h.wf hp p
  refine ⟨⟨h1, ?_, ?_⟩, ⟨rfl, rfl, rfl, rfl, rfl, SMR.retire_p_heap _ _ _, h2⟩⟩
  · show (s.mm.retire_p hp p).thread_local tid = hp
    rw [h3]; exact h.tl
  · exact ⟨h.valid.1, by show hp ≤ (s.mm.retire_p hp p).hprecs.length; rw [h4]; exact h.valid.2⟩

theorem pq_employ (s : LockFreePriorityQueue) (tid hp i p : Nat) (h : Ready s tid hp) :
    Ready { s with mm := s.mm.employ hp i p } tid hp ∧
    Slots s { s with mm := s.mm.employ hp i p } := by
  obtain ⟨h1, h2, h3, h4, -⟩ := SMR.employ_spec s.mm h.wf hp i p
  refine ⟨⟨h1, ?_, ?_⟩, ⟨rfl, rfl, rfl, rfl, rfl, h2.heap, h2.owned⟩⟩
  · show (s.mm.employ hp i p).thread_local tid = hp
    rw [h3]; exact h.tl
  · exact ⟨h.valid.1, by show hp ≤ (s.mm.employ hp i p).hprecs.length; rw [h4]; exact h.valid.2⟩

theorem pq_readNext_step (tid g : Nat) (s : LockFreePriorityQueue) (node i x : Nat)
    (hn : node ≠ s.tail) (hp : pointsAt s.mm.heap node i x) (hx0 : x ≠ 0)
    (hxm : MARKED x = false) : readNext tid (g + 2) s node i = some (s, node, x) := by
  obtain ⟨n, h1, h2, h3⟩ := hp
  rw [show g + 2 = (g + 1) + 1 by omega, readNext]
  simp only [hn, if_false, Heap.read, h1, h2, Bool.false_eq_true]
  rw [readNextLoop]
  simp [getNext, Heap.read, h1, h3, hxm, hx0]

theorem pq_scanKeyLoop_walk (tid hp : Nat) (key : Int) (i : Nat) (post : List Entry) :
    ∀ (R1 : List Entry) (g : Nat) (s : LockFreePriorityQueue) (c : Nat),
    Ready s tid hp → linked s.mm.heap s.tail (R1 ++ post) →
    (∀ e ∈ R1 ++ post, e.addr ≠ s.tail ∧ e.addr ≠ s.head) →
    s.mm.heap.cells s.tail ≠ none →
    (∀ e ∈ R1, e.key < key) → (∀ e ∈ post, key ≤ e.key) →
    ∃ s', scanKeyLoop tid (R1.length + 3 + g) s hp c (nextAt s.tail i (R1 ++ post)) i key =
        some (s', lastAt i c R1, nextAt s.tail i post) ∧ Slots s s' ∧ Ready s' tid hp := by
  intro R1
  induction R1 with
  | nil =>
    intro g s c hr hl hA ht _ hpost
    refine ⟨s, ?_, Slots.pq_refl s, hr⟩
    rw [show ([] : List Entry).length + 3 + g = (g + 2) + 1 by simp; omega, scanKeyLoop]
    simp only [List.nil_append, lastAt]
    rcases pq_nextAt_mem s.tail i post with h | ⟨e, he, h1, -⟩
    · rw [if_pos h]
    · have hne := hA e (by simpa using he)
      obtain ⟨n, hc, hk, -⟩ := pq_linked_mem _ _ _ e hl (by simpa using he)
      rw [h1, if_neg hne.1, if_neg hne.2]
      have : ¬ n.key < key := by rw [hk]; exact not_lt.mpr (hpost e he)
      simp [Heap.read, hc, this]
  | cons e R1 ih =>
    intro g s c hr hl hA ht hpre hpost
    have hA' : ∀ x ∈ R1 ++ post, x.addr ≠ s.tail ∧ x.addr ≠ s.head :=
      fun x hx => hA x (List.mem_cons_of_mem _ hx)
    have hpre' : ∀ x ∈ R1, x.key < key := fun x hx => hpre x (List.mem_cons_of_mem _ hx)
    by_cases he : i < e.height
    · obtain ⟨n, hc, hk, hv, hvm, -, hnx⟩ := hl.1
      have hne := hA e (List.mem_cons_self _ _)
      obtain ⟨hr1, hs1⟩ := pq_retire_p s tid hp c hr
      have hx : ALIGN ∣ nextAt s.tail i (R1 ++ post) := by
        rcases pq_nextAt_mem s.tail i (R1 ++ post) with h | ⟨x, hx, h1, -⟩
        · rw [h]; exact hr.wf.heap.aligned _ ht
        · rw [h1]
          obtain ⟨m, hm, -⟩ := pq_linked_mem _ _ _ x hl.2 hx
          exact hr.wf.heap.aligned _ (by rw [hm]; simp)
      have hx0 : nextAt s.tail i (R1 ++ post) ≠ 0 := by
        rcases pq_nextAt_mem s.tail i (R1 ++ post) with h | ⟨x, hx, h1, -⟩
        · rw [h]; rintro h0; rw [h0] at ht; exact ht hr.wf.heap.null
        · rw [h1]
          obtain ⟨m, hm, -⟩ := pq_linked_mem _ _ _ x hl.2 hx
          rintro h0; rw [h0, hr.wf.heap.null] at hm; cases hm
      have hrd := pq_readNext_step tid (R1.length + 1 + g) { s with mm := s.mm.retire_p hp c }
        e.addr i (nextAt s.tail i (R1 ++ post)) hne.1
        ⟨n, by rw [hs1.heap]; exact hc, by rw [hv]; exact hvm, hnx i he⟩ hx0
        (MARKED_aligned _ hx)
      obtain ⟨s', h1, h2, h3⟩ := ih g { s with mm := s.mm.retire_p hp c } e.addr hr1
        (by rw [hs1.heap]; exact hl.2) hA' (by rw [hs1.heap]; exact ht) hpre' hpost
      refine ⟨s', ?_, hs1.pq_trans h2, h3⟩
      rw [show (e :: R1).length + 3 + g = (R1.length + 3 + g) + 1 by simp; omega, scanKeyLoop]
      simp only [List.cons_append, nextAt, lastAt, if_pos he, if_neg hne.1, if_neg hne.2]
      have hlt : n.key < key := by rw [hk]; exact hpre e (List.mem_cons_self _ _)
      simp only [Heap.read, hc, Option.map_some', hlt, decide_True]
      rw [show R1.length + 3 + g = (R1.length + 1 + g) + 2 by omega, hrd]
      simp only
      rw [show R1.length + 1 + g + 2 = R1.length + 3 + g by omega]
      exact h1
    · obtain ⟨s', h1, h2, h3⟩ := ih (g + 1) s c hr hl.2 hA' ht hpre' hpost
      refine ⟨s', ?_, h2, h3⟩
      simp only [List.cons_append, nextAt, lastAt, if_neg he]
      rw [show (e :: R1).length + 3 + g = R1.length + 3 + (g + 1) by simp; omega]
      exact h1

end LockFreePriorityQueue

end Amino

namespace Amino

namespace LockFreePriorityQueue

theorem Core.pq_of_slots {s s' : LockFreePriorityQueue} {l : List Entry} (hc : Core s l)
    (h : Slots s s') (hw : s'.mm.WF) : Core s' l := by
  refine ⟨hw, ?_, hc.sorted, ?_, ?_⟩
  · have := hc.linked
    unfold headEntry at this ⊢
    rw [h.heap, h.tail, h.head]; exact this
  · rw [h.head, h.tail, h.INVALID]; exact hc.nodup
  · intro a ha
    rw [h.head, h.tail, h.INVALID] at ha
    exact (h.pq_live a).mpr (hc.live a ha)

theorem Core.pq_tail {s : LockFreePriorityQueue} {l : List Entry} (hc : Core s l) :
    s.mm.heap.cells s.tail ≠ none ∧ ALIGN ∣ s.tail ∧ s.tail ≠ 0 ∧ s.head ≠ s.tail ∧
    s.tail ≠ s.INVALID := by
  have hl := (hc.live s.tail (by simp)).1
  have hn := hc.nodup
  simp only [List.nodup_cons, List.mem_cons, not_or] at hn
  refine ⟨hl, hc.wf.heap.aligned _ hl, ?_, hn.1.1, hn.2.1.1⟩
  rintro h0; rw [h0] at hl; exact hl hc.wf.heap.null

theorem Core.pq_entry {s : LockFreePriorityQueue} {l : List Entry} (hc : Core s l) (e : Entry)
    (he : e ∈ l) :
    e.addr ≠ s.tail ∧ e.addr ≠ s.head ∧ e.addr ≠ s.INVALID ∧ ALIGN ∣ e.addr ∧ e.addr ≠ 0 ∧
    ∃ n, s.mm.heap.cells e.addr = some n ∧ n.key = e.key ∧ n.value = e.vptr ∧
      MARKED e.vptr = false ∧ n.next.length = MAXLEVEL := by
  have hm : e.addr ∈ l.map Entry.addr := List.mem_map_of_mem _ he
  have hl := (hc.live e.addr (by simp [hm])).1
  have hn := hc.nodup
  simp only [List.nodup_cons, List.mem_cons, not_or] at hn
  refine ⟨?_, ?_, ?_, hc.wf.heap.aligned _ hl, ?_, pq_linked_mem _ _ _ e hc.linked.2 he⟩
  · rintro h; exact hn.2.1.2 (h ▸ hm)
  · rintro h; exact hn.1.2.2 (h ▸ hm)
  · rintro h; exact hn.2.2.1 (h ▸ hm)
  · rintro h0; rw [h0] at hl; exact hl hc.wf.heap.null

theorem Core.pq_head {s : LockFreePriorityQueue} {l : List Entry} (hc : Core s l) :
    ∃ n, s.mm.heap.cells s.head = some n ∧ n.value = 0 ∧ n.next.length = MAXLEVEL ∧
      ∀ i, i < MAXLEVEL → n.next[i]? = some (nextAt s.tail i l) := by
  obtain ⟨n, h1, -, h3, -, h5, h6⟩ := hc.linked.1
  exact ⟨n, h1, h3, h5, h6⟩

theorem Core.pq_nextAt {s : LockFreePriorityQueue} {l : List Entry} (hc : Core s l) (i : Nat)
    (X Y : List Entry) (hl : l = X ++ Y) :
    ALIGN ∣ nextAt s.tail i Y ∧ nextAt s.tail i Y ≠ 0 ∧ nextAt s.tail i Y ≠ s.INVALID ∧
    nextAt s.tail i Y ≠ s.head ∧ s.mm.heap.cells (nextAt s.tail i Y) ≠ none := by
  rcases pq_nextAt_mem s.tail i Y with h | ⟨e, he, h1, -⟩
  · rw [h]
    obtain ⟨t1, t2, t3, t4, t5⟩ := hc.pq_tail
    exact ⟨t2, t3, t5, Ne.symm t4, t1⟩
  · rw [h1]
    obtain ⟨e1, e2, e3, e4, e5, n, e6, -⟩ := hc.pq_entry e (by rw [hl]; simp [he])
    exact ⟨e4, e5, e3, e2, by rw [e6]; simp⟩

theorem pq_MARKED_zero : MARKED 0 = false := MARKED_aligned 0 aligned_zero

theorem pq_scanKey_spec (tid hp g i j : Nat) (key : Int) (s : LockFreePriorityQueue)
    (pre post : List Entry) (hr : Ready s tid hp) (hc : Core s (pre ++ post))
    (hi : i < MAXLEVEL) (hij : i ≤ j) (hpre : ∀ e ∈ pre, e.key < key)
    (hpost : ∀ e ∈ post, key ≤ e.key) :
    ∃ s', scanKey tid (pre.length + 4 + g) s (lastAt j s.head pre) i key =
        some (s', lastAt i s.head pre, nextAt s.tail i post) ∧ Slots s s' ∧ Ready s' tid hp := by
  obtain ⟨P, R1, hsplit, hlast⟩ := pq_lastAt_split i j hij s.head pre
  obtain ⟨hn, hn1, hn3, hn5, hn6⟩ := hc.pq_head
  have hlk : linked s.mm.heap s.tail (P ++ (R1 ++ post)) := by
    have := hc.linked.2
    rw [hsplit, List.append_assoc] at this
    exact this
  have hpt : pointsAt s.mm.heap (lastAt i s.head P) i (nextAt s.tail i (R1 ++ post)) := by
    apply pq_next_of_lastAt _ _ _ _ P s.head _ hlk
    refine ⟨hn, hn1, by rw [hn3]; exact pq_MARKED_zero, ?_⟩
    rw [hn6 i hi, hsplit, List.append_assoc]
  have hcn : lastAt i s.head P ≠ s.tail := by
    rcases pq_lastAt_mem i P s.head with h | h
    · rw [h]; exact hc.pq_tail.2.2.2.1
    · obtain ⟨e, he, he2⟩ := List.mem_map.mp h
      rw [← he2]
      exact (hc.pq_entry e (by rw [hsplit]; simp [he])).1
  obtain ⟨x1, x2, x3, x4, x5⟩ := hc.pq_nextAt i P (R1 ++ post)
    (by rw [hsplit, List.append_assoc])
  have hrd := pq_readNext_step tid (pre.length + 1 + g) s (lastAt i s.head P) i
    (nextAt s.tail i (R1 ++ post)) hcn hpt x2 (MARKED_aligned _ x1)
  obtain ⟨s', h1, h2, h3⟩ := pq_scanKeyLoop_walk tid hp key i post R1 (g + P.length) s
    (lastAt i s.head P) hr (pq_linked_append _ _ P _ hlk)
    (fun e he => by
      obtain ⟨e1, e2, -⟩ := hc.pq_entry e (by
        rw [hsplit, List.append_assoc]; exact List.mem_append_right _ he)
      exact ⟨e1, e2⟩)
    hc.pq_tail.1 (fun e he => hpre e (by rw [hsplit]; simp [he])) hpost
  refine ⟨s', ?_, h2, h3⟩
  rw [show pre.length + 4 + g = (pre.length + 3 + g) + 1 by omega, scanKey]
  simp only [hr.pq_getHPRec]
  rw [hlast, show pre.length + 3 + g = (pre.length + 1 + g) + 2 by omega, hrd]
  simp only
  rw [show pre.length + 1 + g + 2 = R1.length + 3 + (g + P.length) by
    rw [hsplit, List.length_append]; omega, h1]
  rw [← pq_lastAt_append, ← hsplit]

end LockFreePriorityQueue

end Amino

namespace Amino

namespace LockFreePriorityQueue

theorem pq_update_eq (s : LockFreePriorityQueue) (a : Nat) (f : PQNode → PQNode) (n : PQNode)
    (h : s.mm.heap.cells a = some n) : s.update a f = some (s.putNode a (f n)) := by
  simp [update, Heap.modify, h, putNode]

theorem pq_setNext_eq (s : LockFreePriorityQueue) (a i v : Nat) (n : PQNode)
    (h : s.mm.heap.cells a = some n) (hi : i < n.next.length) :
    s.setNext a i v = some (s.putNode a { n with next := n.next.set i v }) := by
  unfold setNext
  simp only [Heap.read, h, if_pos hi]
  exact pq_update_eq s a _ n h

theorem pq_getNext_eq (s : LockFreePriorityQueue) (a i : Nat) (n : PQNode)
    (h : s.mm.heap.cells a = some n) : s.getNext a i = n.next[i]? := by
  simp [getNext, Heap.read, h]

theorem pq_putNode_cells (s : LockFreePriorityQueue) (a : Nat) (v : PQNode) (q : Nat) :
    (s.putNode a v).mm.heap.cells q = if q = a then some v else s.mm.heap.cells q := rfl

theorem Ready.pq_ready_put {s : LockFreePriorityQueue} {tid hp : Nat} (h : Ready s tid hp) (a : Nat)
    (v : PQNode) (ha : s.mm.heap.cells a ≠ none) : Ready (s.putNode a v) tid hp :=
  ⟨(SMR.put_spec s.mm h.wf a v ha).1, h.tl, h.valid⟩

theorem pq_putNode_live (s : LockFreePriorityQueue) (hw : s.mm.WF) (a : Nat) (v : PQNode)
    (ha : s.mm.heap.cells a ≠ none) (q : Nat) : (s.putNode a v).mm.live q ↔ s.mm.live q :=
  (SMR.put_spec s.mm hw a v ha).2 q

theorem Core.pq_put {s : LockFreePriorityQueue} {l l' : List Entry} (hc : Core s l) (a : Nat)
    (v : PQNode) (ha : s.mm.heap.cells a ≠ none)
    (hl : LockFreePriorityQueue.linked (s.mm.heap.put a (some v)) s.tail (s.headEntry :: l'))
    (hk : (l'.map Entry.key).Pairwise (· < ·)) (haddr : l'.map Entry.addr = l.map Entry.addr) :
    Core (s.putNode a v) l' := by
  refine ⟨(SMR.put_spec s.mm hc.wf a v ha).1, hl, hk, ?_, ?_⟩
  · show (s.head :: s.tail :: s.INVALID :: l'.map Entry.addr).Nodup
    rw [haddr]; exact hc.nodup
  · intro q hq
    have hq' : q ∈ s.head :: s.tail :: s.INVALID :: l.map Entry.addr := by
      rw [← haddr]; exact hq
    exact (pq_putNode_live s hc.wf a v ha q).mpr (hc.live q hq')

theorem pq_nextAt_raise (tail i j : Nat) (hji : j ≠ i) (A : Entry) (hA : A.height = i)
    (post : List Entry) : ∀ X : List Entry,
    nextAt tail j (X ++ { A with height := i + 1 } :: post) = nextAt tail j (X ++ A :: post) := by
  intro X
  induction X with
  | nil =>
    simp only [List.nil_append, nextAt, hA]
    by_cases h : j < i
    · rw [if_pos h, if_pos (by omega)]
    · rw [if_neg h, if_neg (by omega)]
  | cons e X ih =>
    simp only [List.cons_append, nextAt, List.append_eq, ih]

theorem pq_nextAt_zero (tail j : Nat) (A : Entry) (hA : A.height = 0) (post : List Entry) :
    ∀ X : List Entry, nextAt tail j (X ++ A :: post) = nextAt tail j (X ++ post) := by
  intro X
  induction X with
  | nil => simp [nextAt, hA]
  | cons e X ih => simp only [List.cons_append, nextAt, List.append_eq, ih]

theorem pq_linked_insert_zero (h : Heap PQNode) (tail : Nat) (A : Entry) (hA : A.height = 0)
    (post : List Entry)
    (hcell : ∃ n, h.cells A.addr = some n ∧ n.key = A.key ∧ n.value = A.vptr ∧
      MARKED A.vptr = false ∧ n.next.length = MAXLEVEL) :
    ∀ X : List Entry, linked h tail (X ++ post) → linked h tail (X ++ A :: post) := by
  intro X
  induction X with
  | nil =>
    intro hl
    obtain ⟨n, h1, h2, h3, h4, h5⟩ := hcell
    exact ⟨⟨n, h1, h2, h3, h4, h5, fun i hi => by omega⟩, hl⟩
  | cons e X ih =>
    intro hl
    obtain ⟨n, h1, h2, h3, h4, h5, h6⟩ := hl.1
    refine ⟨⟨n, h1, h2, h3, h4, h5, fun i hi => ?_⟩, ih hl.2⟩
    have := h6 i hi
    simp only [List.append_eq] at this ⊢
    rw [pq_nextAt_zero tail i A hA post X]
    exact this

theorem pq_linked_update_at (h : Heap PQNode) (tail : Nat) (A : Entry) (post : List Entry)
    (n v : PQNode) (hn : h.cells A.addr = some n) (hk : v.key = n.key) (hv : v.value = n.value)
    (hlen : v.next.length = n.next.length)
    (hnx : ∀ j, j < A.height → v.next[j]? = n.next[j]?)
    (hpost : A.addr ∉ post.map Entry.addr) :
    ∀ X : List Entry, A.addr ∉ X.map Entry.addr → linked h tail (X ++ A :: post) →
      linked (h.put A.addr (some v)) tail (X ++ A :: post) := by
  intro X
  induction X with
  | nil =>
    intro _ hl
    obtain ⟨m, h1, h2, h3, h4, h5, h6⟩ := hl.1
    rw [hn] at h1
    cases h1
    refine ⟨⟨v, by simp [Heap.put], by rw [hk, h2], by rw [hv, h3], h4, by rw [hlen, h5],
      fun j hj => by rw [hnx j hj]; exact h6 j hj⟩, ?_⟩
    apply pq_linked_frame h _ tail post _ hl.2
    intro e he
    have : e.addr ≠ A.addr := fun hc => hpost (hc ▸ List.mem_map_of_mem _ he)
    simp [Heap.put, this]
  | cons e X ih =>
    intro hX hl
    simp only [List.map_cons, List.mem_cons, not_or] at hX
    refine ⟨?_, ih hX.2 hl.2⟩
    have : e.addr ≠ A.addr := fun hc => hX.1 hc.symm
    simp only [Heap.put, this, if_false]
    exact hl.1

theorem pq_link_chain (h h' : Heap PQNode) (tail i : Nat) (A : Entry) (hA : A.height = i)
    (post : List Entry)
    (hA' : linked h' tail ({ A with height := i + 1 } :: post)) :
    ∀ (X : List Entry) (d : Nat), linked h tail (X ++ A :: post) →
    (X.map Entry.addr).Nodup → d ∉ X.map Entry.addr →
    (∀ e ∈ X, e.addr ≠ lastAt i d X → h'.cells e.addr = h.cells e.addr) →
    (∀ n, h.cells (lastAt i d X) = some n →
      h'.cells (lastAt i d X) = some { n with next := n.next.set i A.addr }) →
    linked h' tail (X ++ { A with height := i + 1 } :: post) := by
  intro X
  induction X with
  | nil => intro d _ _ _ _ _; exact hA'
  | cons e X ih =>
    intro d hl hnd hd hsame hc
    simp only [List.map_cons, List.nodup_cons, List.mem_cons, not_or] at hnd hd
    simp only [lastAt] at hsame hc
    have hd' : (if i < e.height then e.addr else d) ∉ X.map Entry.addr := by
      split
      · exact hnd.1
      · exact hd.2
    refine ⟨?_, ih _ hl.2 hnd.2 hd'
      (fun x hx hne => hsame x (List.mem_cons_of_mem _ hx) hne) hc⟩
    obtain ⟨n, h1, h2, h3, h4, h5, h6⟩ := hl.1
    simp only [List.append_eq] at h6 ⊢
    by_cases hec : e.addr = lastAt i (if i < e.height then e.addr else d) X
    · have hei : i < e.height := by
        by_contra hn
        rw [if_neg hn] at hec
        rcases pq_lastAt_mem i X d with h | h
        · rw [h] at hec; exact hd.1 hec.symm
        · rw [← hec] at h; exact hnd.1 h
      have hlow : ∀ x ∈ X, ¬ i < x.height := by
        intro x hx hxi
        have := pq_lastAt_high i X (if i < e.height then e.addr else d) ⟨x, hx, hxi⟩
        rw [← hec] at this
        exact hnd.1 this
      have hcell := hc n (by rw [← hec]; exact h1)
      rw [← hec] at hcell
      have hilen : i < n.next.length := by
        have := h6 i hei
        exact (List.getElem?_eq_some_iff.mp this).1
      refine ⟨_, hcell, h2, h3, h4, by simpa using h5, ?_⟩
      intro j hj
      by_cases hji : j = i
      · subst hji
        simp only [List.getElem?_set_self hilen]
        rw [pq_nextAt_append_low tail j X _ hlow]
        simp [nextAt]
      · rw [List.getElem?_set_ne (Ne.symm hji), pq_nextAt_raise tail i j hji A hA post X]
        exact h6 j hj
    · rw [← hsame e (List.mem_cons_self _ _) hec] at h1
      refine ⟨n, h1, h2, h3, h4, h5, ?_⟩
      intro j hj
      by_cases hji : j = i
      · subst hji
        rw [if_pos hj] at hec
        have hhigh : ∃ x ∈ X, j < x.height := by
          by_contra hn
          exact hec (pq_lastAt_low j X e.addr (fun x hx hxi => hn ⟨x, hx, hxi⟩)).symm
        rw [pq_nextAt_append_high tail j X _ (A :: post) hhigh]
        exact h6 j hj
      · rw [pq_nextAt_raise tail i j hji A hA post X]
        exact h6 j hj

end LockFreePriorityQueue

end Amino

namespace Amino

namespace LockFreePriorityQueue

theorem pq_nodup_mid (pre post : List Entry) (A : Entry) (x : List Nat)
    (h : (x ++ (pre ++ A :: post).map Entry.addr).Nodup) :
    A.addr ∉ x ∧ A.addr ∉ pre.map Entry.addr ∧ A.addr ∉ post.map Entry.addr ∧
    (x ++ (pre ++ post).map Entry.addr).Nodup := by
  simp only [List.map_append, List.map_cons] at h ⊢
  have hp : List.Perm (x ++ (pre.map Entry.addr ++ A.addr :: post.map Entry.addr))
      (A.addr :: (x ++ (pre.map Entry.addr ++ post.map Entry.addr))) := by
    rw [← List.append_assoc, ← List.append_assoc]
    exact List.perm_middle
  have h2 := hp.nodup_iff.mp h
  simp only [List.nodup_cons, List.mem_append, not_or] at h2
  exact ⟨h2.1.1, h2.1.2.1, h2.1.2.2, h2.2⟩

theorem Core.pq_lastAt {s : LockFreePriorityQueue} {l : List Entry} (hc : Core s l) (i : Nat)
    (pre post : List Entry) (hl : l = pre ++ post) :
    (lastAt i s.head pre = s.head ∨ lastAt i s.head pre ∈ pre.map Entry.addr) ∧
    lastAt i s.head pre ≠ s.tail ∧ lastAt i s.head pre ≠ s.INVALID ∧
    s.mm.heap.cells (lastAt i s.head pre) ≠ none := by
  have hn := hc.nodup
  simp only [List.nodup_cons, List.mem_cons, not_or] at hn
  rcases pq_lastAt_mem i pre s.head with h | h
  · rw [h]
    exact ⟨Or.inl rfl, hn.1.1, hn.1.2.1, (hc.live s.head (by simp)).1⟩
  · obtain ⟨e, he, he2⟩ := List.mem_map.mp h
    obtain ⟨e1, -, e3, -, -, n, e6, -⟩ := hc.pq_entry e (by rw [hl]; simp [he])
    refine ⟨Or.inr h, ?_, ?_, ?_⟩
    · rw [← he2]; exact e1
    · rw [← he2]; exact e3
    · rw [← he2, e6]; simp

theorem Core.pq_put_other {s : LockFreePriorityQueue} {l : List Entry} (hc : Core s l) (a : Nat)
    (v : PQNode) (ha : s.mm.heap.cells a ≠ none) (hne : a ∉ s.head :: l.map Entry.addr) :
    Core (s.putNode a v) l := by
  refine hc.pq_put a v ha ?_ hc.sorted rfl
  apply pq_linked_frame _ _ _ _ _ hc.linked
  intro e he
  have : e.addr ≠ a := by
    rintro rfl
    apply hne
    rcases List.mem_cons.mp he with rfl | he
    · exact List.mem_cons_self _ _
    · exact List.mem_cons_of_mem _ (List.mem_map_of_mem _ he)
  simp [Heap.put, this]

theorem Core.pq_put_entry {s : LockFreePriorityQueue} {pre post : List Entry} {A : Entry}
    (hc : Core s (pre ++ A :: post)) (n v : PQNode) (hn : s.mm.heap.cells A.addr = some n)
    (hk : v.key = n.key) (hv : v.value = n.value) (hlen : v.next.length = n.next.length)
    (hnx : ∀ j, j < A.height → v.next[j]? = n.next[j]?) :
    Core (s.putNode A.addr v) (pre ++ A :: post) := by
  refine hc.pq_put A.addr v (by rw [hn]; simp) ?_ hc.sorted rfl
  have hnd := hc.nodup
  obtain ⟨n1, n2, n3, -⟩ := pq_nodup_mid pre post A [s.head, s.tail, s.INVALID] hnd
  have := pq_linked_update_at s.mm.heap s.tail A post n v hn hk hv hlen hnx n3
    (s.headEntry :: pre) (by
      simp only [List.map_cons, List.mem_cons, not_or]
      refine ⟨?_, n2⟩
      intro h
      apply n1
      simp [headEntry] at h
      simp [h]) hc.linked
  exact this

theorem Core.pq_insert_zero {s : LockFreePriorityQueue} {pre post : List Entry}
    (hc : Core s (pre ++ post)) (A : Entry) (hA : A.height = 0) (hl : s.mm.live A.addr)
    (hne : A.addr ∉ s.head :: s.tail :: s.INVALID :: (pre ++ post).map Entry.addr)
    (hcell : ∃ n, s.mm.heap.cells A.addr = some n ∧ n.key = A.key ∧ n.value = A.vptr ∧
      MARKED A.vptr = false ∧ n.next.length = MAXLEVEL)
    (hpre : ∀ e ∈ pre, e.key < A.key) (hpost : ∀ e ∈ post, A.key < e.key) :
    Core s (pre ++ A :: post) := by
  refine ⟨hc.wf, ?_, ?_, ?_, ?_⟩
  · exact pq_linked_insert_zero _ _ A hA post hcell (s.headEntry :: pre) hc.linked
  · have hs := hc.sorted
    simp only [List.map_append, List.map_cons, List.pairwise_append, List.pairwise_cons,
      List.mem_map, List.mem_cons, forall_exists_index, and_imp,
      forall_apply_eq_imp_iff₂] at hs ⊢
    refine ⟨hs.1, ⟨fun e he => hpost e he, hs.2.1⟩, ?_⟩
    intro e he b hb
    rcases hb with rfl | ⟨x, hx, rfl⟩
    · exact hpre e he
    · exact hs.2.2 e he x hx
  · have hp : List.Perm (s.head :: s.tail :: s.INVALID :: (pre ++ A :: post).map Entry.addr)
        (A.addr :: (s.head :: s.tail :: s.INVALID :: (pre ++ post).map Entry.addr)) := by
      simp only [List.map_append, List.map_cons]
      have : List.Perm ([s.head, s.tail, s.INVALID] ++ pre.map Entry.addr ++
          A.addr :: post.map Entry.addr)
          (A.addr :: ([s.head, s.tail, s.INVALID] ++ pre.map Entry.addr ++
            post.map Entry.addr)) := List.perm_middle
      simpa using this
    rw [hp.nodup_iff, List.nodup_cons]
    exact ⟨hne, hc.nodup⟩
  · intro a ha
    simp only [List.map_append, List.map_cons, List.mem_cons, List.mem_append] at ha
    rcases ha with h | h | h | h | h | h
    · exact hc.live a (by simp [h])
    · exact hc.live a (by simp [h])
    · exact hc.live a (by simp [h])
    · exact hc.live a (by simp [h])
    · rw [h]; exact hl
    · exact hc.live a (by simp [h])

theorem Core.pq_link_in {s : LockFreePriorityQueue} {pre post : List Entry} {A : Entry}
    (hc : Core s (pre ++ A :: post)) (i : Nat) (hA : A.height = i) (hi : i < MAXLEVEL)
    (hAn : ∃ n, s.mm.heap.cells A.addr = some n ∧ n.next[i]? = some (nextAt s.tail i post))
    (nc : PQNode) (hnc : s.mm.heap.cells (lastAt i s.head pre) = some nc) :
    Core (s.putNode (lastAt i s.head pre) { nc with next := nc.next.set i A.addr })
      (pre ++ { A with height := i + 1 } :: post) := by
  have hnd := hc.nodup
  obtain ⟨n1, n2, n3, n4⟩ := pq_nodup_mid pre post A [s.head, s.tail, s.INVALID] hnd
  simp only [List.mem_cons, List.not_mem_nil, or_false, not_or] at n1
  have hnd' := hc.nodup
  simp only [List.nodup_cons, List.mem_cons, not_or, List.map_append, List.mem_append,
    List.nodup_append, List.map_cons] at hnd'
  obtain ⟨c1, c2, c3, c4⟩ := hc.pq_lastAt i pre (A :: post) rfl
  have hAc : A.addr ≠ lastAt i s.head pre := by
    rcases c1 with h | h
    · rw [h]; exact n1.1
    · intro hh; exact n2 (hh ▸ h)
  have hpc : ∀ e ∈ post, e.addr ≠ lastAt i s.head pre := by
    intro e he hh
    rcases c1 with h | h
    · rw [h] at hh
      exact (hc.pq_entry e (by simp [he])).2.1 hh
    · rw [← hh] at h
      exact hnd'.2.2.2.2.2 h (List.mem_cons_of_mem _ (List.mem_map_of_mem _ he))
  refine hc.pq_put _ _ c4 ?_ (by simpa using hc.sorted) (by simp)
  have hlast : lastAt i s.tail (s.headEntry :: pre) = lastAt i s.head pre := by
    simp [lastAt, headEntry, hi]
  apply pq_link_chain s.mm.heap _ s.tail i A hA post ?_ (s.headEntry :: pre) s.tail hc.linked
  · simp only [List.map_cons, List.nodup_cons]
    refine ⟨?_, hnd'.2.2.2.1⟩
    show s.head ∉ pre.map Entry.addr
    exact hnd'.1.2.2.1
  · simp only [List.map_cons, List.mem_cons, not_or]
    refine ⟨?_, ?_⟩
    · show s.tail ≠ s.head
      exact Ne.symm hnd'.1.1
    · exact hnd'.2.1.2.1
  · intro e he hne
    rw [hlast] at hne
    simp [Heap.put, hne]
  · intro n hn
    rw [hlast] at hn ⊢
    rw [hnc] at hn
    cases hn
    simp [Heap.put]
  · have hlA := pq_linked_append _ _ (s.headEntry :: pre) _ hc.linked
    obtain ⟨nA, a1, a2⟩ := hAn
    obtain ⟨m, m1, m2, m3, m4, m5, m6⟩ := hlA.1
    rw [a1] at m1
    cases m1
    refine ⟨⟨nA, by simp [Heap.put, hAc, a1], m2, m3, m4, m5, ?_⟩, ?_⟩
    · intro j hj
      by_cases hji : j = i
      · subst hji; exact a2
      · exact m6 j (by simp only at hj; omega)
    · apply pq_linked_frame _ _ _ _ _ hlA.2
      intro e he
      simp [Heap.put, hpc e he]

end LockFreePriorityQueue

end Amino

namespace Amino

namespace LockFreePriorityQueue

theorem Linking.pq_same (s : LockFreePriorityQueue) : Linking s s :=
  ⟨rfl, rfl, rfl, rfl, rfl, fun _ => rfl⟩

theorem Linking.pq_then {s s1 s2 : LockFreePriorityQueue} (h1 : Linking s s1)
    (h2 : Linking s1 s2) : Linking s s2 :=
  ⟨h2.head.trans h1.head, h2.tail.trans h1.tail, h2.INVALID.trans h1.INVALID,
    h2.values.trans h1.values, h2.randomSeed.trans h1.randomSeed,
    fun q => (h2.level q).trans (h1.level q)⟩

theorem Linking.pq_link_slots {s s' : LockFreePriorityQueue} (h : Slots s s') : Linking s s' :=
  ⟨h.head, h.tail, h.INVALID, h.values, h.randomSeed, fun q => by rw [h.heap]⟩

theorem Linking.pq_of_put (s : LockFreePriorityQueue) (a : Nat) (n v : PQNode)
    (hn : s.mm.heap.cells a = some n) (hl : v.level = n.level) : Linking s (s.putNode a v) := by
  refine ⟨rfl, rfl, rfl, rfl, rfl, fun q => ?_⟩
  rw [pq_putNode_cells]
  by_cases hq : q = a
  · subst hq; simp [hn, hl]
  · simp [hq]

theorem pq_insertSearch_spec (tid hp : Nat) (key : Int) (curLevel g : Nat)
    (pre post : List Entry) (hpre : ∀ e ∈ pre, e.key < key) (hpost : ∀ e ∈ post, key ≤ e.key)
    (H : Nat) :
    ∀ (n : Nat) (s : LockFreePriorityQueue) (saved : List Nat), n < MAXLEVEL →
    Ready s tid hp → Core s (pre ++ post) → saved.length = curLevel → s.head = H →
    (∀ l, n < l → l < curLevel → saved[l]? = some (lastAt l H pre)) →
    ∃ s' saved', insertSearch tid hp key curLevel (pre.length + 4 + g) n s
        (lastAt (n + 1) H pre) saved = some (s', lastAt 1 H pre, saved') ∧
      Slots s s' ∧ Ready s' tid hp ∧ saved'.length = curLevel ∧
      ∀ l, 1 ≤ l → l < curLevel → saved'[l]? = some (lastAt l H pre) := by
  intro n
  induction n with
  | zero =>
    intro s saved _ hr _ hlen _ hs
    exact ⟨s, saved, rfl, Slots.pq_refl s, hr, hlen, fun l h1 h2 => hs l (by omega) h2⟩
  | succ i ih =>
    intro s saved hn hr hc hlen hH hs
    obtain ⟨s1, h1, hs1, hr1⟩ := pq_scanKey_spec tid hp g (i + 1) (i + 1 + 1) key s pre post hr hc
      hn (by omega) hpre hpost
    rw [hH] at h1
    obtain ⟨hr2, hs2⟩ := pq_retire_p s1 tid hp (nextAt s.tail (i + 1) post) hr1
    rw [insertSearch, h1]
    simp only
    by_cases hlv : i + 1 < curLevel
    · rw [if_pos hlv]
      obtain ⟨hr3, hs3⟩ := pq_employ _ tid hp (i + 1) (lastAt (i + 1) H pre) hr2
      have hs13 := (hs1.pq_trans hs2).pq_trans hs3
      have hc3 := hc.pq_of_slots hs13 hr3.wf
      obtain ⟨s', saved', e1, e2, e3, e4, e5⟩ := ih _ (saved.set (i + 1) (lastAt (i + 1) H pre))
        (by omega) hr3 hc3 (by simpa using hlen) (hs13.head.trans hH) (by
          intro l hl1 hl2
          by_cases hl : l = i + 1
          · subst hl
            rw [List.getElem?_set_self (by omega)]
          · rw [List.getElem?_set_ne (Ne.symm hl)]
            exact hs l (by omega) hl2)
      exact ⟨s', saved', e1, hs13.pq_trans e2, e3, e4, e5⟩
    · rw [if_neg hlv]
      have hs12 := hs1.pq_trans hs2
      have hc2 := hc.pq_of_slots hs12 hr2.wf
      obtain ⟨s', saved', e1, e2, e3, e4, e5⟩ := ih _ saved (by omega) hr2 hc2 hlen
        (hs12.head.trans hH) (by
          intro l hl1 hl2
          omega)
      exact ⟨s', saved', e1, hs12.pq_trans e2, e3, e4, e5⟩

theorem pq_link_steps (tid hp i : Nat) (s : LockFreePriorityQueue) (pre post : List Entry)
    (A : Entry) (hr : Ready s tid hp) (hc : Core s (pre ++ A :: post)) (hA : A.height = i)
    (hi : i < MAXLEVEL) (x c : Nat) (hx : x = nextAt s.tail i post)
    (hcd : c = lastAt i s.head pre) :
    ∃ s2 s4 nn, s.setNext A.addr i x = some s2 ∧
      ({ s2 with mm := s2.mm.retire_p hp x } : LockFreePriorityQueue).getNext c i = some x ∧
      s2.mm.heap.cells A.addr = some nn ∧ MARKED nn.value = false ∧
      ({ s2 with mm := s2.mm.retire_p hp x } : LockFreePriorityQueue).setNext c i A.addr =
        some s4 ∧
      Core { s4 with mm := s4.mm.retire_p hp c } (pre ++ { A with height := i + 1 } :: post) ∧
      Ready { s4 with mm := s4.mm.retire_p hp c } tid hp ∧
      Linking s { s4 with mm := s4.mm.retire_p hp c } := by
  obtain ⟨a1, a2, a3, a4, a5, nA, a6, a7, a8, a9, a10⟩ := hc.pq_entry A (by simp)
  have hAlen : i < nA.next.length := by rw [a10]; exact hi
  obtain ⟨c1, c2, c3, c4⟩ := hc.pq_lastAt i pre (A :: post) rfl
  rw [← hcd] at c1 c2 c3 c4
  have hnd := hc.nodup
  obtain ⟨n1, n2, n3, -⟩ := pq_nodup_mid pre post A [s.head, s.tail, s.INVALID] hnd
  have hAc : A.addr ≠ c := by
    rcases c1 with h | h
    · rw [h]; exact a2
    · intro hh; exact n2 (hh ▸ h)
  -- the pointer of the predecessor
  obtain ⟨hn, hn1, hn3, hn5, hn6⟩ := hc.pq_head
  have hpt : pointsAt s.mm.heap (lastAt i s.head pre) i (nextAt s.tail i (A :: post)) := by
    apply pq_next_of_lastAt _ _ _ _ pre s.head _ hc.linked.2
    exact ⟨hn, hn1, by rw [hn3]; exact pq_MARKED_zero, hn6 i hi⟩
  have hnxA : nextAt s.tail i (A :: post) = nextAt s.tail i post := by
    simp [nextAt, hA]
  rw [hnxA, ← hx, ← hcd] at hpt
  obtain ⟨nc, p1, p2, p3⟩ := hpt
  have hclen : i < nc.next.length := (List.getElem?_eq_some_iff.mp p3).1
  -- first store
  obtain ⟨v2, hv2⟩ : ∃ v2 : PQNode, v2 = { nA with next := nA.next.set i x } := ⟨_, rfl⟩
  have e1 := pq_setNext_eq s A.addr i x nA a6 hAlen
  rw [← hv2] at e1
  have hc2 : Core (s.putNode A.addr v2) (pre ++ A :: post) :=
    hc.pq_put_entry nA _ a6 (by rw [hv2]) (by rw [hv2]) (by rw [hv2]; simp) (fun j hj => by
      rw [hv2]
      show (nA.next.set i x)[j]? = _
      rw [List.getElem?_set_ne (by omega)])
  have hr2 := hr.pq_ready_put A.addr v2 (by rw [a6]; simp)
  obtain ⟨hr3, hs3⟩ := pq_retire_p _ tid hp x hr2
  have hc3 := hc2.pq_of_slots hs3 hr3.wf
  obtain ⟨s3, hs3def⟩ : ∃ s3 : LockFreePriorityQueue,
    s3 = { s.putNode A.addr v2 with mm := (s.putNode A.addr v2).mm.retire_p hp x } := ⟨_, rfl⟩
  rw [← hs3def] at hr3 hs3 hc3
  have hcell3 : s3.mm.heap.cells c = some nc := by
    rw [hs3.heap, pq_putNode_cells, if_neg (Ne.symm hAc)]
    exact p1
  have hcellA : s3.mm.heap.cells A.addr = some v2 := by
    rw [hs3.heap, pq_putNode_cells, if_pos rfl]
  have e2 := pq_getNext_eq s3 c i nc hcell3
  have e4 := pq_setNext_eq s3 c i A.addr nc hcell3 hclen
  have hx3 : nextAt s3.tail i post = x := by rw [hs3.tail, hx]; rfl
  have hc3' : lastAt i s3.head pre = c := by rw [hs3.head, hcd]; rfl
  have hc4 := hc3.pq_link_in i hA hi ⟨v2, hcellA, by
      rw [hv2, hx3]
      show (nA.next.set i x)[i]? = _
      rw [List.getElem?_set_self hAlen]⟩ nc (by rw [hc3']; exact hcell3)
  rw [hc3'] at hc4
  have hr4 := hr3.pq_ready_put c { nc with next := nc.next.set i A.addr } (by rw [hcell3]; simp)
  obtain ⟨hr5, hs5⟩ := pq_retire_p _ tid hp c hr4
  refine ⟨_, _, v2, e1, ?_, by rw [pq_putNode_cells, if_pos rfl], by
    rw [hv2]
    show MARKED nA.value = false
    rw [a8]; exact a9, ?_, hc4.pq_of_slots hs5 hr5.wf, hr5, ?_⟩
  · rw [← hs3def, e2, p3]
  · rw [← hs3def, e4]
  · have l1 : Linking s (s.putNode A.addr v2) :=
      Linking.pq_of_put s A.addr nA v2 a6 (by rw [hv2])
    have l2 : Linking (s.putNode A.addr v2) s3 := Linking.pq_link_slots hs3
    have l3 : Linking s3 (s3.putNode c { nc with next := nc.next.set i A.addr }) :=
      Linking.pq_of_put s3 c nc _ hcell3 rfl
    exact ((l1.pq_then l2).pq_then l3).pq_then (Linking.pq_link_slots hs5)

end LockFreePriorityQueue

end Amino

namespace Amino

namespace LockFreePriorityQueue

theorem pq_insertLevel0_link (tid hp g : Nat) (key value : Int) (curLevel a vp : Nat)
    (saved : List Nat) (s : LockFreePriorityQueue) (pre post : List Entry)
    (hr : Ready s tid hp) (hc : Core s (pre ++ post)) (hl : s.mm.live a)
    (hne : a ∉ s.head :: s.tail :: s.INVALID :: (pre ++ post).map Entry.addr)
    (hcell : ∃ n, s.mm.heap.cells a = some n ∧ n.key = key ∧ n.value = vp ∧
      MARKED vp = false ∧ n.next.length = MAXLEVEL)
    (hpre : ∀ e ∈ pre, e.key < key) (hpost : ∀ e ∈ post, key < e.key) :
    ∃ s', insertLevel0 tid hp key value curLevel a saved (pre.length + 5 + g) s
        (lastAt 1 s.head pre) = some (s', false) ∧
      Core s' (pre ++ { addr := a, key := key, height := 1, vptr := vp } :: post) ∧
      Ready s' tid hp ∧ Linking s s' := by
  obtain ⟨s1, h1, hs1, hr1⟩ := pq_scanKey_spec tid hp g 0 1 key s pre post hr hc
    (by decide) (by omega) hpre (fun e he => le_of_lt (hpost e he))
  have hc1 := hc.pq_of_slots hs1 hr1.wf
  obtain ⟨x, hx⟩ : ∃ x, x = nextAt s.tail 0 post := ⟨_, rfl⟩
  obtain ⟨c, hcd⟩ : ∃ c, c = lastAt 0 s.head pre := ⟨_, rfl⟩
  rw [← hx, ← hcd] at h1
  obtain ⟨x1, x2, x3, x4, x5⟩ := hc.pq_nextAt 0 pre post rfl
  rw [← hx] at x1 x2 x3 x4 x5
  obtain ⟨n2, hn2⟩ := Option.ne_none_iff_exists'.mp x5
  have hn2' : s1.mm.heap.cells x = some n2 := by rw [hs1.heap]; exact hn2
  have hcond : ¬ (x ≠ s1.tail ∧ MARKED n2.value = false ∧ n2.key = key) := by
    rintro ⟨c1, -, c3⟩
    rcases pq_nextAt_mem s.tail 0 post with h | ⟨e, he, h, -⟩
    · rw [← hx] at h
      exact c1 (by rw [hs1.tail]; exact h)
    · rw [← hx] at h
      obtain ⟨-, -, -, -, -, m, m1, m2, -⟩ := hc.pq_entry e (by simp [he])
      rw [← h, hn2] at m1
      cases m1
      have := hpost e he
      omega
  have hc1' : Core s1 (pre ++ { addr := a, key := key, height := 0, vptr := vp } :: post) := by
    apply hc1.pq_insert_zero _ rfl ((hs1.pq_live a).mpr hl)
    · rw [hs1.head, hs1.tail, hs1.INVALID]; exact hne
    · rw [hs1.heap]; exact hcell
    · exact hpre
    · exact hpost
  obtain ⟨s2, s4, nn, e1, e2, e3, e4, e5, e6, e7, e8⟩ := pq_link_steps tid hp 0 s1 pre post
    { addr := a, key := key, height := 0, vptr := vp } hr1 hc1' rfl (by decide) x c
    (by rw [hs1.tail]; exact hx) (by rw [hs1.head]; exact hcd)
  refine ⟨_, ?_, e6, e7, (Linking.pq_link_slots hs1).pq_then e8⟩
  rw [show pre.length + 5 + g = (pre.length + 4 + g) + 1 by omega, insertLevel0, h1]
  simp only [Heap.read, hn2', if_neg hcond]
  rw [e1]
  simp only
  rw [e2]
  simp only [if_true]
  rw [e5]

theorem pq_insertLinkLoop_spec (tid hp g i : Nat) (s : LockFreePriorityQueue)
    (pre post : List Entry) (A : Entry) (hr : Ready s tid hp) (hc : Core s (pre ++ A :: post))
    (hA : A.height = i) (hi : i < MAXLEVEL) (hpre : ∀ e ∈ pre, e.key < A.key)
    (hpost : ∀ e ∈ post, A.key < e.key) :
    ∃ s', insertLinkLoop tid hp A.key A.addr i (pre.length + 5 + g) s (lastAt i s.head pre) =
        some s' ∧
      Core s' (pre ++ { A with height := i + 1 } :: post) ∧ Ready s' tid hp ∧ Linking s s' := by
  obtain ⟨s1, h1, hs1, hr1⟩ := pq_scanKey_spec tid hp g i i A.key s pre (A :: post) hr hc
    hi (le_refl _) hpre (by
      intro e he
      rcases List.mem_cons.mp he with rfl | he
      · exact le_refl _
      · exact le_of_lt (hpost e he))
  have hc1 := hc.pq_of_slots hs1 hr1.wf
  have hnxA : nextAt s.tail i (A :: post) = nextAt s.tail i post := by
    simp [nextAt, hA]
  rw [hnxA] at h1
  obtain ⟨x, hx⟩ : ∃ x, x = nextAt s.tail i post := ⟨_, rfl⟩
  obtain ⟨c, hcd⟩ : ∃ c, c = lastAt i s.head pre := ⟨_, rfl⟩
  rw [← hx, ← hcd] at h1
  obtain ⟨s2, s4, nn, e1, e2, e3, e4, e5, e6, e7, e8⟩ := pq_link_steps tid hp i s1 pre post
    A hr1 hc1 hA hi x c (by rw [hs1.tail]; exact hx) (by rw [hs1.head]; exact hcd)
  refine ⟨_, ?_, e6, e7, (Linking.pq_link_slots hs1).pq_then e8⟩
  rw [show pre.length + 5 + g = (pre.length + 4 + g) + 1 by omega, insertLinkLoop, ← hcd, h1]
  simp only
  rw [e1]
  simp only [Heap.read, SMR.retire_p_heap, e3]
  rw [e2]
  simp only [e4, Bool.false_eq_true, if_false, if_true]
  rw [e5]

theorem pq_insertLink_spec (tid hp g curLevel : Nat) (saved : List Nat) (pre post : List Entry)
    (H : Nat) (hcur : curLevel ≤ MAXLEVEL)
    (hs : ∀ l, 1 ≤ l → l < curLevel → saved[l]? = some (lastAt l H pre)) :
    ∀ (count i : Nat) (s : LockFreePriorityQueue) (A : Entry), A.height = i →
    i + count = curLevel → Ready s tid hp → Core s (pre ++ A :: post) → s.head = H → 1 ≤ i →
    (∀ e ∈ pre, e.key < A.key) → (∀ e ∈ post, A.key < e.key) →
    ∃ s', insertLink tid hp A.key A.addr saved (pre.length + 5 + g) count i s = some s' ∧
      Core s' (pre ++ { A with height := curLevel } :: post) ∧ Ready s' tid hp ∧
      Linking s s' := by
  intro count
  induction count with
  | zero =>
    intro i s A hA hic hr hc _ _ _ _
    refine ⟨s, rfl, ?_, hr, Linking.pq_same s⟩
    have : ({ A with height := curLevel } : Entry) = A := by
      cases A
      simp only at hA
      simp only [Entry.mk.injEq, true_and, and_true]
      omega
    rw [this]; exact hc
  | succ count ih =>
    intro i s A hA hic hr hc hH h1i hpre hpost
    obtain ⟨a1, a2, a3, a4, a5, nA, a6, a7, a8, a9, a10⟩ := hc.pq_entry A (by simp)
    have e1 := pq_update_eq s A.addr (fun m => { m with validLevel := (i : Int) }) nA a6
    have hc1 : Core (s.putNode A.addr { nA with validLevel := (i : Int) }) (pre ++ A :: post) :=
      hc.pq_put_entry nA _ a6 rfl rfl rfl (fun j _ => rfl)
    have hr1 := hr.pq_ready_put A.addr { nA with validLevel := (i : Int) } (by rw [a6]; simp)
    have l1 : Linking s (s.putNode A.addr { nA with validLevel := (i : Int) }) :=
      Linking.pq_of_put s A.addr nA _ a6 rfl
    obtain ⟨s2, h2, hc2, hr2, l2⟩ := pq_insertLinkLoop_spec tid hp g i _ pre post A hr1 hc1 hA
      (by omega) hpre hpost
    have hh2 : s2.head = H := (l2.head.trans l1.head).trans hH
    obtain ⟨s', h3, hc3, hr3, l3⟩ := ih (i + 1) s2 { A with height := i + 1 } rfl (by omega) hr2
      hc2 hh2 (by omega) hpre hpost
    refine ⟨s', ?_, hc3, hr3, (l1.pq_then l2).pq_then l3⟩
    rw [insertLink]
    simp only [e1, hs i h1i (by omega)]
    have hh1 : (s.putNode A.addr { nA with validLevel := (i : Int) }).head = H := hH
    rw [hh1] at h2
    rw [h2]
    exact h3

end LockFreePriorityQueue

end Amino

namespace Amino

namespace LockFreePriorityQueue

theorem pq_split (x : Int) : ∀ (l : List Entry), (l.map Entry.key).Pairwise (· < ·) →
    ∃ pre post, l = pre ++ post ∧ (∀ e ∈ pre, e.key < x) ∧
      ((∀ e ∈ post, x < e.key) ∨
        ∃ e post', post = e :: post' ∧ e.key = x ∧ ∀ y ∈ post', x < y.key) := by
  intro l
  induction l with
  | nil => intro _; exact ⟨[], [], rfl, by simp, Or.inl (by simp)⟩
  | cons e l ih =>
    intro hs
    simp only [List.map_cons, List.pairwise_cons, List.mem_map, forall_exists_index, and_imp,
      forall_apply_eq_imp_iff₂] at hs
    rcases lt_trichotomy e.key x with h | h | h
    · obtain ⟨pre, post, h1, h2, h3⟩ := ih hs.2
      refine ⟨e :: pre, post, by rw [h1]; rfl, ?_, h3⟩
      intro y hy
      rcases List.mem_cons.mp hy with rfl | hy
      · exact h
      · exact h2 y hy
    · exact ⟨[], e :: l, rfl, by simp, Or.inr ⟨e, l, rfl, h, fun y hy => h ▸ hs.1 y hy⟩⟩
    · refine ⟨[], e :: l, rfl, by simp, Or.inl ?_⟩
      intro y hy
      rcases List.mem_cons.mp hy with rfl | hy
      · exact h
      · exact lt_trans h (hs.1 y hy)

theorem Core.pq_fresh {s : LockFreePriorityQueue} {l : List Entry} (hc : Core s l)
    (m0 mm1 : SMR PQNode) (a : Nat) (h0 : SMR.SameNodes s.mm m0) (hw1 : mm1.WF)
    (hf : SMR.Fresh m0 mm1 a) (V : Heap Int) (r : Nat) :
    Core { s with mm := mm1, values := V, randomSeed := r } l ∧
    a ∉ s.head :: s.tail :: s.INVALID :: l.map Entry.addr := by
  have hna : a ∉ s.head :: s.tail :: s.INVALID :: l.map Entry.addr :=
    fun h => hf.dead ((h0.live a).mpr (hc.live a h))
  refine ⟨⟨hw1, ?_, hc.sorted, hc.nodup, ?_⟩, hna⟩
  · apply pq_linked_frame s.mm.heap _ _ _ _ hc.linked
    intro e he
    show mm1.heap.cells e.addr = _
    rw [← h0.heap]
    apply hf.cells
    rintro h
    apply hna
    rw [← h]
    rcases List.mem_cons.mp he with rfl | he
    · exact List.mem_cons_self _ _
    · simp [List.mem_map_of_mem Entry.addr he]
  · intro q hq
    have hqa : q ≠ a := fun h => hna (h ▸ hq)
    exact (hf.lives q hqa).mpr ((h0.live q).mpr (hc.live q hq))

theorem pq_insert_search_phase (tid g : Nat) (x : Int) (s : LockFreePriorityQueue)
    (pre post : List Entry) (hi : Inv s (pre ++ post)) (hpre : ∀ e ∈ pre, e.key < x)
    (hpost : ∀ e ∈ post, x ≤ e.key) :
    ∃ (L a : Nat) (s4 : LockFreePriorityQueue) (saved : List Nat) (hp : Nat),
      1 ≤ L ∧ L ≤ MAXLEVEL - 1 ∧
      insert (pre.length + 9 + g) s tid x =
        insertTail tid hp x x L a saved (pre.length + 9 + g) s4 (lastAt 1 s.head pre) ∧
      Ready s4 tid hp ∧ Core s4 (pre ++ post) ∧
      s4.head = s.head ∧ s4.tail = s.tail ∧ s4.INVALID = s.INVALID ∧
      s4.values = (s.values.alloc x).2 ∧
      s4.mm.live a ∧ a ∉ s.head :: s.tail :: s.INVALID :: (pre ++ post).map Entry.addr ∧
      s4.mm.heap.cells a =
        some { (default : PQNode) with level := (L : Int), key := x, value := (s.values.alloc x).1 } ∧
      (∀ q, q ≠ a → s4.mm.heap.cells q = s.mm.heap.cells q) ∧
      saved.length = L ∧ (∀ l, 1 ≤ l → l < L → saved[l]? = some (lastAt l s.head pre)) := by
  have hc := hi.core
  obtain ⟨L, hL1, hL2, hL3⟩ := randomLevelLoop_spec (pre.length + 9 + g) (xorshift s.randomSeed) 1
    (by decide) (by unfold MAXLEVEL; omega)
  obtain ⟨g1, g2, g3, g4⟩ := SMR.getHPRec_spec s.mm hc.wf tid
  obtain ⟨mm1, a, hnew, hw1, hf⟩ := SMR.newNode_spec _ g1 _ g3
  obtain ⟨hc1, hna⟩ := hc.pq_fresh _ mm1 a g4 hw1 hf (s.values.alloc x).2 (xorshift s.randomSeed)
  have hr1 : Ready ({ s with mm := mm1, values := (s.values.alloc x).2,
                               randomSeed := xorshift s.randomSeed } : LockFreePriorityQueue)
      tid (s.mm.getHPRec tid).2 :=
    ⟨hw1, by show mm1.thread_local tid = _; rw [hf.tl]; exact g2,
      ⟨g3.1, by show _ ≤ mm1.hprecs.length; rw [hf.len]; exact g3.2⟩⟩
  have e1 := pq_update_eq ({ s with mm := mm1, values := (s.values.alloc x).2,
                                      randomSeed := xorshift s.randomSeed } :
      LockFreePriorityQueue) a
    (fun m => { m with level := (L : Int), key := x, value := (s.values.alloc x).1 }) default
    hf.cell
  have hca : mm1.heap.cells a ≠ none := by rw [hf.cell]; simp
  have hc2 := hc1.pq_put_other a
    { (default : PQNode) with level := (L : Int), key := x, value := (s.values.alloc x).1 } hca
    (fun h => hna (by
      rcases List.mem_cons.mp h with h | h
      · exact h ▸ List.mem_cons_self _ _
      · exact List.mem_cons_of_mem _ (List.mem_cons_of_mem _ (List.mem_cons_of_mem _ h))))
  have hr2 := hr1.pq_ready_put a
    { (default : PQNode) with level := (L : Int), key := x, value := (s.values.alloc x).1 } hca
  obtain ⟨hr3, hs3⟩ := pq_employ _ tid (s.mm.getHPRec tid).2 0 s.head hr2
  have hc3 := hc2.pq_of_slots hs3 hr3.wf
  have hlow : ∀ j, MAXLEVEL - 1 ≤ j → lastAt j s.head pre = s.head := by
    intro j hj
    apply pq_lastAt_low
    intro e he
    have := (hi.height e (by simp [he])).2
    omega
  obtain ⟨s4, saved, e4, hs4, hr4, hlen, hsv⟩ := pq_insertSearch_spec tid (s.mm.getHPRec tid).2 x L
    (g + 5) pre post hpre hpost s.head (MAXLEVEL - 1) _ (List.replicate L 0) (by decide) hr3 hc3
    (by simp) rfl (by
      intro l h1 h2
      omega)
  rw [hlow (MAXLEVEL - 1 + 1) (by omega)] at e4
  have hs34 := hs3.pq_trans hs4
  refine ⟨L, a, s4, saved, (s.mm.getHPRec tid).2, hL2, hL3, ?_, hr4,
    hc3.pq_of_slots hs4 hr4.wf, hs34.head, hs34.tail, hs34.INVALID, hs34.values, ?_, hna, ?_, ?_,
    hlen, hsv⟩
  · unfold insert randomLevel
    simp only [hL1, hnew, e1]
    rw [show pre.length + 9 + g = pre.length + 4 + (g + 5) by omega]
    exact congrArg (fun r => match r with
      | none => none
      | some (s4, node1, savedNodes) =>
        insertTail tid (s.mm.getHPRec tid).2 x x L a savedNodes (pre.length + 4 + (g + 5)) s4
          node1) e4
  · apply (hs34.pq_live a).mpr
    apply (pq_putNode_live _ hw1 a _ hca a).mpr
    exact hf.live
  · rw [hs34.heap, pq_putNode_cells, if_pos rfl]
  · intro q hq
    rw [hs34.heap, pq_putNode_cells, if_neg hq]
    show mm1.heap.cells q = _
    rw [hf.cells q hq, g4.heap]

end LockFreePriorityQueue

end Amino

namespace Amino

namespace LockFreePriorityQueue

theorem pq_level_of_map (c c' : Option PQNode) (n : PQNode) (h : c'.map PQNode.level = c.map PQNode.level)
    (hc : c = some n) : ∃ n', c' = some n' ∧ n'.level = n.level := by
  rw [hc] at h
  cases c' with
  | none => cases h
  | some n' => exact ⟨n', rfl, by simpa using h⟩

theorem pq_insert_new (tid g : Nat) (x : Int) (s : LockFreePriorityQueue)
    (pre post : List Entry) (hi : Inv s (pre ++ post)) (hpre : ∀ e ∈ pre, e.key < x)
    (hpost : ∀ e ∈ post, x < e.key) :
    ∃ s' A, insert (pre.length + 9 + g) s tid x = some (s', true) ∧ A.key = x ∧
      Inv s' (pre ++ A :: post) := by
  obtain ⟨L, a, s4, saved, hp, hL1, hL2, e0, hr4, hc4, hh, ht, hI, hv, hlive, hna, hcell, hframe,
    hlen, hsv⟩ := pq_insert_search_phase tid g x s pre post hi hpre (fun e he => le_of_lt (hpost e he))
  obtain ⟨vp, hvp⟩ : ∃ vp, vp = (s.values.alloc x).1 := ⟨_, rfl⟩
  rw [← hvp] at hcell
  have hvpm : MARKED vp = false := by
    rw [hvp]; exact MARKED_aligned _ (Heap.alloc_fst_aligned _ hi.vwf _)
  obtain ⟨s5, e5, hc5, hr5, l5⟩ := pq_insertLevel0_link tid hp (g + 4) x x L a vp saved s4 pre post
    hr4 hc4 hlive (by rw [hh, ht, hI]; exact hna) ⟨_, hcell, rfl, rfl, hvpm, rfl⟩ hpre hpost
  rw [hh] at e5
  obtain ⟨s6, e6, hc6, hr6, l6⟩ := pq_insertLink_spec tid hp (g + 4) L saved pre post s.head
    (by omega) hsv (L - 1) 1 s5 { addr := a, key := x, height := 1, vptr := vp } rfl (by omega)
    hr5 hc5 (l5.head.trans hh) (le_refl _) hpre hpost
  obtain ⟨-, -, -, -, -, n6, a6, a7, a8, a9, a10⟩ := hc6.pq_entry
    { addr := a, key := x, height := L, vptr := vp } (by simp)
  have e7 := pq_update_eq s6 a (fun m => { m with validLevel := (L : Int) }) n6 a6
  have hc7 : Core (s6.putNode a { n6 with validLevel := (L : Int) })
      (pre ++ { addr := a, key := x, height := L, vptr := vp } :: post) :=
    Core.pq_put_entry (A := { addr := a, key := x, height := L, vptr := vp }) hc6 n6 _ a6
      rfl rfl rfl (fun j _ => rfl)
  have l7 : Linking s4 (s6.putNode a { n6 with validLevel := (L : Int) }) :=
    (l5.pq_then l6).pq_then (Linking.pq_of_put s6 a n6 _ a6 rfl)
  simp only at e6 hc6 a6 a7 a8 a9
  refine ⟨s6.putNode a { n6 with validLevel := (L : Int) },
    { addr := a, key := x, height := L, vptr := vp }, ?_, rfl, ?_⟩
  · rw [e0, insertTail, show pre.length + 9 + g = pre.length + 5 + (g + 4) by omega, e5]
    simp only
    rw [e6]
    simp only
    rw [e7]
    simp only [Heap.read, pq_putNode_cells, if_true]
    have : MARKED n6.value = false := by rw [a8]; exact a9
    simp [this]
  · have hvals : (s6.putNode a { n6 with validLevel := (L : Int) }).values =
        (s.values.alloc x).2 := l7.values.trans hv
    refine ⟨hc7, ?_, ?_, ?_, ?_, ?_⟩
    · rw [hvals]; exact Heap.alloc_wf _ hi.vwf _
    · intro e he
      simp only [List.mem_append, List.mem_cons] at he
      have key : ∀ n4, s4.mm.heap.cells e.addr = some n4 → n4.level = e.height →
          ∃ n, (s6.putNode a { n6 with validLevel := (L : Int) }).mm.heap.cells e.addr = some n ∧
            n.level = e.height := by
        intro n4 h4 h4l
        obtain ⟨n', h1, h2⟩ := pq_level_of_map _ _ n4 (l7.level e.addr) h4
        exact ⟨n', h1, h2.trans h4l⟩
      have old : ∀ y, y ∈ pre ++ post → ∃ n,
          (s6.putNode a { n6 with validLevel := (L : Int) }).mm.heap.cells y.addr = some n ∧
            n.level = y.height := by
        intro y hy
        obtain ⟨n, h1, h2⟩ := hi.level y hy
        have hya : y.addr ≠ a := by
          intro h
          apply hna
          rw [← h]
          exact List.mem_cons_of_mem _ (List.mem_cons_of_mem _ (List.mem_cons_of_mem _
            (List.mem_map_of_mem Entry.addr hy)))
        obtain ⟨n', h1', h2'⟩ := pq_level_of_map _ _ n (l7.level y.addr)
          ((hframe y.addr hya).trans h1)
        exact ⟨n', h1', h2'.trans h2⟩
      rcases he with he | rfl | he
      · exact old e (by simp [he])
      · exact key _ hcell rfl
      · exact old e (by simp [he])
    · intro e he
      simp only [List.mem_append, List.mem_cons] at he
      rcases he with he | rfl | he
      · exact hi.height e (by simp [he])
      · exact ⟨hL1, hL2⟩
      · exact hi.height e (by simp [he])
    · have old : ∀ y, y ∈ pre ++ post →
          (s6.putNode a { n6 with validLevel := (L : Int) }).values.cells y.vptr =
            some y.key := by
        intro y hy
        have h1 := hi.value y hy
        rw [hvals, Heap.alloc_cells]
        have : y.vptr ≠ (s.values.alloc x).1 := by
          intro h
          rw [h, Heap.alloc_fst_fresh _ hi.vwf] at h1
          cases h1
        rw [if_neg this]
        exact h1
      intro e he
      simp only [List.mem_append, List.mem_cons] at he
      rcases he with he | rfl | he
      · exact old e (by simp [he])
      · rw [hvals, Heap.alloc_cells, hvp, if_pos rfl]
      · exact old e (by simp [he])
    · have hvn := hi.vnodup
      simp only [List.map_append, List.map_cons] at hvn ⊢
      rw [List.nodup_middle, List.nodup_cons]
      refine ⟨?_, hvn⟩
      intro h
      rw [← List.map_append] at h
      obtain ⟨y, hy, hy2⟩ := List.mem_map.mp h
      have h1 := hi.value y hy
      rw [hy2, hvp, Heap.alloc_fst_fresh _ hi.vwf] at h1
      cases h1

end LockFreePriorityQueue

end Amino

namespace Amino

namespace LockFreePriorityQueue

theorem pq_retireSaved_spec (hp : Nat) (saved : List Nat) : ∀ (count i : Nat) (m : SMR PQNode),
    m.WF → (retireSaved hp saved count i m).WF ∧
      (retireSaved hp saved count i m).heap = m.heap ∧
      (retireSaved hp saved count i m).allOwned = m.allOwned ∧
      (retireSaved hp saved count i m).thread_local = m.thread_local ∧
      (retireSaved hp saved count i m).hprecs.length = m.hprecs.length := by
  intro count
  induction count with
  | zero => intro i m hw; exact ⟨hw, rfl, rfl, rfl, rfl⟩
  | succ count ih =>
    intro i m hw
    obtain ⟨h1, h2, h3, h4⟩ := SMR.retire_p_spec m hw hp (saved.getD i 0)
    obtain ⟨k1, k2, k3, k4, k5⟩ := ih (i + 1) _ h1
    simp only [retireSaved]
    exact ⟨k1, k2.trans (SMR.retire_p_heap _ _ _), k3.trans h2, k4.trans h3, k5.trans h4⟩

theorem pq_nextAt_congr (tail j : Nat) (A A' : Entry) (hadd : A'.addr = A.addr)
    (hh : A'.height = A.height) (post : List Entry) : ∀ X : List Entry,
    nextAt tail j (X ++ A' :: post) = nextAt tail j (X ++ A :: post) := by
  intro X
  induction X with
  | nil => simp only [List.nil_append, nextAt, hadd, hh]
  | cons e X ih => simp only [List.cons_append, nextAt, List.append_eq, ih]

theorem pq_linked_replace_at (h : Heap PQNode) (tail : Nat) (A A' : Entry)
    (hadd : A'.addr = A.addr) (hh : A'.height = A.height) (post : List Entry)
    (n v : PQNode) (hn : h.cells A.addr = some n) (hk : v.key = A'.key)
    (hv : v.value = A'.vptr) (hm : MARKED A'.vptr = false)
    (hlen : v.next.length = n.next.length)
    (hnx : ∀ j, j < A.height → v.next[j]? = n.next[j]?)
    (hpost : A.addr ∉ post.map Entry.addr) :
    ∀ X : List Entry, A.addr ∉ X.map Entry.addr → linked h tail (X ++ A :: post) →
      linked (h.put A.addr (some v)) tail (X ++ A' :: post) := by
  intro X
  induction X with
  | nil =>
    intro _ hl
    obtain ⟨m, h1, h2, h3, h4, h5, h6⟩ := hl.1
    rw [hn] at h1
    cases h1
    refine ⟨⟨v, by simp [Heap.put, hadd], hk, hv, hm, by rw [hlen, h5],
      fun j hj => by rw [hnx j (by omega)]; exact h6 j (by omega)⟩, ?_⟩
    apply pq_linked_frame h _ tail post _ hl.2
    intro e he
    have : e.addr ≠ A.addr := fun hc => hpost (hc ▸ List.mem_map_of_mem _ he)
    simp [Heap.put, this]
  | cons e X ih =>
    intro hX hl
    simp only [List.map_cons, List.mem_cons, not_or] at hX
    refine ⟨?_, ih hX.2 hl.2⟩
    have : e.addr ≠ A.addr := fun hc => hX.1 hc.symm
    simp only [Heap.put, this, if_false]
    obtain ⟨m, h1, h2, h3, h4, h5, h6⟩ := hl.1
    refine ⟨m, h1, h2, h3, h4, h5, fun j hj => ?_⟩
    have := h6 j hj
    simp only [List.append_eq] at this ⊢
    rw [pq_nextAt_congr tail j A A' hadd hh post X]
    exact this

theorem Core.pq_replace_entry {s : LockFreePriorityQueue} {pre post : List Entry} {A : Entry}
    (hc : Core s (pre ++ A :: post)) (A' : Entry) (hadd : A'.addr = A.addr)
    (hh : A'.height = A.height) (hkey : A'.key = A.key) (n v : PQNode)
    (hn : s.mm.heap.cells A.addr = some n) (hk : v.key = A'.key) (hv : v.value = A'.vptr)
    (hm : MARKED A'.vptr = false) (hlen : v.next.length = n.next.length)
    (hnx : ∀ j, j < A.height → v.next[j]? = n.next[j]?) :
    Core (s.putNode A.addr v) (pre ++ A' :: post) := by
  refine hc.pq_put A.addr v (by rw [hn]; simp) ?_ (by simpa [hkey] using hc.sorted)
    (by simp [hadd])
  have hnd := hc.nodup
  obtain ⟨n1, n2, n3, -⟩ := pq_nodup_mid pre post A [s.head, s.tail, s.INVALID] hnd
  have := pq_linked_replace_at s.mm.heap s.tail A A' hadd hh post n v hn hk hv hm hlen hnx n3
    (s.headEntry :: pre) (by
      simp only [List.map_cons, List.mem_cons, not_or]
      refine ⟨?_, n2⟩
      intro h
      apply n1
      simp [headEntry] at h
      simp [h]) hc.linked
  exact this

theorem Core.pq_retired {s : LockFreePriorityQueue} {l : List Entry} (hc : Core s l)
    (m mm5 : SMR PQNode) (del : List Nat) (a : Nat) (hmh : m.heap = s.mm.heap)
    (hmo : m.allOwned = s.mm.allOwned) (hw5 : mm5.WF) (hret : SMR.Retired m mm5 [a] del)
    (hna : a ∉ s.head :: s.tail :: s.INVALID :: l.map Entry.addr) (V : Heap Int) :
    Core { s with mm := mm5, values := V } l := by
  have hlv : ∀ q, s.mm.live q → m.live q := by
    intro q hq
    unfold SMR.live at hq ⊢
    rw [hmh, hmo]; exact hq
  have hfr : ∀ q ∈ s.head :: s.tail :: s.INVALID :: l.map Entry.addr,
      mm5.live q ∧ mm5.heap.cells q = s.mm.heap.cells q := by
    intro q hq
    have hqa : q ∉ [a] := by
      simp only [List.mem_singleton]
      rintro rfl
      exact hna hq
    have := (hret.frame q).1 (hlv q (hc.live q hq)) hqa
    rw [hmh] at this
    exact this
  refine ⟨hw5, ?_, hc.sorted, hc.nodup, fun q hq => (hfr q hq).1⟩
  apply pq_linked_frame s.mm.heap _ _ _ _ hc.linked
  intro e he
  apply (hfr e.addr _).2
  rcases List.mem_cons.mp he with rfl | he
  · exact List.mem_cons_self _ _
  · exact List.mem_cons_of_mem _ (List.mem_cons_of_mem _ (List.mem_cons_of_mem _
      (List.mem_map_of_mem Entry.addr he)))

end LockFreePriorityQueue

end Amino

namespace Amino

namespace LockFreePriorityQueue

theorem pq_insert_replace (tid g : Nat) (x : Int) (s : LockFreePriorityQueue)
    (pre post : List Entry) (e : Entry) (hi : Inv s (pre ++ e :: post))
    (hpre : ∀ y ∈ pre, y.key < x) (hek : e.key = x) (hpost : ∀ y ∈ post, x < y.key) :
    ∃ s' vp2, insert (pre.length + 9 + g) s tid x = some (s', true) ∧
      Inv s' (pre ++ { e with vptr := vp2 } :: post) := by
  have hpost' : ∀ y ∈ e :: post, x ≤ y.key := by
    intro y hy
    rcases List.mem_cons.mp hy with rfl | hy
    · exact le_of_eq hek.symm
    · exact le_of_lt (hpost y hy)
  obtain ⟨L, a, s4, saved, hp, hL1, hL2, e0, hr4, hc4, hh, ht, hI, hv, hlive, hna, hcell, hframe,
    hlen, hsv⟩ := pq_insert_search_phase tid g x s pre (e :: post) hi hpre hpost'
  have heh := (hi.height e (by simp)).1
  obtain ⟨s5, h5, hs5, hr5⟩ := pq_scanKey_spec tid hp (g + 4) 0 1 x s4 pre (e :: post) hr4 hc4
    (by decide) (by omega) hpre hpost'
  have hnx : nextAt s4.tail 0 (e :: post) = e.addr := by
    simp only [nextAt]
    rw [if_pos (by omega)]
  rw [hnx, hh] at h5
  have hc5 := hc4.pq_of_slots hs5 hr5.wf
  obtain ⟨b1, b2, b3, b4, b5, n2, b6, b7, b8, b9, b10⟩ := hc5.pq_entry e (by simp)
  obtain ⟨vp2, hvp2⟩ : ∃ vp2, vp2 = (s5.values.alloc x).1 := ⟨_, rfl⟩
  have hv5 : s5.values = (s.values.alloc x).2 := hs5.values.trans hv
  have hV1 : s5.values.WF := by rw [hv5]; exact Heap.alloc_wf _ hi.vwf _
  have hold : ∀ y ∈ pre ++ e :: post, s5.values.cells y.vptr = some y.key := by
    intro y hy
    have h1 := hi.value y hy
    rw [hv5, Heap.alloc_cells]
    have : y.vptr ≠ (s.values.alloc x).1 := by
      intro h
      rw [h, Heap.alloc_fst_fresh _ hi.vwf] at h1
      cases h1
    rw [if_neg this]
    exact h1
  have hne2 : ∀ y ∈ pre ++ e :: post, y.vptr ≠ vp2 := by
    intro y hy h
    have h1 := hold y hy
    rw [h, hvp2, Heap.alloc_fst_fresh _ hV1] at h1
    cases h1
  have hold2 : ∀ y ∈ pre ++ e :: post, (s5.values.alloc x).2.cells y.vptr = some y.key := by
    intro y hy
    rw [Heap.alloc_cells, if_neg (by rw [← hvp2]; exact hne2 y hy)]
    exact hold y hy
  have hvpm : MARKED vp2 = false := by
    rw [hvp2]; exact MARKED_aligned _ (Heap.alloc_fst_aligned _ hV1 _)
  -- the state after the value has been replaced
  obtain ⟨s6, hs6⟩ : ∃ s6 : LockFreePriorityQueue,
    s6 = { s5 with values := (s5.values.alloc x).2 } := ⟨_, rfl⟩
  have hc6 : Core s6 (pre ++ e :: post) := by
    rw [hs6]; exact ⟨hc5.wf, hc5.linked, hc5.sorted, hc5.nodup, hc5.live⟩
  have hr6 : Ready s6 tid hp := by
    rw [hs6]; exact ⟨hr5.wf, hr5.tl, hr5.valid⟩
  have b6' : s6.mm.heap.cells e.addr = some n2 := by rw [hs6]; exact b6
  have e6 := pq_update_eq s6 e.addr (fun m => { m with value := vp2 }) n2 b6'
  have hc7 : Core (s6.putNode e.addr { n2 with value := vp2 })
      (pre ++ { e with vptr := vp2 } :: post) :=
    hc6.pq_replace_entry { e with vptr := vp2 } rfl rfl rfl n2 _ b6' b7 rfl hvpm rfl
      (fun _ _ => rfl)
  have hr7 := hr6.pq_ready_put e.addr { n2 with value := vp2 } (by rw [b6']; simp)
  obtain ⟨s7, hs7⟩ : ∃ s7 : LockFreePriorityQueue,
    s7 = s6.putNode e.addr { n2 with value := vp2 } := ⟨_, rfl⟩
  rw [← hs7] at hc7 hr7 e6
  have hread : s7.values.cells n2.value = some e.key := by
    rw [hs7, b8]
    show s6.values.cells e.vptr = _
    rw [hs6]
    exact hold2 e (by simp)
  -- the hazard pointers are cleared and the new node is given back
  obtain ⟨q1, q2, q3, q4⟩ := SMR.retire_p_spec s7.mm hr7.wf hp (lastAt 0 s.head pre)
  obtain ⟨r1, r2, r3, r4⟩ := SMR.retire_p_spec _ q1 hp e.addr
  obtain ⟨t1, t2, t3, t4, t5⟩ := pq_retireSaved_spec hp saved (L - 1) 1 _ r1
  obtain ⟨mm4, hmm4⟩ : ∃ mm4, mm4 = retireSaved hp saved (L - 1) 1
    ((s7.mm.retire_p hp (lastAt 0 s.head pre)).retire_p hp e.addr) := ⟨_, rfl⟩
  rw [← hmm4] at t1 t2 t3 t4 t5
  have hheap4 : mm4.heap = s7.mm.heap := by
    rw [t2, SMR.retire_p_heap, SMR.retire_p_heap]
  have hown4 : mm4.allOwned = s7.mm.allOwned := by rw [t3, r2, q2]
  have hlive7 : s7.mm.live a := by
    rw [hs7]
    apply (pq_putNode_live s6 hr6.wf e.addr _ (by rw [b6']; simp) a).mpr
    rw [hs6]
    exact (hs5.pq_live a).mpr hlive
  have hlive4 : mm4.live a := by
    unfold SMR.live at hlive7 ⊢
    rw [hheap4, hown4]; exact hlive7
  obtain ⟨mm5, del, e8, hw5, hret⟩ := SMR.delNode_spec mm4 t1 tid hp a
    (by rw [t4, r3, q3]; exact hr7.tl)
    ⟨hr7.valid.1, by rw [t5, r4, q4]; exact hr7.valid.2⟩ hlive4
  have hna7 : a ∉ s7.head :: s7.tail :: s7.INVALID ::
      (pre ++ { e with vptr := vp2 } :: post).map Entry.addr := by
    have e1 : s7.head = s.head := by rw [hs7, hs6]; exact hs5.head.trans hh
    have e2 : s7.tail = s.tail := by rw [hs7, hs6]; exact hs5.tail.trans ht
    have e3 : s7.INVALID = s.INVALID := by rw [hs7, hs6]; exact hs5.INVALID.trans hI
    rw [e1, e2, e3]
    simpa using hna
  have hcF := hc7.pq_retired mm4 mm5 del a hheap4 hown4 hw5 hret hna7 (s7.values.free n2.value)
  refine ⟨{ s7 with mm := mm5, values := s7.values.free n2.value }, vp2, ?_, hcF, ?_, ?_,
    ?_, ?_, ?_⟩
  · rw [e0, insertTail, show pre.length + 9 + g = (pre.length + 4 + (g + 4)) + 1 by omega,
      insertLevel0, h5]
    have hcond : e.addr ≠ s5.tail ∧ MARKED n2.value = false ∧ n2.key = x :=
      ⟨b1, by rw [b8]; exact b9, by rw [b7]; exact hek⟩
    simp only [Heap.read, b6, hcond, ne_eq, not_false_eq_true, and_self, if_true]
    rw [← hvp2, ← hs6, e6]
    simp only [hread]
    rw [← hmm4, e8]
  · show (s7.values.free n2.value).WF
    apply Heap.free_wf _ _ _ (by rw [hread]; simp)
    rw [hs7]
    show s6.values.WF
    rw [hs6]
    exact Heap.alloc_wf _ hV1 _
  · intro y hy
    have hy' : y.addr ∈ (pre ++ e :: post).map Entry.addr := by
      simp only [List.mem_append, List.mem_cons] at hy
      simp only [List.map_append, List.map_cons, List.mem_append, List.mem_cons]
      rcases hy with h | rfl | h
      · exact Or.inl (List.mem_map_of_mem _ h)
      · exact Or.inr (Or.inl rfl)
      · exact Or.inr (Or.inr (List.mem_map_of_mem _ h))
    obtain ⟨z, hz, hz2⟩ := List.mem_map.mp hy'
    have hyh : y.height = z.height := by
      simp only [List.mem_append, List.mem_cons] at hy hz
      have hnd := hi.core.nodup
      have hinj : ∀ u ∈ pre ++ e :: post, ∀ w ∈ pre ++ e :: post, u.addr = w.addr → u = w := by
        have hnd2 : ((pre ++ e :: post).map Entry.addr).Nodup := by
          simp only [List.nodup_cons] at hnd
          exact hnd.2.2.2
        exact fun u hu w hw h => List.inj_on_of_nodup_map hnd2 hu hw h
      rcases hy with h | rfl | h
      · rw [hinj z (by simp only [List.mem_append, List.mem_cons]; exact hz) y (by simp [h]) hz2]
      · have := hinj z (by simp only [List.mem_append, List.mem_cons]; exact hz) e (by simp) hz2
        rw [this]
      · rw [hinj z (by simp only [List.mem_append, List.mem_cons]; exact hz) y (by simp [h]) hz2]
    have hza : z.addr ≠ a := by
      intro h
      apply hna
      rw [← h]
      exact List.mem_cons_of_mem _ (List.mem_cons_of_mem _ (List.mem_cons_of_mem _
        (List.mem_map_of_mem Entry.addr hz)))
    obtain ⟨n, h1, h2⟩ := hi.level z hz
    have hc5z : s5.mm.heap.cells z.addr = some n := by
      rw [hs5.heap, hframe z.addr hza]; exact h1
    have hc7z : ∃ n7, s7.mm.heap.cells z.addr = some n7 ∧ n7.level = z.height := by
      rw [hs7, pq_putNode_cells]
      by_cases hze : z.addr = e.addr
      · rw [if_pos hze]
        rw [hze, b6] at hc5z
        cases hc5z
        exact ⟨_, rfl, h2⟩
      · rw [if_neg hze, hs6]
        exact ⟨n, hc5z, h2⟩
    obtain ⟨n7, h7, h7l⟩ := hc7z
    have hl5 := (hcF.live y.addr (List.mem_cons_of_mem _ (List.mem_cons_of_mem _
      (List.mem_cons_of_mem _ (List.mem_map_of_mem Entry.addr hy))))).1
    have hcl := hret.cells y.addr
    by_cases hd : y.addr ∈ del
    · rw [if_pos hd] at hcl
      exact absurd hcl hl5
    · rw [if_neg hd, hheap4, ← hz2, h7] at hcl
      exact ⟨n7, by rw [← hz2]; exact hcl, by rw [hyh]; exact h7l⟩
  · intro y hy
    simp only [List.mem_append, List.mem_cons] at hy
    rcases hy with h | rfl | h
    · exact hi.height y (by simp [h])
    · exact hi.height e (by simp)
    · exact hi.height y (by simp [h])
  · have hvn := hi.vnodup
    simp only [List.map_append, List.map_cons] at hvn
    rw [List.nodup_middle, List.nodup_cons, List.mem_append] at hvn
    have hfc : ∀ q, (s7.values.free n2.value).cells q =
        if q = e.vptr then none else (s5.values.alloc x).2.cells q := by
      intro q
      have hv7 : s7.values = (s5.values.alloc x).2 := by rw [hs7, hs6]; rfl
      rw [Heap.free_cells _ (by rw [hv7]; exact Heap.alloc_wf _ hV1 _), b8, hv7]
    intro y hy
    show (s7.values.free n2.value).cells y.vptr = some y.key
    rw [hfc]
    simp only [List.mem_append, List.mem_cons] at hy
    rcases hy with h | rfl | h
    · rw [if_neg (fun hq => hvn.1 (Or.inl (by
        rw [← hq]; exact List.mem_map_of_mem Entry.vptr h)))]
      exact hold2 y (by simp [h])
    · show (if vp2 = e.vptr then none else (s5.values.alloc x).2.cells vp2) = some e.key
      rw [if_neg (Ne.symm (hne2 e (by simp))), Heap.alloc_cells, hvp2, if_pos rfl, hek]
    · rw [if_neg (fun hq => hvn.1 (Or.inr (by
        rw [← hq]; exact List.mem_map_of_mem Entry.vptr h)))]
      exact hold2 y (by simp [h])
  · have hvn := hi.vnodup
    simp only [List.map_append, List.map_cons] at hvn ⊢
    rw [List.nodup_middle, List.nodup_cons] at hvn ⊢
    refine ⟨?_, hvn.2⟩
    intro h
    rw [← List.map_append] at h
    obtain ⟨y, hy, hy2⟩ := List.mem_map.mp h
    exact hne2 y (by
      simp only [List.mem_append, List.mem_cons] at hy ⊢
      rcases hy with h | h
      · exact Or.inl h
      · exact Or.inr (Or.inr h)) hy2

end LockFreePriorityQueue

end Amino

namespace Amino

namespace LockFreePriorityQueue

theorem pq_put_put (h : Heap PQNode) (a : Nat) (v1 v2 : Option PQNode) :
    (h.put a v1).put a v2 = h.put a v2 := by
  unfold Heap.put
  simp only [Heap.mk.injEq, and_true]
  funext q
  split <;> rfl

theorem pq_putNode_putNode (s : LockFreePriorityQueue) (a : Nat) (v1 v2 : PQNode) :
    (s.putNode a v1).putNode a v2 = s.putNode a v2 := by
  unfold putNode
  simp only [pq_put_put]

theorem pq_putNode_self (s : LockFreePriorityQueue) (a : Nat) (n : PQNode)
    (h : s.mm.heap.cells a = some n) : s.putNode a n = s := by
  have : s.mm.heap.put a (some n) = s.mm.heap := by
    unfold Heap.put
    have hc : (fun q => if q = a then some n else s.mm.heap.cells q) = s.mm.heap.cells := by
      funext q
      split
      · rename_i hq; rw [hq, h]
      · rfl
    rw [hc]
  unfold putNode
  rw [this]

theorem pq_scanKey_stop (tid hp g : Nat) (s : LockFreePriorityQueue) (c i x : Nat) (key : Int)
    (hr : Ready s tid hp) (hct : c ≠ s.tail) (hpt : pointsAt s.mm.heap c i x) (hx0 : x ≠ 0)
    (hxm : MARKED x = false)
    (hstop : x = s.tail ∨ (x ≠ s.head ∧ ∃ m, s.mm.heap.cells x = some m ∧ ¬ m.key < key)) :
    scanKey tid (g + 4) s c i key = some (s, c, x) := by
  rw [show g + 4 = (g + 3) + 1 by omega, scanKey]
  simp only [hr.pq_getHPRec]
  rw [show g + 3 = (g + 1) + 2 by omega, pq_readNext_step tid (g + 1) s c i x hct hpt hx0 hxm]
  simp only
  rw [show g + 1 + 2 = (g + 2) + 1 by omega, scanKeyLoop]
  rcases hstop with h | ⟨h1, m, h2, h3⟩
  · rw [if_pos h]
  · by_cases ht : x = s.tail
    · rw [if_pos ht]
    · rw [if_neg ht, if_neg h1]
      simp [Heap.read, h2, h3]

theorem pq_markLevels_spec (a : Nat) (f : Nat → Nat) (hf : ∀ j, ALIGN ∣ f j) :
    ∀ (count i : Nat) (s : LockFreePriorityQueue) (n : PQNode), s.mm.heap.cells a = some n →
    i + count ≤ n.next.length → (∀ j, i ≤ j → j < i + count → n.next[j]? = some (f j)) →
    ∃ n', markLevels a count i s = some (s.putNode a n') ∧ n'.level = n.level ∧
      n'.key = n.key ∧ n'.value = n.value ∧ n'.next.length = n.next.length ∧
      (∀ j, i ≤ j → j < i + count → n'.next[j]? = some (MARK (f j))) ∧
      (∀ j, j < i → n'.next[j]? = n.next[j]?) := by
  intro count
  induction count with
  | zero =>
    intro i s n hc _ _
    refine ⟨n, ?_, rfl, rfl, rfl, rfl, fun j h1 h2 => by omega, fun _ _ => rfl⟩
    rw [pq_putNode_self s a n hc]
    rfl
  | succ count ih =>
    intro i s n hc hlen hnx
    have hi := hnx i (le_refl _) (by omega)
    have e1 := pq_getNext_eq s a i n hc
    have e2 := pq_setNext_eq s a i (MARK (f i)) n hc (by omega)
    obtain ⟨n', k1, k2, k3, k4, k5, k6, k7⟩ := ih (i + 1) (s.putNode a { n with next := n.next.set i (MARK (f i)) })
      { n with next := n.next.set i (MARK (f i)) } (by rw [pq_putNode_cells, if_pos rfl])
      (by simp only [List.length_set]; omega) (by
        intro j h1 h2
        show (n.next.set i (MARK (f i)))[j]? = _
        rw [List.getElem?_set_ne (by omega)]
        exact hnx j (by omega) (by omega))
    rw [pq_putNode_putNode] at k1
    refine ⟨n', ?_, k2, k3, k4, by rw [k5]; simp, ?_, ?_⟩
    · rw [markLevels, e1, hi]
      simp only [MARKED_aligned _ (hf i), Bool.false_eq_true, if_false, e2]
      exact k1
    · intro j h1 h2
      by_cases hji : j = i
      · subst hji
        rw [k7 j (by omega)]
        show (n.next.set j (MARK (f j)))[j]? = _
        rw [List.getElem?_set_self (by omega)]
      · exact k6 j (by omega) (by omega)
    · intro j hj
      rw [k7 j (by omega)]
      show (n.next.set i (MARK (f i)))[j]? = _
      rw [List.getElem?_set_ne (by omega)]

theorem pq_unlinking_start {s : LockFreePriorityQueue} {e : Entry} {rest : List Entry}
    (hc : Core s (e :: rest)) (n' : PQNode) (hk : n'.key = e.key) (hl : n'.level = e.height)
    (hlen : n'.next.length = MAXLEVEL)
    (hnx : ∀ j, j < e.height → n'.next[j]? = some (MARK (nextAt s.tail j rest))) :
    Unlinking (s.putNode e.addr n') e e.height rest := by
  obtain ⟨a1, a2, a3, a4, a5, nA, a6, -⟩ := hc.pq_entry e (by simp)
  have hca : s.mm.heap.cells e.addr ≠ none := by rw [a6]; simp
  have hnd := hc.nodup
  obtain ⟨hn, hn1, hn2, hn3, -, hn5, hn6⟩ := hc.linked.1
  refine ⟨(SMR.put_spec s.mm hc.wf e.addr n' hca).1, ?_, ?_, ?_, hc.sorted, hnd, ?_⟩
  · apply pq_linked_frame s.mm.heap _ _ _ _ hc.linked.2.2
    intro y hy
    have : y.addr ≠ e.addr := by
      intro h
      simp only [List.map_cons, List.nodup_cons, List.mem_cons, not_or] at hnd
      exact hnd.2.2.2.1 (h ▸ List.mem_map_of_mem Entry.addr hy)
    show (s.mm.heap.put e.addr (some n')).cells y.addr = _
    simp [Heap.put, this]
  · refine ⟨hn, ?_, hn2, hn3, hn5, ?_⟩
    · show (s.putNode e.addr n').mm.heap.cells s.head = _
      rw [pq_putNode_cells, if_neg (Ne.symm a2)]
      exact hn1
    · intro j hj
      rw [hn6 j hj]
      rfl
  · exact ⟨n', by rw [pq_putNode_cells, if_pos rfl], hk, hl, hlen, hnx⟩
  · intro q hq
    exact (pq_putNode_live s hc.wf e.addr n' hca q).mpr (hc.live q hq)

end LockFreePriorityQueue

end Amino

namespace Amino

namespace LockFreePriorityQueue

theorem Unlinking.pq_facts {s : LockFreePriorityQueue} {e : Entry} {i : Nat}
    {rest : List Entry} (hu : Unlinking s e i rest) (j : Nat) :
    e.addr ≠ s.head ∧ e.addr ≠ s.tail ∧ e.addr ≠ s.INVALID ∧ s.head ≠ s.tail ∧
    ALIGN ∣ e.addr ∧ e.addr ≠ 0 ∧
    ALIGN ∣ nextAt s.tail j rest ∧ nextAt s.tail j rest ≠ s.INVALID ∧
    (∀ y ∈ rest, y.addr ≠ s.head ∧ y.addr ≠ e.addr) := by
  have hn := hu.nodup
  simp only [List.map_cons, List.nodup_cons, List.mem_cons, not_or] at hn
  have hla := (hu.live e.addr (by simp)).1
  have hlt := (hu.live s.tail (by simp)).1
  have ha0 : e.addr ≠ 0 := by
    rintro h0; rw [h0] at hla; exact hla hu.wf.heap.null
  refine ⟨Ne.symm hn.1.2.2.1, Ne.symm hn.2.1.2.1, Ne.symm hn.2.2.1.1, hn.1.1,
    hu.wf.heap.aligned _ hla, ha0, ?_, ?_, ?_⟩
  · rcases pq_nextAt_mem s.tail j rest with h | ⟨y, hy, h, -⟩
    · rw [h]; exact hu.wf.heap.aligned _ hlt
    · rw [h]
      exact hu.wf.heap.aligned _ (hu.live y.addr (by simp [List.mem_map_of_mem Entry.addr hy])).1
  · rcases pq_nextAt_mem s.tail j rest with h | ⟨y, hy, h, -⟩
    · rw [h]; exact hn.2.1.1
    · rw [h]
      intro hc
      exact hn.2.2.1.2 (hc ▸ List.mem_map_of_mem Entry.addr hy)
  · intro y hy
    refine ⟨?_, ?_⟩
    · intro hc
      exact hn.1.2.2.2 (hc ▸ List.mem_map_of_mem Entry.addr hy)
    · intro hc
      exact hn.2.2.2.1 (hc ▸ List.mem_map_of_mem Entry.addr hy)

theorem pq_unlinkLoop_step (tid hp g i : Nat) (s : LockFreePriorityQueue) (e : Entry)
    (rest : List Entry) (hr : Ready s tid hp) (hu : Unlinking s e (i + 1) rest)
    (hi : i < MAXLEVEL) (H : Nat) (hH : s.head = H) :
    ∃ s', unlinkLoop tid hp e.addr i (g + 5) s H = some (s', H) ∧ Unlinking s' e i rest ∧
      Ready s' tid hp ∧ Linking s s' := by
  subst hH
  obtain ⟨f1, f2, f3, f4, f5, f6, f7, f8, f9⟩ := hu.pq_facts i
  obtain ⟨hn, h1, h2, h3, h4, h5⟩ := hu.headc
  obtain ⟨n, c1, c2, c3, c4, c5⟩ := hu.nodec
  obtain ⟨p, hp'⟩ : ∃ p, p = nextAt s.tail i rest := ⟨_, rfl⟩
  rw [← hp'] at f7 f8
  have hni : n.next[i]? = some (MARK p) := by rw [hp']; exact c5 i (by omega)
  have hhi : hn.next[i]? = some e.addr := by
    rw [h5 i hi, if_pos (by omega)]
  have e1 := pq_getNext_eq s e.addr i n c1
  have hscan := pq_scanKey_stop tid hp g s s.head i e.addr n.key hr f4
    ⟨hn, h1, by rw [h3]; exact pq_MARKED_zero, hhi⟩ f6 (MARKED_aligned _ f5)
    (Or.inr ⟨f1, n, c1, lt_irrefl _⟩)
  obtain ⟨hr2, hs2⟩ := pq_retire_p s tid hp e.addr hr
  obtain ⟨s2, hs2d⟩ : ∃ s2 : LockFreePriorityQueue,
    s2 = { s with mm := s.mm.retire_p hp e.addr } := ⟨_, rfl⟩
  rw [← hs2d] at hr2 hs2
  have c1' : s2.mm.heap.cells e.addr = some n := by rw [hs2.heap]; exact c1
  have h1' : s2.mm.heap.cells s.head = some hn := by rw [hs2.heap]; exact h1
  have e2 := pq_getNext_eq s2 e.addr i n c1'
  have e3 := pq_getNext_eq s2 s.head i hn h1'
  have e4 := pq_setNext_eq s2 s.head i p hn h1' (by rw [h4]; exact hi)
  obtain ⟨s3, hs3d⟩ : ∃ s3 : LockFreePriorityQueue,
    s3 = s2.putNode s.head { hn with next := hn.next.set i p } := ⟨_, rfl⟩
  rw [← hs3d] at e4
  have hr3 : Ready s3 tid hp := by
    rw [hs3d]; exact hr2.pq_ready_put _ _ (by rw [h1']; simp)
  have c1'' : s3.mm.heap.cells e.addr = some n := by
    rw [hs3d, pq_putNode_cells, if_neg f1]; exact c1'
  have hI3 : s3.INVALID = s.INVALID := by rw [hs3d]; exact hs2.INVALID
  have e5 := pq_setNext_eq s3 e.addr i s3.INVALID n c1'' (by rw [c4]; exact hi)
  have hr4 := hr3.pq_ready_put e.addr { n with next := n.next.set i s3.INVALID } (by rw [c1'']; simp)
  have l2 : Linking s s2 := Linking.pq_link_slots hs2
  have l3 : Linking s2 s3 := by
    rw [hs3d]; exact Linking.pq_of_put s2 s.head hn _ h1' rfl
  have l4 : Linking s3 (s3.putNode e.addr { n with next := n.next.set i s3.INVALID }) :=
    Linking.pq_of_put s3 e.addr n _ c1'' rfl
  have hcells : ∀ q, q ≠ s.head → q ≠ e.addr →
      (s3.putNode e.addr { n with next := n.next.set i s3.INVALID }).mm.heap.cells q =
        s.mm.heap.cells q := by
    intro q hq1 hq2
    rw [pq_putNode_cells, if_neg hq2, hs3d, pq_putNode_cells, if_neg hq1, hs2.heap]
  have hlive : ∀ q, (s3.putNode e.addr { n with next := n.next.set i s3.INVALID }).mm.live q ↔
      s.mm.live q := by
    intro q
    rw [pq_putNode_live s3 hr3.wf e.addr _ (by rw [c1'']; simp) q, hs3d,
      pq_putNode_live s2 hr2.wf s.head _ (by rw [h1']; simp) q]
    exact hs2.pq_live q
  have ll := (l2.pq_then l3).pq_then l4
  refine ⟨_, ?_, ⟨hr4.wf, ?_, ?_, ?_, hu.sorted, ?_, ?_⟩, hr4, ll⟩
  · rw [show g + 5 = (g + 4) + 1 by omega, unlinkLoop]
    have hcond : ¬ (e.addr = s.tail ∨ e.addr = s.head) := by
      rintro (h | h)
      · exact f2 h
      · exact f1 h
    rw [if_neg hcond, e1, hni]
    simp only [Heap.read, c1]
    rw [POINTER_MARK_aligned _ f7, if_neg f8, hscan]
    simp only
    rw [hs2d] at e2 e3 e4
    rw [e2, e3, hni, hhi]
    simp only
    have hcond2 : ¬ (e.addr ≠ e.addr ∨ POINTER (MARK p) = s.INVALID) := by
      rintro (h | h)
      · exact h rfl
      · rw [POINTER_MARK_aligned _ f7] at h
        exact f8 h
    rw [if_neg hcond2, if_pos trivial, POINTER_MARK_aligned _ f7, e4]
    simp only
    rw [e5]
  · apply pq_linked_frame s.mm.heap _ _ _ _ (by
      show linked s.mm.heap (s3.putNode e.addr _).tail rest
      rw [ll.tail]; exact hu.linked)
    intro y hy
    exact hcells y.addr (f9 y hy).1 (f9 y hy).2
  · refine ⟨{ hn with next := hn.next.set i p }, ?_, h2, h3, by simpa using h4, ?_⟩
    · rw [ll.head, pq_putNode_cells, if_neg (Ne.symm f1), hs3d, pq_putNode_cells, if_pos rfl]
    · intro j hj
      rw [ll.tail]
      show (hn.next.set i p)[j]? = _
      by_cases hji : j = i
      · subst hji
        rw [List.getElem?_set_self (by rw [h4]; exact hj), if_neg (lt_irrefl _), hp']
      · rw [List.getElem?_set_ne (Ne.symm hji), h5 j hj]
        by_cases hjl : j < i
        · rw [if_pos hjl, if_pos (by omega)]
        · rw [if_neg hjl, if_neg (by omega)]
  · refine ⟨{ n with next := n.next.set i s3.INVALID }, by rw [pq_putNode_cells, if_pos rfl],
      c2, c3, by simpa using c4, ?_⟩
    intro j hj
    rw [ll.tail]
    show (n.next.set i s3.INVALID)[j]? = _
    rw [List.getElem?_set_ne (by omega)]
    exact c5 j (by omega)
  · rw [ll.head, ll.tail, ll.INVALID]; exact hu.nodup
  · intro q hq
    rw [ll.head, ll.tail, ll.INVALID] at hq
    exact (hlive q).mpr (hu.live q hq)

theorem pq_unlinkLevels_spec (tid hp g : Nat) (e : Entry) (rest : List Entry) (H : Nat) :
    ∀ (i : Nat) (s : LockFreePriorityQueue), i ≤ MAXLEVEL → Ready s tid hp →
    Unlinking s e i rest → s.head = H →
    ∃ s', unlinkLevels tid hp e.addr (g + 5) i s H = some (s', H) ∧ Unlinking s' e 0 rest ∧
      Ready s' tid hp ∧ Linking s s' := by
  intro i
  induction i with
  | zero =>
    intro s _ hr hu _
    exact ⟨s, rfl, hu, hr, Linking.pq_same s⟩
  | succ i ih =>
    intro s hi hr hu hH
    obtain ⟨s1, e1, hu1, hr1, l1⟩ := pq_unlinkLoop_step tid hp g i s e rest hr hu (by omega) H hH
    obtain ⟨s2, e2, hu2, hr2, l2⟩ := ih s1 (by omega) hr1 hu1 (l1.head.trans hH)
    refine ⟨s2, ?_, hu2, hr2, l1.pq_then l2⟩
    rw [unlinkLevels, e1]
    exact e2

theorem pq_unlinking_done {s : LockFreePriorityQueue} {e : Entry} {rest : List Entry}
    (hu : Unlinking s e 0 rest) :
    Core s rest ∧ s.mm.live e.addr ∧
    e.addr ∉ s.head :: s.tail :: s.INVALID :: rest.map Entry.addr := by
  obtain ⟨hn, h1, h2, h3, h4, h5⟩ := hu.headc
  have hnd := hu.nodup
  have hp : List.Perm (s.head :: s.tail :: s.INVALID :: (e :: rest).map Entry.addr)
      (e.addr :: (s.head :: s.tail :: s.INVALID :: rest.map Entry.addr)) := by
    have : List.Perm ([s.head, s.tail, s.INVALID] ++ e.addr :: rest.map Entry.addr)
        (e.addr :: ([s.head, s.tail, s.INVALID] ++ rest.map Entry.addr)) := List.perm_middle
    simpa using this
  have hnd2 := hp.nodup_iff.mp hnd
  rw [List.nodup_cons] at hnd2
  refine ⟨⟨hu.wf, ⟨⟨hn, h1, h2, h3, pq_MARKED_zero, h4, ?_⟩, hu.linked⟩, ?_, hnd2.2, ?_⟩,
    hu.live e.addr (by simp), hnd2.1⟩
  · intro j hj
    have := h5 j hj
    rw [if_neg (by omega)] at this
    exact this
  · have := hu.sorted
    simp only [List.map_cons, List.pairwise_cons] at this
    exact this.2
  · intro q hq
    exact hu.live q (hp.mem_iff.mpr (List.mem_cons_of_mem _ hq))

end LockFreePriorityQueue

end Amino

namespace Amino

namespace LockFreePriorityQueue

theorem Unlinking.pq_slots {s s' : LockFreePriorityQueue} {e : Entry} {i : Nat}
    {rest : List Entry} (hu : Unlinking s e i rest) (h : Slots s s') (hw : s'.mm.WF) :
    Unlinking s' e i rest := by
  refine ⟨hw, ?_, ?_, ?_, hu.sorted, ?_, ?_⟩
  · rw [h.heap, h.tail]; exact hu.linked
  · rw [h.heap, h.tail, h.head]; exact hu.headc
  · rw [h.heap, h.tail]; exact hu.nodec
  · rw [h.head, h.tail, h.INVALID]; exact hu.nodup
  · intro a ha
    rw [h.head, h.tail, h.INVALID] at ha
    exact (h.pq_live a).mpr (hu.live a ha)

theorem pq_start (tid : Nat) (s : LockFreePriorityQueue) (l : List Entry) (hc : Core s l) :
    Ready { s with mm := (s.mm.getHPRec tid).1.employ (s.mm.getHPRec tid).2 0 s.head } tid
      (s.mm.getHPRec tid).2 ∧
    Slots s { s with mm := (s.mm.getHPRec tid).1.employ (s.mm.getHPRec tid).2 0 s.head } := by
  obtain ⟨g1, g2, g3, g4⟩ := SMR.getHPRec_spec s.mm hc.wf tid
  have hr0 : Ready { s with mm := (s.mm.getHPRec tid).1 } tid (s.mm.getHPRec tid).2 :=
    ⟨g1, g2, g3⟩
  obtain ⟨hr1, hs1⟩ := pq_employ _ tid (s.mm.getHPRec tid).2 0 s.head hr0
  have hs0 : Slots s { s with mm := (s.mm.getHPRec tid).1 } :=
    ⟨rfl, rfl, rfl, rfl, rfl, g4.heap, g4.owned⟩
  exact ⟨hr1, hs0.pq_trans hs1⟩

theorem pq_deleteMin_empty (tid g : Nat) (r : Int) (s : LockFreePriorityQueue)
    (hi : Inv s []) :
    ∃ s', deleteMin (g + 3) s tid r = some (s', r, false) ∧ Inv s' [] := by
  obtain ⟨hr0, hs0⟩ := pq_start tid s [] hi.core
  obtain ⟨s0, hs0d⟩ : ∃ s0 : LockFreePriorityQueue,
    s0 = { s with mm := (s.mm.getHPRec tid).1.employ (s.mm.getHPRec tid).2 0 s.head } :=
    ⟨_, rfl⟩
  obtain ⟨hp, hpd⟩ : ∃ hp, hp = (s.mm.getHPRec tid).2 := ⟨_, rfl⟩
  rw [← hs0d, ← hpd] at hr0
  rw [← hs0d] at hs0
  have hc0 := hi.core.pq_of_slots hs0 hr0.wf
  obtain ⟨hn, hn1, hn3, hn5, hn6⟩ := hc0.pq_head
  obtain ⟨t1, t2, t3, t4, t5⟩ := hc0.pq_tail
  have hrd := pq_readNext_step tid g s0 s0.head 0 s0.tail t4
    ⟨hn, hn1, by rw [hn3]; exact pq_MARKED_zero, hn6 0 (by decide)⟩ t3 (MARKED_aligned _ t2)
  obtain ⟨hr1, hs1⟩ := pq_retire_p s0 tid hp s0.head hr0
  obtain ⟨hr2, hs2⟩ := pq_retire_p _ tid hp s0.tail hr1
  have hs := (hs0.pq_trans hs1).pq_trans hs2
  refine ⟨_, ?_, hi.core.pq_of_slots hs hr2.wf, ?_, ?_, ?_, ?_, ?_⟩
  · subst hs0d
    subst hpd
    unfold deleteMin
    simp only at hrd ⊢
    rw [show g + 3 = (g + 2) + 1 by omega, deleteMinFind, hrd]
    simp only [if_true]
  · show s0.values.WF
    rw [hs0.values]; exact hi.vwf
  · intro e he; cases he
  · intro e he; cases he
  · intro e he; cases he
  · exact List.nodup_nil

theorem pq_deleteMin_cons (tid g : Nat) (r : Int) (s : LockFreePriorityQueue) (e : Entry)
    (rest : List Entry) (hi : Inv s (e :: rest)) :
    ∃ s', deleteMin (g + 5) s tid r = some (s', e.key, true) ∧ Inv s' rest := by
  obtain ⟨hr0, hs0⟩ := pq_start tid s _ hi.core
  obtain ⟨s0, hs0d⟩ : ∃ s0 : LockFreePriorityQueue,
    s0 = { s with mm := (s.mm.getHPRec tid).1.employ (s.mm.getHPRec tid).2 0 s.head } :=
    ⟨_, rfl⟩
  obtain ⟨hp, hpd⟩ : ∃ hp, hp = (s.mm.getHPRec tid).2 := ⟨_, rfl⟩
  rw [← hs0d, ← hpd] at hr0
  rw [← hs0d] at hs0
  have hc0 := hi.core.pq_of_slots hs0 hr0.wf
  obtain ⟨hn, hn1, hn3, hn5, hn6⟩ := hc0.pq_head
  obtain ⟨t1, t2, t3, t4, t5⟩ := hc0.pq_tail
  obtain ⟨a1, a2, a3, a4, a5, n1, a6, a7, a8, a9, a10⟩ := hc0.pq_entry e (by simp)
  obtain ⟨hh1, hh2⟩ := hi.height e (by simp)
  have hnx0 : nextAt s0.tail 0 (e :: rest) = e.addr := by
    simp only [nextAt]
    rw [if_pos (by omega)]
  have hrd := pq_readNext_step tid (g + 2) s0 s0.head 0 e.addr t4
    ⟨hn, hn1, by rw [hn3]; exact pq_MARKED_zero, by rw [hn6 0 (by decide), hnx0]⟩ a5
    (MARKED_aligned _ a4)
  have hval : s0.values.cells n1.value = some e.key := by
    rw [hs0.values, a8]; exact hi.value e (by simp)
  have hlev : n1.level = e.height := by
    obtain ⟨m, m1, m2⟩ := hi.level e (by simp)
    rw [← hs0.heap, a6] at m1
    cases m1
    exact m2
  -- the node is marked
  obtain ⟨v1, hv1⟩ : ∃ v1 : PQNode, v1 = { n1 with value := MARK n1.value, prev := s0.head } :=
    ⟨_, rfl⟩
  have e1 : s0.update e.addr (fun m => { m with value := MARK n1.value, prev := s0.head }) =
      some (s0.putNode e.addr v1) := by
    rw [hv1]
    exact pq_update_eq s0 e.addr _ n1 a6
  have hcv1 : (s0.putNode e.addr v1).mm.heap.cells e.addr = some v1 := by
    rw [pq_putNode_cells, if_pos rfl]
  have hv1l : v1.level.toNat = e.height := by
    rw [hv1]
    show n1.level.toNat = _
    rw [hlev]; simp
  have hle := hc0.linked.2
  obtain ⟨m, m1, -, -, -, -, m6⟩ := hle.1
  rw [a6] at m1
  cases m1
  obtain ⟨n', k1, k2, k3, k4, k5, k6, -⟩ := pq_markLevels_spec e.addr
    (fun j => nextAt s0.tail j rest) (fun j => (hc0.pq_nextAt j [e] rest rfl).1) e.height 0
    (s0.putNode e.addr v1) v1 hcv1 (by
      rw [hv1]
      show 0 + e.height ≤ n1.next.length
      rw [a10]; omega) (by
      intro j _ hj
      rw [hv1]
      exact m6 j (by omega))
  rw [pq_putNode_putNode] at k1
  have hu := pq_unlinking_start hc0 n' (by rw [k3, hv1]; exact a7) (by rw [k2, hv1]; exact hlev)
    (by rw [k5, hv1]; exact a10) (fun j hj => k6 j (Nat.zero_le _) (by omega))
  have hr2 : Ready (s0.putNode e.addr n') tid hp := hr0.pq_ready_put _ _ (by rw [a6]; simp)
  obtain ⟨hr3, hs3⟩ := pq_employ _ tid hp 0 (s0.putNode e.addr n').head hr2
  have hu3 := hu.pq_slots hs3 hr3.wf
  obtain ⟨s4, e4, hu4, hr4, l4⟩ := pq_unlinkLevels_spec tid hp g e rest
    (s0.putNode e.addr n').head e.height _ (by omega) hr3 hu3 rfl
  obtain ⟨hc4, hl4, hna4⟩ := pq_unlinking_done hu4
  obtain ⟨q1, q2, q3, q4⟩ := SMR.retire_p_spec s4.mm hr4.wf hp s0.head
  have hg5 : (s4.mm.retire_p hp s0.head).getHPRec tid = (s4.mm.retire_p hp s0.head, hp) :=
    SMR.getHPRec_of_tl _ tid hp (by rw [q3]; exact hr4.tl) hr4.valid.1
  have hl5 : (s4.mm.retire_p hp s0.head).live e.addr := by
    unfold SMR.live at hl4 ⊢
    rw [SMR.retire_p_heap, q2]; exact hl4
  obtain ⟨mm6, del, e6, hw6, hret⟩ := SMR.delNode_spec _ q1 tid hp e.addr
    (by rw [q3]; exact hr4.tl) ⟨hr4.valid.1, by rw [q4]; exact hr4.valid.2⟩ hl5
  have hcF := hc4.pq_retired _ mm6 del e.addr (SMR.retire_p_heap _ _ _) q2 hw6 hret hna4 s4.values
  have l04 : Linking (s0.putNode e.addr n') s4 := (Linking.pq_link_slots hs3).pq_then l4
  have hv4 : s4.values = s.values := l04.values.trans hs0.values
  refine ⟨{ s4 with mm := mm6 }, ?_, hcF, ?_, ?_, ?_, ?_, ?_⟩
  · unfold deleteMin
    simp only
    rw [← hs0d, ← hpd, ← hs0.head, show g + 5 = (g + 4) + 1 by omega, deleteMinFind,
      show g + 4 = (g + 2) + 2 by omega, hrd]
    simp only [Heap.read, a6, hval, a1, if_false]
    have hm : MARKED n1.value = false := by rw [a8]; exact a9
    simp only [hm, if_true, e1]
    have hcond : ¬ (e.addr = s0.tail ∨ e.addr = s0.head) := by
      rintro (h | h)
      · exact a1 h
      · exact a2 h
    have hc2 : ¬ (e.addr = (s0.putNode e.addr v1).tail ∨ e.addr = (s0.putNode e.addr v1).head) :=
      hcond
    rw [if_neg hc2]
    simp only [hcv1, hv1l, k1]
    have e4' : unlinkLevels tid hp e.addr (g + 2 + 2 + 1) e.height _
        (s0.putNode e.addr n').head = some (s4, (s0.putNode e.addr n').head) := e4
    rw [e4']
    simp only
    have hh : (s0.putNode e.addr n').head = s0.head := rfl
    rw [hh, hg5]
    simp only [e6]
  · show s4.values.WF
    rw [hv4]; exact hi.vwf
  · intro y hy
    have hya : y.addr ≠ e.addr := by
      intro h
      apply hna4
      rw [← h]
      exact List.mem_cons_of_mem _ (List.mem_cons_of_mem _ (List.mem_cons_of_mem _
        (List.mem_map_of_mem Entry.addr hy)))
    obtain ⟨n, h1, h2⟩ := hi.level y (List.mem_cons_of_mem _ hy)
    have h0 : (s0.putNode e.addr n').mm.heap.cells y.addr = some n := by
      rw [pq_putNode_cells, if_neg hya, hs0.heap]; exact h1
    obtain ⟨n4, h4, h4l⟩ := pq_level_of_map _ _ n (l04.level y.addr) h0
    have hl6 := (hcF.live y.addr (List.mem_cons_of_mem _ (List.mem_cons_of_mem _
      (List.mem_cons_of_mem _ (List.mem_map_of_mem Entry.addr hy))))).1
    have hcl := hret.cells y.addr
    by_cases hd : y.addr ∈ del
    · rw [if_pos hd] at hcl
      exact absurd hcl hl6
    · rw [if_neg hd, SMR.retire_p_heap, h4] at hcl
      exact ⟨n4, hcl, h4l.trans h2⟩
  · intro y hy
    exact hi.height y (List.mem_cons_of_mem _ hy)
  · intro y hy
    show s4.values.cells y.vptr = _
    rw [hv4]
    exact hi.value y (List.mem_cons_of_mem _ hy)
  · have := hi.vnodup
    simp only [List.map_cons, List.nodup_cons] at this
    exact this.2

end LockFreePriorityQueue

end Amino

namespace Amino

namespace LockFreePriorityQueue

theorem pq_insert_spec (tid g : Nat) (x : Int) (s : LockFreePriorityQueue) (l : List Entry)
    (hi : Inv s l) :
    ∃ s' l', insert (l.length + 9 + g) s tid x = some (s', true) ∧ Inv s' l' ∧
      (∀ k, k ∈ l'.map Entry.key ↔ k = x ∨ k ∈ l.map Entry.key) ∧
      l'.length ≤ l.length + 1 := by
  obtain ⟨pre, post, hl, hpre, hcase⟩ := pq_split x l hi.core.sorted
  subst hl
  have hfuel : (pre ++ post).length + 9 + g = pre.length + 9 + (post.length + g) := by
    rw [List.length_append]; omega
  rw [hfuel]
  rcases hcase with hpost | ⟨e, post', hp, hek, hpost⟩
  · obtain ⟨s', A, h1, h2, h3⟩ := pq_insert_new tid (post.length + g) x s pre post hi hpre hpost
    refine ⟨s', pre ++ A :: post, h1, h3, ?_, by
      simp only [List.length_append, List.length_cons]; omega⟩
    intro k
    simp only [List.map_append, List.map_cons, List.mem_append, List.mem_cons, h2]
    tauto
  · subst hp
    obtain ⟨s', vp2, h1, h3⟩ := pq_insert_replace tid ((e :: post').length + g) x s pre post' e
      hi hpre hek hpost
    refine ⟨s', pre ++ { e with vptr := vp2 } :: post', h1, h3, ?_, by
      simp only [List.length_append, List.length_cons]; omega⟩
    intro k
    simp only [List.map_append, List.map_cons, List.mem_append, List.mem_cons, hek]
    tauto

theorem pq_insertAll_spec (tid : Nat) : ∀ (xs : List Int) (s : LockFreePriorityQueue)
    (l : List Entry) (F : Nat), Inv s l → l.length + xs.length + 9 ≤ F →
    ∃ s' l', insertAll F tid xs s = some s' ∧ Inv s' l' ∧
      (∀ k, k ∈ l'.map Entry.key ↔ k ∈ xs ∨ k ∈ l.map Entry.key) := by
  intro xs
  induction xs with
  | nil =>
    intro s l F hi _
    exact ⟨s, l, rfl, hi, fun k => by simp⟩
  | cons x xs ih =>
    intro s l F hi hF
    simp only [List.length_cons] at hF
    obtain ⟨s1, l1, h1, hi1, hk1, hlen1⟩ := pq_insert_spec tid (F - l.length - 9) x s l hi
    rw [show l.length + 9 + (F - l.length - 9) = F by omega] at h1
    obtain ⟨s2, l2, h2, hi2, hk2⟩ := ih s1 l1 F hi1 (by omega)
    refine ⟨s2, l2, ?_, hi2, ?_⟩
    · rw [insertAll, h1]
      exact h2
    · intro k
      rw [hk2 k, hk1 k]
      simp only [List.mem_cons]
      tauto

theorem pq_deleteMinN_spec (tid g : Nat) : ∀ (l : List Entry) (s : LockFreePriorityQueue),
    Inv s l →
    ∃ s', deleteMinN (g + 5) tid (l.length + 1) s =
        some (s', l.map (fun e => (e.key, true)) ++ [(0, false)]) ∧ Inv s' [] := by
  intro l
  induction l with
  | nil =>
    intro s hi
    obtain ⟨s', h1, h2⟩ := pq_deleteMin_empty tid (g + 2) 0 s hi
    refine ⟨s', ?_, h2⟩
    simp only [List.length_nil, deleteMinN, h1, List.map_nil, List.nil_append]
  | cons e rest ih =>
    intro s hi
    obtain ⟨s1, h1, hi1⟩ := pq_deleteMin_cons tid g 0 s e rest hi
    obtain ⟨s2, h2, hi2⟩ := ih s1 hi1
    refine ⟨s2, ?_, hi2⟩
    rw [List.length_cons, deleteMinN, h1]
    simp only [h2, List.map_cons, List.cons_append]

theorem pq_init_inv (mm : SMR PQNode) (values : Heap Int) (seed : Nat) (hw : mm.WF)
    (hv : values.WF) : Inv (init mm values seed) [] := by
  obtain ⟨w1, f1⟩ := SMR.new_spec mm hw
  obtain ⟨w2, f2⟩ := SMR.new_spec _ w1
  have hne : (mm.heap.alloc (default : PQNode)).1 ≠
      ((mm.heap.alloc (default : PQNode)).2.alloc (default : PQNode)).1 := by
    intro h
    apply f2.dead
    rw [← h]
    exact f1.live
  have c2h := f2.cells _ hne
  rw [f1.cell] at c2h
  obtain ⟨w3, l3⟩ := SMR.put_spec _ w2 (mm.heap.alloc (default : PQNode)).1
    { (default : PQNode) with validLevel := MAXLEVEL - 1,
                              next := List.replicate MAXLEVEL
                                ((mm.heap.alloc (default : PQNode)).2.alloc (default : PQNode)).1 }
    (fun h => Option.some_ne_none _ (c2h.symm.trans h))
  obtain ⟨w4, l4⟩ := SMR.put_spec _ w3
    ((mm.heap.alloc (default : PQNode)).2.alloc (default : PQNode)).1
    { (default : PQNode) with validLevel := MAXLEVEL - 1 }
    (by
      show (Heap.put _ _ _).cells _ ≠ none
      rw [Heap.put_cells, if_neg (Ne.symm hne)]
      exact f2.live.1)
  obtain ⟨w5, f5⟩ := SMR.new_spec _ w4
  have lh := (l4 _).mpr ((l3 _).mpr ((f2.lives _ hne).mpr f1.live))
  have lt := (l4 _).mpr ((l3 _).mpr f2.live)
  have hih : (init mm values seed).head ≠ (init mm values seed).INVALID := by
    intro h
    have lh' : SMR.live _ (init mm values seed).head := lh
    rw [h] at lh'
    exact f5.dead lh'
  have hit : (init mm values seed).tail ≠ (init mm values seed).INVALID := by
    intro h
    have lt' : SMR.live _ (init mm values seed).tail := lt
    rw [h] at lt'
    exact f5.dead lt'
  have hht : (init mm values seed).head ≠ (init mm values seed).tail := hne
  obtain ⟨hc, hcd⟩ : ∃ hc : PQNode, hc = { (default : PQNode) with validLevel := MAXLEVEL - 1, next := List.replicate MAXLEVEL (init mm values seed).tail } := ⟨_, rfl⟩
  refine ⟨⟨w5, ⟨⟨hc, ?_, by rw [hcd]; rfl, by rw [hcd]; rfl, pq_MARKED_zero, ?_, ?_⟩, trivial⟩,
    List.Pairwise.nil, ?_, ?_⟩, hv,
    (fun e he => by cases he), (fun e he => by cases he), (fun e he => by cases he),
    List.nodup_nil⟩
  · show (init mm values seed).mm.heap.cells (init mm values seed).head = _
    refine (f5.cells (init mm values seed).head hih).trans ?_
    refine (Heap.put_cells _ _ _ _).trans ?_
    refine (if_neg hht).trans ?_
    refine (Heap.put_cells _ _ _ _).trans ?_
    refine (if_pos rfl).trans ?_
    rw [hcd]
    rfl
  · rw [hcd]; simp
  · intro i hi
    have hi' : i < MAXLEVEL := hi
    rw [hcd]
    simp only [List.getElem?_replicate, hi', if_true]
    rfl
  · simp only [List.map_nil, List.nodup_cons, List.mem_cons, List.not_mem_nil, or_false,
      not_false_eq_true, List.nodup_nil, and_true, not_or]
    exact ⟨⟨hht, hih⟩, hit⟩
  · intro a ha
    simp only [List.map_nil, List.mem_cons, List.not_mem_nil, or_false] at ha
    rcases ha with rfl | rfl | rfl
    · exact (f5.lives _ hih).mpr lh
    · exact (f5.lives _ hit).mpr lt
    · exact f5.live

theorem pq_run_spec (mm : SMR PQNode) (values : Heap Int) (seed tid : Nat) (xs : List Int)
    (F : Nat) (hw : mm.WF) (hv : values.WF) (hF : xs.length + 9 ≤ F) :
    ∃ ks : List Int, ks.Pairwise (· < ·) ∧ (∀ k, k ∈ ks ↔ k ∈ xs) ∧
      insertThenDrain F tid xs (ks.length + 1) (init mm values seed) =
        some (ks.map (fun k => (k, true)) ++ [(0, false)]) := by
  have hi := pq_init_inv mm values seed hw hv
  obtain ⟨s1, l1, h1, hi1, hk1⟩ := pq_insertAll_spec tid xs _ [] F hi (by simpa using hF)
  obtain ⟨s2, h2, -⟩ := pq_deleteMinN_spec tid (F - 5) l1 s1 hi1
  rw [show F - 5 + 5 = F by omega] at h2
  refine ⟨l1.map Entry.key, hi1.core.sorted, fun k => by simpa using hk1 k, ?_⟩
  unfold insertThenDrain
  rw [h1]
  simp only [List.length_map, h2, Option.map_some', List.map_map]
  rfl

end LockFreePriorityQueue

end Amino

namespace Amino

namespace LockFreePriorityQueue

theorem pq_keys_of_one (ks : List Int) (hs : ks.Pairwise (· < ·))
    (hm : ∀ k, k ∈ ks ↔ k ∈ [(1 : Int), 1]) : ks = [1] := by
  have h1 : ∀ k ∈ ks, k = 1 := fun k hk => by simpa using (hm k).mp hk
  match ks, hs, hm, h1 with
  | [], _, hm, _ => exact absurd ((hm 1).mpr (by simp)) (by simp)
  | [a], _, _, h1 => rw [h1 a (by simp)]
  | a :: b :: t, hs, _, h1 =>
    have ha := h1 a (by simp)
    have hb := h1 b (by simp)
    have hlt : a < b := (List.pairwise_cons.mp hs).1 b (by simp)
    omega

end LockFreePriorityQueue

open LockFreePriorityQueue in
/-- C24, the sentence as written fails: on a new queue (memory manager
`SMR.init MAXLEVEL 0`, empty store of values, seed 256) thread 0 inserts the
value 1 twice; the second `insert` finds the node with key 1 and replaces its
value, so the first `deleteMin` yields 1 and the second returns false.  The
values yielded, `[1]`, are not the multiset of the inserted values `[1, 1]`,
and their sums differ. -/
theorem C24_drain_yields_inserted_multiset_counterexample :
    insertThenDrain 11 0 [1, 1] 2 (init (SMR.init MAXLEVEL 0) Heap.empty 256) =
      some [(1, true), (0, false)] ∧
    ¬ List.Perm [(1 : Int)] [1, 1] ∧ ([(1 : Int)].sum ≠ [(1 : Int), 1].sum) := by
  obtain ⟨ks, h1, h2, h3⟩ := pq_run_spec (SMR.init MAXLEVEL 0) Heap.empty 256 0 [1, 1] 11
    (SMR.init_wf _ _) Heap.empty_wf (by decide)
  have hk := pq_keys_of_one ks h1 h2
  subst hk
  exact ⟨h3, by decide, by decide⟩

open LockFreePriorityQueue in
/-- C24, amended: for every finite list `xs` of values inserted by one thread
into a new `LockFreePriorityQueue` (well-formed memory manager and store of
values, `F >= |xs| + 9` passes allowed to every loop), calling `deleteMin`
until it returns false yields exactly the distinct values of `xs`, each once,
in strictly increasing order: the list `ks` of the results is strictly
increasing, has the same members as `xs`, the first `|ks|` calls return true
with the elements of `ks` in order, so each returns the minimum value then in
the queue, and the next call returns false and leaves `result` alone.  A
value inserted while it is in the queue replaces the stored value and adds no
element; when the values of `xs` are pairwise distinct, `ks` is a permutation
of `xs`, so the sums are equal. -/
theorem C24_drain_yields_distinct_values_ascending (mm : SMR PQNode) (values : Heap Int)
    (seed tid : Nat) (xs : List Int) (F : Nat) (hw : mm.WF) (hv : values.WF)
    (hF : xs.length + 9 ≤ F) :
    ∃ ks : List Int, ks.Pairwise (· < ·) ∧ (∀ k, k ∈ ks ↔ k ∈ xs) ∧
      insertThenDrain F tid xs (ks.length + 1) (init mm values seed) =
        some (ks.map (fun k => (k, true)) ++ [(0, false)]) ∧
      (xs.Nodup → List.Perm ks xs ∧ ks.sum = xs.sum) := by
  obtain ⟨ks, h1, h2, h3⟩ := pq_run_spec mm values seed tid xs F hw hv hF
  refine ⟨ks, h1, h2, h3, fun hn => ?_⟩
  have hkn : ks.Nodup := h1.imp (fun h => ne_of_lt h)
  have hp : List.Perm ks xs := (List.perm_ext_iff_of_nodup hkn hn).mpr h2
  exact ⟨hp, hp.sum_eq⟩

open LockFreePriorityQueue in
/-- C24, amended, on an instance: the values 3, 1, 2 inserted by thread 0 into
the queue built on `SMR.init MAXLEVEL 0`, with 12 passes allowed. -/
theorem C24_drain_yields_distinct_values_ascending_witness :
    (SMR.init MAXLEVEL 0 : SMR PQNode).WF ∧ (Heap.empty : Heap Int).WF ∧
    [(3 : Int), 1, 2].length + 9 ≤ 12 ∧
    ∃ ks : List Int, ks.Pairwise (· < ·) ∧ (∀ k, k ∈ ks ↔ k ∈ [(3 : Int), 1, 2]) ∧
      insertThenDrain 12 0 [3, 1, 2] (ks.length + 1)
          (init (SMR.init MAXLEVEL 0) Heap.empty 256) =
        some (ks.map (fun k => (k, true)) ++ [(0, false)]) ∧
      ([(3 : Int), 1, 2].Nodup → List.Perm ks [3, 1, 2] ∧ ks.sum = [(3 : Int), 1, 2].sum) :=
  ⟨SMR.init_wf _ _, Heap.empty_wf, by decide,
    C24_drain_yields_distinct_values_ascending (SMR.init MAXLEVEL 0) Heap.empty 256 0 [3, 1, 2] 12
      (SMR.init_wf _ _) Heap.empty_wf (by decide)⟩

end Amino

namespace Amino

/-! ### The seed of the level generator -/

theorem xor_eq_zero_eq (a b : Nat) (h : a ^^^ b = 0) : a = b := by
  apply Nat.eq_of_testBit_eq
  intro i
  have e : (a ^^^ b).testBit i = false := by rw [h]; exact Nat.zero_testBit i
  rw [Nat.testBit_xor] at e
  cases ha : a.testBit i <;> cases hb : b.testBit i <;> simp [ha, hb] at e ⊢

theorem xor_all_ones (s : Nat) (hs : s < 2 ^ 32) : s ^^^ (2 ^ 32 - 1) = 2 ^ 32 - 1 - s := by
  apply Nat.eq_of_testBit_eq
  intro i
  have e : 2 ^ 32 - 1 - s = 2 ^ 32 - (s + 1) := by omega
  rw [e, Nat.testBit_two_pow_sub_succ hs, Nat.testBit_xor, Nat.testBit_two_pow_sub_one]
  by_cases hi : i < 32
  · simp [hi]
  · have : s.testBit i = false :=
      Nat.testBit_lt_two_pow (lt_of_lt_of_le hs (Nat.pow_le_pow_right (by decide) (by omega)))
    simp [hi, this]

theorem xorshift_step3 (x : Nat) (hx : x < 2 ^ 32) (h : x ^^^ intShl x 5 = 0) : x = 0 := by
  have e := xor_eq_zero_eq _ _ h
  unfold intShl INT_WIDTH at e
  omega

theorem xorshift_step2 (x : Nat) (hx : x < 2 ^ 32) (h : x ^^^ intShr x 17 = 0) :
    x = 0 ∨ x = 2 ^ 32 - 1 := by
  have e := xor_eq_zero_eq _ _ h
  unfold intShr INT_WIDTH at e
  split at e
  · left; omega
  · right; omega

theorem xorshift_step1_zero (s : Nat) (hs : s < 2 ^ 32) (h : s ^^^ intShl s 13 = 0) : s = 0 := by
  have e := xor_eq_zero_eq _ _ h
  unfold intShl INT_WIDTH at e
  omega

theorem xorshift_step1_ones (s : Nat) (hs : s < 2 ^ 32)
    (h : s ^^^ intShl s 13 = 2 ^ 32 - 1) : s = 4227866623 := by
  have e : intShl s 13 = s ^^^ (2 ^ 32 - 1) := by
    rw [← h, ← Nat.xor_assoc, Nat.xor_self, Nat.zero_xor]
  rw [xor_all_ones s hs] at e
  unfold intShl INT_WIDTH at e
  omega

theorem xor_lt_word (a b : Nat) (ha : a < 2 ^ 32) (hb : b < 2 ^ 32) : a ^^^ b < 2 ^ 32 :=
  Nat.xor_lt_two_pow ha hb

theorem xorshift_zero_seed (seed : Nat) (hs : seed < 2 ^ 32) (h : xorshift seed = 0) :
    seed = 0 ∨ seed = 4227866623 := by
  unfold xorshift at h
  have h1 : seed ^^^ intShl seed 13 < 2 ^ 32 := xor_lt_word _ _ hs (intShl_lt _ _)
  have h2 : (seed ^^^ intShl seed 13) ^^^ intShr (seed ^^^ intShl seed 13) 17 < 2 ^ 32 :=
    xor_lt_word _ _ h1 (intShr_lt _ _ h1 (by decide))
  have e3 := xorshift_step3 _ h2 h
  rcases xorshift_step2 _ h1 e3 with e2 | e2
  · exact Or.inl (xorshift_step1_zero _ hs e2)
  · exact Or.inr (xorshift_step1_ones _ hs e2)

theorem xorshift_step2_lt (x : Nat) (hx : x < 2 ^ 32) : x ^^^ intShr x 17 < 2 ^ 31 := by
  unfold intShr INT_WIDTH
  split
  · rename_i h
    exact Nat.xor_lt_two_pow h (by omega)
  · rename_i h
    have hy : x / 2 ^ 17 + (2 ^ 32 - 2 ^ (32 - 17)) < 2 ^ 32 := by omega
    have hy1 : 2 ^ 31 ≤ x / 2 ^ 17 + (2 ^ 32 - 2 ^ (32 - 17)) := by omega
    have hb : ∀ a : Nat, 2 ^ 31 ≤ a → a < 2 ^ 32 → a.testBit 31 = true := fun a h1 h2 => by
      rw [Nat.testBit_to_div_mod]
      have : a / 2 ^ 31 = 1 := Nat.div_eq_of_lt_le (by omega) (by omega)
      rw [this]
      rfl
    apply Nat.lt_pow_two_of_testBit
    intro j hj
    rw [Nat.testBit_xor]
    by_cases hj31 : j = 31
    · subst hj31
      rw [hb x (by omega) hx, hb _ hy1 hy]
      rfl
    · have hp : 2 ^ 32 ≤ 2 ^ j := Nat.pow_le_pow_right (by decide) (by omega)
      rw [Nat.testBit_lt_two_pow (lt_of_lt_of_le hx hp),
        Nat.testBit_lt_two_pow (lt_of_lt_of_le hy hp)]
      rfl

theorem intShl_testBit (x k j : Nat) :
    (intShl x k).testBit j = (decide (j < 32) && (decide (k ≤ j) && x.testBit (j - k))) := by
  unfold intShl INT_WIDTH
  rw [← Nat.shiftLeft_eq, Nat.testBit_mod_two_pow, Nat.testBit_shiftLeft]

theorem xorshift_step3_ne (x : Nat) (hx : x < 2 ^ 31) : x ^^^ intShl x 5 ≠ 4227866623 := by
  intro h
  have key : ∀ j, (x.testBit j ^^ (decide (j < 32) && (decide (5 ≤ j) && x.testBit (j - 5))))
      = Nat.testBit 4227866623 j := fun j => by
    rw [← intShl_testBit, ← Nat.testBit_xor, h]
  have h31 : x.testBit 31 = false := Nat.testBit_lt_two_pow hx
  have k1 := key 1
  have k6 := key 6
  have k11 := key 11
  have k16 := key 16
  have k21 := key 21
  have k26 := key 26
  have k31 := key 31
  have c1 : Nat.testBit 4227866623 1 = true := by decide
  have c6 : Nat.testBit 4227866623 6 = true := by decide
  have c11 : Nat.testBit 4227866623 11 = true := by decide
  have c16 : Nat.testBit 4227866623 16 = false := by decide
  have c21 : Nat.testBit 4227866623 21 = false := by decide
  have c26 : Nat.testBit 4227866623 26 = true := by decide
  have c31 : Nat.testBit 4227866623 31 = true := by decide
  rw [c1] at k1
  rw [c6] at k6
  rw [c11] at k11
  rw [c16] at k16
  rw [c21] at k21
  rw [c26] at k26
  rw [c31, h31] at k31
  simp only [Nat.reduceLT, Nat.reduceLeDiff, Nat.reduceSub, decide_True, decide_False,
    Bool.true_and, Bool.false_and, Bool.xor_false, Bool.false_xor] at k1 k6 k11 k16 k21 k26 k31
  rw [k1] at k6
  cases h6 : x.testBit 6 <;> rw [h6] at k6 k11 <;> try cases k6
  cases h11 : x.testBit 11 <;> rw [h11] at k11 k16 <;> try cases k11
  cases h16 : x.testBit 16 <;> rw [h16] at k16 k21 <;> try cases k16
  cases h21 : x.testBit 21 <;> rw [h21] at k21 k26 <;> try cases k21
  rw [k31] at k26
  cases k26

/-- No seed is followed by the seed `0xFC001FFF`. -/
theorem xorshift_ne (seed : Nat) (hs : seed < 2 ^ 32) : xorshift seed ≠ 4227866623 := by
  unfold xorshift
  have h1 : seed ^^^ intShl seed 13 < 2 ^ 32 := xor_lt_word _ _ hs (intShl_lt _ _)
  exact xorshift_step3_ne _ (xorshift_step2_lt _ h1)

theorem xorshift_iterate (seed : Nat) (hs : seed < 2 ^ 32) (h0 : seed ≠ 0)
    (h1 : seed ≠ 4227866623) : ∀ n : Nat,
    xorshift^[n] seed ≠ 0 ∧ xorshift^[n] seed ≠ 4227866623 ∧ xorshift^[n] seed < 2 ^ 32 := by
  intro n
  induction n with
  | zero => exact ⟨h0, h1, hs⟩
  | succ n ih =>
    rw [Function.iterate_succ_apply']
    refine ⟨fun h => ?_, xorshift_ne _ ih.2.2, xorshift_lt _ ih.2.2⟩
    rcases xorshift_zero_seed _ ih.2.2 h with e | e
    · exact ih.1 e
    · exact ih.2.1 e

/-- C38, counterexample: the nonzero seed `0xFC001FFF` (the `int` -67100673) is
followed by the seed 0: `x ^ (x << 13)` is `0xFFFFFFFF`, and `>> 17` on a
negative `int` copies the sign bit, so `x ^ (x >> 17)` is 0. -/
theorem C38_xorshift_nonzero_counterexample :
    (4227866623 : Nat) ≠ 0 ∧ 4227866623 < 2 ^ 32 ∧ xorshift 4227866623 = 0 ∧
      LockFreeDictionary.randomLevel 2 4227866623 = some (0, 1) ∧
      LockFreePriorityQueue.randomLevel 2 4227866623 = some (0, 1) ∧
      LockFreeDictionary.randomLevel 2 0 = some (0, 1) := by
  decide

/-- C38: for every nonzero 32-bit `randomSeed` other than `0xFC001FFF`, the
seed that `randomLevel` stores (in `LockFreeDictionary` and in
`LockFreePriorityQueue`) is again a nonzero 32-bit value and is not
`0xFC001FFF` either, so that no number of calls leads to the seed 0.  The
seeds `rand() | 0x0100` of the constructors are not negative as an `int` and
so are among these. -/
theorem C38_xorshift_nonzero_except_one (seed : Nat) (hs : seed < 2 ^ 32) (h0 : seed ≠ 0)
    (h1 : seed ≠ 4227866623) :
    xorshift seed ≠ 0 ∧ xorshift seed ≠ 4227866623 ∧ xorshift seed < 2 ^ 32 ∧
      (∃ level, LockFreeDictionary.randomLevel MAXLEVEL seed = some (xorshift seed, level)) ∧
      (∃ level, LockFreePriorityQueue.randomLevel MAXLEVEL seed = some (xorshift seed, level)) ∧
      ∀ n : Nat, xorshift^[n] seed ≠ 0 := by
  have hne : xorshift seed ≠ 0 := fun h => by
    rcases xorshift_zero_seed seed hs h with e | e
    · exact h0 e
    · exact h1 e
  obtain ⟨L, hL, _, _⟩ := randomLevelLoop_spec MAXLEVEL (xorshift seed) 1 (by decide) (by decide)
  refine ⟨hne, xorshift_ne seed hs, xorshift_lt seed hs, ⟨L, ?_⟩, ⟨L, ?_⟩,
    fun n => (xorshift_iterate seed hs h0 h1 n).1⟩
  · unfold LockFreeDictionary.randomLevel
    rw [hL]
  · unfold LockFreePriorityQueue.randomLevel
    rw [hL]

theorem C38_xorshift_nonzero_except_one_witness :
    xorshift 256 ≠ 0 ∧ xorshift 256 ≠ 4227866623 ∧ xorshift 256 < 2 ^ 32 ∧
      (∃ level, LockFreeDictionary.randomLevel MAXLEVEL 256 = some (xorshift 256, level)) ∧
      (∃ level, LockFreePriorityQueue.randomLevel MAXLEVEL 256 = some (xorshift 256, level)) ∧
      ∀ n : Nat, xorshift^[n] 256 ≠ 0 :=
  C38_xorshift_nonzero_except_one 256 (by decide) (by decide) (by decide)

end Amino

namespace Amino

/-! ### The tag bit of the pointers of the ordered list -/

theorem MARK_even (p : Nat) (h : 2 ∣ p) : MARK p = p + 1 := by
  unfold MARK
  obtain ⟨k, rfl⟩ := h
  have : 2 * k = 2 ^ 1 * k := by omega
  rw [this]
  exact (Nat.mul_add_lt_is_or (by decide) k).symm

theorem one_testBit_succ (i : Nat) : (1 : Nat).testBit (i + 1) = false := by
  rw [Nat.testBit_succ]
  exact Nat.zero_testBit i

/-- C39: for an address `p` that is a multiple of 4, `MARKED(p)` is false,
`MARKED(MARK(p))` is true, `POINTER(MARK(p))` and `POINTER(p)` are `p`,
`MARK(MARK(p))` is `MARK(p)`, and `MARK(p)` differs from `p` in the lowest bit
only, which it sets. -/
theorem C39_pointer_mark_tagging (p : Nat) (h : 4 ∣ p) :
    MARKED p = false ∧ MARKED (MARK p) = true ∧ POINTER (MARK p) = p ∧ POINTER p = p ∧
      MARK (MARK p) = MARK p ∧ (MARK p).testBit 0 = true ∧
      ∀ i, 0 < i → (MARK p).testBit i = p.testBit i := by
  have he : 2 ∣ p := Dvd.dvd.trans (by decide) h
  have hm := MARK_even p he
  obtain ⟨k, rfl⟩ := h
  refine ⟨?_, ?_, ?_, ?_, ?_, ?_, ?_⟩
  · unfold MARKED
    simp [Nat.and_one_is_mod]
    omega
  · rw [hm]
    unfold MARKED
    simp [Nat.and_one_is_mod]
    omega
  · rw [hm]
    unfold POINTER
    simp [Nat.shiftLeft_eq, Nat.shiftRight_eq_div_pow]
    omega
  · unfold POINTER
    simp [Nat.shiftLeft_eq, Nat.shiftRight_eq_div_pow]
    omega
  · unfold MARK
    rw [Nat.or_assoc, Nat.or_self]
  · unfold MARK
    simp [Nat.testBit_or]
  · intro i hi
    obtain ⟨j, rfl⟩ : ∃ j, i = j + 1 := ⟨i - 1, by omega⟩
    unfold MARK
    rw [Nat.testBit_or, one_testBit_succ, Bool.or_false]

theorem C39_pointer_mark_tagging_witness :
    MARKED 12 = false ∧ MARKED (MARK 12) = true ∧ POINTER (MARK 12) = 12 ∧ POINTER 12 = 12 ∧
      MARK (MARK 12) = MARK 12 ∧ (MARK 12).testBit 0 = true ∧
      ∀ i, 0 < i → (MARK 12).testBit i = (12 : Nat).testBit i :=
  C39_pointer_mark_tagging 12 (by decide)

end Amino

namespace Amino

/-! ### The indices of the collision arrays -/

theorem tmod_of_neg (a M : Int) (ha : a < 0) (hM : 0 < M) :
    Int.tmod a M = -((-a) % M) := by
  match a, M, ha, hM with
  | .negSucc m, .ofNat n, _, _ => rfl
  | .ofNat m, _, ha, _ => exact absurd ha (by simp)
  | .negSucc m, .negSucc n, _, hM => exact absurd hM (by simp)

theorem tmod_range (a M : Int) (ha : 0 ≤ a) (hM : 0 < M) :
    0 ≤ Int.tmod a M ∧ Int.tmod a M < M :=
  ⟨Int.tmod_nonneg M ha, Int.tmod_lt_of_pos a hM⟩

theorem tmod_nonpos (a M : Int) (ha : a < 0) (hM : 0 < M) :
    Int.tmod a M ≤ 0 ∧ -M < Int.tmod a M := by
  rw [tmod_of_neg a M ha hM]
  have h1 := Int.emod_nonneg (-a) (Int.ne_of_gt hM)
  have h2 := Int.emod_lt_of_pos (-a) hM
  omega

theorem tmod_small (x M : Int) (h1 : -M < x) (h2 : x < M) : Int.tmod x M = x := by
  by_cases hx : 0 ≤ x
  · exact Int.tmod_eq_of_lt hx h2
  · have hM : 0 < M := by omega
    rw [tmod_of_neg x M (by omega) hM, Int.emod_eq_of_lt (by omega) (by omega)]
    omega

namespace EBStack

theorem load_neg (arr : List Nat) (index : Int) (h : index < 0) : load arr index = none := by
  unfold load
  rw [if_pos h]

theorem load_replicate (M : Nat) (index : Int) (h0 : 0 ≤ index) (h1 : index < M) :
    load (List.replicate M 0) index = some 0 := by
  unfold load
  rw [if_neg (by omega)]
  have : index.toNat < M := by omega
  simp [List.getElem?_replicate, this]

theorem load_store_self (arr : List Nat) (index : Int) (v w : Nat)
    (h : load arr index = some w) : load (store arr index v) index = some v := by
  unfold load at h ⊢
  unfold store
  split at h
  · exact absurd h (by simp)
  · rename_i hi
    rw [if_neg hi]
    have hl : index.toNat < arr.length := by
      rcases Nat.lt_or_ge index.toNat arr.length with hl | hl
      · exact hl
      · rw [List.getElem?_eq_none hl] at h
        exact absurd h (by simp)
    exact List.getElem?_set_self hl

theorem store_store_back (arr : List Nat) (index : Int) (v w : Nat)
    (h : load arr index = some w) : store (store arr index v) index w = arr := by
  unfold load at h
  unfold store
  split at h
  · exact absurd h (by simp)
  · rw [List.set_set]
    apply List.ext_getElem?
    intro j
    rw [List.getElem?_set]
    split
    · rename_i hj
      subst hj
      split
      · exact h.symm
      · rename_i hl
        rw [List.getElem?_eq_none (by omega)]
    · rfl

theorem store_other (arr : List Nat) (index : Int) (v : Nat) (j : Nat) (hj : j ≠ index.toNat) :
    (store arr index v)[j]? = arr[j]? := by
  unfold store
  exact List.getElem?_set_ne (fun h => hj h.symm)

end EBStack

end Amino

namespace Amino

namespace EBStack

/-! ### The scans of `try_add` and `try_remove` -/

theorem tryRemovePush_skip (pos : Int) (e : EBStack) : ∀ (n : Nat) (i : Int),
    (∀ t : Nat, t < n → load e.coll_push (Int.tmod (pos + (i + t)) e.coll_size) = some 0 ∨
      load e.coll_push (Int.tmod (pos + (i + t)) e.coll_size) = some e.REMOVED) →
    tryRemovePush pos n i e = some none := by
  intro n
  induction n with
  | zero => intro i _; rfl
  | succ n ih =>
    intro i h
    have h0 := h 0 (Nat.succ_pos n)
    simp only [Nat.cast_zero, add_zero] at h0
    have hn := ih (i + 1) (fun t ht => by
      have := h (t + 1) (by omega)
      rw [show i + ((t + 1 : Nat) : Int) = i + 1 + t by push_cast; omega] at this
      exact this)
    unfold tryRemovePush
    simp only []
    rcases h0 with h0 | h0
    · rw [h0]
      simp only [ne_eq, not_true_eq_false, false_and, if_false]
      exact hn
    · rw [h0]
      simp only [ne_eq, not_true_eq_false, and_false, if_false]
      exact hn

theorem tryRemovePush_hit (pos : Int) (e : EBStack) (x : Nat) (hx0 : x ≠ 0)
    (hxr : x ≠ e.REMOVED) : ∀ (k n : Nat) (i : Int), k < n →
    (∀ t : Nat, t < k → load e.coll_push (Int.tmod (pos + (i + t)) e.coll_size) = some 0 ∨
      load e.coll_push (Int.tmod (pos + (i + t)) e.coll_size) = some e.REMOVED) →
    load e.coll_push (Int.tmod (pos + (i + k)) e.coll_size) = some x →
    tryRemovePush pos n i e = some (some
      ({ e with coll_push := store e.coll_push (Int.tmod (pos + (i + k)) e.coll_size) e.REMOVED },
        x)) := by
  intro k
  induction k with
  | zero =>
    intro n i hn _ hx
    obtain ⟨m, rfl⟩ : ∃ m, n = m + 1 := ⟨n - 1, by omega⟩
    simp only [Nat.cast_zero, add_zero] at hx ⊢
    unfold tryRemovePush
    simp only [hx, ne_eq, hx0, hxr, not_false_eq_true, and_self, if_true]
  | succ k ih =>
    intro n i hn h hx
    obtain ⟨m, rfl⟩ : ∃ m, n = m + 1 := ⟨n - 1, by omega⟩
    have h0 := h 0 (Nat.succ_pos k)
    simp only [Nat.cast_zero, add_zero] at h0
    have e1 : i + ((k + 1 : Nat) : Int) = i + 1 + k := by push_cast; omega
    rw [e1] at hx ⊢
    have hn := ih m (i + 1) (by omega) (fun t ht => by
      have := h (t + 1) (by omega)
      rw [show i + ((t + 1 : Nat) : Int) = i + 1 + t by push_cast; omega] at this
      exact this) hx
    unfold tryRemovePush
    simp only []
    rcases h0 with h0 | h0
    · rw [h0]
      simp only [ne_eq, not_true_eq_false, false_and, if_false]
      exact hn
    · rw [h0]
      simp only [ne_eq, not_true_eq_false, and_false, if_false]
      exact hn

theorem tryAddTomb_skip (node : Nat) (pos : Int) (e : EBStack) : ∀ (n : Nat) (i : Int),
    (∀ t : Nat, t < n → ∃ v, load e.coll_pop (Int.tmod (pos + (i + t)) e.coll_size) = some v ∧
      v ≠ e.TOMB_STONE) →
    tryAddTomb node pos n i e = some none := by
  intro n
  induction n with
  | zero => intro i _; rfl
  | succ n ih =>
    intro i h
    obtain ⟨v, h0, hv⟩ := h 0 (Nat.succ_pos n)
    simp only [Nat.cast_zero, add_zero] at h0
    have hn := ih (i + 1) (fun t ht => by
      have := h (t + 1) (by omega)
      rw [show i + ((t + 1 : Nat) : Int) = i + 1 + t by push_cast; omega] at this
      exact this)
    unfold tryAddTomb
    simp only [h0, hv, if_false]
    exact hn

theorem tryAddTomb_hit (node : Nat) (pos : Int) (e : EBStack) : ∀ (k n : Nat) (i : Int), k < n →
    (∀ t : Nat, t < k → ∃ v, load e.coll_pop (Int.tmod (pos + (i + t)) e.coll_size) = some v ∧
      v ≠ e.TOMB_STONE) →
    load e.coll_pop (Int.tmod (pos + (i + k)) e.coll_size) = some e.TOMB_STONE →
    tryAddTomb node pos n i e = some (some
      ({ e with coll_pop := store e.coll_pop (Int.tmod (pos + (i + k)) e.coll_size) node },
        true)) := by
  intro k
  induction k with
  | zero =>
    intro n i hn _ hx
    obtain ⟨m, rfl⟩ : ∃ m, n = m + 1 := ⟨n - 1, by omega⟩
    simp only [Nat.cast_zero, add_zero] at hx ⊢
    unfold tryAddTomb
    simp only [hx, if_true]
  | succ k ih =>
    intro n i hn h hx
    obtain ⟨m, rfl⟩ : ∃ m, n = m + 1 := ⟨n - 1, by omega⟩
    obtain ⟨v, h0, hv⟩ := h 0 (Nat.succ_pos k)
    simp only [Nat.cast_zero, add_zero] at h0
    have e1 : i + ((k + 1 : Nat) : Int) = i + 1 + k := by push_cast; omega
    rw [e1] at hx ⊢
    have hn := ih m (i + 1) (by omega) (fun t ht => by
      have := h (t + 1) (by omega)
      rw [show i + ((t + 1 : Nat) : Int) = i + 1 + t by push_cast; omega] at this
      exact this) hx
    unfold tryAddTomb
    simp only [h0, hv, if_false]
    exact hn

end EBStack

end Amino

namespace Amino

namespace EBStack

/-! ### `try_add` and `try_remove` without another thread -/

theorem get_rand_position_neg (e : EBStack) (hM : 1 ≤ e.coll_size) (hp : e.position < 0)
    (hd : Int.tmod e.position e.coll_size ≠ 0) :
    e.get_rand_position.2 < 0 ∧ -e.coll_size < e.get_rand_position.2 := by
  have h := tmod_nonpos e.position e.coll_size hp (by omega)
  have e2 : e.get_rand_position.2 = Int.tmod e.position e.coll_size := rfl
  rw [e2]
  omega

theorem get_rand_position_nonneg (e : EBStack) (hM : 1 ≤ e.coll_size) (hp : 0 ≤ e.position) :
    0 ≤ e.get_rand_position.2 ∧ e.get_rand_position.2 < e.coll_size :=
  tmod_range e.position e.coll_size hp (by omega)

theorem index_nonneg (e : EBStack) (pos : Int) (i : Nat) (hM : 1 ≤ e.coll_size) (hp : 0 ≤ pos) :
    0 ≤ Int.tmod (pos + i) e.coll_size ∧ Int.tmod (pos + i) e.coll_size < e.coll_size :=
  tmod_range (pos + i) e.coll_size (by omega) (by omega)

theorem try_add_neg (e : EBStack) (node : Nat) (h1 : e.get_rand_position.2 < 0)
    (h2 : -e.coll_size < e.get_rand_position.2) : e.try_add node = none := by
  have hi : Int.tmod (e.get_rand_position.2 + 0) e.get_rand_position.1.coll_size
      = e.get_rand_position.2 := by
    rw [add_zero]
    have hc : e.get_rand_position.1.coll_size = e.coll_size := rfl
    rw [hc]
    exact tmod_small _ _ h2 (by omega)
  have hl : tryAddTomb node e.get_rand_position.2 TRY_TIMES 0 e.get_rand_position.1 = none := by
    unfold TRY_TIMES tryAddTomb
    simp only [hi]
    rw [load_neg _ _ h1]
  unfold try_add
  rw [hl]

theorem try_remove_neg (fuel : Nat) (e : EBStack) (h1 : e.get_rand_position.2 < 0)
    (h2 : -e.coll_size < e.get_rand_position.2) : e.try_remove fuel = none := by
  have hi : Int.tmod (e.get_rand_position.2 + 0) e.get_rand_position.1.coll_size
      = e.get_rand_position.2 := by
    rw [add_zero]
    have hc : e.get_rand_position.1.coll_size = e.coll_size := rfl
    rw [hc]
    exact tmod_small _ _ h2 (by omega)
  have hl : tryRemovePush e.get_rand_position.2 TRY_TIMES 0 e.get_rand_position.1 = none := by
    unfold TRY_TIMES tryRemovePush
    simp only [hi]
    rw [load_neg _ _ h1]
  unfold try_remove
  rw [hl]

/-- The first scanned slot of `coll_push` that holds a node: `try_remove`
returns the node and leaves `REMOVED` in the slot. -/
theorem try_remove_first_node (fuel : Nat) (e : EBStack) (k n : Nat) (hk : k < TRY_TIMES)
    (hpre : ∀ t : Nat, t < k →
      load e.coll_push (Int.tmod (e.get_rand_position.2 + t) e.coll_size) = some 0 ∨
      load e.coll_push (Int.tmod (e.get_rand_position.2 + t) e.coll_size) = some e.REMOVED)
    (hn0 : n ≠ 0) (hnr : n ≠ e.REMOVED)
    (hj : load e.coll_push (Int.tmod (e.get_rand_position.2 + k) e.coll_size) = some n) :
    e.try_remove fuel = some
      ({ e.get_rand_position.1 with
          coll_push := store e.coll_push (Int.tmod (e.get_rand_position.2 + k) e.coll_size)
            e.REMOVED }, n) := by
  have h := tryRemovePush_hit e.get_rand_position.2 e.get_rand_position.1 n hn0 hnr k TRY_TIMES 0
    hk (fun t ht => by simpa using hpre t ht) (by simpa using hj)
  unfold try_remove
  rw [h]
  simp only [zero_add]
  rfl

/-- The first scanned slot of `coll_pop` that holds `TOMB_STONE`: `try_add`
returns true and leaves the node in the slot. -/
theorem try_add_first_tomb (e : EBStack) (node k : Nat) (hk : k < TRY_TIMES)
    (hpre : ∀ t : Nat, t < k → ∃ v,
      load e.coll_pop (Int.tmod (e.get_rand_position.2 + t) e.coll_size) = some v ∧
      v ≠ e.TOMB_STONE)
    (hj : load e.coll_pop (Int.tmod (e.get_rand_position.2 + k) e.coll_size)
      = some e.TOMB_STONE) :
    e.try_add node = some
      ({ e.get_rand_position.1 with
          coll_pop := store e.coll_pop (Int.tmod (e.get_rand_position.2 + k) e.coll_size)
            node }, true) := by
  have h := tryAddTomb_hit node e.get_rand_position.2 e.get_rand_position.1 k TRY_TIMES 0
    hk (fun t ht => by simpa using hpre t ht) (by simpa using hj)
  unfold try_add
  rw [h]
  simp only [zero_add]
  rfl

end EBStack

end Amino

namespace Amino

namespace EBStack

/-! ### Empty collision arrays -/

theorem load_empty (e : EBStack) (arr : List Nat) (pos : Int) (t : Nat) (hM : 1 ≤ e.coll_size)
    (ha : arr = List.replicate e.coll_size.toNat 0) (hp : 0 ≤ pos) :
    load arr (Int.tmod (pos + t) e.coll_size) = some 0 := by
  have h := index_nonneg e pos t hM hp
  rw [ha]
  exact load_replicate _ _ h.1 (by rw [Int.toNat_of_nonneg (by omega)]; exact h.2)

theorem tryAddWait_alone (node : Nat) (index : Int) (e : EBStack) (w : Nat)
    (h : load e.coll_push index = some w) :
    tryAddWait node index { e with coll_push := store e.coll_push index node }
      = some ({ e with coll_push := store (store e.coll_push index node) index 0 }, false) := by
  have hl := load_store_self e.coll_push index node w h
  unfold tryAddWait
  simp only [hl, if_true]

theorem tryRemoveWait_alone (index : Int) (fuel : Nat) (e : EBStack) (w : Nat)
    (h : load e.coll_pop index = some w) :
    tryRemoveWait index (fuel + 1) { e with coll_pop := store e.coll_pop index e.TOMB_STONE }
      = some ({ e with coll_pop := store (store e.coll_pop index e.TOMB_STONE) index 0 }, 0) := by
  have hl := load_store_self e.coll_pop index e.TOMB_STONE w h
  unfold tryRemoveWait
  simp only [hl, ne_eq, not_true_eq_false, if_false, if_true]

/-- On empty collision arrays and without another thread `try_add` posts the
node, takes it back and returns false. -/
theorem try_add_empty (e : EBStack) (node : Nat) (hM : 1 ≤ e.coll_size)
    (hpush : e.coll_push = List.replicate e.coll_size.toNat 0)
    (hpop : e.coll_pop = List.replicate e.coll_size.toNat 0)
    (ht : e.TOMB_STONE ≠ 0) (hp : 0 ≤ e.get_rand_position.2) :
    e.try_add node = some (e.get_rand_position.1, false) := by
  have h1 : tryAddTomb node e.get_rand_position.2 TRY_TIMES 0 e.get_rand_position.1
      = some none :=
    tryAddTomb_skip node _ _ TRY_TIMES 0 (fun t _ => ⟨0, by
      rw [zero_add]
      exact load_empty e e.coll_pop _ t hM hpop hp, fun h => ht h.symm⟩)
  have h0 : load e.get_rand_position.1.coll_push
      (Int.tmod (e.get_rand_position.2 + 0) e.get_rand_position.1.coll_size) = some 0 := by
    have := load_empty e e.coll_push _ 0 hM hpush hp
    simpa using this
  have hw := tryAddWait_alone node
    (Int.tmod (e.get_rand_position.2 + 0) e.get_rand_position.1.coll_size)
    e.get_rand_position.1 0 h0
  have hb := store_store_back e.get_rand_position.1.coll_push
    (Int.tmod (e.get_rand_position.2 + 0) e.get_rand_position.1.coll_size) node 0 h0
  have h2 : tryAddPush node e.get_rand_position.2 TRY_TIMES 0 e.get_rand_position.1
      = some (some (e.get_rand_position.1, false)) := by
    unfold TRY_TIMES tryAddPush
    simp only [h0, if_true, hw, hb]
  unfold try_add
  rw [h1]
  simp only [h2]

/-- On empty collision arrays and without another thread `try_remove` posts
`TOMB_STONE`, takes it back and returns `NULL`. -/
theorem try_remove_empty (fuel : Nat) (e : EBStack) (hM : 1 ≤ e.coll_size)
    (hpush : e.coll_push = List.replicate e.coll_size.toNat 0)
    (hpop : e.coll_pop = List.replicate e.coll_size.toNat 0)
    (hp : 0 ≤ e.get_rand_position.2) :
    e.try_remove (fuel + 1) = some (e.get_rand_position.1, 0) := by
  have h1 : tryRemovePush e.get_rand_position.2 TRY_TIMES 0 e.get_rand_position.1
      = some none :=
    tryRemovePush_skip _ _ TRY_TIMES 0 (fun t _ => Or.inl (by
      rw [zero_add]
      exact load_empty e e.coll_push _ t hM hpush hp))
  have h0 : load e.get_rand_position.1.coll_pop
      (Int.tmod (e.get_rand_position.2 + 0) e.get_rand_position.1.coll_size) = some 0 := by
    have := load_empty e e.coll_pop _ 0 hM hpop hp
    simpa using this
  have hw := tryRemoveWait_alone
    (Int.tmod (e.get_rand_position.2 + 0) e.get_rand_position.1.coll_size) fuel
    e.get_rand_position.1 0 h0
  have hb := store_store_back e.get_rand_position.1.coll_pop
    (Int.tmod (e.get_rand_position.2 + 0) e.get_rand_position.1.coll_size)
    e.get_rand_position.1.TOMB_STONE 0 h0
  have h2 : tryRemovePop (fuel + 1) e.get_rand_position.2 TRY_TIMES 0 e.get_rand_position.1
      = some (some (e.get_rand_position.1, 0)) := by
    unfold TRY_TIMES tryRemovePop
    simp only [h0, if_true, hw, hb]
  unfold try_remove
  rw [h1]
  simp only [h2]

end EBStack

end Amino

namespace Amino

namespace EBStack

theorem positionAfter_eq : ∀ (n : Nat) (e : EBStack), -2 ^ 31 ≤ e.position → e.position < 2 ^ 31 →
    positionAfter n e
      = { e with position := (e.position + n + 2 ^ 31) % 2 ^ 32 - 2 ^ 31 } := by
  intro n
  induction n with
  | zero =>
    intro e h1 h2
    have : (e.position + ((0 : Nat) : Int) + 2 ^ 31) % 2 ^ 32 - 2 ^ 31 = e.position := by
      simp only [Nat.cast_zero]
      omega
    rw [this]
    rfl
  | succ n ih =>
    intro e h1 h2
    unfold positionAfter
    have hp : e.get_rand_position.1.position
        = (e.position + 1 + 2 ^ 31) % 2 ^ 32 - 2 ^ 31 := rfl
    rw [ih e.get_rand_position.1 (by rw [hp]; omega) (by rw [hp]; omega)]
    have : (e.get_rand_position.1.position + (n : Int) + 2 ^ 31) % 2 ^ 32 - 2 ^ 31
        = (e.position + ((n + 1 : Nat) : Int) + 2 ^ 31) % 2 ^ 32 - 2 ^ 31 := by
      rw [hp]
      push_cast
      omega
    rw [← this]
    rfl

/-- C36 (the code departs from it): on a stack whose `position` started at 0,
after `n` calls of `get_rand_position()` with `2^31 < n < 2^32` the counter has
wrapped to the negative value `n - 2^32`; when `coll_size` does not divide it,
`position++ % coll_size` is negative, the index `(pos + 0) % coll_size` of the
first round is negative too, and `try_add` and `try_remove` read outside the
collision arrays. -/
theorem C36_wrapped_position_index_negative (e : EBStack) (n node fuel : Nat)
    (h0 : e.position = 0) (hM : 1 ≤ e.coll_size) (hn : 2 ^ 31 < n) (hn2 : n < 2 ^ 32)
    (hd : Int.tmod ((n : Int) - 2 ^ 32) e.coll_size ≠ 0) :
    (positionAfter n e).position = (n : Int) - 2 ^ 32 ∧
      (positionAfter n e).get_rand_position.2 < 0 ∧
      Int.tmod ((positionAfter n e).get_rand_position.2 + 0) e.coll_size < 0 ∧
      load (positionAfter n e).coll_pop
        (Int.tmod ((positionAfter n e).get_rand_position.2 + 0) e.coll_size) = none ∧
      (positionAfter n e).try_add node = none ∧
      (positionAfter n e).try_remove fuel = none := by
  have he := positionAfter_eq n e (by rw [h0]; decide) (by rw [h0]; decide)
  have hn' : ((2 : Int) ^ 31) < (n : Int) := by exact_mod_cast hn
  have hn2' : (n : Int) < (2 : Int) ^ 32 := by exact_mod_cast hn2
  have hp : (positionAfter n e).position = (n : Int) - 2 ^ 32 := by
    rw [he, h0]
    simp only []
    omega
  have hc : (positionAfter n e).coll_size = e.coll_size := by rw [he]
  have hneg := get_rand_position_neg (positionAfter n e) (by rw [hc]; exact hM)
    (by rw [hp]; omega) (by rw [hp, hc]; exact hd)
  rw [hc] at hneg
  have hi : Int.tmod ((positionAfter n e).get_rand_position.2 + 0) e.coll_size
      = (positionAfter n e).get_rand_position.2 := by
    rw [add_zero]
    exact tmod_small _ _ hneg.2 (by omega)
  refine ⟨hp, hneg.1, ?_, ?_, ?_, ?_⟩
  · rw [hi]
    exact hneg.1
  · rw [hi]
    exact load_neg _ _ hneg.1
  · exact try_add_neg _ node hneg.1 (by rw [hc]; exact hneg.2)
  · exact try_remove_neg fuel _ hneg.1 (by rw [hc]; exact hneg.2)

theorem C36_wrapped_position_index_negative_witness :
    (positionAfter 2147483649 sampleEBStack).position = -2147483647 ∧
      (positionAfter 2147483649 sampleEBStack).get_rand_position.2 < 0 ∧
      Int.tmod ((positionAfter 2147483649 sampleEBStack).get_rand_position.2 + 0) 8 < 0 ∧
      load (positionAfter 2147483649 sampleEBStack).coll_pop
        (Int.tmod ((positionAfter 2147483649 sampleEBStack).get_rand_position.2 + 0) 8)
        = none ∧
      (positionAfter 2147483649 sampleEBStack).try_add 24 = none ∧
      (positionAfter 2147483649 sampleEBStack).try_remove 1 = none :=
  C36_wrapped_position_index_negative sampleEBStack 2147483649 24 1 rfl (by decide) (by decide)
    (by decide) (by decide)

end EBStack

end Amino

namespace Amino

namespace EBStack

theorem load_in_range (arr : List Nat) (index : Int) (h0 : 0 ≤ index)
    (h1 : index < arr.length) : ∃ v, load arr index = some v := by
  unfold load
  rw [if_neg (by omega)]
  have hl : index.toNat < arr.length := by omega
  exact ⟨arr[index.toNat], List.getElem?_eq_getElem hl⟩

theorem load_scanned (e : EBStack) (arr : List Nat) (t : Nat) (hM : 1 ≤ e.coll_size)
    (hl : arr.length = e.coll_size.toNat) (hp : 0 ≤ e.get_rand_position.2) :
    ∃ v, load arr (Int.tmod (e.get_rand_position.2 + t) e.coll_size) = some v := by
  have h := index_nonneg e e.get_rand_position.2 t hM hp
  exact load_in_range _ _ h.1 (by rw [hl, Int.toNat_of_nonneg (by omega)]; exact h.2)

theorem get_rand_position_gt (e : EBStack) (hM : 1 ≤ e.coll_size) :
    -e.coll_size < e.get_rand_position.2 := by
  have e2 : e.get_rand_position.2 = Int.tmod e.position e.coll_size := rfl
  rw [e2]
  by_cases hp : 0 ≤ e.position
  · have := (tmod_range e.position e.coll_size hp (by omega)).1
    omega
  · exact (tmod_nonpos e.position e.coll_size (by omega) (by omega)).2

/-- C33 (the code departs from it): on collision arrays that are all empty,
`try_add(node)` returns false and `try_remove` returns `NULL`, both leaving the
arrays all empty, when `position++ % coll_size` is not negative; when it is
negative, which happens once the counter has wrapped, both read outside the
arrays. -/
theorem C33_empty_arrays_wrapped_position_faults (e : EBStack) (node fuel : Nat)
    (hM : 1 ≤ e.coll_size)
    (hpush : e.coll_push = List.replicate e.coll_size.toNat 0)
    (hpop : e.coll_pop = List.replicate e.coll_size.toNat 0) (ht : e.TOMB_STONE ≠ 0) :
    (0 ≤ e.get_rand_position.2 →
      (∃ e', e.try_add node = some (e', false) ∧
        e'.coll_push = List.replicate e.coll_size.toNat 0 ∧
        e'.coll_pop = List.replicate e.coll_size.toNat 0) ∧
      (∃ e', e.try_remove (fuel + 1) = some (e', 0) ∧
        e'.coll_push = List.replicate e.coll_size.toNat 0 ∧
        e'.coll_pop = List.replicate e.coll_size.toNat 0)) ∧
    (e.get_rand_position.2 < 0 →
      e.try_add node = none ∧ e.try_remove (fuel + 1) = none) := by
  refine ⟨fun hp => ⟨⟨_, try_add_empty e node hM hpush hpop ht hp, hpush, hpop⟩,
    ⟨_, try_remove_empty fuel e hM hpush hpop hp, hpush, hpop⟩⟩, fun hp => ?_⟩
  have hg := get_rand_position_gt e hM
  exact ⟨try_add_neg e node hp hg, try_remove_neg _ e hp hg⟩

theorem C33_empty_arrays_wrapped_position_faults_witness :
    ((sampleCollision (-2147483647) 0 0 0 0).try_add 24 = none ∧
      (sampleCollision (-2147483647) 0 0 0 0).try_remove 1 = none) ∧
    ((∃ e', sampleEBStack.try_add 24 = some (e', false) ∧
        e'.coll_push = List.replicate 8 0 ∧ e'.coll_pop = List.replicate 8 0) ∧
      (∃ e', sampleEBStack.try_remove 1 = some (e', 0) ∧
        e'.coll_push = List.replicate 8 0 ∧ e'.coll_pop = List.replicate 8 0)) :=
  ⟨(C33_empty_arrays_wrapped_position_faults (sampleCollision (-2147483647) 0 0 0 0) 24 0
      (by decide) (by decide) (by decide) (by decide)).2 (by decide),
    (C33_empty_arrays_wrapped_position_faults sampleEBStack 24 0
      (by decide) (by decide) (by decide) (by decide)).1 (by decide)⟩

end EBStack

end Amino

namespace Amino

namespace EBStack

/-- C34 (the code departs from it): let slot `j = (pos + k) % coll_size` be the
first of the scanned slots of `coll_push` that holds a node `n`.  When
`position++ % coll_size` is not negative, `try_remove` returns `n` and leaves
`REMOVED` in slot `j` and every other slot of both arrays as it was; likewise
`try_add(node)` returns true and leaves `node` in the first scanned slot of
`coll_pop` that holds `TOMB_STONE`.  When `position++ % coll_size` is negative,
which happens once the counter has wrapped, both read outside the arrays. -/
theorem C34_first_slot_wrapped_position_faults (e : EBStack) (fuel node k n : Nat)
    (hM : 1 ≤ e.coll_size) (hlpush : e.coll_push.length = e.coll_size.toNat)
    (hlpop : e.coll_pop.length = e.coll_size.toNat) (hk : k < TRY_TIMES) :
    ((∀ t : Nat, t < k → ∀ v,
        load e.coll_push (Int.tmod (e.get_rand_position.2 + t) e.coll_size) = some v →
        v = 0 ∨ v = e.REMOVED) →
      load e.coll_push (Int.tmod (e.get_rand_position.2 + k) e.coll_size) = some n →
      n ≠ 0 → n ≠ e.REMOVED →
      (0 ≤ e.get_rand_position.2 →
        ∃ e', e.try_remove fuel = some (e', n) ∧
          load e'.coll_push (Int.tmod (e.get_rand_position.2 + k) e.coll_size)
            = some e.REMOVED ∧
          (∀ j : Nat, j ≠ (Int.tmod (e.get_rand_position.2 + k) e.coll_size).toNat →
            e'.coll_push[j]? = e.coll_push[j]?) ∧
          e'.coll_pop = e.coll_pop) ∧
      (e.get_rand_position.2 < 0 → e.try_remove fuel = none)) ∧
    ((∀ t : Nat, t < k →
        load e.coll_pop (Int.tmod (e.get_rand_position.2 + t) e.coll_size)
          ≠ some e.TOMB_STONE) →
      load e.coll_pop (Int.tmod (e.get_rand_position.2 + k) e.coll_size)
        = some e.TOMB_STONE →
      (0 ≤ e.get_rand_position.2 →
        ∃ e', e.try_add node = some (e', true) ∧
          load e'.coll_pop (Int.tmod (e.get_rand_position.2 + k) e.coll_size) = some node ∧
          (∀ j : Nat, j ≠ (Int.tmod (e.get_rand_position.2 + k) e.coll_size).toNat →
            e'.coll_pop[j]? = e.coll_pop[j]?) ∧
          e'.coll_push = e.coll_push) ∧
      (e.get_rand_position.2 < 0 → e.try_add node = none)) := by
  have hg := get_rand_position_gt e hM
  refine ⟨fun hpre hj hn0 hnr => ⟨fun hp => ?_, fun hp => try_remove_neg fuel e hp hg⟩,
    fun hpre hj => ⟨fun hp => ?_, fun hp => try_add_neg e node hp hg⟩⟩
  · refine ⟨_, try_remove_first_node fuel e k n hk (fun t ht => ?_) hn0 hnr hj,
      load_store_self _ _ _ _ hj, fun j hj' => store_other _ _ _ j hj', rfl⟩
    obtain ⟨v, hv⟩ := load_scanned e e.coll_push t hM hlpush hp
    rcases hpre t ht v hv with h | h
    · exact Or.inl (by rw [hv, h])
    · exact Or.inr (by rw [hv, h])
  · refine ⟨_, try_add_first_tomb e node k hk (fun t ht => ?_) hj,
      load_store_self _ _ _ _ hj, fun j hj' => store_other _ _ _ j hj', rfl⟩
    obtain ⟨v, hv⟩ := load_scanned e e.coll_pop t hM hlpop hp
    exact ⟨v, hv, fun h => hpre t ht (by rw [hv, h])⟩

theorem C34_first_slot_wrapped_position_faults_witness :
    ((sampleCollision (-2147483642) 0 24 0 8).try_remove 1 = none ∧
      (sampleCollision (-2147483642) 0 24 0 8).try_add 32 = none) ∧
    ((∃ e', (sampleCollision 6 0 24 0 8).try_remove 1 = some (e', 24) ∧
        load e'.coll_push 0 = some 16 ∧
        (∀ j : Nat, j ≠ 0 → e'.coll_push[j]? = (sampleCollision 6 0 24 0 8).coll_push[j]?) ∧
        e'.coll_pop = (sampleCollision 6 0 24 0 8).coll_pop) ∧
      (∃ e', (sampleCollision 6 0 24 0 8).try_add 32 = some (e', true) ∧
        load e'.coll_pop 0 = some 32 ∧
        (∀ j : Nat, j ≠ 0 → e'.coll_pop[j]? = (sampleCollision 6 0 24 0 8).coll_pop[j]?) ∧
        e'.coll_push = (sampleCollision 6 0 24 0 8).coll_push)) :=
  ⟨⟨((C34_first_slot_wrapped_position_faults (sampleCollision (-2147483642) 0 24 0 8) 1 32 2 24
        (by decide) (by decide) (by decide) (by decide)).1
        (by decide) (by decide) (by decide) (by decide)).2 (by decide),
      ((C34_first_slot_wrapped_position_faults (sampleCollision (-2147483642) 0 24 0 8) 1 32 2 24
        (by decide) (by decide) (by decide) (by decide)).2
        (by decide) (by decide)).2 (by decide)⟩,
    ((C34_first_slot_wrapped_position_faults (sampleCollision 6 0 24 0 8) 1 32 2 24
        (by decide) (by decide) (by decide) (by decide)).1
        (by decide) (by decide) (by decide) (by decide)).1 (by decide),
    ((C34_first_slot_wrapped_position_faults (sampleCollision 6 0 24 0 8) 1 32 2 24
        (by decide) (by decide) (by decide) (by decide)).2
        (by decide) (by decide)).1 (by decide)⟩

end EBStack

end Amino

namespace Amino

namespace DequeBody

/-- The statements of the pop operations on the state that holds 1 and 2,
reached from `start (SMR.init 3 0)` by the statements of two `pushRight` calls
of thread 0 that left its three hazard slots `NULL`:
`popRight` returns 2 with slot 2 still holding the address 8 of the node of 1,
and `popLeft` returns 1 with slot 2 still holding the address 16 of the node
of 2; a second `popRight` then retires the node at 8 while slot 2 of the same
record still holds 8.  `peekRight` leaves the three slots `NULL`. -/
theorem body_pop_leaves_third_hazard_slot :
    sampleDeque2.hazardSlots 0 = some [0, 0, 0] ∧
      (sampleDeque2.anchor.getLeft, sampleDeque2.anchor.getRight) = (8, 16) ∧
      (popRight 2 sampleDeque2 0 0).map (fun r => (r.1.hazardSlots 0, r.2))
        = some (some [0, 0, 8], 2, true) ∧
      (popLeft 2 sampleDeque2 0 0).map (fun r => (r.1.hazardSlots 0, r.2))
        = some (some [0, 0, 16], 1, true) ∧
      ((popRight 2 sampleDeque2 0 0).bind (fun r => popRight 2 r.1 0 0)).map
          (fun r => (r.1.hazardSlots 0, r.1.retiredList 0, r.2))
        = some (some [0, 0, 8], some [8, 16], 1, true) ∧
      (peekRight 2 sampleDeque2 0 0).map (fun r => (r.1.hazardSlots 0, r.2))
        = some (some [0, 0, 0], 2, true) := by
  decide

end DequeBody

end Amino

namespace Amino

namespace LockFreeDeque

open DequeBody

/-! ### The fields of the anchor -/

theorem set_lsr (a : AnchorType) (l r st : Nat) (hl : l < 2 ^ LONG_BITS) (hr : 4 ∣ r)
    (hb : r < 2 ^ LONG_BITS) (hs : st < 4) :
    ((a.setLeft l).setStatus st).setRight r = some (mkAnchor l r st) := by
  obtain ⟨k, rfl⟩ := hr
  simp only [AnchorType.setRight, AnchorType.setLeft, AnchorType.setStatus, AnchorType.getRight,
    AnchorValue.store_right, AnchorValue.store_left, AnchorValue.store_status,
    AnchorValue.fields_right, AnchorValue.fields_status, mkAnchor, LONG_BITS,
    Nat.shiftLeft_eq, Nat.shiftRight_eq_div_pow] at hl hb ⊢
  norm_num at hl hb ⊢
  omega

theorem set_rsl (a : AnchorType) (l r st : Nat) (hl : l < 2 ^ LONG_BITS) (hr : 4 ∣ r)
    (hb : r < 2 ^ LONG_BITS) (hs : st < 4) :
    ∃ n, a.setRight r = some n ∧ (n.setStatus st).setLeft l = mkAnchor l r st := by
  obtain ⟨k, rfl⟩ := hr
  simp only [AnchorType.setRight, AnchorType.setLeft, AnchorType.setStatus, AnchorType.getRight,
    AnchorValue.store_right, AnchorValue.store_left, AnchorValue.store_status,
    AnchorValue.fields_right, AnchorValue.fields_status, mkAnchor, LONG_BITS,
    Nat.shiftLeft_eq, Nat.shiftRight_eq_div_pow] at hl hb ⊢
  norm_num at hl hb ⊢
  refine ⟨_, ⟨?_, rfl⟩, ?_, ?_⟩
  · omega
  · omega
  · simp only []
    omega

theorem set_srl (a : AnchorType) (l r st : Nat) (hl : l < 2 ^ LONG_BITS) (hr : 4 ∣ r)
    (hb : r < 2 ^ LONG_BITS) (hs : st < 4) :
    ∃ n, (a.setStatus st).setRight r = some n ∧ n.setLeft l = mkAnchor l r st := by
  obtain ⟨k, rfl⟩ := hr
  simp only [AnchorType.setRight, AnchorType.setLeft, AnchorType.setStatus, AnchorType.getRight,
    AnchorValue.store_right, AnchorValue.store_left, AnchorValue.store_status,
    AnchorValue.fields_right, AnchorValue.fields_status, mkAnchor, LONG_BITS,
    Nat.shiftLeft_eq, Nat.shiftRight_eq_div_pow] at hl hb ⊢
  norm_num at hl hb ⊢
  refine ⟨_, ⟨?_, rfl⟩, ?_, ?_⟩
  · omega
  · omega
  · simp only []
    omega

theorem operator_eq_fields (a b : AnchorType) (ha : a.value.high < 2 ^ LONG_BITS)
    (hb : b.value.high < 2 ^ LONG_BITS) :
    a.operator_eq b = true ↔
      a.getLeft = b.getLeft ∧ a.getRight = b.getRight ∧ a.getStatus = b.getStatus := by
  simp only [AnchorType.operator_eq, AnchorType.getLeft, AnchorType.getRight,
    AnchorType.getStatus, AnchorValue.fields_left, AnchorValue.fields_right,
    AnchorValue.fields_status, LONG_BITS, Nat.shiftLeft_eq] at ha hb ⊢
  norm_num at ha hb ⊢
  constructor
  · intro h
    rw [h.1, h.2]
    exact ⟨rfl, rfl, rfl⟩
  · intro h
    refine ⟨?_, h.1⟩
    omega

theorem setter_frame (a : AnchorType) (l p st : Nat) :
    (a.setLeft l).getRight = a.getRight ∧ (a.setLeft l).getStatus = a.getStatus ∧
      (a.setStatus st).getLeft = a.getLeft ∧ (a.setStatus st).getRight = a.getRight ∧
      ∀ n, a.setRight p = some n → n.getLeft = a.getLeft ∧ n.getStatus = a.getStatus := by
  refine ⟨rfl, rfl, rfl, ?_, ?_⟩
  · simp only [AnchorType.setStatus, AnchorType.getRight, AnchorValue.store_status,
      AnchorValue.fields_right, LONG_BITS, Nat.shiftLeft_eq]
    norm_num
    omega
  · intro n hn
    unfold AnchorType.setRight at hn
    split at hn
    · cases hn
      refine ⟨rfl, ?_⟩
      simp only [AnchorType.getStatus, AnchorValue.store_right, AnchorValue.fields_status,
        LONG_BITS]
      norm_num
      omega
    · exact absurd hn (by simp)

theorem value_setters (a : AnchorType) (l p st : Nat) :
    (a.setLeft l).value = a.value.setLeft l ∧ (a.setStatus st).value = a.value.setStatus st ∧
      (a.setRight p).map AnchorType.value = a.value.setRight p ∧
      a.getLeft = a.value.getLeft ∧ a.getRight = a.value.getRight ∧
      a.getStatus = a.value.getStatus := by
  refine ⟨rfl, rfl, ?_, rfl, rfl, rfl⟩
  unfold AnchorType.setRight AnchorValue.setRight
  have e : ({ a with value := a.value.store_right ((p % 2 ^ LONG_BITS) >>> 2) } :
      AnchorType).getRight = (a.value.store_right ((p % 2 ^ LONG_BITS) >>> 2)).getRight := rfl
  rw [e]
  split <;> rfl

/-- C32: for every word `l`, every word `p` that is a multiple of 4 and every
status `s` among `STABLE`, `RPUSH` and `LPUSH`, `setLeft(l)`, `setRight(p)` and
`setStatus(s)` applied in any of the six orders to any anchor `a` pass the
`assert` of `setRight` and give an anchor with `getLeft() == l`,
`getRight() == p` and `getStatus() == s`; no setter changes what the getters
of the other two fields return; the setters and getters of `AnchorType` are
those of its `AnchorValue`; and `operator==` on two anchors (of two words each)
is true exactly when their left, right and status are equal. -/
theorem C32_anchor_fields_independent (a : AnchorType) (l p s : Nat)
    (hl : l < 2 ^ LONG_BITS) (hp4 : 4 ∣ p) (hp : p < 2 ^ LONG_BITS)
    (hs : s = STABLE ∨ s = RPUSH ∨ s = LPUSH) :
    (∀ r ∈ [((a.setLeft l).setRight p).map (fun n => n.setStatus s),
          ((a.setLeft l).setStatus s).setRight p,
          (a.setRight p).map (fun n => (n.setLeft l).setStatus s),
          (a.setRight p).map (fun n => (n.setStatus s).setLeft l),
          ((a.setStatus s).setLeft l).setRight p,
          ((a.setStatus s).setRight p).map (fun n => n.setLeft l)],
        ∃ n, r = some n ∧ n.getLeft = l ∧ n.getRight = p ∧ n.getStatus = s) ∧
      ((a.setLeft l).getRight = a.getRight ∧ (a.setLeft l).getStatus = a.getStatus ∧
        (a.setStatus s).getLeft = a.getLeft ∧ (a.setStatus s).getRight = a.getRight ∧
        ∀ n, a.setRight p = some n → n.getLeft = a.getLeft ∧ n.getStatus = a.getStatus) ∧
      ((a.setLeft l).value = a.value.setLeft l ∧ (a.setStatus s).value = a.value.setStatus s ∧
        (a.setRight p).map AnchorType.value = a.value.setRight p ∧
        a.getLeft = a.value.getLeft ∧ a.getRight = a.value.getRight ∧
        a.getStatus = a.value.getStatus) ∧
      ∀ x y : AnchorType, x.value.high < 2 ^ LONG_BITS → y.value.high < 2 ^ LONG_BITS →
        (x.operator_eq y = true ↔
          x.getLeft = y.getLeft ∧ x.getRight = y.getRight ∧ x.getStatus = y.getStatus) := by
  have hs4 : s < 4 := by
    rcases hs with h | h | h <;> rw [h] <;> decide
  have hg : (mkAnchor l p s).getLeft = l ∧ (mkAnchor l p s).getRight = p ∧
      (mkAnchor l p s).getStatus = s :=
    ⟨getLeft_mkAnchor l p s, getRight_mkAnchor l p s hp4 hp, getStatus_mkAnchor l p s hp hs4⟩
  refine ⟨?_, setter_frame a l p s, value_setters a l p s,
    fun x y hx hy => operator_eq_fields x y hx hy⟩
  intro r hr
  simp only [List.mem_cons, List.mem_singleton, List.not_mem_nil, or_false] at hr
  rcases hr with h | h | h | h | h | h
  · obtain ⟨n, h1, h2⟩ := set_lrs a l p s hl hp4 hp hs4
    exact ⟨mkAnchor l p s, by rw [h, h1, Option.map_some', h2], hg⟩
  · exact ⟨mkAnchor l p s, by rw [h, set_lsr a l p s hl hp4 hp hs4], hg⟩
  · obtain ⟨n, h1, h2⟩ := set_rls a l p s hl hp4 hp hs4
    exact ⟨mkAnchor l p s, by rw [h, h1, Option.map_some', h2], hg⟩
  · obtain ⟨n, h1, h2⟩ := set_rsl a l p s hl hp4 hp hs4
    exact ⟨mkAnchor l p s, by rw [h, h1, Option.map_some', h2], hg⟩
  · exact ⟨mkAnchor l p s, by rw [h, set_slr a l p s hl hp4 hp hs4], hg⟩
  · obtain ⟨n, h1, h2⟩ := set_srl a l p s hl hp4 hp hs4
    exact ⟨mkAnchor l p s, by rw [h, h1, Option.map_some', h2], hg⟩

theorem C32_anchor_fields_independent_witness :
    (∀ r ∈ [((AnchorType.uninitialised.setLeft 8).setRight 16).map (fun n => n.setStatus RPUSH),
          ((AnchorType.uninitialised.setLeft 8).setStatus RPUSH).setRight 16,
          (AnchorType.uninitialised.setRight 16).map (fun n => (n.setLeft 8).setStatus RPUSH),
          (AnchorType.uninitialised.setRight 16).map (fun n => (n.setStatus RPUSH).setLeft 8),
          ((AnchorType.uninitialised.setStatus RPUSH).setLeft 8).setRight 16,
          ((AnchorType.uninitialised.setStatus RPUSH).setRight 16).map (fun n => n.setLeft 8)],
        ∃ n, r = some n ∧ n.getLeft = 8 ∧ n.getRight = 16 ∧ n.getStatus = RPUSH) ∧
      ((AnchorType.uninitialised.setLeft 8).getRight = AnchorType.uninitialised.getRight ∧
        (AnchorType.uninitialised.setLeft 8).getStatus = AnchorType.uninitialised.getStatus ∧
        (AnchorType.uninitialised.setStatus RPUSH).getLeft = AnchorType.uninitialised.getLeft ∧
          (AnchorType.uninitialised.setStatus RPUSH).getRight = AnchorType.uninitialised.getRight ∧
        ∀ n, AnchorType.uninitialised.setRight 16 = some n → n.getLeft = AnchorType.uninitialised.getLeft ∧
          n.getStatus = AnchorType.uninitialised.getStatus) ∧
      ((AnchorType.uninitialised.setLeft 8).value = AnchorType.uninitialised.value.setLeft 8 ∧
        (AnchorType.uninitialised.setStatus RPUSH).value = AnchorType.uninitialised.value.setStatus RPUSH ∧
        (AnchorType.uninitialised.setRight 16).map AnchorType.value = AnchorType.uninitialised.value.setRight 16 ∧
        AnchorType.uninitialised.getLeft = AnchorType.uninitialised.value.getLeft ∧
          AnchorType.uninitialised.getRight = AnchorType.uninitialised.value.getRight ∧
        AnchorType.uninitialised.getStatus = AnchorType.uninitialised.value.getStatus) ∧
      ∀ x y : AnchorType, x.value.high < 2 ^ LONG_BITS → y.value.high < 2 ^ LONG_BITS →
        (x.operator_eq y = true ↔
          x.getLeft = y.getLeft ∧ x.getRight = y.getRight ∧ x.getStatus = y.getStatus) :=
  C32_anchor_fields_independent AnchorType.uninitialised 8 16 RPUSH (by decide) (by decide)
    (by decide) (Or.inr (Or.inl rfl))

end LockFreeDeque

end Amino

namespace Amino

namespace DequeBody

/-! ### `stabilize` -/

theorem stabilizeRight_differs (s : DequeBody) (tid : Nat) (a : AnchorType)
    (hl : a.getLeft ≠ 0) (hr : a.getRight ≠ 0) (hne : s.anchor.operator_eq a = false) :
    ∃ s', stabilizeRight s tid a = some s' ∧ s'.anchor = s.anchor ∧
      s'.mm.heap = s.mm.heap := by
  have h1 : ((s.mm.getHPRec tid).1.employ (s.mm.getHPRec tid).2 0 a.getLeft).heap = s.mm.heap :=
    (SMR.employ_heap _ _ _ _).trans (SMR.getHPRec_heap _ _)
  have h2 : (((s.mm.getHPRec tid).1.employ (s.mm.getHPRec tid).2 0 a.getLeft).employ
      (s.mm.getHPRec tid).2 1 a.getRight).heap = s.mm.heap :=
    (SMR.employ_heap _ _ _ _).trans h1
  unfold stabilizeRight
  simp only [hne, if_true]
  by_cases c1 : a.getLeft ≠ s.anchor.getLeft
  · rw [if_pos c1]
    exact ⟨_, rfl, rfl, h1⟩
  · rw [if_neg c1]
    by_cases c2 : a.getRight ≠ s.anchor.getRight
    · rw [if_pos c2]
      exact ⟨_, rfl, rfl, h2⟩
    · rw [if_neg c2, if_neg (fun h => h.elim hr hl)]
      exact ⟨_, rfl, rfl, h2⟩

theorem stabilizeLeft_differs (s : DequeBody) (tid : Nat) (a : AnchorType)
    (hl : a.getLeft ≠ 0) (hr : a.getRight ≠ 0) (hne : s.anchor.operator_eq a = false) :
    ∃ s', stabilizeLeft s tid a = some s' ∧ s'.anchor = s.anchor ∧
      s'.mm.heap = s.mm.heap := by
  have h1 : ((s.mm.getHPRec tid).1.employ (s.mm.getHPRec tid).2 0 a.getLeft).heap = s.mm.heap :=
    (SMR.employ_heap _ _ _ _).trans (SMR.getHPRec_heap _ _)
  have h2 : (((s.mm.getHPRec tid).1.employ (s.mm.getHPRec tid).2 0 a.getLeft).employ
      (s.mm.getHPRec tid).2 1 a.getRight).heap = s.mm.heap :=
    (SMR.employ_heap _ _ _ _).trans h1
  unfold stabilizeLeft
  simp only [hne, if_true]
  by_cases c1 : a.getLeft ≠ s.anchor.getLeft
  · rw [if_pos c1]
    exact ⟨_, rfl, rfl, h1⟩
  · rw [if_neg c1]
    by_cases c2 : a.getRight ≠ s.anchor.getRight
    · rw [if_pos c2]
      exact ⟨_, rfl, rfl, h2⟩
    · rw [if_neg c2, if_neg (fun h => h.elim hr hl)]
      exact ⟨_, rfl, rfl, h2⟩

theorem stabilize_RPUSH (s : DequeBody) (tid : Nat) (a : AnchorType)
    (h : a.getStatus = RPUSH) : stabilize s tid a = stabilizeRight s tid a := by
  unfold stabilize
  rw [if_pos h]

theorem stabilize_LPUSH (s : DequeBody) (tid : Nat) (a : AnchorType)
    (h : a.getStatus = LPUSH) : stabilize s tid a = stabilizeLeft s tid a := by
  unfold stabilize
  rw [if_neg (by rw [h]; decide), if_neg (fun hn => hn h)]

/-- The statements of `stabilize` on a state whose `mm` is well formed: let
`l` and `r` be the addresses of nodes, `r` a multiple of 4.  If
the shared anchor is `a = <l, r, RPUSH>` and `r->left` is the node `p`, then
`stabilize(a)` returns with `p->right == r`, the shared anchor `<l, r, STABLE>`
and no other field of a node changed; if the shared anchor is
`a = <l, r, LPUSH>` and `l->right` is the node `p`, it returns with
`p->left == l` and the shared anchor `<l, r, STABLE>`.  If the shared anchor is
not the local anchor `a` (of status `RPUSH` or `LPUSH`, its two pointers not
`NULL`), `stabilize(a)` returns with the shared anchor and every node as they
were. -/
theorem body_stabilize_repairs_or_returns (s : DequeBody) (tid l r : Nat) (hw : s.mm.WF)
    (hl : l < 2 ^ LONG_BITS) (hl0 : l ≠ 0) (hr4 : 4 ∣ r) (hr : r < 2 ^ LONG_BITS)
    (hr0 : r ≠ 0) :
    (∀ rn pn, s.anchor = mkAnchor l r RPUSH → s.mm.heap.cells r = some rn → rn.left ≠ 0 →
      s.mm.heap.cells rn.left = some pn →
      ∃ s', stabilize s tid (mkAnchor l r RPUSH) = some s' ∧
        s'.mm.heap.cells rn.left = some { pn with right := r } ∧
        (∀ q, q ≠ rn.left → s'.mm.heap.cells q = s.mm.heap.cells q) ∧
        s'.anchor.getLeft = l ∧ s'.anchor.getRight = r ∧ s'.anchor.getStatus = STABLE) ∧
    (∀ ln pn, s.anchor = mkAnchor l r LPUSH → s.mm.heap.cells l = some ln → ln.right ≠ 0 →
      s.mm.heap.cells ln.right = some pn →
      ∃ s', stabilize s tid (mkAnchor l r LPUSH) = some s' ∧
        s'.mm.heap.cells ln.right = some { pn with left := l } ∧
        (∀ q, q ≠ ln.right → s'.mm.heap.cells q = s.mm.heap.cells q) ∧
        s'.anchor.getLeft = l ∧ s'.anchor.getRight = r ∧ s'.anchor.getStatus = STABLE) ∧
    (∀ a : AnchorType, a.getStatus = RPUSH ∨ a.getStatus = LPUSH → a.getLeft ≠ 0 →
      a.getRight ≠ 0 → s.anchor.operator_eq a = false →
      ∃ s', stabilize s tid a = some s' ∧ s'.anchor = s.anchor ∧
        s'.mm.heap = s.mm.heap) := by
  have hg : (mkAnchor l r STABLE).getLeft = l ∧ (mkAnchor l r STABLE).getRight = r ∧
      (mkAnchor l r STABLE).getStatus = STABLE :=
    ⟨getLeft_mkAnchor l r STABLE, getRight_mkAnchor l r STABLE hr4 hr,
      getStatus_mkAnchor l r STABLE hr (by decide)⟩
  refine ⟨fun rn pn ha hc hp hpn => ?_, fun ln pn ha hc hp hpn => ?_, fun a hs hl hr hne => ?_⟩
  · obtain ⟨s', h1, _, h3, _, _, h6⟩ :=
      stabilizeRight_spec s tid l r rn pn hw ha hl hl0 hr4 hr hr0 hc hp hpn
    refine ⟨s', ?_, ?_, fun q hq => ?_, ?_⟩
    · rw [stabilize_RPUSH _ _ _ (getStatus_mkAnchor l r RPUSH hr (by decide))]
      exact h1
    · rw [h6, if_pos rfl]
    · rw [h6, if_neg hq]
    · rw [h3]
      exact hg
  · obtain ⟨s', h1, _, h3, _, _, h6⟩ :=
      stabilizeLeft_spec s tid l r ln pn hw ha hl hl0 hr4 hr hr0 hc hp hpn
    refine ⟨s', ?_, ?_, fun q hq => ?_, ?_⟩
    · rw [stabilize_LPUSH _ _ _ (getStatus_mkAnchor l r LPUSH hr (by decide))]
      exact h1
    · rw [h6, if_pos rfl]
    · rw [h6, if_neg hq]
    · rw [h3]
      exact hg
  · rcases hs with hs | hs
    · rw [stabilize_RPUSH _ _ _ hs]
      exact stabilizeRight_differs s tid a hl hr hne
    · rw [stabilize_LPUSH _ _ _ hs]
      exact stabilizeLeft_differs s tid a hl hr hne

theorem sampleDeque2_wf : sampleDeque2.mm.WF := by
  obtain ⟨l, hi⟩ := Reachable.deque_inv sampleDeque2_reachable
  exact hi.wf

theorem sampleDequeRPUSH_wf : sampleDequeRPUSH.mm.WF :=
  (SMR.put_spec sampleDeque2.mm sampleDeque2_wf 8 { data := 1, left := 0, right := 0 }
    (by decide)).1

theorem body_stabilize_repairs_or_returns_example :
    (∃ s', stabilize sampleDequeRPUSH 0 (mkAnchor 8 16 RPUSH) = some s' ∧
        s'.mm.heap.cells 8 = some { data := 1, left := 0, right := 16 } ∧
        (∀ q, q ≠ 8 → s'.mm.heap.cells q = sampleDequeRPUSH.mm.heap.cells q) ∧
        s'.anchor.getLeft = 8 ∧ s'.anchor.getRight = 16 ∧ s'.anchor.getStatus = STABLE) ∧
      ∃ s', stabilize sampleDeque2 0 (mkAnchor 8 16 RPUSH) = some s' ∧
        s'.anchor = sampleDeque2.anchor ∧ s'.mm.heap = sampleDeque2.mm.heap :=
  ⟨(body_stabilize_repairs_or_returns sampleDequeRPUSH 0 8 16 sampleDequeRPUSH_wf (by decide)
      (by decide) (by decide) (by decide) (by decide)).1
      { data := 2, left := 8, right := 0 } { data := 1, left := 0, right := 0 }
      rfl (by decide) (by decide) (by decide),
    (body_stabilize_repairs_or_returns sampleDeque2 0 8 16 sampleDeque2_wf (by decide)
      (by decide) (by decide) (by decide) (by decide)).2.2
      (mkAnchor 8 16 RPUSH) (Or.inl (by decide)) (by decide) (by decide) (by decide)⟩

end DequeBody

end Amino

namespace Amino

namespace SMR
variable {α : Type}

/-! ### The size of `plist` -/

theorem SameShape.shape_same (s : SMR α) : SameShape s s := ⟨rfl, rfl⟩

theorem SameShape.shape_comp {s s1 s2 : SMR α} (h1 : SameShape s s1) (h2 : SameShape s1 s2) :
    SameShape s s2 :=
  ⟨h2.K.trans h1.K, h2.shapes.trans h1.shapes⟩

theorem SameShape.shape_setRec (s : SMR α) (a : Nat) (r r' : HPRecType)
    (hg : s.getRec a = some r) (hs : r'.shape = r.shape) : SameShape s (s.setRec a r') := by
  obtain ⟨l1, l2, h1, h2⟩ := getRec_decomp s a r hg
  subst h2
  refine ⟨by simp, ?_⟩
  rw [setRec_of_decomp s l1 l2 r r' h1, h1]
  simp [hs]

theorem SameShape.shape_heap (s : SMR α) (h : Heap α) :
    SameShape s ({ s with heap := h } : SMR α) := ⟨rfl, rfl⟩

theorem SameShape.shape_tl (s : SMR α) (f : Nat → Nat) :
    SameShape s ({ s with thread_local := f } : SMR α) := ⟨rfl, rfl⟩

theorem SameShape.shape_getRec {s s' : SMR α} (h : SameShape s s') (a : Nat) (r : HPRecType)
    (hg : s.getRec a = some r) : ∃ r', s'.getRec a = some r' ∧ r'.shape = r.shape := by
  have hlen : s'.hprecs.length = s.hprecs.length := by
    have := congrArg List.length h.shapes
    simpa using this
  unfold getRec at hg ⊢
  split at hg
  · cases hg
  · rename_i hc
    rw [hlen, if_neg hc]
    have h1 := congrArg (fun l => l[s.hprecs.length - a]?) h.shapes
    simp only [List.getElem?_map, hg, Option.map_some'] at h1
    cases hr : s'.hprecs[s.hprecs.length - a]? with
    | none => rw [hr] at h1; cases h1
    | some r' =>
      rw [hr] at h1
      exact ⟨r', rfl, by simpa using h1⟩

theorem SameShape.shape_employ (s : SMR α) (hp i p : Nat) : SameShape s (s.employ hp i p) := by
  unfold SMR.employ
  cases hg : s.getRec hp with
  | none => exact SameShape.shape_same s
  | some r =>
    exact SameShape.shape_setRec s hp r _ hg (by simp [HPRecType.shape])

theorem SameShape.shape_retire (s : SMR α) (hp i : Nat) : SameShape s (s.retire hp i) :=
  SameShape.shape_employ s hp i 0

theorem SameShape.shape_retire_p (s : SMR α) (hp p : Nat) : SameShape s (s.retire_p hp p) := by
  unfold SMR.retire_p
  cases hg : s.getRec hp with
  | none => exact SameShape.shape_same s
  | some r =>
    exact SameShape.shape_setRec s hp r _ hg (by simp [HPRecType.shape, retireLoop_length])

theorem freeData_shape (r : HPRecType) (h : Heap α) (d : Nat) :
    (r.freeData h d).1.shape = r.shape := by
  unfold HPRecType.freeData
  split <;> rfl

theorem freeSMRNode_shape (r : HPRecType) (d : Nat) : (r.freeSMRNode d).shape = r.shape := by
  unfold HPRecType.freeSMRNode
  split <;> rfl

theorem scanLoop_shape (plist : List Nat) : ∀ (rl : List Nat) (r : HPRecType) (h : Heap α)
    (t : List Nat) (n : Nat), (scanLoop plist rl r h t n).1.shape = r.shape := by
  intro rl
  induction rl with
  | nil => intro r h t n; rfl
  | cons d rl ih =>
    intro r h t n
    unfold scanLoop
    split
    · exact ih _ _ _ _
    · rw [ih, freeSMRNode_shape, freeData_shape]

theorem SameShape.shape_scan (s s' : SMR α) (tid : Nat) (h : s.scan tid = some s') :
    SameShape s s' := by
  unfold SMR.scan at h
  cases hg : s.getRec (s.thread_local tid) with
  | none => simp [hg] at h
  | some r =>
    cases hh : s.hprecs.head? with
    | none => simp [hg, hh] at h
    | some hd =>
      simp only [hg, hh] at h
      split at h
      · simp only [Option.some.injEq] at h
        rw [← h]
        refine (SameShape.shape_heap s _).shape_comp (SameShape.shape_setRec _ _ r _ hg ?_)
        exact scanLoop_shape _ _ _ _ _ _
      · cases h

theorem allocSMRNode_shape (r r1 : HPRecType) (h : r.allocSMRNode = some r1) :
    r1.shape = r.shape := by
  unfold HPRecType.allocSMRNode at h
  split at h
  · cases h; rfl
  · split at h
    · cases h
    · cases h; rfl

theorem SameShape.shape_delNode (s s' : SMR α) (tid hp p : Nat)
    (h : s.delNode tid hp p = some s') : SameShape s s' := by
  unfold SMR.delNode at h
  cases hg : s.getRec hp with
  | none => simp [hg] at h
  | some r =>
    cases ha : r.allocSMRNode with
    | none => simp [hg, ha] at h
    | some r1 =>
      simp only [hg, ha] at h
      have hq : SameShape s
          (s.setRec hp { r1 with rlist := p :: r1.rlist, rcount := r1.rcount + 1 }) :=
        SameShape.shape_setRec s hp r _ hg (allocSMRNode_shape r r1 ha)
      split at h
      · exact hq.shape_comp (SameShape.shape_scan _ _ tid h)
      · cases h
        exact hq

theorem allocDataNode_shape [Inhabited α] (r r1 : HPRecType) (h h1 : Heap α) (p : Nat)
    (e : r.allocDataNode h = some (r1, h1, p)) : r1.shape = r.shape := by
  unfold HPRecType.allocDataNode at e
  repeat' (first | (split at e) | (dsimp only at e))
  all_goals (try cases e)
  all_goals rfl

end SMR

end Amino

namespace Amino

namespace SMR
variable {α : Type}

theorem SameShape.shape_newNode [Inhabited α] (s s' : SMR α) (hp p : Nat)
    (h : s.newNode hp = some (s', p)) : SameShape s s' := by
  unfold SMR.newNode at h
  cases hg : s.getRec hp with
  | none => simp [hg] at h
  | some r =>
    cases ha : r.allocDataNode s.heap with
    | none => simp [hg, ha] at h
    | some x =>
      obtain ⟨r1, h1, q⟩ := x
      simp only [hg, ha, Option.some.injEq, Prod.mk.injEq] at h
      rw [← h.1]
      exact (SameShape.shape_heap s h1).shape_comp
        (SameShape.shape_setRec _ hp r r1 hg (allocDataNode_shape r r1 _ _ _ ha))

theorem SameShape.shape_mergeList (s s2 : SMR α) (old my : Nat)
    (h : s.mergeList old my = some s2) : SameShape s s2 := by
  unfold SMR.mergeList at h
  cases ho : s.getRec old with
  | none => simp [ho] at h
  | some ro =>
    simp only [ho] at h
    split at h
    · cases h; exact SameShape.shape_same s
    · split at h
      · cases h
        exact SameShape.shape_setRec s old ro _ ho rfl
      · rename_i hne
        cases hm : s.getRec my with
        | none => simp [hm] at h
        | some rm =>
          simp only [hm, Option.some.injEq] at h
          rw [← h]
          refine SameShape.shape_comp (SameShape.shape_setRec s my rm _ hm ?_)
            (SameShape.shape_setRec _ old ro _ ?_ ?_)
          · rfl
          · rw [getRec_setRec_ne s my old _ hne, ho]
          · rfl

theorem SameShape.shape_helpScanLoop (my : Nat) : ∀ (n : Nat) (s s' : SMR α),
    helpScanLoop my n s = some s' → SameShape s s' := by
  intro n
  induction n with
  | zero =>
    intro s s' h
    simp only [SMR.helpScanLoop, Option.some.injEq] at h
    rw [← h]
    exact SameShape.shape_same s
  | succ n ih =>
    intro s s' h
    unfold SMR.helpScanLoop at h
    cases hr : s.getRec (n + 1) with
    | none => simp [hr] at h
    | some r =>
      simp only [hr] at h
      by_cases hra : r.active = true
      · simp only [hra, if_true] at h
        exact ih s s' h
      · have hrf : r.active = false := by simpa using hra
        simp only [hrf, Bool.false_eq_true, if_false, ne_eq, not_true_eq_false] at h
        cases hm : (s.setRec (n + 1) { r with active := true }).mergeList (n + 1) my with
        | none => simp [hm] at h
        | some s2 =>
          simp only [hm] at h
          have q1 : SameShape s (s.setRec (n + 1) { r with active := true }) :=
            SameShape.shape_setRec s (n + 1) r _ hr rfl
          have q2 := SameShape.shape_mergeList _ s2 _ _ hm
          cases hr2 : s2.getRec (n + 1) with
          | none => simp [hr2] at h
          | some r2 =>
            simp only [hr2] at h
            exact ((q1.shape_comp q2).shape_comp
              (SameShape.shape_setRec s2 (n + 1) r2 { r2 with active := false } hr2 rfl)).shape_comp (ih _ s' h)

theorem SameShape.shape_helpScan (s s' : SMR α) (tid : Nat) (h : s.helpScan tid = some s') :
    SameShape s s' :=
  SameShape.shape_helpScanLoop _ _ s s' h

theorem clearSlots_len : ∀ (n i : Nat) (hp : List Nat), (clearSlots n i hp).length = hp.length := by
  intro n
  induction n with
  | zero => intro i hp; rfl
  | succ n ih =>
    intro i hp
    unfold clearSlots
    rw [ih, List.length_set]

theorem SameShape.shape_retireHPRec (s s' : SMR α) (a : Nat)
    (h : s.retireHPRec a = some s') : SameShape s s' := by
  unfold SMR.retireHPRec at h
  split at h
  · cases h
    exact SameShape.shape_same s
  · cases hg : s.getRec a with
    | none => simp [hg] at h
    | some r =>
      simp only [hg] at h
      cases hc : r.cleanFreeList s.heap with
      | none => simp [hc] at h
      | some x =>
        obtain ⟨r1, h1⟩ := x
        simp only [hc, Option.some.injEq] at h
        rw [← h]
        have e1 := HPRecType.cleanFreeList_fields r r1 s.heap h1 hc
        refine (SameShape.shape_heap s h1).shape_comp
          (SameShape.shape_setRec _ a r _ (by rw [getRec_heap]; exact hg) ?_)
        rw [e1]
        simp [HPRecType.shape, clearSlots_len]

theorem SameShape.shape_threadExit (s s' : SMR α) (tid : Nat)
    (h : s.threadExit tid = some s') : SameShape s s' := by
  unfold SMR.threadExit at h
  split at h
  · cases h
    exact SameShape.shape_same s
  · exact (SameShape.shape_tl s _).shape_comp (SameShape.shape_retireHPRec _ s' _ h)

theorem Sized.of_shape {s s' : SMR α} (hz : s.Sized) (h : SameShape s s') : s'.Sized := by
  have hlen : s'.hprecs.length = s.hprecs.length := by
    have := congrArg List.length h.shapes
    simpa using this
  constructor
  · intro r hr
    have h1 : r.shape ∈ s'.hprecs.map HPRecType.shape := List.mem_map_of_mem _ hr
    rw [h.shapes] at h1
    obtain ⟨r0, hr0, e⟩ := List.mem_map.mp h1
    have e2 : r.hp.length = r0.hp.length := (congrArg Prod.snd e).symm
    rw [e2, h.K]
    exact hz.slots r0 hr0
  · intro head hh
    have h1 := congrArg List.head? h.shapes
    simp only [List.head?_map, hh, Option.map_some'] at h1
    cases h0 : s.hprecs.head? with
    | none => rw [h0] at h1; cases h1
    | some head0 =>
      rw [h0] at h1
      have e2 : head.nrThreads = head0.nrThreads := by
        have := congrArg Prod.fst (Option.some.inj h1)
        exact this
      rw [hlen, e2]
      exact hz.cap head0 h0

theorem Sized.of_getHPRec {s : SMR α} (hz : s.Sized) (hc : s.hp_count = s.hprecs.length)
    (tid : Nat) : (s.getHPRec tid).1.Sized := by
  by_cases h0 : s.thread_local tid = 0
  · rcases getHPRec_cases s tid h0 with ⟨l1, r, l2, e1, _, _, e4⟩ | ⟨_, e4⟩
    · rw [e4]
      have hs : SameShape s ({ s with
          hprecs := l1 ++ { r with active := true } :: l2,
          thread_local := fun t => if t = tid then l2.length + 1 else s.thread_local t }
            : SMR α) := by
        refine ⟨rfl, ?_⟩
        simp only [e1, List.map_append, List.map_cons]
        rfl
      exact hz.of_shape hs
    · rw [e4]
      constructor
      · intro r hr
        simp only [List.mem_cons] at hr
        rcases hr with hr | hr
        · rw [hr]
          simp [HPRecType.init]
        · exact hz.slots r hr
      · intro head hh
        simp only [List.head?_cons, Option.some.injEq] at hh
        rw [← hh]
        simp only [List.length_cons]
        omega
  · have e : s.getHPRec tid = (s, s.thread_local tid) := getHPRec_of_tl s tid _ rfl h0
    rw [e]
    exact hz

theorem exec_shape [Inhabited α] (s s' : SMR α) (op : Op) (h : s.exec op = some s')
    (h1 : ∀ tid, op ≠ Op.getHPRec tid) : SameShape s s' := by
  cases op with
  | getHPRec tid => exact absurd rfl (h1 tid)
  | employ hp i p =>
    simp only [exec, Option.some.injEq] at h
    rw [← h]
    exact SameShape.shape_employ s hp i p
  | retire hp i =>
    simp only [exec, Option.some.injEq] at h
    rw [← h]
    exact SameShape.shape_retire s hp i
  | retire_p hp p =>
    simp only [exec, Option.some.injEq] at h
    rw [← h]
    exact SameShape.shape_retire_p s hp p
  | delNode tid hp node => exact SameShape.shape_delNode s s' tid hp node h
  | newNode hp =>
    simp only [exec] at h
    cases hn : s.newNode hp with
    | none => simp [hn] at h
    | some x =>
      obtain ⟨s1, p⟩ := x
      simp only [hn, Option.some.injEq] at h
      rw [← h]
      exact SameShape.shape_newNode s s1 hp p hn
  | scan tid => exact SameShape.shape_scan s s' tid h
  | helpScan tid => exact SameShape.shape_helpScan s s' tid h
  | retireHPRec a => exact SameShape.shape_retireHPRec s s' a h
  | threadExit tid => exact SameShape.shape_threadExit s s' tid h

theorem Reachable.sized [Inhabited α] {K atype : Nat} {s : SMR α} (h : Reachable K atype s) :
    s.Sized := by
  induction h with
  | init =>
    exact ⟨fun r hr => (by cases hr), fun head hh => (by cases hh)⟩
  | step s s' op hs hex ih =>
    by_cases h1 : ∀ tid, op ≠ Op.getHPRec tid
    · exact ih.of_shape (exec_shape s s' op hex h1)
    · push_neg at h1
      obtain ⟨tid, e⟩ := h1
      subst e
      simp only [exec, Option.some.injEq] at hex
      rw [← hex]
      exact ih.of_getHPRec hs.counters.2.1 tid

end SMR

end Amino

namespace Amino

namespace SMR
variable {α : Type}

/-- C40: in every state that calls of the functions of smr.h lead to, the
`nrThreads` of the record at the head of the list is at least the number of
records, the hazard pointers `scan` copies into `plist` are at most
`nrThreads * K`, and `scan` called by a thread that has a record passes its
`assert(pc <= max_threads * K)` and returns. -/
theorem C40_scan_plist_within_capacity [Inhabited α] (K atype : Nat) (s : SMR α)
    (h : Reachable K atype s) :
    (∀ head, s.hprecs.head? = some head →
      s.hprecs.length ≤ head.nrThreads ∧
      (hazards s.hprecs).length ≤ head.nrThreads * s.K) ∧
    (∀ tid r, s.getRec (s.thread_local tid) = some r → ∃ s', s.scan tid = some s') := by
  have hz := h.sized
  have hcap : ∀ head, s.hprecs.head? = some head →
      s.hprecs.length ≤ head.nrThreads ∧
      (hazards s.hprecs).length ≤ head.nrThreads * s.K := fun head hh =>
    ⟨hz.cap head hh, le_trans (hazards_length_le s.K s.hprecs hz.slots)
      (Nat.mul_le_mul_right _ (hz.cap head hh))⟩
  refine ⟨hcap, fun tid r hg => ?_⟩
  cases hh : s.hprecs.head? with
  | none =>
    obtain ⟨l1, l2, h1, _⟩ := getRec_decomp s _ r hg
    rw [h1] at hh
    cases l1 <;> simp at hh
  | some head =>
    unfold SMR.scan
    simp only [hg, hh]
    rw [if_pos (hcap head hh).2]
    exact ⟨_, rfl⟩

theorem C40_scan_plist_within_capacity_witness :
    (∀ head, ((SMR.init 3 0 : SMR Nat).getHPRec 0).1.hprecs.head? = some head →
      ((SMR.init 3 0 : SMR Nat).getHPRec 0).1.hprecs.length ≤ head.nrThreads ∧
      (hazards ((SMR.init 3 0 : SMR Nat).getHPRec 0).1.hprecs).length
        ≤ head.nrThreads * ((SMR.init 3 0 : SMR Nat).getHPRec 0).1.K) ∧
    (∀ tid r, ((SMR.init 3 0 : SMR Nat).getHPRec 0).1.getRec
        (((SMR.init 3 0 : SMR Nat).getHPRec 0).1.thread_local tid) = some r →
      ∃ s', ((SMR.init 3 0 : SMR Nat).getHPRec 0).1.scan tid = some s') :=
  C40_scan_plist_within_capacity 3 0 ((SMR.init 3 0 : SMR Nat).getHPRec 0).1
    (Reachable.step _ _ (Op.getHPRec 0) Reachable.init rfl)

end SMR

end Amino

namespace Amino

/-! ### Bits of the split-order keys -/

theorem mask55_testBit (j : Nat) :
    Nat.testBit 0x55555555 j = decide (j < 32 ∧ j % 2 = 0) := by
  by_cases hj : j < 32
  · interval_cases j <;> rfl
  · rw [Nat.testBit_lt_two_pow (lt_of_lt_of_le (by decide : 0x55555555 < 2 ^ 32)
      (Nat.pow_le_pow_right (by decide) (by omega)))]
    simp [hj]

theorem mask33_testBit (j : Nat) :
    Nat.testBit 0x33333333 j = decide (j < 32 ∧ j % 4 < 2) := by
  by_cases hj : j < 32
  · interval_cases j <;> rfl
  · rw [Nat.testBit_lt_two_pow (lt_of_lt_of_le (by decide : 0x33333333 < 2 ^ 32)
      (Nat.pow_le_pow_right (by decide) (by omega)))]
    simp [hj]

theorem mask0f_testBit (j : Nat) :
    Nat.testBit 0x0f0f0f0f j = decide (j < 32 ∧ j % 8 < 4) := by
  by_cases hj : j < 32
  · interval_cases j <;> rfl
  · rw [Nat.testBit_lt_two_pow (lt_of_lt_of_le (by decide : 0x0f0f0f0f < 2 ^ 32)
      (Nat.pow_le_pow_right (by decide) (by omega)))]
    simp [hj]

theorem maskff00_testBit (j : Nat) :
    Nat.testBit 0xff00 j = decide (8 ≤ j ∧ j < 16) := by
  by_cases hj : j < 32
  · interval_cases j <;> rfl
  · rw [Nat.testBit_lt_two_pow (lt_of_lt_of_le (by decide : 0xff00 < 2 ^ 32)
      (Nat.pow_le_pow_right (by decide) (by omega)))]
    simp only [false_eq_decide_iff]
    omega

theorem testBit_mod_word (x j : Nat) :
    (x % 4294967296).testBit j = (decide (j < 32) && x.testBit j) :=
  Nat.testBit_mod_two_pow x 32 j

namespace Set

set_option maxRecDepth 8000 in
set_option maxHeartbeats 4000000 in
/-- Bit `j` of `binary_reverse(n)` is bit `31 - j` of `n`. -/
theorem binary_reverse_testBit (n j : Nat) (hj : j < 32) :
    (binary_reverse n).testBit j = n.testBit (31 - j) := by
  interval_cases j <;>
    simp [-Nat.testBit_zero, binary_reverse, INT_WIDTH, Nat.testBit_or, Nat.testBit_and,
      Nat.testBit_shiftLeft, Nat.testBit_shiftRight, testBit_mod_word, mask55_testBit,
      mask33_testBit, mask0f_testBit, maskff00_testBit]

end Set

end Amino

namespace Amino

theorem testBit_subset_le : ∀ (x y : Nat),
    (∀ j, x.testBit j = true → y.testBit j = true) → x ≤ y := by
  intro x
  induction x using Nat.strong_induction_on with
  | _ x ih =>
    intro y h
    by_cases hx : x = 0
    · omega
    · have h2 : x / 2 ≤ y / 2 := ih (x / 2) (by omega) (y / 2) (fun j hj => by
        rw [← Nat.testBit_succ] at hj ⊢
        exact h _ hj)
      have h0 := h 0
      simp only [Nat.testBit_zero, decide_eq_true_eq] at h0
      omega

theorem testBit_subset_lt (x y j0 : Nat)
    (h : ∀ j, x.testBit j = true → y.testBit j = true)
    (hx : x.testBit j0 = false) (hy : y.testBit j0 = true) : x < y := by
  have hle := testBit_subset_le x y h
  rcases Nat.lt_or_ge x y with hl | hg
  · exact hl
  · have e : x = y := Nat.le_antisymm hle hg
    rw [e, hy] at hx
    cases hx

namespace Set

theorem byte_swap_lt (m : Nat) (hm : m < 2 ^ INT_WIDTH) :
    ((m <<< 24) % 2 ^ INT_WIDTH) ||| ((m &&& 0xff00) <<< 8) ||| ((m >>> 8) &&& 0xff00)
      ||| (m >>> 24) < 2 ^ INT_WIDTH := by
  have h1 : (m &&& 0xff00) ≤ 0xff00 := Nat.and_le_right
  have h2 : ((m >>> 8) &&& 0xff00) ≤ 0xff00 := Nat.and_le_right
  refine Nat.or_lt_two_pow (Nat.or_lt_two_pow (Nat.or_lt_two_pow (Nat.mod_lt _ (by decide)) ?_)
    ?_) ?_
  · rw [Nat.shiftLeft_eq]
    unfold INT_WIDTH
    omega
  · unfold INT_WIDTH
    omega
  · rw [Nat.shiftRight_eq_div_pow]
    unfold INT_WIDTH at hm ⊢
    omega

theorem binary_reverse_lt (n : Nat) : binary_reverse n < 2 ^ INT_WIDTH := by
  unfold binary_reverse
  exact byte_swap_lt _ (Nat.mod_lt _ (by decide))

/-- `binary_reverse` is an involution on 32-bit values. -/
theorem binary_reverse_involutive (n : Nat) (hn : n < 2 ^ INT_WIDTH) :
    binary_reverse (binary_reverse n) = n := by
  apply Nat.eq_of_testBit_eq
  intro j
  by_cases hj : j < 32
  · rw [binary_reverse_testBit _ j hj, binary_reverse_testBit _ (31 - j) (by omega)]
    congr 1
    omega
  · have hp : 2 ^ INT_WIDTH ≤ 2 ^ j := Nat.pow_le_pow_right (by decide) (by unfold INT_WIDTH; omega)
    rw [Nat.testBit_lt_two_pow (lt_of_lt_of_le (binary_reverse_lt _) hp),
      Nat.testBit_lt_two_pow (lt_of_lt_of_le hn hp)]

/-- The order of two reversed values whose bits are contained in one another. -/
theorem binary_reverse_lt_of_subset (x y j0 : Nat) (hj0 : j0 < 32)
    (h : ∀ j, j < 32 → x.testBit j = true → y.testBit j = true)
    (hx : x.testBit j0 = false) (hy : y.testBit j0 = true) :
    binary_reverse x < binary_reverse y := by
  apply testBit_subset_lt _ _ (31 - j0)
  · intro j hj
    by_cases hj32 : j < 32
    · rw [binary_reverse_testBit _ j hj32] at hj ⊢
      exact h _ (by omega) hj
    · have hp : 2 ^ INT_WIDTH ≤ 2 ^ j :=
        Nat.pow_le_pow_right (by decide) (by unfold INT_WIDTH; omega)
      rw [Nat.testBit_lt_two_pow (lt_of_lt_of_le (binary_reverse_lt _) hp)] at hj
      cases hj
  · rw [binary_reverse_testBit _ _ (by omega)]
    have : 31 - (31 - j0) = j0 := by omega
    rw [this]
    exact hx
  · rw [binary_reverse_testBit _ _ (by omega)]
    have : 31 - (31 - j0) = j0 := by omega
    rw [this]
    exact hy

end Set

end Amino

namespace Amino

theorem smear_step (n m w : Nat)
    (h : ∀ j, m.testBit j = true ↔ ∃ t, t < w ∧ n.testBit (j + t) = true) :
    ∀ j, (m ||| (m >>> w)).testBit j = true ↔ ∃ t, t < 2 * w ∧ n.testBit (j + t) = true := by
  intro j
  rw [Nat.testBit_or, Nat.testBit_shiftRight, Bool.or_eq_true, h j, h (w + j)]
  constructor
  · rintro (⟨t, ht, hb⟩ | ⟨t, ht, hb⟩)
    · exact ⟨t, by omega, hb⟩
    · exact ⟨w + t, by omega, by rwa [show j + (w + t) = w + j + t by omega]⟩
  · rintro ⟨t, ht, hb⟩
    by_cases htw : t < w
    · exact Or.inl ⟨t, htw, hb⟩
    · exact Or.inr ⟨t - w, by omega, by rwa [show w + j + (t - w) = j + t by omega]⟩

theorem testBit_log2 (n : Nat) (hn : n ≠ 0) : n.testBit n.log2 = true := by
  have h1 := Nat.log2_self_le hn
  have h2 : n < 2 ^ (n.log2 + 1) := Nat.lt_log2_self
  rw [Nat.pow_succ] at h2
  have hd : n / 2 ^ n.log2 = 1 :=
    Nat.div_eq_of_lt_le (by omega) (by omega)
  rw [Nat.testBit_to_div_mod, hd]
  rfl

namespace Set

theorem smear_testBit (n n1 n2 n3 n4 n5 : Nat) (e1 : n1 = n ||| (n >>> 1))
    (e2 : n2 = n1 ||| (n1 >>> 2)) (e3 : n3 = n2 ||| (n2 >>> 4)) (e4 : n4 = n3 ||| (n3 >>> 8))
    (e5 : n5 = n4 ||| (n4 >>> 16)) :
    ∀ j, n5.testBit j = true ↔ ∃ t, t < 32 ∧ n.testBit (j + t) = true := by
  have h0 : ∀ j, n.testBit j = true ↔ ∃ t, t < 1 ∧ n.testBit (j + t) = true := fun j =>
    ⟨fun h => ⟨0, by omega, h⟩, fun ⟨t, ht, hb⟩ => by
      have : t = 0 := by omega
      subst this
      exact hb⟩
  have h1 := smear_step n n 1 h0
  rw [← e1] at h1
  have h2 := smear_step n n1 2 h1
  rw [← e2] at h2
  have h3 := smear_step n n2 4 h2
  rw [← e3] at h3
  have h4 := smear_step n n3 8 h3
  rw [← e4] at h4
  have h5 := smear_step n n4 16 h4
  rw [← e5] at h5
  exact h5

/-- `getLargestValue(n)` is the highest power of two that is not above `n`. -/
theorem getLargestValue_eq (n : Nat) (h0 : n ≠ 0) (hn : n < 2 ^ INT_WIDTH) :
    getLargestValue n = 2 ^ n.log2 := by
  have hL : n.log2 < 32 := (Nat.log2_lt h0).mpr hn
  have hlt : n < 2 ^ (n.log2 + 1) := Nat.lt_log2_self
  obtain ⟨n5, hn5, heq⟩ : ∃ n5, (∀ j, n5.testBit j = true ↔
      ∃ t, t < 32 ∧ n.testBit (j + t) = true) ∧ getLargestValue n = n5 - (n5 >>> 1) :=
    ⟨_, smear_testBit n _ _ _ _ _ rfl rfl rfl rfl rfl, rfl⟩
  have h5 : n5 = 2 ^ (n.log2 + 1) - 1 := by
    apply Nat.eq_of_testBit_eq
    intro j
    rw [Nat.testBit_two_pow_sub_one]
    by_cases hj : j < n.log2 + 1
    · rw [decide_eq_true hj]
      exact (hn5 j).mpr ⟨n.log2 - j, by omega, by
        rw [show j + (n.log2 - j) = n.log2 by omega]
        exact testBit_log2 n h0⟩
    · rw [decide_eq_false hj]
      cases hb : n5.testBit j with
      | false => rfl
      | true =>
        obtain ⟨t, _, ht⟩ := (hn5 j).mp hb
        have hp : 2 ^ (n.log2 + 1) ≤ 2 ^ (j + t) := Nat.pow_le_pow_right (by decide) (by omega)
        rw [Nat.testBit_lt_two_pow (lt_of_lt_of_le hlt hp)] at ht
        cases ht
  rw [heq, h5, Nat.shiftRight_eq_div_pow, Nat.pow_succ]
  have hp : 0 < 2 ^ n.log2 := Nat.pow_pos (by decide)
  omega

/-- `get_parent(bucket)` clears the highest set bit of `bucket`. -/
theorem get_parent_eq (b : Nat) (h0 : b ≠ 0) (hb : b < 2 ^ INT_WIDTH) :
    get_parent b = b % 2 ^ b.log2 ∧ get_parent b < b := by
  have h1 := Nat.log2_self_le h0
  have h2 : b < 2 ^ (b.log2 + 1) := Nat.lt_log2_self
  rw [Nat.pow_succ] at h2
  unfold get_parent
  rw [getLargestValue_eq b h0 hb]
  have hd : b / 2 ^ b.log2 = 1 := Nat.div_eq_of_lt_le (by omega) (by omega)
  have hm := Nat.div_add_mod b (2 ^ b.log2)
  rw [hd] at hm
  have hp : 0 < 2 ^ b.log2 := Nat.pow_pos (by decide)
  omega

end Set

end Amino

namespace Amino

namespace Set

/-- C37: for `1 <= i <= 31`, a 32-bit hash key `k` and the bucket
`k mod 2^i`, `dummyKey(bucket) < regularKey(k)` as unsigned 32-bit values; for
a 32-bit bucket `b > 0`, `get_parent(b) < b` and
`dummyKey(get_parent(b)) < dummyKey(b)`; `binary_reverse` maps bit `31 - j` to
bit `j`, stays below `2^32` and is its own inverse on 32-bit values. -/
theorem C37_split_order_keys_ascend (i k b : Nat) (hi1 : 1 ≤ i) (hi : i ≤ 31)
    (hk : k < 2 ^ INT_WIDTH) (hb0 : 0 < b) (hb : b < 2 ^ INT_WIDTH) :
    dummyKey (k % 2 ^ i) < regularKey k ∧ regularKey k < 2 ^ INT_WIDTH ∧
      get_parent b < b ∧ dummyKey (get_parent b) < dummyKey b ∧
      dummyKey b < 2 ^ INT_WIDTH ∧
      (∀ j, j < 32 → (binary_reverse k).testBit j = k.testBit (31 - j)) ∧
      binary_reverse k < 2 ^ INT_WIDTH ∧ binary_reverse (binary_reverse k) = k := by
  have hb0' : b ≠ 0 := by omega
  have hL : b.log2 < 32 := (Nat.log2_lt hb0').mpr hb
  have hp := get_parent_eq b hb0' hb
  refine ⟨?_, binary_reverse_lt _, hp.2, ?_, binary_reverse_lt _,
    fun j hj => binary_reverse_testBit k j hj, binary_reverse_lt _,
    binary_reverse_involutive k hk⟩
  · unfold dummyKey regularKey
    refine binary_reverse_lt_of_subset _ _ 31 (by decide) (fun j _ hj => ?_) ?_ ?_
    · rw [Nat.testBit_mod_two_pow, Bool.and_eq_true] at hj
      rw [Nat.testBit_or, hj.2, Bool.true_or]
    · rw [Nat.testBit_mod_two_pow, Bool.and_eq_false_iff]
      exact Or.inl (decide_eq_false (by omega))
    · rw [Nat.testBit_or]
      have : Nat.testBit 0x80000000 31 = true := by decide
      rw [this, Bool.or_true]
  · unfold dummyKey
    rw [hp.1]
    refine binary_reverse_lt_of_subset _ _ b.log2 hL (fun j _ hj => ?_) ?_
      (testBit_log2 b hb0')
    · rw [Nat.testBit_mod_two_pow, Bool.and_eq_true] at hj
      exact hj.2
    · rw [Nat.testBit_mod_two_pow, Bool.and_eq_false_iff]
      exact Or.inl (decide_eq_false (by omega))

theorem C37_split_order_keys_ascend_witness :
    dummyKey (13 % 2 ^ 3) < regularKey 13 ∧ regularKey 13 < 2 ^ INT_WIDTH ∧
      get_parent 6 < 6 ∧ dummyKey (get_parent 6) < dummyKey 6 ∧
      dummyKey 6 < 2 ^ INT_WIDTH ∧
      (∀ j, j < 32 → (binary_reverse 13).testBit j = (13 : Nat).testBit (31 - j)) ∧
      binary_reverse 13 < 2 ^ INT_WIDTH ∧ binary_reverse (binary_reverse 13) = 13 :=
  C37_split_order_keys_ascend 3 13 6 (by decide) (by decide) (by decide) (by decide) (by decide)

end Set

end Amino

namespace Amino

open OrderedList in
theorem sampleList357_reachable : Reachable 0 sampleList357 :=
  Reachable.insert 5 sampleList35 _ 0 7 true
    (Reachable.insert 5 sampleList3 _ 0 5 true
      (Reachable.insert 5 (OrderedList.init (SMR.init NHPOINTER 0)) _ 0 3 true
        (Reachable.init _ (SMR.init_wf NHPOINTER 0) rfl) rfl) rfl) rfl

open OrderedList in
/-- Witness of C5 on the list of 3, 5 and 7 that thread 0 builds by three
`insert` calls: `remove(5)` returns `true`, afterwards `search(5)` is `false`,
`search(3)` and `search(7)` are `true`, and the node of 5 is unlinked and handed
to `delNode`. -/
theorem C5_list_remove_witness :
    Reachable 0 sampleList357 ∧
    (search 5 sampleList357 0 5).map (fun r => r.2) = some true ∧
    (remove 5 sampleList357 0 5).map (fun r => r.2) = some true ∧
    ((remove 5 sampleList357 0 5).bind (fun r => search 5 r.1 0 5)).map (fun r => r.2)
      = some false ∧
    ((remove 5 sampleList357 0 5).bind (fun r => search 5 r.1 0 3)).map (fun r => r.2)
      = some true ∧
    ((remove 5 sampleList357 0 5).bind (fun r => search 5 r.1 0 7)).map (fun r => r.2)
      = some true ∧
    ∃ l ks, sampleList357.mm.heap.path NodeType.next sampleList357.head l 0 ∧
      chain sampleList357.mm.heap sampleList357.head ks ∧
      ∀ g, ∃ s' b l' ks', remove (ks.length + 2 + g) sampleList357 0 5 = some (s', b) ∧
        s'.mm.heap.path NodeType.next s'.head l' 0 ∧ chain s'.mm.heap s'.head ks' ∧
        (b = true ↔ (5 : Int) ∈ ks) ∧ (5 : Int) ∉ ks' ∧
        (∃ s'', search (ks'.length + 2 + g) s' 0 5 = some (s'', false)) ∧
        (∀ j, j ≠ 5 → (j ∈ ks' ↔ j ∈ ks)) ∧
        (b = true → ∃ c n r, c ∈ l ∧ sampleList357.mm.heap.cells c = some n ∧ n.data = 5 ∧
          c ∉ l' ∧ ¬ s'.mm.live c ∧ s'.mm.getRec (s'.mm.thread_local 0) = some r ∧
          c ∈ r.rlist) :=
  ⟨sampleList357_reachable, by decide, by decide, by decide, by decide, by decide,
    C5_list_remove 0 sampleList357 sampleList357_reachable 5⟩

namespace LockFreeDeque

open DequeBody (DOp DRes seqRun seqStep)

/-! ### The deque object: `mm` is never set -/

theorem deref_unset (s : LockFreeDeque) (h : s.mm = none) : s.deref = none := by
  unfold deref
  rw [h]

theorem pushRight_unset (fuel tid : Nat) (s : LockFreeDeque) (d : Int) (h : s.mm = none) :
    pushRight fuel s tid d = none := by
  unfold pushRight
  rw [deref_unset s h]

theorem pushLeft_unset (fuel tid : Nat) (s : LockFreeDeque) (d : Int) (h : s.mm = none) :
    pushLeft fuel s tid d = none := by
  unfold pushLeft
  rw [deref_unset s h]

theorem popRight_unset (fuel tid : Nat) (s : LockFreeDeque) (ret : Int) (h : s.mm = none) :
    popRight fuel s tid ret = none := by
  unfold popRight
  rw [deref_unset s h]

theorem popLeft_unset (fuel tid : Nat) (s : LockFreeDeque) (ret : Int) (h : s.mm = none) :
    popLeft fuel s tid ret = none := by
  unfold popLeft
  rw [deref_unset s h]

theorem peekRight_unset (fuel tid : Nat) (s : LockFreeDeque) (ret : Int) (h : s.mm = none) :
    peekRight fuel s tid ret = none := by
  unfold peekRight
  rw [deref_unset s h]

theorem peekLeft_unset (fuel tid : Nat) (s : LockFreeDeque) (ret : Int) (h : s.mm = none) :
    peekLeft fuel s tid ret = none := by
  unfold peekLeft
  rw [deref_unset s h]

theorem empty_null (fuel : Nat) (s : LockFreeDeque) (hl : s.anchor.getLeft = 0)
    (hr : s.anchor.getRight = 0) : s.empty (fuel + 1) = some true := by
  unfold empty
  rw [AnchorType.copyTo_spec]
  simp [hl, hr]

theorem size_null (fuel : Nat) (s : LockFreeDeque) (hl : s.anchor.getLeft = 0) :
    s.size (fuel + 1) = some 0 := by
  unfold size
  rw [AnchorType.copyTo_spec]
  simp [hl]

theorem step_unset (fuel tid : Nat) (s : LockFreeDeque) (op : DOp) (h : s.mm = none)
    (h1 : op ≠ .empty) (h2 : op ≠ .size) : step fuel tid s op = none := by
  cases op with
  | pushLeft d => simp only [step, pushLeft_unset fuel tid s d h]
  | pushRight d => simp only [step, pushRight_unset fuel tid s d h]
  | popLeft ret => simp only [step, popLeft_unset fuel tid s ret h]
  | popRight ret => simp only [step, popRight_unset fuel tid s ret h]
  | peekLeft ret => simp only [step, peekLeft_unset fuel tid s ret h]
  | peekRight ret => simp only [step, peekRight_unset fuel tid s ret h]
  | empty => exact absurd rfl h1
  | size => exact absurd rfl h2

theorem step_same (fuel tid : Nat) (s s' : LockFreeDeque) (op : DOp) (r : DRes)
    (h : s.mm = none) (hs : step fuel tid s op = some (s', r)) : s' = s := by
  by_cases h1 : op = .empty
  · subst h1
    simp only [step] at hs
    split at hs
    · cases hs
    · cases hs
      rfl
  · by_cases h2 : op = .size
    · subst h2
      simp only [step] at hs
      split at hs
      · cases hs
      · cases hs
        rfl
    · rw [step_unset fuel tid s op h h1 h2] at hs
      cases hs

/-- A deque that one thread has constructed and called is still as the
constructor left it: `mm` is not set and the anchor is `<NULL, NULL, STABLE>`. -/
theorem Reachable.unset {tid : Nat} {s : LockFreeDeque} (hr : Reachable tid s) :
    s.mm = none ∧ s.anchor = AnchorType.uninitialised.init := by
  induction hr with
  | init m => exact ⟨rfl, rfl⟩
  | step fuel s s' op r _ hs ih =>
    rw [step_same fuel tid s s' op r ih.1 hs]
    exact ih

theorem Reachable.null {tid : Nat} {s : LockFreeDeque} (hr : Reachable tid s) :
    s.anchor.getLeft = 0 ∧ s.anchor.getRight = 0 ∧ s.anchor.getStatus = STABLE := by
  rw [hr.unset.2]
  exact ⟨by decide, by decide, by decide⟩

theorem run_queries (m : SMR DNode) (fuel tid : Nat) : ∀ ops : List DOp,
    (∀ op ∈ ops, op = .empty ∨ op = .size) →
    run (fuel + 1) tid ops (LockFreeDeque.init m) = some (LockFreeDeque.init m, seqRun ops []) := by
  intro ops
  induction ops with
  | nil => intro _; rfl
  | cons op ops ih =>
    intro h
    have ih' := ih (fun o ho => h o (List.mem_cons_of_mem _ ho))
    have hn := (Reachable.init m : Reachable tid (LockFreeDeque.init m)).null
    have he := empty_null fuel (LockFreeDeque.init m) hn.1 hn.2.1
    have hz := size_null fuel (LockFreeDeque.init m) hn.1
    rcases h op (List.mem_cons_self _ _) with e | e
    · subst e
      simp only [run, step, he, ih', seqRun, seqStep, List.isEmpty_nil]
    · subst e
      simp only [run, step, hz, ih', seqRun, seqStep, List.length_nil]

theorem run_unset (fuel tid : Nat) : ∀ (ops : List DOp) (s : LockFreeDeque), s.mm = none →
    (∃ op ∈ ops, op ≠ .empty ∧ op ≠ .size) → run fuel tid ops s = none := by
  intro ops
  induction ops with
  | nil => intro s _ ⟨op, ho, _⟩; cases ho
  | cons op ops ih =>
    intro s hs h
    unfold run
    cases hst : step fuel tid s op with
    | none => rfl
    | some x =>
      obtain ⟨s1, r⟩ := x
      have e1 := step_same fuel tid s s1 op r hs hst
      subst e1
      have hrest : ∃ o ∈ ops, o ≠ .empty ∧ o ≠ .size := by
        obtain ⟨o, ho, hne⟩ := h
        rcases List.mem_cons.mp ho with e | e
        · subst e
          rw [step_unset fuel tid s1 o hs hne.1 hne.2] at hst
          cases hst
        · exact ⟨o, e, hne⟩
      simp only [ih s1 hs hrest]

end LockFreeDeque

end Amino

namespace Amino

namespace LockFreeDeque

open DequeBody (DOp DRes seqRun seqStep mkAnchor)

/-- C3 (the code departs from it): the constructor assigns the reclamation
state to the name `m` and leaves the member `mm` unset, so on a newly
constructed deque every sequence of calls that holds a `pushLeft`,
`pushRight`, `popLeft`, `popRight`, `peekLeft` or `peekRight` call reads
through the unset `mm` and does not return, whatever the number of passes
allowed; only sequences of `empty` and `size` calls return, with the results of
the mathematical sequence. -/
theorem C3_deque_calls_read_unset_mm (m : SMR DNode) (fuel tid : Nat) (ops : List DOp) :
    ((∀ op ∈ ops, op = .empty ∨ op = .size) →
      run (fuel + 1) tid ops (LockFreeDeque.init m)
        = some (LockFreeDeque.init m, seqRun ops [])) ∧
    ((∃ op ∈ ops, op ≠ .empty ∧ op ≠ .size) →
      run fuel tid ops (LockFreeDeque.init m) = none) :=
  ⟨run_queries m fuel tid ops, run_unset fuel tid ops (LockFreeDeque.init m) rfl⟩

theorem C3_deque_calls_read_unset_mm_witness :
    run 3 0 [.empty, .size] (LockFreeDeque.init (SMR.init 3 0))
        = some (LockFreeDeque.init (SMR.init 3 0), [.flag true, .count 0]) ∧
      run 3 0 [.pushRight 1, .popLeft 0] (LockFreeDeque.init (SMR.init 3 0)) = none ∧
      seqRun [.pushRight 1, .popLeft 0] [] = [.done, .value true 1] :=
  ⟨(C3_deque_calls_read_unset_mm (SMR.init 3 0) 2 0 [.empty, .size]).1 (by decide),
    (C3_deque_calls_read_unset_mm (SMR.init 3 0) 3 0 [.pushRight 1, .popLeft 0]).2
      ⟨.pushRight 1, by decide, by decide, by decide⟩,
    by decide⟩

/-- C9 (the code departs from it): on a queue `q` for which `empty()` is
`true`, `dequeue` and `peekFront` return `false`, and on a list `l` whose
`head` is `NULL`, `front` returns `false`, the out-parameter and the container
unchanged.  On a newly constructed deque, for which `empty()` returns `true`,
`popLeft`, `popRight`, `peekLeft` and `peekRight` do not return `false`: each
begins with `mm->getHPRec()` and the constructor has not set `mm`. -/
theorem C9_empty_deque_calls_read_unset_mm (q : LockFreeQueue) (l : OrderedList)
    (m : SMR DNode) (hq : q.empty = some true) (hl : l.empty = true) (fuel tid : Nat)
    (ret : Int) :
    (∃ q', LockFreeQueue.dequeue (fuel + 1) q tid ret = some (q', ret, false) ∧
      q'.head = q.head ∧ q'.tail = q.tail ∧ q'.mm.heap = q.mm.heap) ∧
    (∃ q', LockFreeQueue.peekFront (fuel + 1) q tid ret = some (q', ret, false) ∧
      q'.head = q.head ∧ q'.tail = q.tail ∧ q'.mm.heap = q.mm.heap) ∧
    l.front ret = some (ret, false) ∧
    (LockFreeDeque.init m).empty (fuel + 1) = some true ∧
    ∀ n, popLeft n (LockFreeDeque.init m) tid ret = none ∧
      popRight n (LockFreeDeque.init m) tid ret = none ∧
      peekLeft n (LockFreeDeque.init m) tid ret = none ∧
      peekRight n (LockFreeDeque.init m) tid ret = none := by
  have h := empty_queue_list_calls q l hq hl fuel tid ret
  have hn := (Reachable.init m : Reachable tid (LockFreeDeque.init m)).null
  exact ⟨h.1, h.2.1, h.2.2, empty_null fuel _ hn.1 hn.2.1, fun n =>
    ⟨popLeft_unset n tid _ ret rfl, popRight_unset n tid _ ret rfl,
      peekLeft_unset n tid _ ret rfl, peekRight_unset n tid _ ret rfl⟩⟩

theorem C9_empty_deque_calls_read_unset_mm_witness :
    (∃ q', LockFreeQueue.dequeue 1 (LockFreeQueue.init (SMR.init 2 0)) 0 7 = some (q', 7, false) ∧
      q'.head = (LockFreeQueue.init (SMR.init 2 0)).head ∧
      q'.tail = (LockFreeQueue.init (SMR.init 2 0)).tail ∧
      q'.mm.heap = (LockFreeQueue.init (SMR.init 2 0)).mm.heap) ∧
    (∃ q', LockFreeQueue.peekFront 1 (LockFreeQueue.init (SMR.init 2 0)) 0 7
        = some (q', 7, false) ∧
      q'.head = (LockFreeQueue.init (SMR.init 2 0)).head ∧
      q'.tail = (LockFreeQueue.init (SMR.init 2 0)).tail ∧
      q'.mm.heap = (LockFreeQueue.init (SMR.init 2 0)).mm.heap) ∧
    (OrderedList.init (SMR.init NHPOINTER 0)).front 7 = some (7, false) ∧
    (LockFreeDeque.init (SMR.init 3 0)).empty 1 = some true ∧
    ∀ n, popLeft n (LockFreeDeque.init (SMR.init 3 0)) 0 7 = none ∧
      popRight n (LockFreeDeque.init (SMR.init 3 0)) 0 7 = none ∧
      peekLeft n (LockFreeDeque.init (SMR.init 3 0)) 0 7 = none ∧
      peekRight n (LockFreeDeque.init (SMR.init 3 0)) 0 7 = none :=
  C9_empty_deque_calls_read_unset_mm (LockFreeQueue.init (SMR.init 2 0))
    (OrderedList.init (SMR.init NHPOINTER 0)) (SMR.init 3 0) (by decide) (by decide) 0 0 7

end LockFreeDeque

end Amino
